import Mathlib

/-!
Bytecode assembler core of gsc-tool (ARC and GSC families)

A shallow embedding of `src/arc/assembler.cpp` and of the switch-table part of
`src/gsc/assembler.cpp`, followed by theorems about the layout pass, the
emission pass and the switch tables.

Conventions of the embedding

* `usize` offsets and sizes are natural numbers; a subtraction of offsets that
  the source then narrows (`static_cast<i16>`, `static_cast<i32>`,
  `static_cast<u32>`) is reduced modulo the width of the target type, which is
  what wrapping 64-bit arithmetic followed by the narrowing cast yields.
* `std::string` operands are `String`; the bytes of a string are its UTF-8
  encoding (`str_bytes`).
* `inst.data[k]` with `k` past the end of the operand vector (undefined
  behaviour in the source) is the error `asm_error.missing_operand`.
* a C++ exception is an `Except.error`; every function that can throw returns
  `Except asm_error _`.
-/

namespace xsk

/-- Every way an assembler call can end without a result. The first four are
the `asm_error`s thrown by the assemblers, the next two the exceptions of
`std::stoi` / `std::stoul`, then the context and writer failures named by the
specification, and last the out-of-range operand access. -/
inductive asm_error where
  | unhandled_opcode
  | unresolved_label
  | unresolved_string
  | invalid_switch_case
  | invalid_argument
  | out_of_range
  | unknown_opcode
  | buffer_overflow
  | missing_operand
  | unresolved_function
  deriving DecidableEq, Repr

/-! ## Text operands -/

/-- UTF-8 bytes of one character. -/
def utf8_char (c : Char) : List Nat :=
  let n := c.toNat
  if n < 128 then [n]
  else if n < 2048 then [192 + n / 64, 128 + n % 64]
  else if n < 65536 then [224 + n / 4096, 128 + n / 64 % 64, 128 + n % 64]
  else [240 + n / 262144, 128 + n / 4096 % 64, 128 + n / 64 % 64, 128 + n % 64]

/-- Bytes of a `std::string` given as text. -/
def str_bytes (s : String) : List Nat :=
  (s.data.map utf8_char).flatten

/-- C `isspace` in the "C" locale. -/
def isspace (b : Nat) : Bool :=
  b == 32 || (9 ≤ b && b ≤ 13)

/-- Value of a byte as a digit of the given base, as `strtol` reads it. -/
def digit_value (base b : Nat) : Option Nat :=
  let d := if 48 ≤ b ∧ b ≤ 57 then b - 48
    else if 97 ≤ b ∧ b ≤ 122 then b - 87
    else if 65 ≤ b ∧ b ≤ 90 then b - 55
    else 36
  if d < base then some d else none

/-- Drop leading white space. -/
def skip_space : List Nat → List Nat
  | [] => []
  | b :: bs => if isspace b then skip_space bs else b :: bs

/-- Optional sign: `true` when a minus sign was read. -/
def read_sign : List Nat → Bool × List Nat
  | 45 :: bs => (true, bs)
  | 43 :: bs => (false, bs)
  | bs => (false, bs)

/-- Does the text start with a digit of the base? -/
def has_digit (base : Nat) : List Nat → Bool
  | [] => false
  | b :: _ => (digit_value base b).isSome

/-- Value of the longest run of leading digits. -/
def accum_digits (base : Nat) : List Nat → Nat → Nat
  | [], acc => acc
  | b :: bs, acc =>
    match digit_value base b with
    | some d => accum_digits base bs (acc * base + d)
    | none => acc

/-- The optional `0x` / `0X` that base 16 accepts in front of a hex digit. -/
def strip_0x (base : Nat) (bs : List Nat) : List Nat :=
  match bs with
  | 48 :: x :: rest =>
    if base = 16 ∧ (x = 120 ∨ x = 88) ∧ has_digit 16 rest then rest else bs
  | _ => bs

/-- The subject sequence of `strtol` / `strtoul`: sign and magnitude, or
`none` when no conversion can be performed. Trailing text is ignored. -/
def strto (base : Nat) (s : List Nat) : Option (Bool × Nat) :=
  let r := read_sign (skip_space s)
  let ds := strip_0x base r.2
  if has_digit base ds then some (r.1, accum_digits base ds 0) else none

/-- `std::stoi(str)`: a 32-bit `int`. -/
def stoi (s : String) : Except asm_error Int :=
  match strto 10 (str_bytes s) with
  | none => .error .invalid_argument
  | some (neg, m) =>
    let v : Int := if neg then -(m : Int) else (m : Int)
    if v < -2147483648 ∨ 2147483647 < v then .error .out_of_range else .ok v

/-- `std::stoul(str, nullptr, base)` with a 64-bit `unsigned long`: a minus
sign negates modulo `2^64`. -/
def stoul_base (base : Nat) (s : List Nat) : Except asm_error Nat :=
  match strto base s with
  | none => .error .invalid_argument
  | some (neg, m) =>
    if 18446744073709551616 ≤ m then .error .out_of_range
    else .ok (if neg then (18446744073709551616 - m) % 18446744073709551616 else m)

/-- `std::stoul(str)`. -/
def stoul (s : String) : Except asm_error Nat :=
  stoul_base 10 (str_bytes s)

/-- `inst.data[k]`. -/
def operand (data : List String) (k : Nat) : Except asm_error String :=
  match data[k]? with
  | some s => .ok s
  | none => .error .missing_operand

/-- `static_cast<u8>` of an `int`. -/
def to_u8 (v : Int) : Nat := (v % 256).toNat

/-- `static_cast<u16>` of an `int`. -/
def to_u16 (v : Int) : Nat := (v % 65536).toNat

/-- `static_cast<u32>` / `static_cast<i32>` of an `int`: the 32-bit pattern. -/
def to_u32 (v : Int) : Nat := (v % 4294967296).toNat

/-- The integer a 16-bit pattern stands for when read as `i16`. -/
def as_i16 (r : Nat) : Int := if r < 32768 then (r : Int) else (r : Int) - 65536

/-- The integer a 32-bit pattern stands for when read as `i32`. -/
def as_i32 (r : Nat) : Int := if r < 2147483648 then (r : Int) else (r : Int) - 4294967296

/-- The pattern of `a - b` computed in `usize` and narrowed to `bits` bits. -/
def usize_diff (bits a b : Nat) : Nat :=
  (((a : Int) - (b : Int)) % (2 ^ bits : Nat)).toNat

/-! ## Byte writer -/

namespace utils

/-- Modelled from the spec: the byte writer `utils::writer` (`xsk/utils/writer.hpp`
is not among the sources). A byte store with a cursor: `data i` is the byte at
offset `i`, zero wherever nothing was written; `swap` is set for big-endian
contexts; `size` is the fixed capacity past which a write fails. `writes` is
bookkeeping only: the offset and width of every write performed since the last
`clear`, oldest first; no operation reads it. -/
structure writer where
  data : Nat → Nat
  pos : Nat
  swap : Bool
  size : Nat
  writes : List (Nat × Nat)

namespace writer

/-- Modelled from the spec: a writer of the given capacity, nothing written. -/
def create (swap : Bool) (size : Nat) : writer :=
  { data := fun _ => 0, pos := 0, swap := swap, size := size, writes := [] }

/-- Modelled from the spec: `clear()`, back to the empty zeroed buffer. -/
def clear (w : writer) : writer :=
  { w with data := fun _ => 0, pos := 0, writes := [] }

/-- Modelled from the spec: `pos(n)`, absolute positioning of the cursor. -/
def set_pos (w : writer) (n : Nat) : writer :=
  { w with pos := n }

/-- Modelled from the spec: `seek(n)` advances the cursor by `n` bytes without
writing; the bytes skipped are zero unless written earlier. -/
def seek (w : writer) (n : Nat) : writer :=
  { w with pos := w.pos + n }

/-- The next multiple of `n` at or after `p`. -/
def align_up (p n : Nat) : Nat :=
  (p + (n - 1)) / n * n

/-- Modelled from the spec: `align(n)` advances the cursor to the next multiple
of `n` and returns the number of pad bytes skipped. -/
def align (w : writer) (n : Nat) : Nat × writer :=
  (align_up w.pos n - w.pos, { w with pos := align_up w.pos n })

/-- Byte `k` (in buffer order) of the `width`-byte integer `v`. -/
def byte_at (swap : Bool) (width v k : Nat) : Nat :=
  if swap then v / 256 ^ (width - 1 - k) % 256 else v / 256 ^ k % 256

/-- The bytes of a `width`-byte integer in the writer's byte order. -/
def int_bytes (swap : Bool) (width v : Nat) : List Nat :=
  (List.range width).map (byte_at swap width v)

/-- Store a run of bytes at the cursor and advance past it; fails when the
run extends past the capacity. -/
def put (w : writer) (bs : List Nat) : Except asm_error writer :=
  if w.size < w.pos + bs.length then .error .buffer_overflow
  else .ok { w with
    data := fun i => if w.pos ≤ i ∧ i < w.pos + bs.length then bs.getD (i - w.pos) 0 else w.data i
    pos := w.pos + bs.length
    writes := w.writes ++ [(w.pos, bs.length)] }

/-- Modelled from the spec: `write<T>(v)` for an integer type of `width` bytes,
in the writer's byte order. -/
def write (w : writer) (width v : Nat) : Except asm_error writer :=
  w.put (int_bytes w.swap width v)

/-- Modelled from the spec: `write_cstr(s)`, the bytes of `s` then a NUL. -/
def write_cstr (w : writer) (s : List Nat) : Except asm_error writer :=
  w.put (s ++ [0])

/-- The integer stored in the `width` bytes at `off`, least significant first. -/
def read_le (data : Nat → Nat) (off : Nat) : Nat → Nat
  | 0 => 0
  | width + 1 => data off + 256 * read_le data (off + 1) width

/-- The integer stored in the `width` bytes at `off`, most significant first. -/
def read_be (data : Nat → Nat) (off : Nat) : Nat → Nat
  | 0 => 0
  | width + 1 => data off * 256 ^ width + read_be data (off + 1) width

/-- The integer stored in the `width` bytes at `off`, in the writer's byte order. -/
def read (w : writer) (off width : Nat) : Nat :=
  if w.swap then read_be w.data off width else read_le w.data off width

/-- The written prefix `buffer(data(), pos())`. -/
def bytes (w : writer) : List Nat :=
  (List.range w.pos).map w.data

end writer

end utils

/-- A `DecidableEq` for results, so that closed statements about them can be
evaluated. -/
instance instDecidableEqExcept {ε α : Type} [DecidableEq ε] [DecidableEq α] :
    DecidableEq (Except ε α)
  | .ok a, .ok b => if h : a = b then isTrue (by rw [h]) else isFalse (fun e => h (by cases e; rfl))
  | .error a, .error b =>
    if h : a = b then isTrue (by rw [h]) else isFalse (fun e => h (by cases e; rfl))
  | .ok _, .error _ => isFalse (fun e => by cases e)
  | .error _, .ok _ => isFalse (fun e => by cases e)

/-- `a - b` in 64-bit `usize` arithmetic. -/
def usize_sub (a b : Nat) : Nat :=
  (((a : Int) - (b : Int)) % 18446744073709551616).toNat

/-- `static_cast<switch_type>(n)` of an `unsigned long`: the enumeration has
underlying type `int`, so only the low 32 bits are kept. The enumerators are
`none = 0`, `integer = 1`, `string = 2` (`arc/common/types.hpp`). -/
def to_switch_type (n : Nat) : Nat := n % 4294967296

/-- `switch_type::integer`. -/
def switch_type_integer : Nat := 1

/-- `switch_type::string`. -/
def switch_type_string : Nat := 2

/-- `func_->labels`, a `std::unordered_map<usize, std::string>`: a list of
(offset, name) entries with pairwise distinct offsets, in iteration order. -/
abbrev label_map := List (Nat × String)

/-- `labels.find(key)`. -/
def labels_find (labels : label_map) (key : Nat) : Option String :=
  (labels.find? (fun e => e.1 == key)).map Prod.snd

/-- `labels.insert({ key, name })`: no effect when the key is present. -/
def labels_insert (labels : label_map) (key : Nat) (name : String) : label_map :=
  if labels.any (fun e => e.1 == key) then labels else labels ++ [(key, name)]

/-- `assembler::resolve_label` (the same in both families): linear search of
the current function's label map for an entry whose name matches. -/
def resolve_label (labels : label_map) (name : String) : Except asm_error Nat :=
  match labels.find? (fun e => e.2 == name) with
  | some e => .ok e.1
  | none => .error .unresolved_label

namespace arc

/-- The `opcode` tags the ARC assembler handles, in the order of its switch;
`OP_Invalid` stands for every other enumerator (the `default:` branch). -/
inductive opcode where
  | OP_End | OP_Return | OP_GetUndefined | OP_GetZero
  | OP_GetLevelObject | OP_GetAnimObject | OP_GetSelf | OP_GetLevel
  | OP_GetGame | OP_GetAnim | OP_GetGameRef | OP_CreateLocalVariable
  | OP_EvalArray | OP_EvalArrayRef | OP_ClearArray | OP_EmptyArray
  | OP_GetSelfObject | OP_SafeSetVariableFieldCached | OP_ClearParams | OP_CheckClearParams
  | OP_SetVariableField | OP_Wait | OP_WaitTillFrameEnd | OP_PreScriptCall
  | OP_DecTop | OP_CastFieldObject | OP_CastBool | OP_BoolNot
  | OP_BoolComplement | OP_Inc | OP_Dec | OP_Bit_Or
  | OP_Bit_Xor | OP_Bit_And | OP_Equal | OP_NotEqual
  | OP_LessThan | OP_GreaterThan | OP_LessThanOrEqualTo | OP_GreaterThanOrEqualTo
  | OP_ShiftLeft | OP_ShiftRight | OP_Plus | OP_Minus
  | OP_Multiply | OP_Divide | OP_Modulus | OP_SizeOf
  | OP_WaitTill | OP_Notify | OP_EndOn | OP_VoidCodePos
  | OP_Vector | OP_RealWait | OP_IsDefined | OP_VectorScale
  | OP_AnglesToUp | OP_AnglesToRight | OP_AnglesToForward | OP_AngleClamp180
  | OP_VectorToAngles | OP_Abs | OP_GetTime | OP_GetDvar
  | OP_GetDvarInt | OP_GetDvarFloat | OP_GetDvarVector | OP_GetDvarColorRed
  | OP_GetDvarColorGreen | OP_GetDvarColorBlue | OP_GetDvarColorAlpha | OP_FirstArrayKey
  | OP_NextArrayKey | OP_ProfileStart | OP_ProfileStop | OP_SafeDecTop
  | OP_Nop | OP_Abort | OP_Object | OP_ThreadObject
  | OP_EvalLocalVariable | OP_EvalLocalVariableRef | OP_GetByte | OP_GetNegByte
  | OP_GetUnsignedShort | OP_GetNegUnsignedShort | OP_GetInteger | OP_GetFloat
  | OP_GetVector | OP_GetString | OP_GetIString | OP_GetAnimation
  | OP_WaitTillMatch | OP_VectorConstant | OP_GetHash | OP_SafeCreateLocalVariables
  | OP_RemoveLocalVariables | OP_EvalLocalVariableCached | OP_EvalLocalArrayRefCached | OP_SafeSetWaittillVariableFieldCached
  | OP_EvalLocalVariableRefCached | OP_EvalFieldVariable | OP_EvalFieldVariableRef | OP_ClearFieldVariable
  | OP_ScriptFunctionCallPointer | OP_ScriptMethodCallPointer | OP_ScriptThreadCallPointer | OP_ScriptMethodThreadCallPointer
  | OP_GetFunction | OP_CallBuiltin | OP_CallBuiltinMethod | OP_ScriptFunctionCall
  | OP_ScriptMethodCall | OP_ScriptThreadCall | OP_ScriptMethodThreadCall | OP_JumpOnFalse
  | OP_JumpOnTrue | OP_JumpOnFalseExpr | OP_JumpOnTrueExpr | OP_Jump
  | OP_JumpBack | OP_DevblockBegin | OP_Switch | OP_EndSwitch
  | OP_Invalid
  deriving DecidableEq, Repr

/-- Values of `build` (`arc/common/types.hpp`). -/
inductive build where
  | prod
  | dev_blocks
  | dev_maps
  | dev
  deriving DecidableEq, Repr

/-- The test `(ctx_->build() & build::dev_maps) != build::prod`. -/
def build.has_dev_maps : build → Bool
  | .dev_maps => true
  | .dev => true
  | _ => false

/-- Values of `endian`. -/
inductive endian where
  | little
  | big
  deriving DecidableEq, Repr

namespace props

/-- Bit `header64` of `props::values`. -/
def header64 : Nat := 4
/-- Bit `header72`. -/
def header72 : Nat := 8
/-- Bit `headerxx`. -/
def headerxx : Nat := 16
/-- Bit `size64`. -/
def size64 : Nat := 32
/-- Bit `hashids`. -/
def hashids : Nat := 64
/-- Bit `devstr`. -/
def devstr : Nat := 128

end props

/-- The conversion to `bool` of `ctx_->props() & flag`. -/
def has_prop (p flag : Nat) : Bool := (p &&& flag) != 0

/-- The queries of `arc::context` the assembler uses (`xsk/arc/context.hpp` and
the engine tables are not among the sources, so they are parameters).
`opcode_id` is `none` where the lookup fails with an unknown opcode; `stof`
stands for `std::stof` followed by the bit pattern of the `f32` (floating
point is not modelled), `none` where `std::stof` throws. -/
structure context where
  props : Nat
  endian : endian
  build : build
  magic : Nat
  opcode_id : opcode → Option Nat
  opcode_size : opcode → Nat
  hash_id : String → Nat
  stof : String → Option Nat

/-- Source position of an instruction. -/
structure position where
  line : Nat
  column : Nat
  deriving DecidableEq, Repr

/-- An `instruction` of the assembly IR. -/
structure instruction where
  opcode : opcode
  pos : position
  index : Nat
  size : Nat
  data : List String
  deriving DecidableEq, Repr

/-- A `function` of the assembly IR. -/
structure function where
  index : Nat
  size : Nat
  params : Nat
  flags : Nat
  name : String
  instructions : List instruction
  labels : label_map
  deriving DecidableEq, Repr

/-- The `assembly` IR. -/
structure assembly where
  functions : List function
  includes : List String
  deriving DecidableEq, Repr

/-- Values of `string_type`. -/
inductive string_type where
  | literal
  | canonical
  deriving DecidableEq, Repr

/-- Modelled from the spec: `static_cast<u8>(type)`, the enumerators in the
order the data model lists them (the declaration is not among the sources). -/
def string_type.code : string_type → Nat
  | .literal => 0
  | .canonical => 1

/-- One export record. -/
structure export_ref where
  checksum : Nat
  offset : Nat
  name : String
  space : String
  params : Nat
  flags : Nat
  deriving DecidableEq, Repr

/-- One import record. -/
structure import_ref where
  space : String
  name : String
  params : Nat
  flags : Nat
  refs : List Nat
  deriving DecidableEq, Repr

/-- One string fixup record. -/
structure string_ref where
  name : String
  type : string_type
  refs : List Nat
  deriving DecidableEq, Repr

/-- An animation of an animtree record. -/
structure animation_ref where
  name : String
  ref : Nat
  deriving DecidableEq, Repr

/-- One animtree record. -/
structure animtree_ref where
  name : String
  refs : List Nat
  anims : List animation_ref
  deriving DecidableEq, Repr

/-- The mutable members of `arc::assembler`. `strpool` is the
`std::unordered_map<std::string, u16>` as a list of (string, offset) entries. -/
structure assembler where
  script : utils.writer
  devmap : utils.writer
  strpool : List (String × Nat)
  exports : List export_ref
  imports : List import_ref
  strings : List string_ref
  anims : List animtree_ref
  devmap_count : Nat

/-- The constructor `assembler(ctx)`; `size` is the capacity of its writers. -/
def assembler.create (ctx : context) (size : Nat) : assembler :=
  { script := utils.writer.create (ctx.endian == endian.big) size
    devmap := utils.writer.create false size
    strpool := []
    exports := []
    imports := []
    strings := []
    anims := []
    devmap_count := 0 }

/-- `script_.seek(n)`. -/
def assembler.seek (self : assembler) (n : Nat) : assembler :=
  { self with script := self.script.seek n }

/-- `script_.align(n)`: the pad and the assembler after it. -/
def assembler.align (self : assembler) (n : Nat) : Nat × assembler :=
  ((self.script.align n).1, { self with script := (self.script.align n).2 })

/-- `script_.write<T>(v)` for a `width`-byte integer. -/
def assembler.write (self : assembler) (width v : Nat) : Except asm_error assembler :=
  match self.script.write width v with
  | .ok w => .ok { self with script := w }
  | .error e => .error e

/-- `assembler::add_stringref` on the list `strings_`. -/
def add_stringref (str : String) (type : string_type) (ref : Nat) :
    List string_ref → List string_ref
  | [] => [{ name := str, type := type, refs := [ref] }]
  | entry :: rest =>
    if entry.name = str ∧ entry.type = type then
      { entry with refs := entry.refs ++ [ref] } :: rest
    else entry :: add_stringref str type ref rest

/-- The condition of the loop of `add_importref`, with the short-circuit
evaluation of `&&`. -/
def import_matches (entry : import_ref) (data : List String) : Except asm_error Bool := do
  let d0 ← operand data 0
  if entry.space = d0 then
    let d1 ← operand data 1
    if entry.name = d1 then
      let d2 ← operand data 2
      let p ← stoi d2
      if (entry.params : Int) = p then
        let d3 ← operand data 3
        let f ← stoi d3
        pure (decide ((entry.flags : Int) = f))
      else pure false
    else pure false
  else pure false

/-- `assembler::add_importref` on the list `imports_`. -/
def add_importref (data : List String) (ref : Nat) :
    List import_ref → Except asm_error (List import_ref)
  | [] => do
    let d0 ← operand data 0
    let d1 ← operand data 1
    let d2 ← operand data 2
    let p ← stoi d2
    let d3 ← operand data 3
    let f ← stoi d3
    pure [{ space := d0, name := d1, params := to_u8 p, flags := to_u8 f, refs := [ref] }]
  | entry :: rest => do
    let found ← import_matches entry data
    if found then pure ({ entry with refs := entry.refs ++ [ref] } :: rest)
    else
      let rest1 ← add_importref data ref rest
      pure (entry :: rest1)

/-- `assembler::add_animref` on the list `anims_`. -/
def add_animref (data : List String) (ref : Nat) :
    List animtree_ref → Except asm_error (List animtree_ref)
  | [] => do
    let d0 ← operand data 0
    let d1 ← operand data 1
    if d1 = "-1" then pure [{ name := d0, refs := [ref], anims := [] }]
    else pure [{ name := d0, refs := [], anims := [{ name := d1, ref := ref }] }]
  | entry :: rest => do
    let d0 ← operand data 0
    if entry.name = d0 then
      let d1 ← operand data 1
      if d1 = "-1" then pure ({ entry with refs := entry.refs ++ [ref] } :: rest)
      else pure ({ entry with anims := entry.anims ++ [{ name := d1, ref := ref }] } :: rest)
    else
      let rest1 ← add_animref data ref rest
      pure (entry :: rest1)

/-- `assembler::resolve_string`. -/
def resolve_string (self : assembler) (name : String) : Except asm_error Nat :=
  match self.strpool.find? (fun e => e.1 == name) with
  | some e => .ok e.2
  | none => .error .unresolved_string

/-- `assembler::process_string`: the offset is kept as a `u16`. -/
def process_string (self : assembler) (data : String) : Except asm_error assembler :=
  if self.strpool.any (fun e => e.1 == data) then .ok self
  else do
    let pos := self.script.pos % 65536
    let script ← self.script.write_cstr (str_bytes data)
    pure { self with script := script, strpool := self.strpool ++ [(data, pos)] }

/-- The loop `for (auto const& entry : inst.data) process_string(entry)`. -/
def process_strings : List String → assembler → Except asm_error assembler
  | [], self => .ok self
  | entry :: rest, self => do
    let self1 ← process_string self entry
    process_strings rest self1

/-- The loop of the `OP_EndSwitch` case of `process_instruction`: `n` entries
are left, `i` is the loop counter. -/
def process_switch_cases (data : List String) : Nat → Nat → assembler → Except asm_error assembler
  | 0, _, self => .ok self
  | n + 1, i, self => do
    let head ← operand data (1 + 4 * i)
    if head = "case" then
      let t ← operand data (1 + 4 * i + 1)
      let type ← stoul t
      if to_switch_type type = switch_type_string then
        let name ← operand data (1 + 4 * i + 2)
        let self1 ← process_string self name
        process_switch_cases data n (i + 1) self1
      else process_switch_cases data n (i + 1) self
    else process_switch_cases data n (i + 1) self

/-- `assembler::process_instruction`: pools the strings an instruction names. -/
def process_instruction (self : assembler) (inst : instruction) : Except asm_error assembler :=
  match inst.opcode with
  | .OP_GetInteger =>
    if inst.data.length = 2 then do
      let d0 ← operand inst.data 0
      process_string self d0
    else .ok self
  | .OP_GetString | .OP_GetIString => do
    let d0 ← operand inst.data 0
    process_string self d0
  | .OP_GetAnimation => do
    let d0 ← operand inst.data 0
    let self1 ← process_string self d0
    let d1 ← operand inst.data 1
    process_string self1 d1
  | .OP_SafeCreateLocalVariables => process_strings inst.data self
  | .OP_EvalFieldVariable | .OP_EvalFieldVariableRef | .OP_ClearFieldVariable => do
    let d0 ← operand inst.data 0
    process_string self d0
  | .OP_GetFunction => do
    let d0 ← operand inst.data 0
    let self1 ← process_string self d0
    let d1 ← operand inst.data 1
    process_string self1 d1
  | .OP_CallBuiltin | .OP_CallBuiltinMethod | .OP_ScriptFunctionCall | .OP_ScriptMethodCall
  | .OP_ScriptThreadCall | .OP_ScriptMethodThreadCall => do
    let d0 ← operand inst.data 0
    let self1 ← process_string self d0
    let d1 ← operand inst.data 1
    process_string self1 d1
  | .OP_EndSwitch => do
    let d0 ← operand inst.data 0
    let count ← stoul d0
    process_switch_cases inst.data count 0 self
  | _ => .ok self

/-- The loop `for (auto const& inst : func.instructions) process_instruction(*inst)`. -/
def process_instructions : List instruction → assembler → Except asm_error assembler
  | [], self => .ok self
  | inst :: rest, self => do
    let self1 ← process_instruction self inst
    process_instructions rest self1

/-- `assembler::process_function`. -/
def process_function (self : assembler) (func : function) : Except asm_error assembler := do
  let self1 ← process_string self func.name
  process_instructions func.instructions self1

/-- The slot loop of the `OP_SafeCreateLocalVariables` case of
`align_instruction`; `size` is the running `inst.size`. -/
def align_localvars : List String → Nat → assembler → Nat × assembler
  | [], size, self => (size, self)
  | entry :: rest, size, self =>
    let a := self.align 2
    let self1 := { a.2 with
      strings := add_stringref entry string_type.canonical (a.2.script.pos % 4294967296) a.2.strings }
    align_localvars rest (size + (a.1 + 2)) (self1.seek 2)

/-- The entry loop of the `OP_EndSwitch` case of `align_instruction`: `n`
entries are left, `i` is the loop counter, `size` the running `inst.size`. -/
def align_switch_cases (data : List String) :
    Nat → Nat → Nat → assembler → Except asm_error (Nat × assembler)
  | 0, _, size, self => .ok (size, self)
  | n + 1, i, size, self => do
    let head ← operand data (1 + 4 * i)
    if head = "case" then
      let t ← operand data (1 + 4 * i + 1)
      let type ← stoul t
      if to_switch_type type = switch_type_string then
        let name ← operand data (1 + 4 * i + 2)
        let self1 := { self with
          strings := add_stringref name string_type.literal
            ((self.script.pos + 2) % 4294967296) self.strings }
        align_switch_cases data n (i + 1) (size + 8) (self1.seek 8)
      else align_switch_cases data n (i + 1) (size + 8) (self.seek 8)
    else align_switch_cases data n (i + 1) (size + 8) (self.seek 8)

/-- The body of the switch of `align_instruction`, entered after
`inst.size = ctx_->opcode_size(inst.opcode)` and `script_.seek(1)`. -/
def align_operands (self : assembler) (inst : instruction) :
    Except asm_error (instruction × assembler) :=
  match inst.opcode with
  | .OP_End | .OP_Return | .OP_GetUndefined | .OP_GetZero | .OP_GetLevelObject
  | .OP_GetAnimObject | .OP_GetSelf | .OP_GetLevel | .OP_GetGame | .OP_GetAnim | .OP_GetGameRef
  | .OP_CreateLocalVariable | .OP_EvalArray | .OP_EvalArrayRef | .OP_ClearArray
  | .OP_EmptyArray | .OP_GetSelfObject | .OP_SafeSetVariableFieldCached | .OP_ClearParams
  | .OP_CheckClearParams | .OP_SetVariableField | .OP_Wait | .OP_WaitTillFrameEnd
  | .OP_PreScriptCall | .OP_DecTop | .OP_CastFieldObject | .OP_CastBool | .OP_BoolNot
  | .OP_BoolComplement | .OP_Inc | .OP_Dec | .OP_Bit_Or | .OP_Bit_Xor | .OP_Bit_And | .OP_Equal
  | .OP_NotEqual | .OP_LessThan | .OP_GreaterThan | .OP_LessThanOrEqualTo
  | .OP_GreaterThanOrEqualTo | .OP_ShiftLeft | .OP_ShiftRight | .OP_Plus | .OP_Minus
  | .OP_Multiply | .OP_Divide | .OP_Modulus | .OP_SizeOf | .OP_WaitTill | .OP_Notify
  | .OP_EndOn | .OP_VoidCodePos | .OP_Vector | .OP_RealWait | .OP_IsDefined | .OP_VectorScale
  | .OP_AnglesToUp | .OP_AnglesToRight | .OP_AnglesToForward | .OP_AngleClamp180
  | .OP_VectorToAngles | .OP_Abs | .OP_GetTime | .OP_GetDvar | .OP_GetDvarInt
  | .OP_GetDvarFloat | .OP_GetDvarVector | .OP_GetDvarColorRed | .OP_GetDvarColorGreen
  | .OP_GetDvarColorBlue | .OP_GetDvarColorAlpha | .OP_FirstArrayKey | .OP_NextArrayKey
  | .OP_ProfileStart | .OP_ProfileStop | .OP_SafeDecTop | .OP_Nop | .OP_Abort | .OP_Object
  | .OP_ThreadObject | .OP_EvalLocalVariable | .OP_EvalLocalVariableRef =>
    .ok (inst, self)
  | .OP_GetByte | .OP_GetNegByte => .ok (inst, self.seek 1)
  | .OP_GetUnsignedShort | .OP_GetNegUnsignedShort =>
    let a := self.align 2
    .ok ({ inst with size := inst.size + a.1 }, a.2.seek 2)
  | .OP_GetInteger =>
    let a := self.align 4
    if inst.data.length = 2 then do
      let anims ← add_animref inst.data (a.2.script.pos % 4294967296) a.2.anims
      pure ({ inst with size := inst.size + a.1 }, { a.2 with anims := anims }.seek 4)
    else .ok ({ inst with size := inst.size + a.1 }, a.2.seek 4)
  | .OP_GetFloat =>
    let a := self.align 4
    .ok ({ inst with size := inst.size + a.1 }, a.2.seek 4)
  | .OP_GetVector =>
    let a := self.align 4
    .ok ({ inst with size := inst.size + a.1 }, a.2.seek 12)
  | .OP_GetString | .OP_GetIString => do
    let a := self.align 2
    let d0 ← operand inst.data 0
    let self1 := { a.2 with
      strings := add_stringref d0 string_type.literal (a.2.script.pos % 4294967296) a.2.strings }
    pure ({ inst with size := inst.size + a.1 }, self1.seek 2)
  | .OP_GetAnimation => do
    let a := self.align 4
    let anims ← add_animref inst.data (a.2.script.pos % 4294967296) a.2.anims
    pure ({ inst with size := inst.size + a.1 }, { a.2 with anims := anims }.seek 4)
  | .OP_WaitTillMatch => .ok (inst, self.seek 1)
  | .OP_VectorConstant => .ok (inst, self.seek 1)
  | .OP_GetHash =>
    let a := self.align 4
    .ok ({ inst with size := inst.size + a.1 }, a.2.seek 4)
  | .OP_SafeCreateLocalVariables =>
    let r := align_localvars inst.data inst.size (self.seek 1)
    .ok ({ inst with size := r.1 }, r.2)
  | .OP_RemoveLocalVariables | .OP_EvalLocalVariableCached | .OP_EvalLocalArrayRefCached
  | .OP_SafeSetWaittillVariableFieldCached | .OP_EvalLocalVariableRefCached =>
    .ok (inst, self.seek 1)
  | .OP_EvalFieldVariable | .OP_EvalFieldVariableRef | .OP_ClearFieldVariable => do
    let a := self.align 2
    let d0 ← operand inst.data 0
    let self1 := { a.2 with
      strings := add_stringref d0 string_type.canonical (a.2.script.pos % 4294967296) a.2.strings }
    pure ({ inst with size := inst.size + a.1 }, self1.seek 2)
  | .OP_ScriptFunctionCallPointer | .OP_ScriptMethodCallPointer | .OP_ScriptThreadCallPointer
  | .OP_ScriptMethodThreadCallPointer =>
    .ok (inst, self.seek 1)
  | .OP_GetFunction => do
    let a := self.align 4
    let self1 := a.2.seek 4
    let imports ← add_importref inst.data (inst.index % 4294967296) self1.imports
    pure ({ inst with size := inst.size + a.1 }, { self1 with imports := imports })
  | .OP_CallBuiltin | .OP_CallBuiltinMethod | .OP_ScriptFunctionCall | .OP_ScriptMethodCall
  | .OP_ScriptThreadCall | .OP_ScriptMethodThreadCall => do
    let a := (self.seek 1).align 4
    let self1 := a.2.seek 4
    let imports ← add_importref inst.data (inst.index % 4294967296) self1.imports
    pure ({ inst with size := inst.size + a.1 }, { self1 with imports := imports })
  | .OP_JumpOnFalse | .OP_JumpOnTrue | .OP_JumpOnFalseExpr | .OP_JumpOnTrueExpr | .OP_Jump
  | .OP_JumpBack | .OP_DevblockBegin =>
    let a := self.align 2
    .ok ({ inst with size := inst.size + a.1 }, a.2.seek 2)
  | .OP_Switch =>
    let a := self.align 4
    .ok ({ inst with size := inst.size + a.1 }, a.2.seek 4)
  | .OP_EndSwitch => do
    let a := self.align 4
    let d0 ← operand inst.data 0
    let count ← stoul d0
    let r ← align_switch_cases inst.data count 0 (inst.size + a.1) (a.2.seek 4)
    pure ({ inst with size := r.1 }, r.2)
  | .OP_Invalid => .error .unhandled_opcode

/-- `assembler::align_instruction`: the layout of one instruction. -/
def align_instruction (ctx : context) (self : assembler) (inst : instruction) :
    Except asm_error (instruction × assembler) :=
  align_operands (self.seek 1) { inst with size := ctx.opcode_size inst.opcode }

/-- `devmap_.write<T>(v)` for a `width`-byte integer. -/
def assembler.write_devmap (self : assembler) (width v : Nat) : Except asm_error assembler :=
  match self.devmap.write width v with
  | .ok w => .ok { self with devmap := w }
  | .error e => .error e

/-- The loop of `assemble_localvars`: `n` slots are left. -/
def assemble_localvars_slots : Nat → assembler → Except asm_error assembler
  | 0, self => .ok self
  | n + 1, self => do
    let self1 ← (self.align 2).2.write 2 0
    assemble_localvars_slots n self1

/-- `assembler::assemble_localvars`. -/
def assemble_localvars (self : assembler) (inst : instruction) : Except asm_error assembler := do
  let self1 ← self.write 1 inst.data.length
  assemble_localvars_slots inst.data.length self1

/-- `assembler::assemble_jump`. -/
def assemble_jump (labels : label_map) (self : assembler) (inst : instruction) :
    Except asm_error assembler := do
  let a := self.align 2
  let d0 ← operand inst.data 0
  let addr ← resolve_label labels d0
  a.2.write 2 (usize_sub (usize_sub addr inst.index) inst.size)

/-- `assembler::assemble_switch`. -/
def assemble_switch (labels : label_map) (self : assembler) (inst : instruction) :
    Except asm_error assembler := do
  let a := self.align 4
  let d0 ← operand inst.data 0
  let addr ← resolve_label labels d0
  a.2.write 4 (usize_sub (usize_sub ((addr + 4) &&& 0xFFFFFFFC) inst.index) inst.size)

/-- The value field of a `case` entry of `assemble_switch_table`:
`(type == switch_type::integer) ? ((std::stoi(v) & 0xFFFFFF) + 0x800000) : i + 1`.
The bitwise and is taken on the 32-bit pattern of the `int`. -/
def switch_case_value (data : List String) (i type : Nat) : Except asm_error Nat :=
  if to_switch_type type = switch_type_integer then do
    let d ← operand data (1 + 4 * i + 2)
    let v ← stoi d
    pure ((to_u32 v &&& 0xFFFFFF) + 0x800000)
  else .ok (i + 1)

/-- The loop of `assemble_switch_table`: `n` entries are left, `i` is the loop
counter. -/
def assemble_switch_cases (labels : label_map) (data : List String) :
    Nat → Nat → assembler → Except asm_error assembler
  | 0, _, self => .ok self
  | n + 1, i, self => do
    let head ← operand data (1 + 4 * i)
    if head = "case" then
      let t ← operand data (1 + 4 * i + 1)
      let type ← stoul t
      let value ← switch_case_value data i type
      let self1 ← self.write 4 value
      let l ← operand data (1 + 4 * i + 3)
      let addr ← resolve_label labels l
      let self2 ← self1.write 4 (usize_sub (usize_sub addr self1.script.pos) 4)
      assemble_switch_cases labels data n (i + 1) self2
    else if head = "default" then
      let self1 ← self.write 4 0
      let l ← operand data (1 + 4 * i + 1)
      let addr ← resolve_label labels l
      let self2 ← self1.write 4 (usize_sub (usize_sub addr self1.script.pos) 4)
      assemble_switch_cases labels data n (i + 1) self2
    else .error .invalid_switch_case

/-- `assembler::assemble_switch_table`. -/
def assemble_switch_table (labels : label_map) (self : assembler) (inst : instruction) :
    Except asm_error assembler := do
  let d0 ← operand inst.data 0
  let count ← stoul d0
  let self1 ← (self.align 4).2.write 4 count
  assemble_switch_cases labels inst.data count 0 self1

/-- `script_.write<u8>(static_cast<u8>(std::stoi(inst.data[0])))`. -/
def write_byte_operand (self : assembler) (inst : instruction) : Except asm_error assembler := do
  let d0 ← operand inst.data 0
  let v ← stoi d0
  self.write 1 (to_u8 v)

/-- `script_.write<f32>(std::stof(inst.data[k]))`. -/
def write_float_operand (ctx : context) (self : assembler) (inst : instruction) (k : Nat) :
    Except asm_error assembler := do
  let d ← operand inst.data k
  match ctx.stof d with
  | some bits => self.write 4 bits
  | none => .error .invalid_argument

/-- The body of the switch of `assemble_instruction`, entered after the opcode
byte and the dev-map entry were written. -/
def assemble_operands (ctx : context) (labels : label_map) (self : assembler)
    (inst : instruction) : Except asm_error assembler :=
  match inst.opcode with
  | .OP_End | .OP_Return | .OP_GetUndefined | .OP_GetZero | .OP_GetLevelObject
  | .OP_GetAnimObject | .OP_GetSelf | .OP_GetLevel | .OP_GetGame | .OP_GetAnim | .OP_GetGameRef
  | .OP_CreateLocalVariable | .OP_EvalArray | .OP_EvalArrayRef | .OP_ClearArray
  | .OP_EmptyArray | .OP_GetSelfObject | .OP_SafeSetVariableFieldCached | .OP_ClearParams
  | .OP_CheckClearParams | .OP_SetVariableField | .OP_Wait | .OP_WaitTillFrameEnd
  | .OP_PreScriptCall | .OP_DecTop | .OP_CastFieldObject | .OP_CastBool | .OP_BoolNot
  | .OP_BoolComplement | .OP_Inc | .OP_Dec | .OP_Bit_Or | .OP_Bit_Xor | .OP_Bit_And | .OP_Equal
  | .OP_NotEqual | .OP_LessThan | .OP_GreaterThan | .OP_LessThanOrEqualTo
  | .OP_GreaterThanOrEqualTo | .OP_ShiftLeft | .OP_ShiftRight | .OP_Plus | .OP_Minus
  | .OP_Multiply | .OP_Divide | .OP_Modulus | .OP_SizeOf | .OP_WaitTill | .OP_Notify
  | .OP_EndOn | .OP_VoidCodePos | .OP_Vector | .OP_RealWait | .OP_IsDefined | .OP_VectorScale
  | .OP_AnglesToUp | .OP_AnglesToRight | .OP_AnglesToForward | .OP_AngleClamp180
  | .OP_VectorToAngles | .OP_Abs | .OP_GetTime | .OP_GetDvar | .OP_GetDvarInt
  | .OP_GetDvarFloat | .OP_GetDvarVector | .OP_GetDvarColorRed | .OP_GetDvarColorGreen
  | .OP_GetDvarColorBlue | .OP_GetDvarColorAlpha | .OP_FirstArrayKey | .OP_NextArrayKey
  | .OP_ProfileStart | .OP_ProfileStop | .OP_SafeDecTop | .OP_Nop | .OP_Abort | .OP_Object
  | .OP_ThreadObject | .OP_EvalLocalVariable | .OP_EvalLocalVariableRef =>
    .ok self
  | .OP_GetByte | .OP_GetNegByte => write_byte_operand self inst
  | .OP_GetUnsignedShort | .OP_GetNegUnsignedShort => do
    let d0 ← operand inst.data 0
    let v ← stoi d0
    (self.align 2).2.write 2 (to_u16 v)
  | .OP_GetInteger =>
    if inst.data.length = 2 then (self.align 4).2.write 4 (to_u32 (-1))
    else do
      let d0 ← operand inst.data 0
      let v ← stoi d0
      (self.align 4).2.write 4 (to_u32 v)
  | .OP_GetFloat => write_float_operand ctx (self.align 4).2 inst 0
  | .OP_GetVector => do
    let self1 ← write_float_operand ctx (self.align 4).2 inst 0
    let self2 ← write_float_operand ctx self1 inst 1
    write_float_operand ctx self2 inst 2
  | .OP_GetString | .OP_GetIString => (self.align 2).2.write 2 0
  | .OP_GetAnimation => (self.align 4).2.write 4 0
  | .OP_WaitTillMatch => write_byte_operand self inst
  | .OP_VectorConstant => write_byte_operand self inst
  | .OP_GetHash => do
    let d0 ← operand inst.data 0
    (self.align 4).2.write 4 (ctx.hash_id d0)
  | .OP_SafeCreateLocalVariables => assemble_localvars self inst
  | .OP_RemoveLocalVariables | .OP_EvalLocalVariableCached | .OP_EvalLocalArrayRefCached
  | .OP_SafeSetWaittillVariableFieldCached | .OP_EvalLocalVariableRefCached =>
    write_byte_operand self inst
  | .OP_EvalFieldVariable | .OP_EvalFieldVariableRef | .OP_ClearFieldVariable =>
    (self.align 2).2.write 2 0
  | .OP_ScriptFunctionCallPointer | .OP_ScriptMethodCallPointer | .OP_ScriptThreadCallPointer
  | .OP_ScriptMethodThreadCallPointer =>
    write_byte_operand self inst
  | .OP_GetFunction => (self.align 4).2.write 4 0
  | .OP_CallBuiltin | .OP_CallBuiltinMethod | .OP_ScriptFunctionCall | .OP_ScriptMethodCall
  | .OP_ScriptThreadCall | .OP_ScriptMethodThreadCall => do
    let self1 ← self.write 1 0
    (self1.align 4).2.write 4 0
  | .OP_JumpOnFalse | .OP_JumpOnTrue | .OP_JumpOnFalseExpr | .OP_JumpOnTrueExpr | .OP_Jump
  | .OP_JumpBack | .OP_DevblockBegin =>
    assemble_jump labels self inst
  | .OP_Switch => assemble_switch labels self inst
  | .OP_EndSwitch => assemble_switch_table labels self inst
  | .OP_Invalid => .error .unhandled_opcode

/-- The dev-map entry of `assemble_instruction`, written when the build has
`dev_maps`. -/
def write_devmap_entry (ctx : context) (self : assembler) (inst : instruction) :
    Except asm_error assembler :=
  if ctx.build.has_dev_maps then do
    let self1 ← self.write_devmap 4 self.script.pos
    let self2 ← self1.write_devmap 2 inst.pos.line
    let self3 ← self2.write_devmap 2 inst.pos.column
    pure { self3 with devmap_count := self3.devmap_count + 1 }
  else .ok self

/-- `assembler::assemble_instruction`: the emission of one instruction. -/
def assemble_instruction (ctx : context) (labels : label_map) (self : assembler)
    (inst : instruction) : Except asm_error assembler :=
  match ctx.opcode_id inst.opcode with
  | none => .error .unknown_opcode
  | some id => do
    let self1 ← self.write 1 id
    let self2 ← write_devmap_entry ctx self1 inst
    assemble_operands ctx labels self2 inst

/-- The layout loop of `assemble_function`: `index` is `func.index`, `old` the
label map on entry, `size` the running `func.size` and `labels` the relocated
map built so far. Returns the instructions with their new `index` and `size`. -/
def layout_instructions (ctx : context) (index : Nat) (old : label_map) :
    List instruction → Nat → label_map → assembler →
    Except asm_error (List instruction × Nat × label_map × assembler)
  | [], size, labels, self => .ok ([], size, labels, self)
  | inst :: rest, size, labels, self => do
    let r ← align_instruction ctx self { inst with index := index + size }
    let labels1 := match labels_find old inst.index with
      | some name => labels_insert labels r.1.index name
      | none => labels
    let t ← layout_instructions ctx index old rest (size + r.1.size) labels1 r.2
    pure (r.1 :: t.1, t.2)

/-- The emission loop of `assemble_function`. -/
def assemble_instructions (ctx : context) (labels : label_map) :
    List instruction → assembler → Except asm_error assembler
  | [], self => .ok self
  | inst :: rest, self => do
    let self1 ← assemble_instruction ctx labels self inst
    assemble_instructions ctx labels rest self1

/-- `assembler::assemble_function`: layout, then emission, then the export
record. Returns the function as relocated in place. -/
def assemble_function (ctx : context) (self : assembler) (func : function) :
    Except asm_error (function × assembler) := do
  let index := self.script.pos
  let r ← layout_instructions ctx index func.labels func.instructions 0 [] self
  let func1 : function := { func with
    index := index, size := r.2.1, labels := r.2.2.1, instructions := r.1 }
  let self1 : assembler := { r.2.2.2 with script := r.2.2.2.script.set_pos index }
  let self2 ← assemble_instructions ctx func1.labels func1.instructions self1
  let entry : export_ref :=
    { checksum := 0
      offset := index % 4294967296
      name := func.name
      space := ""
      params := func.params
      flags := func.flags }
  pure (func1, { self2 with exports := self2.exports ++ [entry] })

/-- The loop `for (auto const& func : assembly_->functions) process_function(*func)`. -/
def process_functions : List function → assembler → Except asm_error assembler
  | [], self => .ok self
  | func :: rest, self => do
    let self1 ← process_function self func
    process_functions rest self1

/-- The includes table: one pool handle per include, as `u32`. -/
def write_includes : List String → assembler → Except asm_error assembler
  | [], self => .ok self
  | entry :: rest, self => do
    let h ← resolve_string self entry
    let self1 ← self.write 4 h
    write_includes rest self1

/-- The code segment loop of `assemble`: each function is aligned, preceded by
a header of the same width, then laid out and emitted. -/
def assemble_functions (ctx : context) :
    List function → assembler → Except asm_error (List function × assembler)
  | [], self => .ok ([], self)
  | func :: rest, self => do
    let n := if has_prop ctx.props props.size64 then 8 else 4
    let r ← assemble_function ctx ((self.align n).2.seek n) func
    let t ← assemble_functions ctx rest r.2
    pure (r.1 :: t.1, t.2)

/-- The exports table. -/
def write_exports (ctx : context) : List export_ref → assembler → Except asm_error assembler
  | [], self => .ok self
  | entry :: rest, self => do
    let s1 ← self.write 4 entry.checksum
    let s2 ← s1.write 4 entry.offset
    if has_prop ctx.props props.hashids then
      let s3 ← s2.write 4 (ctx.hash_id entry.name)
      let s4 ← s3.write 4 (ctx.hash_id entry.space)
      let s5 ← s4.write 1 entry.params
      let s6 ← s5.write 1 entry.flags
      write_exports ctx rest (s6.seek 2)
    else
      let h ← resolve_string s2 entry.name
      let s3 ← s2.write 2 h
      let s5 ← s3.write 1 entry.params
      let s6 ← s5.write 1 entry.flags
      write_exports ctx rest s6

/-- The loop `for (auto ref : entry.refs) script_.write<u32>(ref)`. -/
def write_refs : List Nat → assembler → Except asm_error assembler
  | [], self => .ok self
  | ref :: rest, self => do
    let self1 ← self.write 4 ref
    write_refs rest self1

/-- The imports table. -/
def write_imports (ctx : context) : List import_ref → assembler → Except asm_error assembler
  | [], self => .ok self
  | entry :: rest, self => do
    let s2 ← if has_prop ctx.props props.hashids then do
        let s1 ← self.write 4 (ctx.hash_id entry.name)
        s1.write 4 (ctx.hash_id entry.space)
      else do
        let hn ← resolve_string self entry.name
        let s1 ← self.write 2 hn
        let hs ← resolve_string s1 entry.space
        s1.write 2 hs
    let s3 ← s2.write 2 entry.refs.length
    let s4 ← s3.write 1 entry.params
    let s5 ← s4.write 1 entry.flags
    let s6 ← write_refs entry.refs s5
    write_imports ctx rest s6

/-- The animations of one animtree record. -/
def write_anims (ctx : context) : List animation_ref → assembler → Except asm_error assembler
  | [], self => .ok self
  | anim :: rest, self => do
    let h ← resolve_string self anim.name
    if has_prop ctx.props props.size64 then
      let s1 ← self.write 8 h
      let s2 ← s1.write 8 anim.ref
      write_anims ctx rest s2
    else
      let s1 ← self.write 4 h
      let s2 ← s1.write 4 anim.ref
      write_anims ctx rest s2

/-- The animtrees table. -/
def write_animtrees (ctx : context) : List animtree_ref → assembler → Except asm_error assembler
  | [], self => .ok self
  | entry :: rest, self => do
    let h ← resolve_string self entry.name
    let s3 ← if has_prop ctx.props props.size64 then do
        let s1 ← self.write 4 h
        let s2 ← s1.write 2 entry.refs.length
        s2.write 2 entry.anims.length
      else do
        let s1 ← self.write 2 h
        let s2 ← s1.write 2 entry.refs.length
        let s2a ← s2.write 2 entry.anims.length
        pure (s2a.seek 2)
    let s4 ← write_refs entry.refs s3
    let s5 ← write_anims ctx entry.anims s4
    write_animtrees ctx rest s5

/-- The header of one run of a string fixup record: name handle, count byte,
type byte, and two pad bytes on `size64`. -/
def write_string_header (ctx : context) (entry : string_ref) (count : Nat) (self : assembler) :
    Except asm_error assembler := do
  let h ← resolve_string self entry.name
  let s1 ← if has_prop ctx.props props.size64 then self.write 4 h else self.write 2 h
  let s2 ← s1.write 1 count
  let s3 ← s2.write 1 entry.type.code
  pure (if has_prop ctx.props props.size64 then s3.seek 2 else s3)

/-- The loop over the refs of a string entry with more than 255 refs: `count`
is `entry.refs.size()`, `i` the loop counter, `n` the running
`stringtablecount`. The source keeps `count` and `i` as `i32`; lists of fewer
than `2^31` refs are meant. -/
def write_string_runs (ctx : context) (entry : string_ref) (count : Nat) :
    List Nat → Nat → Nat → assembler → Except asm_error (Nat × assembler)
  | [], _, n, self => .ok (n, self)
  | ref :: rest, i, n, self =>
    if i % 255 = 0 then do
      let s1 ← write_string_header ctx entry (min 255 (count - i)) self
      let s2 ← s1.write 4 ref
      write_string_runs ctx entry count rest (i + 1) (n + 1) s2
    else do
      let s2 ← self.write 4 ref
      write_string_runs ctx entry count rest (i + 1) n s2

/-- The string fixup table; `n` is the running `stringtablecount`. -/
def write_strings (ctx : context) :
    List string_ref → Nat → assembler → Except asm_error (Nat × assembler)
  | [], n, self => .ok (n, self)
  | entry :: rest, n, self =>
    if 255 < entry.refs.length then do
      let r ← write_string_runs ctx entry entry.refs.length entry.refs 0 n self
      write_strings ctx rest r.1 r.2
    else do
      let s1 ← write_string_header ctx entry entry.refs.length self
      let s2 ← write_refs entry.refs s1
      write_strings ctx rest (n + 1) s2

/-- The fields of the local `header` that `assemble` fills in. -/
structure header where
  source_crc : Nat
  include_offset : Nat
  animtree_offset : Nat
  cseg_offset : Nat
  stringtablefixup_offset : Nat
  devblock_stringtablefixup_offset : Nat
  exports_offset : Nat
  imports_offset : Nat
  fixup_offset : Nat
  profile_offset : Nat
  cseg_size : Nat
  name : Nat
  stringtablefixup_count : Nat
  exports_count : Nat
  imports_count : Nat
  fixup_count : Nat
  profile_count : Nat
  devblock_stringtablefixup_count : Nat
  include_count : Nat
  animtree_count : Nat
  flags : Nat
  deriving DecidableEq, Repr

/-- The header block written at offset 0 at the end of `assemble`. -/
def write_header (ctx : context) (head : header) (self : assembler) :
    Except asm_error assembler := do
  let s1 ← self.write 8 ctx.magic
  let s2 ← s1.write 4 head.source_crc
  let s3 ← s2.write 4 head.include_offset
  let s4 ← s3.write 4 head.animtree_offset
  let s5 ← s4.write 4 head.cseg_offset
  let s6 ← s5.write 4 head.stringtablefixup_offset
  let s7 ← if has_prop ctx.props props.devstr then
      s6.write 4 head.devblock_stringtablefixup_offset
    else pure s6
  let s8 ← s7.write 4 head.exports_offset
  let s9 ← s8.write 4 head.imports_offset
  let s10 ← s9.write 4 head.fixup_offset
  let s11 ← s10.write 4 head.profile_offset
  let s12 ← s11.write 4 head.cseg_size
  let s13 ← if has_prop ctx.props props.size64 then s12.write 4 head.name
    else s12.write 2 head.name
  let s14 ← s13.write 2 head.stringtablefixup_count
  let s15 ← s14.write 2 head.exports_count
  let s16 ← s15.write 2 head.imports_count
  let s17 ← s16.write 2 head.fixup_count
  let s18 ← s17.write 2 head.profile_count
  let s19 ← if has_prop ctx.props props.devstr then
      s18.write 2 head.devblock_stringtablefixup_count
    else pure s18
  let s20 ← s19.write 1 head.include_count
  let s21 ← s20.write 1 head.animtree_count
  s21.write 1 head.flags

/-- What `assemble` leaves behind: the two buffers it returns, the header it
wrote, the assembly as relocated in place, and the assembler for the next call. -/
structure assemble_result where
  script : List Nat
  devmap : List Nat
  head : header
  data : assembly
  self : assembler

/-- The per-input reset at the start of `assemble`. -/
def assembler.reset (self : assembler) : assembler :=
  { script := self.script.clear
    devmap := self.devmap.clear
    strpool := []
    exports := []
    imports := []
    strings := []
    anims := []
    devmap_count := 0 }

/-- `assembler::assemble`. -/
def assemble (ctx : context) (self : assembler) (data : assembly) (name : String) :
    Except asm_error assemble_result := do
  let a0 := self.reset
  let a1 : assembler := { a0 with
    devmap := a0.devmap.set_pos 4
    script := a0.script.set_pos
      (if has_prop ctx.props props.headerxx then 0
       else if has_prop ctx.props props.header72 then 72 else 64) }
  let a2 ← process_string a1 name
  let a3 ← process_functions data.functions a2
  let a4 ← process_strings data.includes a3
  let include_offset := a4.script.pos % 4294967296
  let include_count := data.includes.length % 256
  let a5 ← write_includes data.includes a4
  let cseg_offset := a5.script.pos % 4294967296
  let r ← assemble_functions ctx data.functions a5
  let a6 := r.2
  let cseg_size := usize_sub a6.script.pos cseg_offset % 4294967296
  let exports_offset := a6.script.pos % 4294967296
  let exports_count := a6.exports.length % 65536
  let a7 ← write_exports ctx a6.exports a6
  let imports_offset := a7.script.pos % 4294967296
  let imports_count := a7.imports.length % 65536
  let a8 ← write_imports ctx a7.imports a7
  let animtree_offset := a8.script.pos % 4294967296
  let animtree_count := a8.anims.length % 256
  let a9 ← write_animtrees ctx a8.anims a8
  let table_offset := a9.script.pos % 4294967296
  let t ← write_strings ctx a9.strings 0 a9
  let a10 := t.2
  let devstr := has_prop ctx.props props.devstr
  let hname ← resolve_string a10 name
  let head : header :=
    { source_crc := 0
      include_offset := include_offset
      animtree_offset := animtree_offset
      cseg_offset := cseg_offset
      stringtablefixup_offset := if devstr then a10.script.pos % 4294967296 else table_offset
      devblock_stringtablefixup_offset := 0
      exports_offset := exports_offset
      imports_offset := imports_offset
      fixup_offset := a10.script.pos % 4294967296
      profile_offset := a10.script.pos % 4294967296
      cseg_size := cseg_size
      name := hname
      stringtablefixup_count := if devstr then 0 else t.1 % 65536
      exports_count := exports_count
      imports_count := imports_count
      fixup_count := 0
      profile_count := 0
      devblock_stringtablefixup_count := 0
      include_count := include_count
      animtree_count := animtree_count
      flags := 0 }
  let endpos := a10.script.pos
  let a11 ← write_header ctx head { a10 with script := a10.script.set_pos 0 }
  let a12 : assembler := { a11 with script := a11.script.set_pos endpos }
  let dev_endpos := a12.devmap.pos
  let a13 ← { a12 with devmap := a12.devmap.set_pos 0 }.write_devmap 4 a12.devmap_count
  let a14 : assembler := { a13 with devmap := a13.devmap.set_pos dev_endpos }
  pure
    { script := a14.script.bytes
      devmap := a14.devmap.bytes
      head := head
      data := { data with functions := r.1 }
      self := a14 }

end arc

namespace gsc

/-- The `opcode` tags the GSC assembler handles, in the order of its switch;
`OP_Invalid` stands for every other enumerator (the `default:` branch). -/
inductive opcode where
  | OP_CastFieldObject | OP_plus | OP_GetGameRef | OP_GetThisthread
  | OP_greater | OP_shift_right | OP_dec | OP_bit_or
  | OP_equality | OP_ClearLocalVariableFieldCached0 | OP_notify | OP_PreScriptCall
  | OP_GetUndefined | OP_SetLocalVariableFieldCached0 | OP_GetLevel | OP_size
  | OP_AddArray | OP_endon | OP_shift_left | OP_EvalLocalArrayRefCached0
  | OP_Return | OP_SafeSetVariableFieldCached0 | OP_GetSelfObject | OP_GetGame
  | OP_EvalArray | OP_GetSelf | OP_End | OP_less_equal
  | OP_EvalLocalVariableCached0 | OP_EvalLocalVariableCached1 | OP_EvalLocalVariableCached2 | OP_EvalLocalVariableCached3
  | OP_EvalLocalVariableCached4 | OP_EvalLocalVariableCached5 | OP_ScriptMethodCallPointer | OP_checkclearparams
  | OP_waittillmatch2 | OP_minus | OP_greater_equal | OP_vector
  | OP_ClearArray | OP_DecTop | OP_CastBool | OP_EvalArrayRef
  | OP_GetZero | OP_wait | OP_waittill | OP_GetAnimObject
  | OP_mod | OP_clearparams | OP_ScriptFunctionCallPointer | OP_EmptyArray
  | OP_ClearVariableField | OP_EvalNewLocalVariableRefCached0 | OP_BoolComplement | OP_less
  | OP_BoolNot | OP_waittillFrameEnd | OP_waitframe | OP_GetLevelObject
  | OP_inc | OP_GetAnim | OP_SetVariableField | OP_divide
  | OP_multiply | OP_EvalLocalVariableRefCached0 | OP_bit_and | OP_voidCodepos
  | OP_inequality | OP_bit_ex_or | OP_BoolNotAfterAnd | OP_IsDefined
  | OP_IsTrue | OP_GetByte | OP_GetNegByte | OP_GetUnsignedShort
  | OP_GetNegUnsignedShort | OP_GetUnsignedInt | OP_GetNegUnsignedInt | OP_GetInteger
  | OP_GetInteger64 | OP_GetFloat | OP_GetVector | OP_GetString
  | OP_GetIString | OP_GetAnimation | OP_GetAnimTree | OP_GetUnkxHash
  | OP_GetStatHash | OP_GetEnumHash | OP_GetDvarHash | OP_waittillmatch
  | OP_ClearLocalVariableFieldCached | OP_SetLocalVariableFieldCached | OP_RemoveLocalVariables | OP_EvalLocalVariableRefCached
  | OP_EvalLocalArrayRefCached | OP_SafeSetVariableFieldCached | OP_EvalLocalVariableCached | OP_SafeSetWaittillVariableFieldCached
  | OP_EvalLocalVariableObjectCached | OP_EvalLocalArrayCached | OP_CreateLocalVariable | OP_EvalNewLocalArrayRefCached0
  | OP_SafeCreateVariableFieldCached | OP_SetNewLocalVariableFieldCached0 | OP_EvalSelfFieldVariable | OP_SetLevelFieldVariableField
  | OP_ClearFieldVariable | OP_EvalFieldVariable | OP_EvalFieldVariableRef | OP_EvalLevelFieldVariable
  | OP_SetAnimFieldVariableField | OP_SetSelfFieldVariableField | OP_EvalAnimFieldVariableRef | OP_EvalLevelFieldVariableRef
  | OP_EvalAnimFieldVariable | OP_EvalSelfFieldVariableRef | OP_CallBuiltinPointer | OP_CallBuiltinMethodPointer
  | OP_ScriptThreadCallPointer | OP_ScriptChildThreadCallPointer | OP_ScriptMethodThreadCallPointer | OP_ScriptMethodChildThreadCallPointer
  | OP_GetLocalFunction | OP_ScriptLocalFunctionCall2 | OP_ScriptLocalFunctionCall | OP_ScriptLocalMethodCall
  | OP_ScriptLocalThreadCall | OP_ScriptLocalChildThreadCall | OP_ScriptLocalMethodThreadCall | OP_ScriptLocalMethodChildThreadCall
  | OP_GetFarFunction | OP_ScriptFarFunctionCall2 | OP_ScriptFarFunctionCall | OP_ScriptFarMethodCall
  | OP_ScriptFarThreadCall | OP_ScriptFarChildThreadCall | OP_ScriptFarMethodThreadCall | OP_ScriptFarMethodChildThreadCall
  | OP_CallBuiltin | OP_CallBuiltinMethod | OP_GetBuiltinFunction | OP_CallBuiltin0
  | OP_CallBuiltin1 | OP_CallBuiltin2 | OP_CallBuiltin3 | OP_CallBuiltin4
  | OP_CallBuiltin5 | OP_GetBuiltinMethod | OP_CallBuiltinMethod0 | OP_CallBuiltinMethod1
  | OP_CallBuiltinMethod2 | OP_CallBuiltinMethod3 | OP_CallBuiltinMethod4 | OP_CallBuiltinMethod5
  | OP_JumpOnFalseExpr | OP_JumpOnTrueExpr | OP_JumpOnFalse | OP_JumpOnTrue
  | OP_jumpback | OP_jump | OP_switch | OP_endswitch
  | OP_FormalParams
  | OP_Invalid
  deriving DecidableEq, Repr

/-- Modelled from the spec: the engine variants of the GSC family (the
declaration is not among the sources). The assembler only tests
`engine() == engine::iw9`. -/
inductive engine where
  | iw5
  | iw6
  | iw7
  | iw8
  | iw9
  | s1
  | s2
  | s4
  | h1
  | h2
  deriving DecidableEq, Repr

/-- Modelled from the spec: the feature flags of `gsc::props` that the
assembler tests, one boolean per flag (their bit values are not among the
sources). -/
structure props where
  str4 : Bool
  tok4 : Bool
  hash : Bool
  farcall : Bool
  offs8 : Bool
  offs9 : Bool
  extension : Bool
  deriving DecidableEq, Repr

/-- Values of `build`. -/
inductive build where
  | prod
  | dev_blocks
  | dev_maps
  | dev
  deriving DecidableEq, Repr

/-- The test `(ctx_->build() & build::dev_maps) != build::prod`. -/
def build.has_dev_maps : build → Bool
  | .dev_maps => true
  | .dev => true
  | _ => false

/-- Values of `instance`. -/
inductive instance_kind where
  | server
  | client
  deriving DecidableEq, Repr

/-- The queries of `gsc::context` the assembler uses (`xsk/gsc/context.hpp` and
the engine tables are not among the sources, so they are parameters).
`opcode_id` is `none` where the lookup fails with an unknown opcode; `stof`
stands for `std::stof` followed by the bit pattern of the `f32`. -/
structure context where
  props : props
  engine : engine
  big_endian : Bool
  build : build
  inst : instance_kind
  str_count : Nat
  opcode_id : opcode → Option Nat
  hash_id : String → Nat
  path_id : String → Nat
  token_id : String → Nat
  func_id : String → Nat
  meth_id : String → Nat
  stof : String → Option Nat

/-- Source position of an instruction. -/
structure position where
  line : Nat
  column : Nat
  deriving DecidableEq, Repr

/-- An `instruction` of the assembly IR. -/
structure instruction where
  opcode : opcode
  pos : position
  index : Nat
  size : Nat
  data : List String
  deriving DecidableEq, Repr

/-- A `function` of the assembly IR. -/
structure function where
  index : Nat
  size : Nat
  id : Nat
  name : String
  instructions : List instruction
  labels : label_map
  deriving DecidableEq, Repr

/-- The `assembly` IR. -/
structure assembly where
  functions : List function
  deriving DecidableEq, Repr

/-- The mutable members of `gsc::assembler`. -/
structure assembler where
  script : utils.writer
  stack : utils.writer
  devmap : utils.writer
  devmap_count : Nat

/-- The constructor `assembler(ctx)`; `size` is the capacity of its writers. -/
def assembler.create (ctx : context) (size : Nat) : assembler :=
  { script := utils.writer.create ctx.big_endian size
    stack := utils.writer.create ctx.big_endian size
    devmap := utils.writer.create false size
    devmap_count := 0 }

/-- `script_.write<T>(v)` for a `width`-byte integer. -/
def assembler.write (self : assembler) (width v : Nat) : Except asm_error assembler :=
  match self.script.write width v with
  | .ok w => .ok { self with script := w }
  | .error e => .error e

/-- Modelled from the spec: `script_.write_i24(v)`, the low three bytes of the
`i32` in the writer's byte order. -/
def assembler.write_i24 (self : assembler) (v : Int) : Except asm_error assembler :=
  self.write 3 (v % 16777216).toNat

/-- `stack_.write_cstr(s)`. -/
def assembler.write_stack_cstr (self : assembler) (s : List Nat) : Except asm_error assembler :=
  match self.stack.write_cstr s with
  | .ok w => .ok { self with stack := w }
  | .error e => .error e

/-- The loop of `encrypt_string`: each pair of bytes is read as a base-16
number by `std::stoul` and narrowed to a `char`. -/
def decode_pairs : List Nat → Except asm_error (List Nat)
  | a :: b :: rest => do
    let v ← stoul_base 16 [a, b]
    let r ← decode_pairs rest
    pure (v % 256 :: r)
  | _ => .ok []

/-- `assembler::encrypt_string`: the bytes of the returned string. -/
def encrypt_string (str : String) : Except asm_error (List Nat) :=
  let bs := str_bytes str
  if bs.take 8 = str_bytes "_encstr_" ∧ bs.length % 2 = 0 then decode_pairs (bs.drop 8)
  else .ok bs

/-- `assembler::assemble_offset`: the left shift wraps in 32 bits, the right
shift is arithmetic. -/
def assemble_offset (ctx : context) (self : assembler) (offs : Int) :
    Except asm_error assembler :=
  let s := if ctx.props.offs8 then 8 else if ctx.props.offs9 then 9 else 10
  self.write_i24 (as_i32 (to_u32 (offs * 2 ^ s)) / 256)

/-- `static_cast<i32>(addr - index - 4)` on `usize` operands. -/
def switch_disp (addr index : Nat) : Int :=
  as_i32 (usize_sub (usize_sub addr index) 4 % 4294967296)

/-- The loop of `assemble_switch_table`: `n` entries are left, `i` is the loop
counter and `index` the running local `index`. -/
def assemble_switch_cases (ctx : context) (labels : label_map) (data : List String) :
    Nat → Nat → Nat → assembler → Except asm_error assembler
  | 0, _, _, self => .ok self
  | n + 1, i, index, self => do
    let head ← operand data (1 + 4 * i)
    if head = "case" then
      let t ← operand data (1 + 4 * i + 1)
      let type ← stoul t
      let self1 ← if to_switch_type type = switch_type_integer then do
          let d ← operand data (1 + 4 * i + 2)
          let v ← stoi d
          if ctx.engine = engine.iw9 then self.write 4 (to_u32 v)
          else self.write 4 ((to_u32 v &&& 0xFFFFFF) + 0x800000)
        else do
          let s1 ← self.write 4 (if ctx.engine = engine.iw9 then 0 else i + 1)
          let d ← operand data (1 + 4 * i + 2)
          let str ← encrypt_string d
          s1.write_stack_cstr str
      let l ← operand data (1 + 4 * i + 3)
      let addr ← resolve_label labels l
      if ctx.engine = engine.iw9 then
        let s2 ← self1.write 2 (usize_sub (usize_sub addr index) 4)
        let s3 ← s2.write 1 0xFF
        let s4 ← s3.write 1 (to_switch_type type)
        assemble_switch_cases ctx labels data n (i + 1) (index + 8) s4
      else
        let s2 ← assemble_offset ctx self1 (switch_disp addr index)
        assemble_switch_cases ctx labels data n (i + 1) (index + 7) s2
    else if head = "default" then
      let l ← operand data (1 + 4 * i + 1)
      let addr ← resolve_label labels l
      if ctx.engine = engine.iw9 then
        let s1 ← self.write 4 0
        let s2 ← s1.write 2 (usize_sub (usize_sub addr index) 4)
        let s3 ← s2.write 1 0xFF
        let s4 ← s3.write 1 0
        assemble_switch_cases ctx labels data n (i + 1) (index + 8) s4
      else
        let s1 ← self.write 4 0
        let s2 ← s1.write_stack_cstr [1]
        let s3 ← assemble_offset ctx s2 (switch_disp addr index)
        assemble_switch_cases ctx labels data n (i + 1) (index + 7) s3
    else .error .invalid_switch_case

/-- `assembler::assemble_switch_table`. -/
def assemble_switch_table (ctx : context) (labels : label_map) (self : assembler)
    (inst : instruction) : Except asm_error assembler := do
  let d0 ← operand inst.data 0
  let count ← stoul d0
  let self1 ← self.write 2 count
  assemble_switch_cases ctx labels inst.data count 0 (inst.index + 3) self1

/-- `stack_.write<T>(v)` for a `width`-byte integer. -/
def assembler.write_stack (self : assembler) (width v : Nat) : Except asm_error assembler :=
  match self.stack.write width v with
  | .ok w => .ok { self with stack := w }
  | .error e => .error e

/-- `devmap_.write<T>(v)` for a `width`-byte integer. -/
def assembler.write_devmap (self : assembler) (width v : Nat) : Except asm_error assembler :=
  match self.devmap.write width v with
  | .ok w => .ok { self with devmap := w }
  | .error e => .error e

/-- `script_.align(n)`. -/
def assembler.align (self : assembler) (n : Nat) : assembler :=
  { self with script := (self.script.align n).2 }

/-- `std::stoll(str)`: a 64-bit `long long`. -/
def stoll (s : String) : Except asm_error Int :=
  match strto 10 (str_bytes s) with
  | none => .error .invalid_argument
  | some (neg, m) =>
    let v : Int := if neg then -(m : Int) else (m : Int)
    if v < -9223372036854775808 ∨ 9223372036854775807 < v then .error .out_of_range else .ok v

/-- The 64-bit pattern of an `i64`. -/
def to_u64 (v : Int) : Nat := (v % 18446744073709551616).toNat

/-- The bytes of `std::format("#xS{:x}", id)`: the digits of `id` in lower-case
base 16 after the three bytes of `#xS`. -/
def format_hash (id : Nat) : List Nat :=
  str_bytes "#xS" ++ (Nat.toDigits 16 id).map Char.toNat

/-- `script_.write<T>(static_cast<T>(std::stoul(inst.data[0])))` for a `width`-byte
unsigned `T`. -/
def write_stoul_operand (self : assembler) (inst : instruction) (width : Nat) :
    Except asm_error assembler := do
  let d0 ← operand inst.data 0
  let v ← stoul d0
  self.write width v

/-- `script_.write<u8>(static_cast<u8>(std::stoi(inst.data[k])))`. -/
def write_stoi_byte (self : assembler) (inst : instruction) (k : Nat) :
    Except asm_error assembler := do
  let d ← operand inst.data k
  let v ← stoi d
  self.write 1 (to_u8 v)

/-- `script_.write<f32>(std::stof(inst.data[k]))`. -/
def write_float_operand (ctx : context) (self : assembler) (inst : instruction) (k : Nat) :
    Except asm_error assembler := do
  let d ← operand inst.data k
  match ctx.stof d with
  | some bits => self.write 4 bits
  | none => .error .invalid_argument

/-- `assembler::resolve_function` over `assembly_->functions`. -/
def resolve_function (funcs : List function) (name : String) : Except asm_error Nat :=
  match funcs.find? (fun entry => entry.name == name) with
  | some entry => .ok entry.index
  | none => .error .unresolved_function

/-- The file extension appended to a path: `.gsc` on the server instance,
`.csc` on the client. -/
def extension_of (ctx : context) : String :=
  if ctx.inst = instance_kind.server then ".gsc" else ".csc"

/-- `assembler::assemble_field`. The identifiers of the context are taken as
the `u32` values its lookups return. -/
def assemble_field (ctx : context) (self : assembler) (inst : instruction) :
    Except asm_error assembler := do
  let d0 ← operand inst.data 0
  if ctx.props.hash then self.write 8 (ctx.hash_id d0)
  else
    let id := if ctx.token_id d0 = 0 then 0xFFFFFFFF else ctx.token_id d0
    let self1 ← self.write (if ctx.props.tok4 then 4 else 2) id
    if ctx.str_count < id then
      let self2 ← self1.write_stack (if ctx.props.tok4 then 4 else 2) 0
      let s ← encrypt_string d0
      self2.write_stack_cstr s
    else pure self1

/-- The loop of `assemble_params`: `n` parameters are left, `i` is the loop
counter. -/
def assemble_params_loop (ctx : context) (data : List String) :
    Nat → Nat → assembler → Except asm_error assembler
  | 0, _, self => .ok self
  | n + 1, i, self => do
    let d ← operand data i
    let self1 ← if ctx.props.hash then self.write 8 (ctx.hash_id d)
      else do
        let v ← stoi d
        self.write 1 (to_u8 v)
    assemble_params_loop ctx data n (i + 1) self1

/-- `assembler::assemble_params`. -/
def assemble_params (ctx : context) (self : assembler) (inst : instruction) :
    Except asm_error assembler := do
  let d0 ← operand inst.data 0
  let count ← stoul d0
  let self1 ← self.write 1 count
  assemble_params_loop ctx inst.data count 1 self1

/-- The trailing argument count of a threaded call:
`if (thread) script_.write<u8>(static_cast<u8>(std::stoi(inst.data[k])))`. -/
def write_thread_args (self : assembler) (inst : instruction) (thread : Bool) (k : Nat) :
    Except asm_error assembler :=
  if thread then write_stoi_byte self inst k else .ok self

/-- `assembler::assemble_call_far2`: the far call of contexts with `farcall`. -/
def assemble_call_far2 (ctx : context) (funcs : List function) (self : assembler)
    (inst : instruction) (thread : Bool) : Except asm_error assembler := do
  let d0 ← operand inst.data 0
  let self3 ← if d0 = "" then do
      let d1 ← operand inst.data 1
      let addr ← resolve_function funcs d1
      let self1 ← self.write 4 (usize_sub (usize_sub addr inst.index) 1)
      let self2 ← self1.write_stack 8 0
      self2.write_stack 8 0
    else do
      let path := if (str_bytes d0).take 4 = str_bytes "_id_" then d0 else d0 ++ extension_of ctx
      let self1 ← self.write 4 0
      let self2 ← self1.write_stack 8 (ctx.path_id path)
      let d1 ← operand inst.data 1
      self2.write_stack 8 (ctx.hash_id d1)
  write_thread_args self3 inst thread 2

/-- `assembler::assemble_call_far`. -/
def assemble_call_far (ctx : context) (funcs : List function) (self : assembler)
    (inst : instruction) (thread : Bool) : Except asm_error assembler :=
  if ctx.props.farcall then assemble_call_far2 ctx funcs self inst thread
  else do
    let d0 ← operand inst.data 0
    let d1 ← operand inst.data 1
    let file_id := ctx.token_id d0
    let func_id := ctx.token_id d1
    let self1 ← self.write_stack (if ctx.props.tok4 then 4 else 2) file_id
    let self2 ← if file_id = 0 then do
        let s ← encrypt_string (if ctx.props.extension then d0 ++ extension_of ctx else d0)
        self1.write_stack_cstr s
      else pure self1
    let self3 ← self2.write_stack (if ctx.props.tok4 then 4 else 2) func_id
    let self4 ← if func_id = 0 then do
        let s ← encrypt_string d1
        self3.write_stack_cstr s
      else pure self3
    let self5 ← self4.write 1 0
    let self6 ← self5.write 2 0
    write_thread_args self6 inst thread 2

/-- `static_cast<i32>(addr - index - 1)` on `usize` operands. -/
def call_disp (addr index : Nat) : Int :=
  as_i32 (usize_sub (usize_sub addr index) 1 % 4294967296)

/-- `assembler::assemble_call_local`. -/
def assemble_call_local (ctx : context) (funcs : List function) (self : assembler)
    (inst : instruction) (thread : Bool) : Except asm_error assembler := do
  let d0 ← operand inst.data 0
  let addr ← resolve_function funcs d0
  let self1 ← assemble_offset ctx self (call_disp addr inst.index)
  write_thread_args self1 inst thread 1

/-- `assembler::assemble_call_builtin`. -/
def assemble_call_builtin (ctx : context) (self : assembler) (inst : instruction)
    (method args : Bool) : Except asm_error assembler := do
  let self1 ← write_thread_args self inst args 1
  let d0 ← operand inst.data 0
  if ctx.props.hash then
    let self2 ← self1.write_stack_cstr (format_hash (ctx.hash_id d0))
    self2.write 2 0
  else self1.write 2 (if method then ctx.meth_id d0 else ctx.func_id d0)

/-- `assembler::assemble_jump`. -/
def assemble_jump (labels : label_map) (self : assembler) (inst : instruction)
    (expr back : Bool) : Except asm_error assembler := do
  let d0 ← operand inst.data 0
  let addr ← resolve_label labels d0
  if expr then self.write 2 (usize_sub (usize_sub addr inst.index) 3)
  else if back then self.write 2 (usize_sub (inst.index + 3) addr)
  else self.write 4 (usize_sub (usize_sub addr inst.index) 5)

/-- `assembler::assemble_switch`. -/
def assemble_switch (labels : label_map) (self : assembler) (inst : instruction) :
    Except asm_error assembler := do
  let d0 ← operand inst.data 0
  let addr ← resolve_label labels d0
  self.write 4 (usize_sub (usize_sub addr inst.index) 4)

/-- The body of the switch of `assemble_instruction`, entered after the opcode
byte and the dev-map entry were written; `funcs` is `assembly_->functions`
and `labels` is `func_->labels`. -/
def assemble_operands (ctx : context) (funcs : List function) (labels : label_map)
    (self : assembler) (inst : instruction) : Except asm_error assembler :=
  match inst.opcode with
  | .OP_CastFieldObject | .OP_plus | .OP_GetGameRef | .OP_GetThisthread | .OP_greater
  | .OP_shift_right | .OP_dec | .OP_bit_or | .OP_equality | .OP_ClearLocalVariableFieldCached0
  | .OP_notify | .OP_PreScriptCall | .OP_GetUndefined | .OP_SetLocalVariableFieldCached0
  | .OP_GetLevel | .OP_size | .OP_AddArray | .OP_endon | .OP_shift_left
  | .OP_EvalLocalArrayRefCached0 | .OP_Return | .OP_SafeSetVariableFieldCached0
  | .OP_GetSelfObject | .OP_GetGame | .OP_EvalArray | .OP_GetSelf | .OP_End | .OP_less_equal
  | .OP_EvalLocalVariableCached0 | .OP_EvalLocalVariableCached1 | .OP_EvalLocalVariableCached2
  | .OP_EvalLocalVariableCached3 | .OP_EvalLocalVariableCached4 | .OP_EvalLocalVariableCached5
  | .OP_ScriptMethodCallPointer | .OP_checkclearparams | .OP_waittillmatch2 | .OP_minus
  | .OP_greater_equal | .OP_vector | .OP_ClearArray | .OP_DecTop | .OP_CastBool
  | .OP_EvalArrayRef | .OP_GetZero | .OP_wait | .OP_waittill | .OP_GetAnimObject | .OP_mod
  | .OP_clearparams | .OP_ScriptFunctionCallPointer | .OP_EmptyArray | .OP_ClearVariableField
  | .OP_EvalNewLocalVariableRefCached0 | .OP_BoolComplement | .OP_less | .OP_BoolNot
  | .OP_waittillFrameEnd | .OP_waitframe | .OP_GetLevelObject | .OP_inc | .OP_GetAnim
  | .OP_SetVariableField | .OP_divide | .OP_multiply | .OP_EvalLocalVariableRefCached0
  | .OP_bit_and | .OP_voidCodepos | .OP_inequality | .OP_bit_ex_or | .OP_BoolNotAfterAnd
  | .OP_IsDefined | .OP_IsTrue => .ok self
  | .OP_GetByte | .OP_GetNegByte => write_stoul_operand self inst 1
  | .OP_GetUnsignedShort | .OP_GetNegUnsignedShort => write_stoul_operand self inst 2
  | .OP_GetUnsignedInt | .OP_GetNegUnsignedInt => write_stoul_operand self inst 4
  | .OP_GetInteger => do
    let d0 ← operand inst.data 0
    let v ← stoi d0
    self.write 4 (to_u32 v)
  | .OP_GetInteger64 => do
    let d0 ← operand inst.data 0
    let v ← stoll d0
    self.write 8 (to_u64 v)
  | .OP_GetFloat => write_float_operand ctx self inst 0
  | .OP_GetVector => do
    let self1 ← write_float_operand ctx (self.align (if ctx.big_endian then 4 else 1)) inst 0
    let self2 ← write_float_operand ctx self1 inst 1
    write_float_operand ctx self2 inst 2
  | .OP_GetString | .OP_GetIString => do
    let self1 ← self.write (if ctx.props.str4 then 4 else 2) 0
    let d0 ← operand inst.data 0
    let s ← encrypt_string d0
    self1.write_stack_cstr s
  | .OP_GetAnimation => do
    let self1 ← self.write (if ctx.props.str4 then 8 else 4) 0
    let d0 ← operand inst.data 0
    let s0 ← encrypt_string d0
    let self2 ← self1.write_stack_cstr s0
    let d1 ← operand inst.data 1
    let s1 ← encrypt_string d1
    self2.write_stack_cstr s1
  | .OP_GetAnimTree => do
    let self1 ← self.write 1 0
    let d0 ← operand inst.data 0
    let s ← encrypt_string d0
    self1.write_stack_cstr s
  | .OP_GetUnkxHash => do
    let d0 ← operand inst.data 0
    let v ← stoul_base 16 (str_bytes d0)
    self.write 4 v
  | .OP_GetStatHash | .OP_GetEnumHash | .OP_GetDvarHash => do
    let d0 ← operand inst.data 0
    let v ← stoul_base 16 (str_bytes d0)
    self.write 8 v
  | .OP_waittillmatch => write_stoul_operand self inst 1
  | .OP_ClearLocalVariableFieldCached | .OP_SetLocalVariableFieldCached
  | .OP_RemoveLocalVariables | .OP_EvalLocalVariableRefCached | .OP_EvalLocalArrayRefCached
  | .OP_SafeSetVariableFieldCached | .OP_EvalLocalVariableCached
  | .OP_SafeSetWaittillVariableFieldCached | .OP_EvalLocalVariableObjectCached
  | .OP_EvalLocalArrayCached => write_stoul_operand self inst 1
  | .OP_CreateLocalVariable | .OP_EvalNewLocalArrayRefCached0
  | .OP_SafeCreateVariableFieldCached | .OP_SetNewLocalVariableFieldCached0 =>
    if ctx.props.hash then do
      let d0 ← operand inst.data 0
      self.write 8 (ctx.hash_id d0)
    else write_stoul_operand self inst 1
  | .OP_EvalSelfFieldVariable | .OP_SetLevelFieldVariableField | .OP_ClearFieldVariable
  | .OP_EvalFieldVariable | .OP_EvalFieldVariableRef | .OP_EvalLevelFieldVariable
  | .OP_SetAnimFieldVariableField | .OP_SetSelfFieldVariableField | .OP_EvalAnimFieldVariableRef
  | .OP_EvalLevelFieldVariableRef | .OP_EvalAnimFieldVariable | .OP_EvalSelfFieldVariableRef =>
    assemble_field ctx self inst
  | .OP_CallBuiltinPointer | .OP_CallBuiltinMethodPointer | .OP_ScriptThreadCallPointer
  | .OP_ScriptChildThreadCallPointer | .OP_ScriptMethodThreadCallPointer
  | .OP_ScriptMethodChildThreadCallPointer => write_stoul_operand self inst 1
  | .OP_GetLocalFunction | .OP_ScriptLocalFunctionCall2 | .OP_ScriptLocalFunctionCall
  | .OP_ScriptLocalMethodCall => assemble_call_local ctx funcs self inst false
  | .OP_ScriptLocalThreadCall | .OP_ScriptLocalChildThreadCall | .OP_ScriptLocalMethodThreadCall
  | .OP_ScriptLocalMethodChildThreadCall => assemble_call_local ctx funcs self inst true
  | .OP_GetFarFunction | .OP_ScriptFarFunctionCall2 | .OP_ScriptFarFunctionCall
  | .OP_ScriptFarMethodCall => assemble_call_far ctx funcs self inst false
  | .OP_ScriptFarThreadCall | .OP_ScriptFarChildThreadCall | .OP_ScriptFarMethodThreadCall
  | .OP_ScriptFarMethodChildThreadCall => assemble_call_far ctx funcs self inst true
  | .OP_CallBuiltin => assemble_call_builtin ctx self inst false true
  | .OP_CallBuiltinMethod => assemble_call_builtin ctx self inst true true
  | .OP_GetBuiltinFunction | .OP_CallBuiltin0 | .OP_CallBuiltin1 | .OP_CallBuiltin2
  | .OP_CallBuiltin3 | .OP_CallBuiltin4 | .OP_CallBuiltin5 =>
    assemble_call_builtin ctx self inst false false
  | .OP_GetBuiltinMethod | .OP_CallBuiltinMethod0 | .OP_CallBuiltinMethod1
  | .OP_CallBuiltinMethod2 | .OP_CallBuiltinMethod3 | .OP_CallBuiltinMethod4
  | .OP_CallBuiltinMethod5 => assemble_call_builtin ctx self inst true false
  | .OP_JumpOnFalseExpr | .OP_JumpOnTrueExpr | .OP_JumpOnFalse | .OP_JumpOnTrue =>
    assemble_jump labels self inst true false
  | .OP_jumpback => assemble_jump labels self inst false true
  | .OP_jump => assemble_jump labels self inst false false
  | .OP_switch => assemble_switch labels self inst
  | .OP_endswitch => assemble_switch_table ctx labels self inst
  | .OP_FormalParams => assemble_params ctx self inst
  | .OP_Invalid => .error .unhandled_opcode

/-- The dev-map entry of `assemble_instruction`, written when the build has
`dev_maps`. -/
def write_devmap_entry (ctx : context) (self : assembler) (inst : instruction) :
    Except asm_error assembler :=
  if ctx.build.has_dev_maps then do
    let self1 ← self.write_devmap 4 self.script.pos
    let self2 ← self1.write_devmap 2 inst.pos.line
    let self3 ← self2.write_devmap 2 inst.pos.column
    pure { self3 with devmap_count := self3.devmap_count + 1 }
  else .ok self

/-- `assembler::assemble_instruction`. -/
def assemble_instruction (ctx : context) (funcs : List function) (labels : label_map)
    (self : assembler) (inst : instruction) : Except asm_error assembler :=
  match ctx.opcode_id inst.opcode with
  | none => .error .unknown_opcode
  | some id => do
    let self1 ← self.write 1 id
    let self2 ← write_devmap_entry ctx self1 inst
    assemble_operands ctx funcs labels self2 inst

/-- The loop `for (auto const& inst : func.instructions) assemble_instruction(*inst)`. -/
def assemble_instructions (ctx : context) (funcs : List function) (labels : label_map) :
    List instruction → assembler → Except asm_error assembler
  | [], self => .ok self
  | inst :: rest, self => do
    let self1 ← assemble_instruction ctx funcs labels self inst
    assemble_instructions ctx funcs labels rest self1

/-- `assembler::assemble_function`: the stack prefix of the function, then its
instructions. -/
def assemble_function (ctx : context) (funcs : List function) (self : assembler)
    (func : function) : Except asm_error assembler := do
  let self1 ← self.write_stack 4 func.size
  let self3 ← if ctx.props.hash then self1.write_stack 8 (ctx.hash_id func.name)
    else do
      let self2 ← self1.write_stack (if ctx.props.tok4 then 4 else 2) func.id
      if func.id = 0 then do
        let s ← encrypt_string func.name
        self2.write_stack_cstr s
      else pure self2
  assemble_instructions ctx funcs func.labels func.instructions self3

/-- The loop `for (auto const& func : data.functions) assemble_function(*func)`. -/
def assemble_functions (ctx : context) (funcs : List function) :
    List function → assembler → Except asm_error assembler
  | [], self => .ok self
  | func :: rest, self => do
    let self1 ← assemble_function ctx funcs self func
    assemble_functions ctx funcs rest self1

/-- The per-input reset at the start of `assemble`. -/
def assembler.reset (self : assembler) : assembler :=
  { script := self.script.clear
    stack := self.stack.clear
    devmap := self.devmap.clear
    devmap_count := 0 }

/-- What `assemble` leaves behind: the three buffers it returns and the
assembler for the next call. -/
structure assemble_result where
  script : List Nat
  stack : List Nat
  devmap : List Nat
  self : assembler

/-- `assembler::assemble`. -/
def assemble (ctx : context) (self : assembler) (data : assembly) :
    Except asm_error assemble_result := do
  let a0 := self.reset
  let a1 : assembler := { a0 with devmap := a0.devmap.set_pos 4 }
  let a2 ← match ctx.opcode_id opcode.OP_End with
    | some id => a1.write 1 id
    | none => .error .unknown_opcode
  let a3 ← assemble_functions ctx data.functions data.functions a2
  let save := a3.devmap.pos
  let a4 ← { a3 with devmap := a3.devmap.set_pos 0 }.write_devmap 4 a3.devmap_count
  let a5 : assembler := { a4 with devmap := a4.devmap.set_pos save }
  pure
    { script := a5.script.bytes
      stack := a5.stack.bytes
      devmap := a5.devmap.bytes
      self := a5 }


end gsc

/-! ## Vocabulary of the statements

The definitions below are not part of the program: they name the opcode
families, the operand widths and the offsets that the theorems speak about. -/

namespace arc

/-- The families of opcodes that share an operand layout. -/
inductive operand_kind where
  | nullary
  | byte
  | short
  | integer
  | float
  | vector
  | string
  | animation
  | hash
  | localvars
  | field
  | func
  | call
  | jump
  | switch
  | endswitch
  | invalid
  deriving DecidableEq, Repr

/-- The family of an opcode. -/
def kind_of : opcode → operand_kind
  | .OP_End | .OP_Return | .OP_GetUndefined | .OP_GetZero | .OP_GetLevelObject
  | .OP_GetAnimObject | .OP_GetSelf | .OP_GetLevel | .OP_GetGame | .OP_GetAnim | .OP_GetGameRef
  | .OP_CreateLocalVariable | .OP_EvalArray | .OP_EvalArrayRef | .OP_ClearArray
  | .OP_EmptyArray | .OP_GetSelfObject | .OP_SafeSetVariableFieldCached | .OP_ClearParams
  | .OP_CheckClearParams | .OP_SetVariableField | .OP_Wait | .OP_WaitTillFrameEnd
  | .OP_PreScriptCall | .OP_DecTop | .OP_CastFieldObject | .OP_CastBool | .OP_BoolNot
  | .OP_BoolComplement | .OP_Inc | .OP_Dec | .OP_Bit_Or | .OP_Bit_Xor | .OP_Bit_And | .OP_Equal
  | .OP_NotEqual | .OP_LessThan | .OP_GreaterThan | .OP_LessThanOrEqualTo
  | .OP_GreaterThanOrEqualTo | .OP_ShiftLeft | .OP_ShiftRight | .OP_Plus | .OP_Minus
  | .OP_Multiply | .OP_Divide | .OP_Modulus | .OP_SizeOf | .OP_WaitTill | .OP_Notify
  | .OP_EndOn | .OP_VoidCodePos | .OP_Vector | .OP_RealWait | .OP_IsDefined | .OP_VectorScale
  | .OP_AnglesToUp | .OP_AnglesToRight | .OP_AnglesToForward | .OP_AngleClamp180
  | .OP_VectorToAngles | .OP_Abs | .OP_GetTime | .OP_GetDvar | .OP_GetDvarInt
  | .OP_GetDvarFloat | .OP_GetDvarVector | .OP_GetDvarColorRed | .OP_GetDvarColorGreen
  | .OP_GetDvarColorBlue | .OP_GetDvarColorAlpha | .OP_FirstArrayKey | .OP_NextArrayKey
  | .OP_ProfileStart | .OP_ProfileStop | .OP_SafeDecTop | .OP_Nop | .OP_Abort | .OP_Object
  | .OP_ThreadObject | .OP_EvalLocalVariable | .OP_EvalLocalVariableRef =>
    .nullary
  | .OP_GetByte | .OP_GetNegByte => .byte
  | .OP_GetUnsignedShort | .OP_GetNegUnsignedShort => .short
  | .OP_GetInteger => .integer
  | .OP_GetFloat => .float
  | .OP_GetVector => .vector
  | .OP_GetString | .OP_GetIString => .string
  | .OP_GetAnimation => .animation
  | .OP_WaitTillMatch => .byte
  | .OP_VectorConstant => .byte
  | .OP_GetHash => .hash
  | .OP_SafeCreateLocalVariables => .localvars
  | .OP_RemoveLocalVariables | .OP_EvalLocalVariableCached | .OP_EvalLocalArrayRefCached
  | .OP_SafeSetWaittillVariableFieldCached | .OP_EvalLocalVariableRefCached => .byte
  | .OP_EvalFieldVariable | .OP_EvalFieldVariableRef | .OP_ClearFieldVariable => .field
  | .OP_ScriptFunctionCallPointer | .OP_ScriptMethodCallPointer | .OP_ScriptThreadCallPointer
  | .OP_ScriptMethodThreadCallPointer => .byte
  | .OP_GetFunction => .func
  | .OP_CallBuiltin | .OP_CallBuiltinMethod | .OP_ScriptFunctionCall | .OP_ScriptMethodCall
  | .OP_ScriptThreadCall | .OP_ScriptMethodThreadCall => .call
  | .OP_JumpOnFalse | .OP_JumpOnTrue | .OP_JumpOnFalseExpr | .OP_JumpOnTrueExpr | .OP_Jump
  | .OP_JumpBack | .OP_DevblockBegin => .jump
  | .OP_Switch => .switch
  | .OP_EndSwitch => .endswitch
  | .OP_Invalid => .invalid

/-- The opcode size the size-additivity statement assumes of the context: one
byte for the opcode plus the fixed operand width of the family. -/
def base_size (op : opcode) : Nat :=
  match kind_of op with
  | .nullary => 1
  | .byte | .localvars => 2
  | .short | .string | .field | .jump => 3
  | .integer | .float | .animation | .hash | .func | .switch | .endswitch => 5
  | .call => 6
  | .vector => 13
  | .invalid => 0

/-- The alignment the alignment statement requires of the operands of an
opcode; `1` where none is required. -/
def operand_align (op : opcode) : Nat :=
  match kind_of op with
  | .short | .string | .field | .localvars | .jump => 2
  | .integer | .float | .vector | .animation | .hash | .func | .call | .switch | .endswitch => 4
  | .nullary | .byte | .invalid => 1

/-- The entry count of an `OP_EndSwitch`: `std::stoul(inst.data[0])`, zero
where that fails. -/
def switch_count (data : List String) : Nat :=
  match data[0]? with
  | some d =>
    match stoul d with
    | .ok n => n
    | .error _ => 0
  | none => 0

/-- Offsets of `n` two-byte slots, each aligned to 2, from cursor `q` on. -/
def slot_offsets : Nat → Nat → List Nat
  | 0, _ => []
  | n + 1, q => utils.writer.align_up q 2 :: slot_offsets n (utils.writer.align_up q 2 + 2)

/-- The cursor after `n` two-byte slots laid out from cursor `q` on. -/
def slots_end : Nat → Nat → Nat
  | 0, q => q
  | n + 1, q => slots_end n (utils.writer.align_up q 2 + 2)

/-- The writes of `n` switch-table entries from cursor `q` on: a 4-byte value
and a 4-byte displacement each. -/
def entry_writes : Nat → Nat → List (Nat × Nat)
  | 0, _ => []
  | n + 1, q => (q, 4) :: (q + 4, 4) :: entry_writes n (q + 8)

/-- The operand writes (offset, width) of an instruction whose opcode byte ends
at cursor `p`. -/
def operand_writes (inst : instruction) (p : Nat) : List (Nat × Nat) :=
  match kind_of inst.opcode with
  | .nullary | .invalid => []
  | .byte => [(p, 1)]
  | .short | .string | .field | .jump => [(utils.writer.align_up p 2, 2)]
  | .integer | .float | .animation | .hash | .func | .switch => [(utils.writer.align_up p 4, 4)]
  | .vector =>
    [(utils.writer.align_up p 4, 4), (utils.writer.align_up p 4 + 4, 4),
      (utils.writer.align_up p 4 + 8, 4)]
  | .localvars => (p, 1) :: (slot_offsets inst.data.length (p + 1)).map (fun q => (q, 2))
  | .call => [(p, 1), (utils.writer.align_up (p + 1) 4, 4)]
  | .endswitch =>
    (utils.writer.align_up p 4, 4) ::
      entry_writes (switch_count inst.data) (utils.writer.align_up p 4 + 4)

/-- The cursor after the operands of an instruction whose opcode byte ends at
cursor `p`. -/
def operands_end (inst : instruction) (p : Nat) : Nat :=
  match kind_of inst.opcode with
  | .nullary | .invalid => p
  | .byte => p + 1
  | .short | .string | .field | .jump => utils.writer.align_up p 2 + 2
  | .integer | .float | .animation | .hash | .func | .switch => utils.writer.align_up p 4 + 4
  | .vector => utils.writer.align_up p 4 + 12
  | .localvars => slots_end inst.data.length (p + 1)
  | .call => utils.writer.align_up (p + 1) 4 + 4
  | .endswitch => utils.writer.align_up p 4 + 4 + 8 * switch_count inst.data

end arc

namespace utils

/-- The writer `b` is reached from `a` by writing forward from the cursor of
`a`: same byte order and capacity, the cursor did not move back, and only
bytes between the two cursors can differ. -/
structure writer.advances (a b : writer) : Prop where
  swap : b.swap = a.swap
  size : b.size = a.size
  le : a.pos ≤ b.pos
  below : ∀ i, i < a.pos → b.data i = a.data i
  above : ∀ i, b.pos ≤ i → b.data i = a.data i

end utils

namespace arc

/-- What the layout of instructions leaves untouched: the script bytes and the
write log, the dev-map, the string pool and the exports. -/
structure layout_frame (a b : assembler) : Prop where
  data : b.script.data = a.script.data
  swap : b.script.swap = a.script.swap
  size : b.script.size = a.script.size
  writes : b.script.writes = a.script.writes
  devmap : b.devmap = a.devmap
  strpool : b.strpool = a.strpool
  exports : b.exports = a.exports
  devmap_count : b.devmap_count = a.devmap_count

/-- What the emission of instructions leaves untouched: the string pool, the
exports and the fixup lists; the script only advances. -/
structure emit_frame (a b : assembler) : Prop where
  script : a.script.advances b.script
  strpool : b.strpool = a.strpool
  exports : b.exports = a.exports
  imports : b.imports = a.imports
  strings : b.strings = a.strings
  anims : b.anims = a.anims

/-- The string fixups (name, type, offset) of `n` switch-table entries from
entry `i` on, the first of them at cursor `q`: one for each `case` entry of
string type, at the offset of its value field plus two. -/
def switch_fixups (data : List String) : Nat → Nat → Nat → List (String × string_type × Nat)
  | 0, _, _ => []
  | n + 1, i, q =>
    if data[1 + 4 * i]? = some "case" ∧
        ((data[1 + 4 * i + 1]?).map fun t => (stoul t).toOption.map to_switch_type) =
          some (some switch_type_string) then
      (data.getD (1 + 4 * i + 2) "", string_type.literal, (q + 2) % 4294967296) ::
        switch_fixups data n (i + 1) (q + 8)
    else switch_fixups data n (i + 1) (q + 8)

/-- The string fixups (name, type, offset) that the layout of an instruction
records when its opcode byte ends at cursor `p`, in the order of recording. -/
def string_fixups (inst : instruction) (p : Nat) : List (String × string_type × Nat) :=
  match kind_of inst.opcode with
  | .string => [(inst.data.getD 0 "", string_type.literal, utils.writer.align_up p 2 % 4294967296)]
  | .field =>
    [(inst.data.getD 0 "", string_type.canonical, utils.writer.align_up p 2 % 4294967296)]
  | .localvars =>
    (inst.data.zip (slot_offsets inst.data.length (p + 1))).map
      fun e => (e.1, string_type.canonical, e.2 % 4294967296)
  | .endswitch =>
    switch_fixups inst.data (switch_count inst.data) 0 (utils.writer.align_up p 4 + 4)
  | _ => []

/-- Recording a list of string fixups, first to last. -/
def add_stringrefs (fixups : List (String × string_type × Nat)) (strings : List string_ref) :
    List string_ref :=
  fixups.foldl (fun l f => add_stringref f.1 f.2.1 f.2.2 l) strings

end arc

namespace arc

/-- What the script `w` holds for entry `j` of a switch table when that entry
starts at offset `q`: for a `case`, the value of `switch_case_value` in the
four bytes at `q`; for `default`, zero; and in the four bytes at `q + 4` the
displacement `resolve_label(label) - (q + 4) - 4` as a 32-bit pattern. -/
def switch_entry_written (labels : label_map) (data : List String) (w : utils.writer)
    (j q : Nat) : Prop :=
  (data[1 + 4 * j]? = some "case" ∧
    ∃ t type value l addr,
      data[1 + 4 * j + 1]? = some t ∧ stoul t = .ok type ∧
      switch_case_value data j type = .ok value ∧ w.read q 4 = value % 4294967296 ∧
      data[1 + 4 * j + 3]? = some l ∧ resolve_label labels l = .ok addr ∧
      w.read (q + 4) 4 = usize_sub (usize_sub addr (q + 4)) 4 % 4294967296) ∨
  (data[1 + 4 * j]? = some "default" ∧ w.read q 4 = 0 ∧
    ∃ l addr,
      data[1 + 4 * j + 1]? = some l ∧ resolve_label labels l = .ok addr ∧
      w.read (q + 4) 4 = usize_sub (usize_sub addr (q + 4)) 4 % 4294967296)

end arc

namespace arc

/-- The assembler `b` is `a` after the script writes `ws` (offset, width), each
within the capacity, the cursor ending at `q`; nothing but the script changed. -/
structure emitted (a b : assembler) (q : Nat) (ws : List (Nat × Nat)) : Prop where
  pos : b.script.pos = q
  writes : b.script.writes = a.script.writes ++ ws
  fits : ∀ e, e ∈ ws → e.1 + e.2 ≤ a.script.size
  frame : emit_frame a b
  devmap : b.devmap = a.devmap
  devmap_count : b.devmap_count = a.devmap_count

end arc

namespace arc

/-- The cursor after the instructions are emitted one after the other from
cursor `p` on. -/
def emit_end : Nat → List instruction → Nat
  | p, [] => p
  | p, inst :: rest => emit_end (operands_end inst (p + 1)) rest

/-- The offset of each instruction's opcode byte when the instructions are
emitted one after the other from cursor `p` on. -/
def emit_offsets : Nat → List instruction → List Nat
  | _, [] => []
  | p, inst :: rest => p :: emit_offsets (operands_end inst (p + 1)) rest

/-- The string fixups of a run of instructions laid out from cursor `p` on, in
the order of recording. -/
def fixups_from : Nat → List instruction → List (String × string_type × Nat)
  | _, [] => []
  | p, inst :: rest =>
    string_fixups inst (p + 1) ++ fixups_from (operands_end inst (p + 1)) rest

end arc

namespace arc

/-- The instructions follow one another from offset `p` on: each has its
`index` at the running offset, and its `size` is the distance to the next. -/
def laid_out : Nat → List instruction → Prop
  | _, [] => True
  | p, inst :: rest =>
    inst.index = p ∧ p + inst.size = operands_end inst (p + 1) ∧ laid_out (p + inst.size) rest

end arc

namespace gsc

/-- The bytes one switch-table entry takes in the script: a 4-byte value, then
a packed 3-byte offset, or on `iw9` an `i16`, a sentinel and a type byte. -/
def entry_stride (ctx : context) : Nat :=
  if ctx.engine = engine.iw9 then 8 else 7

/-- What the script `w` holds in the value field of entry `j` of a switch
table when that entry starts at offset `q`. -/
def switch_value_written (ctx : context) (data : List String) (w : utils.writer)
    (j q : Nat) : Prop :=
  (data[1 + 4 * j]? = some "case" ∧
    ∃ t type, data[1 + 4 * j + 1]? = some t ∧ stoul t = .ok type ∧
      ((to_switch_type type = switch_type_integer ∧
          ∃ d v, data[1 + 4 * j + 2]? = some d ∧ stoi d = .ok v ∧
            w.read q 4 =
              (if ctx.engine = engine.iw9 then to_u32 v
                else (to_u32 v &&& 0xFFFFFF) + 0x800000) % 4294967296) ∨
        (to_switch_type type ≠ switch_type_integer ∧
          w.read q 4 = (if ctx.engine = engine.iw9 then 0 else j + 1) % 4294967296))) ∨
  (data[1 + 4 * j]? = some "default" ∧ w.read q 4 = 0)

end gsc

namespace arc

/-- Scenario S2 of the specification: `[GetByte 1; JumpOnFalse L1; GetByte 2;
L1: Return]`, with provisional indices 0 to 3 and the label on the `Return`. -/
def scenario_S2 : function :=
  { index := 0
    size := 0
    params := 0
    flags := 0
    name := "main"
    instructions :=
      [{ opcode := .OP_GetByte, pos := ⟨1, 1⟩, index := 0, size := 0, data := ["1"] },
       { opcode := .OP_JumpOnFalse, pos := ⟨2, 1⟩, index := 1, size := 0, data := ["L1"] },
       { opcode := .OP_GetByte, pos := ⟨3, 1⟩, index := 2, size := 0, data := ["2"] },
       { opcode := .OP_Return, pos := ⟨4, 1⟩, index := 3, size := 0, data := [] }]
    labels := [(3, "L1")] }

/-- A little-endian sample context whose opcode sizes are the baseline sizes
and whose opcode ids are all `7`; header of 64 bytes, production build. -/
def sample_context : context :=
  { props := props.header64
    endian := endian.little
    build := build.prod
    magic := 0x804753430D0A0006
    opcode_id := fun _ => some 7
    opcode_size := base_size
    hash_id := fun _ => 0
    stof := fun _ => some 0 }

/-- The sample context with the big-endian byte order. -/
def sample_context_big : context :=
  { sample_context with endian := endian.big }

end arc

namespace arc

/-- The `EndSwitch` of scenario S3 with the operand list the specification
prints: the type operand is the word `integer`. -/
def scenario_S3_endswitch_as_printed : instruction :=
  { opcode := opcode.OP_EndSwitch
    pos := ⟨4, 1⟩
    index := 3
    size := 0
    data := ["2", "case", "integer", "5", "L5", "default", "LD"] }

/-- The `EndSwitch` of scenario S3 with the type operand the assembler reads:
`1`, the decimal value of `switch_type::integer`. -/
def scenario_S3_endswitch : instruction :=
  { opcode := opcode.OP_EndSwitch
    pos := ⟨4, 1⟩
    index := 3
    size := 0
    data := ["2", "case", "1", "5", "L5", "default", "LD"] }

/-- Scenario S3 around a given `EndSwitch`: `Switch "tbl"`, two `Return`s
carrying the labels `L5` and `LD`, and the `EndSwitch` at label `tbl`. -/
def scenario_S3 (endswitch : instruction) : function :=
  { index := 0
    size := 0
    params := 0
    flags := 0
    name := "main"
    instructions :=
      [{ opcode := .OP_Switch, pos := ⟨1, 1⟩, index := 0, size := 0, data := ["tbl"] },
       { opcode := .OP_Return, pos := ⟨2, 1⟩, index := 1, size := 0, data := [] },
       { opcode := .OP_Return, pos := ⟨3, 1⟩, index := 2, size := 0, data := [] },
       endswitch]
    labels := [(3, "tbl"), (1, "L5"), (2, "LD")] }

end arc

namespace arc

/-- A switch table with two integer cases (`-1` and `5`), a string case and a
default entry, as the operands of an `EndSwitch`. -/
def sample_endswitch : instruction :=
  { opcode := opcode.OP_EndSwitch
    pos := ⟨1, 1⟩
    index := 0
    size := 0
    data := ["4", "case", "1", "-1", "A", "case", "1", "5", "B",
             "case", "2", "abc", "C", "default", "D"] }

end arc

namespace arc

/-- The string fixups of the functions of an assembly as relocated, each
function laid out from its `index` on, in the order of recording. -/
def fixups_of : List function → List (String × string_type × Nat)
  | [] => []
  | f :: rest => fixups_from f.index f.instructions ++ fixups_of rest

/-- What the script `w` holds in the 16-bit slot at the offset `r` of a string
fixup of `inst`, whose opcode byte ends at cursor `p`: zero, unless the
instruction is an `EndSwitch`; there `r` is two past the 32-bit value field of
a `case` entry at some table position `i`, the field holds `i + 1`, and the
slot holds the half of it that the byte order puts last: the high half on
little-endian, the low half on big-endian. -/
def fixup_slot (w : utils.writer) (inst : instruction) (p r : Nat) : Prop :=
  (kind_of inst.opcode ≠ operand_kind.endswitch ∧ w.read r 2 = 0) ∨
  (kind_of inst.opcode = operand_kind.endswitch ∧
    ∃ i, i < switch_count inst.data ∧ inst.data[1 + 4 * i]? = some "case" ∧
      r = utils.writer.align_up p 4 + 4 + 8 * i + 2 ∧
      w.read (r - 2) 4 = (i + 1) % 4294967296 ∧
      w.read r 2 = if w.swap then (i + 1) % 65536 else (i + 1) / 65536 % 65536)

end arc

namespace arc

/-- A function with a `GetString` and a switch table of one string case:
`[L: GetString "abc"; EndSwitch 1 case string "str" L]`. -/
def sample_string_switch : function :=
  { index := 0
    size := 0
    params := 0
    flags := 0
    name := "main"
    instructions :=
      [{ opcode := .OP_GetString, pos := ⟨1, 1⟩, index := 0, size := 0, data := ["abc"] },
       { opcode := .OP_EndSwitch, pos := ⟨2, 1⟩, index := 1, size := 0,
         data := ["1", "case", "2", "str", "L"] }]
    labels := [(0, "L")] }

end arc

namespace gsc

/-- A little-endian context of an engine other than `iw9`, its lookups
constant. -/
def sample_context : context :=
  { props := ⟨false, false, false, false, false, false, false⟩
    engine := engine.iw6
    big_endian := false
    build := build.prod
    inst := instance_kind.server
    str_count := 0
    opcode_id := fun _ => some 7
    hash_id := fun _ => 0
    path_id := fun _ => 0
    token_id := fun _ => 0
    func_id := fun _ => 0
    meth_id := fun _ => 0
    stof := fun _ => some 0 }

/-- The switch table of `arc.sample_endswitch` as the operands of a GSC
`endswitch`. -/
def sample_endswitch : instruction :=
  { opcode := opcode.OP_endswitch
    pos := ⟨1, 1⟩
    index := 0
    size := 0
    data := ["4", "case", "1", "-1", "A", "case", "1", "5", "B",
             "case", "2", "abc", "C", "default", "D"] }

end gsc

namespace gsc

/-! ### Hexadecimal text and scenario S6 -/

/-- The character of one hexadecimal digit, lower case. -/
def hex_digit (d : Nat) : Char :=
  if d < 10 then Char.ofNat (48 + d) else Char.ofNat (87 + d)

/-- Per the spec: `hex(b)`, the encoding of a byte sequence with two hexadecimal
digits per byte, the high digit first. -/
def hex (b : List Nat) : String :=
  String.mk (b.flatMap fun x => [hex_digit (x / 16), hex_digit (x % 16)])

/-- Scenario S6: `GetString "_encstr_68656c6c6f"`. -/
def scenario_S6 : instruction :=
  { opcode := opcode.OP_GetString
    pos := ⟨1, 1⟩
    index := 1
    size := 3
    data := ["_encstr_68656c6c6f"] }

/-- A function holding the instruction of scenario S6. -/
def scenario_S6_function : function :=
  { index := 1
    size := 3
    id := 5
    name := "main"
    instructions := [scenario_S6]
    labels := [] }

end gsc

namespace arc

/-! ### String fixup records and scenario S5 -/

/-- The key of a string fixup record. -/
def string_ref.key (e : string_ref) : String × string_type := (e.name, e.type)

/-- The key that a call `add_stringref(name, type, ref)` adds under. -/
def call_key (c : String × string_type × Nat) : String × string_type := (c.1, c.2.1)

/-- Per the spec: the refs added under the key `k` by a sequence of calls, in
call order. -/
def refs_added (calls : List (String × string_type × Nat)) (k : String × string_type) :
    List Nat :=
  (calls.filter fun c => call_key c = k).map fun c => c.2.2

/-- The position of the first call that adds under the key `k` in a sequence
of calls (its length when there is none). -/
def first_call (k : String × string_type) : List (String × string_type × Nat) → Nat
  | [] => 0
  | c :: rest => if call_key c = k then 0 else first_call k rest + 1

/-- Scenario S5: a function with three `GetString "hello"`. -/
def scenario_S5 : function :=
  { index := 0
    size := 0
    params := 0
    flags := 0
    name := "main"
    instructions :=
      [{ opcode := .OP_GetString, pos := ⟨1, 1⟩, index := 0, size := 0, data := ["hello"] },
       { opcode := .OP_GetString, pos := ⟨2, 1⟩, index := 0, size := 0, data := ["hello"] },
       { opcode := .OP_GetString, pos := ⟨3, 1⟩, index := 0, size := 0, data := ["hello"] }]
    labels := [] }

end arc

namespace arc

/-! ### The string fixup table -/

/-- The bytes a run header takes: the name handle, the count byte, the type
byte, and two pad bytes on `size64`. -/
def header_width (ctx : context) : Nat :=
  if has_prop ctx.props props.size64 then 8 else 4

/-- The bytes of the name handle of a run header. -/
def handle_width (ctx : context) : Nat :=
  if has_prop ctx.props props.size64 then 4 else 2

/-- Per the spec: the number of run headers of an entry with `n` refs, `n / 255`
rounded up. -/
def run_count (n : Nat) : Nat := (n + 254) / 255

/-- Per the spec: the number of refs of run `j` of an entry with `n` refs,
`min(255, refs remaining)`. -/
def run_length (n j : Nat) : Nat := min 255 (n - 255 * j)

/-- The offset of the header of run `j` of an entry whose table record begins
at cursor `q`: every run before it holds a header and 255 refs. -/
def run_offset (ctx : context) (q j : Nat) : Nat :=
  q + j * (header_width ctx + 4 * 255)

/-- The offset of ref `i` of an entry whose table record begins at cursor `q`:
after the headers of the runs up to its own and the refs before it. -/
def ref_offset (ctx : context) (q i : Nat) : Nat :=
  q + header_width ctx * (i / 255 + 1) + 4 * i

/-- The cursor after the table record of an entry with `n` refs that begins at
cursor `q`. -/
def entry_end (ctx : context) (q n : Nat) : Nat :=
  q + header_width ctx * run_count n + 4 * n

/-- The cursor after the table records of a list of entries, the first
beginning at cursor `q`. -/
def table_end (ctx : context) : Nat → List string_ref → Nat
  | q, [] => q
  | q, e :: rest => table_end ctx (entry_end ctx q e.refs.length) rest

/-- Per the spec: the number of run headers of a list of entries. -/
def table_headers (strings : List string_ref) : Nat :=
  (strings.map fun e => run_count e.refs.length).sum

/-- The assembler at the points of `assemble` at which the offsets of the
header are taken, and the run headers counted by `stringtablecount`. -/
structure assemble_stages where
  pooled : assembler
  included : assembler
  coded : assembler
  exported : assembler
  imported : assembler
  animated : assembler
  fixed : assembler
  stringtablecount : Nat

/-- The run of `assemble` up to the string fixup table, keeping the assembler
as it is where `include_offset` (`pooled`), `cseg_offset` (`included`),
`exports_offset` (`coded`), `imports_offset` (`exported`), `animtree_offset`
(`imported`) and `stringtablefixup_offset` (`animated`) are taken, and after
the string fixup table (`fixed`). -/
def stages (ctx : context) (self : assembler) (data : assembly) (name : String) :
    Except asm_error assemble_stages := do
  let a0 := self.reset
  let a1 : assembler := { a0 with
    devmap := a0.devmap.set_pos 4
    script := a0.script.set_pos
      (if has_prop ctx.props props.headerxx then 0
       else if has_prop ctx.props props.header72 then 72 else 64) }
  let a2 ← process_string a1 name
  let a3 ← process_functions data.functions a2
  let a4 ← process_strings data.includes a3
  let a5 ← write_includes data.includes a4
  let r ← assemble_functions ctx data.functions a5
  let a7 ← write_exports ctx r.2.exports r.2
  let a8 ← write_imports ctx a7.imports a7
  let a9 ← write_animtrees ctx a8.anims a8
  let t ← write_strings ctx a9.strings 0 a9
  pure
    { pooled := a4
      included := a5
      coded := r.2
      exported := a7
      imported := a8
      animated := a9
      fixed := t.2
      stringtablecount := t.1 }

end arc

namespace arc

/-! ### The header block -/

/-- A run of integer writes, each given as (width, value). -/
def write_fields : List (Nat × Nat) → assembler → Except asm_error assembler
  | [], self => .ok self
  | f :: rest, self => do
    let self1 ← self.write f.1 f.2
    write_fields rest self1

/-- The fields of the header block in the order `assemble` writes them, each
as (width, value). -/
def header_fields (ctx : context) (head : header) : List (Nat × Nat) :=
  [(8, ctx.magic), (4, head.source_crc), (4, head.include_offset), (4, head.animtree_offset),
    (4, head.cseg_offset), (4, head.stringtablefixup_offset)] ++
  (if has_prop ctx.props props.devstr then [(4, head.devblock_stringtablefixup_offset)]
    else []) ++
  [(4, head.exports_offset), (4, head.imports_offset), (4, head.fixup_offset),
    (4, head.profile_offset), (4, head.cseg_size),
    (if has_prop ctx.props props.size64 then 4 else 2, head.name),
    (2, head.stringtablefixup_count), (2, head.exports_count), (2, head.imports_count),
    (2, head.fixup_count), (2, head.profile_count)] ++
  (if has_prop ctx.props props.devstr then [(2, head.devblock_stringtablefixup_count)]
    else []) ++
  [(1, head.include_count), (1, head.animtree_count), (1, head.flags)]

/-- The bytes of the header block: 63, two more with `size64`, six more with
`devstr`. -/
def header_size (ctx : context) : Nat :=
  63 + (if has_prop ctx.props props.size64 then 2 else 0) +
    (if has_prop ctx.props props.devstr then 6 else 0)

/-- The bytes `devstr` adds to the header block before the field
`exports_offset`. -/
def devstr_shift (ctx : context) : Nat :=
  if has_prop ctx.props props.devstr then 4 else 0

end arc

namespace arc

/-! ### Scenario S1 -/

/-- Scenario S1: no includes and the single function `main` with the
instructions `GetUndefined`, `Return`. -/
def scenario_S1 : assembly :=
  { functions :=
      [{ index := 0
         size := 0
         params := 0
         flags := 0
         name := "main"
         instructions :=
           [{ opcode := .OP_GetUndefined, pos := ⟨1, 1⟩, index := 0, size := 0, data := [] },
            { opcode := .OP_Return, pos := ⟨2, 1⟩, index := 0, size := 0, data := [] }]
         labels := [] }]
    includes := [] }

/-- The context of scenario S1: little-endian, `props = {header64, size64}`. -/
def scenario_S1_context : context :=
  { sample_context with props := props.header64 ||| props.size64 }

end arc

namespace arc

/-- A string entry with 256 refs, one more than a run holds. -/
def sample_long_entry : string_ref :=
  { name := "s", type := string_type.literal, refs := (List.range 256).map fun k => 100 + 4 * k }

/-- An assembler with the string `s` pooled at offset 64 and the cursor at 80. -/
def sample_pooled : assembler :=
  { (assembler.create sample_context 4096).seek 80 with strpool := [("s", 64)] }

end arc

namespace arc

/-- The sample context with `devstr` set. -/
def sample_context_devstr : context :=
  { sample_context with props := props.header64 ||| props.devstr }

end arc

namespace arc

/-! ### The string pool -/

/-- The cursor at which `assemble` starts the script. -/
def script_start (ctx : context) : Nat :=
  if has_prop ctx.props props.headerxx then 0
  else if has_prop ctx.props props.header72 then 72 else 64

/-- The writer `w` holds the bytes of `s` followed by a NUL from offset `p` on. -/
def pooled_at (w : utils.writer) (s : String) (p : Nat) : Prop :=
  (∀ k b, (str_bytes s)[k]? = some b → w.data (p + k) = b) ∧
  w.data (p + (str_bytes s).length) = 0

end arc

/-- A result other than the failure `unresolved_string`. -/
def no_unres {α : Type} (x : Except asm_error α) : Prop :=
  x ≠ .error .unresolved_string

namespace arc

/-! ### Names handed to `resolve_string` -/

/-- The string `n` is a key of the pool. -/
def pooled (self : assembler) (n : String) : Prop :=
  n ∈ self.strpool.map Prod.fst

/-- Every `GetInteger` with two operands has `-1` as the second one, the form
that refers to an animtree and to no animation. -/
def animtree_only (data : assembly) : Prop :=
  ∀ f, f ∈ data.functions → ∀ inst, inst ∈ f.instructions →
    inst.opcode = opcode.OP_GetInteger → inst.data.length = 2 → inst.data[1]? = some "-1"

/-- The names that the layout of an instruction records for the tables are
among `K`: the space and the name of an import (the function and call
opcodes), the animtree and the animation other than `-1` of an animation
reference (`GetAnimation`, and `GetInteger` with two operands), and the names
of its string fixups. -/
def names_in (K : String → Prop) (inst : instruction) : Prop :=
  ((kind_of inst.opcode = operand_kind.func ∨ kind_of inst.opcode = operand_kind.call) →
    ∀ d0 d1, inst.data[0]? = some d0 → inst.data[1]? = some d1 → K d0 ∧ K d1) ∧
  ((inst.opcode = opcode.OP_GetAnimation ∨
      (inst.opcode = opcode.OP_GetInteger ∧ inst.data.length = 2)) →
    (∀ d0, inst.data[0]? = some d0 → K d0) ∧
    ∀ d1, inst.data[1]? = some d1 → d1 ≠ "-1" → K d1) ∧
  ∀ p n t r, (n, t, r) ∈ string_fixups inst p → K n

/-- Every name held in the lists of exports, imports, animtrees and string
fixups of the assembler is among `K`. -/
def tables_in (K : String → Prop) (self : assembler) : Prop :=
  (∀ e, e ∈ self.exports → K e.name) ∧
  (∀ e, e ∈ self.imports → K e.name ∧ K e.space) ∧
  (∀ e, e ∈ self.anims → K e.name ∧ ∀ a, a ∈ e.anims → K a.name) ∧
  ∀ e, e ∈ self.strings → K e.name

/-- A function with the one instruction `GetInteger "tree" "walk"`. -/
def sample_animation : function :=
  { index := 0
    size := 0
    params := 0
    flags := 0
    name := "main"
    instructions :=
      [{ opcode := .OP_GetInteger, pos := ⟨1, 1⟩, index := 0, size := 0,
         data := ["tree", "walk"] }]
    labels := [] }

end arc

/-! ## The dev-map -/

/-- The bytes of one dev-map entry (offset, line, column): a `u32` and two
`u16`. -/
def devmap_entry_bytes (swap : Bool) (e : Nat × Nat × Nat) : List Nat :=
  utils.writer.int_bytes swap 4 e.1 ++ utils.writer.int_bytes swap 2 e.2.1 ++
    utils.writer.int_bytes swap 2 e.2.2

/-- Per the spec: the dev-map that holds the entries `entries`: the `u32`
count, then the entries of 8 bytes each. -/
def devmap_bytes (swap : Bool) (entries : List (Nat × Nat × Nat)) : List Nat :=
  utils.writer.int_bytes swap 4 entries.length ++
    (entries.map (devmap_entry_bytes swap)).flatten

/-- The dev-map writer `w` holds the entries `entries` after the four bytes
kept for the count, and its cursor stands after them. -/
def devmap_holds (w : utils.writer) (entries : List (Nat × Nat × Nat)) : Prop :=
  w.pos = 4 + 8 * entries.length ∧
  w.bytes.drop 4 = (entries.map (devmap_entry_bytes w.swap)).flatten

/-- The entries `entries` were logged by the emission up to the script cursor
`p`: their offsets are script offsets from 1 to `p`, in strictly increasing
order. -/
def devmap_ordered (entries : List (Nat × Nat × Nat)) (p : Nat) : Prop :=
  (∀ e, e ∈ entries → 1 ≤ e.1 ∧ e.1 ≤ p) ∧ (entries.map fun e => e.1).Pairwise (· < ·)

namespace arc

/-- What leaves the dev-map alone. -/
structure devmap_kept (a b : assembler) : Prop where
  devmap : b.devmap = a.devmap
  devmap_count : b.devmap_count = a.devmap_count

/-- The sample context built with dev-maps. -/
def sample_context_dev : context :=
  { sample_context with build := build.dev_maps }

end arc

namespace gsc

/-- The sample context built with dev-maps. -/
def sample_context_dev : context :=
  { sample_context with build := build.dev_maps }

end gsc

/-- The dev-map writer `w` and the counter `n` when the emission has reached
the script cursor `p` and has logged the entries `entries`. -/
structure devmap_state (w : utils.writer) (n p : Nat) (entries : List (Nat × Nat × Nat)) :
    Prop where
  holds : devmap_holds w entries
  count : n = entries.length
  ordered : devmap_ordered entries p

namespace arc

/-- The instructions of an assembly in emission order. -/
def instructions_of (data : assembly) : List instruction :=
  data.functions.flatMap fun f => f.instructions

/-- The (line, column) pairs the emission of `insts` logs: one per instruction
when the build has dev-maps, none otherwise. -/
def logged (ctx : context) (insts : List instruction) : List (Nat × Nat) :=
  if ctx.build.has_dev_maps then insts.map fun i => (i.pos.line, i.pos.column) else []

/-- An assembly holding the function of scenario S2. -/
def sample_devmap : assembly :=
  { functions := [scenario_S2], includes := [] }

end arc

namespace gsc

/-- The instructions of an assembly in emission order. -/
def instructions_of (data : assembly) : List instruction :=
  data.functions.flatMap fun f => f.instructions

/-- The (line, column) pairs the emission of `insts` logs: one per instruction
when the build has dev-maps, none otherwise. -/
def logged (ctx : context) (insts : List instruction) : List (Nat × Nat) :=
  if ctx.build.has_dev_maps then insts.map fun i => (i.pos.line, i.pos.column) else []

/-- What the operands of an instruction leave untouched: the script and the
stack only advance, the dev-map is not written. -/
structure op_frame (a b : assembler) : Prop where
  script : a.script.advances b.script
  stack : a.stack.advances b.stack
  devmap : b.devmap = a.devmap
  devmap_count : b.devmap_count = a.devmap_count

/-- An assembly of two functions: `GetByte 1; Return` and the function of
scenario S6. -/
def sample_devmap : assembly :=
  { functions :=
      [{ index := 1
         size := 3
         id := 4
         name := "init"
         instructions :=
           [{ opcode := opcode.OP_GetByte, pos := ⟨3, 5⟩, index := 1, size := 2, data := ["1"] },
            { opcode := opcode.OP_Return, pos := ⟨4, 9⟩, index := 3, size := 1, data := [] }]
         labels := [] },
       { scenario_S6_function with index := 4 }] }

end gsc

/-- The label map the layout loop of `assemble_function` builds: for each
instruction, given as the pair of its old and its new offset, the label that
`old` holds at the old offset is inserted at the new offset into `labels`. -/
def relabel (old : label_map) : List (Nat × Nat) → label_map → label_map
  | [], labels => labels
  | e :: rest, labels =>
    relabel old rest (match labels_find old e.1 with
      | some name => labels_insert labels e.2 name
      | none => labels)

/-! ## Vocabulary for the call encodings and the reference lists -/

namespace utils

namespace writer

/-- The `n` bytes the buffer holds from offset `p`. -/
def slice (w : writer) (p n : Nat) : List Nat :=
  (List.range n).map fun k => w.data (p + k)

end writer

end utils

/-- Recording the values `vs` under the key `k` in a list of keyed records: they
are appended to the first record with that key, or a new record is appended. -/
def keyed_add {K V : Type} [DecidableEq K] (k : K) (vs : List V) :
    List (K × List V) → List (K × List V)
  | [] => [(k, vs)]
  | e :: rest => if e.1 = k then (e.1, e.2 ++ vs) :: rest else e :: keyed_add k vs rest

/-- A sequence of recordings, in call order. -/
def keyed_adds {K V : Type} [DecidableEq K] (calls : List (K × List V))
    (l : List (K × List V)) : List (K × List V) :=
  calls.foldl (fun acc c => keyed_add c.1 c.2 acc) l

/-- The values the calls record under the key `k`, in call order. -/
def keyed_values {K V : Type} [DecidableEq K] (calls : List (K × List V)) (k : K) : List V :=
  ((calls.filter fun c => c.1 = k).map Prod.snd).flatten

/-- The distinct elements of a list in the order of their first occurrence. -/
def first_occurrences {K : Type} [DecidableEq K] : List K → List K
  | [] => []
  | a :: l => a :: (first_occurrences l).filter fun b => b ≠ a

namespace arc

/-- The key under which `add_importref` looks an import up. -/
def import_ref.key (e : import_ref) : String × String × Nat × Nat :=
  (e.space, e.name, e.params, e.flags)

/-- The key of the record that `add_importref` creates for the operands `data`:
`data[0]`, `data[1]` and `std::stoi` of `data[2]` and `data[3]` narrowed to `u8`. -/
def import_call_key (data : List String) : String × String × Nat × Nat :=
  (data.getD 0 "", data.getD 1 "", to_u8 ((stoi (data.getD 2 "")).toOption.getD 0),
    to_u8 ((stoi (data.getD 3 "")).toOption.getD 0))

/-- The operands of an import: four of them, the last two decimal numbers in
the range of a `u8`. -/
def import_call_ok (data : List String) : Prop :=
  ∃ d0 d1 d2 d3 p f, data[0]? = some d0 ∧ data[1]? = some d1 ∧ data[2]? = some d2 ∧
    data[3]? = some d3 ∧ stoi d2 = .ok p ∧ stoi d3 = .ok f ∧
    0 ≤ p ∧ p < 256 ∧ 0 ≤ f ∧ f < 256

/-- A sequence of `add_importref` calls, each given by its operands and its ref. -/
def add_importrefs : List (List String × Nat) → List import_ref →
    Except asm_error (List import_ref)
  | [], l => .ok l
  | c :: rest, l => do
    let l1 ← add_importref c.1 c.2 l
    add_importrefs rest l1

/-- A sequence of `add_animref` calls, each given by its operands and its ref. -/
def add_animrefs : List (List String × Nat) → List animtree_ref →
    Except asm_error (List animtree_ref)
  | [], l => .ok l
  | c :: rest, l => do
    let l1 ← add_animref c.1 c.2 l
    add_animrefs rest l1

/-- What a call of `add_animref` records in `refs`: its ref when the companion
operand is `-1`, nothing otherwise. -/
def anim_call_refs (c : List String × Nat) : String × List Nat :=
  (c.1.getD 0 "", if c.1.getD 1 "" = "-1" then [c.2] else [])

/-- What a call of `add_animref` records in `anims`: the companion operand with
the ref unless the operand is `-1`. -/
def anim_call_anims (c : List String × Nat) : String × List animation_ref :=
  (c.1.getD 0 "", if c.1.getD 1 "" = "-1" then [] else [{ name := c.1.getD 1 "", ref := c.2 }])

end arc

namespace gsc

/-- The far-call opcodes, with `true` for the thread variants. -/
def far_call_thread : opcode → Option Bool
  | .OP_GetFarFunction | .OP_ScriptFarFunctionCall2 | .OP_ScriptFarFunctionCall
  | .OP_ScriptFarMethodCall => some false
  | .OP_ScriptFarThreadCall | .OP_ScriptFarChildThreadCall | .OP_ScriptFarMethodThreadCall
  | .OP_ScriptFarMethodChildThreadCall => some true
  | _ => none

/-- The local-call opcodes, with `true` for the thread variants. -/
def local_call_thread : opcode → Option Bool
  | .OP_GetLocalFunction | .OP_ScriptLocalFunctionCall2 | .OP_ScriptLocalFunctionCall
  | .OP_ScriptLocalMethodCall => some false
  | .OP_ScriptLocalThreadCall | .OP_ScriptLocalChildThreadCall
  | .OP_ScriptLocalMethodThreadCall | .OP_ScriptLocalMethodChildThreadCall => some true
  | _ => none

/-- The path a far call hashes: the extension of the instance is appended
unless the path starts with `_id_`. -/
def far_call_path (ctx : context) (p : String) : String :=
  if (str_bytes p).take 4 = str_bytes "_id_" then p else p ++ extension_of ctx

/-- The shift of `assemble_offset`: 8 with `offs8`, else 9 with `offs9`, else 10. -/
def offset_shift (ctx : context) : Nat :=
  if ctx.props.offs8 then 8 else if ctx.props.offs9 then 9 else 10

/-- Per the spec: `(offs << s) >> 8` in 32-bit signed arithmetic, the left
shift wrapping and the right shift arithmetic. -/
def packed_offset (ctx : context) (offs : Int) : Int :=
  as_i32 (to_u32 (offs * 2 ^ offset_shift ctx)) / 256

/-- What the script `w` holds in the displacement field of entry `j` of a GSC
switch table when that entry starts at offset `q`: the field follows the
four bytes of the value. -/
def switch_disp_written (ctx : context) (labels : label_map) (data : List String)
    (w : utils.writer) (j q : Nat) : Prop :=
  ∃ l addr,
    ((data[1 + 4 * j]? = some "case" ∧ data[1 + 4 * j + 3]? = some l) ∨
      (data[1 + 4 * j]? = some "default" ∧ data[1 + 4 * j + 1]? = some l)) ∧
    resolve_label labels l = .ok addr ∧
    if ctx.engine = engine.iw9 then
      w.read (q + 4) 2 = usize_sub (usize_sub addr q) 4 % 65536
    else
      w.slice (q + 4) 3 =
        utils.writer.int_bytes w.swap 3 (packed_offset ctx (switch_disp addr q) % 16777216).toNat

/-- Per the spec: the stack prefix of a function, `name` being the bytes of
the decoded function name. -/
def prefix_bytes (ctx : context) (swap : Bool) (func : function) (name : List Nat) : List Nat :=
  utils.writer.int_bytes swap 4 func.size ++
    (if ctx.props.hash then utils.writer.int_bytes swap 8 (ctx.hash_id func.name)
     else utils.writer.int_bytes swap (if ctx.props.tok4 then 4 else 2) func.id ++
       (if func.id = 0 then name ++ [0] else []))

/-- The sample context with `farcall`, whose path and name hashes tell the
strings of scenario S4 apart. -/
def sample_context_far : context :=
  { sample_context with
    props := ⟨false, false, false, true, false, false, false⟩
    path_id := fun s => if s = "maps/mp/utility.gsc" then 0x1122334455667788 else 1
    hash_id := fun s => if s = "init" then 0x99AABBCCDDEEFF00 else 2 }

/-- The sample context with `offs8`. -/
def sample_context_offs8 : context :=
  { sample_context with props := ⟨false, false, false, false, true, false, false⟩ }

/-- The sample context on the engine `iw9`. -/
def sample_context_iw9 : context :=
  { sample_context with engine := engine.iw9 }

/-- Scenario S4: `ScriptFarFunctionCall "maps/mp/utility" "init" "0" "0"`. -/
def scenario_S4 : instruction :=
  { opcode := opcode.OP_ScriptFarFunctionCall
    pos := ⟨1, 1⟩
    index := 1
    size := 5
    data := ["maps/mp/utility", "init", "0", "0"] }

/-- A function `init` at offset 100 with no instructions. -/
def sample_callee : function :=
  { index := 100, size := 0, id := 1, name := "init", instructions := [], labels := [] }

/-- An `endswitch` at offset 10 with a single `default` entry. -/
def sample_default_switch : instruction :=
  { opcode := opcode.OP_endswitch
    pos := ⟨1, 1⟩
    index := 10
    size := 0
    data := ["1", "default", "D"] }

end gsc

end xsk
namespace xsk

namespace arc

/-- Three imports: `f` twice, with `g` in between. -/
def sample_import_calls : List (List String × Nat) :=
  [(["", "f", "1", "0"], 4), (["", "g", "1", "0"], 8), (["", "f", "1", "0"], 12)]

/-- Four animtree uses: the tree `a` alone, an animation of `a`, the tree `b`
alone, and `a` alone again. -/
def sample_anim_calls : List (List String × Nat) :=
  [(["a", "-1"], 4), (["a", "run"], 8), (["b", "-1"], 12), (["a", "-1"], 16)]

end arc

namespace gsc

/-- The jump opcodes with the flags `expr` and `back` that `assemble_instruction`
passes to `assemble_jump`. -/
def jump_form : opcode → Option (Bool × Bool)
  | .OP_JumpOnFalseExpr | .OP_JumpOnTrueExpr | .OP_JumpOnFalse | .OP_JumpOnTrue =>
    some (true, false)
  | .OP_jumpback => some (false, true)
  | .OP_jump => some (false, false)
  | _ => none

/-- A `jumpback` at offset 10 to the label `loop`. -/
def sample_jumpback : instruction :=
  { opcode := opcode.OP_jumpback
    pos := ⟨1, 1⟩
    index := 10
    size := 3
    data := ["loop"] }

/-- A `jump` at offset 10 to the label `out`. -/
def sample_jump : instruction :=
  { opcode := opcode.OP_jump
    pos := ⟨1, 1⟩
    index := 10
    size := 5
    data := ["out"] }

/-- A `ScriptLocalThreadCall` at offset 1 of the function `init` with two
arguments. -/
def sample_local_call : instruction :=
  { opcode := opcode.OP_ScriptLocalThreadCall
    pos := ⟨1, 1⟩
    index := 1
    size := 5
    data := ["init", "2"] }

/-- An assembler of capacity 64 whose script cursor is at offset `n`. -/
def sample_assembler_at (ctx : context) (n : Nat) : assembler :=
  { assembler.create ctx 64 with script := (utils.writer.create ctx.big_endian 64).seek n }

end gsc

end xsk
namespace xsk

namespace gsc

/-- A far call whose path is an encoded string. -/
def sample_far_encoded : instruction :=
  { opcode := opcode.OP_ScriptFarFunctionCall
    pos := ⟨1, 1⟩
    index := 1
    size := 4
    data := ["_encstr_6162", "f", "0"] }

/-- A field access whose name is an encoded string. -/
def sample_field_encoded : instruction :=
  { opcode := opcode.OP_EvalFieldVariable
    pos := ⟨1, 1⟩
    index := 1
    size := 3
    data := ["_encstr_6162"] }

/-- The field-variable opcodes, which `assemble_instruction` passes to
`assemble_field`. -/
def field_op : opcode → Bool
  | .OP_EvalSelfFieldVariable | .OP_SetLevelFieldVariableField | .OP_ClearFieldVariable
  | .OP_EvalFieldVariable | .OP_EvalFieldVariableRef | .OP_EvalLevelFieldVariable
  | .OP_SetAnimFieldVariableField | .OP_SetSelfFieldVariableField
  | .OP_EvalAnimFieldVariableRef | .OP_EvalLevelFieldVariableRef | .OP_EvalAnimFieldVariable
  | .OP_EvalSelfFieldVariableRef => true
  | _ => false

/-- The path a far call without `farcall` writes to the stack: the extension of
the instance is appended when the `extension` flag is set. -/
def far_token_path (ctx : context) (p : String) : String :=
  if ctx.props.extension then p ++ extension_of ctx else p

/-- The identifier `assemble_field` writes: `token_id`, with 0 replaced by
`0xFFFFFFFF`. -/
def field_id (ctx : context) (name : String) : Nat :=
  if ctx.token_id name = 0 then 0xFFFFFFFF else ctx.token_id name

end gsc

end xsk

namespace xsk

namespace arc

/-- Scenario S2 with a second label, at an offset where no instruction
starts. -/
def sample_relabel : function :=
  { scenario_S2 with labels := [(3, "L1"), (7, "gone")] }

end arc

end xsk

namespace xsk

namespace arc

/-- The opcodes whose layout records an import ref: `GetFunction` and the call
family. -/
def import_op : opcode → Bool
  | .OP_GetFunction | .OP_CallBuiltin | .OP_CallBuiltinMethod | .OP_ScriptFunctionCall
  | .OP_ScriptMethodCall | .OP_ScriptThreadCall | .OP_ScriptMethodThreadCall => true
  | _ => false

/-- The `add_importref` calls of a list of laid-out instructions: for each import
instruction, in order, its operands and its `index` as a `u32`. -/
def import_calls (is : List instruction) : List (List String × Nat) :=
  (is.filter fun i => import_op i.opcode).map fun i => (i.data, i.index % 4294967296)

/-- The offset of the 4-byte operand slot of an import instruction whose opcode
byte is at `p`: the next multiple of 4 after the opcode byte, and for the call
family after the byte that follows it. -/
def import_slot (op : opcode) (p : Nat) : Nat :=
  if op = opcode.OP_GetFunction then utils.writer.align_up (p + 1) 4
  else utils.writer.align_up (p + 2) 4

/-- A function that takes the address of the import `f` and then calls it:
`[GetFunction f; ScriptFunctionCall f; Return]`. -/
def sample_calls : function :=
  { index := 0
    size := 0
    params := 0
    flags := 0
    name := "main"
    instructions :=
      [{ opcode := .OP_GetFunction, pos := ⟨1, 1⟩, index := 0, size := 0,
         data := ["", "f", "0", "0"] },
       { opcode := .OP_ScriptFunctionCall, pos := ⟨2, 1⟩, index := 0, size := 0,
         data := ["", "f", "0", "0"] },
       { opcode := .OP_Return, pos := ⟨3, 1⟩, index := 0, size := 0, data := [] }]
    labels := [] }

end arc

end xsk


namespace xsk

namespace gsc

/-- The pairs of bytes the loop of `encrypt_string` hands to `std::stoul`, in
order. -/
def byte_pairs : List Nat → List (List Nat)
  | a :: b :: rest => [a, b] :: byte_pairs rest
  | _ => []

/-- The byte the loop of `encrypt_string` appends for one pair: the value
`std::stoul` reads in base 16, narrowed to a `char`. -/
def pair_byte (p : List Nat) : Nat :=
  match stoul_base 16 p with
  | .ok v => v % 256
  | .error _ => 0

end gsc

end xsk

namespace xsk

namespace arc

/-- The script of `b` has recorded the writes of `a` and, after them, those
made on the way from `a` to `b`. -/
def script_extends (a b : assembler) : Prop :=
  ∃ ws, b.script.writes = a.script.writes ++ ws

/-- The first write the script records on the way from `a` to `b` is `width`
bytes at the cursor of `a`. -/
def first_write (a b : assembler) (width : Nat) : Prop :=
  ∃ ws, b.script.writes = a.script.writes ++ (a.script.pos, width) :: ws

/-- The writes from `a` to `b` start with the `width`-byte integer `v` at the
cursor of `a`: that write is the first one recorded after those of `a`, the
cursor of `b` is past it, and the script of `b` holds `v` there. -/
def table_start (a b : assembler) (width v : Nat) : Prop :=
  first_write a b width ∧ a.script.pos + width ≤ b.script.pos ∧
    b.script.read a.script.pos width = v % 256 ^ width

/-- The integer the image `img` holds in the `width` bytes at `off`, in the
byte order given by `swap`; `none` when the image ends before the field does. -/
def image_field (swap : Bool) (img : List Nat) (off width : Nat) : Option Nat :=
  if off + width ≤ img.length then
    some (if swap then utils.writer.read_be (fun i => img.getD i 0) off width
      else utils.writer.read_le (fun i => img.getD i 0) off width)
  else none

/-- The `width`-byte integer `v` stands in the image `img` at the cursor of
`a`, provided that cursor is past the header block, which `assemble` writes
last from offset 0. -/
def table_in_image (ctx : context) (swap : Bool) (img : List Nat) (a : assembler)
    (width v : Nat) : Prop :=
  header_size ctx ≤ a.script.pos →
    image_field swap img a.script.pos width = some (v % 256 ^ width)

end arc

end xsk

namespace xsk

namespace arc

end arc

namespace gsc

end gsc

end xsk

namespace xsk

/-! ## Results and the byte writer -/

theorem bind_eq_ok {ε α β : Type} (x : Except ε α) (f : α → Except ε β) (b : β) :
    (x >>= f) = .ok b ↔ ∃ a, x = .ok a ∧ f a = .ok b := by
  cases x with
  | error e => simp [bind, Except.bind]
  | ok a => simp [bind, Except.bind]

theorem operand_eq_ok (data : List String) (k : Nat) (s : String) :
    operand data k = .ok s ↔ data[k]? = some s := by
  unfold operand
  cases h : data[k]? <;> simp

namespace utils

theorem align_up_dvd (p n : Nat) : n ∣ writer.align_up p n := by
  unfold writer.align_up
  exact Nat.dvd_mul_left _ _

theorem align_up_ge (p n : Nat) (hn : 0 < n) : p ≤ writer.align_up p n := by
  unfold writer.align_up
  have h := Nat.div_add_mod (p + (n - 1)) n
  have h2 := Nat.mod_lt (p + (n - 1)) hn
  rw [Nat.mul_comm] at h
  omega

theorem align_up_lt (p n : Nat) (hn : 0 < n) : writer.align_up p n < p + n := by
  unfold writer.align_up
  have h := Nat.div_add_mod (p + (n - 1)) n
  rw [Nat.mul_comm] at h
  omega

theorem align_up_of_dvd (p n : Nat) (hn : 0 < n) (h : n ∣ p) : writer.align_up p n = p := by
  obtain ⟨k, rfl⟩ := h
  unfold writer.align_up
  have h1 : (n * k + (n - 1)) / n = k := by
    rw [Nat.mul_add_div hn]
    have : (n - 1) / n = 0 := Nat.div_eq_of_lt (by omega)
    omega
  rw [h1, Nat.mul_comm]

theorem put_ok (w w' : writer) (bs : List Nat) (h : w.put bs = .ok w') :
    w.pos + bs.length ≤ w.size ∧ w'.pos = w.pos + bs.length ∧ w'.swap = w.swap ∧
    w'.size = w.size ∧ w'.writes = w.writes ++ [(w.pos, bs.length)] ∧
    (∀ i, w'.data i =
      if w.pos ≤ i ∧ i < w.pos + bs.length then bs.getD (i - w.pos) 0 else w.data i) := by
  unfold writer.put at h
  split at h
  · cases h
  · cases h
    exact ⟨by omega, rfl, rfl, rfl, rfl, fun i => rfl⟩

theorem put_of_fits (w : writer) (bs : List Nat) (h : w.pos + bs.length ≤ w.size) :
    ∃ w', w.put bs = .ok w' := by
  unfold writer.put
  rw [if_neg (by omega)]
  exact ⟨_, rfl⟩

theorem int_bytes_length (swap : Bool) (width v : Nat) :
    (writer.int_bytes swap width v).length = width := by
  simp [writer.int_bytes]

theorem int_bytes_getD (swap : Bool) (width v k : Nat) (hk : k < width) :
    (writer.int_bytes swap width v).getD k 0 = writer.byte_at swap width v k := by
  simp [writer.int_bytes, List.getD, hk]

theorem write_ok (w w' : writer) (width v : Nat) (h : w.write width v = .ok w') :
    w.pos + width ≤ w.size ∧ w'.pos = w.pos + width ∧ w'.swap = w.swap ∧ w'.size = w.size ∧
    w'.writes = w.writes ++ [(w.pos, width)] ∧
    (∀ k, k < width → w'.data (w.pos + k) = writer.byte_at w.swap width v k) ∧
    (∀ i, i < w.pos ∨ w.pos + width ≤ i → w'.data i = w.data i) := by
  obtain ⟨h1, h2, h3, h4, h5, h6⟩ := put_ok _ _ _ h
  rw [int_bytes_length] at h1 h2 h5 h6
  refine ⟨h1, h2, h3, h4, h5, ?_, ?_⟩
  · intro k hk
    rw [h6, if_pos ⟨by omega, by omega⟩, Nat.add_sub_cancel_left, int_bytes_getD _ _ _ _ hk]
  · intro i hi
    rw [h6, if_neg (by omega)]

theorem write_of_fits (w : writer) (width v : Nat) (h : w.pos + width ≤ w.size) :
    ∃ w', w.write width v = .ok w' := by
  unfold writer.write
  exact put_of_fits _ _ (by rw [int_bytes_length]; exact h)

theorem read_write_1 (w w' : writer) (v : Nat) (h : w.write 1 v = .ok w') :
    w'.read w.pos 1 = v % 256 := by
  obtain ⟨_, _, hs, _, _, hd, _⟩ := write_ok _ _ _ _ h
  have h0 := hd 0 (by omega)
  simp only [Nat.add_zero] at h0
  unfold writer.read
  simp only [hs, writer.read_le, writer.read_be, h0]
  cases hsw : w.swap <;> simp [writer.byte_at]

theorem read_write_2 (w w' : writer) (v : Nat) (h : w.write 2 v = .ok w') :
    w'.read w.pos 2 = v % 65536 := by
  obtain ⟨_, _, hs, _, _, hd, _⟩ := write_ok _ _ _ _ h
  have h0 := hd 0 (by omega)
  have h1 := hd 1 (by omega)
  simp only [Nat.add_zero] at h0
  unfold writer.read
  simp only [hs, writer.read_le, writer.read_be, Nat.add_assoc, h0, h1]
  cases hsw : w.swap <;> simp [writer.byte_at] <;> omega

theorem read_write_4 (w w' : writer) (v : Nat) (h : w.write 4 v = .ok w') :
    w'.read w.pos 4 = v % 4294967296 := by
  obtain ⟨_, _, hs, _, _, hd, _⟩ := write_ok _ _ _ _ h
  have h0 := hd 0 (by omega)
  have h1 := hd 1 (by omega)
  have h2 := hd 2 (by omega)
  have h3 := hd 3 (by omega)
  simp only [Nat.add_zero] at h0
  unfold writer.read
  simp only [hs, writer.read_le, writer.read_be, Nat.add_assoc, h0, h1, h2, h3]
  cases hsw : w.swap <;> simp [writer.byte_at] <;> omega

/-- Reading depends only on the bytes read and on the byte order. -/
theorem read_le_congr (d d' : Nat → Nat) (off width : Nat)
    (h : ∀ i, off ≤ i → i < off + width → d' i = d i) :
    writer.read_le d' off width = writer.read_le d off width := by
  induction width generalizing off with
  | zero => rfl
  | succ n ih =>
    simp only [writer.read_le]
    rw [h off (by omega) (by omega), ih (off + 1) (fun i h1 h2 => h i (by omega) (by omega))]

theorem read_be_congr (d d' : Nat → Nat) (off width : Nat)
    (h : ∀ i, off ≤ i → i < off + width → d' i = d i) :
    writer.read_be d' off width = writer.read_be d off width := by
  induction width generalizing off with
  | zero => rfl
  | succ n ih =>
    simp only [writer.read_be]
    rw [h off (by omega) (by omega), ih (off + 1) (fun i h1 h2 => h i (by omega) (by omega))]

theorem read_congr (w w' : writer) (off width : Nat) (hs : w'.swap = w.swap)
    (h : ∀ i, off ≤ i → i < off + width → w'.data i = w.data i) :
    w'.read off width = w.read off width := by
  unfold writer.read
  rw [hs, read_le_congr _ _ _ _ h, read_be_congr _ _ _ _ h]

theorem advances_refl (w : writer) : w.advances w :=
  ⟨rfl, rfl, Nat.le_refl _, fun _ _ => rfl, fun _ _ => rfl⟩

theorem advances_trans {a b c : writer} (h1 : a.advances b) (h2 : b.advances c) :
    a.advances c :=
  ⟨h2.swap.trans h1.swap, h2.size.trans h1.size, Nat.le_trans h1.le h2.le,
    fun i hi => (h2.below i (Nat.lt_of_lt_of_le hi h1.le)).trans (h1.below i hi),
    fun i hi => (h2.above i hi).trans (h1.above i (Nat.le_trans h2.le hi))⟩

theorem advances_put (w w' : writer) (bs : List Nat) (h : w.put bs = .ok w') :
    w.advances w' := by
  obtain ⟨_, h2, h3, h4, _, h6⟩ := put_ok _ _ _ h
  refine ⟨h3, h4, by omega, ?_, ?_⟩
  · intro i hi
    rw [h6, if_neg (by omega)]
  · intro i hi
    rw [h6, if_neg (by omega)]

theorem advances_write (w w' : writer) (width v : Nat) (h : w.write width v = .ok w') :
    w.advances w' :=
  advances_put _ _ _ h

theorem advances_seek (w : writer) (n : Nat) : w.advances (w.seek n) :=
  ⟨rfl, rfl, Nat.le_add_right _ _, fun _ _ => rfl, fun _ _ => rfl⟩

theorem advances_align (w : writer) (n : Nat) (hn : 0 < n) : w.advances (w.align n).2 :=
  ⟨rfl, rfl, align_up_ge _ _ hn, fun _ _ => rfl, fun _ _ => rfl⟩

/-- Bytes that a later forward write leaves alone read the same. -/
theorem read_of_advances {a b : writer} (h : a.advances b) (off width : Nat)
    (hw : off + width ≤ a.pos) : b.read off width = a.read off width :=
  read_congr _ _ _ _ h.swap (fun i _ h2 => h.below i (by omega))

end utils

end xsk

namespace xsk

namespace arc

/-! ## ARC layout of one instruction -/

theorem layout_frame_refl (a : assembler) : layout_frame a a :=
  ⟨rfl, rfl, rfl, rfl, rfl, rfl, rfl, rfl⟩

theorem layout_frame_trans {a b c : assembler} (h1 : layout_frame a b) (h2 : layout_frame b c) :
    layout_frame a c :=
  ⟨h2.data.trans h1.data, h2.swap.trans h1.swap, h2.size.trans h1.size,
    h2.writes.trans h1.writes, h2.devmap.trans h1.devmap, h2.strpool.trans h1.strpool,
    h2.exports.trans h1.exports, h2.devmap_count.trans h1.devmap_count⟩

theorem slots_end_ge (n q : Nat) : q ≤ slots_end n q := by
  induction n generalizing q with
  | zero => simp [slots_end]
  | succ n ih =>
    simp only [slots_end]
    have := ih (utils.writer.align_up q 2 + 2)
    have := utils.align_up_ge q 2 (by omega)
    omega

theorem add_stringrefs_cons (f : String × string_type × Nat) (fs : List (String × string_type × Nat))
    (l : List string_ref) :
    add_stringrefs (f :: fs) l = add_stringrefs fs (add_stringref f.1 f.2.1 f.2.2 l) := rfl

theorem add_stringrefs_append (fs gs : List (String × string_type × Nat)) (l : List string_ref) :
    add_stringrefs (fs ++ gs) l = add_stringrefs gs (add_stringrefs fs l) := by
  simp [add_stringrefs, List.foldl_append]

/-- Layout of the slots of `OP_SafeCreateLocalVariables`. -/
theorem align_localvars_spec (data : List String) (size : Nat) (self : assembler) :
    (align_localvars data size self).2.script.pos = slots_end data.length self.script.pos ∧
    (align_localvars data size self).1 =
      size + (slots_end data.length self.script.pos - self.script.pos) ∧
    (align_localvars data size self).2.strings =
      add_stringrefs ((data.zip (slot_offsets data.length self.script.pos)).map
        fun e => (e.1, string_type.canonical, e.2 % 4294967296)) self.strings ∧
    (align_localvars data size self).2.imports = self.imports ∧
    (align_localvars data size self).2.anims = self.anims ∧
    layout_frame self (align_localvars data size self).2 := by
  induction data generalizing size self with
  | nil => exact ⟨rfl, by simp [align_localvars, slots_end], rfl, rfl, rfl, layout_frame_refl _⟩
  | cons d ds ih =>
    simp only [align_localvars, List.length_cons, slots_end, slot_offsets, List.zip_cons_cons,
      List.map_cons, add_stringrefs_cons]
    refine ⟨?_, ?_, ?_, ?_, ?_, ?_⟩
    · rw [(ih _ _).1]; rfl
    · rw [(ih _ _).2.1]
      have hge := utils.align_up_ge self.script.pos 2 (by omega)
      have hge2 := slots_end_ge ds.length (utils.writer.align_up self.script.pos 2 + 2)
      simp only [assembler.seek, assembler.align, utils.writer.seek, utils.writer.align]
      omega
    · rw [(ih _ _).2.2.1]; rfl
    · rw [(ih _ _).2.2.2.1]; rfl
    · rw [(ih _ _).2.2.2.2.1]; rfl
    · obtain ⟨h1, h2, h3, h4, h5, h6, h7, h8⟩ := (ih (size + ((self.align 2).1 + 2)) _).2.2.2.2.2
      exact ⟨h1, h2, h3, h4, h5, h6, h7, h8⟩

/-- Layout of the entries of `OP_EndSwitch`. -/
theorem align_switch_cases_spec (data : List String) (n i size : Nat) (self : assembler)
    (r : Nat × assembler) (h : align_switch_cases data n i size self = .ok r) :
    r.2.script.pos = self.script.pos + 8 * n ∧ r.1 = size + 8 * n ∧
    r.2.strings = add_stringrefs (switch_fixups data n i self.script.pos) self.strings ∧
    r.2.imports = self.imports ∧ r.2.anims = self.anims ∧ layout_frame self r.2 := by
  induction n generalizing i size self with
  | zero =>
    simp only [align_switch_cases, Except.ok.injEq] at h
    subst h
    exact ⟨rfl, rfl, rfl, rfl, rfl, layout_frame_refl _⟩
  | succ n ih =>
    simp only [align_switch_cases, bind_eq_ok] at h
    obtain ⟨head, hhead, h⟩ := h
    rw [operand_eq_ok] at hhead
    have hskip : ∀ self1 : assembler, self1.script = self.script → self1.strings = self.strings →
        self1.imports = self.imports → self1.anims = self.anims → layout_frame self self1 →
        switch_fixups data (n + 1) i self.script.pos = switch_fixups data n (i + 1) (self.script.pos + 8) →
        align_switch_cases data n (i + 1) (size + 8) (self1.seek 8) = .ok r →
        r.2.script.pos = self.script.pos + 8 * (n + 1) ∧ r.1 = size + 8 * (n + 1) ∧
        r.2.strings = add_stringrefs (switch_fixups data (n + 1) i self.script.pos) self.strings ∧
        r.2.imports = self.imports ∧ r.2.anims = self.anims ∧ layout_frame self r.2 := by
      intro self1 hs1 hs2 hs3 hs4 hf hfix h
      obtain ⟨h1, h2, h3, h4, h5, h6⟩ := ih _ _ _ h
      simp only [assembler.seek, utils.writer.seek, hs1] at h1 h3 h4 h5
      refine ⟨by omega, by omega, ?_, h4.trans hs3, h5.trans hs4, ?_⟩
      · rw [hfix, h3, hs2]
      · refine layout_frame_trans hf (layout_frame_trans ?_ h6)
        exact ⟨rfl, rfl, rfl, rfl, rfl, rfl, rfl, rfl⟩
    split at h
    · rename_i hcase
      subst hcase
      simp only [bind_eq_ok] at h
      obtain ⟨t, ht, type, htype, h⟩ := h
      rw [operand_eq_ok] at ht
      split at h
      · rename_i hstr
        simp only [bind_eq_ok] at h
        obtain ⟨name, hname, h⟩ := h
        rw [operand_eq_ok] at hname
        obtain ⟨h1, h2, h3, h4, h5, h6⟩ := ih _ _ _ h
        have hfix : switch_fixups data (n + 1) i self.script.pos =
            (name, string_type.literal, (self.script.pos + 2) % 4294967296) ::
              switch_fixups data n (i + 1) (self.script.pos + 8) := by
          simp [switch_fixups, hhead, ht, htype, hstr, Except.toOption, List.getD, hname]
        simp only [assembler.seek, utils.writer.seek] at h1 h3 h4 h5
        refine ⟨by omega, by omega, ?_, h4, h5, ?_⟩
        · rw [hfix, add_stringrefs_cons, h3]
        · refine layout_frame_trans ?_ h6
          exact ⟨rfl, rfl, rfl, rfl, rfl, rfl, rfl, rfl⟩
      · rename_i hstr
        refine hskip self rfl rfl rfl rfl (layout_frame_refl _) ?_ h
        simp [switch_fixups, hhead, ht, htype, hstr, Except.toOption]
    · rename_i hcase
      refine hskip self rfl rfl rfl rfl (layout_frame_refl _) ?_ h
      have : ¬ data[1 + 4 * i]? = some "case" := by
        rw [hhead]; intro hh; exact hcase (Option.some.inj hh)
      simp [switch_fixups, this]

end arc

end xsk

namespace xsk

namespace arc

theorem layout_frame_script {a : assembler} (w : utils.writer) (hd : w.data = a.script.data)
    (hs : w.swap = a.script.swap) (hz : w.size = a.script.size)
    (hw : w.writes = a.script.writes) : layout_frame a { a with script := w } :=
  ⟨hd, hs, hz, hw, rfl, rfl, rfl, rfl⟩

set_option maxHeartbeats 4000000 in
/-- Layout of the operands of one instruction: the cursor moves to
`operands_end`, the size grows by the padding and the variable part, the
string fixups are those of `string_fixups`. -/
theorem align_operands_spec (self self' : assembler) (inst inst' : instruction)
    (h : align_operands self inst = .ok (inst', self')) :
    inst'.opcode = inst.opcode ∧ inst'.index = inst.index ∧ inst'.data = inst.data ∧
    inst'.pos = inst.pos ∧
    self'.script.pos = operands_end inst self.script.pos ∧
    inst'.size + (base_size inst.opcode - 1) + self.script.pos =
      inst.size + operands_end inst self.script.pos ∧
    self'.strings = add_stringrefs (string_fixups inst self.script.pos) self.strings ∧
    layout_frame self self' := by
  obtain ⟨op, ps, idx, sz, data⟩ := inst
  have a2 := utils.align_up_ge self.script.pos 2 (by omega)
  have a4 := utils.align_up_ge self.script.pos 4 (by omega)
  have a41 := utils.align_up_ge (self.script.pos + 1) 4 (by omega)
  cases op <;> simp only [align_operands] at h
  all_goals first
    | (simp only [Except.ok.injEq, Prod.mk.injEq] at h
       obtain ⟨rfl, rfl⟩ := h
       refine ⟨rfl, rfl, rfl, rfl, ?_, ?_, ?_, ?_⟩
       · simp [operands_end, kind_of, assembler.seek, assembler.align, utils.writer.seek,
           utils.writer.align]
       · simp only [operands_end, kind_of, base_size, assembler.seek, assembler.align,
           utils.writer.seek, utils.writer.align]
         omega
       · simp [string_fixups, kind_of, add_stringrefs, assembler.seek, assembler.align]
       · exact ⟨rfl, rfl, rfl, rfl, rfl, rfl, rfl, rfl⟩)
    | skip
  case mk.OP_Invalid => cases h
  case mk.OP_GetString | mk.OP_GetIString | mk.OP_EvalFieldVariable | mk.OP_EvalFieldVariableRef
      | mk.OP_ClearFieldVariable =>
    simp only [bind_eq_ok, pure, Except.pure, Except.ok.injEq, Prod.mk.injEq] at h
    obtain ⟨d0, hd0, rfl, rfl⟩ := h
    rw [operand_eq_ok] at hd0
    refine ⟨rfl, rfl, rfl, rfl, ?_, ?_, ?_, ?_⟩
    · simp [operands_end, kind_of, assembler.seek, assembler.align, utils.writer.seek,
        utils.writer.align]
    · simp only [operands_end, kind_of, base_size, assembler.seek, assembler.align,
        utils.writer.seek, utils.writer.align]
      omega
    · simp [string_fixups, kind_of, add_stringrefs, assembler.seek, assembler.align,
        utils.writer.align, List.getD, hd0]
    · exact ⟨rfl, rfl, rfl, rfl, rfl, rfl, rfl, rfl⟩
  case mk.OP_GetAnimation =>
    simp only [bind_eq_ok, pure, Except.pure, Except.ok.injEq, Prod.mk.injEq] at h
    obtain ⟨an, -, rfl, rfl⟩ := h
    refine ⟨rfl, rfl, rfl, rfl, ?_, ?_, ?_, ?_⟩
    · simp [operands_end, kind_of, assembler.seek, assembler.align, utils.writer.seek,
        utils.writer.align]
    · simp only [operands_end, kind_of, base_size, assembler.seek, assembler.align,
        utils.writer.seek, utils.writer.align]
      omega
    · simp [string_fixups, kind_of, add_stringrefs, assembler.seek, assembler.align]
    · exact ⟨rfl, rfl, rfl, rfl, rfl, rfl, rfl, rfl⟩
  case mk.OP_GetInteger =>
    split at h
    · simp only [bind_eq_ok, pure, Except.pure, Except.ok.injEq, Prod.mk.injEq] at h
      obtain ⟨an, -, rfl, rfl⟩ := h
      refine ⟨rfl, rfl, rfl, rfl, ?_, ?_, ?_, ?_⟩
      · simp [operands_end, kind_of, assembler.seek, assembler.align, utils.writer.seek,
          utils.writer.align]
      · simp only [operands_end, kind_of, base_size, assembler.seek, assembler.align,
          utils.writer.seek, utils.writer.align]
        omega
      · simp [string_fixups, kind_of, add_stringrefs, assembler.seek, assembler.align]
      · exact ⟨rfl, rfl, rfl, rfl, rfl, rfl, rfl, rfl⟩
    · simp only [Except.ok.injEq, Prod.mk.injEq] at h
      obtain ⟨rfl, rfl⟩ := h
      refine ⟨rfl, rfl, rfl, rfl, ?_, ?_, ?_, ?_⟩
      · simp [operands_end, kind_of, assembler.seek, assembler.align, utils.writer.seek,
          utils.writer.align]
      · simp only [operands_end, kind_of, base_size, assembler.seek, assembler.align,
          utils.writer.seek, utils.writer.align]
        omega
      · simp [string_fixups, kind_of, add_stringrefs, assembler.seek, assembler.align]
      · exact ⟨rfl, rfl, rfl, rfl, rfl, rfl, rfl, rfl⟩
  case mk.OP_GetFunction | mk.OP_CallBuiltin | mk.OP_CallBuiltinMethod | mk.OP_ScriptFunctionCall
      | mk.OP_ScriptMethodCall | mk.OP_ScriptThreadCall | mk.OP_ScriptMethodThreadCall =>
    simp only [bind_eq_ok, pure, Except.pure, Except.ok.injEq, Prod.mk.injEq] at h
    obtain ⟨im, -, rfl, rfl⟩ := h
    refine ⟨rfl, rfl, rfl, rfl, ?_, ?_, ?_, ?_⟩
    · simp [operands_end, kind_of, assembler.seek, assembler.align, utils.writer.seek,
        utils.writer.align]
    · simp only [operands_end, kind_of, base_size, assembler.seek, assembler.align,
        utils.writer.seek, utils.writer.align]
      omega
    · simp [string_fixups, kind_of, add_stringrefs, assembler.seek, assembler.align]
    · exact ⟨rfl, rfl, rfl, rfl, rfl, rfl, rfl, rfl⟩
  case mk.OP_SafeCreateLocalVariables =>
    simp only [Except.ok.injEq, Prod.mk.injEq] at h
    obtain ⟨rfl, rfl⟩ := h
    obtain ⟨h1, h2, h3, -, -, h6⟩ := align_localvars_spec data sz (self.seek 1)
    have hge := slots_end_ge data.length (self.script.pos + 1)
    have h2 : (align_localvars data sz (self.seek 1)).1 =
        sz + (slots_end data.length (self.script.pos + 1) - (self.script.pos + 1)) := h2
    refine ⟨rfl, rfl, rfl, rfl, ?_, ?_, ?_, ?_⟩
    · simp only [operands_end, kind_of]
      exact h1
    · simp only [operands_end, kind_of, base_size]
      rw [h2]
      omega
    · simp only [string_fixups, kind_of]
      exact h3
    · exact layout_frame_trans (b := self.seek 1) ⟨rfl, rfl, rfl, rfl, rfl, rfl, rfl, rfl⟩ h6
  case mk.OP_EndSwitch =>
    simp only [bind_eq_ok, pure, Except.pure, Except.ok.injEq, Prod.mk.injEq] at h
    obtain ⟨d0, hd0, count, hcount, r, hr, rfl, rfl⟩ := h
    rw [operand_eq_ok] at hd0
    have hsc : switch_count data = count := by
      simp [switch_count, hd0, hcount]
    obtain ⟨h1, h2, h3, -, -, h6⟩ := align_switch_cases_spec _ _ _ _ _ _ hr
    have h1 : r.2.script.pos = utils.writer.align_up self.script.pos 4 + 4 + 8 * count := h1
    have h2 : r.1 = sz + (utils.writer.align_up self.script.pos 4 - self.script.pos) + 8 * count :=
      h2
    refine ⟨rfl, rfl, rfl, rfl, ?_, ?_, ?_, ?_⟩
    · simp only [operands_end, kind_of, hsc]
      exact h1
    · simp only [operands_end, kind_of, base_size, hsc, h2]
      omega
    · simp only [string_fixups, kind_of, hsc]
      exact h3
    · exact layout_frame_trans (b := (self.align 4).2.seek 4)
        ⟨rfl, rfl, rfl, rfl, rfl, rfl, rfl, rfl⟩ h6

end arc

end xsk

namespace xsk

theorem usize_sub_sub_mod32 (a b c : Nat) :
    usize_sub (usize_sub a b) c % 4294967296 =
      (((a : Int) - ((b : Int) + (c : Int))) % 4294967296).toNat := by
  unfold usize_sub
  omega

theorem usize_sub_sub_mod16 (a b c : Nat) :
    usize_sub (usize_sub a b) c % 65536 =
      (((a : Int) - ((b : Int) + (c : Int))) % 65536).toNat := by
  unfold usize_sub
  omega

theorem as_i32_exact (x : Int) (h1 : -2147483648 ≤ x) (h2 : x < 2147483648) :
    as_i32 ((x % 4294967296).toNat) = x := by
  unfold as_i32
  split <;> omega

theorem as_i16_exact (x : Int) (h1 : -32768 ≤ x) (h2 : x < 32768) :
    as_i16 ((x % 65536).toNat) = x := by
  unfold as_i16
  split <;> omega

namespace arc

/-! ## ARC emission of one instruction -/

theorem emit_frame_refl (a : assembler) : emit_frame a a :=
  ⟨utils.advances_refl _, rfl, rfl, rfl, rfl, rfl⟩

theorem emit_frame_trans {a b c : assembler} (h1 : emit_frame a b) (h2 : emit_frame b c) :
    emit_frame a c :=
  ⟨utils.advances_trans h1.script h2.script, h2.strpool.trans h1.strpool,
    h2.exports.trans h1.exports, h2.imports.trans h1.imports, h2.strings.trans h1.strings,
    h2.anims.trans h1.anims⟩

/-- A script write changes nothing but the script writer. -/
theorem assembler_write_ok (self self' : assembler) (width v : Nat)
    (h : self.write width v = .ok self') :
    self.script.write width v = .ok self'.script ∧ self' = { self with script := self'.script } := by
  unfold assembler.write at h
  split at h
  · cases h
    rename_i w hw
    exact ⟨hw, rfl⟩
  · cases h

theorem assembler_write_of_fits (self : assembler) (width v : Nat)
    (h : self.script.pos + width ≤ self.script.size) : ∃ self', self.write width v = .ok self' := by
  obtain ⟨w, hw⟩ := utils.write_of_fits self.script width v h
  exact ⟨{ self with script := w }, by simp [assembler.write, hw]⟩

/-- The effect of one script write on the assembler. -/
theorem assembler_write_spec (self self' : assembler) (width v : Nat)
    (h : self.write width v = .ok self') :
    self'.script.pos = self.script.pos + width ∧
    self'.script.writes = self.script.writes ++ [(self.script.pos, width)] ∧
    emit_frame self self' ∧ self'.devmap = self.devmap ∧
    self'.devmap_count = self.devmap_count := by
  obtain ⟨hw, hs⟩ := assembler_write_ok _ _ _ _ h
  obtain ⟨_, h2, _, _, h5, _, _⟩ := utils.write_ok _ _ _ _ hw
  refine ⟨h2, h5, ⟨utils.advances_write _ _ _ _ hw, ?_, ?_, ?_, ?_, ?_⟩, ?_, ?_⟩ <;>
    (rw [hs])

/-- Aligning the script cursor changes nothing but the cursor. -/
theorem assembler_align_frame (self : assembler) (n : Nat) (hn : 0 < n) :
    emit_frame self (self.align n).2 :=
  ⟨utils.advances_align _ _ hn, rfl, rfl, rfl, rfl, rfl⟩

theorem emitted_refl (a : assembler) : emitted a a a.script.pos [] :=
  ⟨rfl, by simp, by simp, emit_frame_refl _, rfl, rfl⟩

theorem emitted_trans {a b c : assembler} {q r : Nat} {ws vs : List (Nat × Nat)}
    (h1 : emitted a b q ws) (h2 : emitted b c r vs) : emitted a c r (ws ++ vs) :=
  ⟨h2.pos, by rw [h2.writes, h1.writes, List.append_assoc],
    fun e he => by
      rcases List.mem_append.1 he with h | h
      · exact h1.fits e h
      · have := h2.fits e h
        rw [h1.frame.script.size] at this
        exact this,
    emit_frame_trans h1.frame h2.frame,
    h2.devmap.trans h1.devmap, h2.devmap_count.trans h1.devmap_count⟩

theorem emitted_write (self self' : assembler) (width v : Nat)
    (h : self.write width v = .ok self') :
    emitted self self' (self.script.pos + width) [(self.script.pos, width)] := by
  obtain ⟨h1, h2, h3, h4, h5⟩ := assembler_write_spec _ _ _ _ h
  have hfit := (utils.write_ok _ _ _ _ (assembler_write_ok _ _ _ _ h).1).1
  refine ⟨h1, h2, ?_, h3, h4, h5⟩
  intro e he
  simp only [List.mem_singleton] at he
  subst he
  exact hfit

theorem emitted_of_align (self self' : assembler) (n q : Nat) (ws : List (Nat × Nat))
    (hn : 0 < n) (h : emitted (self.align n).2 self' q ws) : emitted self self' q ws :=
  ⟨h.pos, h.writes, h.fits, emit_frame_trans (assembler_align_frame _ n hn) h.frame, h.devmap,
    h.devmap_count⟩

theorem emitted_align_write (self self' : assembler) (n width v : Nat) (hn : 0 < n)
    (h : (self.align n).2.write width v = .ok self') :
    emitted self self' (utils.writer.align_up self.script.pos n + width)
      [(utils.writer.align_up self.script.pos n, width)] :=
  emitted_of_align _ _ n _ _ hn (emitted_write _ _ _ _ h)

end arc

end xsk

namespace xsk

namespace arc

/-- Emission of the slots of `OP_SafeCreateLocalVariables`: each slot is a
zero written at the next even offset. -/
theorem assemble_localvars_slots_spec (n : Nat) (self self' : assembler)
    (h : assemble_localvars_slots n self = .ok self') :
    emitted self self' (slots_end n self.script.pos)
      ((slot_offsets n self.script.pos).map (fun q => (q, 2))) ∧
    ∀ q, q ∈ slot_offsets n self.script.pos → self'.script.read q 2 = 0 := by
  induction n generalizing self with
  | zero =>
    simp only [assemble_localvars_slots, Except.ok.injEq] at h
    subst h
    exact ⟨emitted_refl _, by simp [slot_offsets]⟩
  | succ n ih =>
    simp only [assemble_localvars_slots, bind_eq_ok] at h
    obtain ⟨s1, hs1, h⟩ := h
    have e1 := emitted_align_write _ _ 2 _ _ (by omega) hs1
    obtain ⟨e2, r2⟩ := ih _ h
    rw [e1.pos] at e2 r2
    refine ⟨emitted_trans e1 e2, ?_⟩
    intro q hq
    simp only [slot_offsets, List.mem_cons] at hq
    rcases hq with rfl | hq
    · rw [utils.read_of_advances e2.frame.script _ _ (by rw [e1.pos])]
      have := utils.read_write_2 _ _ _ (assembler_write_ok _ _ _ _ hs1).1
      exact this
    · exact r2 q hq

/-- Emission of the entries of `OP_EndSwitch`: eight bytes per entry, holding
what `switch_entry_written` says. -/
theorem assemble_switch_cases_spec (labels : label_map) (data : List String) (n i : Nat)
    (self self' : assembler) (h : assemble_switch_cases labels data n i self = .ok self') :
    emitted self self' (self.script.pos + 8 * n) (entry_writes n self.script.pos) ∧
    ∀ k, k < n →
      switch_entry_written labels data self'.script (i + k) (self.script.pos + 8 * k) := by
  induction n generalizing i self with
  | zero =>
    simp only [assemble_switch_cases, Except.ok.injEq] at h
    subst h
    exact ⟨emitted_refl _, fun k hk => by omega⟩
  | succ n ih =>
    simp only [assemble_switch_cases, bind_eq_ok] at h
    obtain ⟨head, hhead, h⟩ := h
    rw [operand_eq_ok] at hhead
    have key : ∀ (s1 s2 : assembler) (value addr : Nat),
        self.write 4 value = .ok s1 →
        s1.write 4 (usize_sub (usize_sub addr s1.script.pos) 4) = .ok s2 →
        assemble_switch_cases labels data n (i + 1) s2 = .ok self' →
        switch_entry_written labels data s2.script i self.script.pos →
        emitted self self' (self.script.pos + 8 * (n + 1))
          (entry_writes (n + 1) self.script.pos) ∧
        ∀ k, k < n + 1 →
          switch_entry_written labels data self'.script (i + k) (self.script.pos + 8 * k) := by
      intro s1 s2 value addr hs1 hs2 hrest hentry
      have e1 := emitted_write _ _ _ _ hs1
      have e2 := emitted_write _ _ _ _ hs2
      obtain ⟨e3, r3⟩ := ih _ _ hrest
      have p1 : s1.script.pos = self.script.pos + 4 := e1.pos
      have p2 : s2.script.pos = self.script.pos + 8 := by rw [e2.pos, p1]
      rw [p1] at e2
      rw [p2] at e3 r3
      refine ⟨?_, ?_⟩
      · have e := emitted_trans (emitted_trans e1 e2) e3
        have hq : self.script.pos + 8 + 8 * n = self.script.pos + 8 * (n + 1) := by omega
        rw [hq] at e
        exact e
      · intro k hk
        cases k with
        | zero =>
          have e1 : s2.script.read self.script.pos 4 = self'.script.read self.script.pos 4 :=
            (utils.read_of_advances e3.frame.script _ _ (by omega)).symm
          have e2 : s2.script.read (self.script.pos + 4) 4 =
              self'.script.read (self.script.pos + 4) 4 :=
            (utils.read_of_advances e3.frame.script _ _ (by omega)).symm
          simp only [Nat.add_zero, Nat.mul_zero]
          unfold switch_entry_written at hentry ⊢
          rw [← e1, ← e2]
          exact hentry
        | succ k =>
          have := r3 k (by omega)
          have e : i + 1 + k = i + (k + 1) := by omega
          have e' : self.script.pos + 8 + 8 * k = self.script.pos + 8 * (k + 1) := by omega
          rw [e, e'] at this
          exact this
    split at h
    · rename_i hcase
      subst hcase
      simp only [bind_eq_ok] at h
      obtain ⟨t, ht, type, htype, value, hvalue, s1, hs1, l, hl, addr, haddr, s2, hs2, h⟩ := h
      rw [operand_eq_ok] at ht hl
      refine key s1 s2 value addr hs1 hs2 h ?_
      obtain ⟨p1, w1, f1, d1, c1⟩ := assembler_write_spec _ _ _ _ hs1
      obtain ⟨p2, w2, f2, d2, c2⟩ := assembler_write_spec _ _ _ _ hs2
      refine Or.inl ⟨hhead, t, type, value, l, addr, ht, htype, hvalue, ?_, hl, haddr, ?_⟩
      · rw [utils.read_of_advances f2.script _ _ (by omega)]
        exact utils.read_write_4 _ _ _ (assembler_write_ok _ _ _ _ hs1).1
      · have := utils.read_write_4 _ _ _ (assembler_write_ok _ _ _ _ hs2).1
        rw [p1] at this
        exact this
    · rename_i hcase
      split at h
      · rename_i hdef
        subst hdef
        simp only [bind_eq_ok] at h
        obtain ⟨s1, hs1, l, hl, addr, haddr, s2, hs2, h⟩ := h
        rw [operand_eq_ok] at hl
        refine key s1 s2 0 addr hs1 hs2 h ?_
        obtain ⟨p1, w1, f1, d1, c1⟩ := assembler_write_spec _ _ _ _ hs1
        obtain ⟨p2, w2, f2, d2, c2⟩ := assembler_write_spec _ _ _ _ hs2
        refine Or.inr ⟨hhead, ?_, l, addr, hl, haddr, ?_⟩
        · rw [utils.read_of_advances f2.script _ _ (by omega)]
          exact utils.read_write_4 _ _ _ (assembler_write_ok _ _ _ _ hs1).1
        · have := utils.read_write_4 _ _ _ (assembler_write_ok _ _ _ _ hs2).1
          rw [p1] at this
          exact this
      · cases h

end arc

end xsk

namespace xsk

namespace arc

theorem write_byte_operand_spec (self self' : assembler) (inst : instruction)
    (h : write_byte_operand self inst = .ok self') :
    emitted self self' (self.script.pos + 1) [(self.script.pos, 1)] := by
  simp only [write_byte_operand, bind_eq_ok] at h
  obtain ⟨d0, -, v, -, h⟩ := h
  exact emitted_write _ _ _ _ h

theorem write_float_operand_spec (ctx : context) (self self' : assembler) (inst : instruction)
    (k : Nat) (h : write_float_operand ctx self inst k = .ok self') :
    emitted self self' (self.script.pos + 4) [(self.script.pos, 4)] := by
  simp only [write_float_operand, bind_eq_ok] at h
  obtain ⟨d, -, h⟩ := h
  split at h
  · exact emitted_write _ _ _ _ h
  · cases h

/-- `assemble_jump`: one two-byte write at the next even offset, holding the
low 16 bits of `label - index - size`. -/
theorem assemble_jump_spec (labels : label_map) (self self' : assembler) (inst : instruction)
    (h : assemble_jump labels self inst = .ok self') :
    emitted self self' (utils.writer.align_up self.script.pos 2 + 2)
      [(utils.writer.align_up self.script.pos 2, 2)] ∧
    ∃ name addr, inst.data[0]? = some name ∧ resolve_label labels name = .ok addr ∧
      self'.script.read (utils.writer.align_up self.script.pos 2) 2 =
        usize_sub (usize_sub addr inst.index) inst.size % 65536 := by
  simp only [assemble_jump, bind_eq_ok] at h
  obtain ⟨d0, hd0, addr, haddr, h⟩ := h
  rw [operand_eq_ok] at hd0
  have hr := utils.read_write_2 _ _ _ (assembler_write_ok _ _ _ _ h).1
  exact ⟨emitted_align_write _ _ 2 _ _ (by omega) h, d0, addr, hd0, haddr, hr⟩

/-- `assemble_switch`: one four-byte write at the next multiple of 4. -/
theorem assemble_switch_spec (labels : label_map) (self self' : assembler) (inst : instruction)
    (h : assemble_switch labels self inst = .ok self') :
    emitted self self' (utils.writer.align_up self.script.pos 4 + 4)
      [(utils.writer.align_up self.script.pos 4, 4)] ∧
    ∃ name addr, inst.data[0]? = some name ∧ resolve_label labels name = .ok addr ∧
      self'.script.read (utils.writer.align_up self.script.pos 4) 4 =
        usize_sub (usize_sub ((addr + 4) &&& 0xFFFFFFFC) inst.index) inst.size % 4294967296 := by
  simp only [assemble_switch, bind_eq_ok] at h
  obtain ⟨d0, hd0, addr, haddr, h⟩ := h
  rw [operand_eq_ok] at hd0
  have hr := utils.read_write_4 _ _ _ (assembler_write_ok _ _ _ _ h).1
  exact ⟨emitted_align_write _ _ 4 _ _ (by omega) h, d0, addr, hd0, haddr, hr⟩

/-- `assemble_switch_table`: the count at the next multiple of 4, then the
entries. -/
theorem assemble_switch_table_spec (labels : label_map) (self self' : assembler)
    (inst : instruction) (h : assemble_switch_table labels self inst = .ok self') :
    emitted self self'
      (utils.writer.align_up self.script.pos 4 + 4 + 8 * switch_count inst.data)
      ((utils.writer.align_up self.script.pos 4, 4) ::
        entry_writes (switch_count inst.data) (utils.writer.align_up self.script.pos 4 + 4)) ∧
    (∃ d0, inst.data[0]? = some d0 ∧ stoul d0 = .ok (switch_count inst.data)) ∧
    self'.script.read (utils.writer.align_up self.script.pos 4) 4 =
      switch_count inst.data % 4294967296 ∧
    ∀ k, k < switch_count inst.data →
      switch_entry_written labels inst.data self'.script k
        (utils.writer.align_up self.script.pos 4 + 4 + 8 * k) := by
  simp only [assemble_switch_table, bind_eq_ok] at h
  obtain ⟨d0, hd0, count, hcount, s1, hs1, h⟩ := h
  rw [operand_eq_ok] at hd0
  have hsc : switch_count inst.data = count := by
    simp [switch_count, hd0, hcount]
  have e1 := emitted_align_write _ _ 4 _ _ (by omega) hs1
  obtain ⟨e2, r2⟩ := assemble_switch_cases_spec _ _ _ _ _ _ h
  rw [e1.pos] at e2 r2
  rw [hsc]
  refine ⟨emitted_trans e1 e2, ⟨d0, hd0, hcount⟩, ?_, ?_⟩
  · rw [utils.read_of_advances e2.frame.script _ _ (by rw [e1.pos])]
    have hr := utils.read_write_4 _ _ _ (assembler_write_ok _ _ _ _ hs1).1
    exact hr
  · intro k hk
    have := r2 k hk
    rw [Nat.zero_add] at this
    exact this

/-- `assemble_localvars`: the count byte, then one zero slot per operand. -/
theorem assemble_localvars_spec (self self' : assembler) (inst : instruction)
    (h : assemble_localvars self inst = .ok self') :
    emitted self self' (slots_end inst.data.length (self.script.pos + 1))
      ((self.script.pos, 1) ::
        (slot_offsets inst.data.length (self.script.pos + 1)).map (fun q => (q, 2))) ∧
    ∀ q, q ∈ slot_offsets inst.data.length (self.script.pos + 1) →
      self'.script.read q 2 = 0 := by
  simp only [assemble_localvars, bind_eq_ok] at h
  obtain ⟨s1, hs1, h⟩ := h
  have e1 := emitted_write _ _ _ _ hs1
  obtain ⟨e2, r2⟩ := assemble_localvars_slots_spec _ _ _ h
  rw [e1.pos] at e2 r2
  exact ⟨emitted_trans e1 e2, r2⟩

end arc

end xsk

namespace xsk

namespace arc

set_option maxHeartbeats 4000000 in
/-- Emission of the operands of one instruction: the cursor moves to
`operands_end`, the writes are those of `operand_writes`, and nothing but the
script changes. -/
theorem assemble_operands_spec (ctx : context) (labels : label_map) (self self' : assembler)
    (inst : instruction) (h : assemble_operands ctx labels self inst = .ok self') :
    emitted self self' (operands_end inst self.script.pos)
      (operand_writes inst self.script.pos) := by
  obtain ⟨op, ps, idx, sz, data⟩ := inst
  cases op <;> simp only [assemble_operands] at h <;>
    simp only [operands_end, operand_writes, kind_of]
  case mk.OP_End | mk.OP_Return | mk.OP_GetUndefined | mk.OP_GetZero | mk.OP_GetLevelObject
      | mk.OP_GetAnimObject | mk.OP_GetSelf | mk.OP_GetLevel | mk.OP_GetGame | mk.OP_GetAnim
      | mk.OP_GetGameRef | mk.OP_CreateLocalVariable | mk.OP_EvalArray | mk.OP_EvalArrayRef
      | mk.OP_ClearArray | mk.OP_EmptyArray | mk.OP_GetSelfObject
      | mk.OP_SafeSetVariableFieldCached | mk.OP_ClearParams | mk.OP_CheckClearParams
      | mk.OP_SetVariableField | mk.OP_Wait | mk.OP_WaitTillFrameEnd | mk.OP_PreScriptCall
      | mk.OP_DecTop | mk.OP_CastFieldObject | mk.OP_CastBool | mk.OP_BoolNot
      | mk.OP_BoolComplement | mk.OP_Inc | mk.OP_Dec | mk.OP_Bit_Or | mk.OP_Bit_Xor
      | mk.OP_Bit_And | mk.OP_Equal | mk.OP_NotEqual | mk.OP_LessThan | mk.OP_GreaterThan
      | mk.OP_LessThanOrEqualTo | mk.OP_GreaterThanOrEqualTo | mk.OP_ShiftLeft
      | mk.OP_ShiftRight | mk.OP_Plus | mk.OP_Minus | mk.OP_Multiply | mk.OP_Divide
      | mk.OP_Modulus | mk.OP_SizeOf | mk.OP_WaitTill | mk.OP_Notify | mk.OP_EndOn
      | mk.OP_VoidCodePos | mk.OP_Vector | mk.OP_RealWait | mk.OP_IsDefined | mk.OP_VectorScale
      | mk.OP_AnglesToUp | mk.OP_AnglesToRight | mk.OP_AnglesToForward | mk.OP_AngleClamp180
      | mk.OP_VectorToAngles | mk.OP_Abs | mk.OP_GetTime | mk.OP_GetDvar | mk.OP_GetDvarInt
      | mk.OP_GetDvarFloat | mk.OP_GetDvarVector | mk.OP_GetDvarColorRed
      | mk.OP_GetDvarColorGreen | mk.OP_GetDvarColorBlue | mk.OP_GetDvarColorAlpha
      | mk.OP_FirstArrayKey | mk.OP_NextArrayKey | mk.OP_ProfileStart | mk.OP_ProfileStop
      | mk.OP_SafeDecTop | mk.OP_Nop | mk.OP_Abort | mk.OP_Object | mk.OP_ThreadObject
      | mk.OP_EvalLocalVariable | mk.OP_EvalLocalVariableRef =>
    simp only [Except.ok.injEq] at h
    subst h
    exact emitted_refl _
  case mk.OP_GetByte | mk.OP_GetNegByte | mk.OP_WaitTillMatch | mk.OP_VectorConstant
      | mk.OP_RemoveLocalVariables | mk.OP_EvalLocalVariableCached
      | mk.OP_EvalLocalArrayRefCached | mk.OP_SafeSetWaittillVariableFieldCached
      | mk.OP_EvalLocalVariableRefCached | mk.OP_ScriptFunctionCallPointer
      | mk.OP_ScriptMethodCallPointer | mk.OP_ScriptThreadCallPointer
      | mk.OP_ScriptMethodThreadCallPointer =>
    exact write_byte_operand_spec _ _ _ h
  case mk.OP_GetUnsignedShort | mk.OP_GetNegUnsignedShort =>
    simp only [bind_eq_ok] at h
    obtain ⟨d0, -, v, -, h⟩ := h
    exact emitted_align_write _ _ 2 _ _ (by omega) h
  case mk.OP_GetInteger =>
    split at h
    · exact emitted_align_write _ _ 4 _ _ (by omega) h
    · simp only [bind_eq_ok] at h
      obtain ⟨d0, -, v, -, h⟩ := h
      exact emitted_align_write _ _ 4 _ _ (by omega) h
  case mk.OP_GetFloat =>
    have e := write_float_operand_spec _ _ _ _ _ h
    exact emitted_of_align _ _ 4 _ _ (by omega) e
  case mk.OP_GetVector =>
    simp only [bind_eq_ok] at h
    obtain ⟨s1, h1, s2, h2, h⟩ := h
    have e1 := emitted_of_align _ _ 4 _ _ (by omega) (write_float_operand_spec _ _ _ _ _ h1)
    have e2 := write_float_operand_spec _ _ _ _ _ h2
    have e3 := write_float_operand_spec _ _ _ _ _ h
    have e := emitted_trans (emitted_trans e1 e2) e3
    have p1 : s1.script.pos = utils.writer.align_up self.script.pos 4 + 4 := e1.pos
    have p2 : s2.script.pos = utils.writer.align_up self.script.pos 4 + 4 + 4 := by
      rw [e2.pos, p1]
    rw [p2, p1] at e
    exact e
  case mk.OP_GetString | mk.OP_GetIString | mk.OP_EvalFieldVariable
      | mk.OP_EvalFieldVariableRef | mk.OP_ClearFieldVariable =>
    exact emitted_align_write _ _ 2 _ _ (by omega) h
  case mk.OP_GetAnimation | mk.OP_GetFunction =>
    exact emitted_align_write _ _ 4 _ _ (by omega) h
  case mk.OP_GetHash =>
    simp only [bind_eq_ok] at h
    obtain ⟨d0, -, h⟩ := h
    exact emitted_align_write _ _ 4 _ _ (by omega) h
  case mk.OP_SafeCreateLocalVariables =>
    exact (assemble_localvars_spec _ _ _ h).1
  case mk.OP_CallBuiltin | mk.OP_CallBuiltinMethod | mk.OP_ScriptFunctionCall
      | mk.OP_ScriptMethodCall | mk.OP_ScriptThreadCall | mk.OP_ScriptMethodThreadCall =>
    simp only [bind_eq_ok] at h
    obtain ⟨s1, h1, h⟩ := h
    have e1 := emitted_write _ _ _ _ h1
    have e2 := emitted_align_write _ _ 4 _ _ (by omega) h
    have e := emitted_trans e1 e2
    rw [e1.pos] at e
    exact e
  case mk.OP_JumpOnFalse | mk.OP_JumpOnTrue | mk.OP_JumpOnFalseExpr | mk.OP_JumpOnTrueExpr
      | mk.OP_Jump | mk.OP_JumpBack | mk.OP_DevblockBegin =>
    exact (assemble_jump_spec _ _ _ _ h).1
  case mk.OP_Switch =>
    exact (assemble_switch_spec _ _ _ _ h).1
  case mk.OP_EndSwitch =>
    exact (assemble_switch_table_spec _ _ _ _ h).1
  case mk.OP_Invalid =>
    cases h

end arc

end xsk

namespace xsk

namespace arc

/-! ## ARC layout and emission of a function -/

theorem operands_end_congr (a b : instruction) (p : Nat) (ho : a.opcode = b.opcode)
    (hd : a.data = b.data) : operands_end a p = operands_end b p := by
  simp only [operands_end, ho, hd]

theorem operand_writes_congr (a b : instruction) (p : Nat) (ho : a.opcode = b.opcode)
    (hd : a.data = b.data) : operand_writes a p = operand_writes b p := by
  simp only [operand_writes, ho, hd]

theorem string_fixups_congr (a b : instruction) (p : Nat) (ho : a.opcode = b.opcode)
    (hd : a.data = b.data) : string_fixups a p = string_fixups b p := by
  simp only [string_fixups, ho, hd]

theorem operands_end_ge (inst : instruction) (p : Nat) : p ≤ operands_end inst p := by
  have a2 := utils.align_up_ge p 2 (by omega)
  have a4 := utils.align_up_ge p 4 (by omega)
  have a41 := utils.align_up_ge (p + 1) 4 (by omega)
  have hs := slots_end_ge inst.data.length (p + 1)
  unfold operands_end
  split <;> omega

/-- Layout of one instruction (`align_instruction`). -/
theorem align_instruction_spec (ctx : context) (self self' : assembler)
    (inst inst' : instruction) (h : align_instruction ctx self inst = .ok (inst', self')) :
    inst'.opcode = inst.opcode ∧ inst'.index = inst.index ∧ inst'.data = inst.data ∧
    inst'.pos = inst.pos ∧
    self'.script.pos = operands_end inst' (self.script.pos + 1) ∧
    inst'.size + base_size inst.opcode + self.script.pos =
      ctx.opcode_size inst.opcode + operands_end inst' (self.script.pos + 1) ∧
    self'.strings = add_stringrefs (string_fixups inst' (self.script.pos + 1)) self.strings ∧
    layout_frame self self' := by
  unfold align_instruction at h
  obtain ⟨h1, h2, h3, h4, h5, h6, h7, h8⟩ := align_operands_spec _ _ _ _ h
  have e1 : operands_end inst' (self.script.pos + 1) =
      operands_end { inst with size := ctx.opcode_size inst.opcode } (self.script.pos + 1) :=
    operands_end_congr _ _ _ h1 h3
  have e2 : string_fixups inst' (self.script.pos + 1) =
      string_fixups { inst with size := ctx.opcode_size inst.opcode } (self.script.pos + 1) :=
    string_fixups_congr _ _ _ h1 h3
  have hb : 1 ≤ base_size inst.opcode ∨ kind_of inst.opcode = .invalid := by
    unfold base_size
    split <;> simp_all
  have hge := operands_end_ge { inst with size := ctx.opcode_size inst.opcode }
    (self.script.pos + 1)
  refine ⟨h1, h2, h3, h4, ?_, ?_, ?_, ?_⟩
  · rw [e1]; exact h5
  · rw [e1]
    have h6 : inst'.size + (base_size inst.opcode - 1) + (self.script.pos + 1) =
        ctx.opcode_size inst.opcode +
          operands_end { inst with size := ctx.opcode_size inst.opcode } (self.script.pos + 1) :=
      h6
    rcases hb with hb | hb
    · omega
    · exfalso
      unfold align_operands at h
      revert h hb
      cases inst.opcode <;> simp [kind_of]
  · rw [e2]; exact h7
  · exact layout_frame_trans (b := self.seek 1) ⟨rfl, rfl, rfl, rfl, rfl, rfl, rfl, rfl⟩ h8

end arc

end xsk

namespace xsk

namespace arc

/-- A dev-map write changes nothing but the dev-map writer. -/
theorem write_devmap_ok (self self' : assembler) (width v : Nat)
    (h : self.write_devmap width v = .ok self') :
    self.devmap.write width v = .ok self'.devmap ∧ self' = { self with devmap := self'.devmap } := by
  unfold assembler.write_devmap at h
  split at h
  · cases h
    rename_i w hw
    exact ⟨hw, rfl⟩
  · cases h

/-- The dev-map entry leaves the script and the fixup lists alone. -/
theorem write_devmap_entry_spec (ctx : context) (self self' : assembler) (inst : instruction)
    (h : write_devmap_entry ctx self inst = .ok self') :
    self'.script = self.script ∧ self'.strpool = self.strpool ∧ self'.exports = self.exports ∧
    self'.imports = self.imports ∧ self'.strings = self.strings ∧ self'.anims = self.anims := by
  unfold write_devmap_entry at h
  split at h
  · simp only [bind_eq_ok, pure, Except.pure, Except.ok.injEq] at h
    obtain ⟨s1, h1, s2, h2, s3, h3, rfl⟩ := h
    have e1 := (write_devmap_ok _ _ _ _ h1).2
    have e2 := (write_devmap_ok _ _ _ _ h2).2
    have e3 := (write_devmap_ok _ _ _ _ h3).2
    refine ⟨?_, ?_, ?_, ?_, ?_, ?_⟩ <;> (simp only []; rw [e3, e2, e1])
  · cases h
    exact ⟨rfl, rfl, rfl, rfl, rfl, rfl⟩

/-- Emission of one instruction (`assemble_instruction`): the opcode byte at
the cursor, then the operands. -/
theorem assemble_instruction_spec (ctx : context) (labels : label_map) (self self' : assembler)
    (inst : instruction) (h : assemble_instruction ctx labels self inst = .ok self') :
    self'.script.pos = operands_end inst (self.script.pos + 1) ∧
    self'.script.writes =
      self.script.writes ++ (self.script.pos, 1) :: operand_writes inst (self.script.pos + 1) ∧
    emit_frame self self' ∧
    (∃ id, ctx.opcode_id inst.opcode = some id ∧
      self'.script.read self.script.pos 1 = id % 256) ∧
    ∀ e, e ∈ (self.script.pos, 1) :: operand_writes inst (self.script.pos + 1) →
      e.1 + e.2 ≤ self.script.size := by
  unfold assemble_instruction at h
  split at h
  · cases h
  · rename_i id hid
    simp only [bind_eq_ok] at h
    obtain ⟨s1, h1, s2, h2, h⟩ := h
    have e1 := emitted_write _ _ _ _ h1
    obtain ⟨d1, d2, d3, d4, d5, d6⟩ := write_devmap_entry_spec _ _ _ _ h2
    have e3 := assemble_operands_spec _ _ _ _ _ h
    rw [d1, e1.pos] at e3
    have f2 : emit_frame s1 s2 :=
      ⟨by rw [d1]; exact utils.advances_refl _, d2, d3, d4, d5, d6⟩
    have f3 : emit_frame s2 self' := e3.frame
    refine ⟨e3.pos, ?_, emit_frame_trans e1.frame (emit_frame_trans f2 f3), ⟨id, hid, ?_⟩, ?_⟩
    · rw [e3.writes, d1, e1.writes]; simp
    · rw [utils.read_of_advances f3.script _ _ (by rw [d1, e1.pos]), d1]
      have hr := utils.read_write_1 _ _ _ (assembler_write_ok _ _ _ _ h1).1
      exact hr
    · intro e he
      simp only [List.mem_cons] at he
      rcases he with rfl | he
      · exact e1.fits _ (List.mem_singleton.2 rfl)
      · have := e3.fits e he
        rw [d1, e1.frame.script.size] at this
        exact this

theorem emit_end_ge (p : Nat) (is : List instruction) : p ≤ emit_end p is := by
  induction is generalizing p with
  | nil => exact Nat.le_refl _
  | cons i is ih =>
    have := ih (operands_end i (p + 1))
    have := operands_end_ge i (p + 1)
    simp only [emit_end]
    omega

theorem emit_end_append (p : Nat) (a b : List instruction) :
    emit_end p (a ++ b) = emit_end (emit_end p a) b := by
  induction a generalizing p with
  | nil => rfl
  | cons i is ih =>
    rw [List.cons_append]
    simp only [emit_end]
    exact ih _

theorem emit_offsets_append (p : Nat) (a b : List instruction) :
    emit_offsets p (a ++ b) = emit_offsets p a ++ emit_offsets (emit_end p a) b := by
  induction a generalizing p with
  | nil => rfl
  | cons i is ih =>
    rw [List.cons_append]
    simp only [emit_offsets, emit_end, List.cons_append]
    rw [ih]

theorem emit_offsets_length (p : Nat) (a : List instruction) :
    (emit_offsets p a).length = a.length := by
  induction a generalizing p with
  | nil => rfl
  | cons i is ih => simp only [emit_offsets, List.length_cons, ih]

theorem fixups_from_append (p : Nat) (a b : List instruction) :
    fixups_from p (a ++ b) = fixups_from p a ++ fixups_from (emit_end p a) b := by
  induction a generalizing p with
  | nil => rfl
  | cons i is ih =>
    rw [List.cons_append]
    simp only [fixups_from, emit_end, List.append_assoc]
    rw [ih]

/-- The emission loop: the cursor ends at `emit_end`, and only the script
changes, forward. -/
theorem assemble_instructions_spec (ctx : context) (labels : label_map)
    (is : List instruction) (self self' : assembler)
    (h : assemble_instructions ctx labels is self = .ok self') :
    self'.script.pos = emit_end self.script.pos is ∧ emit_frame self self' := by
  induction is generalizing self with
  | nil =>
    simp only [assemble_instructions, Except.ok.injEq] at h
    subst h
    exact ⟨rfl, emit_frame_refl _⟩
  | cons i is ih =>
    simp only [assemble_instructions, bind_eq_ok] at h
    obtain ⟨s1, h1, h⟩ := h
    obtain ⟨p1, -, f1, -, -⟩ := assemble_instruction_spec _ _ _ _ _ h1
    obtain ⟨p2, f2⟩ := ih _ h
    exact ⟨by rw [p2, p1]; rfl, emit_frame_trans f1 f2⟩

/-- The emission loop run on a list splits at any point. -/
theorem assemble_instructions_append (ctx : context) (labels : label_map)
    (a b : List instruction) (self self' : assembler)
    (h : assemble_instructions ctx labels (a ++ b) self = .ok self') :
    ∃ mid, assemble_instructions ctx labels a self = .ok mid ∧
      assemble_instructions ctx labels b mid = .ok self' := by
  induction a generalizing self with
  | nil => exact ⟨self, rfl, h⟩
  | cons i is ih =>
    simp only [List.cons_append, assemble_instructions, bind_eq_ok] at h ⊢
    obtain ⟨s1, h1, h⟩ := h
    obtain ⟨mid, hm1, hm2⟩ := ih _ h
    exact ⟨mid, ⟨s1, h1, hm1⟩, hm2⟩

/-- The layout loop: the instructions keep opcode and operands, the cursor
ends at `emit_end`, the string fixups recorded are `fixups_from`, and when the
cursor starts at `index + size` each instruction's index is `index` plus the
sizes before it. -/
theorem layout_instructions_spec (ctx : context) (index : Nat) (old : label_map)
    (is : List instruction) (size : Nat) (labels : label_map) (self : assembler)
    (r : List instruction × Nat × label_map × assembler)
    (h : layout_instructions ctx index old is size labels self = .ok r) :
    r.1.map (fun i => (i.opcode, i.data, i.pos)) = is.map (fun i => (i.opcode, i.data, i.pos)) ∧
    r.2.2.2.script.pos = emit_end self.script.pos r.1 ∧
    r.2.2.2.strings = add_stringrefs (fixups_from self.script.pos r.1) self.strings ∧
    layout_frame self r.2.2.2 ∧
    r.2.1 = size + (r.1.map (fun i => i.size)).sum ∧
    ((∀ i, i ∈ is → ctx.opcode_size i.opcode = base_size i.opcode) →
      self.script.pos = index + size →
      r.1.map (fun i => i.index) = emit_offsets self.script.pos r.1 ∧
      index + r.2.1 = emit_end self.script.pos r.1 ∧ laid_out self.script.pos r.1) := by
  induction is generalizing size labels self r with
  | nil =>
    simp only [layout_instructions, Except.ok.injEq] at h
    subst h
    exact ⟨rfl, rfl, rfl, layout_frame_refl _, by simp,
      fun _ hp => ⟨rfl, by simp [emit_end, hp], trivial⟩⟩
  | cons i is ih =>
    simp only [layout_instructions, bind_eq_ok, pure, Except.pure, Except.ok.injEq] at h
    obtain ⟨r1, h1, t, ht, rfl⟩ := h
    obtain ⟨a1, a2, a3, a4, a5, a6, a7, a8⟩ := align_instruction_spec _ _ _ _ _ h1
    obtain ⟨b1, b2, b3, b4, b5, b6⟩ := ih _ _ _ _ ht
    refine ⟨?_, ?_, ?_, layout_frame_trans a8 b4, ?_, ?_⟩
    · simp only [List.map_cons, b1, a1, a3, a4]
    · simp only [emit_end]
      rw [b2, a5]
    · simp only [fixups_from, add_stringrefs_append]
      rw [b3, a7, a5]
    · simp only [List.map_cons, List.sum_cons]
      rw [b5]
      omega
    · intro hsize hpos
      have hs := hsize i (List.mem_cons_self _ _)
      have a6 : r1.1.size + base_size i.opcode + self.script.pos =
          ctx.opcode_size i.opcode + operands_end r1.1 (self.script.pos + 1) := a6
      have hp1 : r1.2.script.pos = index + (size + r1.1.size) := by
        rw [a5]; omega
      obtain ⟨c1, c2, c3⟩ := b6 (fun j hj => hsize j (List.mem_cons_of_mem _ hj)) hp1
      have a2 : r1.1.index = index + size := a2
      refine ⟨?_, ?_, ?_⟩
      · simp only [List.map_cons, emit_offsets]
        rw [c1, a5, a2, hpos]
      · simp only [emit_end]
        rw [c2, a5]
      · refine ⟨by rw [a2, hpos], by omega, ?_⟩
        have e : self.script.pos + r1.1.size = r1.2.script.pos := by rw [a5]; omega
        rw [e]
        exact c3

/-- In a laid-out run, the index of an instruction is the cursor at which the
emission loop reaches it, and its size is what its emission advances. -/
theorem laid_out_at (p : Nat) (pre : List instruction) (inst : instruction)
    (post : List instruction) (h : laid_out p (pre ++ inst :: post)) :
    inst.index = emit_end p pre ∧ inst.index + inst.size = operands_end inst (inst.index + 1) := by
  induction pre generalizing p with
  | nil =>
    obtain ⟨h1, h2, -⟩ := h
    exact ⟨h1, by rw [h1]; exact h2⟩
  | cons i is ih =>
    obtain ⟨-, h2, h3⟩ := h
    rw [h2] at h3
    exact ih _ h3

end arc

end xsk

namespace xsk

namespace gsc

/-! ## GSC switch tables -/

/-- A script write changes nothing but the script writer. -/
theorem gsc_write_ok (self self' : assembler) (width v : Nat)
    (h : self.write width v = .ok self') :
    self.script.write width v = .ok self'.script ∧ self' = { self with script := self'.script } := by
  unfold assembler.write at h
  split at h
  · cases h
    rename_i w hw
    exact ⟨hw, rfl⟩
  · cases h

/-- The effect of one script write: the cursor advances by the width and the
bytes written read back as the value. -/
theorem gsc_write_spec (self self' : assembler) (width v : Nat)
    (h : self.write width v = .ok self') :
    self'.script.pos = self.script.pos + width ∧ self.script.advances self'.script := by
  obtain ⟨hw, -⟩ := gsc_write_ok _ _ _ _ h
  obtain ⟨_, h2, _, _, _, _, _⟩ := utils.write_ok _ _ _ _ hw
  exact ⟨h2, utils.advances_write _ _ _ _ hw⟩

/-- A stack write leaves the script alone. -/
theorem write_stack_cstr_spec (self self' : assembler) (s : List Nat)
    (h : self.write_stack_cstr s = .ok self') : self'.script = self.script := by
  unfold assembler.write_stack_cstr at h
  split at h
  · cases h
    rfl
  · cases h

/-- `assemble_offset` writes three bytes at the cursor. -/
theorem assemble_offset_spec (ctx : context) (self self' : assembler) (offs : Int)
    (h : assemble_offset ctx self offs = .ok self') :
    self'.script.pos = self.script.pos + 3 ∧ self.script.advances self'.script := by
  unfold assemble_offset assembler.write_i24 at h
  exact gsc_write_spec _ _ _ _ h

/-- The entries of a GSC switch table: each takes `entry_stride` bytes of the
script, the first four of them the value field of `switch_value_written`. -/
theorem gsc_switch_cases_spec (ctx : context) (labels : label_map) (data : List String)
    (n i index : Nat) (self self' : assembler)
    (h : assemble_switch_cases ctx labels data n i index self = .ok self') :
    self'.script.pos = self.script.pos + entry_stride ctx * n ∧
    self.script.advances self'.script ∧
    ∀ k, k < n →
      switch_value_written ctx data self'.script (i + k)
        (self.script.pos + entry_stride ctx * k) := by
  induction n generalizing i index self with
  | zero =>
    simp only [assemble_switch_cases, Except.ok.injEq] at h
    subst h
    exact ⟨rfl, utils.advances_refl _, fun k hk => by omega⟩
  | succ n ih =>
    simp only [assemble_switch_cases, bind_eq_ok] at h
    obtain ⟨head, hhead, h⟩ := h
    rw [operand_eq_ok] at hhead
    -- once the entry is written: the rest of the table, and the entry is kept
    have key : ∀ (s1 s2 : assembler) (index' : Nat),
        s1.script.pos = self.script.pos + 4 → self.script.advances s1.script →
        s2.script.pos = self.script.pos + entry_stride ctx → s1.script.advances s2.script →
        switch_value_written ctx data s1.script i self.script.pos →
        assemble_switch_cases ctx labels data n (i + 1) index' s2 = .ok self' →
        self'.script.pos = self.script.pos + entry_stride ctx * (n + 1) ∧
        self.script.advances self'.script ∧
        ∀ k, k < n + 1 →
          switch_value_written ctx data self'.script (i + k)
            (self.script.pos + entry_stride ctx * k) := by
      intro s1 s2 index' p1 a1 p2 a2 hentry hrest
      obtain ⟨p3, a3, r3⟩ := ih _ _ _ hrest
      have a23 := utils.advances_trans a2 a3
      refine ⟨?_, utils.advances_trans a1 a23, ?_⟩
      · rw [p3, p2, Nat.mul_succ]; omega
      · intro k hk
        cases k with
        | zero =>
          have e1 : self'.script.read self.script.pos 4 = s1.script.read self.script.pos 4 :=
            utils.read_of_advances a23 _ _ (by omega)
          simp only [Nat.add_zero, Nat.mul_zero]
          unfold switch_value_written at hentry ⊢
          rw [e1]
          exact hentry
        | succ k =>
          have := r3 k (by omega)
          rw [p2] at this
          have e : i + 1 + k = i + (k + 1) := by omega
          have e' : self.script.pos + entry_stride ctx + entry_stride ctx * k =
              self.script.pos + entry_stride ctx * (k + 1) := by
            rw [Nat.mul_succ]; omega
          rw [e, e'] at this
          exact this
    split at h
    · rename_i hcase
      subst hcase
      simp only [bind_eq_ok] at h
      obtain ⟨t, ht, type, htype, h⟩ := h
      rw [operand_eq_ok] at ht
      split at h
      · rename_i hint
        simp only [bind_eq_ok] at h
        obtain ⟨d, hd, v, hv, h⟩ := h
        rw [operand_eq_ok] at hd
        split at h
        · rename_i hiw
          simp only [bind_eq_ok] at h
          obtain ⟨s0, hs0, l, hl, addr, haddr, h⟩ := h
          have hentry : switch_value_written ctx data s0.script i self.script.pos := by
            refine Or.inl ⟨hhead, t, type, ht, htype, Or.inl ⟨hint, d, v, hd, hv, ?_⟩⟩
            rw [if_pos hiw]
            exact utils.read_write_4 _ _ _ (gsc_write_ok _ _ _ _ hs0).1
          obtain ⟨p0, a0⟩ := gsc_write_spec _ _ _ _ hs0
          obtain ⟨s2, hs2, s3, hs3, s4, hs4, h⟩ := h
          obtain ⟨p2, a2⟩ := gsc_write_spec _ _ _ _ hs2
          obtain ⟨p3, a3⟩ := gsc_write_spec _ _ _ _ hs3
          obtain ⟨p4, a4⟩ := gsc_write_spec _ _ _ _ hs4
          have hstride : entry_stride ctx = 8 := by simp [entry_stride, hiw]
          exact key s0 s4 _ p0 a0 (by rw [p4, p3, p2, p0, hstride])
            (utils.advances_trans a2 (utils.advances_trans a3 a4)) hentry h
        · rename_i hiw
          simp only [bind_eq_ok] at h
          obtain ⟨s0, hs0, l, hl, addr, haddr, h⟩ := h
          have hentry : switch_value_written ctx data s0.script i self.script.pos := by
            refine Or.inl ⟨hhead, t, type, ht, htype, Or.inl ⟨hint, d, v, hd, hv, ?_⟩⟩
            rw [if_neg hiw]
            exact utils.read_write_4 _ _ _ (gsc_write_ok _ _ _ _ hs0).1
          obtain ⟨p0, a0⟩ := gsc_write_spec _ _ _ _ hs0
          obtain ⟨s2, hs2, h⟩ := h
          obtain ⟨p2, a2⟩ := assemble_offset_spec _ _ _ _ hs2
          have hstride : entry_stride ctx = 7 := by simp [entry_stride, hiw]
          exact key s0 s2 _ p0 a0 (by rw [p2, p0, hstride]) a2 hentry h
      · rename_i hint
        simp only [bind_eq_ok] at h
        obtain ⟨s0, hs0, d, hd, str, hstr, s1, hs1, l, hl, addr, haddr, h⟩ := h
        have hentry : switch_value_written ctx data s0.script i self.script.pos := by
          refine Or.inl ⟨hhead, t, type, ht, htype, Or.inr ⟨hint, ?_⟩⟩
          exact utils.read_write_4 _ _ _ (gsc_write_ok _ _ _ _ hs0).1
        obtain ⟨p0, a0⟩ := gsc_write_spec _ _ _ _ hs0
        have e1 := write_stack_cstr_spec _ _ _ hs1
        split at h
        · rename_i hiw2
          simp only [bind_eq_ok] at h
          obtain ⟨s2, hs2, s3, hs3, s4, hs4, h⟩ := h
          obtain ⟨p2, a2⟩ := gsc_write_spec _ _ _ _ hs2
          obtain ⟨p3, a3⟩ := gsc_write_spec _ _ _ _ hs3
          obtain ⟨p4, a4⟩ := gsc_write_spec _ _ _ _ hs4
          rw [e1] at p2 a2
          have hstride : entry_stride ctx = 8 := by simp [entry_stride, hiw2]
          exact key s0 s4 _ p0 a0 (by rw [p4, p3, p2, p0, hstride])
            (utils.advances_trans a2 (utils.advances_trans a3 a4)) hentry h
        · rename_i hiw2
          simp only [bind_eq_ok] at h
          obtain ⟨s2, hs2, h⟩ := h
          obtain ⟨p2, a2⟩ := assemble_offset_spec _ _ _ _ hs2
          rw [e1] at p2 a2
          have hstride : entry_stride ctx = 7 := by simp [entry_stride, hiw2]
          exact key s0 s2 _ p0 a0 (by rw [p2, p0, hstride]) a2 hentry h
    · rename_i hcase
      split at h
      · rename_i hdef
        subst hdef
        simp only [bind_eq_ok] at h
        obtain ⟨l, hl, addr, haddr, h⟩ := h
        split at h
        · rename_i hiw
          simp only [bind_eq_ok] at h
          obtain ⟨s1, hs1, s2, hs2, s3, hs3, s4, hs4, h⟩ := h
          obtain ⟨p1, a1⟩ := gsc_write_spec _ _ _ _ hs1
          obtain ⟨p2, a2⟩ := gsc_write_spec _ _ _ _ hs2
          obtain ⟨p3, a3⟩ := gsc_write_spec _ _ _ _ hs3
          obtain ⟨p4, a4⟩ := gsc_write_spec _ _ _ _ hs4
          have hstride : entry_stride ctx = 8 := by simp [entry_stride, hiw]
          refine key s1 s4 _ p1 a1 (by rw [p4, p3, p2, p1, hstride])
            (utils.advances_trans a2 (utils.advances_trans a3 a4)) (Or.inr ⟨hhead, ?_⟩) h
          exact utils.read_write_4 _ _ _ (gsc_write_ok _ _ _ _ hs1).1
        · rename_i hiw
          simp only [bind_eq_ok] at h
          obtain ⟨s1, hs1, s2, hs2, s3, hs3, h⟩ := h
          obtain ⟨p1, a1⟩ := gsc_write_spec _ _ _ _ hs1
          have e2 := write_stack_cstr_spec _ _ _ hs2
          obtain ⟨p3, a3⟩ := assemble_offset_spec _ _ _ _ hs3
          rw [e2] at p3 a3
          have hstride : entry_stride ctx = 7 := by simp [entry_stride, hiw]
          refine key s1 s3 _ p1 a1 (by rw [p3, p1, hstride]) a3 (Or.inr ⟨hhead, ?_⟩) h
          exact utils.read_write_4 _ _ _ (gsc_write_ok _ _ _ _ hs1).1
      · cases h

/-- `gsc::assembler::assemble_switch_table`: a 16-bit count at the cursor, then
the entries. -/
theorem gsc_switch_table_spec (ctx : context) (labels : label_map)
    (self self' : assembler) (inst : instruction)
    (h : assemble_switch_table ctx labels self inst = .ok self') :
    ∃ d0 count, inst.data[0]? = some d0 ∧ stoul d0 = .ok count ∧
      self'.script.read self.script.pos 2 = count % 65536 ∧
      self'.script.pos = self.script.pos + 2 + entry_stride ctx * count ∧
      ∀ k, k < count →
        switch_value_written ctx inst.data self'.script k
          (self.script.pos + 2 + entry_stride ctx * k) := by
  simp only [assemble_switch_table, bind_eq_ok] at h
  obtain ⟨d0, hd0, count, hcount, s1, hs1, h⟩ := h
  rw [operand_eq_ok] at hd0
  obtain ⟨p1, a1⟩ := gsc_write_spec _ _ _ _ hs1
  obtain ⟨p2, a2, r2⟩ := gsc_switch_cases_spec _ _ _ _ _ _ _ _ h
  refine ⟨d0, count, hd0, hcount, ?_, by rw [p2, p1], ?_⟩
  · rw [utils.read_of_advances a2 _ _ (by omega)]
    exact utils.read_write_2 _ _ _ (gsc_write_ok _ _ _ _ hs1).1
  · intro k hk
    have := r2 k hk
    rw [p1, Nat.zero_add] at this
    exact this

end gsc

end xsk

namespace xsk

/-! ## The value field of a switch-table entry -/

/-- Adding `0x800000` to a 24-bit masked value is the same as setting bit 23
exactly when bit 23 of the value is clear. -/
theorem mask_add_eq_or (x : Nat) :
    ((x &&& 0xFFFFFF) + 0x800000 = (x &&& 0xFFFFFF) ||| 0x800000) ↔ x / 8388608 % 2 = 0 := by
  have hm : x &&& 0xFFFFFF = x % 16777216 := Nat.and_pow_two_sub_one_eq_mod x 24
  rw [hm]
  by_cases hb : x % 16777216 < 8388608
  · have h1 : 2 ^ 23 * 1 + x % 16777216 = 2 ^ 23 * 1 ||| x % 16777216 :=
      Nat.mul_add_lt_is_or hb 1
    have h2 : x % 16777216 + 8388608 = x % 16777216 ||| 8388608 := by
      rw [Nat.or_comm]
      norm_num at h1
      omega
    exact ⟨fun _ => by omega, fun _ => h2⟩
  · have hr : x % 16777216 - 8388608 < 2 ^ 23 := by norm_num; omega
    have h1 : 2 ^ 23 * 1 + (x % 16777216 - 8388608) =
        2 ^ 23 * 1 ||| (x % 16777216 - 8388608) := Nat.mul_add_lt_is_or hr 1
    have h2 : x % 16777216 ||| 8388608 = x % 16777216 := by
      have e : x % 16777216 = 8388608 ||| (x % 16777216 - 8388608) := by
        norm_num at h1
        omega
      rw [e, Nat.or_comm, ← Nat.or_assoc, Nat.or_self]
    constructor
    · intro h
      rw [h2] at h
      omega
    · intro h
      omega

/-- The masked case value fits 25 bits. -/
theorem mask_add_lt (x : Nat) : (x &&& 0xFFFFFF) + 0x800000 < 4294967296 := by
  have hm : x &&& 0xFFFFFF = x % 16777216 := Nat.and_pow_two_sub_one_eq_mod x 24
  rw [hm]
  omega

namespace arc

/-- The value field of an integer `case` entry of the ARC table. -/
theorem arc_switch_integer_value (labels : label_map) (self self' : assembler)
    (inst : instruction) (k : Nat) (t d : String) (type : Nat) (v : Int)
    (h : assemble_switch_table labels self inst = .ok self')
    (hk : k < switch_count inst.data)
    (hcase : inst.data[1 + 4 * k]? = some "case")
    (ht : inst.data[1 + 4 * k + 1]? = some t) (htype : stoul t = .ok type)
    (hint : to_switch_type type = switch_type_integer)
    (hd : inst.data[1 + 4 * k + 2]? = some d) (hv : stoi d = .ok v) :
    self'.script.read (utils.writer.align_up self.script.pos 4 + 4 + 8 * k) 4 =
      (to_u32 v &&& 0xFFFFFF) + 0x800000 := by
  obtain ⟨-, -, -, hent⟩ := assemble_switch_table_spec _ _ _ _ h
  rcases hent k hk with ⟨-, t', type', value, l, addr, ht', htype', hval, hread, -⟩ | ⟨hdef, -⟩
  · rw [ht] at ht'
    cases ht'
    rw [htype] at htype'
    cases htype'
    simp only [switch_case_value, hint, if_true, operand_eq_ok, hd, bind_eq_ok,
      Option.some.injEq, exists_eq_left', hv, Except.ok.injEq, pure, Except.pure] at hval
    rw [hread, ← hval]
    exact Nat.mod_eq_of_lt (mask_add_lt _)
  · rw [hcase] at hdef
    exact absurd hdef (by decide)

/-- The value field of a `case` entry of another type, and of a `default`
entry, of the ARC table. -/
theorem arc_switch_ordinal_value (labels : label_map) (self self' : assembler)
    (inst : instruction) (k : Nat)
    (h : assemble_switch_table labels self inst = .ok self')
    (hk : k < switch_count inst.data) :
    (∀ t type, inst.data[1 + 4 * k]? = some "case" →
      inst.data[1 + 4 * k + 1]? = some t → stoul t = .ok type →
      to_switch_type type ≠ switch_type_integer →
      self'.script.read (utils.writer.align_up self.script.pos 4 + 4 + 8 * k) 4 =
        (k + 1) % 4294967296) ∧
    (inst.data[1 + 4 * k]? = some "default" →
      self'.script.read (utils.writer.align_up self.script.pos 4 + 4 + 8 * k) 4 = 0) := by
  obtain ⟨-, -, -, hent⟩ := assemble_switch_table_spec _ _ _ _ h
  constructor
  · intro t type hcase ht htype hint
    rcases hent k hk with ⟨-, t', type', value, l, addr, ht', htype', hval, hread, -⟩ | ⟨hdef, -⟩
    · rw [ht] at ht'
      cases ht'
      rw [htype] at htype'
      cases htype'
      simp only [switch_case_value, hint, if_false, Except.ok.injEq] at hval
      rw [hread, ← hval]
    · rw [hcase] at hdef
      exact absurd hdef (by decide)
  · intro hdef
    rcases hent k hk with ⟨hcase, -⟩ | ⟨-, hread, -⟩
    · rw [hdef] at hcase
      exact absurd hcase (by decide)
    · exact hread

end arc

namespace gsc

/-- The value field of an integer `case` entry of the GSC table on an engine
other than `iw9`. -/
theorem gsc_switch_integer_value (ctx : context) (labels : label_map) (self self' : assembler)
    (inst : instruction) (k count : Nat) (d0 t d : String) (type : Nat) (v : Int)
    (hengine : ctx.engine ≠ engine.iw9)
    (h : assemble_switch_table ctx labels self inst = .ok self')
    (hd0 : inst.data[0]? = some d0) (hcount : stoul d0 = .ok count) (hk : k < count)
    (hcase : inst.data[1 + 4 * k]? = some "case")
    (ht : inst.data[1 + 4 * k + 1]? = some t) (htype : stoul t = .ok type)
    (hint : to_switch_type type = switch_type_integer)
    (hd : inst.data[1 + 4 * k + 2]? = some d) (hv : stoi d = .ok v) :
    self'.script.read (self.script.pos + 2 + 7 * k) 4 =
      (to_u32 v &&& 0xFFFFFF) + 0x800000 := by
  obtain ⟨d0', count', hd0', hcount', -, -, hent⟩ := gsc_switch_table_spec _ _ _ _ _ h
  rw [hd0] at hd0'
  cases hd0'
  rw [hcount] at hcount'
  cases hcount'
  have hstride : entry_stride ctx = 7 := by simp [entry_stride, hengine]
  have := hent k hk
  rw [hstride] at this
  rcases this with ⟨-, t', type', ht', htype', hrest⟩ | ⟨hdef, -⟩
  · rw [ht] at ht'
    cases ht'
    rw [htype] at htype'
    cases htype'
    rcases hrest with ⟨-, d', v', hd', hv', hread⟩ | ⟨hne, -⟩
    · rw [hd] at hd'
      cases hd'
      rw [hv] at hv'
      cases hv'
      rw [hread, if_neg hengine]
      exact Nat.mod_eq_of_lt (mask_add_lt _)
    · exact absurd hint hne
  · rw [hcase] at hdef
    exact absurd hdef (by decide)

/-- The value field of a `case` entry of another type, and of a `default`
entry, of the GSC table on an engine other than `iw9`. -/
theorem gsc_switch_ordinal_value (ctx : context) (labels : label_map) (self self' : assembler)
    (inst : instruction) (k count : Nat) (d0 : String)
    (hengine : ctx.engine ≠ engine.iw9)
    (h : assemble_switch_table ctx labels self inst = .ok self')
    (hd0 : inst.data[0]? = some d0) (hcount : stoul d0 = .ok count) (hk : k < count) :
    (∀ t type, inst.data[1 + 4 * k]? = some "case" →
      inst.data[1 + 4 * k + 1]? = some t → stoul t = .ok type →
      to_switch_type type ≠ switch_type_integer →
      self'.script.read (self.script.pos + 2 + 7 * k) 4 = (k + 1) % 4294967296) ∧
    (inst.data[1 + 4 * k]? = some "default" →
      self'.script.read (self.script.pos + 2 + 7 * k) 4 = 0) := by
  obtain ⟨d0', count', hd0', hcount', -, -, hent⟩ := gsc_switch_table_spec _ _ _ _ _ h
  rw [hd0] at hd0'
  cases hd0'
  rw [hcount] at hcount'
  cases hcount'
  have hstride : entry_stride ctx = 7 := by simp [entry_stride, hengine]
  have hthis := hent k hk
  rw [hstride] at hthis
  constructor
  · intro t type hcase ht htype hint
    rcases hthis with ⟨-, t', type', ht', htype', hrest⟩ | ⟨hdef, -⟩
    · rw [ht] at ht'
      cases ht'
      rw [htype] at htype'
      cases htype'
      rcases hrest with ⟨hint', -⟩ | ⟨-, hread⟩
      · exact absurd hint' hint
      · rw [hread, if_neg hengine]
    · rw [hcase] at hdef
      exact absurd hdef (by decide)
  · intro hdef
    rcases hthis with ⟨hcase, -⟩ | ⟨-, hread⟩
    · rw [hdef] at hcase
      exact absurd hcase (by decide)
    · exact hread

end gsc

end xsk

namespace xsk

namespace arc

/-! ## Emission succeeds where the capacity allows -/

/-- A script write that fits succeeds, the cursor advancing by the width and
the capacity staying. -/
theorem assembler_write_fits (self : assembler) (width v : Nat)
    (h : self.script.pos + width ≤ self.script.size) :
    ∃ self', self.write width v = .ok self' ∧
      self'.script.pos = self.script.pos + width ∧ self'.script.size = self.script.size ∧
      self'.devmap = self.devmap := by
  obtain ⟨s, hs⟩ := assembler_write_of_fits self width v h
  obtain ⟨hw, -⟩ := assembler_write_ok _ _ _ _ hs
  obtain ⟨-, h2, -, h4, -, -, -⟩ := utils.write_ok _ _ _ _ hw
  exact ⟨s, hs, h2, h4, (assembler_write_spec _ _ _ _ hs).2.2.2.1⟩

/-- A dev-map write that fits succeeds. -/
theorem write_devmap_fits (self : assembler) (width v : Nat)
    (h : self.devmap.pos + width ≤ self.devmap.size) :
    ∃ self', self.write_devmap width v = .ok self' ∧
      self'.devmap.pos = self.devmap.pos + width ∧ self'.devmap.size = self.devmap.size := by
  obtain ⟨w, hw⟩ := utils.write_of_fits self.devmap width v h
  obtain ⟨-, h2, -, h4, -, -, -⟩ := utils.write_ok _ _ _ _ hw
  exact ⟨{ self with devmap := w }, by simp [assembler.write_devmap, hw], h2, h4⟩

/-- The dev-map entry is written when the build has none or eight bytes are
left in the dev-map buffer. -/
theorem write_devmap_entry_fits (ctx : context) (self : assembler) (inst : instruction)
    (h : ctx.build.has_dev_maps = true → self.devmap.pos + 8 ≤ self.devmap.size) :
    ∃ self', write_devmap_entry ctx self inst = .ok self' := by
  unfold write_devmap_entry
  split
  · rename_i hb
    have hfit := h hb
    obtain ⟨s1, h1, p1, z1⟩ := write_devmap_fits self 4 self.script.pos (by omega)
    obtain ⟨s2, h2, p2, z2⟩ := write_devmap_fits s1 2 inst.pos.line (by omega)
    obtain ⟨s3, h3, p3, z3⟩ := write_devmap_fits s2 2 inst.pos.column (by omega)
    refine ⟨{ s3 with devmap_count := s3.devmap_count + 1 }, ?_⟩
    simp only [bind_eq_ok, pure, Except.pure, Except.ok.injEq]
    exact ⟨s1, h1, s2, h2, s3, h3, rfl⟩
  · exact ⟨_, rfl⟩

/-- The table of scenario S3 is emitted when twenty bytes are left after the
alignment and the two labels resolve. -/
theorem scenario_S3_table_fits (labels : label_map) (self : assembler) (inst : instruction)
    (O5 OD : Nat)
    (hdata : inst.data = ["2", "case", "1", "5", "L5", "default", "LD"])
    (h5 : resolve_label labels "L5" = .ok O5) (hD : resolve_label labels "LD" = .ok OD)
    (hfit : utils.writer.align_up self.script.pos 4 + 20 ≤ self.script.size) :
    ∃ self', assemble_switch_table labels self inst = .ok self' := by
  have pa : (self.align 4).2.script.pos = utils.writer.align_up self.script.pos 4 := rfl
  have za : (self.align 4).2.script.size = self.script.size := rfl
  obtain ⟨s1, hs1, p1, z1, -⟩ := assembler_write_fits (self.align 4).2 4 2 (by omega)
  obtain ⟨s2, hs2, p2, z2, -⟩ :=
    assembler_write_fits s1 4 ((to_u32 5 &&& 0xFFFFFF) + 0x800000) (by omega)
  obtain ⟨s3, hs3, p3, z3, -⟩ :=
    assembler_write_fits s2 4 (usize_sub (usize_sub O5 s2.script.pos) 4) (by omega)
  obtain ⟨s4, hs4, p4, z4, -⟩ := assembler_write_fits s3 4 0 (by omega)
  obtain ⟨s5, hs5, p5, z5, -⟩ :=
    assembler_write_fits s4 4 (usize_sub (usize_sub OD s4.script.pos) 4) (by omega)
  refine ⟨s5, ?_⟩
  simp only [assemble_switch_table, bind_eq_ok, operand_eq_ok, hdata]
  refine ⟨"2", rfl, 2, rfl, s1, hs1, ?_⟩
  simp only [assemble_switch_cases, bind_eq_ok, operand_eq_ok]
  refine ⟨"case", rfl, ?_⟩
  rw [if_pos rfl]
  simp only [bind_eq_ok, operand_eq_ok]
  refine ⟨"1", rfl, 1, rfl, _, rfl, s2, hs2, "L5", rfl, O5, h5, s3, hs3, "default", rfl, ?_⟩
  rw [if_neg (by decide), if_pos rfl]
  simp only [bind_eq_ok, operand_eq_ok]
  exact ⟨s4, hs4, "LD", rfl, OD, hD, s5, hs5, rfl⟩

end arc

end xsk

namespace xsk

namespace utils

/-- The last two bytes of a 4-byte write hold the low half of the value on a
big-endian writer and the high half on a little-endian one. -/
theorem read_write_4_half (w w' : writer) (v : Nat) (h : w.write 4 v = .ok w') :
    w'.read (w.pos + 2) 2 = if w.swap then v % 65536 else v / 65536 % 65536 := by
  obtain ⟨_, _, hs, _, _, hd, _⟩ := write_ok _ _ _ _ h
  have h2 := hd 2 (by omega)
  have h3 := hd 3 (by omega)
  unfold writer.read
  simp only [hs, writer.read_le, writer.read_be, Nat.add_assoc, h2, h3]
  cases hsw : w.swap <;> simp [writer.byte_at] <;> omega

end utils

namespace arc

/-! ## The slots of the string fixups -/

/-- The value field of a `case` entry of another type than integer holds the
1-based table position, and its last two bytes the half the byte order puts
there. -/
theorem assemble_switch_cases_half (labels : label_map) (data : List String) (n i : Nat)
    (self self' : assembler) (h : assemble_switch_cases labels data n i self = .ok self') :
    ∀ k, k < n → ∀ t type, data[1 + 4 * (i + k)]? = some "case" →
      data[1 + 4 * (i + k) + 1]? = some t → stoul t = .ok type →
      to_switch_type type ≠ switch_type_integer →
      self'.script.read (self.script.pos + 8 * k) 4 = (i + k + 1) % 4294967296 ∧
      self'.script.read (self.script.pos + 8 * k + 2) 2 =
        if self.script.swap then (i + k + 1) % 65536 else (i + k + 1) / 65536 % 65536 := by
  induction n generalizing i self with
  | zero => intro k hk; omega
  | succ n ih =>
    simp only [assemble_switch_cases, bind_eq_ok] at h
    obtain ⟨head, hhead, h⟩ := h
    rw [operand_eq_ok] at hhead
    have tail : ∀ (s1 s2 : assembler) (value addr : Nat),
        self.write 4 value = .ok s1 →
        s1.write 4 (usize_sub (usize_sub addr s1.script.pos) 4) = .ok s2 →
        assemble_switch_cases labels data n (i + 1) s2 = .ok self' →
        s2.script.pos = self.script.pos + 8 ∧ s2.script.swap = self.script.swap ∧
        s1.script.advances self'.script ∧ s1.script.pos = self.script.pos + 4 := by
      intro s1 s2 value addr hs1 hs2 hrest
      obtain ⟨p1, -, f1, -, -⟩ := assembler_write_spec _ _ _ _ hs1
      obtain ⟨p2, -, f2, -, -⟩ := assembler_write_spec _ _ _ _ hs2
      obtain ⟨e3, -⟩ := assemble_switch_cases_spec _ _ _ _ _ _ hrest
      exact ⟨by rw [p2, p1], by rw [f2.script.swap, f1.script.swap],
        utils.advances_trans f2.script e3.frame.script, p1⟩
    have step : ∀ (s2 : assembler), s2.script.pos = self.script.pos + 8 →
        s2.script.swap = self.script.swap →
        assemble_switch_cases labels data n (i + 1) s2 = .ok self' →
        ∀ k, k < n → ∀ t type, data[1 + 4 * (i + (k + 1))]? = some "case" →
          data[1 + 4 * (i + (k + 1)) + 1]? = some t → stoul t = .ok type →
          to_switch_type type ≠ switch_type_integer →
          self'.script.read (self.script.pos + 8 * (k + 1)) 4 = (i + (k + 1) + 1) % 4294967296 ∧
          self'.script.read (self.script.pos + 8 * (k + 1) + 2) 2 =
            if self.script.swap then (i + (k + 1) + 1) % 65536
            else (i + (k + 1) + 1) / 65536 % 65536 := by
      intro s2 p2 w2 hrest k hk t type hcase ht htype hint
      have e : i + (k + 1) = i + 1 + k := by omega
      rw [e] at hcase ht ⊢
      have := ih _ _ hrest k hk t type hcase ht htype hint
      rw [p2, w2] at this
      have e' : self.script.pos + 8 + 8 * k = self.script.pos + 8 * (k + 1) := by omega
      rw [e'] at this
      exact this
    split at h
    · rename_i hcase
      subst hcase
      simp only [bind_eq_ok] at h
      obtain ⟨t', ht', type', htype', value, hvalue, s1, hs1, l, hl, addr, haddr, s2, hs2, h⟩ := h
      rw [operand_eq_ok] at ht'
      obtain ⟨p2, w2, a1, p1⟩ := tail s1 s2 value addr hs1 hs2 h
      intro k hk
      cases k with
      | zero =>
        intro t type _ ht htype hint
        simp only [Nat.add_zero, Nat.mul_zero] at ht ⊢
        rw [ht'] at ht
        cases ht
        rw [htype'] at htype
        cases htype
        simp only [switch_case_value, hint, if_false, Except.ok.injEq] at hvalue
        subst hvalue
        constructor
        · rw [utils.read_of_advances a1 _ _ (by omega)]
          exact utils.read_write_4 _ _ _ (assembler_write_ok _ _ _ _ hs1).1
        · rw [utils.read_of_advances a1 _ _ (by omega)]
          exact utils.read_write_4_half _ _ _ (assembler_write_ok _ _ _ _ hs1).1
      | succ k => exact step s2 p2 w2 h k (by omega)
    · rename_i hcase
      split at h
      · simp only [bind_eq_ok] at h
        obtain ⟨s1, hs1, l, hl, addr, haddr, s2, hs2, h⟩ := h
        obtain ⟨p2, w2, a1, p1⟩ := tail s1 s2 0 addr hs1 hs2 h
        intro k hk
        cases k with
        | zero =>
          intro t type hc _ _ _
          simp only [Nat.add_zero] at hc
          rw [hhead] at hc
          exact absurd (Option.some.inj hc) hcase
        | succ k => exact step s2 p2 w2 h k (by omega)
      · cases h

/-- The fixups of a switch table: one for each `case` entry of string type,
two bytes past its value field. -/
theorem switch_fixups_mem (data : List String) (n i q : Nat) (name : String)
    (type : string_type) (r : Nat) (h : (name, type, r) ∈ switch_fixups data n i q) :
    ∃ k, k < n ∧ data[1 + 4 * (i + k)]? = some "case" ∧
      (∃ t ty, data[1 + 4 * (i + k) + 1]? = some t ∧ stoul t = .ok ty ∧
        to_switch_type ty = switch_type_string) ∧
      r = (q + 8 * k + 2) % 4294967296 := by
  induction n generalizing i q with
  | zero => simp [switch_fixups] at h
  | succ n ih =>
    have rest : (name, type, r) ∈ switch_fixups data n (i + 1) (q + 8) →
        ∃ k, k < n + 1 ∧ data[1 + 4 * (i + k)]? = some "case" ∧
          (∃ t ty, data[1 + 4 * (i + k) + 1]? = some t ∧ stoul t = .ok ty ∧
            to_switch_type ty = switch_type_string) ∧
          r = (q + 8 * k + 2) % 4294967296 := by
      intro hm
      obtain ⟨k, hk, h1, h2, h3⟩ := ih _ _ hm
      refine ⟨k + 1, by omega, ?_, ?_, ?_⟩
      · have e : i + (k + 1) = i + 1 + k := by omega
        rw [e]; exact h1
      · have e : i + (k + 1) = i + 1 + k := by omega
        rw [e]; exact h2
      · rw [h3]; congr 1; omega
    simp only [switch_fixups] at h
    split at h
    · rename_i hc
      rcases List.mem_cons.1 h with h0 | hm
      · refine ⟨0, by omega, hc.1, ?_, ?_⟩
        · obtain ⟨-, hty⟩ := hc
          simp only [Nat.add_zero]
          cases ht : data[1 + 4 * i + 1]? with
          | none => rw [ht] at hty; simp at hty
          | some t =>
            rw [ht] at hty
            simp only [Option.map_some', Option.some.injEq] at hty
            cases hs : stoul t with
            | error e => rw [hs] at hty; simp [Except.toOption] at hty
            | ok ty =>
              rw [hs] at hty
              simp only [Except.toOption, Option.map_some', Option.some.injEq] at hty
              exact ⟨t, ty, rfl, hs, hty⟩
        · simp only [Prod.mk.injEq] at h0
          rw [h0.2.2]
      · exact rest hm
    · exact rest h

/-- A slot of the local-variable list lies between the start and the end of
the slots. -/
theorem slot_offsets_mem (n s q : Nat) (h : q ∈ slot_offsets n s) :
    s ≤ q ∧ q + 2 ≤ slots_end n s := by
  induction n generalizing s with
  | zero => simp [slot_offsets] at h
  | succ n ih =>
    simp only [slot_offsets, List.mem_cons] at h
    have hge := utils.align_up_ge s 2 (by omega)
    simp only [slots_end]
    rcases h with h | h
    · subst h
      exact ⟨hge, slots_end_ge _ _⟩
    · obtain ⟨h1, h2⟩ := ih _ h
      exact ⟨by omega, h2⟩

end arc

end xsk

namespace xsk

namespace arc

/-- The opcodes of the string, field, local-variable and table families. -/
theorem kind_of_string (op : opcode) :
    (kind_of op = operand_kind.string → op = .OP_GetString ∨ op = .OP_GetIString) ∧
    (kind_of op = operand_kind.field →
      op = .OP_EvalFieldVariable ∨ op = .OP_EvalFieldVariableRef ∨
        op = .OP_ClearFieldVariable) ∧
    (kind_of op = operand_kind.localvars → op = .OP_SafeCreateLocalVariables) ∧
    (kind_of op = operand_kind.endswitch → op = .OP_EndSwitch) := by
  cases op <;> simp [kind_of]

/-- A two-byte zero written after an alignment to two. -/
theorem align_write_zero (self self' : assembler) (h : (self.align 2).2.write 2 0 = .ok self') :
    self'.script.pos = utils.writer.align_up self.script.pos 2 + 2 ∧
    self'.script.read (utils.writer.align_up self.script.pos 2) 2 = 0 ∧
    utils.writer.align_up self.script.pos 2 + 2 ≤ self.script.size := by
  have e := emitted_align_write _ _ 2 _ _ (by omega) h
  have hr := utils.read_write_2 _ _ _ (assembler_write_ok _ _ _ _ h).1
  exact ⟨e.pos, hr, e.fits _ (List.mem_singleton.2 rfl)⟩

/-- The slots of the string fixups of one instruction, after its operands are
emitted: each lies within the bytes of the operands and holds what
`fixup_slot` says. -/
theorem assemble_operands_slots (ctx : context) (labels : label_map) (self self' : assembler)
    (inst : instruction) (h : assemble_operands ctx labels self inst = .ok self')
    (hcap : self.script.size ≤ 4294967296) (name : String) (type : string_type) (r : Nat)
    (hmem : (name, type, r) ∈ string_fixups inst self.script.pos) :
    self.script.pos ≤ r ∧ r + 2 ≤ self'.script.pos ∧
    (kind_of inst.opcode = operand_kind.endswitch → self.script.pos + 2 ≤ r) ∧
    fixup_slot self'.script inst self.script.pos r := by
  obtain ⟨ks, kf, kl, ke⟩ := kind_of_string inst.opcode
  have hem := assemble_operands_spec _ _ _ _ _ h
  cases hk : kind_of inst.opcode <;> simp only [string_fixups, hk] at hmem <;>
    try (exact absurd hmem (List.not_mem_nil _))
  case string =>
    have hz : (self.align 2).2.write 2 0 = .ok self' := by
      rcases ks hk with hop | hop <;> (simp only [assemble_operands, hop] at h; exact h)
    obtain ⟨p, hr, hfit⟩ := align_write_zero _ _ hz
    have hge := utils.align_up_ge self.script.pos 2 (by omega)
    simp only [List.mem_singleton, Prod.mk.injEq] at hmem
    obtain ⟨-, -, hr'⟩ := hmem
    rw [Nat.mod_eq_of_lt (by omega)] at hr'
    subst hr'
    refine ⟨hge, by omega, fun hc => absurd hc (by simp), Or.inl ⟨by rw [hk]; simp, hr⟩⟩
  case field =>
    have hz : (self.align 2).2.write 2 0 = .ok self' := by
      rcases kf hk with hop | hop | hop <;> (simp only [assemble_operands, hop] at h; exact h)
    obtain ⟨p, hr, hfit⟩ := align_write_zero _ _ hz
    have hge := utils.align_up_ge self.script.pos 2 (by omega)
    simp only [List.mem_singleton, Prod.mk.injEq] at hmem
    obtain ⟨-, -, hr'⟩ := hmem
    rw [Nat.mod_eq_of_lt (by omega)] at hr'
    subst hr'
    refine ⟨hge, by omega, fun hc => absurd hc (by simp), Or.inl ⟨by rw [hk]; simp, hr⟩⟩
  case localvars =>
    have hop := kl hk
    simp only [assemble_operands, hop] at h
    obtain ⟨e, hz⟩ := assemble_localvars_spec _ _ _ h
    simp only [List.mem_map] at hmem
    obtain ⟨⟨d, q⟩, hzip, heq⟩ := hmem
    have hq : q ∈ slot_offsets inst.data.length (self.script.pos + 1) := (List.of_mem_zip hzip).2
    obtain ⟨b1, b2⟩ := slot_offsets_mem _ _ _ hq
    have hfit : q + 2 ≤ self.script.size :=
      e.fits (q, 2) (List.mem_cons_of_mem _ (List.mem_map.2 ⟨q, hq, rfl⟩))
    simp only [Prod.mk.injEq] at heq
    obtain ⟨-, -, hr'⟩ := heq
    rw [Nat.mod_eq_of_lt (by omega)] at hr'
    subst hr'
    refine ⟨by omega, by rw [e.pos]; exact b2, fun hc => absurd hc (by simp),
      Or.inl ⟨by rw [hk]; simp, hz q hq⟩⟩
  case endswitch =>
    have hop := ke hk
    simp only [assemble_operands, hop] at h
    obtain ⟨k, hlt, hcase, ⟨t, ty, ht, hty, hstr⟩, hr'⟩ := switch_fixups_mem _ _ _ _ _ _ _ hmem
    simp only [Nat.zero_add] at hcase ht
    have hint : to_switch_type ty ≠ switch_type_integer := by
      rw [hstr]; decide
    -- the run of the table
    have h' := h
    simp only [assemble_switch_table, bind_eq_ok] at h'
    obtain ⟨d0, hd0, count, hcount, s1, hs1, hrest⟩ := h'
    rw [operand_eq_ok] at hd0
    have hsc : switch_count inst.data = count := by simp [switch_count, hd0, hcount]
    have e1 := emitted_align_write _ _ 4 _ _ (by omega) hs1
    obtain ⟨e2, -⟩ := assemble_switch_cases_spec _ _ _ _ _ _ hrest
    obtain ⟨v4, v2⟩ := assemble_switch_cases_half _ _ _ _ _ _ hrest k (by rw [← hsc]; exact hlt)
      t ty (by rw [Nat.zero_add]; exact hcase) (by rw [Nat.zero_add]; exact ht) hty hint
    rw [e1.pos, Nat.zero_add] at v4 v2
    have hsw : s1.script.swap = self'.script.swap := e2.frame.script.swap.symm
    rw [hsw] at v2
    have hpos : self'.script.pos =
        utils.writer.align_up self.script.pos 4 + 4 + 8 * switch_count inst.data := by
      rw [hsc, e2.pos, e1.pos]
    have hge := utils.align_up_ge self.script.pos 4 (by omega)
    have hend : utils.writer.align_up self.script.pos 4 + 4 + 8 * switch_count inst.data ≤
        self.script.size := by
      have hf := hem.fits
      simp only [operand_writes, hk] at hf
      have hin : ∀ (n q : Nat), 0 < n → (q + 8 * (n - 1) + 4, 4) ∈ entry_writes n q := by
        intro n
        induction n with
        | zero => intro q hn; omega
        | succ n ih =>
          intro q _
          simp only [entry_writes, List.mem_cons]
          cases n with
          | zero => exact Or.inr (Or.inl rfl)
          | succ n =>
            refine Or.inr (Or.inr ?_)
            have := ih (q + 8) (by omega)
            have e : q + 8 + 8 * (n + 1 - 1) + 4 = q + 8 * (n + 1 + 1 - 1) + 4 := by omega
            rw [e] at this
            exact this
      have := hf _ (List.mem_cons_of_mem _ (hin (switch_count inst.data)
        (utils.writer.align_up self.script.pos 4 + 4) (by omega)))
      simp only at this
      omega
    rw [Nat.mod_eq_of_lt (by omega)] at hr'
    subst hr'
    refine ⟨by omega, by rw [hpos]; omega, fun _ => by omega, Or.inr ⟨hk, k, hlt, hcase, rfl, ?_, ?_⟩⟩
    · have e : utils.writer.align_up self.script.pos 4 + 4 + 8 * k + 2 - 2 =
          utils.writer.align_up self.script.pos 4 + 4 + 8 * k := by omega
      rw [e, v4]
    · rw [v2]

end arc

end xsk

namespace xsk

namespace arc

/-- What `fixup_slot` says of a slot depends only on the byte order and on the
four bytes around the slot. -/
theorem fixup_slot_congr (w G : utils.writer) (inst : instruction) (p r lo hi : Nat)
    (hs : G.swap = w.swap) (hd : ∀ i, lo ≤ i → i < hi → G.data i = w.data i)
    (h1 : lo ≤ r) (h2 : r + 2 ≤ hi)
    (h3 : kind_of inst.opcode = operand_kind.endswitch → lo + 2 ≤ r)
    (h : fixup_slot w inst p r) : fixup_slot G inst p r := by
  have e2 : G.read r 2 = w.read r 2 :=
    utils.read_congr _ _ _ _ hs (fun i a b => hd i (by omega) (by omega))
  rcases h with ⟨hk, hz⟩ | ⟨hk, i, hi1, hi2, hi3, hi4, hi5⟩
  · exact Or.inl ⟨hk, by rw [e2]; exact hz⟩
  · have h3' := h3 hk
    have e4 : G.read (r - 2) 4 = w.read (r - 2) 4 :=
      utils.read_congr _ _ _ _ hs (fun i a b => hd i (by omega) (by omega))
    exact Or.inr ⟨hk, i, hi1, hi2, hi3, by rw [e4]; exact hi4, by rw [e2, hs]; exact hi5⟩

/-- The slots of the string fixups of one instruction, after the instruction
is emitted. -/
theorem assemble_instruction_slots (ctx : context) (labels : label_map) (E E' : assembler)
    (inst : instruction) (h : assemble_instruction ctx labels E inst = .ok E')
    (hcap : E.script.size ≤ 4294967296) (name : String) (type : string_type) (r : Nat)
    (hmem : (name, type, r) ∈ string_fixups inst (E.script.pos + 1)) :
    E.script.pos < r ∧ r + 2 ≤ E'.script.pos ∧
    (kind_of inst.opcode = operand_kind.endswitch → E.script.pos + 3 ≤ r) ∧
    fixup_slot E'.script inst (E.script.pos + 1) r := by
  unfold assemble_instruction at h
  split at h
  · cases h
  · simp only [bind_eq_ok] at h
    obtain ⟨s1, hs1, s2, hs2, h⟩ := h
    obtain ⟨hw, -⟩ := assembler_write_ok _ _ _ _ hs1
    obtain ⟨-, p1, -, z1, -, -, -⟩ := utils.write_ok _ _ _ _ hw
    have e2 := (write_devmap_entry_spec _ _ _ _ hs2).1
    have p2 : s2.script.pos = E.script.pos + 1 := by rw [e2, p1]
    have z2 : s2.script.size ≤ 4294967296 := by rw [e2, z1]; exact hcap
    rw [← p2] at hmem ⊢
    obtain ⟨b1, b2, b3, b4⟩ := assemble_operands_slots _ _ _ _ _ h z2 _ _ _ hmem
    exact ⟨by omega, b2, fun hk => by have := b3 hk; omega, b4⟩

/-- The slots of the string fixups of an instruction of a run, after the whole
run is emitted. -/
theorem assemble_instructions_slots (ctx : context) (labels : label_map)
    (pre : List instruction) (inst : instruction) (post : List instruction)
    (E0 F : assembler)
    (h : assemble_instructions ctx labels (pre ++ inst :: post) E0 = .ok F)
    (hcap : E0.script.size ≤ 4294967296) (name : String) (type : string_type) (r : Nat)
    (hmem : (name, type, r) ∈ string_fixups inst (emit_end E0.script.pos pre + 1)) :
    E0.script.pos < r ∧ r + 2 ≤ F.script.pos ∧
    (kind_of inst.opcode = operand_kind.endswitch → E0.script.pos + 3 ≤ r) ∧
    fixup_slot F.script inst (emit_end E0.script.pos pre + 1) r := by
  obtain ⟨mid, hm1, hm2⟩ := assemble_instructions_append _ _ _ _ _ _ h
  simp only [assemble_instructions, bind_eq_ok] at hm2
  obtain ⟨E', hE', hpost⟩ := hm2
  obtain ⟨p1, f1⟩ := assemble_instructions_spec _ _ _ _ _ hm1
  obtain ⟨p3, f3⟩ := assemble_instructions_spec _ _ _ _ _ hpost
  have hge := emit_end_ge E0.script.pos pre
  rw [← p1] at hmem hge ⊢
  obtain ⟨b1, b2, b3, b4⟩ := assemble_instruction_slots _ _ _ _ _ hE'
    (by rw [f1.script.size]; exact hcap) _ _ _ hmem
  have hle := f3.script.le
  refine ⟨by omega, by omega, fun hk => by have := b3 hk; omega, ?_⟩
  exact fixup_slot_congr E'.script F.script inst _ r mid.script.pos E'.script.pos f3.script.swap
    (fun i _ hi => f3.script.below i hi) (by omega) b2 (fun hk => by have := b3 hk; omega) b4

/-- The string fixups `assemble_function` records are those of the relocated
instructions at their emission offsets, and their slots lie in the bytes of the
function and hold what `fixup_slot` says. -/
theorem assemble_function_slots (ctx : context) (self self' : assembler)
    (func func' : function) (h : assemble_function ctx self func = .ok (func', self'))
    (hcap : self.script.size ≤ 4294967296) :
    self'.strings =
      add_stringrefs (fixups_from self.script.pos func'.instructions) self.strings ∧
    self'.script.swap = self.script.swap ∧
    ∀ (pre : List instruction) (inst : instruction) (post : List instruction),
      func'.instructions = pre ++ inst :: post →
      ∀ (name : String) (type : string_type) (r : Nat),
        (name, type, r) ∈ string_fixups inst (emit_end self.script.pos pre + 1) →
        self.script.pos < r ∧ r + 2 ≤ self'.script.pos ∧
        (kind_of inst.opcode = operand_kind.endswitch → self.script.pos + 3 ≤ r) ∧
        fixup_slot self'.script inst (emit_end self.script.pos pre + 1) r := by
  simp only [assemble_function, bind_eq_ok, pure, Except.pure, Except.ok.injEq,
    Prod.mk.injEq] at h
  obtain ⟨r0, hlay, s2, hemit, hf, hs⟩ := h
  subst hf hs
  obtain ⟨-, -, l3, l4, -, -⟩ := layout_instructions_spec _ _ _ _ _ _ _ _ hlay
  obtain ⟨p2, f2⟩ := assemble_instructions_spec _ _ _ _ _ hemit
  refine ⟨?_, ?_, ?_⟩
  · show s2.strings = _
    rw [f2.strings]
    exact l3
  · show s2.script.swap = _
    rw [f2.script.swap]
    exact l4.swap
  · intro pre inst post hsplit name type r hmem
    have hsplit' : r0.1 = pre ++ inst :: post := hsplit
    rw [hsplit'] at hemit
    exact assemble_instructions_slots ctx _ pre inst post _ s2 hemit
      (by show r0.2.2.2.script.size ≤ _; rw [l4.size]; exact hcap) name type r hmem

end arc

end xsk

namespace xsk

namespace arc

/-! ## What the passes around the code segment leave alone -/

/-- A script write only advances the script. -/
theorem emit_frame_write (self self' : assembler) (width v : Nat)
    (h : self.write width v = .ok self') : emit_frame self self' :=
  (assembler_write_spec _ _ _ _ h).2.2.1

/-- A seek only advances the script. -/
theorem emit_frame_seek (self : assembler) (n : Nat) : emit_frame self (self.seek n) :=
  ⟨utils.advances_seek _ _, rfl, rfl, rfl, rfl, rfl⟩

theorem write_includes_frame (l : List String) (self self' : assembler)
    (h : write_includes l self = .ok self') : emit_frame self self' := by
  induction l generalizing self with
  | nil =>
    simp only [write_includes, Except.ok.injEq] at h
    subst h
    exact emit_frame_refl _
  | cons e l ih =>
    simp only [write_includes, bind_eq_ok] at h
    obtain ⟨hd, -, s1, h1, h⟩ := h
    exact emit_frame_trans (emit_frame_write _ _ _ _ h1) (ih _ h)

theorem write_refs_frame (l : List Nat) (self self' : assembler)
    (h : write_refs l self = .ok self') : emit_frame self self' := by
  induction l generalizing self with
  | nil =>
    simp only [write_refs, Except.ok.injEq] at h
    subst h
    exact emit_frame_refl _
  | cons e l ih =>
    simp only [write_refs, bind_eq_ok] at h
    obtain ⟨s1, h1, h⟩ := h
    exact emit_frame_trans (emit_frame_write _ _ _ _ h1) (ih _ h)

theorem write_exports_frame (ctx : context) (l : List export_ref) (self self' : assembler)
    (h : write_exports ctx l self = .ok self') : emit_frame self self' := by
  induction l generalizing self with
  | nil =>
    simp only [write_exports, Except.ok.injEq] at h
    subst h
    exact emit_frame_refl _
  | cons e l ih =>
    simp only [write_exports, bind_eq_ok] at h
    obtain ⟨s1, h1, s2, h2, h⟩ := h
    have f12 := emit_frame_trans (emit_frame_write _ _ _ _ h1) (emit_frame_write _ _ _ _ h2)
    split at h
    · simp only [bind_eq_ok] at h
      obtain ⟨s3, h3, s4, h4, s5, h5, s6, h6, h⟩ := h
      exact emit_frame_trans f12 (emit_frame_trans (emit_frame_write _ _ _ _ h3)
        (emit_frame_trans (emit_frame_write _ _ _ _ h4)
          (emit_frame_trans (emit_frame_write _ _ _ _ h5)
            (emit_frame_trans (emit_frame_write _ _ _ _ h6)
              (emit_frame_trans (emit_frame_seek _ _) (ih _ h))))))
    · simp only [bind_eq_ok] at h
      obtain ⟨hd, -, s3, h3, s5, h5, s6, h6, h⟩ := h
      exact emit_frame_trans f12 (emit_frame_trans (emit_frame_write _ _ _ _ h3)
        (emit_frame_trans (emit_frame_write _ _ _ _ h5)
          (emit_frame_trans (emit_frame_write _ _ _ _ h6) (ih _ h))))

theorem write_imports_frame (ctx : context) (l : List import_ref) (self self' : assembler)
    (h : write_imports ctx l self = .ok self') : emit_frame self self' := by
  induction l generalizing self with
  | nil =>
    simp only [write_imports, Except.ok.injEq] at h
    subst h
    exact emit_frame_refl _
  | cons e l ih =>
    simp only [write_imports] at h
    split at h
    · simp only [bind_eq_ok] at h
      obtain ⟨s1, h1, s2, h2, s3, h3, s4, h4, s5, h5, s6, h6, h⟩ := h
      exact emit_frame_trans (emit_frame_write _ _ _ _ h1)
        (emit_frame_trans (emit_frame_write _ _ _ _ h2)
          (emit_frame_trans (emit_frame_write _ _ _ _ h3)
            (emit_frame_trans (emit_frame_write _ _ _ _ h4)
              (emit_frame_trans (emit_frame_write _ _ _ _ h5)
                (emit_frame_trans (write_refs_frame _ _ _ h6) (ih _ h))))))
    · simp only [bind_eq_ok] at h
      obtain ⟨hn, -, s1, h1, hs, -, s2, h2, s3, h3, s4, h4, s5, h5, s6, h6, h⟩ := h
      exact emit_frame_trans (emit_frame_write _ _ _ _ h1)
        (emit_frame_trans (emit_frame_write _ _ _ _ h2)
          (emit_frame_trans (emit_frame_write _ _ _ _ h3)
            (emit_frame_trans (emit_frame_write _ _ _ _ h4)
              (emit_frame_trans (emit_frame_write _ _ _ _ h5)
                (emit_frame_trans (write_refs_frame _ _ _ h6) (ih _ h))))))

theorem write_anims_frame (ctx : context) (l : List animation_ref) (self self' : assembler)
    (h : write_anims ctx l self = .ok self') : emit_frame self self' := by
  induction l generalizing self with
  | nil =>
    simp only [write_anims, Except.ok.injEq] at h
    subst h
    exact emit_frame_refl _
  | cons e l ih =>
    simp only [write_anims, bind_eq_ok] at h
    obtain ⟨hd, -, h⟩ := h
    split at h <;>
      (simp only [bind_eq_ok] at h
       obtain ⟨s1, h1, s2, h2, h⟩ := h
       exact emit_frame_trans (emit_frame_write _ _ _ _ h1)
        (emit_frame_trans (emit_frame_write _ _ _ _ h2) (ih _ h)))

theorem write_animtrees_frame (ctx : context) (l : List animtree_ref) (self self' : assembler)
    (h : write_animtrees ctx l self = .ok self') : emit_frame self self' := by
  induction l generalizing self with
  | nil =>
    simp only [write_animtrees, Except.ok.injEq] at h
    subst h
    exact emit_frame_refl _
  | cons e l ih =>
    simp only [write_animtrees, bind_eq_ok] at h
    obtain ⟨hd, -, h⟩ := h
    split at h
    · simp only [bind_eq_ok] at h
      obtain ⟨s1, h1, s2, h2, s3, h3, s4, h4, s5, h5, h⟩ := h
      exact emit_frame_trans (emit_frame_write _ _ _ _ h1)
        (emit_frame_trans (emit_frame_write _ _ _ _ h2)
          (emit_frame_trans (emit_frame_write _ _ _ _ h3)
            (emit_frame_trans (write_refs_frame _ _ _ h4)
              (emit_frame_trans (write_anims_frame _ _ _ _ h5) (ih _ h)))))
    · simp only [bind_eq_ok, pure, Except.pure, Except.ok.injEq, exists_eq_left'] at h
      obtain ⟨s1, h1, s2, h2, s2a, h2a, s4, h4, s5, h5, h⟩ := h
      exact emit_frame_trans (emit_frame_write _ _ _ _ h1)
        (emit_frame_trans (emit_frame_write _ _ _ _ h2)
          (emit_frame_trans (emit_frame_write _ _ _ _ h2a)
            (emit_frame_trans (emit_frame_seek _ _)
              (emit_frame_trans (write_refs_frame _ _ _ h4)
                (emit_frame_trans (write_anims_frame _ _ _ _ h5) (ih _ h))))))

theorem write_string_header_frame (ctx : context) (entry : string_ref) (count : Nat)
    (self self' : assembler) (h : write_string_header ctx entry count self = .ok self') :
    emit_frame self self' := by
  simp only [write_string_header, bind_eq_ok] at h
  obtain ⟨hd, -, h⟩ := h
  split at h <;>
    (simp only [bind_eq_ok, pure, Except.pure, Except.ok.injEq] at h
     obtain ⟨s1, h1, s2, h2, s3, h3, rfl⟩ := h
     have f3 := emit_frame_trans (emit_frame_write _ _ _ _ h1)
       (emit_frame_trans (emit_frame_write _ _ _ _ h2) (emit_frame_write _ _ _ _ h3))
     first
       | exact emit_frame_trans f3 (emit_frame_seek _ _)
       | exact f3)

theorem write_string_runs_frame (ctx : context) (entry : string_ref) (count : Nat)
    (l : List Nat) (i n : Nat) (self : assembler) (r : Nat × assembler)
    (h : write_string_runs ctx entry count l i n self = .ok r) : emit_frame self r.2 := by
  induction l generalizing i n self with
  | nil =>
    simp only [write_string_runs, Except.ok.injEq] at h
    subst h
    exact emit_frame_refl _
  | cons e l ih =>
    simp only [write_string_runs] at h
    split at h
    · simp only [bind_eq_ok] at h
      obtain ⟨s1, h1, s2, h2, h⟩ := h
      exact emit_frame_trans (write_string_header_frame _ _ _ _ _ h1)
        (emit_frame_trans (emit_frame_write _ _ _ _ h2) (ih _ _ _ h))
    · simp only [bind_eq_ok] at h
      obtain ⟨s2, h2, h⟩ := h
      exact emit_frame_trans (emit_frame_write _ _ _ _ h2) (ih _ _ _ h)

theorem write_strings_frame (ctx : context) (l : List string_ref) (n : Nat)
    (self : assembler) (r : Nat × assembler)
    (h : write_strings ctx l n self = .ok r) : emit_frame self r.2 := by
  induction l generalizing n self with
  | nil =>
    simp only [write_strings, Except.ok.injEq] at h
    subst h
    exact emit_frame_refl _
  | cons e l ih =>
    simp only [write_strings] at h
    split at h
    · simp only [bind_eq_ok] at h
      obtain ⟨r1, h1, h⟩ := h
      exact emit_frame_trans (write_string_runs_frame _ _ _ _ _ _ _ _ h1) (ih _ _ h)
    · simp only [bind_eq_ok] at h
      obtain ⟨s1, h1, s2, h2, h⟩ := h
      exact emit_frame_trans (write_string_header_frame _ _ _ _ _ h1)
        (emit_frame_trans (write_refs_frame _ _ _ h2) (ih _ _ h))

/-- A write followed by more: the bytes the rest takes, plus the width. -/
theorem header_bind (self self' : assembler) (width v k : Nat)
    (f : assembler → Except asm_error assembler)
    (h : (self.write width v >>= f) = .ok self')
    (hf : ∀ s, f s = .ok self' → emit_frame s self' ∧ self'.script.pos ≤ s.script.pos + k) :
    emit_frame self self' ∧ self'.script.pos ≤ self.script.pos + (k + width) := by
  rw [bind_eq_ok] at h
  obtain ⟨s, hs, h⟩ := h
  obtain ⟨f1, p1⟩ := hf s h
  have p := (assembler_write_spec _ _ _ _ hs).1
  exact ⟨emit_frame_trans (emit_frame_write _ _ _ _ hs) f1, by omega⟩

/-- The last write. -/
theorem header_last (self self' : assembler) (width v k : Nat)
    (h : self.write width v = .ok self') (hk : width ≤ k) :
    emit_frame self self' ∧ self'.script.pos ≤ self.script.pos + k := by
  have p := (assembler_write_spec _ _ _ _ h).1
  exact ⟨emit_frame_write _ _ _ _ h, by omega⟩

/-- A step that writes nothing. -/
theorem header_skip (self self' : assembler) (k : Nat)
    (f : assembler → Except asm_error assembler)
    (h : (pure self >>= f) = .ok self')
    (hf : ∀ s, f s = .ok self' → emit_frame s self' ∧ self'.script.pos ≤ s.script.pos + k) :
    emit_frame self self' ∧ self'.script.pos ≤ self.script.pos + k :=
  hf self h

/-- The header block takes at most 71 bytes from the cursor on. -/
theorem write_header_frame (ctx : context) (head : header) (self self' : assembler)
    (h : write_header ctx head self = .ok self') :
    emit_frame self self' ∧ self'.script.pos ≤ self.script.pos + 71 := by
  unfold write_header at h
  repeat' (first
    | exact header_last _ _ _ _ _ h (by omega)
    | refine header_bind _ _ _ _ _ _ h (fun s h => ?_)
    | refine header_skip _ _ _ _ h (fun s h => ?_)
    | split at h)

end arc

end xsk

namespace xsk

namespace arc

/-! ## The string pool pass -/

/-- Pooling a string only advances the script and records no fixup. -/
theorem process_string_frame (self self' : assembler) (data : String)
    (h : process_string self data = .ok self') :
    self.script.advances self'.script ∧ self'.strings = self.strings := by
  unfold process_string at h
  split at h
  · cases h
    exact ⟨utils.advances_refl _, rfl⟩
  · simp only [bind_eq_ok, pure, Except.pure, Except.ok.injEq] at h
    obtain ⟨w, hw, rfl⟩ := h
    exact ⟨utils.advances_put _ _ _ hw, rfl⟩

/-- Pooling a string into an empty pool writes at least its terminator. -/
theorem process_string_fresh (self self' : assembler) (data : String)
    (hp : self.strpool = []) (h : process_string self data = .ok self') :
    self.script.pos + 1 ≤ self'.script.pos := by
  unfold process_string at h
  rw [hp] at h
  simp only [List.any_nil, Bool.false_eq_true, if_false, bind_eq_ok, pure, Except.pure,
    Except.ok.injEq] at h
  obtain ⟨w, hw, rfl⟩ := h
  obtain ⟨-, h2, -⟩ := utils.put_ok _ _ _ hw
  simp only [List.length_append, List.length_singleton] at h2
  show self.script.pos + 1 ≤ w.pos
  omega

theorem process_strings_frame (l : List String) (self self' : assembler)
    (h : process_strings l self = .ok self') :
    self.script.advances self'.script ∧ self'.strings = self.strings := by
  induction l generalizing self with
  | nil =>
    simp only [process_strings, Except.ok.injEq] at h
    subst h
    exact ⟨utils.advances_refl _, rfl⟩
  | cons e l ih =>
    simp only [process_strings, bind_eq_ok] at h
    obtain ⟨s1, h1, h⟩ := h
    obtain ⟨a1, e1⟩ := process_string_frame _ _ _ h1
    obtain ⟨a2, e2⟩ := ih _ h
    exact ⟨utils.advances_trans a1 a2, e2.trans e1⟩

theorem process_switch_cases_frame (data : List String) (n i : Nat) (self self' : assembler)
    (h : process_switch_cases data n i self = .ok self') :
    self.script.advances self'.script ∧ self'.strings = self.strings := by
  induction n generalizing i self with
  | zero =>
    simp only [process_switch_cases, Except.ok.injEq] at h
    subst h
    exact ⟨utils.advances_refl _, rfl⟩
  | succ n ih =>
    simp only [process_switch_cases, bind_eq_ok] at h
    obtain ⟨head, -, h⟩ := h
    split at h
    · simp only [bind_eq_ok] at h
      obtain ⟨t, -, type, -, h⟩ := h
      split at h
      · simp only [bind_eq_ok] at h
        obtain ⟨name, -, s1, h1, h⟩ := h
        obtain ⟨a1, e1⟩ := process_string_frame _ _ _ h1
        obtain ⟨a2, e2⟩ := ih _ _ h
        exact ⟨utils.advances_trans a1 a2, e2.trans e1⟩
      · exact ih _ _ h
    · exact ih _ _ h

theorem process_instruction_frame (self self' : assembler) (inst : instruction)
    (h : process_instruction self inst = .ok self') :
    self.script.advances self'.script ∧ self'.strings = self.strings := by
  unfold process_instruction at h
  split at h <;> first
    | (cases h; exact ⟨utils.advances_refl _, rfl⟩)
    | exact process_strings_frame _ _ _ h
    | (simp only [bind_eq_ok] at h
       obtain ⟨d0, -, h⟩ := h
       exact process_string_frame _ _ _ h)
    | (simp only [bind_eq_ok] at h
       obtain ⟨d0, -, s1, h1, d1, -, h⟩ := h
       obtain ⟨a1, e1⟩ := process_string_frame _ _ _ h1
       obtain ⟨a2, e2⟩ := process_string_frame _ _ _ h
       exact ⟨utils.advances_trans a1 a2, e2.trans e1⟩)
    | (simp only [bind_eq_ok] at h
       obtain ⟨d0, -, count, -, h⟩ := h
       exact process_switch_cases_frame _ _ _ _ _ h)
    | (split at h
       · simp only [bind_eq_ok] at h
         obtain ⟨d0, -, h⟩ := h
         exact process_string_frame _ _ _ h
       · cases h
         exact ⟨utils.advances_refl _, rfl⟩)

theorem process_instructions_frame (l : List instruction) (self self' : assembler)
    (h : process_instructions l self = .ok self') :
    self.script.advances self'.script ∧ self'.strings = self.strings := by
  induction l generalizing self with
  | nil =>
    simp only [process_instructions, Except.ok.injEq] at h
    subst h
    exact ⟨utils.advances_refl _, rfl⟩
  | cons e l ih =>
    simp only [process_instructions, bind_eq_ok] at h
    obtain ⟨s1, h1, h⟩ := h
    obtain ⟨a1, e1⟩ := process_instruction_frame _ _ _ h1
    obtain ⟨a2, e2⟩ := ih _ h
    exact ⟨utils.advances_trans a1 a2, e2.trans e1⟩

theorem process_functions_frame (l : List function) (self self' : assembler)
    (h : process_functions l self = .ok self') :
    self.script.advances self'.script ∧ self'.strings = self.strings := by
  induction l generalizing self with
  | nil =>
    simp only [process_functions, Except.ok.injEq] at h
    subst h
    exact ⟨utils.advances_refl _, rfl⟩
  | cons e l ih =>
    simp only [process_functions, process_function, bind_eq_ok] at h
    obtain ⟨s1, ⟨s0, h0, h1⟩, h⟩ := h
    obtain ⟨a0, e0⟩ := process_string_frame _ _ _ h0
    obtain ⟨a1, e1⟩ := process_instructions_frame _ _ _ h1
    obtain ⟨a2, e2⟩ := ih _ h
    exact ⟨utils.advances_trans a0 (utils.advances_trans a1 a2), e2.trans (e1.trans e0)⟩

end arc

end xsk

namespace xsk

namespace arc

/-! ## The fixup slots in the image -/

/-- The function `assemble_function` returns starts at the cursor, and only
bytes from the cursor on are written. -/
theorem assemble_function_frame (ctx : context) (self self' : assembler)
    (func func' : function) (h : assemble_function ctx self func = .ok (func', self')) :
    func'.index = self.script.pos ∧ self.script.advances self'.script := by
  simp only [assemble_function, bind_eq_ok, pure, Except.pure, Except.ok.injEq,
    Prod.mk.injEq] at h
  obtain ⟨r0, hlay, s2, hemit, hf, hs⟩ := h
  subst hf hs
  obtain ⟨-, -, -, l4, -, -⟩ := layout_instructions_spec _ _ _ _ _ _ _ _ hlay
  obtain ⟨-, f2⟩ := assemble_instructions_spec _ _ _ _ _ hemit
  refine ⟨rfl, ?_⟩
  have a := f2.script
  exact ⟨a.swap.trans l4.swap, a.size.trans l4.size, a.le,
    fun i hi => (a.below i hi).trans (congrFun l4.data i),
    fun i hi => (a.above i hi).trans (congrFun l4.data i)⟩

/-- The code segment loop: the fixups recorded are those of the relocated
functions, each function starts at a multiple of four at least four bytes
after the cursor, and the slots hold what `fixup_slot` says. -/
theorem assemble_functions_slots (ctx : context) (fs : List function) (self : assembler)
    (res : List function × assembler)
    (h : assemble_functions ctx fs self = .ok res)
    (hcap : self.script.size ≤ 4294967296) :
    res.2.strings = add_stringrefs (fixups_of res.1) self.strings ∧
    self.script.advances res.2.script ∧
    ∀ f, f ∈ res.1 →
      ∀ (pre : List instruction) (inst : instruction) (post : List instruction),
        f.instructions = pre ++ inst :: post →
        ∀ (name : String) (type : string_type) (r : Nat),
          (name, type, r) ∈ string_fixups inst (emit_end f.index pre + 1) →
          self.script.pos + 4 ≤ f.index ∧ 4 ∣ f.index ∧ f.index < r ∧
          r + 2 ≤ res.2.script.pos ∧
          (kind_of inst.opcode = operand_kind.endswitch → f.index + 3 ≤ r) ∧
          fixup_slot res.2.script inst (emit_end f.index pre + 1) r := by
  induction fs generalizing self res with
  | nil =>
    simp only [assemble_functions, Except.ok.injEq] at h
    subst h
    exact ⟨rfl, utils.advances_refl _, fun f hf => absurd hf (List.not_mem_nil _)⟩
  | cons func rest ih =>
    simp only [assemble_functions, bind_eq_ok, pure, Except.pure, Except.ok.injEq] at h
    obtain ⟨r, hr, t, ht, rfl⟩ := h
    obtain ⟨f', s'⟩ := r
    -- the start of the function
    have hn : ∃ n, (n = 4 ∨ n = 8) ∧
        assemble_function ctx ((self.align n).2.seek n) func = .ok (f', s') := by
      by_cases hp : has_prop ctx.props props.size64 = true
      · exact ⟨8, Or.inr rfl, by simpa [hp] using hr⟩
      · exact ⟨4, Or.inl rfl, by simpa [hp] using hr⟩
    obtain ⟨n, hn4, hr'⟩ := hn
    have hn0 : 0 < n := by rcases hn4 with h | h <;> omega
    have hstart : ((self.align n).2.seek n).script.pos =
        utils.writer.align_up self.script.pos n + n := rfl
    have hge := utils.align_up_ge self.script.pos n hn0
    have hdvd : 4 ∣ utils.writer.align_up self.script.pos n + n := by
      have := utils.align_up_dvd self.script.pos n
      rcases hn4 with h | h <;> subst h <;> omega
    have a0 : self.script.advances ((self.align n).2.seek n).script :=
      utils.advances_trans (utils.advances_align _ _ hn0) (utils.advances_seek _ _)
    obtain ⟨hidx, a1⟩ := assemble_function_frame _ _ _ _ _ hr'
    obtain ⟨hs1, -, hslots⟩ := assemble_function_slots _ _ _ _ _ hr' hcap
    obtain ⟨hs2, a2, htail⟩ := ih s' t ht (by rw [a1.size]; exact hcap)
    rw [hstart] at hidx hslots
    refine ⟨?_, utils.advances_trans a0 (utils.advances_trans a1 a2), ?_⟩
    · show t.2.strings = _
      rw [hs2, hs1, hstart, ← hidx]
      simp only [fixups_of, add_stringrefs_append]
      rfl
    · intro f hf pre inst post hsplit name type r hmem
      show self.script.pos + 4 ≤ f.index ∧ 4 ∣ f.index ∧ f.index < r ∧
        r + 2 ≤ t.2.script.pos ∧
        (kind_of inst.opcode = operand_kind.endswitch → f.index + 3 ≤ r) ∧
        fixup_slot t.2.script inst (emit_end f.index pre + 1) r
      rcases List.mem_cons.1 hf with hf | hf
      · subst hf
        rw [hidx] at hmem
        obtain ⟨b1, b2, b3, b4⟩ := hslots pre inst post hsplit name type r hmem
        have hle := a2.le
        refine ⟨by omega, by rw [hidx]; exact hdvd, by omega, by omega,
          fun hk => by have := b3 hk; omega, ?_⟩
        rw [hidx]
        exact fixup_slot_congr s'.script t.2.script inst _ r
          (utils.writer.align_up self.script.pos n + n) s'.script.pos a2.swap
          (fun i _ hi => a2.below i hi) (by omega) b2 (fun hk => by have := b3 hk; omega) b4
      · obtain ⟨c1, c2, c3, c4, c5, c6⟩ := htail f hf pre inst post hsplit name type r hmem
        have hle := a1.le
        exact ⟨by omega, c2, c3, c4, c5, c6⟩

end arc

end xsk

namespace xsk

namespace arc

/-- The image `assemble` returns, when the header is not written over the
start of the buffer (`headerxx` clear): the string fixups recorded are those of
the relocated functions, each slot lies in the image, and it holds what
`fixup_slot` says. -/
theorem assemble_slots (ctx : context) (self : assembler) (data : assembly) (name : String)
    (res : assemble_result)
    (hxx : has_prop ctx.props props.headerxx = false)
    (hcap : self.script.size ≤ 4294967296)
    (h : assemble ctx self data name = .ok res) :
    res.self.strings = add_stringrefs (fixups_of res.data.functions) [] ∧
    res.self.script.swap = self.script.swap ∧
    res.script = res.self.script.bytes ∧
    ∀ f, f ∈ res.data.functions →
      ∀ (pre : List instruction) (inst : instruction) (post : List instruction),
        f.instructions = pre ++ inst :: post →
        ∀ (name : String) (type : string_type) (r : Nat),
          (name, type, r) ∈ string_fixups inst (emit_end f.index pre + 1) →
          r + 2 ≤ res.self.script.pos ∧
          fixup_slot res.self.script inst (emit_end f.index pre + 1) r := by
  simp only [assemble, bind_eq_ok, pure, Except.pure, Except.ok.injEq] at h
  obtain ⟨a2, h2, a3, h3, a4, h4, a5, h5, r, hr, a7, h7, a8, h8, a9, h9, t, ht, hname, -,
    a11, h11, a13, h13, rfl⟩ := h
  -- the pool pass
  have p1 : 64 ≤ (if has_prop ctx.props props.headerxx = true then 0
      else if has_prop ctx.props props.header72 = true then 72 else 64) := by
    rw [hxx]
    simp only [Bool.false_eq_true, if_false]
    split <;> omega
  have p2 := process_string_fresh _ _ _ rfl h2
  have p2 : 65 ≤ a2.script.pos := by
    have e : ∀ w : utils.writer, ∀ n, (w.set_pos n).pos = n := fun _ _ => rfl
    simp only [e] at p2
    omega
  obtain ⟨b2, e2⟩ := process_string_frame _ _ _ h2
  obtain ⟨b3, e3⟩ := process_functions_frame _ _ _ h3
  obtain ⟨b4, e4⟩ := process_strings_frame _ _ _ h4
  have f5 := write_includes_frame _ _ _ h5
  have p5 : 65 ≤ a5.script.pos := by
    have := b3.le
    have := b4.le
    have := f5.script.le
    omega
  have z5 : a5.script.size = self.script.size := by
    rw [f5.script.size, b4.size, b3.size, b2.size]
    rfl
  have s5 : a5.strings = [] := by
    rw [f5.strings, e4, e3, e2]
    rfl
  have w5 : a5.script.swap = self.script.swap := by
    rw [f5.script.swap, b4.swap, b3.swap, b2.swap]
    rfl
  -- the code segment
  obtain ⟨hs6, b6, hslots⟩ := assemble_functions_slots _ _ _ _ hr (by rw [z5]; exact hcap)
  -- the tables
  have f7 := write_exports_frame _ _ _ _ h7
  have f8 := write_imports_frame _ _ _ _ h8
  have f9 := write_animtrees_frame _ _ _ _ h9
  have f10 := write_strings_frame _ _ _ _ _ ht
  have f610 := emit_frame_trans f7 (emit_frame_trans f8 (emit_frame_trans f9 f10))
  -- the header
  obtain ⟨f11, p11⟩ := write_header_frame _ _ _ _ h11
  have p11 : a11.script.pos ≤ 71 := by
    have e : ({ t.2 with script := t.2.script.set_pos 0 } : assembler).script.pos = 0 := rfl
    rw [e] at p11
    omega
  obtain ⟨-, e13⟩ := write_devmap_ok _ _ _ _ h13
  have hscript : ∀ (d : utils.writer), ({ a13 with devmap := d } : assembler).script =
      a11.script.set_pos t.2.script.pos := by
    intro d
    rw [e13]
  have hstrings : ∀ (d : utils.writer), ({ a13 with devmap := d } : assembler).strings =
      r.2.strings := by
    intro d
    rw [e13]
    show a11.strings = _
    rw [f11.strings]
    show t.2.strings = _
    rw [f610.strings]
  refine ⟨?_, ?_, rfl, ?_⟩
  · rw [hstrings, hs6, s5]
  · rw [hscript]
    show a11.script.swap = _
    rw [f11.script.swap]
    show t.2.script.swap = _
    rw [f610.script.swap, b6.swap, w5]
  · intro f hf pre inst post hsplit nm type q hmem
    obtain ⟨c1, c2, c3, c4, c5, c6⟩ := hslots f hf pre inst post hsplit nm type q hmem
    have hf72 : 72 ≤ f.index := by omega
    have hle := f610.script.le
    rw [hscript]
    refine ⟨by show q + 2 ≤ t.2.script.pos; omega, ?_⟩
    refine fixup_slot_congr r.2.script _ inst _ q (f.index + 1) r.2.script.pos ?_ ?_
      (by omega) c4 (fun hk => by have := c5 hk; omega) c6
    · show a11.script.swap = _
      rw [f11.script.swap]
      show t.2.script.swap = _
      rw [f610.script.swap]
    · intro i hi1 hi2
      show a11.script.data i = _
      rw [f11.script.above i (by omega)]
      show t.2.script.data i = _
      exact f610.script.below i hi2

end arc

end xsk

namespace xsk

namespace utils

/-- Two bytes of the written prefix. -/
theorem bytes_slot (w : writer) (r : Nat) (h : r + 2 ≤ w.pos) :
    (w.bytes.drop r).take 2 = [w.data r, w.data (r + 1)] := by
  unfold writer.bytes
  apply List.ext_getElem?
  intro i
  rcases i with _ | _ | i
  · simp [List.getElem?_take, List.getElem?_drop, List.getElem?_map, List.getElem?_range]
    exact ⟨r, by rw [List.getElem?_range (by omega)], rfl⟩
  · simp [List.getElem?_take, List.getElem?_drop, List.getElem?_map, List.getElem?_range]
    exact ⟨r + 1, by rw [List.getElem?_range (by omega)], rfl⟩
  · simp [List.getElem?_take, List.getElem?_drop, List.getElem?_map, List.getElem?_range]

/-- A 16-bit slot that reads zero holds two zero bytes. -/
theorem read_2_zero (w : writer) (r : Nat) (h : w.read r 2 = 0) :
    w.data r = 0 ∧ w.data (r + 1) = 0 := by
  unfold writer.read at h
  cases hs : w.swap <;> simp [hs, writer.read_le, writer.read_be] at h <;> omega

theorem bytes_length (w : writer) : w.bytes.length = w.pos := by
  simp [writer.bytes]

end utils

end xsk

namespace xsk

namespace arc

/-! ## Jump displacement -/

theorem align_up_2_of_4 (p : Nat) (h : 4 ∣ p) : utils.writer.align_up (p + 3) 2 = p + 4 := by
  obtain ⟨k, rfl⟩ := h
  unfold utils.writer.align_up
  omega

theorem resolve_label_single (q : Nat) (name : String) :
    resolve_label [(q, name)] name = .ok q := by
  simp [resolve_label, List.find?]

/-- `assemble_jump` succeeds when the label resolves and the two bytes fit. -/
theorem assemble_jump_ok (labels : label_map) (self : assembler) (inst : instruction)
    (name : String) (addr : Nat) (hname : inst.data[0]? = some name)
    (hlabel : resolve_label labels name = .ok addr)
    (hfit : utils.writer.align_up self.script.pos 2 + 2 ≤ self.script.size) :
    ∃ self', assemble_jump labels self inst = .ok self' ∧
      self'.script.writes =
        self.script.writes ++ [(utils.writer.align_up self.script.pos 2, 2)] ∧
      self'.script.read (utils.writer.align_up self.script.pos 2) 2 =
        (((addr : Int) - ((inst.index : Int) + (inst.size : Int))) % 65536).toNat := by
  obtain ⟨s, hs⟩ := assembler_write_of_fits (self.align 2).2 2
    (usize_sub (usize_sub addr inst.index) inst.size) hfit
  have h : assemble_jump labels self inst = .ok s := by
    simp only [assemble_jump, (operand_eq_ok _ _ _).2 hname, hlabel, bind, Except.bind]
    exact hs
  obtain ⟨e, name', addr', hn', hl', hr⟩ := assemble_jump_spec _ _ _ _ h
  rw [hname] at hn'
  cases hn'
  rw [hlabel] at hl'
  cases hl'
  exact ⟨s, h, e.writes, by rw [hr, usize_sub_sub_mod16]⟩

/-- The layout of scenario S2 from a start divisible by 4. -/
theorem scenario_S2_layout (ctx : context) (self : assembler)
    (h1 : ctx.opcode_size opcode.OP_GetByte = 2) (h2 : ctx.opcode_size opcode.OP_JumpOnFalse = 3)
    (h3 : ctx.opcode_size opcode.OP_Return = 1) (h4 : 4 ∣ self.script.pos) :
    ∃ r, layout_instructions ctx self.script.pos scenario_S2.labels scenario_S2.instructions
        0 [] self = .ok r ∧
      r.1.map (fun i => (i.opcode, i.index, i.size, i.data)) =
        [(opcode.OP_GetByte, self.script.pos, 2, ["1"]),
         (opcode.OP_JumpOnFalse, self.script.pos + 2, 4, ["L1"]),
         (opcode.OP_GetByte, self.script.pos + 6, 2, ["2"]),
         (opcode.OP_Return, self.script.pos + 8, 1, [])] ∧
      r.2.2.1 = [(self.script.pos + 8, "L1")] := by
  have ha := align_up_2_of_4 _ h4
  simp only [scenario_S2, layout_instructions, align_instruction, align_operands, bind,
    Except.bind, pure, Except.pure, h1, h2, h3, Except.ok.injEq, exists_eq_left']
  simp [assembler.seek, assembler.align, utils.writer.seek, utils.writer.align, labels_find,
    labels_insert, Nat.add_assoc, ha]

/-- C1. ARC `assemble_jump`: for every jump-family instruction whose label
operand resolves to `O_L` in the current function's label map, emission
succeeds when the two bytes fit, aligns the writer to 2, and writes as 16-bit
value `O_L - (index + size)` reduced modulo `2^16` (exactly that integer, read
as `i16`, when it is in range). Scenario S2: for `[GetByte 1; JumpOnFalse L1;
GetByte 2; L1: Return]` with opcode sizes 2, 3, 2, 1 and a function start
divisible by 4, the layout gives `JumpOnFalse` index `start + 2` and size 4,
relocates `L1` to `start + 8`, and the value written at `start + 4` is
`2 = offset(L1) - (offset(JumpOnFalse) + 4)`. -/
theorem arc_jump_displacement :
    (∀ (ctx : context) (labels : label_map) (self : assembler) (inst : instruction)
      (name : String) (O_L : Nat),
      inst.opcode ∈ [opcode.OP_JumpOnFalse, opcode.OP_JumpOnTrue, opcode.OP_JumpOnFalseExpr,
        opcode.OP_JumpOnTrueExpr, opcode.OP_Jump, opcode.OP_JumpBack, opcode.OP_DevblockBegin] →
      inst.data[0]? = some name →
      resolve_label labels name = .ok O_L →
      utils.writer.align_up self.script.pos 2 + 2 ≤ self.script.size →
      ∃ self', assemble_operands ctx labels self inst = .ok self' ∧
        2 ∣ utils.writer.align_up self.script.pos 2 ∧
        self'.script.writes =
          self.script.writes ++ [(utils.writer.align_up self.script.pos 2, 2)] ∧
        self'.script.read (utils.writer.align_up self.script.pos 2) 2 =
          (((O_L : Int) - ((inst.index : Int) + (inst.size : Int))) % 65536).toNat ∧
        (-32768 ≤ (O_L : Int) - ((inst.index : Int) + (inst.size : Int)) →
          (O_L : Int) - ((inst.index : Int) + (inst.size : Int)) < 32768 →
          as_i16 (self'.script.read (utils.writer.align_up self.script.pos 2) 2) =
            (O_L : Int) - ((inst.index : Int) + (inst.size : Int)))) ∧
    (∀ (ctx : context) (self : assembler),
      ctx.opcode_size opcode.OP_GetByte = 2 → ctx.opcode_size opcode.OP_JumpOnFalse = 3 →
      ctx.opcode_size opcode.OP_Return = 1 → 4 ∣ self.script.pos →
      ∃ r, layout_instructions ctx self.script.pos scenario_S2.labels scenario_S2.instructions
          0 [] self = .ok r ∧
        r.1.map (fun i => (i.opcode, i.index, i.size, i.data)) =
          [(opcode.OP_GetByte, self.script.pos, 2, ["1"]),
           (opcode.OP_JumpOnFalse, self.script.pos + 2, 4, ["L1"]),
           (opcode.OP_GetByte, self.script.pos + 6, 2, ["2"]),
           (opcode.OP_Return, self.script.pos + 8, 1, [])] ∧
        r.2.2.1 = [(self.script.pos + 8, "L1")] ∧
        ∀ (e : assembler) (jump : instruction), jump ∈ r.1 →
          jump.opcode = opcode.OP_JumpOnFalse → e.script.pos = self.script.pos + 3 →
          self.script.pos + 6 ≤ e.script.size →
          ∃ e', assemble_operands ctx r.2.2.1 e jump = .ok e' ∧
            e'.script.writes = e.script.writes ++ [(self.script.pos + 4, 2)] ∧
            e'.script.read (self.script.pos + 4) 2 = 2 ∧
            ((2 : Int) = ((self.script.pos + 8 : Nat) : Int) -
              (((self.script.pos + 2 : Nat) : Int) + 4))) := by
  have general : ∀ (ctx : context) (labels : label_map) (self : assembler) (inst : instruction)
      (name : String) (O_L : Nat),
      inst.opcode ∈ [opcode.OP_JumpOnFalse, opcode.OP_JumpOnTrue, opcode.OP_JumpOnFalseExpr,
        opcode.OP_JumpOnTrueExpr, opcode.OP_Jump, opcode.OP_JumpBack, opcode.OP_DevblockBegin] →
      inst.data[0]? = some name →
      resolve_label labels name = .ok O_L →
      utils.writer.align_up self.script.pos 2 + 2 ≤ self.script.size →
      ∃ self', assemble_operands ctx labels self inst = .ok self' ∧
        self'.script.writes =
          self.script.writes ++ [(utils.writer.align_up self.script.pos 2, 2)] ∧
        self'.script.read (utils.writer.align_up self.script.pos 2) 2 =
          (((O_L : Int) - ((inst.index : Int) + (inst.size : Int))) % 65536).toNat := by
    intro ctx labels self inst name O_L hop hname hlabel hfit
    obtain ⟨s, hs, hw, hr⟩ := assemble_jump_ok labels self inst name O_L hname hlabel hfit
    refine ⟨s, ?_, hw, hr⟩
    simp only [List.mem_cons, List.mem_singleton, List.not_mem_nil, or_false] at hop
    rcases hop with h | h | h | h | h | h | h <;> simp only [assemble_operands, h] <;> exact hs
  refine ⟨?_, ?_⟩
  · intro ctx labels self inst name O_L hop hname hlabel hfit
    obtain ⟨s, hs, hw, hr⟩ := general ctx labels self inst name O_L hop hname hlabel hfit
    refine ⟨s, hs, utils.align_up_dvd _ _, hw, hr, ?_⟩
    intro h1 h2
    rw [hr]
    exact as_i16_exact _ h1 h2
  · intro ctx self h1 h2 h3 h4
    obtain ⟨r, hr, hmap, hlab⟩ := scenario_S2_layout ctx self h1 h2 h3 h4
    refine ⟨r, hr, hmap, hlab, ?_⟩
    intro e jump hj hop hpos hfit
    have hmem : (jump.opcode, jump.index, jump.size, jump.data) ∈
        r.1.map (fun i => (i.opcode, i.index, i.size, i.data)) :=
      List.mem_map_of_mem _ hj
    rw [hmap, hop] at hmem
    simp only [List.mem_cons, Prod.mk.injEq, List.mem_singleton, List.not_mem_nil, or_false,
      false_and, false_or, true_and, reduceCtorEq] at hmem
    obtain ⟨hi, hs, hd⟩ := hmem
    have ha : utils.writer.align_up e.script.pos 2 = self.script.pos + 4 := by
      rw [hpos]; exact align_up_2_of_4 _ h4
    obtain ⟨e', he, hw, hv⟩ := general ctx r.2.2.1 e jump "L1" (self.script.pos + 8)
      (by rw [hop]; simp) (by rw [hd]; rfl) (by rw [hlab]; exact resolve_label_single _ _)
      (by rw [ha]; omega)
    rw [ha] at hw hv
    refine ⟨e', he, hw, ?_, by push_cast; omega⟩
    rw [hv, hi, hs]
    push_cast
    omega

end arc

end xsk

namespace xsk

namespace arc

/-- Witness of C1: scenario S2 assembled on the sample context. The function
starts at offset 76; the layout gives `JumpOnFalse` index 78 and size 4 and
relocates `L1` to 84; the nine bytes emitted hold the displacement `2` at
offset 80; and the contract of C1 applied to that `JumpOnFalse` gives the
value `84 - (78 + 4)`. -/
theorem arc_jump_displacement_witness :
    ((assemble sample_context (assembler.create sample_context 4096)
        { functions := [scenario_S2], includes := [] } "").toOption.map
      (fun res => (res.data.functions.map
        (fun f => (f.index, f.labels, f.instructions.map (fun i => (i.index, i.size)))),
        (res.script.drop 76).take 9))) =
      some ([(76, [(84, "L1")], [(76, 2), (78, 4), (82, 2), (84, 1)])],
        [7, 1, 7, 0, 2, 0, 7, 2, 7]) ∧
    ∃ self', assemble_operands sample_context [(84, "L1")]
        ((assembler.create sample_context 4096).seek 79)
        { opcode := opcode.OP_JumpOnFalse, pos := ⟨2, 1⟩, index := 78, size := 4,
          data := ["L1"] } = .ok self' ∧
      self'.script.writes = [(80, 2)] ∧ self'.script.read 80 2 = 2 ∧
      as_i16 (self'.script.read 80 2) = 84 - (78 + 4) := by
  refine ⟨by rfl, ?_⟩
  obtain ⟨s, h1, -, h3, h4, h5⟩ := arc_jump_displacement.1 sample_context [(84, "L1")]
    ((assembler.create sample_context 4096).seek 79)
    { opcode := opcode.OP_JumpOnFalse, pos := ⟨2, 1⟩, index := 78, size := 4, data := ["L1"] }
    "L1" 84 (by decide) rfl (by decide) (by decide)
  exact ⟨s, h1, h3, h4, h5 (by decide) (by decide)⟩

end arc

end xsk

namespace xsk

namespace arc

/-! ## Size additivity -/

/-- C2. ARC size additivity: assume the context's `opcode_size` of every
opcode of the function is one byte plus the fixed operand width of its family
(`base_size`). After the layout loop of `assemble_function`, started at the
writer position `F.index`, the sum of the instruction sizes is the number of
bytes the writer advanced, it is the `F.size` the loop computed, and when the
emission loop reaches an instruction its cursor is that instruction's `index`:
the opcode byte is written there and the instruction's emission advances the
cursor by its `size`. The function `assemble_function` returns has these
instructions, this index and this size. -/
theorem arc_size_additivity (ctx : context) (func : function) (self : assembler)
    (r : List instruction × Nat × label_map × assembler)
    (hsize : ∀ i, i ∈ func.instructions → ctx.opcode_size i.opcode = base_size i.opcode)
    (hlayout : layout_instructions ctx self.script.pos func.labels func.instructions 0 [] self =
      .ok r) :
    (r.1.map (fun i => i.size)).sum + self.script.pos = r.2.2.2.script.pos ∧
    r.2.1 = (r.1.map (fun i => i.size)).sum ∧
    (∀ (labels : label_map) (pre : List instruction) (inst : instruction)
      (post : List instruction) (e0 e : assembler),
      r.1 = pre ++ inst :: post → e0.script.pos = self.script.pos →
      assemble_instructions ctx labels pre e0 = .ok e →
      e.script.pos = inst.index ∧
      ∀ e', assemble_instruction ctx labels e inst = .ok e' →
        e'.script.writes =
          e.script.writes ++ (inst.index, 1) :: operand_writes inst (inst.index + 1) ∧
        (∃ id, ctx.opcode_id inst.opcode = some id ∧
          e'.script.read inst.index 1 = id % 256) ∧
        e'.script.pos = inst.index + inst.size) ∧
    (∀ res, assemble_function ctx self func = .ok res →
      res.1.instructions = r.1 ∧ res.1.index = self.script.pos ∧
      res.1.size = (res.1.instructions.map (fun i => i.size)).sum ∧
      res.2.script.pos = res.1.index + res.1.size) := by
  obtain ⟨-, b2, -, -, b5, b6⟩ := layout_instructions_spec _ _ _ _ _ _ _ _ hlayout
  obtain ⟨-, c2, c3⟩ := b6 hsize (by omega)
  have hsum : r.2.1 = (r.1.map (fun i => i.size)).sum := by rw [b5]; omega
  have hpos : (r.1.map (fun i => i.size)).sum + self.script.pos = r.2.2.2.script.pos := by
    rw [b2, ← c2, hsum]; omega
  have hemit : ∀ (labels : label_map) (pre : List instruction) (inst : instruction)
      (post : List instruction) (e0 e : assembler),
      r.1 = pre ++ inst :: post → e0.script.pos = self.script.pos →
      assemble_instructions ctx labels pre e0 = .ok e →
      e.script.pos = inst.index ∧
      ∀ e', assemble_instruction ctx labels e inst = .ok e' →
        e'.script.writes =
          e.script.writes ++ (inst.index, 1) :: operand_writes inst (inst.index + 1) ∧
        (∃ id, ctx.opcode_id inst.opcode = some id ∧
          e'.script.read inst.index 1 = id % 256) ∧
        e'.script.pos = inst.index + inst.size := by
    intro labels pre inst post e0 e hsplit hstart hpre
    rw [hsplit] at c3
    obtain ⟨l1, l2⟩ := laid_out_at _ _ _ _ c3
    obtain ⟨p1, -⟩ := assemble_instructions_spec _ _ _ _ _ hpre
    have hp : e.script.pos = inst.index := by rw [p1, hstart, l1]
    refine ⟨hp, ?_⟩
    intro e' he'
    obtain ⟨q1, q2, -, q4, -⟩ := assemble_instruction_spec _ _ _ _ _ he'
    rw [hp] at q1 q2 q4
    exact ⟨q2, q4, by rw [q1, l2]⟩
  refine ⟨hpos, hsum, hemit, ?_⟩
  intro res hres
  simp only [assemble_function, bind_eq_ok, pure, Except.pure, Except.ok.injEq] at hres
  obtain ⟨r', hr', s2, hs2, rfl⟩ := hres
  rw [hlayout] at hr'
  cases hr'
  obtain ⟨p1, -⟩ := assemble_instructions_spec _ _ _ _ _ hs2
  refine ⟨rfl, rfl, hsum, ?_⟩
  show s2.script.pos = self.script.pos + r.2.1
  rw [p1]
  show emit_end self.script.pos r.1 = self.script.pos + r.2.1
  omega

/-- Witness of C2: scenario S2 laid out from offset 76 on the sample context,
whose opcode sizes are the baseline sizes. -/
theorem arc_size_additivity_witness :
    ∃ r, layout_instructions sample_context 76 scenario_S2.labels scenario_S2.instructions 0 []
        ((assembler.create sample_context 4096).seek 76) = .ok r ∧
      (r.1.map (fun i => i.size)).sum + 76 = r.2.2.2.script.pos ∧
      r.1.map (fun i => (i.index, i.size)) = [(76, 2), (78, 4), (82, 2), (84, 1)] := by
  obtain ⟨r, hr, hmap, -⟩ := scenario_S2_layout sample_context
    ((assembler.create sample_context 4096).seek 76) rfl rfl rfl (by decide)
  refine ⟨r, hr, (arc_size_additivity sample_context scenario_S2
    ((assembler.create sample_context 4096).seek 76) r (fun _ _ => rfl) hr).1, ?_⟩
  have := congrArg (List.map (fun e : opcode × Nat × Nat × List String => (e.2.1, e.2.2.1))) hmap
  simpa using this

end arc

end xsk

namespace xsk

namespace arc

/-! ## Operand alignment -/

theorem slot_offsets_even (n q x : Nat) (h : x ∈ slot_offsets n q) : 2 ∣ x := by
  induction n generalizing q with
  | zero => simp [slot_offsets] at h
  | succ n ih =>
    simp only [slot_offsets, List.mem_cons] at h
    rcases h with rfl | h
    · exact utils.align_up_dvd _ _
    · exact ih _ h

theorem entry_writes_aligned (n q : Nat) (hq : 4 ∣ q) (e : Nat × Nat)
    (h : e ∈ entry_writes n q) : e.2 = 4 ∧ 4 ∣ e.1 := by
  induction n generalizing q with
  | zero => simp [entry_writes] at h
  | succ n ih =>
    simp only [entry_writes, List.mem_cons] at h
    rcases h with rfl | rfl | h
    · exact ⟨rfl, hq⟩
    · exact ⟨rfl, by omega⟩
    · exact ih _ (by omega) h

/-- Every operand write is one byte wide or has the width its opcode's
alignment class names and starts at a multiple of it. -/
theorem operand_writes_aligned (inst : instruction) (p : Nat) (e : Nat × Nat)
    (h : e ∈ operand_writes inst p) :
    e.2 = 1 ∨ (e.2 = operand_align inst.opcode ∧ operand_align inst.opcode ∣ e.1) := by
  have d2 := utils.align_up_dvd p 2
  have d4 := utils.align_up_dvd p 4
  have d41 := utils.align_up_dvd (p + 1) 4
  unfold operand_writes at h
  unfold operand_align
  cases hk : kind_of inst.opcode <;> simp only [hk] at h ⊢
  case nullary | invalid => simp at h
  case byte => simp at h; subst h; exact Or.inl rfl
  case short | string | field | jump =>
    simp only [List.mem_singleton] at h
    subst h
    exact Or.inr ⟨rfl, d2⟩
  case integer | float | animation | hash | func | switch =>
    simp only [List.mem_singleton] at h
    subst h
    exact Or.inr ⟨rfl, d4⟩
  case vector =>
    simp only [List.mem_cons, List.mem_singleton, List.not_mem_nil, or_false] at h
    rcases h with rfl | rfl | rfl
    · exact Or.inr ⟨rfl, d4⟩
    · exact Or.inr ⟨rfl, by simp only []; omega⟩
    · exact Or.inr ⟨rfl, by simp only []; omega⟩
  case localvars =>
    simp only [List.mem_cons, List.mem_map] at h
    rcases h with rfl | ⟨q, hq, rfl⟩
    · exact Or.inl rfl
    · exact Or.inr ⟨rfl, slot_offsets_even _ _ _ hq⟩
  case call =>
    simp only [List.mem_cons, List.mem_singleton, List.not_mem_nil, or_false] at h
    rcases h with rfl | rfl
    · exact Or.inl rfl
    · exact Or.inr ⟨rfl, d41⟩
  case endswitch =>
    simp only [List.mem_cons] at h
    rcases h with rfl | h
    · exact Or.inr ⟨rfl, d4⟩
    · exact Or.inr (entry_writes_aligned _ _ (by omega) _ h)

/-- An opcode with an alignment requirement has an operand write of that
width, unless it is `OP_SafeCreateLocalVariables` without slots. -/
theorem operand_writes_nonempty (inst : instruction) (p : Nat)
    (h : 2 ≤ operand_align inst.opcode)
    (hslots : kind_of inst.opcode = operand_kind.localvars → inst.data ≠ []) :
    ∃ e, e ∈ operand_writes inst p ∧ e.2 = operand_align inst.opcode := by
  unfold operand_writes
  unfold operand_align at h ⊢
  cases hk : kind_of inst.opcode <;> simp only [hk] at h ⊢
  case nullary | invalid | byte => omega
  case localvars =>
    have hne := hslots hk
    obtain ⟨d, ds, hd⟩ := List.exists_cons_of_ne_nil hne
    rw [hd]
    simp [slot_offsets]
  all_goals simp

/-- C3. ARC alignment: the emission of every instruction writes its opcode
byte at the cursor and then its operands; every operand write wider than one
byte has the width `N` that the opcode's family requires (`N = 2` for
`GetUnsignedShort`, `GetNegUnsignedShort`, `GetString`, `GetIString`, the
field-variable opcodes, each `SafeCreateLocalVariables` slot and the jump
family; `N = 4` for `GetInteger`, `GetFloat`, `GetVector`, `GetAnimation`,
`GetHash`, `GetFunction`, the 4-byte field of the call family, `Switch` and
`EndSwitch`) and starts at a script offset divisible by `N`; and there is such
a write whenever the family has an aligned operand. -/
theorem arc_operand_alignment (ctx : context) (labels : label_map) (self self' : assembler)
    (inst : instruction) (h : assemble_instruction ctx labels self inst = .ok self') :
    ∃ ws, self'.script.writes = self.script.writes ++ (self.script.pos, 1) :: ws ∧
      (∀ e, e ∈ ws →
        e.2 = 1 ∨ (e.2 = operand_align inst.opcode ∧ operand_align inst.opcode ∣ e.1)) ∧
      (2 ≤ operand_align inst.opcode →
        (inst.opcode = opcode.OP_SafeCreateLocalVariables → inst.data ≠ []) →
        ∃ e, e ∈ ws ∧ e.2 = operand_align inst.opcode ∧ operand_align inst.opcode ∣ e.1) := by
  obtain ⟨-, hw, -, -, -⟩ := assemble_instruction_spec _ _ _ _ _ h
  refine ⟨operand_writes inst (self.script.pos + 1), hw,
    fun e he => operand_writes_aligned _ _ _ he, ?_⟩
  intro h2 hslots
  have hs : kind_of inst.opcode = operand_kind.localvars → inst.data ≠ [] := by
    intro hk
    apply hslots
    revert hk
    cases inst.opcode <;> simp [kind_of]
  obtain ⟨e, he, hwid⟩ := operand_writes_nonempty inst (self.script.pos + 1) h2 hs
  refine ⟨e, he, hwid, ?_⟩
  rcases operand_writes_aligned _ _ _ he with h1 | ⟨-, hd⟩
  · omega
  · exact hd

/-- Witness of C3: a `GetInteger 7` emitted at the odd offset 77 on the sample
context writes its opcode byte at 77 and its 4-byte operand at offset 80. -/
theorem arc_operand_alignment_witness :
    ∃ self', assemble_instruction sample_context []
        ((assembler.create sample_context 4096).seek 77)
        { opcode := opcode.OP_GetInteger, pos := ⟨1, 1⟩, index := 77, size := 7,
          data := ["7"] } = .ok self' ∧
      self'.script.writes = [(77, 1), (80, 4)] ∧
      ∃ ws, self'.script.writes = [] ++ (77, 1) :: ws ∧
        ∀ e, e ∈ ws → e.2 = 1 ∨ (e.2 = 4 ∧ 4 ∣ e.1) := by
  have hrun : ∃ self', assemble_instruction sample_context []
      ((assembler.create sample_context 4096).seek 77)
      { opcode := opcode.OP_GetInteger, pos := ⟨1, 1⟩, index := 77, size := 7,
        data := ["7"] } = .ok self' ∧ self'.script.writes = [(77, 1), (80, 4)] :=
    ⟨_, rfl, rfl⟩
  obtain ⟨s, hs, hw⟩ := hrun
  obtain ⟨ws, h1, h2, -⟩ := arc_operand_alignment sample_context [] _ s _ hs
  exact ⟨s, hs, hw, ws, h1, h2⟩

end arc

end xsk

namespace xsk

namespace arc

/-! ## Fixup offsets and emission offsets -/

/-- The animtree fixup of `GetAnimation` and of the two-operand `GetInteger`
is recorded at the aligned offset of the 4-byte operand. -/
theorem align_instruction_anim (ctx : context) (self self' : assembler)
    (inst inst' : instruction)
    (hop : inst.opcode = opcode.OP_GetAnimation ∨
      (inst.opcode = opcode.OP_GetInteger ∧ inst.data.length = 2))
    (h : align_instruction ctx self inst = .ok (inst', self')) :
    add_animref inst.data (utils.writer.align_up (self.script.pos + 1) 4 % 4294967296)
      self.anims = .ok self'.anims := by
  unfold align_instruction at h
  rcases hop with hop | ⟨hop, hlen⟩
  · simp only [align_operands, hop, bind_eq_ok, pure, Except.pure, Except.ok.injEq,
      Prod.mk.injEq] at h
    obtain ⟨an, han, -, rfl⟩ := h
    exact han
  · simp only [align_operands, hop, hlen, if_true, bind_eq_ok, pure, Except.pure,
      Except.ok.injEq, Prod.mk.injEq] at h
    obtain ⟨an, han, -, rfl⟩ := h
    exact han

theorem slot_offsets_length (n q : Nat) : (slot_offsets n q).length = n := by
  induction n generalizing q with
  | zero => rfl
  | succ n ih => simp only [slot_offsets, List.length_cons, ih]

theorem map_mod_of_lt (l : List Nat) (h : ∀ x, x ∈ l → x < 4294967296) :
    l.map (fun x => x % 4294967296) = l := by
  induction l with
  | nil => rfl
  | cons a l ih =>
    simp only [List.map_cons]
    rw [Nat.mod_eq_of_lt (h a (List.mem_cons_self _ _)),
      ih (fun x hx => h x (List.mem_cons_of_mem _ hx))]

/-- C4. ARC fixup/emission agreement. Take any instruction of a function: the
layout loop has laid out the instructions before it and then lays it out; the
emission loop, started at the same function start, has emitted the relocated
instructions before it and then emits it. Then the emission reaches the
instruction at the cursor where the layout reached it, and (the script
capacity being within the 32-bit offset range of the format) the fixup offset
the layout recorded is the script offset of the operand write of the emission:
for `GetString` / `GetIString` (literal) and the field-variable opcodes
(canonical) the one 2-byte write; for `SafeCreateLocalVariables` one 2-byte
write per slot, in order; for `GetAnimation` and the two-operand `GetInteger`
the one 4-byte write. -/
theorem arc_fixup_offsets_agree (ctx : context) (index : Nat) (old lab labels : label_map)
    (pre : List instruction) (inst : instruction) (size : Nat) (L0 E0 E E' : assembler)
    (rpre : List instruction × Nat × label_map × assembler) (rinst : instruction × assembler)
    (hcap : E0.script.size ≤ 4294967296)
    (hpre : layout_instructions ctx index old pre size lab L0 = .ok rpre)
    (hinst : align_instruction ctx rpre.2.2.2 { inst with index := index + rpre.2.1 } =
      .ok rinst)
    (hstart : E0.script.pos = L0.script.pos)
    (hE : assemble_instructions ctx labels rpre.1 E0 = .ok E)
    (hE' : assemble_instruction ctx labels E rinst.1 = .ok E') :
    E.script.pos = rpre.2.2.2.script.pos ∧
    (inst.opcode = opcode.OP_GetString ∨ inst.opcode = opcode.OP_GetIString →
      ∃ name a, inst.data[0]? = some name ∧
        rinst.2.strings = add_stringref name string_type.literal a rpre.2.2.2.strings ∧
        E'.script.writes = E.script.writes ++ [(E.script.pos, 1), (a, 2)]) ∧
    (inst.opcode = opcode.OP_EvalFieldVariable ∨ inst.opcode = opcode.OP_EvalFieldVariableRef ∨
        inst.opcode = opcode.OP_ClearFieldVariable →
      ∃ name a, inst.data[0]? = some name ∧
        rinst.2.strings = add_stringref name string_type.canonical a rpre.2.2.2.strings ∧
        E'.script.writes = E.script.writes ++ [(E.script.pos, 1), (a, 2)]) ∧
    (inst.opcode = opcode.OP_SafeCreateLocalVariables →
      ∃ offs : List Nat, offs.length = inst.data.length ∧
        rinst.2.strings =
          add_stringrefs ((inst.data.zip offs).map
            fun e => (e.1, string_type.canonical, e.2)) rpre.2.2.2.strings ∧
        E'.script.writes =
          E.script.writes ++ (E.script.pos, 1) :: (E.script.pos + 1, 1) ::
            offs.map (fun q => (q, 2))) ∧
    (inst.opcode = opcode.OP_GetAnimation ∨
        (inst.opcode = opcode.OP_GetInteger ∧ inst.data.length = 2) →
      ∃ a, add_animref inst.data a rpre.2.2.2.anims = .ok rinst.2.anims ∧
        E'.script.writes = E.script.writes ++ [(E.script.pos, 1), (a, 4)]) := by
  obtain ⟨-, b2, -, -, -, -⟩ := layout_instructions_spec _ _ _ _ _ _ _ _ hpre
  obtain ⟨p1, f1⟩ := assemble_instructions_spec _ _ _ _ _ hE
  have hpos : E.script.pos = rpre.2.2.2.script.pos := by rw [p1, b2, hstart]
  obtain ⟨a1, a2, a3, a4, a5, a6, a7, a8⟩ := align_instruction_spec _ _ _ _ _ hinst
  have a1 : rinst.1.opcode = inst.opcode := a1
  have a3 : rinst.1.data = inst.data := a3
  obtain ⟨q1, q2, q3, q4, q5⟩ := assemble_instruction_spec _ _ _ _ _ hE'
  have hsize : E.script.size ≤ 4294967296 := by rw [f1.script.size]; exact hcap
  rw [← hpos] at a7
  refine ⟨hpos, ?_, ?_, ?_, ?_⟩
  · intro hop
    have hk : kind_of rinst.1.opcode = operand_kind.string := by
      rw [a1]; rcases hop with h | h <;> rw [h] <;> rfl
    simp only [operand_writes, hk] at q2 q5
    simp only [string_fixups, hk, add_stringrefs, List.foldl] at a7
    have hfit := q5 (utils.writer.align_up (E.script.pos + 1) 2, 2) (by simp)
    have hlt : utils.writer.align_up (E.script.pos + 1) 2 < 4294967296 := by
      have : utils.writer.align_up (E.script.pos + 1) 2 + 2 ≤ E.script.size := hfit
      omega
    rw [Nat.mod_eq_of_lt hlt, a3] at a7
    have hname : ∃ name, inst.data[0]? = some name := by
      unfold align_instruction at hinst
      rcases hop with h | h <;>
        (simp only [align_operands, h, bind_eq_ok, operand_eq_ok] at hinst
         obtain ⟨d0, hd0, -⟩ := hinst
         exact ⟨d0, hd0⟩)
    obtain ⟨name, hname⟩ := hname
    refine ⟨name, _, hname, ?_, q2⟩
    rw [a7]
    simp [List.getD, hname]
  · intro hop
    have hk : kind_of rinst.1.opcode = operand_kind.field := by
      rw [a1]; rcases hop with h | h | h <;> rw [h] <;> rfl
    simp only [operand_writes, hk] at q2 q5
    simp only [string_fixups, hk, add_stringrefs, List.foldl] at a7
    have hfit := q5 (utils.writer.align_up (E.script.pos + 1) 2, 2) (by simp)
    have hlt : utils.writer.align_up (E.script.pos + 1) 2 < 4294967296 := by
      have : utils.writer.align_up (E.script.pos + 1) 2 + 2 ≤ E.script.size := hfit
      omega
    rw [Nat.mod_eq_of_lt hlt, a3] at a7
    have hname : ∃ name, inst.data[0]? = some name := by
      unfold align_instruction at hinst
      rcases hop with h | h | h <;>
        (simp only [align_operands, h, bind_eq_ok, operand_eq_ok] at hinst
         obtain ⟨d0, hd0, -⟩ := hinst
         exact ⟨d0, hd0⟩)
    obtain ⟨name, hname⟩ := hname
    refine ⟨name, _, hname, ?_, q2⟩
    rw [a7]
    simp [List.getD, hname]
  · intro hop
    have hk : kind_of rinst.1.opcode = operand_kind.localvars := by
      rw [a1, hop]; rfl
    simp only [operand_writes, hk] at q2 q5
    simp only [string_fixups, hk] at a7
    rw [a3] at a7 q2 q5
    refine ⟨slot_offsets inst.data.length (E.script.pos + 1 + 1), slot_offsets_length _ _, ?_,
      q2⟩
    rw [a7]
    congr 1
    have hlt : ∀ x, x ∈ slot_offsets inst.data.length (E.script.pos + 1 + 1) →
        x < 4294967296 := by
      intro x hx
      have := q5 (x, 2) (by
        simp only [List.mem_cons, List.mem_map]
        exact Or.inr (Or.inr ⟨x, hx, rfl⟩))
      have : x + 2 ≤ E.script.size := this
      omega
    have hz : ∀ (ds : List String) (os : List Nat), (∀ x, x ∈ os → x < 4294967296) →
        (ds.zip os).map (fun e => (e.1, string_type.canonical, e.2 % 4294967296)) =
          (ds.zip os).map (fun e => (e.1, string_type.canonical, e.2)) := by
      intro ds os hos
      apply List.map_congr_left
      intro e he
      have := hos e.2 (List.of_mem_zip he).2
      rw [Nat.mod_eq_of_lt this]
    exact hz _ _ hlt
  · intro hop
    have hk : operand_writes rinst.1 (E.script.pos + 1) =
        [(utils.writer.align_up (E.script.pos + 1) 4, 4)] := by
      unfold operand_writes
      rw [a1]
      rcases hop with h | ⟨h, -⟩ <;> rw [h] <;> rfl
    rw [hk] at q2 q5
    have hfit := q5 (utils.writer.align_up (E.script.pos + 1) 4, 4) (by simp)
    have hlt : utils.writer.align_up (E.script.pos + 1) 4 < 4294967296 := by
      have : utils.writer.align_up (E.script.pos + 1) 4 + 4 ≤ E.script.size := hfit
      omega
    have han := align_instruction_anim ctx rpre.2.2.2 rinst.2
      { inst with index := index + rpre.2.1 } rinst.1 hop hinst
    rw [← hpos, Nat.mod_eq_of_lt hlt] at han
    exact ⟨_, han, q2⟩

end arc

end xsk

namespace xsk

namespace arc

/-- Witness of C4: `[GetByte 1; GetString "hello"]` laid out and emitted from
offset 76 on the sample context. The layout records the literal fixup of
`"hello"` at offset 80, and the emission writes the two placeholder bytes at
offset 80. -/
theorem arc_fixup_offsets_agree_witness :
    ∃ rpre rinst E E',
      layout_instructions sample_context 76 []
        [{ opcode := opcode.OP_GetByte, pos := ⟨1, 1⟩, index := 0, size := 0, data := ["1"] }]
        0 [] ((assembler.create sample_context 4096).seek 76) = .ok rpre ∧
      align_instruction sample_context rpre.2.2.2
        { opcode := opcode.OP_GetString, pos := ⟨2, 1⟩, index := 76 + rpre.2.1, size := 0,
          data := ["hello"] } = .ok rinst ∧
      assemble_instructions sample_context [] rpre.1
        ((assembler.create sample_context 4096).seek 76) = .ok E ∧
      assemble_instruction sample_context [] E rinst.1 = .ok E' ∧
      rinst.2.strings = [{ name := "hello", type := string_type.literal, refs := [80] }] ∧
      E'.script.writes = [(76, 1), (77, 1), (78, 1), (80, 2)] ∧
      ∃ name a, (["hello"] : List String)[0]? = some name ∧
        rinst.2.strings = add_stringref name string_type.literal a rpre.2.2.2.strings ∧
        E'.script.writes = E.script.writes ++ [(E.script.pos, 1), (a, 2)] := by
  refine ⟨_, _, _, _, rfl, rfl, rfl, rfl, rfl, rfl, ?_⟩
  exact (arc_fixup_offsets_agree sample_context 76 [] [] []
    [{ opcode := opcode.OP_GetByte, pos := ⟨1, 1⟩, index := 0, size := 0, data := ["1"] }]
    { opcode := opcode.OP_GetString, pos := ⟨2, 1⟩, index := 0, size := 0, data := ["hello"] }
    0 ((assembler.create sample_context 4096).seek 76)
    ((assembler.create sample_context 4096).seek 76) _ _ _ _
    (by decide) rfl rfl rfl rfl rfl).2.1 (Or.inl rfl)

end arc

end xsk

namespace xsk

namespace arc

/-! ## C5: the slots of the string fixups -/

/-- C5, as stated, fails on a big-endian context: assembling the function
`[GetString "abc"; EndSwitch 1 case string "str" L]` records the string fixups
`abc` at offset 86 and `str` at offset 98, and the 16-bit slot at 98 in the
emitted image holds the bytes `0, 1`, the low half of the case ordinal `1`
written at offset 96. -/
theorem arc_fixup_slots_counterexample :
    sample_context_big.endian = endian.big ∧
    (assemble sample_context_big (assembler.create sample_context_big 4096)
        { functions := [sample_string_switch], includes := [] } "").toOption.map
      (fun res => (res.self.strings.map (fun e => (e.name, e.type, e.refs)),
        (res.script.drop 96).take 4, (res.script.drop 98).take 2)) =
      some ([("abc", string_type.literal, [86]), ("str", string_type.literal, [98])],
        [0, 0, 0, 1], [0, 1]) :=
  ⟨rfl, by rfl⟩

/-- C5, amended, for a context without `headerxx` and a script capacity within
the 32-bit offset range. When `assemble` returns, the string fixups recorded
are those of the instructions of the relocated functions at their emission
offsets, and every such offset `r` lies in the image it returns. If the
instruction is not an `EndSwitch` (it is `GetString`, `GetIString`, a
field-variable opcode or `SafeCreateLocalVariables`), the two bytes of the
image at `r` are zero, on either byte order. If it is an `EndSwitch`, `r` is
two past the 32-bit value field of a `case` entry at some table position `i`,
that field holds `i + 1`, and the 16-bit slot at `r` holds `(i + 1) / 65536` on
a little-endian script and `(i + 1) % 65536` on a big-endian one (`swap` set,
as the constructor does for a big-endian context). -/
theorem arc_fixup_slots (ctx : context) (self : assembler) (data : assembly) (name : String)
    (res : assemble_result)
    (hxx : has_prop ctx.props props.headerxx = false)
    (hcap : self.script.size ≤ 4294967296)
    (h : assemble ctx self data name = .ok res) :
    res.self.strings = add_stringrefs (fixups_of res.data.functions) [] ∧
    res.script = res.self.script.bytes ∧
    ∀ (f : function) (pre : List instruction) (inst : instruction) (post : List instruction)
      (s : String) (type : string_type) (r : Nat),
      f ∈ res.data.functions → f.instructions = pre ++ inst :: post →
      (s, type, r) ∈ string_fixups inst (emit_end f.index pre + 1) →
      r + 2 ≤ res.script.length ∧
      (inst.opcode ≠ opcode.OP_EndSwitch → (res.script.drop r).take 2 = [0, 0]) ∧
      (inst.opcode = opcode.OP_EndSwitch →
        ∃ i, i < switch_count inst.data ∧ inst.data[1 + 4 * i]? = some "case" ∧
          r = utils.writer.align_up (emit_end f.index pre + 1) 4 + 4 + 8 * i + 2 ∧
          res.self.script.read (r - 2) 4 = (i + 1) % 4294967296 ∧
          res.self.script.read r 2 =
            if self.script.swap then (i + 1) % 65536 else (i + 1) / 65536 % 65536) := by
  obtain ⟨h1, hsw, h2, h3⟩ := assemble_slots _ _ _ _ _ hxx hcap h
  refine ⟨h1, h2, ?_⟩
  intro f pre inst post s type r hf hsplit hmem
  obtain ⟨b1, hslot⟩ := h3 f hf pre inst post hsplit s type r hmem
  refine ⟨by rw [h2, utils.bytes_length]; exact b1, ?_, ?_⟩
  · intro hop
    rcases hslot with ⟨-, hz⟩ | ⟨hk, -⟩
    · obtain ⟨z0, z1⟩ := utils.read_2_zero _ _ hz
      rw [h2, utils.bytes_slot _ _ b1, z0, z1]
    · exact absurd ((kind_of_string inst.opcode).2.2.2 hk) hop
  · intro hop
    rcases hslot with ⟨hk, -⟩ | ⟨-, i, hi1, hi2, hi3, hi4, hi5⟩
    · rw [hop] at hk
      exact absurd rfl hk
    · rw [hsw] at hi5
      exact ⟨i, hi1, hi2, hi3, hi4, hi5⟩

end arc

end xsk

namespace xsk

namespace arc

/-- Witness of C5, amended: the function `[GetString "abc"; EndSwitch 1 case
string "str" L]` assembled on the big-endian sample context. The function is
relocated to offset 84; the fixups recorded are `abc` at 86 and `str` at 98;
the two bytes of the image at 86 are zero; the value field at 96 holds the
ordinal `1` and the slot at 98 its low half, `1`. -/
theorem arc_fixup_slots_witness :
    ∃ res,
      assemble sample_context_big (assembler.create sample_context_big 4096)
        { functions := [sample_string_switch], includes := [] } "" = .ok res ∧
      res.self.strings = [⟨"abc", string_type.literal, [86]⟩, ⟨"str", string_type.literal, [98]⟩] ∧
      (res.script.drop 86).take 2 = [0, 0] ∧
      res.self.script.read 96 4 = 1 ∧
      res.self.script.read 98 2 = 1 := by
  have hrun : ∃ res, assemble sample_context_big (assembler.create sample_context_big 4096)
      { functions := [sample_string_switch], includes := [] } "" = .ok res := ⟨_, rfl⟩
  obtain ⟨res, hrun⟩ := hrun
  have e1 : (assemble sample_context_big (assembler.create sample_context_big 4096)
      { functions := [sample_string_switch], includes := [] } "").toOption.map
        (fun res => res.data.functions) =
      some [{ sample_string_switch with
        index := 84
        size := 20
        instructions :=
          [{ opcode := .OP_GetString, pos := ⟨1, 1⟩, index := 84, size := 4, data := ["abc"] },
           { opcode := .OP_EndSwitch, pos := ⟨2, 1⟩, index := 88, size := 16,
             data := ["1", "case", "2", "str", "L"] }]
        labels := [(84, "L")] }] := by rfl
  have e2 : (assemble sample_context_big (assembler.create sample_context_big 4096)
      { functions := [sample_string_switch], includes := [] } "").toOption.map
        (fun res => res.data.functions) = some res.data.functions := by
    rw [hrun]; rfl
  have hf := Option.some.inj (e2.symm.trans e1)
  obtain ⟨hs, -, hslots⟩ := arc_fixup_slots sample_context_big
    (assembler.create sample_context_big 4096)
    { functions := [sample_string_switch], includes := [] } "" res rfl (by decide) hrun
  rw [hf] at hs hslots
  have h86 := (hslots _ []
    { opcode := .OP_GetString, pos := ⟨1, 1⟩, index := 84, size := 4, data := ["abc"] }
    [{ opcode := .OP_EndSwitch, pos := ⟨2, 1⟩, index := 88, size := 16,
       data := ["1", "case", "2", "str", "L"] }]
    "abc" string_type.literal 86 (List.mem_singleton.2 rfl) rfl
    (List.mem_singleton.2 rfl)).2.1 (by decide)
  obtain ⟨i, hi1, -, hi3, hi4, hi5⟩ := (hslots _
    [{ opcode := .OP_GetString, pos := ⟨1, 1⟩, index := 84, size := 4, data := ["abc"] }]
    { opcode := .OP_EndSwitch, pos := ⟨2, 1⟩, index := 88, size := 16,
      data := ["1", "case", "2", "str", "L"] } []
    "str" string_type.literal 98 (List.mem_singleton.2 rfl) rfl
    (List.mem_singleton.2 rfl)).2.2 rfl
  have hi : i = 0 := by
    have hlt : i < 1 := hi1
    omega
  subst hi
  exact ⟨res, hrun, hs, h86, hi4, hi5⟩

end arc

end xsk

namespace xsk

namespace arc

/-! ## Switch displacement and switch tables -/

/-- Masking with `0xFFFFFFFC` keeps the low 32 bits and clears the two lowest. -/
theorem land_fffffffc (x : Nat) : x &&& 0xFFFFFFFC = x % 4294967296 / 4 * 4 := by
  apply Nat.eq_of_testBit_eq
  intro i
  have h1 : (4294967292 : Nat) = (2 ^ 30 - 1) <<< 2 := by
    rw [Nat.shiftLeft_eq]; norm_num
  have h2 : x % 4294967296 / 4 * 4 = ((x % 2 ^ 32) >>> 2) <<< 2 := by
    rw [Nat.shiftLeft_eq, Nat.shiftRight_eq_div_pow]; norm_num
  rw [Nat.testBit_land, h2, h1, Nat.testBit_shiftLeft, Nat.testBit_shiftLeft,
    Nat.testBit_shiftRight, Nat.testBit_mod_two_pow, Nat.testBit_two_pow_sub_one]
  by_cases hi : 2 ≤ i
  · have e : 2 + (i - 2) = i := by omega
    simp only [hi, decide_True, Bool.true_and, e]
    by_cases h32 : i < 32
    · have : i - 2 < 30 := by omega
      simp [h32, this]
    · have : ¬ i - 2 < 30 := by omega
      simp [h32, this]
  · simp [hi]

/-- The 32-bit pattern `assemble_switch` writes. -/
theorem switch_value_mod (addr index size : Nat) :
    usize_sub (usize_sub ((addr + 4) &&& 0xFFFFFFFC) index) size % 4294967296 =
      (((((addr + 4) / 4 * 4 : Nat) : Int) - ((index : Int) + (size : Int))) %
        4294967296).toNat := by
  rw [usize_sub_sub_mod32, land_fffffffc]
  omega

/-- C6. ARC `assemble_switch`: for every `Switch` instruction whose label
operand resolves to `O_L`, emission succeeds when the four bytes fit, aligns
the writer to 4, and writes as 32-bit value `((O_L + 4) & ~3) - (index + size)`
(as a 32-bit two's complement pattern; exactly that integer, read as `i32`,
when it is in range). `(O_L + 4) & ~3` is written `(O_L + 4) / 4 * 4`. -/
theorem arc_switch_displacement (ctx : context) (labels : label_map) (self : assembler)
    (inst : instruction) (name : String) (O_L : Nat)
    (hop : inst.opcode = opcode.OP_Switch)
    (hname : inst.data[0]? = some name)
    (hlabel : resolve_label labels name = .ok O_L)
    (hfit : utils.writer.align_up self.script.pos 4 + 4 ≤ self.script.size) :
    ∃ self', assemble_operands ctx labels self inst = .ok self' ∧
      4 ∣ utils.writer.align_up self.script.pos 4 ∧
      self'.script.writes =
        self.script.writes ++ [(utils.writer.align_up self.script.pos 4, 4)] ∧
      self'.script.read (utils.writer.align_up self.script.pos 4) 4 =
        (((((O_L + 4) / 4 * 4 : Nat) : Int) - ((inst.index : Int) + (inst.size : Int))) %
          4294967296).toNat ∧
      (-2147483648 ≤ (((O_L + 4) / 4 * 4 : Nat) : Int) - ((inst.index : Int) + (inst.size : Int)) →
        (((O_L + 4) / 4 * 4 : Nat) : Int) - ((inst.index : Int) + (inst.size : Int)) <
          2147483648 →
        as_i32 (self'.script.read (utils.writer.align_up self.script.pos 4) 4) =
          (((O_L + 4) / 4 * 4 : Nat) : Int) - ((inst.index : Int) + (inst.size : Int))) := by
  obtain ⟨s, hs⟩ := assembler_write_of_fits (self.align 4).2 4
    (usize_sub (usize_sub ((O_L + 4) &&& 0xFFFFFFFC) inst.index) inst.size) hfit
  have h : assemble_switch labels self inst = .ok s := by
    simp only [assemble_switch, (operand_eq_ok _ _ _).2 hname, hlabel, bind, Except.bind]
    exact hs
  obtain ⟨e, name', addr', hn', hl', hr⟩ := assemble_switch_spec _ _ _ _ h
  rw [hname] at hn'
  cases hn'
  rw [hlabel] at hl'
  cases hl'
  rw [switch_value_mod] at hr
  refine ⟨s, by simp only [assemble_operands, hop]; exact h, utils.align_up_dvd _ _, e.writes, hr,
    ?_⟩
  intro h1 h2
  rw [hr]
  exact as_i32_exact _ h1 h2

/-- Witness of C6: a `Switch` at index 76 of size 8 whose label is at offset
86 writes `88 - (76 + 8) = 4` at offset 80. -/
theorem arc_switch_displacement_witness :
    ∃ self', assemble_operands sample_context [(86, "tbl")]
        ((assembler.create sample_context 4096).seek 77)
        { opcode := opcode.OP_Switch, pos := ⟨1, 1⟩, index := 76, size := 8,
          data := ["tbl"] } = .ok self' ∧
      self'.script.writes = [(80, 4)] ∧ self'.script.read 80 4 = 4 ∧
      as_i32 (self'.script.read 80 4) = 88 - (76 + 8) := by
  obtain ⟨s, h1, -, h3, h4, h5⟩ := arc_switch_displacement sample_context [(86, "tbl")]
    ((assembler.create sample_context 4096).seek 77)
    { opcode := opcode.OP_Switch, pos := ⟨1, 1⟩, index := 76, size := 8, data := ["tbl"] }
    "tbl" 86 rfl rfl (by decide) (by decide)
  exact ⟨s, h1, h3, h4, h5 (by decide) (by decide)⟩

/-- C7. ARC switch correctness: when the emission of an `EndSwitch` succeeds,
every entry `k` of its table is a `case` or a `default` whose label resolves
to some `O_L`, and the 32-bit displacement written for it, at the script
offset `D` of the displacement field, is `O_L - (D + 4)` (as a 32-bit two's
complement pattern; exactly that integer, read as `i32`, when it is in
range): it is relative to the position just after the displacement. Here
`D = A + 4 + 8 * k + 4`, `A` the 4-aligned offset of the count. -/
theorem arc_switch_table_displacement (ctx : context) (labels : label_map)
    (self self' : assembler) (inst : instruction) (k : Nat)
    (hop : inst.opcode = opcode.OP_EndSwitch)
    (h : assemble_operands ctx labels self inst = .ok self')
    (hk : k < switch_count inst.data) :
    ∃ l O_L,
      ((inst.data[1 + 4 * k]? = some "case" ∧ inst.data[1 + 4 * k + 3]? = some l) ∨
        (inst.data[1 + 4 * k]? = some "default" ∧ inst.data[1 + 4 * k + 1]? = some l)) ∧
      resolve_label labels l = .ok O_L ∧
      (utils.writer.align_up self.script.pos 4 + 4 + 8 * k + 4, 4) ∈
        operand_writes inst self.script.pos ∧
      self'.script.writes = self.script.writes ++ operand_writes inst self.script.pos ∧
      self'.script.read (utils.writer.align_up self.script.pos 4 + 4 + 8 * k + 4) 4 =
        (((O_L : Int) -
          (((utils.writer.align_up self.script.pos 4 + 4 + 8 * k + 4 : Nat) : Int) + 4)) %
            4294967296).toNat ∧
      (-2147483648 ≤ (O_L : Int) -
          (((utils.writer.align_up self.script.pos 4 + 4 + 8 * k + 4 : Nat) : Int) + 4) →
        (O_L : Int) -
          (((utils.writer.align_up self.script.pos 4 + 4 + 8 * k + 4 : Nat) : Int) + 4) <
            2147483648 →
        as_i32 (self'.script.read (utils.writer.align_up self.script.pos 4 + 4 + 8 * k + 4) 4) =
          (O_L : Int) -
            (((utils.writer.align_up self.script.pos 4 + 4 + 8 * k + 4 : Nat) : Int) + 4)) := by
  have hw := (assemble_operands_spec _ _ _ _ _ h).writes
  simp only [assemble_operands, hop] at h
  obtain ⟨-, -, -, hent⟩ := assemble_switch_table_spec _ _ _ _ h
  have hmem : (utils.writer.align_up self.script.pos 4 + 4 + 8 * k + 4, 4) ∈
      operand_writes inst self.script.pos := by
    have hin : ∀ (n q j : Nat), j < n → (q + 8 * j + 4, 4) ∈ entry_writes n q := by
      intro n
      induction n with
      | zero => intro q j hj; omega
      | succ n ih =>
        intro q j hj
        simp only [entry_writes, List.mem_cons]
        cases j with
        | zero => exact Or.inr (Or.inl rfl)
        | succ j =>
          refine Or.inr (Or.inr ?_)
          have := ih (q + 8) j (by omega)
          have e : q + 8 + 8 * j + 4 = q + 8 * (j + 1) + 4 := by omega
          rw [e] at this
          exact this
    have hk' : kind_of inst.opcode = operand_kind.endswitch := by rw [hop]; rfl
    simp only [operand_writes, hk', List.mem_cons]
    exact Or.inr (hin _ _ _ hk)
  have hval : ∀ (l : String) (O_L : Nat),
      self'.script.read (utils.writer.align_up self.script.pos 4 + 4 + 8 * k + 4) 4 =
        usize_sub (usize_sub O_L (utils.writer.align_up self.script.pos 4 + 4 + 8 * k + 4)) 4 %
          4294967296 →
      self'.script.read (utils.writer.align_up self.script.pos 4 + 4 + 8 * k + 4) 4 =
        (((O_L : Int) -
          (((utils.writer.align_up self.script.pos 4 + 4 + 8 * k + 4 : Nat) : Int) + 4)) %
            4294967296).toNat := by
    intro l O_L hr
    rw [hr, usize_sub_sub_mod32]
    rfl
  rcases hent k hk with ⟨hc, t, type, value, l, addr, -, -, -, -, hl, hres, hr⟩ |
    ⟨hd, -, l, addr, hl, hres, hr⟩
  · refine ⟨l, addr, Or.inl ⟨hc, hl⟩, hres, hmem, hw, hval l addr hr, ?_⟩
    intro h1 h2
    rw [hval l addr hr]
    exact as_i32_exact _ h1 h2
  · refine ⟨l, addr, Or.inr ⟨hd, hl⟩, hres, hmem, hw, hval l addr hr, ?_⟩
    intro h1 h2
    rw [hval l addr hr]
    exact as_i32_exact _ h1 h2

end arc

end xsk

namespace xsk

namespace arc

/-- Witness of C7: the table of scenario S3 emitted after its opcode byte at
offset 86, with `L5` at 84 and `LD` at 85. The count is at 88 and the
displacement of the default entry at 104; it holds `85 - (104 + 4)`. -/
theorem arc_switch_table_displacement_witness :
    ∃ self', assemble_operands sample_context [(84, "L5"), (85, "LD"), (86, "tbl")]
        ((assembler.create sample_context 4096).seek 87)
        { scenario_S3_endswitch with index := 86, size := 22 } = .ok self' ∧
      as_i32 (self'.script.read 104 4) = 85 - (104 + 4) := by
  have hrun : ∃ s, assemble_operands sample_context [(84, "L5"), (85, "LD"), (86, "tbl")]
      ((assembler.create sample_context 4096).seek 87)
      { scenario_S3_endswitch with index := 86, size := 22 } = .ok s := ⟨_, rfl⟩
  obtain ⟨s, hs⟩ := hrun
  obtain ⟨l, O_L, h1, h2, -, -, -, h6⟩ := arc_switch_table_displacement sample_context
    [(84, "L5"), (85, "LD"), (86, "tbl")] ((assembler.create sample_context 4096).seek 87) s
    { scenario_S3_endswitch with index := 86, size := 22 } 1 rfl hs (by decide)
  have hl : l = "LD" := by
    rcases h1 with ⟨hc, -⟩ | ⟨-, hd⟩
    · exact absurd hc (by decide)
    · exact (Option.some.inj hd).symm
  subst hl
  have hO : O_L = 85 := by
    have : resolve_label [(84, "L5"), (85, "LD"), (86, "tbl")] "LD" = .ok 85 := by decide
    rw [this] at h2
    exact (Except.ok.inj h2).symm
  subst hO
  exact ⟨s, hs, h6 (by decide) (by decide)⟩

end arc

end xsk

namespace xsk

/-! ## C8: the integer encoding of a switch case -/

/-- C8, as stated, fails: for the case value `-1` the value field written by
the ARC `assemble_switch_table`, and by the GSC one on `iw6`, is `0x17FFFFF`,
while `(v & 0x00FFFFFF) | 0x00800000` is `0xFFFFFF`. -/
theorem switch_integer_encoding_counterexample :
    ∃ sa sg,
      arc.assemble_switch_table [(100, "A"), (104, "B"), (108, "C"), (112, "D")]
        (arc.assembler.create arc.sample_context 64) arc.sample_endswitch = .ok sa ∧
      gsc.assemble_switch_table gsc.sample_context
        [(100, "A"), (104, "B"), (108, "C"), (112, "D")]
        (gsc.assembler.create gsc.sample_context 64) gsc.sample_endswitch = .ok sg ∧
      arc.sample_endswitch.data[3]? = some "-1" ∧
      gsc.sample_endswitch.data[3]? = some "-1" ∧
      stoi "-1" = .ok (-1) ∧
      sa.script.read 4 4 = 25165823 ∧
      sg.script.read 2 4 = 25165823 ∧
      (to_u32 (-1) &&& 0x00FFFFFF) ||| 0x00800000 = 16777215 :=
  ⟨_, _, rfl, rfl, rfl, rfl, rfl, rfl, rfl, rfl⟩

/-- C8, amended: for an integer case with value `v` at table position `k`, the
value field written by the ARC `assemble_switch_table`, and by the GSC one on
every engine other than `iw9`, is `(v & 0x00FFFFFF) + 0x00800000`, the mask
taken on the 32-bit pattern of `v`; it equals `(v & 0x00FFFFFF) | 0x00800000`
exactly when bit 23 of `v` is clear. -/
theorem switch_integer_encoding :
    (∀ (labels : label_map) (self self' : arc.assembler) (inst : arc.instruction)
        (k : Nat) (t d : String) (type : Nat) (v : Int),
      arc.assemble_switch_table labels self inst = .ok self' →
      k < arc.switch_count inst.data →
      inst.data[1 + 4 * k]? = some "case" →
      inst.data[1 + 4 * k + 1]? = some t → stoul t = .ok type →
      to_switch_type type = switch_type_integer →
      inst.data[1 + 4 * k + 2]? = some d → stoi d = .ok v →
      self'.script.read (utils.writer.align_up self.script.pos 4 + 4 + 8 * k) 4 =
          (to_u32 v &&& 0x00FFFFFF) + 0x00800000 ∧
        (self'.script.read (utils.writer.align_up self.script.pos 4 + 4 + 8 * k) 4 =
            (to_u32 v &&& 0x00FFFFFF) ||| 0x00800000 ↔
          to_u32 v / 8388608 % 2 = 0)) ∧
    (∀ (ctx : gsc.context) (labels : label_map) (self self' : gsc.assembler)
        (inst : gsc.instruction) (k count : Nat) (d0 t d : String) (type : Nat) (v : Int),
      ctx.engine ≠ gsc.engine.iw9 →
      gsc.assemble_switch_table ctx labels self inst = .ok self' →
      inst.data[0]? = some d0 → stoul d0 = .ok count → k < count →
      inst.data[1 + 4 * k]? = some "case" →
      inst.data[1 + 4 * k + 1]? = some t → stoul t = .ok type →
      to_switch_type type = switch_type_integer →
      inst.data[1 + 4 * k + 2]? = some d → stoi d = .ok v →
      self'.script.read (self.script.pos + 2 + 7 * k) 4 =
          (to_u32 v &&& 0x00FFFFFF) + 0x00800000 ∧
        (self'.script.read (self.script.pos + 2 + 7 * k) 4 =
            (to_u32 v &&& 0x00FFFFFF) ||| 0x00800000 ↔
          to_u32 v / 8388608 % 2 = 0)) := by
  constructor
  · intro labels self self' inst k t d type v h hk hcase ht htype hint hd hv
    have hr := arc.arc_switch_integer_value labels self self' inst k t d type v h hk hcase ht htype
      hint hd hv
    refine ⟨hr, ?_⟩
    rw [hr]
    exact mask_add_eq_or _
  · intro ctx labels self self' inst k count d0 t d type v hengine h hd0 hcount hk hcase ht
      htype hint hd hv
    have hr := gsc.gsc_switch_integer_value ctx labels self self' inst k count d0 t d type v hengine
      h hd0 hcount hk hcase ht htype hint hd hv
    refine ⟨hr, ?_⟩
    rw [hr]
    exact mask_add_eq_or _

/-- C8, amended, on the sample tables: the case value `5` at position 1 is
written as `0x00800005` by both assemblers, where the sum and the bitwise or
agree; the case value `-1` at position 0 is written as `0x017FFFFF`. -/
theorem switch_integer_encoding_witness :
    ∃ sa sg,
      arc.assemble_switch_table [(100, "A"), (104, "B"), (108, "C"), (112, "D")]
        (arc.assembler.create arc.sample_context 64) arc.sample_endswitch = .ok sa ∧
      gsc.assemble_switch_table gsc.sample_context
        [(100, "A"), (104, "B"), (108, "C"), (112, "D")]
        (gsc.assembler.create gsc.sample_context 64) gsc.sample_endswitch = .ok sg ∧
      sa.script.read 12 4 = 0x00800005 ∧
      sg.script.read 9 4 = 0x00800005 ∧
      sa.script.read 4 4 = 0x017FFFFF ∧
      sg.script.read 2 4 = 0x017FFFFF := by
  have hra : ∃ s, arc.assemble_switch_table [(100, "A"), (104, "B"), (108, "C"), (112, "D")]
      (arc.assembler.create arc.sample_context 64) arc.sample_endswitch = .ok s := ⟨_, rfl⟩
  have hrg : ∃ s, gsc.assemble_switch_table gsc.sample_context
      [(100, "A"), (104, "B"), (108, "C"), (112, "D")]
      (gsc.assembler.create gsc.sample_context 64) gsc.sample_endswitch = .ok s := ⟨_, rfl⟩
  obtain ⟨sa, hsa⟩ := hra
  obtain ⟨sg, hsg⟩ := hrg
  have a1 := (switch_integer_encoding.1 _ _ sa arc.sample_endswitch 1 "1" "5" 1 5 hsa
    (by decide) rfl rfl rfl rfl rfl rfl).1
  have a0 := (switch_integer_encoding.1 _ _ sa arc.sample_endswitch 0 "1" "-1" 1 (-1) hsa
    (by decide) rfl rfl rfl rfl rfl rfl).1
  have g1 := (switch_integer_encoding.2 gsc.sample_context _ _ sg gsc.sample_endswitch 1 4
    "4" "1" "5" 1 5 (by decide) hsg rfl rfl (by decide) rfl rfl rfl rfl rfl rfl).1
  have g0 := (switch_integer_encoding.2 gsc.sample_context _ _ sg gsc.sample_endswitch 0 4
    "4" "1" "-1" 1 (-1) (by decide) hsg rfl rfl (by decide) rfl rfl rfl rfl rfl rfl).1
  exact ⟨sa, sg, hsa, hsg, a1, g1, a0, g0⟩

end xsk

namespace xsk

/-! ## C9: the ordinal of a string case -/

/-- C9: in the ARC `assemble_switch_table`, and in the GSC one on every engine
other than `iw9`, the value field written for a case of a type other than
integer (a string case) at 0-based table position `k` is `k + 1`, and the
value field written for a `default` entry is `0`; the operand list holds at
most `2 ^ 32` strings. -/
theorem switch_case_ordinal :
    (∀ (labels : label_map) (self self' : arc.assembler) (inst : arc.instruction)
        (k : Nat),
      arc.assemble_switch_table labels self inst = .ok self' →
      k < arc.switch_count inst.data →
      inst.data.length ≤ 4294967296 →
      (∀ t type, inst.data[1 + 4 * k]? = some "case" →
        inst.data[1 + 4 * k + 1]? = some t → stoul t = .ok type →
        to_switch_type type ≠ switch_type_integer →
        self'.script.read (utils.writer.align_up self.script.pos 4 + 4 + 8 * k) 4 = k + 1) ∧
      (inst.data[1 + 4 * k]? = some "default" →
        self'.script.read (utils.writer.align_up self.script.pos 4 + 4 + 8 * k) 4 = 0)) ∧
    (∀ (ctx : gsc.context) (labels : label_map) (self self' : gsc.assembler)
        (inst : gsc.instruction) (k count : Nat) (d0 : String),
      ctx.engine ≠ gsc.engine.iw9 →
      gsc.assemble_switch_table ctx labels self inst = .ok self' →
      inst.data[0]? = some d0 → stoul d0 = .ok count → k < count →
      inst.data.length ≤ 4294967296 →
      (∀ t type, inst.data[1 + 4 * k]? = some "case" →
        inst.data[1 + 4 * k + 1]? = some t → stoul t = .ok type →
        to_switch_type type ≠ switch_type_integer →
        self'.script.read (self.script.pos + 2 + 7 * k) 4 = k + 1) ∧
      (inst.data[1 + 4 * k]? = some "default" →
        self'.script.read (self.script.pos + 2 + 7 * k) 4 = 0)) := by
  have hlt : ∀ (data : List String) (k : Nat) (s : String),
      data.length ≤ 4294967296 → data[1 + 4 * k]? = some s → (k + 1) % 4294967296 = k + 1 := by
    intro data k s hlen hs
    have : 1 + 4 * k < data.length := by
      by_contra hge
      rw [List.getElem?_eq_none (by omega)] at hs
      cases hs
    omega
  constructor
  · intro labels self self' inst k h hk hlen
    obtain ⟨h1, h2⟩ := arc.arc_switch_ordinal_value labels self self' inst k h hk
    refine ⟨?_, h2⟩
    intro t type hcase ht htype hint
    rw [h1 t type hcase ht htype hint]
    exact hlt _ _ _ hlen hcase
  · intro ctx labels self self' inst k count d0 hengine h hd0 hcount hk hlen
    obtain ⟨h1, h2⟩ := gsc.gsc_switch_ordinal_value ctx labels self self' inst k count d0 hengine h
      hd0 hcount hk
    refine ⟨?_, h2⟩
    intro t type hcase ht htype hint
    rw [h1 t type hcase ht htype hint]
    exact hlt _ _ _ hlen hcase

/-- C9 on the sample tables: the string case at position 2 is written as `3`
and the default entry at position 3 as `0`, by both assemblers. -/
theorem switch_case_ordinal_witness :
    ∃ sa sg,
      arc.assemble_switch_table [(100, "A"), (104, "B"), (108, "C"), (112, "D")]
        (arc.assembler.create arc.sample_context 64) arc.sample_endswitch = .ok sa ∧
      gsc.assemble_switch_table gsc.sample_context
        [(100, "A"), (104, "B"), (108, "C"), (112, "D")]
        (gsc.assembler.create gsc.sample_context 64) gsc.sample_endswitch = .ok sg ∧
      sa.script.read 20 4 = 3 ∧
      sa.script.read 28 4 = 0 ∧
      sg.script.read 16 4 = 3 ∧
      sg.script.read 23 4 = 0 := by
  have hra : ∃ s, arc.assemble_switch_table [(100, "A"), (104, "B"), (108, "C"), (112, "D")]
      (arc.assembler.create arc.sample_context 64) arc.sample_endswitch = .ok s := ⟨_, rfl⟩
  have hrg : ∃ s, gsc.assemble_switch_table gsc.sample_context
      [(100, "A"), (104, "B"), (108, "C"), (112, "D")]
      (gsc.assembler.create gsc.sample_context 64) gsc.sample_endswitch = .ok s := ⟨_, rfl⟩
  obtain ⟨sa, hsa⟩ := hra
  obtain ⟨sg, hsg⟩ := hrg
  have a2 := (switch_case_ordinal.1 _ _ sa arc.sample_endswitch 2 hsa (by decide)
    (by decide)).1 "2" 2 rfl rfl rfl (by decide)
  have a3 := (switch_case_ordinal.1 _ _ sa arc.sample_endswitch 3 hsa (by decide)
    (by decide)).2 rfl
  have g2 := (switch_case_ordinal.2 gsc.sample_context _ _ sg gsc.sample_endswitch 2 4 "4"
    (by decide) hsg rfl rfl (by decide) (by decide)).1 "2" 2 rfl rfl rfl (by decide)
  have g3 := (switch_case_ordinal.2 gsc.sample_context _ _ sg gsc.sample_endswitch 3 4 "4"
    (by decide) hsg rfl rfl (by decide) (by decide)).2 rfl
  exact ⟨sa, sg, hsa, hsg, a2, a3, g2, g3⟩

end xsk

namespace xsk

namespace arc

/-! ## C10: scenario S3 -/

/-- C10, as stated, fails: with the `EndSwitch` operands
`["2", "case", "integer", "5", "L5", "default", "LD"]` the type operand of the
case is read by `std::stoul`, which rejects the word `integer`; so
`process_instruction` fails on that `EndSwitch` in every state, and `assemble`
fails on the function of scenario S3. -/
theorem arc_scenario_S3_counterexample :
    scenario_S3_endswitch_as_printed.data =
      ["2", "case", "integer", "5", "L5", "default", "LD"] ∧
    stoul "integer" = .error asm_error.invalid_argument ∧
    (∀ self : assembler,
      process_instruction self scenario_S3_endswitch_as_printed =
        .error asm_error.invalid_argument) ∧
    assemble sample_context (assembler.create sample_context 4096)
      { functions := [scenario_S3 scenario_S3_endswitch_as_printed], includes := [] } "" =
      .error asm_error.invalid_argument :=
  ⟨rfl, rfl, fun _ => rfl, rfl⟩

/-- C10, amended: for an `EndSwitch` whose operands are exactly
`["2", "case", "1", "5", "L5", "default", "LD"]`, the type operand being the
decimal value `1` of `switch_type::integer`, with `L5` and `LD` resolving to
`O5` and `OD`, the opcode known to the context and room left in the buffers:
`process_instruction` succeeds and pools nothing; `align_instruction` succeeds,
gives the size `opcode_size + pad + 16` and records no string fixup; and
`assemble_instruction` succeeds and emits the table at the 4-aligned offset `A`
after the opcode byte as the count `2`, the case entry
`(0x00800005, O5 - (A + 8 + 4))` and the default entry `(0, OD - (A + 16 + 4))`,
the displacements as 32-bit patterns. -/
theorem arc_scenario_S3 (ctx : context) (labels : label_map) (self : assembler)
    (inst : instruction) (id O5 OD : Nat)
    (hop : inst.opcode = opcode.OP_EndSwitch)
    (hdata : inst.data = ["2", "case", "1", "5", "L5", "default", "LD"])
    (hid : ctx.opcode_id opcode.OP_EndSwitch = some id)
    (h5 : resolve_label labels "L5" = .ok O5) (hD : resolve_label labels "LD" = .ok OD)
    (hfit : utils.writer.align_up (self.script.pos + 1) 4 + 20 ≤ self.script.size)
    (hdev : ctx.build.has_dev_maps = true → self.devmap.pos + 8 ≤ self.devmap.size) :
    process_instruction self inst = .ok self ∧
    (∃ inst' s, align_instruction ctx self inst = .ok (inst', s) ∧
      inst'.size = ctx.opcode_size opcode.OP_EndSwitch +
        (utils.writer.align_up (self.script.pos + 1) 4 - (self.script.pos + 1)) + 16 ∧
      s.script.pos = utils.writer.align_up (self.script.pos + 1) 4 + 20 ∧
      s.strings = self.strings) ∧
    ∃ self', assemble_instruction ctx labels self inst = .ok self' ∧
      utils.writer.align_up (self.script.pos + 1) 4 % 4 = 0 ∧
      self'.script.read (utils.writer.align_up (self.script.pos + 1) 4) 4 = 2 ∧
      self'.script.read (utils.writer.align_up (self.script.pos + 1) 4 + 4) 4 = 0x00800005 ∧
      self'.script.read (utils.writer.align_up (self.script.pos + 1) 4 + 8) 4 =
        (((O5 : Int) - (((utils.writer.align_up (self.script.pos + 1) 4 + 8 : Nat) : Int) + 4)) %
          4294967296).toNat ∧
      self'.script.read (utils.writer.align_up (self.script.pos + 1) 4 + 12) 4 = 0 ∧
      self'.script.read (utils.writer.align_up (self.script.pos + 1) 4 + 16) 4 =
        (((OD : Int) - (((utils.writer.align_up (self.script.pos + 1) 4 + 16 : Nat) : Int) + 4)) %
          4294967296).toNat ∧
      self'.script.pos = utils.writer.align_up (self.script.pos + 1) 4 + 20 := by
  have hge := utils.align_up_ge (self.script.pos + 1) 4 (by omega)
  have hcount : switch_count inst.data = 2 := by rw [hdata]; rfl
  refine ⟨?_, ?_, ?_⟩
  · unfold process_instruction
    rw [hop]
    simp only [hdata]
    rfl
  · have hrun : ∃ r, align_instruction ctx self inst = .ok r := by
      unfold align_instruction align_operands
      simp only [hop, hdata]
      exact ⟨_, rfl⟩
    obtain ⟨⟨inst', s⟩, hr⟩ := hrun
    obtain ⟨h1, -, h3, -, h5, h6, h7, -⟩ := align_instruction_spec _ _ _ _ _ hr
    have hk : kind_of inst'.opcode = operand_kind.endswitch := by rw [h1, hop]; rfl
    have he : operands_end inst' (self.script.pos + 1) =
        utils.writer.align_up (self.script.pos + 1) 4 + 20 := by
      simp only [operands_end, hk, h3, hcount]
    have hb : base_size inst.opcode = 5 := by rw [hop]; rfl
    rw [he] at h5 h6
    rw [hop] at h6
    have hb5 : base_size opcode.OP_EndSwitch = 5 := rfl
    rw [hb5] at h6
    refine ⟨inst', s, hr, by omega, h5, ?_⟩
    rw [h7]
    simp only [string_fixups, hk, h3, hcount, hdata]
    rfl
  · obtain ⟨s1, hs1, p1, z1, d1⟩ := assembler_write_fits self 1 id (by omega)
    obtain ⟨s2, hs2⟩ := write_devmap_entry_fits ctx s1 inst (by rw [d1]; exact hdev)
    have e2 := (write_devmap_entry_spec _ _ _ _ hs2).1
    have p2 : s2.script.pos = self.script.pos + 1 := by rw [e2, p1]
    obtain ⟨s3, hs3⟩ := scenario_S3_table_fits labels s2 inst O5 OD hdata h5 hD
      (by rw [p2, e2, z1]; exact hfit)
    have hrun : assemble_instruction ctx labels self inst = .ok s3 := by
      unfold assemble_instruction
      rw [hop, hid]
      simp only [bind_eq_ok]
      refine ⟨s1, hs1, s2, ?_, ?_⟩
      · exact hs2
      · simp only [assemble_operands, hop]
        exact hs3
    obtain ⟨hem, -, hc, hent⟩ := assemble_switch_table_spec _ _ _ _ hs3
    rw [p2] at hem hc hent
    rw [hcount] at hem hc hent
    refine ⟨s3, hrun, ?_, hc, ?_, ?_, ?_, ?_, hem.pos⟩
    · exact Nat.mod_eq_zero_of_dvd (utils.align_up_dvd _ _)
    · rcases hent 0 (by omega) with ⟨-, t, type, value, l, addr, ht, htype, hval, hread, -⟩ |
        ⟨hdef, -⟩
      · rw [hdata] at ht hval
        cases ht
        cases htype
        cases hval
        rw [hread]
        rfl
      · rw [hdata] at hdef
        exact absurd hdef (by decide)
    · rcases hent 0 (by omega) with ⟨-, t, type, value, l, addr, -, -, -, -, hl, hres, hr⟩ |
        ⟨hdef, -⟩
      · rw [hdata] at hl
        have hl' : l = "L5" := (Option.some.inj hl).symm
        subst hl'
        rw [h5] at hres
        cases hres
        have e : utils.writer.align_up (self.script.pos + 1) 4 + 4 + 8 * 0 + 4 =
            utils.writer.align_up (self.script.pos + 1) 4 + 8 := by omega
        rw [e] at hr
        rw [hr, usize_sub_sub_mod32]
        rfl
      · rw [hdata] at hdef
        exact absurd hdef (by decide)
    · rcases hent 1 (by omega) with ⟨hcase, -⟩ | ⟨-, hread, -⟩
      · rw [hdata] at hcase
        exact absurd hcase (by decide)
      · have e : utils.writer.align_up (self.script.pos + 1) 4 + 4 + 8 * 1 =
            utils.writer.align_up (self.script.pos + 1) 4 + 12 := by omega
        rw [e] at hread
        exact hread
    · rcases hent 1 (by omega) with ⟨hcase, -⟩ | ⟨-, -, l, addr, hl, hres, hr⟩
      · rw [hdata] at hcase
        exact absurd hcase (by decide)
      · rw [hdata] at hl
        have hl' : l = "LD" := (Option.some.inj hl).symm
        subst hl'
        rw [hD] at hres
        cases hres
        have e : utils.writer.align_up (self.script.pos + 1) 4 + 4 + 8 * 1 + 4 =
            utils.writer.align_up (self.script.pos + 1) 4 + 16 := by omega
        rw [e] at hr
        rw [hr, usize_sub_sub_mod32]
        rfl

end arc

end xsk

namespace xsk

namespace arc

/-- Witness of C10, amended: scenario S3 with the type operand `1`, assembled
on the sample context. The function starts at offset 76, the `EndSwitch` is
laid out at 86 with size 22 and the labels `L5`, `LD`, `tbl` relocated to 84,
85, 86; the 22 bytes emitted from 86 are the opcode, a pad byte, the count `2`,
the entry `(0x00800005, -16)` and the entry `(0, -23)`; and the statement of
C10 applied to that `EndSwitch` gives the table at offset 88. -/
theorem arc_scenario_S3_witness :
    ((assemble sample_context (assembler.create sample_context 4096)
        { functions := [scenario_S3 scenario_S3_endswitch], includes := [] } "").toOption.map
      (fun res => (res.data.functions.map
        (fun f => (f.index, f.labels, f.instructions.map (fun i => (i.index, i.size)))),
        (res.script.drop 86).take 22))) =
      some ([(76, [(84, "L5"), (85, "LD"), (86, "tbl")],
          [(76, 8), (84, 1), (85, 1), (86, 22)])],
        [7, 0, 2, 0, 0, 0, 5, 0, 128, 0, 240, 255, 255, 255, 0, 0, 0, 0,
          233, 255, 255, 255]) ∧
    ∃ self', assemble_instruction sample_context [(84, "L5"), (85, "LD"), (86, "tbl")]
        ((assembler.create sample_context 4096).seek 86)
        { scenario_S3_endswitch with index := 86, size := 22 } = .ok self' ∧
      self'.script.read 88 4 = 2 ∧
      self'.script.read 92 4 = 0x00800005 ∧
      as_i32 (self'.script.read 96 4) = 84 - (96 + 4) ∧
      self'.script.read 100 4 = 0 ∧
      as_i32 (self'.script.read 104 4) = 85 - (104 + 4) ∧
      self'.script.pos = 108 := by
  refine ⟨by rfl, ?_⟩
  obtain ⟨-, -, s, h1, -, h3, h4, h5, h6, h7, h8⟩ := arc_scenario_S3 sample_context
    [(84, "L5"), (85, "LD"), (86, "tbl")] ((assembler.create sample_context 4096).seek 86)
    { scenario_S3_endswitch with index := 86, size := 22 } 7 84 85 rfl rfl rfl
    (by decide) (by decide) (by decide) (by decide)
  refine ⟨s, h1, h3, h4, ?_, h6, ?_, h8⟩
  · have e : s.script.read 96 4 = 4294967280 := h5
    rw [e]
    decide
  · have e : s.script.read 104 4 = 4294967273 := h7
    rw [e]
    decide

end arc

end xsk

namespace xsk

/-! ## Text of several parts, hexadecimal pairs -/

theorem str_bytes_append (s t : String) : str_bytes (s ++ t) = str_bytes s ++ str_bytes t := by
  simp [str_bytes, String.data_append]

namespace gsc

theorem hex_pair_value (hi lo : Nat) (hhi : hi < 16) (hlo : lo < 16) :
    stoul_base 16 (utf8_char (hex_digit hi) ++ utf8_char (hex_digit lo)) = .ok (16 * hi + lo) := by
  interval_cases hi <;> interval_cases lo <;> rfl

theorem hex_digit_byte (d : Nat) (hd : d < 16) : (utf8_char (hex_digit d)).length = 1 := by
  interval_cases d <;> rfl

theorem str_bytes_hex_nil : str_bytes (hex []) = [] := rfl

theorem str_bytes_hex_cons (x : Nat) (b : List Nat) :
    str_bytes (hex (x :: b)) =
      utf8_char (hex_digit (x / 16)) ++ (utf8_char (hex_digit (x % 16)) ++ str_bytes (hex b)) := by
  simp [str_bytes, hex]

theorem str_bytes_hex_length (b : List Nat) (hb : ∀ x ∈ b, x < 256) :
    (str_bytes (hex b)).length = 2 * b.length := by
  induction b with
  | nil => rfl
  | cons x b ih =>
    have hx := hb x (List.mem_cons_self _ _)
    rw [str_bytes_hex_cons, List.length_append, List.length_append,
      hex_digit_byte _ (Nat.div_lt_of_lt_mul (by omega)), hex_digit_byte _ (Nat.mod_lt _ (by omega)),
      ih (fun y hy => hb y (List.mem_cons_of_mem _ hy)), List.length_cons]
    omega

theorem decode_pairs_hex (b : List Nat) (hb : ∀ x ∈ b, x < 256) :
    decode_pairs (str_bytes (hex b)) = .ok b := by
  induction b with
  | nil => rfl
  | cons x b ih =>
    have hx := hb x (List.mem_cons_self _ _)
    have h1 : x / 16 < 16 := Nat.div_lt_of_lt_mul (by omega)
    have h2 : x % 16 < 16 := Nat.mod_lt _ (by omega)
    rw [str_bytes_hex_cons]
    have l1 := hex_digit_byte _ h1
    have l2 := hex_digit_byte _ h2
    have hv := hex_pair_value _ _ h1 h2
    generalize utf8_char (hex_digit (x / 16)) = p at l1 hv ⊢
    generalize utf8_char (hex_digit (x % 16)) = q at l2 hv ⊢
    obtain ⟨a, rfl⟩ := List.length_eq_one.1 l1
    obtain ⟨c, rfl⟩ := List.length_eq_one.1 l2
    simp only [List.singleton_append, List.cons_append, List.nil_append] at hv ⊢
    simp only [decode_pairs, hv, ih (fun y hy => hb y (List.mem_cons_of_mem _ hy))]
    have e : (16 * (x / 16) + x % 16) % 256 = x := by omega
    simp [bind, Except.bind, pure, Except.pure, e]

theorem encrypt_string_hex (b : List Nat) (hb : ∀ x ∈ b, x < 256) :
    encrypt_string ("_encstr_" ++ hex b) = .ok b := by
  unfold encrypt_string
  have hlen := str_bytes_hex_length b hb
  have e8 : (str_bytes "_encstr_").length = 8 := rfl
  simp only [str_bytes_append]
  rw [if_pos]
  · rw [List.drop_append_of_le_length (by omega)]
    have : List.drop 8 (str_bytes "_encstr_") = [] := rfl
    rw [this, List.nil_append]
    exact decode_pairs_hex b hb
  · constructor
    · rw [List.take_append_of_le_length (by omega)]
      rfl
    · rw [List.length_append, hlen, e8]
      omega

/-! ## Stack writes -/

theorem write_stack_cstr_of_fits (self : assembler) (s : List Nat)
    (h : self.stack.pos + (s.length + 1) ≤ self.stack.size) :
    ∃ w, self.stack.write_cstr s = .ok w ∧
      self.write_stack_cstr s = .ok { self with stack := w } := by
  obtain ⟨w, hw⟩ := utils.put_of_fits self.stack (s ++ [0]) (by simpa using h)
  refine ⟨w, hw, ?_⟩
  unfold assembler.write_stack_cstr
  have : self.stack.write_cstr s = .ok w := hw
  rw [this]

theorem gsc_write_of_fits (self : assembler) (width v : Nat)
    (h : self.script.pos + width ≤ self.script.size) :
    ∃ w, self.script.write width v = .ok w ∧ self.write width v = .ok { self with script := w } := by
  obtain ⟨w, hw⟩ := utils.write_of_fits self.script width v h
  refine ⟨w, hw, ?_⟩
  unfold assembler.write
  rw [hw]

end gsc

end xsk

namespace xsk

namespace gsc

/-- C20: `encrypt_string` undoes the hexadecimal encoding: applied to `_encstr_`
followed by `hex b` it returns exactly the bytes `b`, whose number is the length
of the text less 8, halved. For scenario S6, the operands of
`GetString "_encstr_68656c6c6f"` are emitted as a zero placeholder in the script
(2 bytes, 4 with `str4`) and as the bytes `h e l l o` and a NUL appended to the
stack; nothing else changes. -/
theorem encrypt_string_round_trip :
    (∀ b : List Nat, (∀ x ∈ b, x < 256) →
      encrypt_string ("_encstr_" ++ hex b) = .ok b ∧
      b.length = ((str_bytes ("_encstr_" ++ hex b)).length - 8) / 2) ∧
    (∀ (ctx : context) (funcs : List function) (labels : label_map) (self : assembler),
      self.script.pos + (if ctx.props.str4 then 4 else 2) ≤ self.script.size →
      self.stack.pos + 6 ≤ self.stack.size →
      ∃ self', assemble_operands ctx funcs labels self scenario_S6 = .ok self' ∧
        self'.script.pos = self.script.pos + (if ctx.props.str4 then 4 else 2) ∧
        (∀ k, k < (if ctx.props.str4 then 4 else 2) →
          self'.script.data (self.script.pos + k) = 0) ∧
        (∀ i, i < self.script.pos ∨ self.script.pos + (if ctx.props.str4 then 4 else 2) ≤ i →
          self'.script.data i = self.script.data i) ∧
        self'.stack.pos = self.stack.pos + 6 ∧
        (List.range 6).map (fun k => self'.stack.data (self.stack.pos + k)) =
          [104, 101, 108, 108, 111, 0] ∧
        (∀ i, i < self.stack.pos ∨ self.stack.pos + 6 ≤ i →
          self'.stack.data i = self.stack.data i) ∧
        self'.devmap = self.devmap ∧ self'.devmap_count = self.devmap_count) := by
  refine ⟨fun b hb => ⟨encrypt_string_hex b hb, ?_⟩, ?_⟩
  · rw [str_bytes_append, List.length_append, str_bytes_hex_length b hb]
    have e8 : (str_bytes "_encstr_").length = 8 := rfl
    omega
  · intro ctx funcs labels self hscript hstack
    obtain ⟨w, hw, hw'⟩ := gsc_write_of_fits self (if ctx.props.str4 then 4 else 2) 0 hscript
    have henc : encrypt_string "_encstr_68656c6c6f" = .ok [104, 101, 108, 108, 111] := rfl
    obtain ⟨st, hst, hst'⟩ := write_stack_cstr_of_fits { self with script := w }
      [104, 101, 108, 108, 111] hstack
    refine ⟨{ self with script := w, stack := st }, ?_, ?_⟩
    · have hop : operand scenario_S6.data 0 = .ok "_encstr_68656c6c6f" := rfl
      simp only [assemble_operands, scenario_S6] at hop ⊢
      simp only [hw', hop, henc, hst', bind, Except.bind]
    · obtain ⟨-, p1, -, -, -, d1, d2⟩ := utils.write_ok _ _ _ _ hw
      obtain ⟨-, p2, -, -, -, d3⟩ := utils.put_ok _ _ _ hst
      refine ⟨p1, ?_, d2, p2, ?_, ?_, rfl, rfl⟩
      · intro k hk
        rw [d1 k hk]
        simp [utils.writer.byte_at]
      · simp only [List.range, List.range.loop, List.map]
        simp [d3]
      · intro i hi
        rw [d3, if_neg]
        simp only [List.length_append, List.length_cons, List.length_nil]
        omega

/-- The round trip on the bytes of scenario S6, and its operands emitted by an
assembler with room for them. -/
theorem encrypt_string_round_trip_witness :
    (encrypt_string ("_encstr_" ++ hex [104, 101, 108, 108, 111]) =
        .ok [104, 101, 108, 108, 111] ∧
      "_encstr_" ++ hex [104, 101, 108, 108, 111] = "_encstr_68656c6c6f") ∧
    (∃ self', assemble_operands sample_context [] []
        (assembler.create sample_context 16) scenario_S6 = .ok self' ∧
      self'.script.pos = 2 ∧ self'.stack.pos = 6 ∧
      (List.range 6).map (fun k => self'.stack.data k) = [104, 101, 108, 108, 111, 0]) ∧
    (assemble sample_context (assembler.create sample_context 16)
        ⟨[scenario_S6_function]⟩).toOption.map (fun r => (r.script, r.stack)) =
      some ([7, 7, 0, 0], [3, 0, 0, 0, 5, 0, 104, 101, 108, 108, 111, 0]) := by
  refine ⟨⟨(encrypt_string_round_trip.1 [104, 101, 108, 108, 111] (by decide)).1, by decide⟩,
    ?_, by rfl⟩
  obtain ⟨self', h, p, -, -, q, r, -⟩ := encrypt_string_round_trip.2 sample_context [] []
    (assembler.create sample_context 16) (by decide) (by decide)
  exact ⟨self', h, p, q, by simpa using r⟩

end gsc

end xsk

namespace xsk

namespace arc

/-! ## Recording string fixups -/

theorem add_stringref_new (n : String) (t : string_type) (r : Nat) (l : List string_ref)
    (h : (n, t) ∉ l.map string_ref.key) :
    add_stringref n t r l = l ++ [{ name := n, type := t, refs := [r] }] := by
  induction l with
  | nil => rfl
  | cons e l ih =>
    simp only [List.map_cons, List.mem_cons, not_or] at h
    have hne : ¬ (e.name = n ∧ e.type = t) := fun hh => h.1 (by
      simp only [string_ref.key]; rw [hh.1, hh.2])
    simp only [add_stringref, if_neg hne, ih h.2, List.cons_append]

theorem add_stringref_old (n : String) (t : string_type) (r : Nat) (l : List string_ref)
    (hnd : (l.map string_ref.key).Nodup) (h : (n, t) ∈ l.map string_ref.key) :
    add_stringref n t r l =
      l.map fun e => if e.key = (n, t) then { e with refs := e.refs ++ [r] } else e := by
  induction l with
  | nil => simp at h
  | cons e l ih =>
    simp only [List.map_cons, List.nodup_cons] at hnd
    by_cases he : e.name = n ∧ e.type = t
    · have hk : e.key = (n, t) := by simp only [string_ref.key]; rw [he.1, he.2]
      simp only [add_stringref, if_pos he, List.map_cons, if_pos hk]
      congr 1
      symm
      calc List.map (fun e : string_ref =>
              if e.key = (n, t) then { e with refs := e.refs ++ [r] } else e) l
          = List.map id l := by
            apply List.map_congr_left
            intro x hx
            have : x.key ≠ (n, t) := fun hxk => hnd.1 (by
              rw [hk, ← hxk]; exact List.mem_map_of_mem _ hx)
            rw [if_neg this]
            rfl
        _ = l := List.map_id l
    · have hk : e.key ≠ (n, t) := fun hh => he (by
        simp only [string_ref.key, Prod.mk.injEq] at hh; exact hh)
      simp only [List.map_cons, List.mem_cons] at h
      rcases h with h | h
      · exact absurd h.symm hk
      · simp only [add_stringref, if_neg he, List.map_cons, if_neg hk, ih hnd.2 h]

theorem add_stringrefs_snoc (calls : List (String × string_type × Nat))
    (c : String × string_type × Nat) (l : List string_ref) :
    add_stringrefs (calls ++ [c]) l = add_stringref c.1 c.2.1 c.2.2 (add_stringrefs calls l) := by
  simp [add_stringrefs, List.foldl_append]

theorem refs_added_snoc (calls : List (String × string_type × Nat))
    (c : String × string_type × Nat) (k : String × string_type) :
    refs_added (calls ++ [c]) k =
      refs_added calls k ++ (if call_key c = k then [c.2.2] else []) := by
  unfold refs_added
  rw [List.filter_append, List.map_append]
  by_cases h : call_key c = k <;> simp [List.filter, h]

theorem refs_added_of_not_mem (calls : List (String × string_type × Nat))
    (k : String × string_type) (h : k ∉ calls.map call_key) : refs_added calls k = [] := by
  unfold refs_added
  rw [List.map_eq_nil_iff, List.filter_eq_nil_iff]
  intro c hc
  simp only [decide_eq_true_eq]
  intro hk
  exact h (hk ▸ List.mem_map_of_mem _ hc)

theorem first_call_append_of_mem (k : String × string_type)
    (calls l : List (String × string_type × Nat)) (h : k ∈ calls.map call_key) :
    first_call k (calls ++ l) = first_call k calls := by
  induction calls with
  | nil => simp at h
  | cons c calls ih =>
    show (if call_key c = k then 0 else first_call k (calls ++ l) + 1) =
      if call_key c = k then 0 else first_call k calls + 1
    by_cases hc : call_key c = k
    · rw [if_pos hc, if_pos hc]
    · rw [if_neg hc, if_neg hc]
      simp only [List.map_cons, List.mem_cons] at h
      rcases h with h | h
      · exact absurd h.symm hc
      · rw [ih h]

theorem first_call_append_of_not_mem (k : String × string_type)
    (calls l : List (String × string_type × Nat)) (h : k ∉ calls.map call_key) :
    first_call k (calls ++ l) = calls.length + first_call k l := by
  induction calls with
  | nil => simp
  | cons c calls ih =>
    simp only [List.map_cons, List.mem_cons, not_or] at h
    have hc : ¬ call_key c = k := fun hh => h.1 hh.symm
    show (if call_key c = k then 0 else first_call k (calls ++ l) + 1) = _
    rw [if_neg hc, ih h.2, List.length_cons]
    omega

theorem first_call_lt (k : String × string_type) (calls : List (String × string_type × Nat))
    (h : k ∈ calls.map call_key) : first_call k calls < calls.length := by
  induction calls with
  | nil => simp at h
  | cons c calls ih =>
    simp only [first_call, List.length_cons]
    by_cases hc : call_key c = k
    · rw [if_pos hc]; omega
    · rw [if_neg hc]
      simp only [List.map_cons, List.mem_cons] at h
      rcases h with h | h
      · exact absurd h.symm hc
      · have := ih h
        omega

/-- The list built by a sequence of `add_stringref` calls from the empty list:
its keys are those of the calls, in the order of first occurrence, and each
entry holds the refs added under its key. -/
theorem add_stringrefs_spec (calls : List (String × string_type × Nat)) :
    (∀ k, k ∈ (add_stringrefs calls []).map string_ref.key ↔ k ∈ calls.map call_key) ∧
    ((add_stringrefs calls []).map string_ref.key).Pairwise
      (fun a b => first_call a calls < first_call b calls) ∧
    ∀ e, e ∈ add_stringrefs calls [] → e.refs = refs_added calls e.key := by
  induction calls using List.reverseRecOn with
  | nil =>
    exact ⟨fun k => by simp [add_stringrefs], by simp [add_stringrefs],
      fun e he => by simp [add_stringrefs] at he⟩
  | append_singleton calls c ih =>
    obtain ⟨h1, h2, h3⟩ := ih
    have hnd : ((add_stringrefs calls []).map string_ref.key).Nodup :=
      h2.imp (fun {a b} hab heq => by rw [heq] at hab; exact Nat.lt_irrefl _ hab)
    rw [add_stringrefs_snoc]
    have hck : call_key c = (c.1, c.2.1) := rfl
    have hkeep : ∀ a b, a ∈ (add_stringrefs calls []).map string_ref.key →
        b ∈ (add_stringrefs calls []).map string_ref.key →
        first_call a calls < first_call b calls →
        first_call a (calls ++ [c]) < first_call b (calls ++ [c]) := by
      intro a b ha hb hab
      rw [first_call_append_of_mem _ _ _ ((h1 a).1 ha),
        first_call_append_of_mem _ _ _ ((h1 b).1 hb)]
      exact hab
    by_cases hmem : (c.1, c.2.1) ∈ (add_stringrefs calls []).map string_ref.key
    · rw [add_stringref_old _ _ _ _ hnd hmem]
      have hkeys : (List.map (fun e : string_ref =>
            if e.key = (c.1, c.2.1) then { e with refs := e.refs ++ [c.2.2] } else e)
          (add_stringrefs calls [])).map string_ref.key =
          (add_stringrefs calls []).map string_ref.key := by
        rw [List.map_map]
        apply List.map_congr_left
        intro e _
        simp only [Function.comp]
        split <;> rfl
      refine ⟨?_, ?_, ?_⟩
      · intro k
        rw [hkeys, h1, List.map_append, List.mem_append]
        constructor
        · exact Or.inl
        · rintro (h | h)
          · exact h
          · simp only [List.map_cons, List.map_nil, List.mem_singleton] at h
            rw [h, hck, ← h1]
            exact hmem
      · rw [hkeys]
        exact h2.imp_of_mem (fun {a b} ha hb hab => hkeep a b ha hb hab)
      · intro e' he'
        rw [List.mem_map] at he'
        obtain ⟨e, he, rfl⟩ := he'
        rw [refs_added_snoc]
        split
        · rename_i hk
          have : ({ e with refs := e.refs ++ [c.2.2] } : string_ref).key = e.key := rfl
          rw [this, hck, if_pos hk.symm]
          show e.refs ++ [c.2.2] = _
          rw [h3 e he]
        · rename_i hk
          rw [h3 e he, hck, if_neg (fun hh => hk hh.symm), List.append_nil]
    · rw [add_stringref_new _ _ _ _ hmem]
      have hnot : (c.1, c.2.1) ∉ calls.map call_key := fun hh => hmem ((h1 _).2 hh)
      refine ⟨?_, ?_, ?_⟩
      · intro k
        simp only [List.map_append, List.mem_append, h1, List.map_cons, List.map_nil,
          List.mem_singleton, string_ref.key, hck]
      · simp only [List.map_append, List.map_cons, List.map_nil]
        rw [List.pairwise_append]
        refine ⟨h2.imp_of_mem (fun {a b} ha hb hab => hkeep a b ha hb hab), by simp, ?_⟩
        intro a ha b hb
        simp only [List.mem_singleton, string_ref.key] at hb
        subst hb
        rw [first_call_append_of_mem _ _ _ ((h1 a).1 ha),
          first_call_append_of_not_mem _ _ _ hnot]
        have := first_call_lt _ _ ((h1 a).1 ha)
        omega
      · intro e he
        rw [List.mem_append, List.mem_singleton] at he
        rw [refs_added_snoc]
        rcases he with he | rfl
        · have hk : e.key ≠ (c.1, c.2.1) := fun hh => hmem (hh ▸ List.mem_map_of_mem _ he)
          rw [h3 e he, hck, if_neg (fun hh => hk hh.symm), List.append_nil]
        · show [c.2.2] = refs_added calls (c.1, c.2.1) ++ _
          rw [refs_added_of_not_mem _ _ hnot, hck]
          simp [string_ref.key]

end arc

end xsk

namespace xsk

namespace arc

/-- The placeholder of an emitted `GetString`: two zero bytes at the cursor
after the opcode byte, aligned to two. -/
theorem getstring_slot (ctx : context) (labels : label_map) (E E' : assembler)
    (inst : instruction) (hop : inst.opcode = opcode.OP_GetString)
    (h : assemble_instruction ctx labels E inst = .ok E') :
    E'.script.pos = utils.writer.align_up (E.script.pos + 1) 2 + 2 ∧
    E'.script.read (utils.writer.align_up (E.script.pos + 1) 2) 2 = 0 := by
  unfold assemble_instruction at h
  split at h
  · cases h
  · simp only [bind_eq_ok] at h
    obtain ⟨s1, hs1, s2, hs2, h⟩ := h
    obtain ⟨hw, -⟩ := assembler_write_ok _ _ _ _ hs1
    obtain ⟨-, p1, -, -, -, -, -⟩ := utils.write_ok _ _ _ _ hw
    have e2 := (write_devmap_entry_spec _ _ _ _ hs2).1
    have p2 : s2.script.pos = E.script.pos + 1 := by rw [e2, p1]
    simp only [assemble_operands, hop] at h
    obtain ⟨p, hr, -⟩ := align_write_zero _ _ h
    rw [p2] at p hr
    exact ⟨p, hr⟩

end arc

end xsk

namespace xsk

namespace arc

/-- C11: for every sequence of `add_stringref` calls starting from the empty
list, the keys (name, type) of the resulting list are pairwise distinct, they
are exactly the keys of the calls, they stand in the order of their first
occurrence among the calls, and each entry's refs are the refs added under its
key, in call order. For scenario S5: when `assemble_function` returns on the
function with three `GetString "hello"`, starting with no string fixups and the
cursor at `p`, it has recorded exactly one entry, literal `hello`, whose three
refs are `a`, `a + 4` and `a + 8` as `u32`, where `a` is `p + 1` aligned to 2;
they are pairwise distinct, and the emission wrote its three 2-byte
placeholders at exactly `a`, `a + 4` and `a + 8`, after the opcode bytes at
`p`, `a + 2` and `a + 6`. -/
theorem arc_string_ref_dedup :
    (∀ calls : List (String × string_type × Nat),
      ((add_stringrefs calls []).map string_ref.key).Nodup ∧
      (∀ k, k ∈ (add_stringrefs calls []).map string_ref.key ↔ k ∈ calls.map call_key) ∧
      ((add_stringrefs calls []).map string_ref.key).Pairwise
        (fun a b => first_call a calls < first_call b calls) ∧
      ∀ e, e ∈ add_stringrefs calls [] → e.refs = refs_added calls e.key) ∧
    (∀ (ctx : context) (self self' : assembler) (func' : function),
      self.strings = [] → assemble_function ctx self scenario_S5 = .ok (func', self') →
      ∃ a, a = utils.writer.align_up (self.script.pos + 1) 2 ∧
        self'.strings =
          [{ name := "hello", type := string_type.literal,
             refs := [a % 4294967296, (a + 4) % 4294967296, (a + 8) % 4294967296] }] ∧
        a % 4294967296 ≠ (a + 4) % 4294967296 ∧ a % 4294967296 ≠ (a + 8) % 4294967296 ∧
        (a + 4) % 4294967296 ≠ (a + 8) % 4294967296 ∧
        self'.script.writes = self.script.writes ++
          [(self.script.pos, 1), (a, 2), (a + 2, 1), (a + 4, 2), (a + 6, 1), (a + 8, 2)] ∧
        self'.script.read a 2 = 0 ∧ self'.script.read (a + 4) 2 = 0 ∧
        self'.script.read (a + 8) 2 = 0) := by
  refine ⟨fun calls => ?_, ?_⟩
  · obtain ⟨h1, h2, h3⟩ := add_stringrefs_spec calls
    exact ⟨h2.imp (fun {a b} hab heq => by rw [heq] at hab; exact Nat.lt_irrefl _ hab),
      h1, h2, h3⟩
  · intro ctx self self' func' hstr h
    simp only [assemble_function, bind_eq_ok, pure, Except.pure, Except.ok.injEq,
      Prod.mk.injEq] at h
    obtain ⟨r0, hlay, s2, hemit, hf, hs⟩ := h
    subst hf hs
    obtain ⟨l1, l2, l3, l4, -, -⟩ := layout_instructions_spec _ _ _ _ _ _ _ _ hlay
    obtain ⟨is, sz, lb, s1⟩ := r0
    simp only [] at l1 l2 l3 l4 hemit ⊢
    have hpos : ∀ q : Nat, 2 ∣ q → utils.writer.align_up (q + 2 + 1) 2 = q + 4 := by
      intro q hq
      unfold utils.writer.align_up
      omega
    have hdvd := utils.align_up_dvd (self.script.pos + 1) 2
    generalize ha : utils.writer.align_up (self.script.pos + 1) 2 = a at hdvd
    have hlen : is.length = 3 := by
      have := congrArg List.length l1
      simpa [scenario_S5] using this
    obtain ⟨i1, i2, i3, rfl⟩ := List.length_eq_three.1 hlen
    have l2 := l2
    simp only [scenario_S5, List.map_cons, List.map_nil, List.cons.injEq, Prod.mk.injEq,
      and_true] at l1
    obtain ⟨⟨o1, d1, -⟩, ⟨o2, d2, -⟩, ⟨o3, d3, -⟩⟩ := l1
    have k1 : kind_of i1.opcode = operand_kind.string := by rw [o1]; rfl
    have k2 : kind_of i2.opcode = operand_kind.string := by rw [o2]; rfl
    have k3 : kind_of i3.opcode = operand_kind.string := by rw [o3]; rfl
    simp only [assemble_instructions, bind_eq_ok, Except.ok.injEq] at hemit
    obtain ⟨t1, e1, t2, e2, t3, e3, rfl⟩ := hemit
    obtain ⟨p1, w1, f1, -, -⟩ := assemble_instruction_spec _ _ _ _ _ e1
    obtain ⟨p2, w2, f2, -, -⟩ := assemble_instruction_spec _ _ _ _ _ e2
    obtain ⟨p3, w3, f3, -, -⟩ := assemble_instruction_spec _ _ _ _ _ e3
    simp only [operands_end, operand_writes, k1, k2, k3, utils.writer.set_pos] at p1 p2 p3 w1 w2 w3
    rw [ha] at p1 w1
    rw [p1, hpos a hdvd] at p2 w2
    rw [p2] at p3 w3
    have e4 : a + 4 + 2 = a + 6 := rfl
    rw [hpos (a + 4) (by omega)] at p3 w3
    refine ⟨a, rfl, ?_, by omega, by omega, by omega, ?_, ?_⟩
    · show t3.strings = _
      rw [f3.strings, f2.strings, f1.strings]
      show s1.strings = _
      rw [l3, hstr]
      simp only [fixups_from, string_fixups, k1, k2, k3, operands_end, d1, d2, d3, ha,
        hpos a hdvd, hpos (a + 4) (by omega : 2 ∣ a + 4), List.getD_cons_zero,
        List.singleton_append, List.append_nil]
      rfl
    · show t3.script.writes = _
      rw [w3, w2, w1]
      show s1.script.writes ++ _ ++ _ ++ _ = _
      rw [l4.writes]
      simp
    · obtain ⟨-, r1⟩ := getstring_slot _ _ _ _ _ o1 e1
      obtain ⟨-, r2⟩ := getstring_slot _ _ _ _ _ o2 e2
      obtain ⟨-, r3⟩ := getstring_slot _ _ _ _ _ o3 e3
      have q0 : s1.script.pos = emit_end self.script.pos [i1, i2, i3] := l2
      simp only [utils.writer.set_pos] at r1
      rw [ha] at r1
      rw [p1, hpos a hdvd] at r2
      rw [p2, hpos (a + 4) (by omega)] at r3
      refine ⟨?_, ?_, r3⟩
      · rw [utils.read_of_advances f3.script _ _ (by omega),
          utils.read_of_advances f2.script _ _ (by omega)]
        exact r1
      · rw [utils.read_of_advances f3.script _ _ (by omega)]
        exact r2

/-- The string fixups of a concrete call sequence, and scenario S5 assembled at
cursor 64: one entry `hello` with the refs 66, 70 and 74, the offsets of the
three zero placeholders of the image. -/
theorem arc_string_ref_dedup_witness :
    add_stringrefs [("a", string_type.literal, 1), ("b", string_type.literal, 2),
        ("a", string_type.canonical, 3), ("a", string_type.literal, 4)] [] =
      [⟨"a", string_type.literal, [1, 4]⟩, ⟨"b", string_type.literal, [2]⟩,
        ⟨"a", string_type.canonical, [3]⟩] ∧
    ∃ func' self',
      assemble_function sample_context ((assembler.create sample_context 128).seek 64)
        scenario_S5 = .ok (func', self') ∧
      self'.strings = [⟨"hello", string_type.literal, [66, 70, 74]⟩] ∧
      self'.script.writes = [(64, 1), (66, 2), (68, 1), (70, 2), (72, 1), (74, 2)] ∧
      (self'.script.bytes.drop 64) = [7, 0, 0, 0, 7, 0, 0, 0, 7, 0, 0, 0] := by
  refine ⟨by rfl, ?_⟩
  have hrun : ∃ r, assemble_function sample_context
      ((assembler.create sample_context 128).seek 64) scenario_S5 = .ok r := ⟨_, rfl⟩
  obtain ⟨⟨func', self'⟩, hr⟩ := hrun
  obtain ⟨a, ha, h1, -, -, -, h2, -⟩ :=
    arc_string_ref_dedup.2 sample_context _ self' func' rfl hr
  have e1 : (assemble_function sample_context ((assembler.create sample_context 128).seek 64)
      scenario_S5).toOption.map (fun r => r.2.script.bytes.drop 64) =
      some [7, 0, 0, 0, 7, 0, 0, 0, 7, 0, 0, 0] := by rfl
  have e2 : (assemble_function sample_context ((assembler.create sample_context 128).seek 64)
      scenario_S5).toOption.map (fun r => r.2.script.bytes.drop 64) =
      some (self'.script.bytes.drop 64) := by rw [hr]; rfl
  have ha' : a = 66 := by rw [ha]; rfl
  subst ha'
  exact ⟨func', self', hr, h1, h2, Option.some.inj (e2.symm.trans e1)⟩

end arc

end xsk

namespace xsk

namespace arc

/-! ## The string fixup table -/

/-- What a script write of one, two or four bytes reads back as. -/
theorem assembler_write_read (self self' : assembler) (width v : Nat)
    (h : self.write width v = .ok self') :
    (width = 1 → self'.script.read self.script.pos 1 = v % 256) ∧
    (width = 2 → self'.script.read self.script.pos 2 = v % 65536) ∧
    (width = 4 → self'.script.read self.script.pos 4 = v % 4294967296) := by
  obtain ⟨hw, -⟩ := assembler_write_ok _ _ _ _ h
  refine ⟨?_, ?_, ?_⟩ <;> intro e <;> subst e
  · exact utils.read_write_1 _ _ _ hw
  · exact utils.read_write_2 _ _ _ hw
  · exact utils.read_write_4 _ _ _ hw

theorem resolve_string_congr (a b : assembler) (h : b.strpool = a.strpool) (name : String) :
    resolve_string b name = resolve_string a name := by
  unfold resolve_string
  rw [h]

theorem header_width_cases (ctx : context) :
    (header_width ctx = 4 ∧ handle_width ctx = 2 ∧ has_prop ctx.props props.size64 = false) ∨
    (header_width ctx = 8 ∧ handle_width ctx = 4 ∧ has_prop ctx.props props.size64 = true) := by
  unfold header_width handle_width
  cases has_prop ctx.props props.size64 <;> simp

/-- One run header: the handle of the name, the count byte and the type byte. -/
theorem write_string_header_spec (ctx : context) (entry : string_ref) (count : Nat)
    (self self' : assembler) (h : write_string_header ctx entry count self = .ok self') :
    self'.script.pos = self.script.pos + header_width ctx ∧ emit_frame self self' ∧
    ∃ hd, resolve_string self entry.name = .ok hd ∧
      self'.script.read self.script.pos (handle_width ctx) = hd % 256 ^ handle_width ctx ∧
      self'.script.read (self.script.pos + handle_width ctx) 1 = count % 256 ∧
      self'.script.read (self.script.pos + handle_width ctx + 1) 1 = entry.type.code % 256 := by
  have hf := write_string_header_frame _ _ _ _ _ h
  simp only [write_string_header, bind_eq_ok] at h
  obtain ⟨hd, hres, h⟩ := h
  rcases header_width_cases ctx with ⟨e1, e2, e3⟩ | ⟨e1, e2, e3⟩ <;>
    (rw [e1, e2]
     simp only [e3, Bool.false_eq_true, if_false, if_true, bind_eq_ok, pure, Except.pure,
       Except.ok.injEq] at h
     obtain ⟨s1, h1, s2, h2, s3, h3, rfl⟩ := h
     obtain ⟨p1, -, f1, -, -⟩ := assembler_write_spec _ _ _ _ h1
     obtain ⟨p2, -, f2, -, -⟩ := assembler_write_spec _ _ _ _ h2
     obtain ⟨p3, -, f3, -, -⟩ := assembler_write_spec _ _ _ _ h3
     obtain ⟨-, r12, r14⟩ := assembler_write_read _ _ _ _ h1
     obtain ⟨r21, -, -⟩ := assembler_write_read _ _ _ _ h2
     obtain ⟨r31, -, -⟩ := assembler_write_read _ _ _ _ h3
     have a23 := utils.advances_trans f2.script f3.script
     refine ⟨?_, hf, hd, hres, ?_, ?_, ?_⟩)
  · show s3.script.pos = _
    omega
  · rw [utils.read_of_advances a23 _ _ (by omega)]
    exact r12 rfl
  · rw [utils.read_of_advances f3.script _ _ (by omega), ← p1]
    exact r21 rfl
  · have := r31 rfl
    rw [p2, p1] at this
    exact this
  · show (s3.seek 2).script.pos = _
    show s3.script.pos + 2 = _
    omega
  · show s3.script.read _ _ = _
    rw [utils.read_of_advances a23 _ _ (by omega)]
    exact r14 rfl
  · show s3.script.read _ _ = _
    rw [utils.read_of_advances f3.script _ _ (by omega), ← p1]
    exact r21 rfl
  · show s3.script.read _ _ = _
    have := r31 rfl
    rw [p2, p1] at this
    exact this

/-- A run of refs: each a `u32` at four bytes from the one before. -/
theorem write_refs_spec (l : List Nat) (self self' : assembler)
    (h : write_refs l self = .ok self') :
    self'.script.pos = self.script.pos + 4 * l.length ∧
    ∀ k r, l[k]? = some r → self'.script.read (self.script.pos + 4 * k) 4 = r % 4294967296 := by
  induction l generalizing self with
  | nil =>
    simp only [write_refs, Except.ok.injEq] at h
    subst h
    exact ⟨rfl, fun k r hk => by simp at hk⟩
  | cons e l ih =>
    simp only [write_refs, bind_eq_ok] at h
    obtain ⟨s1, h1, h⟩ := h
    obtain ⟨p1, -, f1, -, -⟩ := assembler_write_spec _ _ _ _ h1
    obtain ⟨-, -, r4⟩ := assembler_write_read _ _ _ _ h1
    obtain ⟨p2, r2⟩ := ih _ h
    have f2 := write_refs_frame _ _ _ h
    refine ⟨by rw [p2, p1, List.length_cons]; omega, ?_⟩
    intro k r hk
    cases k with
    | zero =>
      simp only [List.getElem?_cons_zero, Option.some.injEq] at hk
      subst hk
      rw [utils.read_of_advances f2.script _ _ (by omega)]
      exact r4 rfl
    | succ k =>
      simp only [List.getElem?_cons_succ] at hk
      have := r2 k r hk
      rw [p1] at this
      have e : self.script.pos + 4 * (k + 1) = self.script.pos + 4 + 4 * k := by omega
      rw [e]
      exact this

end arc

end xsk

namespace xsk

namespace arc

/-- The loop over the refs of an entry with more than 255 refs, entered at
loop counter `i` with the cursor after `i` refs and the headers of their
runs: it counts one header per run begun, writes the header of run `j` at
`run_offset` with the count `run_length`, and ref `i + k` at `ref_offset`. -/
theorem write_string_runs_spec (ctx : context) (entry : string_ref) (count : Nat)
    (rest : List Nat) (i n q : Nat) (self : assembler) (r : Nat × assembler)
    (hpos : self.script.pos = q + header_width ctx * ((i + 254) / 255) + 4 * i)
    (hcount : count = i + rest.length)
    (h : write_string_runs ctx entry count rest i n self = .ok r) :
    r.1 + (i + 254) / 255 = n + (count + 254) / 255 ∧
    r.2.script.pos = q + header_width ctx * ((count + 254) / 255) + 4 * count ∧
    (∀ k v, rest[k]? = some v →
      r.2.script.read (ref_offset ctx q (i + k)) 4 = v % 4294967296) ∧
    ∀ j, i ≤ 255 * j → 255 * j < count →
      ∃ hd, resolve_string self entry.name = .ok hd ∧
        r.2.script.read (run_offset ctx q j) (handle_width ctx) = hd % 256 ^ handle_width ctx ∧
        r.2.script.read (run_offset ctx q j + handle_width ctx) 1 = run_length count j ∧
        r.2.script.read (run_offset ctx q j + handle_width ctx + 1) 1 =
          entry.type.code % 256 := by
  induction rest generalizing i n self with
  | nil =>
    simp only [write_string_runs, Except.ok.injEq] at h
    subst h
    simp only [List.length_nil, Nat.add_zero] at hcount
    subst hcount
    exact ⟨rfl, hpos, fun k v hk => by simp at hk, fun j h1 h2 => by omega⟩
  | cons e rest ih =>
    simp only [List.length_cons] at hcount
    simp only [write_string_runs] at h
    unfold ref_offset run_offset run_length
    split at h
    · rename_i hmod
      simp only [bind_eq_ok] at h
      obtain ⟨s1, h1, s2, h2, h⟩ := h
      obtain ⟨p1, f1, hd, hres, rd1, rd2, rd3⟩ := write_string_header_spec _ _ _ _ _ h1
      obtain ⟨p2, -, f2, -, -⟩ := assembler_write_spec _ _ _ _ h2
      obtain ⟨-, -, r4⟩ := assembler_write_read _ _ _ _ h2
      have f3 := write_string_runs_frame _ _ _ _ _ _ _ _ h
      have hw := header_width_cases ctx
      obtain ⟨c1, c2, c3, c4⟩ := ih (i + 1) (n + 1) s2
        (by rcases hw with ⟨e, -, -⟩ | ⟨e, -, -⟩ <;> rw [e] at p1 hpos ⊢ <;> omega)
        (by omega) h
      refine ⟨by omega, c2, ?_, ?_⟩
      · intro k v hk
        cases k with
        | zero =>
          simp only [List.getElem?_cons_zero, Option.some.injEq] at hk
          subst hk
          have hoff : q + header_width ctx * ((i + 0) / 255 + 1) + 4 * (i + 0) = s1.script.pos := by
            rcases hw with ⟨e, -, -⟩ | ⟨e, -, -⟩ <;> rw [e] at p1 hpos ⊢ <;> omega
          rw [hoff, utils.read_of_advances f3.script _ _ (by omega)]
          exact r4 rfl
        | succ k =>
          simp only [List.getElem?_cons_succ] at hk
          have := c3 k v hk
          unfold ref_offset at this
          have e : i + 1 + k = i + (k + 1) := by omega
          rw [e] at this
          exact this
      · intro j hj1 hj2
        by_cases hj : 255 * j = i
        · have hoff : q + j * (header_width ctx + 4 * 255) = self.script.pos := by
            rcases hw with ⟨e, -, -⟩ | ⟨e, -, -⟩ <;> rw [e] at hpos ⊢ <;> omega
          have a13 := utils.advances_trans f2.script f3.script
          have hh := hw
          refine ⟨hd, hres, ?_, ?_, ?_⟩
          · rw [hoff, utils.read_of_advances a13 _ _
              (by rcases hh with ⟨e, e', -⟩ | ⟨e, e', -⟩ <;> rw [e] at p1 <;> rw [e'] <;> omega)]
            exact rd1
          · rw [hoff, utils.read_of_advances a13 _ _
              (by rcases hh with ⟨e, e', -⟩ | ⟨e, e', -⟩ <;> rw [e] at p1 <;> rw [e'] <;> omega)]
            rw [rd2, hj]
            omega
          · rw [hoff, utils.read_of_advances a13 _ _
              (by rcases hh with ⟨e, e', -⟩ | ⟨e, e', -⟩ <;> rw [e] at p1 <;> rw [e'] <;> omega)]
            exact rd3
        · obtain ⟨hd', hres', x1, x2, x3⟩ := c4 j (by omega) hj2
          simp only [run_offset, run_length] at x1 x2 x3
          refine ⟨hd', ?_, x1, x2, x3⟩
          rw [← hres']
          exact (resolve_string_congr _ _ ((f2.strpool).trans f1.strpool) _).symm
    · rename_i hmod
      simp only [bind_eq_ok] at h
      obtain ⟨s2, h2, h⟩ := h
      obtain ⟨p2, -, f2, -, -⟩ := assembler_write_spec _ _ _ _ h2
      obtain ⟨-, -, r4⟩ := assembler_write_read _ _ _ _ h2
      have f3 := write_string_runs_frame _ _ _ _ _ _ _ _ h
      have hw := header_width_cases ctx
      obtain ⟨c1, c2, c3, c4⟩ := ih (i + 1) n s2
        (by rcases hw with ⟨e, -, -⟩ | ⟨e, -, -⟩ <;> rw [e] at hpos ⊢ <;> omega)
        (by omega) h
      refine ⟨by omega, c2, ?_, ?_⟩
      · intro k v hk
        cases k with
        | zero =>
          simp only [List.getElem?_cons_zero, Option.some.injEq] at hk
          subst hk
          have hoff : q + header_width ctx * ((i + 0) / 255 + 1) + 4 * (i + 0) =
              self.script.pos := by
            rcases hw with ⟨e, -, -⟩ | ⟨e, -, -⟩ <;> rw [e] at hpos ⊢ <;> omega
          rw [hoff, utils.read_of_advances f3.script _ _ (by omega)]
          exact r4 rfl
        | succ k =>
          simp only [List.getElem?_cons_succ] at hk
          have := c3 k v hk
          unfold ref_offset at this
          have e : i + 1 + k = i + (k + 1) := by omega
          rw [e] at this
          exact this
      · intro j hj1 hj2
        obtain ⟨hd', hres', x1, x2, x3⟩ := c4 j (by omega) hj2
        simp only [run_offset, run_length] at x1 x2 x3
        refine ⟨hd', ?_, x1, x2, x3⟩
        rw [← hres']
        exact (resolve_string_congr _ _ f2.strpool _).symm

end arc

end xsk

namespace xsk

namespace arc

/-- The record of one entry in the script `w`, begun at cursor `q`: the header
of each of its `run_count` runs holds the handle of its name, the count
`run_length` and its type, and each of its refs stands at `ref_offset`. -/
theorem write_strings_spec (ctx : context) (strings : List string_ref) (n : Nat)
    (self : assembler) (r : Nat × assembler)
    (hne : ∀ e, e ∈ strings → e.refs ≠ [])
    (h : write_strings ctx strings n self = .ok r) :
    r.1 = n + table_headers strings ∧
    r.2.script.pos = table_end ctx self.script.pos strings ∧
    ∀ (pre : List string_ref) (e : string_ref) (post : List string_ref),
      strings = pre ++ e :: post →
      table_end ctx self.script.pos pre + header_width ctx ≤ r.2.script.pos ∧
      (∀ j, j < run_count e.refs.length →
        ∃ hd, resolve_string self e.name = .ok hd ∧
          r.2.script.read (run_offset ctx (table_end ctx self.script.pos pre) j)
            (handle_width ctx) = hd % 256 ^ handle_width ctx ∧
          r.2.script.read
            (run_offset ctx (table_end ctx self.script.pos pre) j + handle_width ctx) 1 =
            run_length e.refs.length j ∧
          r.2.script.read
            (run_offset ctx (table_end ctx self.script.pos pre) j + handle_width ctx + 1) 1 =
            e.type.code % 256) ∧
      ∀ i v, e.refs[i]? = some v →
        r.2.script.read (ref_offset ctx (table_end ctx self.script.pos pre) i) 4 =
          v % 4294967296 := by
  induction strings generalizing n self with
  | nil =>
    simp only [write_strings, Except.ok.injEq] at h
    subst h
    exact ⟨by simp [table_headers], rfl, fun pre e post hs => by simp at hs⟩
  | cons e0 rest ih =>
    have hlen : 1 ≤ e0.refs.length := by
      have := hne e0 (List.mem_cons_self _ _)
      cases hr : e0.refs with
      | nil => exact absurd hr this
      | cons a b => simp
    have hne' : ∀ e, e ∈ rest → e.refs ≠ [] := fun e he => hne e (List.mem_cons_of_mem _ he)
    have hw := header_width_cases ctx
    -- the record of the first entry, then the rest of the table
    have key : ∀ (s1 : assembler) (n1 : Nat),
        n1 = n + run_count e0.refs.length →
        s1.script.pos = entry_end ctx self.script.pos e0.refs.length →
        emit_frame self s1 →
        (∀ j, j < run_count e0.refs.length →
          ∃ hd, resolve_string self e0.name = .ok hd ∧
            s1.script.read (run_offset ctx self.script.pos j) (handle_width ctx) =
              hd % 256 ^ handle_width ctx ∧
            s1.script.read (run_offset ctx self.script.pos j + handle_width ctx) 1 =
              run_length e0.refs.length j ∧
            s1.script.read (run_offset ctx self.script.pos j + handle_width ctx + 1) 1 =
              e0.type.code % 256) →
        (∀ i v, e0.refs[i]? = some v →
          s1.script.read (ref_offset ctx self.script.pos i) 4 = v % 4294967296) →
        write_strings ctx rest n1 s1 = .ok r →
        r.1 = n + table_headers (e0 :: rest) ∧
        r.2.script.pos = table_end ctx self.script.pos (e0 :: rest) ∧
        ∀ (pre : List string_ref) (e : string_ref) (post : List string_ref),
          e0 :: rest = pre ++ e :: post →
          table_end ctx self.script.pos pre + header_width ctx ≤ r.2.script.pos ∧
          (∀ j, j < run_count e.refs.length →
            ∃ hd, resolve_string self e.name = .ok hd ∧
              r.2.script.read (run_offset ctx (table_end ctx self.script.pos pre) j)
                (handle_width ctx) = hd % 256 ^ handle_width ctx ∧
              r.2.script.read
                (run_offset ctx (table_end ctx self.script.pos pre) j + handle_width ctx) 1 =
                run_length e.refs.length j ∧
              r.2.script.read
                (run_offset ctx (table_end ctx self.script.pos pre) j + handle_width ctx + 1)
                1 = e.type.code % 256) ∧
          ∀ i v, e.refs[i]? = some v →
            r.2.script.read (ref_offset ctx (table_end ctx self.script.pos pre) i) 4 =
              v % 4294967296 := by
      intro s1 n1 hn1 hp1 f1 hhead hrefs hrest
      obtain ⟨c1, c2, c3⟩ := ih n1 s1 hne' hrest
      have f2 := write_strings_frame _ _ _ _ _ hrest
      have hend : entry_end ctx self.script.pos e0.refs.length =
          self.script.pos + header_width ctx * run_count e0.refs.length +
            4 * e0.refs.length := rfl
      refine ⟨?_, ?_, ?_⟩
      · rw [c1, hn1]
        simp only [table_headers, List.map_cons, List.sum_cons]
        omega
      · rw [c2, hp1]
        rfl
      · intro pre e post hs
        cases pre with
        | nil =>
          simp only [List.nil_append, List.cons.injEq] at hs
          obtain ⟨rfl, rfl⟩ := hs
          simp only [table_end]
          have hle := f2.script.le
          have hrc : 1 ≤ run_count e0.refs.length := by unfold run_count; omega
          refine ⟨?_, ?_, ?_⟩
          · rw [hend] at hp1
            rcases hw with ⟨e, -, -⟩ | ⟨e, -, -⟩ <;> rw [e] at hp1 ⊢ <;> omega
          · intro j hj
            obtain ⟨hd, x0, x1, x2, x3⟩ := hhead j hj
            have hb : run_offset ctx self.script.pos j + handle_width ctx + 1 + 1 ≤
                s1.script.pos := by
              rw [hp1, hend]
              unfold run_offset
              unfold run_count at hj ⊢
              rcases hw with ⟨e, e', -⟩ | ⟨e, e', -⟩ <;> rw [e, e'] <;> omega
            refine ⟨hd, x0, ?_, ?_, ?_⟩
            · rw [utils.read_of_advances f2.script _ _ (by omega)]
              exact x1
            · rw [utils.read_of_advances f2.script _ _ (by omega)]
              exact x2
            · rw [utils.read_of_advances f2.script _ _ (by omega)]
              exact x3
          · intro i v hi
            have hil : i < e0.refs.length := by
              rcases Nat.lt_or_ge i e0.refs.length with h | h
              · exact h
              · rw [List.getElem?_eq_none h] at hi
                cases hi
            have hb : ref_offset ctx self.script.pos i + 4 ≤ s1.script.pos := by
              rw [hp1, hend]
              unfold ref_offset run_count
              rcases hw with ⟨e, -, -⟩ | ⟨e, -, -⟩ <;> rw [e] <;> omega
            rw [utils.read_of_advances f2.script _ _ hb]
            exact hrefs i v hi
        | cons p0 pre =>
          simp only [List.cons_append, List.cons.injEq] at hs
          obtain ⟨rfl, hs⟩ := hs
          obtain ⟨d0, d1, d2⟩ := c3 pre e post hs
          simp only [table_end]
          rw [← hp1]
          refine ⟨d0, ?_, d2⟩
          intro j hj
          obtain ⟨hd, x0, x⟩ := d1 j hj
          refine ⟨hd, ?_, x⟩
          rw [← x0]
          exact (resolve_string_congr _ _ f1.strpool _).symm
    simp only [write_strings] at h
    split at h
    · rename_i hbig
      simp only [bind_eq_ok] at h
      obtain ⟨r1, h1, h⟩ := h
      obtain ⟨b1, b2, b3, b4⟩ := write_string_runs_spec ctx e0 e0.refs.length e0.refs 0 n
        self.script.pos self r1 (by simp) (by simp) h1
      have f1 := write_string_runs_frame _ _ _ _ _ _ _ _ h1
      refine key r1.2 r1.1 ?_ ?_ f1 ?_ ?_ h
      · unfold run_count
        omega
      · rw [b2]
        rfl
      · intro j hj
        exact b4 j (by omega) (by unfold run_count at hj; omega)
      · intro i v hi
        have := b3 i v hi
        rw [Nat.zero_add] at this
        exact this
    · rename_i hsmall
      simp only [bind_eq_ok] at h
      obtain ⟨s1, h1, s2, h2, h⟩ := h
      obtain ⟨p1, f1, hd, hres, rd1, rd2, rd3⟩ := write_string_header_spec _ _ _ _ _ h1
      obtain ⟨p2, r2⟩ := write_refs_spec _ _ _ h2
      have f2 := write_refs_frame _ _ _ h2
      have hrc : run_count e0.refs.length = 1 := by unfold run_count; omega
      refine key s2 (n + 1) (by rw [hrc]) ?_ (emit_frame_trans f1 f2) ?_ ?_ h
      · rw [p2, p1]
        unfold entry_end
        rw [hrc]
        omega
      · intro j hj
        have hj0 : j = 0 := by omega
        subst hj0
        have hoff : run_offset ctx self.script.pos 0 = self.script.pos := by
          unfold run_offset
          omega
        rw [hoff]
        refine ⟨hd, hres, ?_, ?_, ?_⟩
        · rw [utils.read_of_advances f2.script _ _
            (by rw [p1]; rcases hw with ⟨e, e', -⟩ | ⟨e, e', -⟩ <;> omega)]
          exact rd1
        · rw [utils.read_of_advances f2.script _ _
            (by rw [p1]; rcases hw with ⟨e, e', -⟩ | ⟨e, e', -⟩ <;> omega)]
          rw [rd2]
          unfold run_length
          omega
        · rw [utils.read_of_advances f2.script _ _
            (by rw [p1]; rcases hw with ⟨e, e', -⟩ | ⟨e, e', -⟩ <;> omega)]
          exact rd3
      · intro i v hi
        have hil : i < e0.refs.length := by
          rcases Nat.lt_or_ge i e0.refs.length with h | h
          · exact h
          · rw [List.getElem?_eq_none h] at hi
            cases hi
        have := r2 i v hi
        rw [p1] at this
        have hoff : ref_offset ctx self.script.pos i = self.script.pos + header_width ctx + 4 * i := by
          unfold ref_offset
          have : i / 255 = 0 := by omega
          rw [this]
          omega
        rw [hoff]
        exact this

/-- Per run: at most 255 refs, and the runs of an entry hold all its refs. -/
theorem run_length_sum (n : Nat) :
    (∀ j, run_length n j ≤ 255) ∧
    ((List.range (run_count n)).map (run_length n)).sum = n := by
  refine ⟨fun j => by unfold run_length; omega, ?_⟩
  have key : ∀ k, ((List.range k).map (run_length n)).sum = min n (255 * k) := by
    intro k
    induction k with
    | zero => simp
    | succ k ih =>
      rw [List.range_succ, List.map_append, List.sum_append, ih]
      simp only [List.map_cons, List.map_nil, List.sum_cons, List.sum_nil, run_length]
      omega
  rw [key]
  unfold run_count
  omega

end arc

end xsk

namespace xsk

namespace arc

/-! ## The header block -/

theorem bind_ok_self {ε α : Type} (x : Except ε α) : (x >>= fun a => Except.ok a) = x := by
  cases x <;> rfl

theorem write_header_eq (ctx : context) (head : header) (self : assembler) :
    write_header ctx head self = write_fields (header_fields ctx head) self := by
  unfold write_header header_fields
  cases has_prop ctx.props props.devstr <;> cases has_prop ctx.props props.size64 <;>
    simp [write_fields, bind_ok_self]

/-- A run of integer writes: field `k` stands at the sum of the widths of the
fields before it from the cursor and reads back as its value. -/
theorem write_fields_spec (l : List (Nat × Nat)) (self self' : assembler)
    (h : write_fields l self = .ok self') :
    self'.script.pos = self.script.pos + (l.map Prod.fst).sum ∧ emit_frame self self' ∧
    self'.devmap = self.devmap ∧ self'.devmap_count = self.devmap_count ∧
    ∀ (k : Nat) (f : Nat × Nat), l[k]? = some f →
      (f.1 = 1 → self'.script.read (self.script.pos + ((l.take k).map Prod.fst).sum) 1 =
        f.2 % 256) ∧
      (f.1 = 2 → self'.script.read (self.script.pos + ((l.take k).map Prod.fst).sum) 2 =
        f.2 % 65536) ∧
      (f.1 = 4 → self'.script.read (self.script.pos + ((l.take k).map Prod.fst).sum) 4 =
        f.2 % 4294967296) := by
  induction l generalizing self with
  | nil =>
    simp only [write_fields, Except.ok.injEq] at h
    subst h
    exact ⟨by simp, emit_frame_refl _, rfl, rfl, fun k f hs => by simp at hs⟩
  | cons f0 rest ih =>
    simp only [write_fields, bind_eq_ok] at h
    obtain ⟨s1, h1, h⟩ := h
    obtain ⟨p1, -, f1, d1, d2⟩ := assembler_write_spec _ _ _ _ h1
    obtain ⟨r1, r2, r4⟩ := assembler_write_read _ _ _ _ h1
    obtain ⟨p2, f2, e1, e2, c⟩ := ih _ h
    refine ⟨?_, emit_frame_trans f1 f2, e1.trans d1, e2.trans d2, ?_⟩
    · rw [p2, p1, List.map_cons, List.sum_cons]
      omega
    · intro k f hs
      cases k with
      | zero =>
        simp only [List.getElem?_cons_zero, Option.some.injEq] at hs
        subst hs
        simp only [List.take_zero, List.map_nil, List.sum_nil, Nat.add_zero]
        refine ⟨fun e => ?_, fun e => ?_, fun e => ?_⟩
        · rw [utils.read_of_advances f2.script _ _ (by omega)]
          exact r1 e
        · rw [utils.read_of_advances f2.script _ _ (by omega)]
          exact r2 e
        · rw [utils.read_of_advances f2.script _ _ (by omega)]
          exact r4 e
      | succ k =>
        simp only [List.getElem?_cons_succ] at hs
        have := c k f hs
        rw [p1] at this
        simp only [List.take_succ_cons, List.map_cons, List.sum_cons]
        rw [← Nat.add_assoc]
        exact this

theorem header_fields_sum (ctx : context) (head : header) :
    ((header_fields ctx head).map Prod.fst).sum = header_size ctx := by
  unfold header_fields header_size
  cases has_prop ctx.props props.devstr <;> cases has_prop ctx.props props.size64 <;> simp

/-- The header block written at the cursor: its size, and where its offset
fields, `cseg_size` and `stringtablefixup_count` stand. -/
theorem write_header_spec (ctx : context) (head : header) (self self' : assembler)
    (h : write_header ctx head self = .ok self') :
    self'.script.pos = self.script.pos + header_size ctx ∧ emit_frame self self' ∧
    self'.devmap = self.devmap ∧ self'.devmap_count = self.devmap_count ∧
    self'.script.read (self.script.pos + 12) 4 = head.include_offset % 4294967296 ∧
    self'.script.read (self.script.pos + 16) 4 = head.animtree_offset % 4294967296 ∧
    self'.script.read (self.script.pos + 20) 4 = head.cseg_offset % 4294967296 ∧
    self'.script.read (self.script.pos + 24) 4 = head.stringtablefixup_offset % 4294967296 ∧
    self'.script.read (self.script.pos + (28 + devstr_shift ctx)) 4 =
      head.exports_offset % 4294967296 ∧
    self'.script.read (self.script.pos + (32 + devstr_shift ctx)) 4 =
      head.imports_offset % 4294967296 ∧
    self'.script.read (self.script.pos + (44 + devstr_shift ctx)) 4 =
      head.cseg_size % 4294967296 ∧
    self'.script.read (self.script.pos + (48 + devstr_shift ctx + handle_width ctx)) 2 =
      head.stringtablefixup_count % 65536 ∧
    self'.script.read (self.script.pos + (header_size ctx - 1)) 1 = head.flags % 256 := by
  rw [write_header_eq] at h
  obtain ⟨p, f, d1, d2, c⟩ := write_fields_spec _ _ _ h
  rw [header_fields_sum] at p
  refine ⟨p, f, d1, d2, ?_⟩
  unfold header_fields at c
  unfold devstr_shift handle_width header_size
  cases hd : has_prop ctx.props props.devstr <;> cases hs : has_prop ctx.props props.size64 <;>
    simp only [hd, hs, Bool.false_eq_true, if_false, if_true, List.append_nil,
      List.cons_append, List.nil_append, Nat.add_zero] at c ⊢
  · exact ⟨by simpa using (c 2 _ rfl).2.2 rfl, by simpa using (c 3 _ rfl).2.2 rfl,
      by simpa using (c 4 _ rfl).2.2 rfl, by simpa using (c 5 _ rfl).2.2 rfl,
      by simpa using (c 6 _ rfl).2.2 rfl, by simpa using (c 7 _ rfl).2.2 rfl,
      by simpa using (c 10 _ rfl).2.2 rfl, by simpa using (c 12 _ rfl).2.1 rfl,
      by simpa using (c 19 _ rfl).1 rfl⟩
  · exact ⟨by simpa using (c 2 _ rfl).2.2 rfl, by simpa using (c 3 _ rfl).2.2 rfl,
      by simpa using (c 4 _ rfl).2.2 rfl, by simpa using (c 5 _ rfl).2.2 rfl,
      by simpa using (c 6 _ rfl).2.2 rfl, by simpa using (c 7 _ rfl).2.2 rfl,
      by simpa using (c 10 _ rfl).2.2 rfl, by simpa using (c 12 _ rfl).2.1 rfl,
      by simpa using (c 19 _ rfl).1 rfl⟩
  · exact ⟨by simpa using (c 2 _ rfl).2.2 rfl, by simpa using (c 3 _ rfl).2.2 rfl,
      by simpa using (c 4 _ rfl).2.2 rfl, by simpa using (c 5 _ rfl).2.2 rfl,
      by simpa using (c 7 _ rfl).2.2 rfl, by simpa using (c 8 _ rfl).2.2 rfl,
      by simpa using (c 11 _ rfl).2.2 rfl, by simpa using (c 13 _ rfl).2.1 rfl,
      by simpa using (c 21 _ rfl).1 rfl⟩
  · exact ⟨by simpa using (c 2 _ rfl).2.2 rfl, by simpa using (c 3 _ rfl).2.2 rfl,
      by simpa using (c 4 _ rfl).2.2 rfl, by simpa using (c 5 _ rfl).2.2 rfl,
      by simpa using (c 7 _ rfl).2.2 rfl, by simpa using (c 8 _ rfl).2.2 rfl,
      by simpa using (c 11 _ rfl).2.2 rfl, by simpa using (c 13 _ rfl).2.1 rfl,
      by simpa using (c 21 _ rfl).1 rfl⟩

end arc

end xsk

namespace xsk

namespace arc

/-! ## Invariants of the pooling pass -/

/-- What holds before a run of `process_strings` and is kept by `process_string`
holds after it. -/
theorem process_strings_induct (P : assembler → Prop)
    (hP : ∀ s s' d, P s → process_string s d = .ok s' → P s')
    (l : List String) (self self' : assembler) (h0 : P self)
    (h : process_strings l self = .ok self') : P self' := by
  induction l generalizing self with
  | nil =>
    simp only [process_strings, Except.ok.injEq] at h
    subst h
    exact h0
  | cons e l ih =>
    simp only [process_strings, bind_eq_ok] at h
    obtain ⟨s1, h1, h⟩ := h
    exact ih _ (hP _ _ _ h0 h1) h

theorem process_switch_cases_induct (P : assembler → Prop)
    (hP : ∀ s s' d, P s → process_string s d = .ok s' → P s')
    (data : List String) (n i : Nat) (self self' : assembler) (h0 : P self)
    (h : process_switch_cases data n i self = .ok self') : P self' := by
  induction n generalizing i self with
  | zero =>
    simp only [process_switch_cases, Except.ok.injEq] at h
    subst h
    exact h0
  | succ n ih =>
    simp only [process_switch_cases, bind_eq_ok] at h
    obtain ⟨head, -, h⟩ := h
    split at h
    · simp only [bind_eq_ok] at h
      obtain ⟨t, -, type, -, h⟩ := h
      split at h
      · simp only [bind_eq_ok] at h
        obtain ⟨name, -, s1, h1, h⟩ := h
        exact ih _ _ (hP _ _ _ h0 h1) h
      · exact ih _ _ h0 h
    · exact ih _ _ h0 h

theorem process_instruction_induct (P : assembler → Prop)
    (hP : ∀ s s' d, P s → process_string s d = .ok s' → P s')
    (self self' : assembler) (inst : instruction) (h0 : P self)
    (h : process_instruction self inst = .ok self') : P self' := by
  unfold process_instruction at h
  split at h <;> first
    | (cases h; exact h0)
    | exact process_strings_induct P hP _ _ _ h0 h
    | (simp only [bind_eq_ok] at h
       obtain ⟨d0, -, h⟩ := h
       exact hP _ _ _ h0 h)
    | (simp only [bind_eq_ok] at h
       obtain ⟨d0, -, s1, h1, d1, -, h⟩ := h
       exact hP _ _ _ (hP _ _ _ h0 h1) h)
    | (simp only [bind_eq_ok] at h
       obtain ⟨d0, -, count, -, h⟩ := h
       exact process_switch_cases_induct P hP _ _ _ _ _ h0 h)
    | (split at h
       · simp only [bind_eq_ok] at h
         obtain ⟨d0, -, h⟩ := h
         exact hP _ _ _ h0 h
       · cases h
         exact h0)

theorem process_instructions_induct (P : assembler → Prop)
    (hP : ∀ s s' d, P s → process_string s d = .ok s' → P s')
    (l : List instruction) (self self' : assembler) (h0 : P self)
    (h : process_instructions l self = .ok self') : P self' := by
  induction l generalizing self with
  | nil =>
    simp only [process_instructions, Except.ok.injEq] at h
    subst h
    exact h0
  | cons e l ih =>
    simp only [process_instructions, bind_eq_ok] at h
    obtain ⟨s1, h1, h⟩ := h
    exact ih _ (process_instruction_induct P hP _ _ _ h0 h1) h

theorem process_functions_induct (P : assembler → Prop)
    (hP : ∀ s s' d, P s → process_string s d = .ok s' → P s')
    (l : List function) (self self' : assembler) (h0 : P self)
    (h : process_functions l self = .ok self') : P self' := by
  induction l generalizing self with
  | nil =>
    simp only [process_functions, Except.ok.injEq] at h
    subst h
    exact h0
  | cons e l ih =>
    simp only [process_functions, process_function, bind_eq_ok] at h
    obtain ⟨s1, ⟨s0, hs0, h1⟩, h⟩ := h
    exact ih _ (process_instructions_induct P hP _ _ _ (hP _ _ _ h0 hs0) h1) h

/-- The pooling pass of `assemble`: what `process_string` keeps holds after it. -/
theorem pooling_induct (P : assembler → Prop)
    (hP : ∀ s s' d, P s → process_string s d = .ok s' → P s')
    (data : assembly) (name : String) (a1 a2 a3 a4 : assembler) (h0 : P a1)
    (h2 : process_string a1 name = .ok a2) (h3 : process_functions data.functions a2 = .ok a3)
    (h4 : process_strings data.includes a3 = .ok a4) : P a4 :=
  process_strings_induct P hP _ _ _
    (process_functions_induct P hP _ _ _ (hP _ _ _ h0 h2) h3) h4

/-- Pooling a string changes the script and the pool only. -/
theorem process_string_keeps (b s s' : assembler) (d : String)
    (h0 : s.exports = b.exports ∧ s.imports = b.imports ∧ s.anims = b.anims ∧
      s.devmap = b.devmap ∧ s.devmap_count = b.devmap_count)
    (h : process_string s d = .ok s') :
    s'.exports = b.exports ∧ s'.imports = b.imports ∧ s'.anims = b.anims ∧
      s'.devmap = b.devmap ∧ s'.devmap_count = b.devmap_count := by
  unfold process_string at h
  split at h
  · cases h
    exact h0
  · simp only [bind_eq_ok, pure, Except.pure, Except.ok.injEq] at h
    obtain ⟨w, hw, rfl⟩ := h
    exact h0

end arc

end xsk

namespace xsk

namespace arc

/-! ## The stages of `assemble` -/

theorem add_stringref_ne_nil (n : String) (t : string_type) (r : Nat) (l : List string_ref)
    (h : ∀ e, e ∈ l → e.refs ≠ []) : ∀ e, e ∈ add_stringref n t r l → e.refs ≠ [] := by
  induction l with
  | nil =>
    intro e he
    simp only [add_stringref, List.mem_singleton] at he
    subst he
    simp
  | cons e0 l ih =>
    intro e he
    simp only [add_stringref] at he
    split at he
    · simp only [List.mem_cons] at he
      rcases he with rfl | he
      · simp
      · exact h e (List.mem_cons_of_mem _ he)
    · simp only [List.mem_cons] at he
      rcases he with rfl | he
      · exact h _ (List.mem_cons_self _ _)
      · exact ih (fun x hx => h x (List.mem_cons_of_mem _ hx)) e he

theorem add_stringrefs_ne_nil (calls : List (String × string_type × Nat)) (l : List string_ref)
    (h : ∀ e, e ∈ l → e.refs ≠ []) : ∀ e, e ∈ add_stringrefs calls l → e.refs ≠ [] := by
  induction calls generalizing l with
  | nil => exact h
  | cons c calls ih =>
    simp only [add_stringrefs, List.foldl_cons]
    exact ih _ (add_stringref_ne_nil _ _ _ _ h)

/-- The string fixups recorded by `assemble_function` and what it leaves of
the script. -/
theorem assemble_function_strings (ctx : context) (self self' : assembler)
    (func func' : function) (h : assemble_function ctx self func = .ok (func', self')) :
    self'.strings = add_stringrefs (fixups_from self.script.pos func'.instructions)
      self.strings ∧
    self'.strpool = self.strpool ∧
    self'.exports = self.exports ++
      [{ checksum := 0, offset := self.script.pos % 4294967296, name := func.name,
         space := "", params := func.params, flags := func.flags }] ∧
    func'.index = self.script.pos ∧ func'.name = func.name := by
  simp only [assemble_function, bind_eq_ok, pure, Except.pure, Except.ok.injEq,
    Prod.mk.injEq] at h
  obtain ⟨r0, hlay, s2, hemit, hf, hs⟩ := h
  subst hf hs
  obtain ⟨-, -, l3, l4, -, -⟩ := layout_instructions_spec _ _ _ _ _ _ _ _ hlay
  obtain ⟨-, f2⟩ := assemble_instructions_spec _ _ _ _ _ hemit
  refine ⟨?_, ?_, ?_, rfl, rfl⟩
  · show s2.strings = _
    rw [f2.strings]
    exact l3
  · show s2.strpool = _
    rw [f2.strpool]
    exact l4.strpool
  · show s2.exports ++ _ = _
    rw [f2.exports]
    show r0.2.2.2.exports ++ _ = _
    rw [l4.exports]

/-- The code segment: the string fixups recorded, the pool kept, one export
per function. -/
theorem assemble_functions_strings (ctx : context) (fs : List function) (self : assembler)
    (res : List function × assembler) (h : assemble_functions ctx fs self = .ok res) :
    res.2.strings = add_stringrefs (fixups_of res.1) self.strings ∧
    res.2.strpool = self.strpool ∧ self.script.advances res.2.script ∧
    res.2.exports.length = self.exports.length + fs.length ∧
    res.1.length = fs.length := by
  induction fs generalizing self res with
  | nil =>
    simp only [assemble_functions, Except.ok.injEq] at h
    subst h
    exact ⟨rfl, rfl, utils.advances_refl _, rfl, rfl⟩
  | cons func rest ih =>
    simp only [assemble_functions, bind_eq_ok, pure, Except.pure, Except.ok.injEq] at h
    obtain ⟨r, hr, t, ht, rfl⟩ := h
    obtain ⟨f', s'⟩ := r
    obtain ⟨a1, a2, a3, a4, -⟩ := assemble_function_strings _ _ _ _ _ hr
    obtain ⟨-, adv⟩ := assemble_function_frame _ _ _ _ _ hr
    obtain ⟨b1, b2, b3, b4, b5⟩ := ih _ _ ht
    have hn : 0 < (if has_prop ctx.props props.size64 = true then 8 else 4) := by
      split <;> omega
    have adv0 : self.script.advances
        ((self.align (if has_prop ctx.props props.size64 = true then 8 else 4)).2.seek
          (if has_prop ctx.props props.size64 = true then 8 else 4)).script :=
      utils.advances_trans (utils.advances_align _ _ hn) (utils.advances_seek _ _)
    refine ⟨?_, ?_, utils.advances_trans adv0 (utils.advances_trans adv b3), ?_, ?_⟩
    · show t.2.strings = _
      rw [b1, a1]
      simp only [fixups_of, add_stringrefs_append]
      rw [a4]
      rfl
    · show t.2.strpool = _
      rw [b2, a2]
      rfl
    · show t.2.exports.length = _
      rw [b4, a3]
      simp only [List.length_append, List.length_cons, List.length_nil]
      show self.exports.length + _ + _ = _
      omega
    · show (f' :: t.1).length = _
      simp only [List.length_cons, b5]

/-- The stages of a run of `assemble`: the script only advances from one
stage to the next, the pool and the string fixups are those of the pooling
pass and the code segment, and the string fixup table is emitted last. -/
theorem stages_spec (ctx : context) (self : assembler) (data : assembly) (name : String)
    (st : assemble_stages) (h : stages ctx self data name = .ok st) :
    (if has_prop ctx.props props.headerxx then 0
      else if has_prop ctx.props props.header72 then 72 else 64) ≤ st.pooled.script.pos ∧
    st.pooled.script.advances st.included.script ∧
    st.included.script.advances st.coded.script ∧
    st.coded.script.advances st.exported.script ∧
    st.exported.script.advances st.imported.script ∧
    st.imported.script.advances st.animated.script ∧
    st.animated.script.advances st.fixed.script ∧
    st.pooled.script.size = self.script.size ∧ st.pooled.script.swap = self.script.swap ∧
    write_includes data.includes st.pooled = .ok st.included ∧
    (∃ fs, assemble_functions ctx data.functions st.included = .ok (fs, st.coded)) ∧
    write_exports ctx st.coded.exports st.coded = .ok st.exported ∧
    write_imports ctx st.exported.imports st.exported = .ok st.imported ∧
    write_animtrees ctx st.imported.anims st.imported = .ok st.animated ∧
    write_strings ctx st.animated.strings 0 st.animated = .ok (st.stringtablecount, st.fixed) ∧
    (∀ e, e ∈ st.animated.strings → e.refs ≠ []) ∧
    st.fixed.strings = st.animated.strings ∧ st.fixed.strpool = st.pooled.strpool ∧
    st.coded.exports.length = data.functions.length := by
  simp only [stages, bind_eq_ok, pure, Except.pure, Except.ok.injEq] at h
  obtain ⟨a2, h2, a3, h3, a4, h4, a5, h5, r, hr, a7, h7, a8, h8, a9, h9, t, ht, rfl⟩ := h
  obtain ⟨b2, e2⟩ := process_string_frame _ _ _ h2
  obtain ⟨b3, e3⟩ := process_functions_frame _ _ _ h3
  obtain ⟨b4, e4⟩ := process_strings_frame _ _ _ h4
  have f5 := write_includes_frame _ _ _ h5
  obtain ⟨c1, c2, c3, c4, -⟩ := assemble_functions_strings _ _ _ _ hr
  have f7 := write_exports_frame _ _ _ _ h7
  have f8 := write_imports_frame _ _ _ _ h8
  have f9 := write_animtrees_frame _ _ _ _ h9
  have f10 := write_strings_frame _ _ _ _ _ ht
  have s5 : a5.strings = [] := by
    rw [f5.strings, e4, e3, e2]
    rfl
  have x5 : a5.exports = [] := by
    rw [f5.exports]
    exact (pooling_induct
      (fun s => s.exports = [] ∧ s.imports = [] ∧ s.anims = [] ∧
        s.devmap = (self.reset.devmap.set_pos 4) ∧ s.devmap_count = 0)
      (fun s s' d hs hd => process_string_keeps
        { self.reset with devmap := self.reset.devmap.set_pos 4 } s s' d hs hd)
      data name _ a2 a3 a4 ⟨rfl, rfl, rfl, rfl, rfl⟩ h2 h3 h4).1
  refine ⟨?_, f5.script, c3, f7.script, f8.script, f9.script, f10.script, ?_, ?_, h5,
    ⟨r.1, hr⟩, h7, h8, h9, ht, ?_, f10.strings, ?_, ?_⟩
  · have := b2.le
    have := b3.le
    have := b4.le
    show _ ≤ a4.script.pos
    exact Nat.le_trans (Nat.le_trans b2.le b3.le) b4.le
  · show a4.script.size = _
    rw [b4.size, b3.size, b2.size]
    rfl
  · show a4.script.swap = _
    rw [b4.swap, b3.swap, b2.swap]
    rfl
  · intro e he
    have he' : e ∈ a9.strings := he
    rw [f9.strings, f8.strings, f7.strings, c1, s5] at he'
    exact add_stringrefs_ne_nil _ _ (fun x hx => absurd hx (List.not_mem_nil _)) e he'
  · show t.2.strpool = a4.strpool
    rw [f10.strpool, f9.strpool, f8.strpool, f7.strpool, c2, f5.strpool]
  · show r.2.exports.length = _
    rw [c4, x5]
    simp

end arc

end xsk

namespace xsk

namespace arc

/-- A run of `assemble` seen through its stages: the fields of the header are
the cursors of the stages, the header block is written last at offset 0, and
the image is the script up to the cursor after the string fixup table. -/
theorem assemble_stages_eq (ctx : context) (self : assembler) (data : assembly) (name : String)
    (res : assemble_result) (h : assemble ctx self data name = .ok res) :
    ∃ st, stages ctx self data name = .ok st ∧
      res.head.include_offset = st.pooled.script.pos % 4294967296 ∧
      res.head.cseg_offset = st.included.script.pos % 4294967296 ∧
      res.head.exports_offset = st.coded.script.pos % 4294967296 ∧
      res.head.imports_offset = st.exported.script.pos % 4294967296 ∧
      res.head.animtree_offset = st.imported.script.pos % 4294967296 ∧
      res.head.stringtablefixup_offset =
        (if has_prop ctx.props props.devstr then st.fixed.script.pos % 4294967296
          else st.animated.script.pos % 4294967296) ∧
      res.head.stringtablefixup_count =
        (if has_prop ctx.props props.devstr then 0 else st.stringtablecount % 65536) ∧
      res.head.cseg_size =
        usize_sub st.coded.script.pos (st.included.script.pos % 4294967296) % 4294967296 ∧
      res.head.flags = 0 ∧
      resolve_string st.fixed name = .ok res.head.name ∧
      (∃ a11, write_header ctx res.head { st.fixed with script := st.fixed.script.set_pos 0 } =
          .ok a11 ∧
        res.self.script = a11.script.set_pos st.fixed.script.pos) ∧
      res.script = res.self.script.bytes ∧
      res.self.strings = st.fixed.strings ∧ res.self.strpool = st.fixed.strpool ∧
      res.self.exports = st.coded.exports ∧
      assemble_functions ctx data.functions st.included = .ok (res.data.functions, st.coded) := by
  simp only [assemble, bind_eq_ok, pure, Except.pure, Except.ok.injEq] at h
  obtain ⟨a2, h2, a3, h3, a4, h4, a5, h5, r, hr, a7, h7, a8, h8, a9, h9, t, ht, hname, hn,
    a11, h11, a13, h13, rfl⟩ := h
  have f7 := write_exports_frame _ _ _ _ h7
  have f8 := write_imports_frame _ _ _ _ h8
  have f9 := write_animtrees_frame _ _ _ _ h9
  have f10 := write_strings_frame _ _ _ _ _ ht
  have f610 := emit_frame_trans f7 (emit_frame_trans f8 (emit_frame_trans f9 f10))
  obtain ⟨f11, -⟩ := write_header_frame _ _ _ _ h11
  obtain ⟨-, e13⟩ := write_devmap_ok _ _ _ _ h13
  refine ⟨⟨a4, a5, r.2, a7, a8, a9, t.2, t.1⟩, ?_, rfl, rfl, rfl, rfl, rfl, ?_,
    ?_, rfl, rfl, hn, ⟨a11, h11, ?_⟩, rfl, ?_, ?_, ?_, hr⟩
  · simp only [stages, bind_eq_ok, pure, Except.pure, Except.ok.injEq]
    exact ⟨a2, h2, a3, h3, a4, h4, a5, h5, r, hr, a7, h7, a8, h8, a9, h9, t, ht, rfl⟩
  · show (if has_prop ctx.props props.devstr = true then _ else _) = _
    rfl
  · show (if has_prop ctx.props props.devstr = true then _ else _) = _
    rfl
  · show ({ a13 with devmap := _ } : assembler).script = _
    rw [e13]
  · show ({ a13 with devmap := _ } : assembler).strings = _
    rw [e13]
    exact f11.strings
  · show ({ a13 with devmap := _ } : assembler).strpool = _
    rw [e13]
    exact f11.strpool
  · show ({ a13 with devmap := _ } : assembler).exports = _
    rw [e13]
    show a11.exports = _
    rw [f11.exports]
    show t.2.exports = _
    rw [f610.exports]

end arc

end xsk

namespace xsk

namespace arc

/-- The header block in the image of `assemble`: the offset fields,
`cseg_size` and `stringtablefixup_count` as they stand in the script. -/
theorem assemble_header_image (ctx : context) (self : assembler) (data : assembly)
    (name : String) (res : assemble_result) (h : assemble ctx self data name = .ok res) :
    res.self.script.read 12 4 = res.head.include_offset ∧
    res.self.script.read 16 4 = res.head.animtree_offset ∧
    res.self.script.read 20 4 = res.head.cseg_offset ∧
    res.self.script.read 24 4 = res.head.stringtablefixup_offset ∧
    res.self.script.read (28 + devstr_shift ctx) 4 = res.head.exports_offset ∧
    res.self.script.read (32 + devstr_shift ctx) 4 = res.head.imports_offset ∧
    res.self.script.read (44 + devstr_shift ctx) 4 = res.head.cseg_size ∧
    res.self.script.read (48 + devstr_shift ctx + handle_width ctx) 2 =
      res.head.stringtablefixup_count ∧
    res.self.script.read (header_size ctx - 1) 1 = 0 ∧
    (∀ i, header_size ctx ≤ i →
      ∀ st, stages ctx self data name = .ok st → res.self.script.data i = st.fixed.script.data i) ∧
    ∀ st, stages ctx self data name = .ok st →
      res.self.script.pos = st.fixed.script.pos ∧
      res.self.script.swap = st.fixed.script.swap := by
  obtain ⟨st, hst, e1, e2, e3, e4, e5, e6, e7, e8, e9, -, ⟨a11, h11, hs⟩, -⟩ :=
    assemble_stages_eq _ _ _ _ _ h
  obtain ⟨p, f, -, -, r1, r2, r3, r4, r5, r6, r7, r8, r9⟩ := write_header_spec _ _ _ _ h11
  have hread : ∀ off width, res.self.script.read off width = a11.script.read off width := by
    intro off width
    rw [hs]
    rfl
  have hp0 : ({ st.fixed with script := st.fixed.script.set_pos 0 } : assembler).script.pos = 0 :=
    rfl
  rw [hp0] at p r1 r2 r3 r4 r5 r6 r7 r8 r9
  simp only [Nat.zero_add] at p r1 r2 r3 r4 r5 r6 r7 r8 r9
  have m32 : ∀ x : Nat, x % 4294967296 % 4294967296 = x % 4294967296 := fun x => by omega
  refine ⟨?_, ?_, ?_, ?_, ?_, ?_, ?_, ?_, ?_, ?_, ?_⟩
  · rw [hread, r1, e1, m32]
  · rw [hread, r2, e5, m32]
  · rw [hread, r3, e2, m32]
  · rw [hread, r4, e6]
    split <;> rw [m32]
  · rw [hread, r5, e3, m32]
  · rw [hread, r6, e4, m32]
  · rw [hread, r7, e8, m32]
  · rw [hread, r8, e7]
    split <;> omega
  · rw [hread, r9, e9]
  · intro i hi st' hst'
    rw [hst] at hst'
    cases hst'
    rw [hs]
    show a11.script.data i = _
    rw [f.script.above i (by omega)]
    rfl
  · intro st' hst'
    rw [hst] at hst'
    cases hst'
    rw [hs]
    refine ⟨rfl, ?_⟩
    show a11.script.swap = _
    rw [f.script.swap]
    rfl

end arc

end xsk

namespace xsk

namespace arc

/-- C16, as stated, fails: on the little-endian context with
`props = {header64, size64}`, assembling scenario S1 under the script name
`main` builds one export whose offset is 80, while `header.cseg_offset` is 69:
the function is laid out after an alignment to 8 and an 8-byte gap. -/
theorem arc_scenario_S1_counterexample :
    scenario_S1_context.endian = endian.little ∧
    scenario_S1_context.props = props.header64 ||| props.size64 ∧
    (assemble scenario_S1_context (assembler.create scenario_S1_context 4096)
        scenario_S1 "main").toOption.map
      (fun res => (res.self.exports.map (fun e => e.offset), res.head.cseg_offset)) =
      some ([80], 69) :=
  ⟨rfl, rfl, by rfl⟩

/-- C16, amended: on a context with `size64`, when `assemble` returns on
scenario S1 the exports list has exactly one entry, the export of `main` with
`params` 0 and `flags` 0, and its offset is the index of `main` as relocated:
the cursor at which `cseg_offset` is taken rounded up to a multiple of 8, plus
8, as `u32`. The function lies 8 to 15 bytes past the start of the code
segment that `header.cseg_offset` records. -/
theorem arc_scenario_S1 (ctx : context) (self : assembler) (name : String)
    (res : assemble_result) (h64 : has_prop ctx.props props.size64 = true)
    (h : assemble ctx self scenario_S1 name = .ok res) :
    ∃ st f, stages ctx self scenario_S1 name = .ok st ∧
      res.head.cseg_offset = st.included.script.pos % 4294967296 ∧
      res.data.functions = [f] ∧
      f.index = utils.writer.align_up st.included.script.pos 8 + 8 ∧
      st.included.script.pos + 8 ≤ f.index ∧ f.index ≤ st.included.script.pos + 15 ∧
      res.self.exports =
        [{ checksum := 0, offset := f.index % 4294967296, name := "main", space := "",
           params := 0, flags := 0 }] := by
  obtain ⟨st, hst, -, hc, -, -, -, -, -, -, -, -, -, -, -, -, hexp, hfs⟩ :=
    assemble_stages_eq _ _ _ _ _ h
  obtain ⟨-, -, -, -, -, -, -, -, -, hincl, -⟩ := stages_spec _ _ _ _ _ hst
  have hx : st.included.exports = [] := by
    have f5 := write_includes_frame _ _ _ hincl
    rw [f5.exports]
    simp only [stages, bind_eq_ok, pure, Except.pure, Except.ok.injEq] at hst
    obtain ⟨a2, h2, a3, h3, a4, h4, a5, h5, r, hr, a7, h7, a8, h8, a9, h9, t, ht, rfl⟩ := hst
    exact (pooling_induct
      (fun s => s.exports = [] ∧ s.imports = [] ∧ s.anims = [] ∧
        s.devmap = (self.reset.devmap.set_pos 4) ∧ s.devmap_count = 0)
      (fun s s' d hs hd => process_string_keeps
        { self.reset with devmap := self.reset.devmap.set_pos 4 } s s' d hs hd)
      scenario_S1 name _ a2 a3 a4 ⟨rfl, rfl, rfl, rfl, rfl⟩ h2 h3 h4).1
  simp only [scenario_S1, assemble_functions, h64, if_true, bind_eq_ok, pure, Except.pure,
    Except.ok.injEq, Prod.mk.injEq] at hfs
  obtain ⟨r, hr, t, ht, hfl, hcoded⟩ := hfs
  subst ht
  obtain ⟨f, s'⟩ := r
  obtain ⟨-, -, a3, a4, -⟩ := assemble_function_strings _ _ _ _ _ hr
  have hidx : f.index = utils.writer.align_up st.included.script.pos 8 + 8 := a4
  have hge := utils.align_up_ge st.included.script.pos 8 (by omega)
  have hlt := utils.align_up_lt st.included.script.pos 8 (by omega)
  refine ⟨st, f, hst, hc, hfl.symm, hidx, by omega, by omega, ?_⟩
  rw [hexp, ← hcoded, a3, hidx]
  show st.included.exports ++ _ = _
  rw [hx]
  rfl

/-- Scenario S1 on its context under the script name `main`: the cursor at
`cseg_offset` is 69, `main` is relocated to 80, and the one export has the
offset 80. -/
theorem arc_scenario_S1_witness :
    ∃ res st f,
      assemble scenario_S1_context (assembler.create scenario_S1_context 4096)
        scenario_S1 "main" = .ok res ∧
      stages scenario_S1_context (assembler.create scenario_S1_context 4096)
        scenario_S1 "main" = .ok st ∧
      res.data.functions = [f] ∧ f.index = 80 ∧
      res.self.exports =
        [{ checksum := 0, offset := 80, name := "main", space := "", params := 0,
           flags := 0 }] := by
  have hrun : ∃ res, assemble scenario_S1_context (assembler.create scenario_S1_context 4096)
      scenario_S1 "main" = .ok res := ⟨_, rfl⟩
  obtain ⟨res, hres⟩ := hrun
  obtain ⟨st, f, h1, -, h3, h4, -, -, h7⟩ :=
    arc_scenario_S1 scenario_S1_context _ "main" res rfl hres
  have e1 : (stages scenario_S1_context (assembler.create scenario_S1_context 4096)
      scenario_S1 "main").toOption.map (fun s => s.included.script.pos) = some 69 := by rfl
  have e2 : (stages scenario_S1_context (assembler.create scenario_S1_context 4096)
      scenario_S1 "main").toOption.map (fun s => s.included.script.pos) =
      some st.included.script.pos := by rw [h1]; rfl
  have hp : st.included.script.pos = 69 := Option.some.inj (e2.symm.trans e1)
  rw [hp] at h4
  have h80 : f.index = 80 := h4
  rw [h80] at h7
  exact ⟨res, st, f, hres, h1, h3, h80, h7⟩

end arc

end xsk

namespace xsk

namespace arc

/-! ## The write log across the tables -/

theorem extends_refl (a : assembler) : script_extends a a :=
  ⟨[], by rw [List.append_nil]⟩

theorem extends_trans {a b c : assembler} (h1 : script_extends a b) (h2 : script_extends b c) :
    script_extends a c := by
  obtain ⟨ws, hw⟩ := h1
  obtain ⟨vs, hv⟩ := h2
  exact ⟨ws ++ vs, by rw [hv, hw, List.append_assoc]⟩

theorem extends_write (self self' : assembler) (width v : Nat)
    (h : self.write width v = .ok self') : script_extends self self' :=
  ⟨_, (assembler_write_spec _ _ _ _ h).2.1⟩

theorem extends_seek (self : assembler) (n : Nat) : script_extends self (self.seek n) :=
  ⟨[], by rw [List.append_nil]; rfl⟩

/-- A write at the cursor followed by more is the first write. -/
theorem first_write_of (a s b : assembler) (width v : Nat) (h : a.write width v = .ok s)
    (hx : script_extends s b) : first_write a b width := by
  obtain ⟨ws, hw⟩ := hx
  refine ⟨ws, ?_⟩
  rw [hw, (assembler_write_spec _ _ _ _ h).2.1, List.append_assoc]
  rfl

theorem write_includes_extends (l : List String) (self self' : assembler)
    (h : write_includes l self = .ok self') : script_extends self self' := by
  induction l generalizing self with
  | nil =>
    simp only [write_includes, Except.ok.injEq] at h
    subst h
    exact extends_refl _
  | cons e l ih =>
    simp only [write_includes, bind_eq_ok] at h
    obtain ⟨hd, -, s1, h1, h⟩ := h
    exact extends_trans (extends_write _ _ _ _ h1) (ih _ h)

theorem write_refs_extends (l : List Nat) (self self' : assembler)
    (h : write_refs l self = .ok self') : script_extends self self' := by
  induction l generalizing self with
  | nil =>
    simp only [write_refs, Except.ok.injEq] at h
    subst h
    exact extends_refl _
  | cons e l ih =>
    simp only [write_refs, bind_eq_ok] at h
    obtain ⟨s1, h1, h⟩ := h
    exact extends_trans (extends_write _ _ _ _ h1) (ih _ h)

theorem write_exports_extends (ctx : context) (l : List export_ref) (self self' : assembler)
    (h : write_exports ctx l self = .ok self') : script_extends self self' := by
  induction l generalizing self with
  | nil =>
    simp only [write_exports, Except.ok.injEq] at h
    subst h
    exact extends_refl _
  | cons e l ih =>
    simp only [write_exports, bind_eq_ok] at h
    obtain ⟨s1, h1, s2, h2, h⟩ := h
    have f12 := extends_trans (extends_write _ _ _ _ h1) (extends_write _ _ _ _ h2)
    split at h
    · simp only [bind_eq_ok] at h
      obtain ⟨s3, h3, s4, h4, s5, h5, s6, h6, h⟩ := h
      exact extends_trans f12 (extends_trans (extends_write _ _ _ _ h3)
        (extends_trans (extends_write _ _ _ _ h4)
          (extends_trans (extends_write _ _ _ _ h5)
            (extends_trans (extends_write _ _ _ _ h6)
              (extends_trans (extends_seek _ _) (ih _ h))))))
    · simp only [bind_eq_ok] at h
      obtain ⟨hd, -, s3, h3, s5, h5, s6, h6, h⟩ := h
      exact extends_trans f12 (extends_trans (extends_write _ _ _ _ h3)
        (extends_trans (extends_write _ _ _ _ h5)
          (extends_trans (extends_write _ _ _ _ h6) (ih _ h))))

theorem write_imports_extends (ctx : context) (l : List import_ref) (self self' : assembler)
    (h : write_imports ctx l self = .ok self') : script_extends self self' := by
  induction l generalizing self with
  | nil =>
    simp only [write_imports, Except.ok.injEq] at h
    subst h
    exact extends_refl _
  | cons e l ih =>
    simp only [write_imports] at h
    split at h
    · simp only [bind_eq_ok] at h
      obtain ⟨s1, h1, s2, h2, s3, h3, s4, h4, s5, h5, s6, h6, h⟩ := h
      exact extends_trans (extends_write _ _ _ _ h1)
        (extends_trans (extends_write _ _ _ _ h2)
          (extends_trans (extends_write _ _ _ _ h3)
            (extends_trans (extends_write _ _ _ _ h4)
              (extends_trans (extends_write _ _ _ _ h5)
                (extends_trans (write_refs_extends _ _ _ h6) (ih _ h))))))
    · simp only [bind_eq_ok] at h
      obtain ⟨hn, -, s1, h1, hs, -, s2, h2, s3, h3, s4, h4, s5, h5, s6, h6, h⟩ := h
      exact extends_trans (extends_write _ _ _ _ h1)
        (extends_trans (extends_write _ _ _ _ h2)
          (extends_trans (extends_write _ _ _ _ h3)
            (extends_trans (extends_write _ _ _ _ h4)
              (extends_trans (extends_write _ _ _ _ h5)
                (extends_trans (write_refs_extends _ _ _ h6) (ih _ h))))))

theorem write_anims_extends (ctx : context) (l : List animation_ref) (self self' : assembler)
    (h : write_anims ctx l self = .ok self') : script_extends self self' := by
  induction l generalizing self with
  | nil =>
    simp only [write_anims, Except.ok.injEq] at h
    subst h
    exact extends_refl _
  | cons e l ih =>
    simp only [write_anims, bind_eq_ok] at h
    obtain ⟨hd, -, h⟩ := h
    split at h <;>
      (simp only [bind_eq_ok] at h
       obtain ⟨s1, h1, s2, h2, h⟩ := h
       exact extends_trans (extends_write _ _ _ _ h1)
        (extends_trans (extends_write _ _ _ _ h2) (ih _ h)))

theorem write_animtrees_extends (ctx : context) (l : List animtree_ref) (self self' : assembler)
    (h : write_animtrees ctx l self = .ok self') : script_extends self self' := by
  induction l generalizing self with
  | nil =>
    simp only [write_animtrees, Except.ok.injEq] at h
    subst h
    exact extends_refl _
  | cons e l ih =>
    simp only [write_animtrees, bind_eq_ok] at h
    obtain ⟨hd, -, h⟩ := h
    split at h
    · simp only [bind_eq_ok] at h
      obtain ⟨s1, h1, s2, h2, s3, h3, s4, h4, s5, h5, h⟩ := h
      exact extends_trans (extends_write _ _ _ _ h1)
        (extends_trans (extends_write _ _ _ _ h2)
          (extends_trans (extends_write _ _ _ _ h3)
            (extends_trans (write_refs_extends _ _ _ h4)
              (extends_trans (write_anims_extends _ _ _ _ h5) (ih _ h)))))
    · simp only [bind_eq_ok, pure, Except.pure, Except.ok.injEq, exists_eq_left'] at h
      obtain ⟨s1, h1, s2, h2, s2a, h2a, s4, h4, s5, h5, h⟩ := h
      exact extends_trans (extends_write _ _ _ _ h1)
        (extends_trans (extends_write _ _ _ _ h2)
          (extends_trans (extends_write _ _ _ _ h2a)
            (extends_trans (extends_seek _ _)
              (extends_trans (write_refs_extends _ _ _ h4)
                (extends_trans (write_anims_extends _ _ _ _ h5) (ih _ h))))))

theorem write_string_header_extends (ctx : context) (entry : string_ref) (count : Nat)
    (self self' : assembler) (h : write_string_header ctx entry count self = .ok self') :
    script_extends self self' := by
  simp only [write_string_header, bind_eq_ok] at h
  obtain ⟨hd, -, h⟩ := h
  split at h <;>
    (simp only [bind_eq_ok, pure, Except.pure, Except.ok.injEq] at h
     obtain ⟨s1, h1, s2, h2, s3, h3, rfl⟩ := h
     have f3 := extends_trans (extends_write _ _ _ _ h1)
       (extends_trans (extends_write _ _ _ _ h2) (extends_write _ _ _ _ h3))
     first
       | exact extends_trans f3 (extends_seek _ _)
       | exact f3)

theorem write_string_runs_extends (ctx : context) (entry : string_ref) (count : Nat)
    (l : List Nat) (i n : Nat) (self : assembler) (r : Nat × assembler)
    (h : write_string_runs ctx entry count l i n self = .ok r) : script_extends self r.2 := by
  induction l generalizing i n self with
  | nil =>
    simp only [write_string_runs, Except.ok.injEq] at h
    subst h
    exact extends_refl _
  | cons e l ih =>
    simp only [write_string_runs] at h
    split at h
    · simp only [bind_eq_ok] at h
      obtain ⟨s1, h1, s2, h2, h⟩ := h
      exact extends_trans (write_string_header_extends _ _ _ _ _ h1)
        (extends_trans (extends_write _ _ _ _ h2) (ih _ _ _ h))
    · simp only [bind_eq_ok] at h
      obtain ⟨s2, h2, h⟩ := h
      exact extends_trans (extends_write _ _ _ _ h2) (ih _ _ _ h)

theorem write_strings_extends (ctx : context) (l : List string_ref) (n : Nat)
    (self : assembler) (r : Nat × assembler)
    (h : write_strings ctx l n self = .ok r) : script_extends self r.2 := by
  induction l generalizing n self with
  | nil =>
    simp only [write_strings, Except.ok.injEq] at h
    subst h
    exact extends_refl _
  | cons e l ih =>
    simp only [write_strings] at h
    split at h
    · simp only [bind_eq_ok] at h
      obtain ⟨r1, h1, h⟩ := h
      exact extends_trans (write_string_runs_extends _ _ _ _ _ _ _ _ h1) (ih _ _ h)
    · simp only [bind_eq_ok] at h
      obtain ⟨s1, h1, s2, h2, h⟩ := h
      exact extends_trans (write_string_header_extends _ _ _ _ _ h1)
        (extends_trans (write_refs_extends _ _ _ h2) (ih _ _ h))

end arc

end xsk

namespace xsk

namespace arc

/-! ## The first write of each table -/

theorem both_refl (a : assembler) : script_extends a a ∧ emit_frame a a :=
  ⟨extends_refl a, emit_frame_refl a⟩

theorem both_trans {a b c : assembler} (h1 : script_extends a b ∧ emit_frame a b)
    (h2 : script_extends b c ∧ emit_frame b c) : script_extends a c ∧ emit_frame a c :=
  ⟨extends_trans h1.1 h2.1, emit_frame_trans h1.2 h2.2⟩

theorem both_write (self self' : assembler) (width v : Nat)
    (h : self.write width v = .ok self') : script_extends self self' ∧ emit_frame self self' :=
  ⟨extends_write _ _ _ _ h, emit_frame_write _ _ _ _ h⟩

theorem both_seek (self : assembler) (n : Nat) :
    script_extends self (self.seek n) ∧ emit_frame self (self.seek n) :=
  ⟨extends_seek _ _, emit_frame_seek _ _⟩

/-- A write at the cursor followed by forward writes: it is the first write
recorded, and its bytes stay. -/
theorem first_of_both (a s b : assembler) (width v : Nat) (h : a.write width v = .ok s)
    (hb : script_extends s b ∧ emit_frame s b) (hw : width = 1 ∨ width = 2 ∨ width = 4) :
    table_start a b width v := by
  have p := (assembler_write_spec _ _ _ _ h).1
  obtain ⟨r1, r2, r4⟩ := assembler_write_read _ _ _ _ h
  have hle := hb.2.script.le
  refine ⟨first_write_of _ _ _ _ _ h hb.1, by omega, ?_⟩
  rw [utils.read_of_advances hb.2.script _ _ (by omega)]
  rcases hw with e | e | e
  · subst e
    exact r1 rfl
  · subst e
    exact r2 rfl
  · subst e
    exact r4 rfl

/-- The includes table, when not empty, starts with the pool handle of the
first include, four bytes at the cursor. -/
theorem write_includes_first (e : String) (rest : List String) (self self' : assembler)
    (h : write_includes (e :: rest) self = .ok self') :
    ∃ hd, resolve_string self e = .ok hd ∧ table_start self self' 4 hd := by
  simp only [write_includes, bind_eq_ok] at h
  obtain ⟨hd, hhd, s1, h1, h⟩ := h
  exact ⟨hd, hhd, first_of_both _ _ _ _ _ h1
    ⟨write_includes_extends _ _ _ h, write_includes_frame _ _ _ h⟩ (by omega)⟩

/-- The exports table, when not empty, starts with the checksum of the first
export, four bytes at the cursor. -/
theorem write_exports_first (ctx : context) (e : export_ref) (rest : List export_ref)
    (self self' : assembler) (h : write_exports ctx (e :: rest) self = .ok self') :
    table_start self self' 4 e.checksum := by
  simp only [write_exports, bind_eq_ok] at h
  obtain ⟨s1, h1, s2, h2, h⟩ := h
  have tail : script_extends s2 self' ∧ emit_frame s2 self' := by
    split at h
    · simp only [bind_eq_ok] at h
      obtain ⟨s3, h3, s4, h4, s5, h5, s6, h6, h⟩ := h
      exact both_trans (both_write _ _ _ _ h3) (both_trans (both_write _ _ _ _ h4)
        (both_trans (both_write _ _ _ _ h5) (both_trans (both_write _ _ _ _ h6)
          (both_trans (both_seek _ _)
            ⟨write_exports_extends _ _ _ _ h, write_exports_frame _ _ _ _ h⟩))))
    · simp only [bind_eq_ok] at h
      obtain ⟨hd, -, s3, h3, s5, h5, s6, h6, h⟩ := h
      exact both_trans (both_write _ _ _ _ h3) (both_trans (both_write _ _ _ _ h5)
        (both_trans (both_write _ _ _ _ h6)
          ⟨write_exports_extends _ _ _ _ h, write_exports_frame _ _ _ _ h⟩))
  exact first_of_both _ _ _ _ _ h1 (both_trans (both_write _ _ _ _ h2) tail) (by omega)

/-- The imports table, when not empty, starts at the cursor with the name of
its first entry: the hash of that name on four bytes with `hashids`, or else
its pool handle on two. -/
theorem write_imports_first (ctx : context) (e : import_ref) (rest : List import_ref)
    (self self' : assembler) (h : write_imports ctx (e :: rest) self = .ok self') :
    (has_prop ctx.props props.hashids = true →
      table_start self self' 4 (ctx.hash_id e.name)) ∧
    (has_prop ctx.props props.hashids = false →
      ∃ hd, resolve_string self e.name = .ok hd ∧ table_start self self' 2 hd) := by
  simp only [write_imports] at h
  split at h
  · rename_i hh
    simp only [bind_eq_ok] at h
    obtain ⟨s1, h1, s2, h2, s3, h3, s4, h4, s5, h5, s6, h6, h⟩ := h
    have tail := both_trans (both_write _ _ _ _ h2) (both_trans (both_write _ _ _ _ h3)
      (both_trans (both_write _ _ _ _ h4) (both_trans (both_write _ _ _ _ h5)
        (both_trans ⟨write_refs_extends _ _ _ h6, write_refs_frame _ _ _ h6⟩
          ⟨write_imports_extends _ _ _ _ h, write_imports_frame _ _ _ _ h⟩))))
    exact ⟨fun _ => first_of_both _ _ _ _ _ h1 tail (by omega),
      fun hn => by rw [hh] at hn; cases hn⟩
  · rename_i hh
    simp only [bind_eq_ok] at h
    obtain ⟨hn, hhn, s1, h1, hs, -, s2, h2, s3, h3, s4, h4, s5, h5, s6, h6, h⟩ := h
    have tail := both_trans (both_write _ _ _ _ h2) (both_trans (both_write _ _ _ _ h3)
      (both_trans (both_write _ _ _ _ h4) (both_trans (both_write _ _ _ _ h5)
        (both_trans ⟨write_refs_extends _ _ _ h6, write_refs_frame _ _ _ h6⟩
          ⟨write_imports_extends _ _ _ _ h, write_imports_frame _ _ _ _ h⟩))))
    exact ⟨fun hp => absurd hp hh,
      fun _ => ⟨hn, hhn, first_of_both _ _ _ _ _ h1 tail (by omega)⟩⟩

/-- The animtrees table, when not empty, starts with the pool handle of the
first tree at the cursor, on four bytes with `size64` and on two otherwise. -/
theorem write_animtrees_first (ctx : context) (e : animtree_ref) (rest : List animtree_ref)
    (self self' : assembler) (h : write_animtrees ctx (e :: rest) self = .ok self') :
    ∃ hd, resolve_string self e.name = .ok hd ∧
      table_start self self' (if has_prop ctx.props props.size64 = true then 4 else 2) hd := by
  simp only [write_animtrees, bind_eq_ok] at h
  obtain ⟨hd, hhd, h⟩ := h
  refine ⟨hd, hhd, ?_⟩
  split at h
  · rename_i hh
    simp only [bind_eq_ok] at h
    obtain ⟨s1, h1, s2, h2, s3, h3, s4, h4, s5, h5, h⟩ := h
    have tail := both_trans (both_write _ _ _ _ h2) (both_trans (both_write _ _ _ _ h3)
      (both_trans ⟨write_refs_extends _ _ _ h4, write_refs_frame _ _ _ h4⟩
        (both_trans ⟨write_anims_extends _ _ _ _ h5, write_anims_frame _ _ _ _ h5⟩
          ⟨write_animtrees_extends _ _ _ _ h, write_animtrees_frame _ _ _ _ h⟩)))
    rw [if_pos hh]
    exact first_of_both _ _ _ _ _ h1 tail (by omega)
  · rename_i hh
    simp only [bind_eq_ok, pure, Except.pure, Except.ok.injEq, exists_eq_left'] at h
    obtain ⟨s1, h1, s2, h2, s2a, h2a, s4, h4, s5, h5, h⟩ := h
    have tail := both_trans (both_write _ _ _ _ h2) (both_trans (both_write _ _ _ _ h2a)
      (both_trans (both_seek _ _)
        (both_trans ⟨write_refs_extends _ _ _ h4, write_refs_frame _ _ _ h4⟩
          (both_trans ⟨write_anims_extends _ _ _ _ h5, write_anims_frame _ _ _ _ h5⟩
            ⟨write_animtrees_extends _ _ _ _ h, write_animtrees_frame _ _ _ _ h⟩))))
    rw [if_neg hh]
    exact first_of_both _ _ _ _ _ h1 tail (by omega)

/-- The header of a run starts with the pool handle of the string at the cursor,
on four bytes with `size64` and on two otherwise. -/
theorem write_string_header_first (ctx : context) (entry : string_ref) (count : Nat)
    (self self' b : assembler) (h : write_string_header ctx entry count self = .ok self')
    (hb : script_extends self' b ∧ emit_frame self' b) :
    ∃ hd, resolve_string self entry.name = .ok hd ∧
      table_start self b (if has_prop ctx.props props.size64 = true then 4 else 2) hd := by
  simp only [write_string_header, bind_eq_ok] at h
  obtain ⟨hd, hhd, h⟩ := h
  refine ⟨hd, hhd, ?_⟩
  split at h
  · rename_i hh
    simp only [bind_eq_ok, pure, Except.pure, Except.ok.injEq] at h
    obtain ⟨s1, h1, s2, h2, s3, h3, rfl⟩ := h
    have hb' := hb
    have tail := both_trans (both_write _ _ _ _ h2) (both_trans (both_write _ _ _ _ h3)
      (both_trans (both_seek _ _) hb'))
    rw [if_pos hh]
    exact first_of_both _ _ _ _ _ h1 tail (by omega)
  · rename_i hh
    simp only [bind_eq_ok, pure, Except.pure, Except.ok.injEq] at h
    obtain ⟨s1, h1, s2, h2, s3, h3, rfl⟩ := h
    have hb' := hb
    have tail := both_trans (both_write _ _ _ _ h2) (both_trans (both_write _ _ _ _ h3) hb')
    rw [if_neg hh]
    exact first_of_both _ _ _ _ _ h1 tail (by omega)

/-- The string fixup table, when not empty, starts with the run header of its
first entry. -/
theorem write_strings_first (ctx : context) (e : string_ref) (rest : List string_ref)
    (n : Nat) (self : assembler) (r : Nat × assembler)
    (h : write_strings ctx (e :: rest) n self = .ok r) :
    ∃ hd, resolve_string self e.name = .ok hd ∧
      table_start self r.2 (if has_prop ctx.props props.size64 = true then 4 else 2) hd := by
  simp only [write_strings] at h
  split at h
  · rename_i hlong
    simp only [bind_eq_ok] at h
    obtain ⟨r1, h1, h⟩ := h
    have htail : script_extends r1.2 r.2 ∧ emit_frame r1.2 r.2 :=
      ⟨write_strings_extends _ _ _ _ _ h, write_strings_frame _ _ _ _ _ h⟩
    cases hrefs : e.refs with
    | nil =>
      rw [hrefs] at hlong
      simp at hlong
    | cons ref refs =>
      rw [hrefs] at h1
      simp only [write_string_runs, Nat.zero_mod, if_true, bind_eq_ok] at h1
      obtain ⟨s1, hs1, s2, hs2, h1⟩ := h1
      exact write_string_header_first _ _ _ _ _ _ hs1
        (both_trans (both_write _ _ _ _ hs2)
          (both_trans ⟨write_string_runs_extends _ _ _ _ _ _ _ _ h1,
            write_string_runs_frame _ _ _ _ _ _ _ _ h1⟩ htail))
  · simp only [bind_eq_ok] at h
    obtain ⟨s1, h1, s2, h2, h⟩ := h
    exact write_string_header_first _ _ _ _ _ _ h1
      (both_trans ⟨write_refs_extends _ _ _ h2, write_refs_frame _ _ _ h2⟩
        ⟨write_strings_extends _ _ _ _ _ h, write_strings_frame _ _ _ _ _ h⟩)

/-- What a field of the image holds is what the script holds there. -/
theorem image_field_of_read (w : utils.writer) (off width : Nat) :
    image_field w.swap w.bytes off width =
      if off + width ≤ w.pos then some (w.read off width) else none := by
  unfold image_field
  rw [utils.bytes_length]
  by_cases h : off + width ≤ w.pos
  · rw [if_pos h, if_pos h]
    have hd : ∀ i, off ≤ i → i < off + width → w.bytes.getD i 0 = w.data i := by
      intro i _ hi
      unfold utils.writer.bytes
      rw [List.getD_eq_getElem?_getD, List.getElem?_map, List.getElem?_range (by omega)]
      rfl
    unfold utils.writer.read
    rw [utils.read_le_congr w.data (fun i => w.bytes.getD i 0) off width hd,
      utils.read_be_congr w.data (fun i => w.bytes.getD i 0) off width hd]
  · rw [if_neg h, if_neg h]

/-! ## The first write of the code segment -/

theorem assemble_instructions_extends (ctx : context) (labels : label_map)
    (is : List instruction) (self self' : assembler)
    (h : assemble_instructions ctx labels is self = .ok self') : script_extends self self' := by
  induction is generalizing self with
  | nil =>
    simp only [assemble_instructions, Except.ok.injEq] at h
    subst h
    exact extends_refl _
  | cons i is ih =>
    simp only [assemble_instructions, bind_eq_ok] at h
    obtain ⟨s1, h1, h⟩ := h
    obtain ⟨-, w1, -, -, -⟩ := assemble_instruction_spec _ _ _ _ _ h1
    exact extends_trans ⟨_, w1⟩ (ih _ h)

/-- The emission of a non-empty list of instructions starts with the opcode
byte of the first, written at the cursor. -/
theorem assemble_instructions_first (ctx : context) (labels : label_map) (i : instruction)
    (is : List instruction) (self self' : assembler)
    (h : assemble_instructions ctx labels (i :: is) self = .ok self') :
    first_write self self' 1 ∧ self.script.pos + 1 ≤ self'.script.pos ∧
    ∃ id, ctx.opcode_id i.opcode = some id ∧ self'.script.read self.script.pos 1 = id % 256 := by
  simp only [assemble_instructions, bind_eq_ok] at h
  obtain ⟨s1, h1, h⟩ := h
  obtain ⟨p1, w1, -, ⟨id, hid, hr⟩, -⟩ := assemble_instruction_spec _ _ _ _ _ h1
  obtain ⟨ws, hws⟩ := assemble_instructions_extends _ _ _ _ _ h
  obtain ⟨-, f2⟩ := assemble_instructions_spec _ _ _ _ _ h
  have hge := operands_end_ge i (self.script.pos + 1)
  have hle := f2.script.le
  refine ⟨⟨operand_writes i (self.script.pos + 1) ++ ws, ?_⟩, by omega, id, hid, ?_⟩
  · rw [hws, w1]
    simp
  · rw [utils.read_of_advances f2.script _ _ (by omega)]
    exact hr

/-- A function is laid out without a write and then emitted from its index:
the writes recorded are those of its instructions, the first of them the opcode
byte of its first instruction at the index. -/
theorem assemble_function_writes (ctx : context) (self self' : assembler)
    (func func' : function) (h : assemble_function ctx self func = .ok (func', self')) :
    script_extends self self' ∧
    ∀ i is, func.instructions = i :: is →
      first_write self self' 1 ∧ self.script.pos + 1 ≤ self'.script.pos ∧
      ∃ id, ctx.opcode_id i.opcode = some id ∧
        self'.script.read self.script.pos 1 = id % 256 := by
  simp only [assemble_function, bind_eq_ok, pure, Except.pure, Except.ok.injEq,
    Prod.mk.injEq] at h
  obtain ⟨r0, hlay, s2, hemit, hf, hs⟩ := h
  subst hf hs
  obtain ⟨l1, -, -, l4, -, -⟩ := layout_instructions_spec _ _ _ _ _ _ _ _ hlay
  constructor
  · obtain ⟨ws, hws⟩ := assemble_instructions_extends _ _ _ _ _ hemit
    refine ⟨ws, ?_⟩
    show s2.script.writes = _
    rw [hws]
    show r0.2.2.2.script.writes ++ ws = _
    rw [l4.writes]
  · intro i is hi
    rw [hi] at l1
    cases hr : r0.1 with
    | nil =>
      rw [hr] at l1
      simp at l1
    | cons j js =>
      rw [hr] at l1
      simp only [List.map_cons, List.cons.injEq, Prod.mk.injEq] at l1
      have hemit' : assemble_instructions ctx r0.2.2.1 (j :: js)
          { r0.2.2.2 with script := r0.2.2.2.script.set_pos self.script.pos } = .ok s2 := by
        rw [← hr]
        exact hemit
      obtain ⟨⟨ws, hws⟩, hle, id, hid, hread⟩ := assemble_instructions_first _ _ _ _ _ _ hemit'
      refine ⟨⟨ws, ?_⟩, hle, id, ?_, hread⟩
      · show s2.script.writes = _
        rw [hws]
        show r0.2.2.2.script.writes ++ _ = _
        rw [l4.writes]
        rfl
      · rw [← l1.1.1]
        exact hid

theorem assemble_functions_extends (ctx : context) (fs : List function) (self : assembler)
    (res : List function × assembler) (h : assemble_functions ctx fs self = .ok res) :
    script_extends self res.2 := by
  induction fs generalizing self res with
  | nil =>
    simp only [assemble_functions, Except.ok.injEq] at h
    subst h
    exact extends_refl _
  | cons func rest ih =>
    simp only [assemble_functions, bind_eq_ok, pure, Except.pure, Except.ok.injEq] at h
    obtain ⟨r, hr, t, ht, rfl⟩ := h
    obtain ⟨f', s'⟩ := r
    obtain ⟨⟨ws, hws⟩, -⟩ := assemble_function_writes _ _ _ _ _ hr
    exact extends_trans ⟨ws, hws⟩ (ih s' t ht)

/-- The code segment starts at the index of its first function: the cursor
rounded up to a multiple of 4 (8 with `size64`) plus as many bytes again; when
that function has an instruction, the first write of the segment is the opcode
byte of that instruction, there. -/
theorem assemble_functions_first (ctx : context) (func : function) (rest : List function)
    (self : assembler) (res : List function × assembler)
    (h : assemble_functions ctx (func :: rest) self = .ok res) :
    (res.1.head?.map fun f => f.index) =
      some (utils.writer.align_up self.script.pos
          (if has_prop ctx.props props.size64 = true then 8 else 4) +
        (if has_prop ctx.props props.size64 = true then 8 else 4)) ∧
    ∀ i is, func.instructions = i :: is →
      (∃ ws, res.2.script.writes = self.script.writes ++
        (utils.writer.align_up self.script.pos
            (if has_prop ctx.props props.size64 = true then 8 else 4) +
          (if has_prop ctx.props props.size64 = true then 8 else 4), 1) :: ws) ∧
      utils.writer.align_up self.script.pos
          (if has_prop ctx.props props.size64 = true then 8 else 4) +
        (if has_prop ctx.props props.size64 = true then 8 else 4) + 1 ≤ res.2.script.pos ∧
      ∃ id, ctx.opcode_id i.opcode = some id ∧
        res.2.script.read (utils.writer.align_up self.script.pos
            (if has_prop ctx.props props.size64 = true then 8 else 4) +
          (if has_prop ctx.props props.size64 = true then 8 else 4)) 1 = id % 256 := by
  simp only [assemble_functions, bind_eq_ok, pure, Except.pure, Except.ok.injEq] at h
  obtain ⟨r, hr, t, ht, rfl⟩ := h
  obtain ⟨f', s'⟩ := r
  obtain ⟨hidx, adv⟩ := assemble_function_frame _ _ _ _ _ hr
  obtain ⟨-, hfirst⟩ := assemble_function_writes _ _ _ _ _ hr
  obtain ⟨wt, hwt⟩ := assemble_functions_extends _ _ _ _ ht
  obtain ⟨-, -, advt, -, -⟩ := assemble_functions_strings _ _ _ _ ht
  refine ⟨?_, ?_⟩
  · show some f'.index = _
    rw [hidx]
    rfl
  · intro i is hi
    obtain ⟨⟨ws, hws⟩, hle, id, hid, hread⟩ := hfirst i is hi
    refine ⟨⟨ws ++ wt, ?_⟩, Nat.le_trans hle advt.le, id, hid, ?_⟩
    · show t.2.script.writes = _
      rw [hwt]
      show s'.script.writes ++ wt = _
      rw [hws]
      simp
      rfl
    · show t.2.script.read _ 1 = _
      exact (utils.read_of_advances advt _ _ hle).trans hread

/-- The code segment, when its first function has an instruction, starts with
the opcode byte of that instruction at the index of that function. -/
theorem assemble_functions_start (ctx : context) (func : function) (rest : List function)
    (self : assembler) (res : List function × assembler)
    (h : assemble_functions ctx (func :: rest) self = .ok res)
    (i : instruction) (is : List instruction) (hi : func.instructions = i :: is) :
    ∃ id, ctx.opcode_id i.opcode = some id ∧
      table_start ((self.align (if has_prop ctx.props props.size64 = true then 8 else 4)).2.seek
        (if has_prop ctx.props props.size64 = true then 8 else 4)) res.2 1 id := by
  obtain ⟨-, hf⟩ := assemble_functions_first _ _ _ _ _ h
  obtain ⟨⟨ws, hws⟩, hle, id, hid, hread⟩ := hf i is hi
  exact ⟨id, hid, ⟨ws, hws⟩, hle, hread⟩

/-- What a stage of `assemble` has written past the header block stands in
the image. -/
theorem image_of_stage (ctx : context) (self : assembler) (data : assembly) (name : String)
    (res : assemble_result) (h : assemble ctx self data name = .ok res)
    (st : assemble_stages) (hst : stages ctx self data name = .ok st)
    (a : utils.writer) (hadv : a.advances st.fixed.script) (off width : Nat)
    (hoff : header_size ctx ≤ off) (hw : off + width ≤ a.pos) :
    image_field self.script.swap res.script off width = some (a.read off width) := by
  obtain ⟨st', hst', -, -, -, -, -, -, -, -, -, -, -, hb, -⟩ := assemble_stages_eq _ _ _ _ _ h
  obtain ⟨-, -, -, -, -, -, -, -, -, hdata, hfin⟩ := assemble_header_image _ _ _ _ _ h
  obtain ⟨hpos, hswap⟩ := hfin st hst
  obtain ⟨-, a1, a2, a3, a4, a5, a6, -, hsw, -⟩ := stages_spec _ _ _ _ _ hst
  have hchain := utils.advances_trans a1 (utils.advances_trans a2 (utils.advances_trans a3
    (utils.advances_trans a4 (utils.advances_trans a5 a6))))
  have hs : res.self.script.swap = self.script.swap :=
    hswap.trans (hchain.swap.trans hsw)
  have hle := hadv.le
  rw [hb, ← hs, image_field_of_read, if_pos (by omega)]
  congr 1
  rw [← utils.read_of_advances hadv off width hw]
  exact utils.read_congr _ _ _ _ hswap (fun i hi _ => hdata i (by omega) st hst)

/-- A field of the header block stands in the image when the image reaches
past it. -/
theorem image_of_header (ctx : context) (self : assembler) (data : assembly) (name : String)
    (res : assemble_result) (h : assemble ctx self data name = .ok res) (off width : Nat)
    (hw : off + width ≤ res.script.length) :
    image_field self.script.swap res.script off width = some (res.self.script.read off width) := by
  obtain ⟨st, hst, -, -, -, -, -, -, -, -, -, -, -, hb, -⟩ := assemble_stages_eq _ _ _ _ _ h
  obtain ⟨-, -, -, -, -, -, -, -, -, -, hfin⟩ := assemble_header_image _ _ _ _ _ h
  obtain ⟨hpos, hswap⟩ := hfin st hst
  obtain ⟨-, a1, a2, a3, a4, a5, a6, -, hsw, -⟩ := stages_spec _ _ _ _ _ hst
  have hchain := utils.advances_trans a1 (utils.advances_trans a2 (utils.advances_trans a3
    (utils.advances_trans a4 (utils.advances_trans a5 a6))))
  have hs : res.self.script.swap = self.script.swap :=
    hswap.trans (hchain.swap.trans hsw)
  rw [hb, utils.bytes_length] at hw
  rw [hb, ← hs, image_field_of_read, if_pos hw]

/-- The first value of a table (or the first opcode of the code segment)
stands in the image when it was written past the header block. -/
theorem table_image (ctx : context) (self : assembler) (data : assembly) (name : String)
    (res : assemble_result) (h : assemble ctx self data name = .ok res)
    (st : assemble_stages) (hst : stages ctx self data name = .ok st)
    (a b : assembler) (width v : Nat) (hts : table_start a b width v)
    (hadv : b.script.advances st.fixed.script) :
    table_in_image ctx self.script.swap res.script a width v := by
  intro hoff
  rw [image_of_stage _ _ _ _ _ h st hst b.script hadv a.script.pos width hoff hts.2.1, hts.2.2]

end arc

end xsk

namespace xsk

namespace arc

/-- C15 as stated fails for the code segment. On scenario S1 assembled under
the name `main`, `cseg_offset` is 69, the cursor at which the (empty) includes
table ends, while the first byte of the code segment is written at offset 80,
the index of `main`: before the code segment the script has recorded one
write, the five bytes of the pooled name at 64; the writes of the code segment
are one byte at 80 and one at 81, and nothing is written from 69 to 79. The
includes table being empty, no byte of it is written either, at
`include_offset` = 69 or elsewhere. -/
theorem arc_header_offsets_counterexample :
    ∃ res st,
      assemble scenario_S1_context (assembler.create scenario_S1_context 4096)
        scenario_S1 "main" = .ok res ∧
      stages scenario_S1_context (assembler.create scenario_S1_context 4096)
        scenario_S1 "main" = .ok st ∧
      res.head.include_offset = 69 ∧ res.head.cseg_offset = 69 ∧
      image_field false res.script 20 4 = some 69 ∧
      st.pooled.script.writes = [(64, 5)] ∧
      st.included.script.writes = st.pooled.script.writes ∧
      st.coded.script.writes = st.included.script.writes ++ [(80, 1), (81, 1)] ∧
      (res.data.functions.map fun f => f.index) = [80] := by
  have hrun : ∃ res, assemble scenario_S1_context (assembler.create scenario_S1_context 4096)
      scenario_S1 "main" = .ok res := ⟨_, rfl⟩
  obtain ⟨res, hres⟩ := hrun
  have hrun2 : ∃ st, stages scenario_S1_context (assembler.create scenario_S1_context 4096)
      scenario_S1 "main" = .ok st := ⟨_, rfl⟩
  obtain ⟨st, hst⟩ := hrun2
  have e1 : (assemble scenario_S1_context (assembler.create scenario_S1_context 4096)
      scenario_S1 "main").toOption.map (fun r => (r.head.include_offset, r.head.cseg_offset,
        image_field false r.script 20 4, r.data.functions.map fun f => f.index)) =
      some (69, 69, some 69, [80]) := by rfl
  have e2 : (stages scenario_S1_context (assembler.create scenario_S1_context 4096)
      scenario_S1 "main").toOption.map (fun s => (s.pooled.script.writes,
        s.included.script.writes, s.coded.script.writes)) =
      some ([(64, 5)], [(64, 5)], [(64, 5), (80, 1), (81, 1)]) := by rfl
  rw [hres] at e1
  rw [hst] at e2
  simp only [Except.toOption, Option.map_some', Option.some.injEq, Prod.mk.injEq] at e1 e2
  obtain ⟨i1, i2, i3, i4⟩ := e1
  obtain ⟨w1, w2, w3⟩ := e2
  exact ⟨res, st, hres, hst, i1, i2, i3, w1, by rw [w1, w2], by rw [w3, w2]; rfl, i4⟩

/-- C15, amended. When `assemble` returns, with `st` the assembler at the
points where the offsets are taken:
(1) the stages are the runs of the table writers and of the code segment loop;
(2) `include_offset`, `cseg_offset`, `exports_offset`, `imports_offset`,
`animtree_offset` and, when `devstr` is not set, `stringtablefixup_offset` are,
as `u32`, the cursors before the includes table, the code segment loop, the
exports, imports and animtrees tables and the string fixup table;
(3) these cursors stand in that order and the image ends where the string
fixup table ends;
(4) `cseg_size` is `exports_offset − cseg_offset` in 32 bits, exactly that
difference when the image is shorter than `2^32` bytes;
(5) the fields stand in the script at their places in the header block;
(6) the image has at least 64 bytes unless `headerxx` is set, and each of
these fields, when the image reaches past it, is what the image holds at its
place, in the byte order of the assembler;
(7) each table that is not empty starts at its cursor: the first write recorded
after those of the stage before is the first value of the table there (the pool
handle of the first include on 4 bytes; the checksum of the first export on 4;
the name of the first import, its hash on 4 bytes with `hashids` or its pool
handle on 2; the pool handle of the first animtree, and of the first string
entry, on 4 bytes with `size64` or else on 2), that value is in the script
there and in the image, provided the cursor is past the header block; an empty
table leaves the assembler as it is, and there is one export per function;
(8) the code segment does not start at `cseg_offset`: the first function has
for index `cseg_offset`'s cursor rounded up to a multiple of `n` plus `n`,
where `n` is 8 with `size64` and 4 without, nothing is written before that
index, and when that function has an instruction the first write of the segment
is its opcode byte at that index, in the script and in the image. -/
theorem arc_header_offsets (ctx : context) (self : assembler) (data : assembly) (name : String)
    (res : assemble_result) (h : assemble ctx self data name = .ok res) :
    ∃ st, stages ctx self data name = .ok st ∧
      (write_includes data.includes st.pooled = .ok st.included ∧
        assemble_functions ctx data.functions st.included =
          .ok (res.data.functions, st.coded) ∧
        write_exports ctx st.coded.exports st.coded = .ok st.exported ∧
        write_imports ctx st.exported.imports st.exported = .ok st.imported ∧
        write_animtrees ctx st.imported.anims st.imported = .ok st.animated ∧
        write_strings ctx st.animated.strings 0 st.animated =
          .ok (st.stringtablecount, st.fixed)) ∧
      (res.head.include_offset = st.pooled.script.pos % 4294967296 ∧
        res.head.cseg_offset = st.included.script.pos % 4294967296 ∧
        res.head.exports_offset = st.coded.script.pos % 4294967296 ∧
        res.head.imports_offset = st.exported.script.pos % 4294967296 ∧
        res.head.animtree_offset = st.imported.script.pos % 4294967296 ∧
        (has_prop ctx.props props.devstr = false →
          res.head.stringtablefixup_offset = st.animated.script.pos % 4294967296)) ∧
      (st.pooled.script.pos ≤ st.included.script.pos ∧
        st.included.script.pos ≤ st.coded.script.pos ∧
        st.coded.script.pos ≤ st.exported.script.pos ∧
        st.exported.script.pos ≤ st.imported.script.pos ∧
        st.imported.script.pos ≤ st.animated.script.pos ∧
        st.animated.script.pos ≤ st.fixed.script.pos ∧
        res.script.length = st.fixed.script.pos) ∧
      res.head.cseg_size =
        (res.head.exports_offset + 4294967296 - res.head.cseg_offset) % 4294967296 ∧
      (st.fixed.script.pos < 4294967296 →
        res.head.include_offset ≤ res.head.cseg_offset ∧
        res.head.cseg_offset ≤ res.head.exports_offset ∧
        res.head.exports_offset ≤ res.head.imports_offset ∧
        res.head.imports_offset ≤ res.head.animtree_offset ∧
        (has_prop ctx.props props.devstr = false →
          res.head.animtree_offset ≤ res.head.stringtablefixup_offset) ∧
        res.head.cseg_size = res.head.exports_offset - res.head.cseg_offset) ∧
      (res.script = res.self.script.bytes ∧
        res.self.script.read 12 4 = res.head.include_offset ∧
        res.self.script.read 16 4 = res.head.animtree_offset ∧
        res.self.script.read 20 4 = res.head.cseg_offset ∧
        res.self.script.read 24 4 = res.head.stringtablefixup_offset ∧
        res.self.script.read (28 + devstr_shift ctx) 4 = res.head.exports_offset ∧
        res.self.script.read (32 + devstr_shift ctx) 4 = res.head.imports_offset ∧
        res.self.script.read (44 + devstr_shift ctx) 4 = res.head.cseg_size) ∧
      ((has_prop ctx.props props.headerxx = false → 64 ≤ res.script.length) ∧
        ∀ off v, (off, v) ∈ [(12, res.head.include_offset), (16, res.head.animtree_offset),
            (20, res.head.cseg_offset), (24, res.head.stringtablefixup_offset),
            (28 + devstr_shift ctx, res.head.exports_offset),
            (32 + devstr_shift ctx, res.head.imports_offset),
            (44 + devstr_shift ctx, res.head.cseg_size)] →
          off + 4 ≤ res.script.length →
          image_field self.script.swap res.script off 4 = some v) ∧
      ((data.includes = [] → st.included = st.pooled) ∧
        (∀ e rest, data.includes = e :: rest →
          ∃ hd, resolve_string st.pooled e = .ok hd ∧
            table_start st.pooled st.included 4 hd ∧
            table_in_image ctx self.script.swap res.script st.pooled 4 hd) ∧
        st.coded.exports.length = data.functions.length ∧
        (st.coded.exports = [] → st.exported = st.coded) ∧
        (∀ e rest, st.coded.exports = e :: rest →
          table_start st.coded st.exported 4 e.checksum ∧
          table_in_image ctx self.script.swap res.script st.coded 4 e.checksum) ∧
        (st.exported.imports = [] → st.imported = st.exported) ∧
        (∀ e rest, st.exported.imports = e :: rest →
          (has_prop ctx.props props.hashids = true →
            table_start st.exported st.imported 4 (ctx.hash_id e.name) ∧
            table_in_image ctx self.script.swap res.script st.exported 4
              (ctx.hash_id e.name)) ∧
          (has_prop ctx.props props.hashids = false →
            ∃ hd, resolve_string st.exported e.name = .ok hd ∧
              table_start st.exported st.imported 2 hd ∧
              table_in_image ctx self.script.swap res.script st.exported 2 hd)) ∧
        (st.imported.anims = [] → st.animated = st.imported) ∧
        (∀ e rest, st.imported.anims = e :: rest →
          ∃ hd, resolve_string st.imported e.name = .ok hd ∧
            table_start st.imported st.animated
              (if has_prop ctx.props props.size64 = true then 4 else 2) hd ∧
            table_in_image ctx self.script.swap res.script st.imported
              (if has_prop ctx.props props.size64 = true then 4 else 2) hd) ∧
        (st.animated.strings = [] → st.fixed = st.animated) ∧
        (∀ e rest, st.animated.strings = e :: rest →
          ∃ hd, resolve_string st.animated e.name = .ok hd ∧
            table_start st.animated st.fixed
              (if has_prop ctx.props props.size64 = true then 4 else 2) hd ∧
            table_in_image ctx self.script.swap res.script st.animated
              (if has_prop ctx.props props.size64 = true then 4 else 2) hd)) ∧
      ((data.functions = [] → st.coded = st.included) ∧
        ∀ n, n = (if has_prop ctx.props props.size64 = true then 8 else 4) →
          ∀ f rest, data.functions = f :: rest →
            ((st.included.align n).2.seek n).script.pos =
              utils.writer.align_up st.included.script.pos n + n ∧
            ((st.included.align n).2.seek n).script.writes = st.included.script.writes ∧
            st.included.script.pos + n ≤ ((st.included.align n).2.seek n).script.pos ∧
            (res.data.functions.head?.map fun g => g.index) =
              some (utils.writer.align_up st.included.script.pos n + n) ∧
            ∀ i is, f.instructions = i :: is →
              ∃ id, ctx.opcode_id i.opcode = some id ∧
                table_start ((st.included.align n).2.seek n) st.coded 1 id ∧
                table_in_image ctx self.script.swap res.script
                  ((st.included.align n).2.seek n) 1 id) := by
  obtain ⟨st, hst, e1, e2, e3, e4, e5, e6, -, e8, -, -, -, hb, -, -, -, hfs⟩ :=
    assemble_stages_eq _ _ _ _ _ h
  obtain ⟨a0, a1, a2, a3, a4, a5, a6, -, -, t1, -, t3, t4, t5, t6, -, -, -, hexp⟩ :=
    stages_spec _ _ _ _ _ hst
  obtain ⟨r1, r2, r3, r4, r5, r6, r7, -, -, -, hfin⟩ := assemble_header_image _ _ _ _ _ h
  obtain ⟨hpos, -⟩ := hfin st hst
  have l1 := a1.le
  have l2 := a2.le
  have l3 := a3.le
  have l4 := a4.le
  have l5 := a5.le
  have l6 := a6.le
  have hlen : res.script.length = st.fixed.script.pos := by
    rw [hb, utils.bytes_length, hpos]
  have c6 := utils.advances_refl st.fixed.script
  have c5 := utils.advances_trans a6 c6
  have c4 := utils.advances_trans a5 c5
  have c3 := utils.advances_trans a4 c4
  have c2 := utils.advances_trans a3 c3
  have c1 := utils.advances_trans a2 c2
  have img := fun (a b : assembler) (width v : Nat) (hts : table_start a b width v)
      (hadv : b.script.advances st.fixed.script) =>
    table_image ctx self data name res h st hst a b width v hts hadv
  refine ⟨st, hst, ⟨t1, hfs, t3, t4, t5, t6⟩, ⟨e1, e2, e3, e4, e5, ?_⟩,
    ⟨l1, l2, l3, l4, l5, l6, hlen⟩, ?_, ?_, ⟨hb, r1, r2, r3, r4, r5, r6, r7⟩, ⟨?_, ?_⟩,
    ⟨?_, ?_, hexp, ?_, ?_, ?_, ?_, ?_, ?_, ?_, ?_⟩, ⟨?_, ?_⟩⟩
  · intro hd
    rw [e6, hd]
    rfl
  · rw [e8, e3, e2]
    unfold usize_sub
    omega
  · intro hlt
    have e6' : has_prop ctx.props props.devstr = false →
        res.head.stringtablefixup_offset = st.animated.script.pos % 4294967296 := by
      intro hd
      rw [e6, hd]
      rfl
    refine ⟨by omega, by omega, by omega, by omega, fun hd => ?_, ?_⟩
    · have := e6' hd
      omega
    · rw [e8, e3, e2]
      unfold usize_sub
      omega
  · intro hx
    have a0' : 64 ≤ st.pooled.script.pos := by
      rw [hx] at a0
      simp only [Bool.false_eq_true, if_false] at a0
      split at a0 <;> omega
    omega
  · intro off v hm hoff
    rw [image_of_header _ _ _ _ _ h off 4 hoff]
    simp only [List.mem_cons, Prod.mk.injEq, List.mem_singleton, List.not_mem_nil, or_false] at hm
    rcases hm with ⟨rfl, rfl⟩ | ⟨rfl, rfl⟩ | ⟨rfl, rfl⟩ | ⟨rfl, rfl⟩ | ⟨rfl, rfl⟩ | ⟨rfl, rfl⟩ |
      ⟨rfl, rfl⟩
    · rw [r1]
    · rw [r2]
    · rw [r3]
    · rw [r4]
    · rw [r5]
    · rw [r6]
    · rw [r7]
  · intro hx
    rw [hx] at t1
    simp only [write_includes, Except.ok.injEq] at t1
    exact t1.symm
  · intro e rest hx
    rw [hx] at t1
    obtain ⟨hd, hhd, hts⟩ := write_includes_first _ _ _ _ t1
    exact ⟨hd, hhd, hts, img _ _ _ _ hts c1⟩
  · intro hx
    rw [hx] at t3
    simp only [write_exports, Except.ok.injEq] at t3
    exact t3.symm
  · intro e rest hx
    rw [hx] at t3
    have hts := write_exports_first _ _ _ _ _ t3
    exact ⟨hts, img _ _ _ _ hts c3⟩
  · intro hx
    rw [hx] at t4
    simp only [write_imports, Except.ok.injEq] at t4
    exact t4.symm
  · intro e rest hx
    rw [hx] at t4
    obtain ⟨i1, i2⟩ := write_imports_first _ _ _ _ _ t4
    refine ⟨fun hp => ⟨i1 hp, img _ _ _ _ (i1 hp) c4⟩, fun hp => ?_⟩
    obtain ⟨hd, hhd, hts⟩ := i2 hp
    exact ⟨hd, hhd, hts, img _ _ _ _ hts c4⟩
  · intro hx
    rw [hx] at t5
    simp only [write_animtrees, Except.ok.injEq] at t5
    exact t5.symm
  · intro e rest hx
    rw [hx] at t5
    obtain ⟨hd, hhd, hts⟩ := write_animtrees_first _ _ _ _ _ t5
    exact ⟨hd, hhd, hts, img _ _ _ _ hts c5⟩
  · intro hx
    rw [hx] at t6
    simp only [write_strings, Except.ok.injEq, Prod.mk.injEq] at t6
    exact t6.2.symm
  · intro e rest hx
    rw [hx] at t6
    obtain ⟨hd, hhd, hts⟩ := write_strings_first _ _ _ _ _ _ t6
    exact ⟨hd, hhd, hts, img _ _ _ _ hts c6⟩
  · intro hx
    rw [hx] at hfs
    simp only [assemble_functions, Except.ok.injEq, Prod.mk.injEq] at hfs
    exact hfs.2.symm
  · intro n hn f rest hx
    subst hn
    rw [hx] at hfs
    obtain ⟨hidx, -⟩ := assemble_functions_first _ _ _ _ _ hfs
    have hn : 0 < (if has_prop ctx.props props.size64 = true then 8 else 4) := by
      split <;> omega
    have hge := utils.align_up_ge st.included.script.pos _ hn
    refine ⟨rfl, rfl, ?_, hidx, ?_⟩
    · show _ ≤ utils.writer.align_up st.included.script.pos _ + _
      omega
    · intro i is hi
      obtain ⟨id, hid, hts⟩ := assemble_functions_start _ _ _ _ _ hfs i is hi
      exact ⟨id, hid, hts, img _ _ _ _ hts c2⟩

/-- The header of scenario S1 assembled on its context under the name `main`:
the cursors of its segments, the fields read from the image, and the first
export, whose checksum stands at `exports_offset` in the image. -/
theorem arc_header_offsets_witness :
    ∃ res st,
      assemble scenario_S1_context (assembler.create scenario_S1_context 4096)
        scenario_S1 "main" = .ok res ∧
      stages scenario_S1_context (assembler.create scenario_S1_context 4096)
        scenario_S1 "main" = .ok st ∧
      res.head.include_offset = st.pooled.script.pos % 4294967296 ∧
      res.head.cseg_size = res.head.exports_offset - res.head.cseg_offset ∧
      (res.head.include_offset, res.head.cseg_offset, res.head.exports_offset,
        res.head.imports_offset, res.head.animtree_offset, res.head.stringtablefixup_offset,
        res.head.cseg_size) = (69, 69, 82, 94, 94, 94, 13) ∧
      (res.script.drop 12).take 16 = [69, 0, 0, 0, 94, 0, 0, 0, 69, 0, 0, 0, 94, 0, 0, 0] ∧
      image_field false res.script 20 4 = some res.head.cseg_offset ∧
      (∀ e rest, st.coded.exports = e :: rest → table_start st.coded st.exported 4 e.checksum) ∧
      st.coded.script.pos = 82 ∧ (st.coded.exports.map fun e => e.offset) = [80] ∧
      (res.script.drop 80).take 6 = [7, 7, 0, 0, 0, 0] := by
  have hrun : ∃ res, assemble scenario_S1_context (assembler.create scenario_S1_context 4096)
      scenario_S1 "main" = .ok res := ⟨_, rfl⟩
  obtain ⟨res, hres⟩ := hrun
  obtain ⟨st, h1, -, ⟨h2, -⟩, ⟨-, -, -, -, -, -, hlen⟩, -, h5, -, ⟨-, h7⟩, ⟨-, -, -, -, h8, -⟩, -⟩ :=
    arc_header_offsets scenario_S1_context _ scenario_S1 "main" res hres
  have e1 : (assemble scenario_S1_context (assembler.create scenario_S1_context 4096)
      scenario_S1 "main").toOption.map (fun r => (r.script.length,
        (r.head.include_offset, r.head.cseg_offset, r.head.exports_offset,
          r.head.imports_offset, r.head.animtree_offset, r.head.stringtablefixup_offset,
          r.head.cseg_size), (r.script.drop 12).take 16, (r.script.drop 80).take 6)) =
      some (94, (69, 69, 82, 94, 94, 94, 13),
        [69, 0, 0, 0, 94, 0, 0, 0, 69, 0, 0, 0, 94, 0, 0, 0], [7, 7, 0, 0, 0, 0]) := by rfl
  have e2 : (stages scenario_S1_context (assembler.create scenario_S1_context 4096)
      scenario_S1 "main").toOption.map (fun s => (s.coded.script.pos,
        s.coded.exports.map fun e => e.offset)) = some (82, [80]) := by rfl
  rw [hres] at e1
  rw [h1] at e2
  simp only [Except.toOption, Option.map_some', Option.some.injEq, Prod.mk.injEq] at e1 e2
  obtain ⟨elen, ef, eb, ec⟩ := e1
  have hlt : st.fixed.script.pos < 4294967296 := by rw [← hlen, elen]; omega
  have him : image_field false res.script 20 4 = some res.head.cseg_offset :=
    h7 20 res.head.cseg_offset (by simp) (by rw [elen]; omega)
  exact ⟨res, st, hres, h1, h2, (h5 hlt).2.2.2.2.2, by simp only [Prod.mk.injEq]; exact ef, eb,
    him, fun e rest hx => (h8 e rest hx).1, e2.1, e2.2, ec⟩

end arc

end xsk

namespace xsk

namespace arc

/-- C12: an entry with `n ≥ 1` refs has `run_count n`, that is `n / 255`
rounded up, runs; run `j` holds `run_length n j = min(255, n − 255·j)` refs, at
most 255, and the runs hold `n` refs together. When the table emission
`write_strings` returns on entries that each have a ref, it has counted one
header per run of every entry, and the record of each entry, begun at the
cursor after the records before it, holds for every run `j` its header (the
handle of the name, the count byte `run_length n j`, the type byte) at
`run_offset` and every ref `i`, in stored order, at `ref_offset`; headers and
refs fill the record exactly, up to `table_end`. When `assemble` returns on a
context without `devstr`, `header.stringtablefixup_count` is the number of run
headers of all entries as `u16`, hence that number whenever it is below
`65536`. -/
theorem arc_string_fixup_table :
    (∀ n, 1 ≤ n →
      run_count n = (n + 254) / 255 ∧ 1 ≤ run_count n ∧
      (∀ j, run_length n j = min 255 (n - 255 * j) ∧ run_length n j ≤ 255) ∧
      (∀ j, j < run_count n → 1 ≤ run_length n j) ∧
      ((List.range (run_count n)).map (run_length n)).sum = n) ∧
    (∀ (ctx : context) (strings : List string_ref) (n : Nat) (self : assembler)
      (r : Nat × assembler),
      (∀ e, e ∈ strings → e.refs ≠ []) → write_strings ctx strings n self = .ok r →
      r.1 = n + table_headers strings ∧
      r.2.script.pos = table_end ctx self.script.pos strings ∧
      ∀ (pre : List string_ref) (e : string_ref) (post : List string_ref),
        strings = pre ++ e :: post →
        (∀ j, j < run_count e.refs.length →
          ∃ hd, resolve_string self e.name = .ok hd ∧
            r.2.script.read (run_offset ctx (table_end ctx self.script.pos pre) j)
              (handle_width ctx) = hd % 256 ^ handle_width ctx ∧
            r.2.script.read
              (run_offset ctx (table_end ctx self.script.pos pre) j + handle_width ctx) 1 =
              run_length e.refs.length j ∧
            r.2.script.read
              (run_offset ctx (table_end ctx self.script.pos pre) j + handle_width ctx + 1) 1 =
              e.type.code % 256) ∧
        (∀ i v, e.refs[i]? = some v →
          r.2.script.read (ref_offset ctx (table_end ctx self.script.pos pre) i) 4 =
            v % 4294967296) ∧
        table_end ctx self.script.pos (pre ++ [e]) =
          table_end ctx self.script.pos pre +
            (header_width ctx * run_count e.refs.length + 4 * e.refs.length)) ∧
    (∀ (ctx : context) (self : assembler) (data : assembly) (name : String)
      (res : assemble_result),
      has_prop ctx.props props.devstr = false → assemble ctx self data name = .ok res →
      (∀ e, e ∈ res.self.strings → e.refs ≠ []) ∧
      res.head.stringtablefixup_count = table_headers res.self.strings % 65536 ∧
      (table_headers res.self.strings < 65536 →
        res.head.stringtablefixup_count = table_headers res.self.strings) ∧
      ∃ st, stages ctx self data name = .ok st ∧
        write_strings ctx res.self.strings 0 st.animated =
          .ok (table_headers res.self.strings, st.fixed)) := by
  refine ⟨?_, ?_, ?_⟩
  · intro n hn
    obtain ⟨s1, s2⟩ := run_length_sum n
    refine ⟨rfl, by unfold run_count; omega, fun j => ⟨rfl, s1 j⟩, ?_, s2⟩
    intro j hj
    unfold run_count at hj
    unfold run_length
    omega
  · intro ctx strings n self r hne h
    obtain ⟨c1, c2, c3⟩ := write_strings_spec ctx strings n self r hne h
    refine ⟨c1, c2, ?_⟩
    intro pre e post hs
    obtain ⟨-, d1, d2⟩ := c3 pre e post hs
    refine ⟨d1, d2, ?_⟩
    have key : ∀ (l : List string_ref) (q : Nat),
        table_end ctx q (l ++ [e]) = table_end ctx q l +
          (header_width ctx * run_count e.refs.length + 4 * e.refs.length) := by
      intro l
      induction l with
      | nil =>
        intro q
        simp only [List.nil_append, table_end, entry_end]
        omega
      | cons a l ih =>
        intro q
        simp only [List.cons_append, table_end]
        exact ih _
    exact key pre _
  · intro ctx self data name res hd h
    obtain ⟨st, hst, -, -, -, -, -, -, e7, -, -, -, -, -, hstr, -⟩ :=
      assemble_stages_eq _ _ _ _ _ h
    obtain ⟨-, -, -, -, -, -, -, -, -, -, -, -, -, -, t6, hne, hfix, -⟩ :=
      stages_spec _ _ _ _ _ hst
    have hs : res.self.strings = st.animated.strings := hstr.trans hfix
    obtain ⟨c1, -, -⟩ := write_strings_spec ctx _ 0 _ _ hne t6
    simp only [Nat.zero_add] at c1
    rw [hd] at e7
    simp only [Bool.false_eq_true, if_false] at e7
    rw [c1, ← hs] at e7
    refine ⟨fun e he => hne e (hs ▸ he), e7, fun hlt => ?_, st, hst, ?_⟩
    · rw [e7, Nat.mod_eq_of_lt hlt]
    · rw [hs, ← c1]
      exact t6

set_option maxRecDepth 4000 in
/-- The record of an entry with 256 refs written at cursor 80: two headers,
the second with the count 1, and scenario S5 assembled: one header counted. -/
theorem arc_string_fixup_table_witness :
    (run_count 256 = 2 ∧ run_length 256 0 = 255 ∧ run_length 256 1 = 1) ∧
    (∃ r, write_strings sample_context [sample_long_entry] 0 sample_pooled = .ok r ∧
      r.1 = 2 ∧ r.2.script.pos = 1112 ∧
      r.2.script.read 1106 1 = 1 ∧ r.2.script.read 1108 4 = 1120) ∧
    ∃ res, assemble sample_context (assembler.create sample_context 4096)
        { functions := [scenario_S5], includes := [] } "" = .ok res ∧
      res.head.stringtablefixup_count = 1 := by
  refine ⟨⟨rfl, rfl, rfl⟩, ?_, ?_⟩
  · have hok : (write_strings sample_context [sample_long_entry] 0 sample_pooled).toBool =
        true := by rfl
    have hrun : ∃ r, write_strings sample_context [sample_long_entry] 0 sample_pooled =
        .ok r := by
      cases hfx : write_strings sample_context [sample_long_entry] 0 sample_pooled with
      | ok r => exact ⟨r, rfl⟩
      | error e =>
        rw [hfx] at hok
        cases hok
    obtain ⟨r, hr⟩ := hrun
    have hlen : sample_long_entry.refs.length = 256 := by rfl
    have hne : ∀ e, e ∈ [sample_long_entry] → e.refs ≠ [] := by
      intro e he
      rw [List.mem_singleton.1 he]
      intro h0
      rw [h0] at hlen
      cases hlen
    obtain ⟨c1, c2, c3⟩ := arc_string_fixup_table.2.1 sample_context [sample_long_entry] 0
      sample_pooled r hne hr
    obtain ⟨d1, d2, -⟩ := c3 [] sample_long_entry [] rfl
    have hpos : sample_pooled.script.pos = 80 := rfl
    have hw : header_width sample_context = 4 := rfl
    have hh : handle_width sample_context = 2 := rfl
    obtain ⟨hd, -, -, x2, -⟩ := d1 1 (by rw [hlen]; decide)
    have y := d2 255 (100 + 4 * 255) (by rfl)
    simp only [table_headers, table_end, entry_end, run_offset, ref_offset, run_length,
      run_count, hlen, hpos, hw, hh, List.map_cons, List.map_nil, List.sum_cons, List.sum_nil]
      at c1 c2 x2 y
    exact ⟨r, hr, c1, c2, x2, y⟩
  · have hok : (assemble sample_context (assembler.create sample_context 4096)
        { functions := [scenario_S5], includes := [] } "").toBool = true := by rfl
    have hrun : ∃ res, assemble sample_context (assembler.create sample_context 4096)
        { functions := [scenario_S5], includes := [] } "" = .ok res := by
      cases hfx : assemble sample_context (assembler.create sample_context 4096)
          { functions := [scenario_S5], includes := [] } "" with
      | ok r => exact ⟨r, rfl⟩
      | error e =>
        rw [hfx] at hok
        cases hok
    obtain ⟨res, hres⟩ := hrun
    obtain ⟨-, -, h3, -⟩ := arc_string_fixup_table.2.2 sample_context _ _ _ res rfl hres
    have e1 : (assemble sample_context (assembler.create sample_context 4096)
        { functions := [scenario_S5], includes := [] } "").toOption.map
        (fun r => table_headers r.self.strings) = some 1 := by rfl
    rw [hres] at e1
    simp only [Except.toOption, Option.map_some', Option.some.injEq] at e1
    exact ⟨res, hres, by rw [h3 (by omega), e1]⟩

end arc

end xsk

namespace xsk

namespace arc

/-- C19: when `assemble` returns, the string fixup table was written from
the cursor `st.animated` to the cursor `st.fixed`, which is `table_end`, just
after the last run. With `devstr` set, `header.stringtablefixup_offset` is
that end cursor as `u32` and `header.stringtablefixup_count` is 0. Without
`devstr`, `header.stringtablefixup_offset` is the cursor at which the table
begins as `u32`, where the header of the first run of the first entry stands
if there is an entry, and `header.stringtablefixup_count` is the number of run
headers as `u16`. Both fields are found in the header block of the script. -/
theorem arc_devstr_handling (ctx : context) (self : assembler) (data : assembly)
    (name : String) (res : assemble_result) (h : assemble ctx self data name = .ok res) :
    ∃ st, stages ctx self data name = .ok st ∧
      write_strings ctx res.self.strings 0 st.animated =
        .ok (table_headers res.self.strings, st.fixed) ∧
      st.fixed.script.pos = table_end ctx st.animated.script.pos res.self.strings ∧
      (has_prop ctx.props props.devstr = true →
        res.head.stringtablefixup_offset = st.fixed.script.pos % 4294967296 ∧
        res.head.stringtablefixup_count = 0) ∧
      (has_prop ctx.props props.devstr = false →
        res.head.stringtablefixup_offset = st.animated.script.pos % 4294967296 ∧
        res.head.stringtablefixup_count = table_headers res.self.strings % 65536 ∧
        ∀ e rest, res.self.strings = e :: rest →
          ∃ hd, resolve_string st.animated e.name = .ok hd ∧
            st.fixed.script.read st.animated.script.pos (handle_width ctx) =
              hd % 256 ^ handle_width ctx ∧
            st.fixed.script.read (st.animated.script.pos + handle_width ctx) 1 =
              min 255 e.refs.length) ∧
      res.self.script.read 24 4 = res.head.stringtablefixup_offset ∧
      res.self.script.read (48 + devstr_shift ctx + handle_width ctx) 2 =
        res.head.stringtablefixup_count := by
  obtain ⟨st, hst, -, -, -, -, -, e6, e7, -, -, -, -, -, hstr, -⟩ :=
    assemble_stages_eq _ _ _ _ _ h
  obtain ⟨-, -, -, -, -, -, -, -, -, -, -, -, -, -, t6, hne, hfix, -⟩ :=
    stages_spec _ _ _ _ _ hst
  obtain ⟨-, -, -, r4, -, -, -, r8, -⟩ := assemble_header_image _ _ _ _ _ h
  have hs : res.self.strings = st.animated.strings := hstr.trans hfix
  obtain ⟨c1, c2, c3⟩ := write_strings_spec ctx _ 0 _ _ hne t6
  simp only [Nat.zero_add] at c1
  refine ⟨st, hst, ?_, ?_, ?_, ?_, r4, r8⟩
  · rw [hs, ← c1]
    exact t6
  · rw [hs]
    exact c2
  · intro hd
    rw [hd] at e6 e7
    exact ⟨e6, e7⟩
  · intro hd
    rw [hd] at e6 e7
    refine ⟨e6, ?_, ?_⟩
    · rw [hs, ← c1]
      exact e7
    · intro e rest hsplit
      rw [hs] at hsplit
      obtain ⟨-, d1, -⟩ := c3 [] e rest hsplit
      have hlen : 1 ≤ e.refs.length := by
        have := hne e (by rw [hsplit]; exact List.mem_cons_self _ _)
        cases hr : e.refs with
        | nil => exact absurd hr this
        | cons a b => simp
      obtain ⟨hd', x0, x1, x2, -⟩ := d1 0 (by unfold run_count; omega)
      simp only [table_end, run_offset, run_length, Nat.zero_mul, Nat.add_zero, Nat.mul_zero,
        Nat.sub_zero] at x1 x2
      exact ⟨hd', x0, x1, x2⟩

/-- Scenario S5 assembled with and without `devstr`: the table of one run
takes the bytes 104 to 120 of the script; with `devstr` the header holds the
offset 120 and the count 0, without it the offset 104 and the count 1. -/
theorem arc_devstr_handling_witness :
    (∃ res st, assemble sample_context_devstr (assembler.create sample_context_devstr 4096)
        { functions := [scenario_S5], includes := [] } "" = .ok res ∧
      stages sample_context_devstr (assembler.create sample_context_devstr 4096)
        { functions := [scenario_S5], includes := [] } "" = .ok st ∧
      has_prop sample_context_devstr.props props.devstr = true ∧
      res.head.stringtablefixup_offset = st.fixed.script.pos % 4294967296 ∧
      res.head.stringtablefixup_count = 0 ∧ res.head.stringtablefixup_offset = 120) ∧
    ∃ res st, assemble sample_context (assembler.create sample_context 4096)
        { functions := [scenario_S5], includes := [] } "" = .ok res ∧
      stages sample_context (assembler.create sample_context 4096)
        { functions := [scenario_S5], includes := [] } "" = .ok st ∧
      res.head.stringtablefixup_offset = st.animated.script.pos % 4294967296 ∧
      res.head.stringtablefixup_count = table_headers res.self.strings % 65536 ∧
      res.head.stringtablefixup_offset = 104 ∧ res.head.stringtablefixup_count = 1 := by
  constructor
  · have hrun : ∃ res, assemble sample_context_devstr
        (assembler.create sample_context_devstr 4096)
        { functions := [scenario_S5], includes := [] } "" = .ok res := ⟨_, rfl⟩
    obtain ⟨res, hres⟩ := hrun
    obtain ⟨st, h1, -, -, h4, -⟩ := arc_devstr_handling sample_context_devstr _ _ _ res hres
    obtain ⟨h5, h6⟩ := h4 rfl
    have e1 : (assemble sample_context_devstr (assembler.create sample_context_devstr 4096)
        { functions := [scenario_S5], includes := [] } "").toOption.map
        (fun r => r.head.stringtablefixup_offset) = some 120 := by rfl
    rw [hres] at e1
    simp only [Except.toOption, Option.map_some', Option.some.injEq] at e1
    exact ⟨res, st, hres, h1, rfl, h5, h6, e1⟩
  · have hrun : ∃ res, assemble sample_context (assembler.create sample_context 4096)
        { functions := [scenario_S5], includes := [] } "" = .ok res := ⟨_, rfl⟩
    obtain ⟨res, hres⟩ := hrun
    obtain ⟨st, h1, -, -, -, h5, -⟩ := arc_devstr_handling sample_context _ _ _ res hres
    obtain ⟨h6, h7, -⟩ := h5 rfl
    have e1 : (assemble sample_context (assembler.create sample_context 4096)
        { functions := [scenario_S5], includes := [] } "").toOption.map
        (fun r => (r.head.stringtablefixup_offset, r.head.stringtablefixup_count)) =
        some (104, 1) := by rfl
    rw [hres] at e1
    simp only [Except.toOption, Option.map_some', Option.some.injEq, Prod.mk.injEq] at e1
    exact ⟨res, st, hres, h1, h6, h7, e1.1, e1.2⟩

end arc

end xsk

namespace xsk

namespace arc

/-! ## The string pool -/

theorem pooled_at_congr (w w' : utils.writer) (s : String) (p : Nat)
    (h : ∀ i, p ≤ i → i < p + (str_bytes s).length + 1 → w'.data i = w.data i)
    (hp : pooled_at w s p) : pooled_at w' s p := by
  refine ⟨fun k b hk => ?_, ?_⟩
  · have hlt : k < (str_bytes s).length := by
      rcases Nat.lt_or_ge k (str_bytes s).length with h | h
      · exact h
      · rw [List.getElem?_eq_none h] at hk
        cases hk
    rw [h _ (by omega) (by omega)]
    exact hp.1 k b hk
  · rw [h _ (by omega) (by omega)]
    exact hp.2

/-- Pooling a string that is in the pool changes nothing. -/
theorem process_string_pooled (self : assembler) (s : String)
    (h : s ∈ self.strpool.map Prod.fst) : process_string self s = .ok self := by
  unfold process_string
  rw [if_pos]
  rw [List.any_eq_true]
  rw [List.mem_map] at h
  obtain ⟨e, he, rfl⟩ := h
  exact ⟨e, he, by simp⟩

/-- Pooling a string that is not in the pool, when it returns: the bytes of
the string and a NUL are written at the cursor, and the pool maps the string
to the cursor as `u16`. -/
theorem process_string_new (self self' : assembler) (s : String)
    (hnew : s ∉ self.strpool.map Prod.fst) (h : process_string self s = .ok self') :
    self'.strpool = self.strpool ++ [(s, self.script.pos % 65536)] ∧
    self'.script.pos = self.script.pos + (str_bytes s).length + 1 ∧
    self'.script.pos ≤ self.script.size ∧
    pooled_at self'.script s self.script.pos ∧
    (∀ i, i < self.script.pos ∨ self'.script.pos ≤ i →
      self'.script.data i = self.script.data i) ∧
    self'.script.writes = self.script.writes ++ [(self.script.pos, (str_bytes s).length + 1)] := by
  unfold process_string at h
  rw [if_neg] at h
  · simp only [bind_eq_ok, pure, Except.pure, Except.ok.injEq] at h
    obtain ⟨w, hw, rfl⟩ := h
    obtain ⟨q1, q2, -, -, q5, q6⟩ := utils.put_ok _ _ _ hw
    simp only [List.length_append, List.length_singleton] at q1 q2 q5 q6
    refine ⟨rfl, by show w.pos = _; omega, by show w.pos ≤ _; omega, ⟨?_, ?_⟩, ?_, q5⟩
    · intro k b hk
      have hlt : k < (str_bytes s).length := by
        rcases Nat.lt_or_ge k (str_bytes s).length with h | h
        · exact h
        · rw [List.getElem?_eq_none h] at hk
          cases hk
      show w.data _ = _
      rw [q6, if_pos ⟨by omega, by omega⟩, Nat.add_sub_cancel_left]
      rw [List.getD_eq_getElem?_getD, List.getElem?_append_left hlt, hk]
      rfl
    · show w.data _ = _
      rw [q6, if_pos ⟨by omega, by omega⟩, Nat.add_sub_cancel_left]
      rw [List.getD_eq_getElem?_getD, List.getElem?_append_right (Nat.le_refl _)]
      simp
    · intro i hi
      show w.data i = _
      rw [q6, if_neg]
      have : w.pos = self.script.pos + ((str_bytes s).length + 1) := q2
      have hi' : i < self.script.pos ∨ w.pos ≤ i := hi
      omega
  · intro hany
    rw [List.any_eq_true] at hany
    obtain ⟨e, he, hes⟩ := hany
    exact hnew (List.mem_map.2 ⟨e, he, by simpa using hes⟩)

/-- Pooling a string that is not in the pool returns when the script has room
for its bytes and the NUL. -/
theorem process_string_of_fits (self : assembler) (s : String)
    (h : self.script.pos + (str_bytes s).length + 1 ≤ self.script.size) :
    ∃ self', process_string self s = .ok self' := by
  unfold process_string
  split
  · exact ⟨_, rfl⟩
  · obtain ⟨w, hw⟩ := utils.put_of_fits self.script (str_bytes s ++ [0])
      (by simp only [List.length_append, List.length_singleton]; omega)
    have : self.script.write_cstr (str_bytes s) = .ok w := hw
    simp only [this, bind, Except.bind, pure, Except.pure]
    exact ⟨_, rfl⟩

/-- What the pooling pass keeps of the pool: the keys are pairwise distinct,
and every pooled string stands, followed by a NUL, at an offset from `lo` on
below the cursor that the pool holds as `u16`. -/
theorem process_string_pool (lo : Nat) (s s' : assembler) (d : String)
    (h0 : lo ≤ s.script.pos ∧ (s.strpool.map Prod.fst).Nodup ∧
      ∀ e, e ∈ s.strpool → ∃ p, lo ≤ p ∧ p + (str_bytes e.1).length + 1 ≤ s.script.pos ∧
        p % 65536 = e.2 ∧ pooled_at s.script e.1 p)
    (h : process_string s d = .ok s') :
    lo ≤ s'.script.pos ∧ (s'.strpool.map Prod.fst).Nodup ∧
      ∀ e, e ∈ s'.strpool → ∃ p, lo ≤ p ∧ p + (str_bytes e.1).length + 1 ≤ s'.script.pos ∧
        p % 65536 = e.2 ∧ pooled_at s'.script e.1 p := by
  obtain ⟨hlo, hnd, hall⟩ := h0
  by_cases hmem : d ∈ s.strpool.map Prod.fst
  · rw [process_string_pooled _ _ hmem] at h
    cases h
    exact ⟨hlo, hnd, hall⟩
  · obtain ⟨e1, e2, -, e4, e5, -⟩ := process_string_new _ _ _ hmem h
    refine ⟨by omega, ?_, ?_⟩
    · rw [e1, List.map_append, List.nodup_append]
      refine ⟨hnd, by simp, ?_⟩
      intro a ha hb
      simp only [List.map_cons, List.map_nil, List.mem_singleton] at hb
      subst hb
      exact hmem ha
    · intro e he
      rw [e1, List.mem_append, List.mem_singleton] at he
      rcases he with he | rfl
      · obtain ⟨p, p1, p2, p3, p4⟩ := hall e he
        refine ⟨p, p1, by omega, p3, pooled_at_congr _ _ _ _ (fun i _ hi => e5 i (by omega)) p4⟩
      · exact ⟨s.script.pos, hlo, by simp only []; omega, rfl, e4⟩

theorem resolve_string_of_mem (self : assembler) (s : String) (o : Nat)
    (hnd : (self.strpool.map Prod.fst).Nodup) (h : (s, o) ∈ self.strpool) :
    resolve_string self s = .ok o := by
  unfold resolve_string
  generalize self.strpool = l at hnd h
  induction l with
  | nil => simp at h
  | cons e l ih =>
    simp only [List.map_cons, List.nodup_cons] at hnd
    simp only [List.mem_cons] at h
    rcases h with rfl | h
    · simp [List.find?]
    · have hne : e.1 ≠ s := fun he => hnd.1 (he ▸ List.mem_map_of_mem Prod.fst h)
      have hb : (e.1 == s) = false := by simpa using hne
      simp only [List.find?, hb]
      exact ih hnd.2 h

end arc

end xsk

namespace xsk

namespace arc

/-- The pool after the pooling pass of `assemble`. -/
theorem stages_pool (ctx : context) (self : assembler) (data : assembly) (name : String)
    (st : assemble_stages) (h : stages ctx self data name = .ok st) :
    script_start ctx ≤ st.pooled.script.pos ∧ (st.pooled.strpool.map Prod.fst).Nodup ∧
    name ∈ st.pooled.strpool.map Prod.fst ∧
    ∀ e, e ∈ st.pooled.strpool →
      ∃ p, script_start ctx ≤ p ∧ p + (str_bytes e.1).length + 1 ≤ st.pooled.script.pos ∧
        p % 65536 = e.2 ∧ pooled_at st.pooled.script e.1 p := by
  simp only [stages, bind_eq_ok, pure, Except.pure, Except.ok.injEq] at h
  obtain ⟨a2, h2, a3, h3, a4, h4, a5, h5, r, hr, a7, h7, a8, h8, a9, h9, t, ht, rfl⟩ := h
  have hP := pooling_induct
    (fun s => script_start ctx ≤ s.script.pos ∧ (s.strpool.map Prod.fst).Nodup ∧
      ∀ e, e ∈ s.strpool → ∃ p, script_start ctx ≤ p ∧
        p + (str_bytes e.1).length + 1 ≤ s.script.pos ∧
        p % 65536 = e.2 ∧ pooled_at s.script e.1 p)
    (fun s s' d hs hd => process_string_pool (script_start ctx) s s' d hs hd)
    data name
    { self.reset with
      devmap := self.reset.devmap.set_pos 4
      script := self.reset.script.set_pos (script_start ctx) } a2 a3 a4
    ⟨Nat.le_refl _, List.nodup_nil, fun e he => absurd he (List.not_mem_nil _)⟩ h2 h3 h4
  have hname : name ∈ a2.strpool.map Prod.fst := by
    obtain ⟨e1, -⟩ := process_string_new _ _ _ (by simp [assembler.reset]) h2
    rw [e1]
    simp
  have hgrow := pooling_induct
    (fun s => name ∈ s.strpool.map Prod.fst)
    (fun s s' d hs hd => by
      by_cases hmem : d ∈ s.strpool.map Prod.fst
      · rw [process_string_pooled _ _ hmem] at hd
        cases hd
        exact hs
      · obtain ⟨e1, -⟩ := process_string_new _ _ _ hmem hd
        rw [e1, List.map_append]
        exact List.mem_append_left _ hs)
    data name a2 a2 a3 a4 hname (process_string_pooled _ _ hname) h3 h4
  exact ⟨hP.1, hP.2.1, hgrow, hP.2.2⟩

end arc

end xsk

namespace xsk

namespace arc

/-- C13, as stated, fails on two counts. The pool keeps offsets as `u16`:
pooling `a` at cursor 65536 writes its bytes at 65536 and maps it to 0. And
the header block is written over the pool: on the context of scenario S1
(`props = {header64, size64}`) the script starts at 64 and the header block
takes 65 bytes, so after `assemble` of scenario S1 under the name `main` the
pool maps `main` to 64, `resolve_string` returns 64, and the image holds the
bytes `0, a, i, n, 0` there. -/
theorem arc_string_pool_counterexample :
    (process_string ((assembler.create sample_context 70000).seek 65536) "a").toOption.map
        (fun s => (s.strpool, s.script.writes, s.script.data 65536)) =
      some ([("a", 0)], [(65536, 2)], 97) ∧
    (assemble scenario_S1_context (assembler.create scenario_S1_context 4096)
        scenario_S1 "main").toOption.map
      (fun res => (res.self.strpool, resolve_string res.self "main",
        (res.script.drop 64).take 5, str_bytes "main")) =
      some ([("main", 64)], .ok 64, [0, 97, 105, 110, 0], [109, 97, 105, 110]) :=
  ⟨by rfl, by rfl⟩

/-- C13, amended. `process_string(s)` for a string in the pool returns the
assembler unchanged. For a string not in the pool it returns when the script
has room, and then it has written the bytes of `s` and a NUL at the cursor, in
one write, changed no other byte, and appended to the pool the entry that maps
`s` to the cursor modulo `2^16`. After `assemble`, the keys of the pool are
pairwise distinct, the script name is among them, and for every entry
`(s, o)`: `resolve_string(s)` returns `o`; the bytes of `s` and a NUL were
written at an offset `p` with `p % 2^16 = o`, at or after the start of the
script and inside the image; `p = o` when the image has at most `65536` bytes;
these bytes stand at `p` in the script before the header block is written, and
in the image whenever the header block (`header_size` bytes from offset 0)
ends at or before `p`, which is so for every pooled string when the header
block is no longer than the start of the script. -/
theorem arc_string_pool :
    (∀ (self : assembler) (s : String), s ∈ self.strpool.map Prod.fst →
      process_string self s = .ok self) ∧
    (∀ (self : assembler) (s : String), s ∉ self.strpool.map Prod.fst →
      (self.script.pos + (str_bytes s).length + 1 ≤ self.script.size →
        ∃ self', process_string self s = .ok self') ∧
      ∀ self', process_string self s = .ok self' →
        self'.strpool = self.strpool ++ [(s, self.script.pos % 65536)] ∧
        self'.script.pos = self.script.pos + (str_bytes s).length + 1 ∧
        pooled_at self'.script s self.script.pos ∧
        (∀ i, i < self.script.pos ∨ self'.script.pos ≤ i →
          self'.script.data i = self.script.data i) ∧
        self'.script.writes =
          self.script.writes ++ [(self.script.pos, (str_bytes s).length + 1)]) ∧
    (∀ (ctx : context) (self : assembler) (data : assembly) (name : String)
      (res : assemble_result), assemble ctx self data name = .ok res →
      (res.self.strpool.map Prod.fst).Nodup ∧ name ∈ res.self.strpool.map Prod.fst ∧
      ∀ s o, (s, o) ∈ res.self.strpool →
        resolve_string res.self s = .ok o ∧
        ∃ p, p % 65536 = o ∧ script_start ctx ≤ p ∧
          p + (str_bytes s).length + 1 ≤ res.script.length ∧
          (res.script.length ≤ 65536 → p = o) ∧
          (∀ st, stages ctx self data name = .ok st → pooled_at st.fixed.script s p) ∧
          (header_size ctx ≤ p → pooled_at res.self.script s p) ∧
          (header_size ctx ≤ script_start ctx → pooled_at res.self.script s p)) := by
  refine ⟨process_string_pooled, ?_, ?_⟩
  · intro self s hnew
    refine ⟨process_string_of_fits self s, ?_⟩
    intro self' h
    obtain ⟨e1, e2, -, e4, e5, e6⟩ := process_string_new _ _ _ hnew h
    exact ⟨e1, e2, e4, e5, e6⟩
  · intro ctx self data name res h
    obtain ⟨st, hst, -, -, -, -, -, -, -, -, -, -, -, hb, -, hpool, -, -⟩ :=
      assemble_stages_eq _ _ _ _ _ h
    obtain ⟨-, a1, a2, a3, a4, a5, a6, -, -, -, -, -, -, -, -, -, -, hfp, -⟩ :=
      stages_spec _ _ _ _ _ hst
    obtain ⟨-, -, -, -, -, -, -, -, -, habove, hfin⟩ := assemble_header_image _ _ _ _ _ h
    obtain ⟨hpos, -⟩ := hfin st hst
    obtain ⟨q1, q2, q3, q4⟩ := stages_pool _ _ _ _ _ hst
    have hp : res.self.strpool = st.pooled.strpool := hpool.trans hfp
    have adv := utils.advances_trans a1 (utils.advances_trans a2 (utils.advances_trans a3
      (utils.advances_trans a4 (utils.advances_trans a5 a6))))
    have hlen : res.script.length = st.fixed.script.pos := by
      rw [hb, utils.bytes_length, hpos]
    refine ⟨by rw [hp]; exact q2, by rw [hp]; exact q3, ?_⟩
    intro s o hso
    refine ⟨resolve_string_of_mem _ _ _ (by rw [hp]; exact q2) hso, ?_⟩
    rw [hp] at hso
    obtain ⟨p, p1, p2, p3, p4⟩ := q4 (s, o) hso
    have hle := adv.le
    have hfixed : pooled_at st.fixed.script s p :=
      pooled_at_congr _ _ _ _ (fun i _ hi => adv.below i (by simp only [] at p2; omega)) p4
    have himg : header_size ctx ≤ p → pooled_at res.self.script s p := fun hh =>
      pooled_at_congr _ _ _ _ (fun i hi _ => habove i (by omega) st hst) hfixed
    refine ⟨p, p3, p1, by rw [hlen]; simp only [] at p2; omega, ?_, ?_, himg,
      fun hh => himg (by omega)⟩
    · intro h16
      simp only [] at p2 p3
      rw [← p3]
      exact (Nat.mod_eq_of_lt (by omega)).symm
    · intro st' hst'
      rw [hst] at hst'
      cases hst'
      exact hfixed

/-- The pool of scenario S5 assembled on the sample context, whose header
block ends before the script starts: `hello` stands at the offset 70 that
`resolve_string` returns. -/
theorem arc_string_pool_witness :
    (process_string (assembler.create sample_context 16) "ab").toOption.map
        (fun s => (s.strpool, s.script.bytes)) = some ([("ab", 0)], [97, 98, 0]) ∧
    ∃ res, assemble sample_context (assembler.create sample_context 4096)
        { functions := [scenario_S5], includes := [] } "" = .ok res ∧
      ("hello", 70) ∈ res.self.strpool ∧
      resolve_string res.self "hello" = .ok 70 ∧
      pooled_at res.self.script "hello" 70 ∧
      (res.script.drop 70).take 6 = [104, 101, 108, 108, 111, 0] := by
  refine ⟨by rfl, ?_⟩
  have hrun : ∃ res, assemble sample_context (assembler.create sample_context 4096)
      { functions := [scenario_S5], includes := [] } "" = .ok res := ⟨_, rfl⟩
  obtain ⟨res, hres⟩ := hrun
  have e1 : (assemble sample_context (assembler.create sample_context 4096)
      { functions := [scenario_S5], includes := [] } "").toOption.map
      (fun r => (r.self.strpool, r.script.length, (r.script.drop 70).take 6)) =
      some ([("", 64), ("main", 65), ("hello", 70)], 120, [104, 101, 108, 108, 111, 0]) := by rfl
  rw [hres] at e1
  simp only [Except.toOption, Option.map_some', Option.some.injEq, Prod.mk.injEq] at e1
  obtain ⟨epool, elen, ebytes⟩ := e1
  have hmem : ("hello", 70) ∈ res.self.strpool := by rw [epool]; simp
  obtain ⟨-, -, hall⟩ := arc_string_pool.2.2 sample_context _ _ _ res hres
  obtain ⟨hr, p, p1, -, -, p4, -, -, p7⟩ := hall "hello" 70 hmem
  have hp : p = 70 := (p4 (by rw [elen]; omega))
  subst hp
  exact ⟨res, hres, hmem, hr, p7 (by decide), ebytes⟩

end arc

end xsk

namespace xsk

/-! ## Failures other than an unresolved string -/

theorem no_unres_ok {α : Type} (a : α) : no_unres (Except.ok a : Except asm_error α) := by
  intro h
  cases h

theorem no_unres_pure {α : Type} (a : α) : no_unres (pure a : Except asm_error α) := by
  intro h
  cases h

theorem no_unres_bind {α β : Type} (x : Except asm_error α) (f : α → Except asm_error β)
    (hx : no_unres x) (hf : ∀ a, x = .ok a → no_unres (f a)) : no_unres (x >>= f) := by
  cases x with
  | error e =>
    intro h
    apply hx
    simpa [bind, Except.bind] using h
  | ok a => exact hf a rfl

theorem no_unres_operand (data : List String) (k : Nat) : no_unres (operand data k) := by
  unfold operand
  split <;> (intro h; cases h)

theorem no_unres_stoi (s : String) : no_unres (stoi s) := by
  unfold stoi no_unres
  split
  · simp
  · dsimp only
    repeat' split
    all_goals simp

theorem no_unres_stoul_base (base : Nat) (s : List Nat) : no_unres (stoul_base base s) := by
  unfold stoul_base no_unres
  split
  · simp
  · split <;> simp

theorem no_unres_stoul (s : String) : no_unres (stoul s) :=
  no_unres_stoul_base _ _

theorem no_unres_resolve_label (labels : label_map) (name : String) :
    no_unres (resolve_label labels name) := by
  unfold resolve_label
  split <;> (intro h; cases h)

namespace utils

theorem no_unres_put (w : writer) (bs : List Nat) : no_unres (w.put bs) := by
  unfold writer.put
  split <;> (intro h; cases h)

theorem no_unres_writer_write (w : writer) (width v : Nat) : no_unres (w.write width v) :=
  no_unres_put _ _

theorem no_unres_write_cstr (w : writer) (s : List Nat) : no_unres (w.write_cstr s) :=
  no_unres_put _ _

end utils

namespace arc

theorem no_unres_write (self : assembler) (width v : Nat) : no_unres (self.write width v) := by
  unfold assembler.write
  have := utils.no_unres_writer_write self.script width v
  split
  · intro h; cases h
  · rename_i e he
    intro h
    apply this
    rw [he]
    cases h
    rfl

theorem no_unres_write_devmap (self : assembler) (width v : Nat) :
    no_unres (self.write_devmap width v) := by
  unfold assembler.write_devmap
  have := utils.no_unres_writer_write self.devmap width v
  split
  · intro h; cases h
  · rename_i e he
    intro h
    apply this
    rw [he]
    cases h
    rfl

theorem no_unres_process_string (self : assembler) (s : String) :
    no_unres (process_string self s) := by
  unfold process_string
  split
  · exact no_unres_ok _
  · exact no_unres_bind _ _ (utils.no_unres_write_cstr _ _) (fun _ _ => no_unres_pure _)

theorem no_unres_process_strings (l : List String) (self : assembler) :
    no_unres (process_strings l self) := by
  induction l generalizing self with
  | nil => exact no_unres_ok _
  | cons e l ih =>
    exact no_unres_bind _ _ (no_unres_process_string _ _) (fun _ _ => ih _)

theorem no_unres_process_switch_cases (data : List String) (n i : Nat) (self : assembler) :
    no_unres (process_switch_cases data n i self) := by
  induction n generalizing i self with
  | zero => exact no_unres_ok _
  | succ n ih =>
    unfold process_switch_cases
    repeat' first
      | with_reducible exact ih _ _
      | with_reducible exact no_unres_operand _ _
      | with_reducible exact no_unres_stoul _
      | with_reducible exact no_unres_process_string _ _
      | refine no_unres_bind _ _ ?_ (fun _ _ => ?_)
      | split

theorem no_unres_process_instruction (self : assembler) (inst : instruction) :
    no_unres (process_instruction self inst) := by
  unfold process_instruction
  split
  all_goals repeat' first
    | with_reducible exact no_unres_ok _
    | with_reducible exact no_unres_operand _ _
    | with_reducible exact no_unres_stoul _
    | with_reducible exact no_unres_process_string _ _
    | with_reducible exact no_unres_process_strings _ _
    | with_reducible exact no_unres_process_switch_cases _ _ _ _
    | refine no_unres_bind _ _ ?_ (fun _ _ => ?_)
    | split

theorem no_unres_process_instructions (l : List instruction) (self : assembler) :
    no_unres (process_instructions l self) := by
  induction l generalizing self with
  | nil => exact no_unres_ok _
  | cons e l ih =>
    exact no_unres_bind _ _ (no_unres_process_instruction _ _) (fun _ _ => ih _)

theorem no_unres_process_functions (l : List function) (self : assembler) :
    no_unres (process_functions l self) := by
  induction l generalizing self with
  | nil => exact no_unres_ok _
  | cons e l ih =>
    refine no_unres_bind _ _ ?_ (fun _ _ => ih _)
    exact no_unres_bind _ _ (no_unres_process_string _ _)
      (fun _ _ => no_unres_process_instructions _ _)

theorem no_unres_import_matches (entry : import_ref) (data : List String) :
    no_unres (import_matches entry data) := by
  unfold import_matches
  repeat' first
    | with_reducible exact no_unres_pure _
    | with_reducible exact no_unres_operand _ _
    | with_reducible exact no_unres_stoi _
    | refine no_unres_bind _ _ ?_ (fun _ _ => ?_)
    | split

theorem no_unres_add_importref (data : List String) (ref : Nat) (l : List import_ref) :
    no_unres (add_importref data ref l) := by
  induction l with
  | nil =>
    unfold add_importref
    repeat' first
      | with_reducible exact no_unres_pure _
      | with_reducible exact no_unres_operand _ _
      | with_reducible exact no_unres_stoi _
      | refine no_unres_bind _ _ ?_ (fun _ _ => ?_)
  | cons e l ih =>
    unfold add_importref
    repeat' first
      | with_reducible exact no_unres_pure _
      | with_reducible exact ih
      | with_reducible exact no_unres_import_matches _ _
      | refine no_unres_bind _ _ ?_ (fun _ _ => ?_)
      | split

theorem no_unres_add_animref (data : List String) (ref : Nat) (l : List animtree_ref) :
    no_unres (add_animref data ref l) := by
  induction l with
  | nil =>
    unfold add_animref
    repeat' first
      | with_reducible exact no_unres_pure _
      | with_reducible exact no_unres_operand _ _
      | refine no_unres_bind _ _ ?_ (fun _ _ => ?_)
      | split
  | cons e l ih =>
    unfold add_animref
    repeat' first
      | with_reducible exact no_unres_pure _
      | with_reducible exact ih
      | with_reducible exact no_unres_operand _ _
      | refine no_unres_bind _ _ ?_ (fun _ _ => ?_)
      | split

theorem no_unres_align_switch_cases (data : List String) (n i size : Nat) (self : assembler) :
    no_unres (align_switch_cases data n i size self) := by
  induction n generalizing i size self with
  | zero => exact no_unres_ok _
  | succ n ih =>
    unfold align_switch_cases
    repeat' first
      | with_reducible exact ih _ _ _
      | with_reducible exact no_unres_operand _ _
      | with_reducible exact no_unres_stoul _
      | refine no_unres_bind _ _ ?_ (fun _ _ => ?_)
      | split

theorem no_unres_align_operands (self : assembler) (inst : instruction) :
    no_unres (align_operands self inst) := by
  unfold align_operands
  split
  all_goals repeat' first
    | with_reducible exact no_unres_ok _
    | with_reducible exact no_unres_pure _
    | (intro h; cases h)
    | with_reducible exact no_unres_operand _ _
    | with_reducible exact no_unres_stoul _
    | with_reducible exact no_unres_add_importref _ _ _
    | with_reducible exact no_unres_add_animref _ _ _
    | with_reducible exact no_unres_align_switch_cases _ _ _ _ _
    | refine no_unres_bind _ _ ?_ (fun _ _ => ?_)
    | split

theorem no_unres_align_instruction (ctx : context) (self : assembler) (inst : instruction) :
    no_unres (align_instruction ctx self inst) :=
  no_unres_align_operands _ _

theorem no_unres_layout_instructions (ctx : context) (index : Nat) (old : label_map)
    (l : List instruction) (size : Nat) (labels : label_map) (self : assembler) :
    no_unres (layout_instructions ctx index old l size labels self) := by
  induction l generalizing size labels self with
  | nil => exact no_unres_ok _
  | cons e l ih =>
    unfold layout_instructions
    refine no_unres_bind _ _ (no_unres_align_instruction _ _ _) (fun _ _ => ?_)
    exact no_unres_bind _ _ (ih _ _ _) (fun _ _ => no_unres_pure _)

theorem no_unres_write_devmap_entry (ctx : context) (self : assembler) (inst : instruction) :
    no_unres (write_devmap_entry ctx self inst) := by
  unfold write_devmap_entry
  repeat' first
    | with_reducible exact no_unres_ok _
    | with_reducible exact no_unres_pure _
    | with_reducible exact no_unres_write_devmap _ _ _
    | refine no_unres_bind _ _ ?_ (fun _ _ => ?_)
    | split

theorem no_unres_assemble_localvars_slots (n : Nat) (self : assembler) :
    no_unres (assemble_localvars_slots n self) := by
  induction n generalizing self with
  | zero => exact no_unres_ok _
  | succ n ih =>
    exact no_unres_bind _ _ (no_unres_write _ _ _) (fun _ _ => ih _)

theorem no_unres_switch_case_value (data : List String) (i type : Nat) :
    no_unres (switch_case_value data i type) := by
  unfold switch_case_value
  repeat' first
    | with_reducible exact no_unres_ok _
    | with_reducible exact no_unres_pure _
    | with_reducible exact no_unres_operand _ _
    | with_reducible exact no_unres_stoi _
    | refine no_unres_bind _ _ ?_ (fun _ _ => ?_)
    | split

theorem no_unres_assemble_switch_cases (labels : label_map) (data : List String) (n i : Nat)
    (self : assembler) : no_unres (assemble_switch_cases labels data n i self) := by
  induction n generalizing i self with
  | zero => exact no_unres_ok _
  | succ n ih =>
    unfold assemble_switch_cases
    repeat' first
      | with_reducible exact ih _ _
      | (intro h; cases h)
      | with_reducible exact no_unres_operand _ _
      | with_reducible exact no_unres_stoul _
      | with_reducible exact no_unres_switch_case_value _ _ _
      | with_reducible exact no_unres_resolve_label _ _
      | with_reducible exact no_unres_write _ _ _
      | refine no_unres_bind _ _ ?_ (fun _ _ => ?_)
      | split

theorem no_unres_assemble_operands (ctx : context) (labels : label_map) (self : assembler)
    (inst : instruction) : no_unres (assemble_operands ctx labels self inst) := by
  unfold assemble_operands
  split
  all_goals
    try unfold write_byte_operand
    try unfold write_float_operand
    try unfold assemble_localvars
    try unfold assemble_jump
    try unfold assemble_switch
    try unfold assemble_switch_table
    repeat' first
      | with_reducible exact no_unres_ok _
      | with_reducible exact no_unres_pure _
      | (intro h; cases h)
      | with_reducible exact no_unres_operand _ _
      | with_reducible exact no_unres_stoi _
      | with_reducible exact no_unres_stoul _
      | with_reducible exact no_unres_resolve_label _ _
      | with_reducible exact no_unres_write _ _ _
      | with_reducible exact no_unres_assemble_localvars_slots _ _
      | with_reducible exact no_unres_assemble_switch_cases _ _ _ _ _
      | refine no_unres_bind _ _ ?_ (fun _ _ => ?_)
      | split

theorem no_unres_assemble_instructions (ctx : context) (labels : label_map)
    (l : List instruction) (self : assembler) :
    no_unres (assemble_instructions ctx labels l self) := by
  induction l generalizing self with
  | nil => exact no_unres_ok _
  | cons e l ih =>
    refine no_unres_bind _ _ ?_ (fun _ _ => ih _)
    unfold assemble_instruction
    split
    · intro h; cases h
    · refine no_unres_bind _ _ (no_unres_write _ _ _) (fun _ _ => ?_)
      exact no_unres_bind _ _ (no_unres_write_devmap_entry _ _ _)
        (fun _ _ => no_unres_assemble_operands _ _ _ _)

theorem no_unres_assemble_function (ctx : context) (self : assembler) (func : function) :
    no_unres (assemble_function ctx self func) := by
  unfold assemble_function
  refine no_unres_bind _ _ (no_unres_layout_instructions _ _ _ _ _ _ _) (fun _ _ => ?_)
  exact no_unres_bind _ _ (no_unres_assemble_instructions _ _ _ _) (fun _ _ => no_unres_pure _)

theorem no_unres_assemble_functions (ctx : context) (l : List function) (self : assembler) :
    no_unres (assemble_functions ctx l self) := by
  induction l generalizing self with
  | nil => exact no_unres_ok _
  | cons e l ih =>
    unfold assemble_functions
    refine no_unres_bind _ _ (no_unres_assemble_function _ _ _) (fun _ _ => ?_)
    exact no_unres_bind _ _ (ih _) (fun _ _ => no_unres_pure _)

theorem no_unres_write_refs (l : List Nat) (self : assembler) : no_unres (write_refs l self) := by
  induction l generalizing self with
  | nil => exact no_unres_ok _
  | cons e l ih => exact no_unres_bind _ _ (no_unres_write _ _ _) (fun _ _ => ih _)

theorem no_unres_write_fields (l : List (Nat × Nat)) (self : assembler) :
    no_unres (write_fields l self) := by
  induction l generalizing self with
  | nil => exact no_unres_ok _
  | cons e l ih => exact no_unres_bind _ _ (no_unres_write _ _ _) (fun _ _ => ih _)

end arc

end xsk

namespace xsk

namespace arc

/-! ## The names pooled by the pooling pass -/

theorem process_string_adds (s s' : assembler) (d : String)
    (h : process_string s d = .ok s') :
    pooled s' d ∧ ∀ n, pooled s n → pooled s' n := by
  by_cases hmem : d ∈ s.strpool.map Prod.fst
  · rw [process_string_pooled _ _ hmem] at h
    cases h
    exact ⟨hmem, fun n hn => hn⟩
  · obtain ⟨e1, -⟩ := process_string_new _ _ _ hmem h
    unfold pooled
    rw [e1, List.map_append]
    exact ⟨List.mem_append_right _ (by simp), fun n hn => List.mem_append_left _ hn⟩

theorem process_strings_adds (l : List String) (s s' : assembler)
    (h : process_strings l s = .ok s') :
    (∀ n, n ∈ l → pooled s' n) ∧ ∀ n, pooled s n → pooled s' n := by
  induction l generalizing s with
  | nil =>
    simp only [process_strings, Except.ok.injEq] at h
    subst h
    exact ⟨fun n hn => absurd hn (List.not_mem_nil _), fun n hn => hn⟩
  | cons e l ih =>
    simp only [process_strings, bind_eq_ok] at h
    obtain ⟨s1, h1, h⟩ := h
    obtain ⟨a1, a2⟩ := process_string_adds _ _ _ h1
    obtain ⟨b1, b2⟩ := ih _ h
    refine ⟨fun n hn => ?_, fun n hn => b2 n (a2 n hn)⟩
    simp only [List.mem_cons] at hn
    rcases hn with rfl | hn
    · exact b2 _ a1
    · exact b1 n hn

theorem process_switch_cases_mono (data : List String) (n i : Nat) (s s' : assembler)
    (h : process_switch_cases data n i s = .ok s') : ∀ m, pooled s m → pooled s' m :=
  fun m hm => process_switch_cases_induct (fun x => pooled x m)
    (fun a b d ha hd => (process_string_adds a b d hd).2 m ha) _ _ _ _ _ hm h

theorem process_instruction_mono (s s' : assembler) (inst : instruction)
    (h : process_instruction s inst = .ok s') : ∀ m, pooled s m → pooled s' m :=
  fun m hm => process_instruction_induct (fun x => pooled x m)
    (fun a b d ha hd => (process_string_adds a b d hd).2 m ha) _ _ _ hm h

theorem process_instructions_mono (l : List instruction) (s s' : assembler)
    (h : process_instructions l s = .ok s') : ∀ m, pooled s m → pooled s' m :=
  fun m hm => process_instructions_induct (fun x => pooled x m)
    (fun a b d ha hd => (process_string_adds a b d hd).2 m ha) _ _ _ hm h

theorem process_functions_mono (l : List function) (s s' : assembler)
    (h : process_functions l s = .ok s') : ∀ m, pooled s m → pooled s' m :=
  fun m hm => process_functions_induct (fun x => pooled x m)
    (fun a b d ha hd => (process_string_adds a b d hd).2 m ha) _ _ _ hm h

/-- The names of the string cases of a switch table are pooled by the loop of
`process_instruction`. -/
theorem process_switch_cases_names (data : List String) (n i q : Nat) (s s' : assembler)
    (h : process_switch_cases data n i s = .ok s') :
    ∀ m t r, (m, t, r) ∈ switch_fixups data n i q → pooled s' m := by
  induction n generalizing i q s with
  | zero =>
    intro m t r hm
    simp [switch_fixups] at hm
  | succ n ih =>
    intro m t r hm
    simp only [process_switch_cases, bind_eq_ok] at h
    obtain ⟨head, hhead, h⟩ := h
    rw [operand_eq_ok] at hhead
    simp only [switch_fixups] at hm
    split at h
    · rename_i hcase
      simp only [bind_eq_ok] at h
      obtain ⟨tt, htt, type, htype, h⟩ := h
      rw [operand_eq_ok] at htt
      split at h
      · rename_i hstr
        simp only [bind_eq_ok] at h
        obtain ⟨name, hname, s1, h1, h⟩ := h
        rw [operand_eq_ok] at hname
        have hc : data[1 + 4 * i]? = some "case" ∧
            ((data[1 + 4 * i + 1]?).map fun t => (stoul t).toOption.map to_switch_type) =
              some (some switch_type_string) := by
          refine ⟨by rw [hhead, hcase], ?_⟩
          rw [htt]
          simp [htype, Except.toOption, hstr]
        rw [if_pos hc] at hm
        simp only [List.mem_cons, Prod.mk.injEq] at hm
        rcases hm with ⟨rfl, -, -⟩ | hm
        · have : data.getD (1 + 4 * i + 2) "" = name := by
            simp [List.getD, hname]
          rw [this]
          exact process_switch_cases_mono _ _ _ _ _ h _ (process_string_adds _ _ _ h1).1
        · exact ih _ _ _ h m t r hm
      · rename_i hstr
        have hc : ¬ (data[1 + 4 * i]? = some "case" ∧
            ((data[1 + 4 * i + 1]?).map fun t => (stoul t).toOption.map to_switch_type) =
              some (some switch_type_string)) := by
          rintro ⟨-, hx⟩
          rw [htt] at hx
          simp [htype, Except.toOption] at hx
          exact hstr hx
        rw [if_neg hc] at hm
        exact ih _ _ _ h m t r hm
    · rename_i hcase
      have hc : ¬ (data[1 + 4 * i]? = some "case" ∧
          ((data[1 + 4 * i + 1]?).map fun t => (stoul t).toOption.map to_switch_type) =
            some (some switch_type_string)) := by
        rintro ⟨hx, -⟩
        rw [hhead] at hx
        exact hcase (Option.some.inj hx)
      rw [if_neg hc] at hm
      exact ih _ _ _ h m t r hm

end arc

end xsk

namespace xsk

namespace arc

set_option maxHeartbeats 4000000 in
/-- The names that the layout of an instruction records are pooled by
`process_instruction`, provided a two-operand `GetInteger` has `-1` as its
second operand. -/
theorem process_instruction_names (s s' : assembler) (inst : instruction)
    (hint : inst.opcode = opcode.OP_GetInteger → inst.data.length = 2 →
      inst.data[1]? = some "-1")
    (h : process_instruction s inst = .ok s') : names_in (pooled s') inst := by
  obtain ⟨op, ps, idx, sz, data⟩ := inst
  cases op <;> simp only [process_instruction] at h
  all_goals first
    | (refine ⟨fun hk => ?_, fun ho => ?_, fun p n t r hm => ?_⟩
       · simp [kind_of] at hk
       · simp at ho
       · simp [string_fixups, kind_of] at hm)
    | skip
  case mk.OP_GetString | mk.OP_GetIString | mk.OP_EvalFieldVariable | mk.OP_EvalFieldVariableRef
      | mk.OP_ClearFieldVariable =>
    simp only [bind_eq_ok] at h
    obtain ⟨d0, hd0, h⟩ := h
    rw [operand_eq_ok] at hd0
    refine ⟨fun hk => ?_, fun ho => ?_, fun p n t r hm => ?_⟩
    · simp [kind_of] at hk
    · simp at ho
    · simp only [string_fixups, kind_of, List.mem_singleton, Prod.mk.injEq] at hm
      obtain ⟨rfl, -, -⟩ := hm
      have : data.getD 0 "" = d0 := by simp [List.getD, hd0]
      rw [this]
      exact (process_string_adds _ _ _ h).1
  case mk.OP_GetAnimation =>
    simp only [bind_eq_ok] at h
    obtain ⟨d0, hd0, s1, h1, d1, hd1, h⟩ := h
    rw [operand_eq_ok] at hd0 hd1
    obtain ⟨a1, a2⟩ := process_string_adds _ _ _ h1
    obtain ⟨b1, b2⟩ := process_string_adds _ _ _ h
    refine ⟨fun hk => ?_, fun ho => ⟨fun x hx => ?_, fun x hx _ => ?_⟩, fun p n t r hm => ?_⟩
    · simp [kind_of] at hk
    · simp only [] at hx
      rw [hd0] at hx
      cases hx
      exact b2 _ a1
    · simp only [] at hx
      rw [hd1] at hx
      cases hx
      exact b1
    · simp [string_fixups, kind_of] at hm
  case mk.OP_GetInteger =>
    refine ⟨fun hk => ?_, fun ho => ?_, fun p n t r hm => ?_⟩
    · simp [kind_of] at hk
    · simp only [reduceCtorEq, false_or, true_and] at ho
      rw [if_pos ho] at h
      simp only [bind_eq_ok] at h
      obtain ⟨d0, hd0, h⟩ := h
      rw [operand_eq_ok] at hd0
      refine ⟨fun x hx => ?_, fun x hx hne => ?_⟩
      · simp only [] at hx
        rw [hd0] at hx
        cases hx
        exact (process_string_adds _ _ _ h).1
      · have := hint rfl ho
        simp only [] at hx this
        rw [this] at hx
        cases hx
        exact absurd rfl hne
    · simp [string_fixups, kind_of] at hm
  case mk.OP_GetFunction | mk.OP_CallBuiltin | mk.OP_CallBuiltinMethod | mk.OP_ScriptFunctionCall
      | mk.OP_ScriptMethodCall | mk.OP_ScriptThreadCall | mk.OP_ScriptMethodThreadCall =>
    simp only [bind_eq_ok] at h
    obtain ⟨d0, hd0, s1, h1, d1, hd1, h⟩ := h
    rw [operand_eq_ok] at hd0 hd1
    obtain ⟨a1, a2⟩ := process_string_adds _ _ _ h1
    obtain ⟨b1, b2⟩ := process_string_adds _ _ _ h
    refine ⟨fun hk x y hx hy => ?_, fun ho => ?_, fun p n t r hm => ?_⟩
    · simp only [] at hx hy
      rw [hd0] at hx
      rw [hd1] at hy
      cases hx
      cases hy
      exact ⟨b2 _ a1, b1⟩
    · simp at ho
    · simp [string_fixups, kind_of] at hm
  case mk.OP_SafeCreateLocalVariables =>
    refine ⟨fun hk => ?_, fun ho => ?_, fun p n t r hm => ?_⟩
    · simp [kind_of] at hk
    · simp at ho
    · simp only [string_fixups, kind_of, List.mem_map] at hm
      obtain ⟨e, he, heq⟩ := hm
      simp only [Prod.mk.injEq] at heq
      obtain ⟨rfl, -, -⟩ := heq
      exact (process_strings_adds _ _ _ h).1 _ (List.of_mem_zip he).1
  case mk.OP_EndSwitch =>
    simp only [bind_eq_ok] at h
    obtain ⟨d0, hd0, count, hcount, h⟩ := h
    rw [operand_eq_ok] at hd0
    have hsc : switch_count data = count := by
      simp [switch_count, hd0, hcount]
    refine ⟨fun hk => ?_, fun ho => ?_, fun p n t r hm => ?_⟩
    · simp [kind_of] at hk
    · simp at ho
    · simp only [string_fixups, kind_of, hsc] at hm
      exact process_switch_cases_names _ _ _ _ _ _ h n t r hm

theorem names_in_mono (K K' : String → Prop) (inst : instruction) (hK : ∀ n, K n → K' n)
    (h : names_in K inst) : names_in K' inst := by
  obtain ⟨h1, h2, h3⟩ := h
  refine ⟨fun hk d0 d1 e0 e1 => ?_, fun ho => ?_, fun p n t r hm => hK _ (h3 p n t r hm)⟩
  · obtain ⟨a, b⟩ := h1 hk d0 d1 e0 e1
    exact ⟨hK _ a, hK _ b⟩
  · obtain ⟨a, b⟩ := h2 ho
    exact ⟨fun d0 e0 => hK _ (a d0 e0), fun d1 e1 hne => hK _ (b d1 e1 hne)⟩

theorem process_instructions_names (l : List instruction) (s s' : assembler)
    (hint : ∀ inst, inst ∈ l → inst.opcode = opcode.OP_GetInteger → inst.data.length = 2 →
      inst.data[1]? = some "-1")
    (h : process_instructions l s = .ok s') : ∀ inst, inst ∈ l → names_in (pooled s') inst := by
  induction l generalizing s with
  | nil => exact fun inst hi => absurd hi (List.not_mem_nil _)
  | cons e l ih =>
    simp only [process_instructions, bind_eq_ok] at h
    obtain ⟨s1, h1, h⟩ := h
    intro inst hi
    simp only [List.mem_cons] at hi
    rcases hi with rfl | hi
    · exact names_in_mono _ _ _ (process_instructions_mono _ _ _ h)
        (process_instruction_names _ _ _ (hint _ (List.mem_cons_self _ _)) h1)
    · exact ih _ (fun i hi' => hint i (List.mem_cons_of_mem _ hi')) h inst hi

theorem process_functions_names (l : List function) (s s' : assembler)
    (hint : ∀ f, f ∈ l → ∀ inst, inst ∈ f.instructions →
      inst.opcode = opcode.OP_GetInteger → inst.data.length = 2 → inst.data[1]? = some "-1")
    (h : process_functions l s = .ok s') :
    ∀ f, f ∈ l → pooled s' f.name ∧ ∀ inst, inst ∈ f.instructions →
      names_in (pooled s') inst := by
  induction l generalizing s with
  | nil => exact fun f hf => absurd hf (List.not_mem_nil _)
  | cons e l ih =>
    simp only [process_functions, process_function, bind_eq_ok] at h
    obtain ⟨s1, ⟨s0, hs0, h1⟩, h⟩ := h
    intro f hf
    simp only [List.mem_cons] at hf
    rcases hf with rfl | hf
    · have m1 := process_instructions_mono _ _ _ h1
      have m2 := process_functions_mono _ _ _ h
      refine ⟨m2 _ (m1 _ (process_string_adds _ _ _ hs0).1), fun inst hi => ?_⟩
      exact names_in_mono _ _ _ m2
        (process_instructions_names _ _ _ (hint _ (List.mem_cons_self _ _)) h1 inst hi)
    · exact ih _ (fun g hg => hint g (List.mem_cons_of_mem _ hg)) h f hf

end arc

end xsk

namespace xsk

namespace arc

/-! ## The names recorded by the layout -/

theorem add_stringref_names (K : String → Prop) (n : String) (t : string_type) (r : Nat)
    (l : List string_ref) (hn : K n) (h : ∀ e, e ∈ l → K e.name) :
    ∀ e, e ∈ add_stringref n t r l → K e.name := by
  induction l with
  | nil =>
    intro e he
    simp only [add_stringref, List.mem_singleton] at he
    subst he
    exact hn
  | cons e0 l ih =>
    intro e he
    simp only [add_stringref] at he
    split at he
    · simp only [List.mem_cons] at he
      rcases he with rfl | he
      · exact h e0 (List.mem_cons_self _ _)
      · exact h e (List.mem_cons_of_mem _ he)
    · simp only [List.mem_cons] at he
      rcases he with rfl | he
      · exact h _ (List.mem_cons_self _ _)
      · exact ih (fun x hx => h x (List.mem_cons_of_mem _ hx)) e he

theorem add_stringrefs_names (K : String → Prop) (calls : List (String × string_type × Nat))
    (l : List string_ref) (hc : ∀ c, c ∈ calls → K c.1) (h : ∀ e, e ∈ l → K e.name) :
    ∀ e, e ∈ add_stringrefs calls l → K e.name := by
  induction calls generalizing l with
  | nil => exact h
  | cons c calls ih =>
    simp only [add_stringrefs, List.foldl_cons]
    exact ih _ (fun x hx => hc x (List.mem_cons_of_mem _ hx))
      (add_stringref_names K _ _ _ _ (hc c (List.mem_cons_self _ _)) h)

theorem add_importref_names (K : String → Prop) (data : List String) (ref : Nat)
    (l l' : List import_ref) (h : add_importref data ref l = .ok l')
    (hd : ∀ d0 d1, data[0]? = some d0 → data[1]? = some d1 → K d0 ∧ K d1)
    (hl : ∀ e, e ∈ l → K e.name ∧ K e.space) : ∀ e, e ∈ l' → K e.name ∧ K e.space := by
  induction l generalizing l' with
  | nil =>
    simp only [add_importref, bind_eq_ok, pure, Except.pure, Except.ok.injEq] at h
    obtain ⟨d0, hd0, d1, hd1, d2, -, p, -, d3, -, f, -, rfl⟩ := h
    rw [operand_eq_ok] at hd0 hd1
    intro e he
    simp only [List.mem_singleton] at he
    subst he
    obtain ⟨a, b⟩ := hd d0 d1 hd0 hd1
    exact ⟨b, a⟩
  | cons e0 l ih =>
    simp only [add_importref, bind_eq_ok] at h
    obtain ⟨found, -, h⟩ := h
    split at h
    · simp only [pure, Except.pure, Except.ok.injEq] at h
      subst h
      intro e he
      simp only [List.mem_cons] at he
      rcases he with rfl | he
      · exact hl e0 (List.mem_cons_self _ _)
      · exact hl e (List.mem_cons_of_mem _ he)
    · simp only [bind_eq_ok, pure, Except.pure, Except.ok.injEq] at h
      obtain ⟨rest1, hr, rfl⟩ := h
      intro e he
      simp only [List.mem_cons] at he
      rcases he with rfl | he
      · exact hl _ (List.mem_cons_self _ _)
      · exact ih _ hr (fun x hx => hl x (List.mem_cons_of_mem _ hx)) e he

theorem add_animref_names (K : String → Prop) (data : List String) (ref : Nat)
    (l l' : List animtree_ref) (h : add_animref data ref l = .ok l')
    (hd0 : ∀ d0, data[0]? = some d0 → K d0)
    (hd1 : ∀ d1, data[1]? = some d1 → d1 ≠ "-1" → K d1)
    (hl : ∀ e, e ∈ l → K e.name ∧ ∀ a, a ∈ e.anims → K a.name) :
    ∀ e, e ∈ l' → K e.name ∧ ∀ a, a ∈ e.anims → K a.name := by
  induction l generalizing l' with
  | nil =>
    simp only [add_animref, bind_eq_ok] at h
    obtain ⟨d0, e0, d1, e1, h⟩ := h
    rw [operand_eq_ok] at e0 e1
    split at h
    · simp only [pure, Except.pure, Except.ok.injEq] at h
      subst h
      intro e he
      simp only [List.mem_singleton] at he
      subst he
      exact ⟨hd0 _ e0, fun a ha => absurd ha (List.not_mem_nil _)⟩
    · rename_i hne
      simp only [pure, Except.pure, Except.ok.injEq] at h
      subst h
      intro e he
      simp only [List.mem_singleton] at he
      subst he
      refine ⟨hd0 _ e0, fun a ha => ?_⟩
      simp only [List.mem_singleton] at ha
      subst ha
      exact hd1 _ e1 hne
  | cons x l ih =>
    simp only [add_animref, bind_eq_ok] at h
    obtain ⟨d0, e0, h⟩ := h
    rw [operand_eq_ok] at e0
    split at h
    · simp only [bind_eq_ok] at h
      obtain ⟨d1, e1, h⟩ := h
      rw [operand_eq_ok] at e1
      split at h
      · simp only [pure, Except.pure, Except.ok.injEq] at h
        subst h
        intro e he
        simp only [List.mem_cons] at he
        rcases he with rfl | he
        · exact hl x (List.mem_cons_self _ _)
        · exact hl e (List.mem_cons_of_mem _ he)
      · rename_i hne
        simp only [pure, Except.pure, Except.ok.injEq] at h
        subst h
        intro e he
        simp only [List.mem_cons] at he
        rcases he with rfl | he
        · obtain ⟨a1, a2⟩ := hl x (List.mem_cons_self _ _)
          refine ⟨a1, fun a ha => ?_⟩
          simp only [List.mem_append, List.mem_singleton] at ha
          rcases ha with ha | rfl
          · exact a2 a ha
          · exact hd1 _ e1 hne
        · exact hl e (List.mem_cons_of_mem _ he)
    · simp only [bind_eq_ok, pure, Except.pure, Except.ok.injEq] at h
      obtain ⟨rest1, hr, rfl⟩ := h
      intro e he
      simp only [List.mem_cons] at he
      rcases he with rfl | he
      · exact hl _ (List.mem_cons_self _ _)
      · exact ih _ hr (fun y hy => hl y (List.mem_cons_of_mem _ hy)) e he

set_option maxHeartbeats 4000000 in
/-- The imports and the animtrees after the layout of the operands of an
instruction. -/
theorem align_operands_names (K : String → Prop) (self self' : assembler)
    (inst inst' : instruction) (h : align_operands self inst = .ok (inst', self'))
    (hin : names_in K inst) (ht : tables_in K self) : tables_in K self' := by
  obtain ⟨-, -, -, -, -, -, hstr, hfr⟩ := align_operands_spec _ _ _ _ h
  obtain ⟨n1, n2, n3⟩ := hin
  obtain ⟨t1, t2, t3, t4⟩ := ht
  have hs : ∀ e, e ∈ self'.strings → K e.name := by
    rw [hstr]
    exact add_stringrefs_names K _ _ (fun c hc => n3 _ c.1 c.2.1 c.2.2 hc) t4
  have hx : ∀ e, e ∈ self'.exports → K e.name := by
    rw [hfr.exports]
    exact t1
  refine ⟨hx, ?_, ?_, hs⟩
  · clear hstr hfr hs hx n2 n3 t1 t3 t4
    obtain ⟨op, ps, idx, sz, data⟩ := inst
    cases op <;> simp only [align_operands] at h
    all_goals first
      | (simp only [Except.ok.injEq, Prod.mk.injEq] at h
         obtain ⟨-, rfl⟩ := h
         exact t2)
      | skip
    case mk.OP_Invalid => cases h
    case mk.OP_GetString | mk.OP_GetIString | mk.OP_EvalFieldVariable
        | mk.OP_EvalFieldVariableRef | mk.OP_ClearFieldVariable =>
      simp only [bind_eq_ok, pure, Except.pure, Except.ok.injEq, Prod.mk.injEq] at h
      obtain ⟨d0, -, -, rfl⟩ := h
      exact t2
    case mk.OP_GetAnimation =>
      simp only [bind_eq_ok, pure, Except.pure, Except.ok.injEq, Prod.mk.injEq] at h
      obtain ⟨an, -, -, rfl⟩ := h
      exact t2
    case mk.OP_GetInteger =>
      split at h
      · simp only [bind_eq_ok, pure, Except.pure, Except.ok.injEq, Prod.mk.injEq] at h
        obtain ⟨an, -, -, rfl⟩ := h
        exact t2
      · simp only [Except.ok.injEq, Prod.mk.injEq] at h
        obtain ⟨-, rfl⟩ := h
        exact t2
    case mk.OP_GetFunction | mk.OP_CallBuiltin | mk.OP_CallBuiltinMethod
        | mk.OP_ScriptFunctionCall | mk.OP_ScriptMethodCall | mk.OP_ScriptThreadCall
        | mk.OP_ScriptMethodThreadCall =>
      simp only [bind_eq_ok, pure, Except.pure, Except.ok.injEq, Prod.mk.injEq] at h
      obtain ⟨im, him, -, rfl⟩ := h
      exact add_importref_names K _ _ _ _ him (n1 (by simp [kind_of])) t2
    case mk.OP_SafeCreateLocalVariables =>
      simp only [Except.ok.injEq, Prod.mk.injEq] at h
      obtain ⟨-, rfl⟩ := h
      rw [(align_localvars_spec data sz (self.seek 1)).2.2.2.1]
      exact t2
    case mk.OP_EndSwitch =>
      simp only [bind_eq_ok, pure, Except.pure, Except.ok.injEq, Prod.mk.injEq] at h
      obtain ⟨d0, -, count, -, r, hr, -, rfl⟩ := h
      rw [(align_switch_cases_spec _ _ _ _ _ _ hr).2.2.2.1]
      exact t2
  · clear hstr hfr hs hx n1 n3 t1 t2 t4
    obtain ⟨op, ps, idx, sz, data⟩ := inst
    cases op <;> simp only [align_operands] at h
    all_goals first
      | (simp only [Except.ok.injEq, Prod.mk.injEq] at h
         obtain ⟨-, rfl⟩ := h
         exact t3)
      | skip
    case mk.OP_Invalid => cases h
    case mk.OP_GetString | mk.OP_GetIString | mk.OP_EvalFieldVariable
        | mk.OP_EvalFieldVariableRef | mk.OP_ClearFieldVariable =>
      simp only [bind_eq_ok, pure, Except.pure, Except.ok.injEq, Prod.mk.injEq] at h
      obtain ⟨d0, -, -, rfl⟩ := h
      exact t3
    case mk.OP_GetAnimation =>
      simp only [bind_eq_ok, pure, Except.pure, Except.ok.injEq, Prod.mk.injEq] at h
      obtain ⟨an, han, -, rfl⟩ := h
      obtain ⟨a, b⟩ := n2 (Or.inl rfl)
      exact add_animref_names K _ _ _ _ han a b t3
    case mk.OP_GetInteger =>
      split at h
      · rename_i hlen
        simp only [bind_eq_ok, pure, Except.pure, Except.ok.injEq, Prod.mk.injEq] at h
        obtain ⟨an, han, -, rfl⟩ := h
        obtain ⟨a, b⟩ := n2 (Or.inr ⟨rfl, hlen⟩)
        exact add_animref_names K _ _ _ _ han a b t3
      · simp only [Except.ok.injEq, Prod.mk.injEq] at h
        obtain ⟨-, rfl⟩ := h
        exact t3
    case mk.OP_GetFunction | mk.OP_CallBuiltin | mk.OP_CallBuiltinMethod
        | mk.OP_ScriptFunctionCall | mk.OP_ScriptMethodCall | mk.OP_ScriptThreadCall
        | mk.OP_ScriptMethodThreadCall =>
      simp only [bind_eq_ok, pure, Except.pure, Except.ok.injEq, Prod.mk.injEq] at h
      obtain ⟨im, -, -, rfl⟩ := h
      exact t3
    case mk.OP_SafeCreateLocalVariables =>
      simp only [Except.ok.injEq, Prod.mk.injEq] at h
      obtain ⟨-, rfl⟩ := h
      rw [(align_localvars_spec data sz (self.seek 1)).2.2.2.2.1]
      exact t3
    case mk.OP_EndSwitch =>
      simp only [bind_eq_ok, pure, Except.pure, Except.ok.injEq, Prod.mk.injEq] at h
      obtain ⟨d0, -, count, -, r, hr, -, rfl⟩ := h
      rw [(align_switch_cases_spec _ _ _ _ _ _ hr).2.2.2.2.1]
      exact t3

end arc

end xsk

namespace xsk

namespace arc

theorem layout_instructions_names (K : String → Prop) (ctx : context) (index : Nat)
    (old : label_map) (l : List instruction) (size : Nat) (labels : label_map)
    (self : assembler) (r : List instruction × Nat × label_map × assembler)
    (h : layout_instructions ctx index old l size labels self = .ok r)
    (hin : ∀ inst, inst ∈ l → names_in K inst) (ht : tables_in K self) :
    tables_in K r.2.2.2 := by
  induction l generalizing size labels self r with
  | nil =>
    simp only [layout_instructions, Except.ok.injEq] at h
    subst h
    exact ht
  | cons i l ih =>
    simp only [layout_instructions, bind_eq_ok, pure, Except.pure, Except.ok.injEq] at h
    obtain ⟨r1, h1, t, ht', rfl⟩ := h
    have h1' : align_operands (self.seek 1)
        { i with index := index + size, size := ctx.opcode_size i.opcode } = .ok (r1.1, r1.2) :=
      h1
    have hi : names_in K
        { i with index := index + size, size := ctx.opcode_size i.opcode } :=
      hin i (List.mem_cons_self _ _)
    have := align_operands_names K _ _ _ _ h1' hi ht
    exact ih _ _ _ t ht' (fun j hj => hin j (List.mem_cons_of_mem _ hj)) this

theorem tables_in_of_frame (K : String → Prop) (a b : assembler) (f : emit_frame a b)
    (h : tables_in K a) : tables_in K b := by
  obtain ⟨t1, t2, t3, t4⟩ := h
  refine ⟨?_, ?_, ?_, ?_⟩
  · rw [f.exports]; exact t1
  · rw [f.imports]; exact t2
  · rw [f.anims]; exact t3
  · rw [f.strings]; exact t4

theorem assemble_function_names (K : String → Prop) (ctx : context) (self self' : assembler)
    (func func' : function) (h : assemble_function ctx self func = .ok (func', self'))
    (hname : K func.name) (hin : ∀ inst, inst ∈ func.instructions → names_in K inst)
    (ht : tables_in K self) : tables_in K self' := by
  simp only [assemble_function, bind_eq_ok, pure, Except.pure, Except.ok.injEq,
    Prod.mk.injEq] at h
  obtain ⟨r0, hlay, s2, hemit, hf, hs⟩ := h
  subst hf hs
  have l1 := layout_instructions_names K _ _ _ _ _ _ _ _ hlay hin ht
  obtain ⟨-, f2⟩ := assemble_instructions_spec _ _ _ _ _ hemit
  have l2 : tables_in K s2 := tables_in_of_frame K _ _ f2 l1
  obtain ⟨t1, t2, t3, t4⟩ := l2
  refine ⟨?_, t2, t3, t4⟩
  intro e he
  have he' : e ∈ s2.exports ++ _ := he
  rw [List.mem_append, List.mem_singleton] at he'
  rcases he' with he' | rfl
  · exact t1 e he'
  · exact hname

theorem assemble_functions_names (K : String → Prop) (ctx : context) (fs : List function)
    (self : assembler) (res : List function × assembler)
    (h : assemble_functions ctx fs self = .ok res)
    (hin : ∀ f, f ∈ fs → K f.name ∧ ∀ inst, inst ∈ f.instructions → names_in K inst)
    (ht : tables_in K self) : tables_in K res.2 := by
  induction fs generalizing self res with
  | nil =>
    simp only [assemble_functions, Except.ok.injEq] at h
    subst h
    exact ht
  | cons func rest ih =>
    simp only [assemble_functions, bind_eq_ok, pure, Except.pure, Except.ok.injEq] at h
    obtain ⟨r, hr, t, ht', rfl⟩ := h
    obtain ⟨f', s'⟩ := r
    obtain ⟨a, b⟩ := hin func (List.mem_cons_self _ _)
    have := assemble_function_names K _ _ _ _ _ hr a b ht
    exact ih _ t ht' (fun g hg => hin g (List.mem_cons_of_mem _ hg)) this

/-! ## The tables, with every name pooled -/

theorem resolve_string_pooled (self : assembler) (n : String) (h : pooled self n) :
    ∃ o, resolve_string self n = .ok o := by
  unfold resolve_string
  cases hf : self.strpool.find? (fun e => e.1 == n) with
  | some e => exact ⟨e.2, rfl⟩
  | none =>
    rw [List.find?_eq_none] at hf
    unfold pooled at h
    rw [List.mem_map] at h
    obtain ⟨e, he, rfl⟩ := h
    exact absurd (by simp) (hf e he)

theorem no_unres_resolve (pool : List (String × Nat)) (self : assembler) (n : String)
    (hp : self.strpool = pool) (h : n ∈ pool.map Prod.fst) :
    no_unres (resolve_string self n) := by
  obtain ⟨o, ho⟩ := resolve_string_pooled self n (by unfold pooled; rw [hp]; exact h)
  rw [ho]
  exact no_unres_ok _

theorem write_keeps_pool (pool : List (String × Nat)) (self self' : assembler) (width v : Nat)
    (hp : self.strpool = pool) (h : self.write width v = .ok self') : self'.strpool = pool :=
  (emit_frame_write _ _ _ _ h).strpool.trans hp

theorem no_unres_write_includes (pool : List (String × Nat)) (l : List String)
    (self : assembler) (hp : self.strpool = pool) (h : ∀ n, n ∈ l → n ∈ pool.map Prod.fst) :
    no_unres (write_includes l self) := by
  induction l generalizing self with
  | nil => exact no_unres_ok _
  | cons e l ih =>
    unfold write_includes
    refine no_unres_bind _ _ (no_unres_resolve pool _ _ hp (h e (List.mem_cons_self _ _)))
      (fun o _ => ?_)
    refine no_unres_bind _ _ (no_unres_write _ _ _) (fun s1 h1 => ?_)
    exact ih _ (write_keeps_pool pool _ _ _ _ hp h1) (fun n hn => h n (List.mem_cons_of_mem _ hn))

theorem no_unres_write_exports (pool : List (String × Nat)) (ctx : context)
    (l : List export_ref) (self : assembler) (hp : self.strpool = pool)
    (h : ∀ e, e ∈ l → e.name ∈ pool.map Prod.fst) : no_unres (write_exports ctx l self) := by
  induction l generalizing self with
  | nil => exact no_unres_ok _
  | cons e l ih =>
    have ih' := fun s (hs : s.strpool = pool) =>
      ih s hs (fun x hx => h x (List.mem_cons_of_mem _ hx))
    unfold write_exports
    refine no_unres_bind _ _ (no_unres_write _ _ _) (fun s1 h1 => ?_)
    have p1 := write_keeps_pool pool _ _ _ _ hp h1
    refine no_unres_bind _ _ (no_unres_write _ _ _) (fun s2 h2 => ?_)
    have p2 := write_keeps_pool pool _ _ _ _ p1 h2
    split
    · refine no_unres_bind _ _ (no_unres_write _ _ _) (fun s3 h3 => ?_)
      have p3 := write_keeps_pool pool _ _ _ _ p2 h3
      refine no_unres_bind _ _ (no_unres_write _ _ _) (fun s4 h4 => ?_)
      have p4 := write_keeps_pool pool _ _ _ _ p3 h4
      refine no_unres_bind _ _ (no_unres_write _ _ _) (fun s5 h5 => ?_)
      have p5 := write_keeps_pool pool _ _ _ _ p4 h5
      refine no_unres_bind _ _ (no_unres_write _ _ _) (fun s6 h6 => ?_)
      have p6 := write_keeps_pool pool _ _ _ _ p5 h6
      exact ih' _ p6
    · refine no_unres_bind _ _ (no_unres_resolve pool _ _ p2 (h e (List.mem_cons_self _ _)))
        (fun o _ => ?_)
      refine no_unres_bind _ _ (no_unres_write _ _ _) (fun s3 h3 => ?_)
      have p3 := write_keeps_pool pool _ _ _ _ p2 h3
      refine no_unres_bind _ _ (no_unres_write _ _ _) (fun s5 h5 => ?_)
      have p5 := write_keeps_pool pool _ _ _ _ p3 h5
      refine no_unres_bind _ _ (no_unres_write _ _ _) (fun s6 h6 => ?_)
      have p6 := write_keeps_pool pool _ _ _ _ p5 h6
      exact ih' _ p6

theorem write_refs_keeps_pool (pool : List (String × Nat)) (l : List Nat)
    (self self' : assembler) (hp : self.strpool = pool) (h : write_refs l self = .ok self') :
    self'.strpool = pool :=
  (write_refs_frame _ _ _ h).strpool.trans hp

theorem no_unres_write_imports (pool : List (String × Nat)) (ctx : context)
    (l : List import_ref) (self : assembler) (hp : self.strpool = pool)
    (h : ∀ e, e ∈ l → e.name ∈ pool.map Prod.fst ∧ e.space ∈ pool.map Prod.fst) :
    no_unres (write_imports ctx l self) := by
  induction l generalizing self with
  | nil => exact no_unres_ok _
  | cons e l ih =>
    have ih' := fun s (hs : s.strpool = pool) =>
      ih s hs (fun x hx => h x (List.mem_cons_of_mem _ hx))
    obtain ⟨hn, hsp⟩ := h e (List.mem_cons_self _ _)
    have tail : ∀ s2 : assembler, s2.strpool = pool →
        no_unres (s2.write 2 e.refs.length >>= fun s3 => s3.write 1 e.params >>= fun s4 =>
          s4.write 1 e.flags >>= fun s5 => write_refs e.refs s5 >>= fun s6 =>
          write_imports ctx l s6) := by
      intro s2 p2
      refine no_unres_bind _ _ (no_unres_write _ _ _) (fun s3 h3 => ?_)
      have p3 := write_keeps_pool pool _ _ _ _ p2 h3
      refine no_unres_bind _ _ (no_unres_write _ _ _) (fun s4 h4 => ?_)
      have p4 := write_keeps_pool pool _ _ _ _ p3 h4
      refine no_unres_bind _ _ (no_unres_write _ _ _) (fun s5 h5 => ?_)
      have p5 := write_keeps_pool pool _ _ _ _ p4 h5
      refine no_unres_bind _ _ (no_unres_write_refs _ _) (fun s6 h6 => ?_)
      exact ih' _ (write_refs_keeps_pool pool _ _ _ p5 h6)
    unfold write_imports
    split
    · refine no_unres_bind _ _ (no_unres_write _ _ _) (fun s1 h1 => ?_)
      have p1 := write_keeps_pool pool _ _ _ _ hp h1
      refine no_unres_bind _ _ (no_unres_write _ _ _) (fun s2 h2 => ?_)
      exact tail s2 (write_keeps_pool pool _ _ _ _ p1 h2)
    · refine no_unres_bind _ _ (no_unres_resolve pool _ _ hp hn) (fun o _ => ?_)
      refine no_unres_bind _ _ (no_unres_write _ _ _) (fun s1 h1 => ?_)
      have p1 := write_keeps_pool pool _ _ _ _ hp h1
      refine no_unres_bind _ _ (no_unres_resolve pool _ _ p1 hsp) (fun o' _ => ?_)
      refine no_unres_bind _ _ (no_unres_write _ _ _) (fun s2 h2 => ?_)
      exact tail s2 (write_keeps_pool pool _ _ _ _ p1 h2)

theorem no_unres_write_anims (pool : List (String × Nat)) (ctx : context)
    (l : List animation_ref) (self : assembler) (hp : self.strpool = pool)
    (h : ∀ a, a ∈ l → a.name ∈ pool.map Prod.fst) : no_unres (write_anims ctx l self) := by
  induction l generalizing self with
  | nil => exact no_unres_ok _
  | cons e l ih =>
    have ih' := fun s (hs : s.strpool = pool) =>
      ih s hs (fun x hx => h x (List.mem_cons_of_mem _ hx))
    unfold write_anims
    refine no_unres_bind _ _ (no_unres_resolve pool _ _ hp (h e (List.mem_cons_self _ _)))
      (fun o _ => ?_)
    split
    · refine no_unres_bind _ _ (no_unres_write _ _ _) (fun s1 h1 => ?_)
      have p1 := write_keeps_pool pool _ _ _ _ hp h1
      refine no_unres_bind _ _ (no_unres_write _ _ _) (fun s2 h2 => ?_)
      exact ih' _ (write_keeps_pool pool _ _ _ _ p1 h2)
    · refine no_unres_bind _ _ (no_unres_write _ _ _) (fun s1 h1 => ?_)
      have p1 := write_keeps_pool pool _ _ _ _ hp h1
      refine no_unres_bind _ _ (no_unres_write _ _ _) (fun s2 h2 => ?_)
      exact ih' _ (write_keeps_pool pool _ _ _ _ p1 h2)

theorem no_unres_write_animtrees (pool : List (String × Nat)) (ctx : context)
    (l : List animtree_ref) (self : assembler) (hp : self.strpool = pool)
    (h : ∀ e, e ∈ l → e.name ∈ pool.map Prod.fst ∧
      ∀ a, a ∈ e.anims → a.name ∈ pool.map Prod.fst) :
    no_unres (write_animtrees ctx l self) := by
  induction l generalizing self with
  | nil => exact no_unres_ok _
  | cons e l ih =>
    have ih' := fun s (hs : s.strpool = pool) =>
      ih s hs (fun x hx => h x (List.mem_cons_of_mem _ hx))
    obtain ⟨hn, han⟩ := h e (List.mem_cons_self _ _)
    have tail : ∀ s3 : assembler, s3.strpool = pool →
        no_unres (write_refs e.refs s3 >>= fun s4 => write_anims ctx e.anims s4 >>= fun s5 =>
          write_animtrees ctx l s5) := by
      intro s3 p3
      refine no_unres_bind _ _ (no_unres_write_refs _ _) (fun s4 h4 => ?_)
      have p4 := write_refs_keeps_pool pool _ _ _ p3 h4
      refine no_unres_bind _ _ (no_unres_write_anims pool _ _ _ p4 han) (fun s5 h5 => ?_)
      exact ih' _ ((write_anims_frame _ _ _ _ h5).strpool.trans p4)
    unfold write_animtrees
    refine no_unres_bind _ _ (no_unres_resolve pool _ _ hp hn) (fun o _ => ?_)
    split
    · refine no_unres_bind _ _ (no_unres_write _ _ _) (fun s1 h1 => ?_)
      have p1 := write_keeps_pool pool _ _ _ _ hp h1
      refine no_unres_bind _ _ (no_unres_write _ _ _) (fun s2 h2 => ?_)
      have p2 := write_keeps_pool pool _ _ _ _ p1 h2
      refine no_unres_bind _ _ (no_unres_write _ _ _) (fun s3 h3 => ?_)
      exact tail s3 (write_keeps_pool pool _ _ _ _ p2 h3)
    · refine no_unres_bind _ _ (no_unres_write _ _ _) (fun s1 h1 => ?_)
      have p1 := write_keeps_pool pool _ _ _ _ hp h1
      refine no_unres_bind _ _ (no_unres_write _ _ _) (fun s2 h2 => ?_)
      have p2 := write_keeps_pool pool _ _ _ _ p1 h2
      refine no_unres_bind _ _ (no_unres_write _ _ _) (fun s3 h3 => ?_)
      exact tail (s3.seek 2) (write_keeps_pool pool s2 s3 _ _ p2 h3)

theorem no_unres_write_string_header (pool : List (String × Nat)) (ctx : context)
    (entry : string_ref) (count : Nat) (self : assembler) (hp : self.strpool = pool)
    (h : entry.name ∈ pool.map Prod.fst) :
    no_unres (write_string_header ctx entry count self) := by
  unfold write_string_header
  refine no_unres_bind _ _ (no_unres_resolve pool _ _ hp h) (fun o _ => ?_)
  split
  · refine no_unres_bind _ _ (no_unres_write _ _ _) (fun s1 _ => ?_)
    refine no_unres_bind _ _ (no_unres_write _ _ _) (fun s2 _ => ?_)
    exact no_unres_bind _ _ (no_unres_write _ _ _) (fun s3 _ => no_unres_pure _)
  · refine no_unres_bind _ _ (no_unres_write _ _ _) (fun s1 _ => ?_)
    refine no_unres_bind _ _ (no_unres_write _ _ _) (fun s2 _ => ?_)
    exact no_unres_bind _ _ (no_unres_write _ _ _) (fun s3 _ => no_unres_pure _)

theorem no_unres_write_string_runs (pool : List (String × Nat)) (ctx : context)
    (entry : string_ref) (count : Nat) (l : List Nat) (i n : Nat) (self : assembler)
    (hp : self.strpool = pool) (h : entry.name ∈ pool.map Prod.fst) :
    no_unres (write_string_runs ctx entry count l i n self) := by
  induction l generalizing i n self with
  | nil => exact no_unres_ok _
  | cons e l ih =>
    unfold write_string_runs
    split
    · refine no_unres_bind _ _ (no_unres_write_string_header pool _ _ _ _ hp h)
        (fun s1 h1 => ?_)
      have p1 := (write_string_header_frame _ _ _ _ _ h1).strpool.trans hp
      refine no_unres_bind _ _ (no_unres_write _ _ _) (fun s2 h2 => ?_)
      exact ih _ _ _ (write_keeps_pool pool _ _ _ _ p1 h2)
    · refine no_unres_bind _ _ (no_unres_write _ _ _) (fun s2 h2 => ?_)
      exact ih _ _ _ (write_keeps_pool pool _ _ _ _ hp h2)

theorem no_unres_write_strings (pool : List (String × Nat)) (ctx : context)
    (l : List string_ref) (n : Nat) (self : assembler) (hp : self.strpool = pool)
    (h : ∀ e, e ∈ l → e.name ∈ pool.map Prod.fst) :
    no_unres (write_strings ctx l n self) := by
  induction l generalizing n self with
  | nil => exact no_unres_ok _
  | cons e l ih =>
    have ih' := fun m s (hs : s.strpool = pool) =>
      ih m s hs (fun x hx => h x (List.mem_cons_of_mem _ hx))
    have hn := h e (List.mem_cons_self _ _)
    unfold write_strings
    split
    · refine no_unres_bind _ _ (no_unres_write_string_runs pool _ _ _ _ _ _ _ hp hn)
        (fun r hr => ?_)
      exact ih' _ _ ((write_string_runs_frame _ _ _ _ _ _ _ _ hr).strpool.trans hp)
    · refine no_unres_bind _ _ (no_unres_write_string_header pool _ _ _ _ hp hn)
        (fun s1 h1 => ?_)
      have p1 := (write_string_header_frame _ _ _ _ _ h1).strpool.trans hp
      refine no_unres_bind _ _ (no_unres_write_refs _ _) (fun s2 h2 => ?_)
      exact ih' _ _ (write_refs_keeps_pool pool _ _ _ p1 h2)

end arc

end xsk

namespace xsk

namespace arc

/-- C14, as stated, fails: `GetInteger` with two operands pools only the
first, yet the layout records the second, when it is not `-1`, as the name of
an animation, and the animtree table hands it to `resolve_string`. Assembling
the function with the one instruction `GetInteger "tree" "walk"` fails with an
unresolved string. -/
theorem arc_fixup_names_pooled_counterexample :
    assemble sample_context (assembler.create sample_context 4096)
        { functions := [sample_animation], includes := [] } "" =
      .error asm_error.unresolved_string ∧
    (process_instructions sample_animation.instructions
        (assembler.create sample_context 4096)).toOption.map (fun s => s.strpool) =
      some [("tree", 0)] :=
  ⟨by rfl, by rfl⟩

/-- C14, amended: when every `GetInteger` with two operands has `-1` as its
second operand, every name that the table emission hands to `resolve_string`
(the include paths, the export names, the space and the name of every import,
the animtree names and the names of their animations, the names of the string
fixups, and the script name) was added to the pool by the pooling pass, and
`assemble` does not fail with an unresolved string. -/
theorem arc_fixup_names_pooled (ctx : context) (self : assembler) (data : assembly)
    (name : String) (hint : animtree_only data) :
    assemble ctx self data name ≠ .error asm_error.unresolved_string ∧
    ∀ st, stages ctx self data name = .ok st →
      pooled st.pooled name ∧ (∀ n, n ∈ data.includes → pooled st.pooled n) ∧
      tables_in (pooled st.pooled) st.animated ∧ st.animated.strpool = st.pooled.strpool := by
  have key : ∀ a2 a3 a4 : assembler,
      process_string
        { self.reset with
          devmap := self.reset.devmap.set_pos 4
          script := self.reset.script.set_pos
            (if has_prop ctx.props props.headerxx then 0
             else if has_prop ctx.props props.header72 then 72 else 64) } name = .ok a2 →
      process_functions data.functions a2 = .ok a3 →
      process_strings data.includes a3 = .ok a4 →
      pooled a4 name ∧ (∀ n, n ∈ data.includes → pooled a4 n) ∧
      (∀ f, f ∈ data.functions → pooled a4 f.name ∧
        ∀ inst, inst ∈ f.instructions → names_in (pooled a4) inst) ∧
      a4.exports = [] ∧ a4.imports = [] ∧ a4.anims = [] ∧ a4.strings = [] := by
    intro a2 a3 a4 h2 h3 h4
    obtain ⟨i1, i2⟩ := process_strings_adds _ _ _ h4
    have m3 := process_functions_mono _ _ _ h3
    have hk := pooling_induct
      (fun s => s.exports = [] ∧ s.imports = [] ∧ s.anims = [] ∧
        s.devmap = (self.reset.devmap.set_pos 4) ∧ s.devmap_count = 0)
      (fun s s' d hs hd => process_string_keeps
        { self.reset with devmap := self.reset.devmap.set_pos 4 } s s' d hs hd)
      data name _ a2 a3 a4 ⟨rfl, rfl, rfl, rfl, rfl⟩ h2 h3 h4
    obtain ⟨-, e2⟩ := process_string_frame _ _ _ h2
    obtain ⟨-, e3⟩ := process_functions_frame _ _ _ h3
    obtain ⟨-, e4⟩ := process_strings_frame _ _ _ h4
    refine ⟨i2 _ (m3 _ (process_string_adds _ _ _ h2).1), i1, ?_, hk.1, hk.2.1, hk.2.2.1, ?_⟩
    · intro f hf
      obtain ⟨a, b⟩ := process_functions_names _ _ _ hint h3 f hf
      exact ⟨i2 _ a, fun inst hi => names_in_mono _ _ _ i2 (b inst hi)⟩
    · rw [e4, e3, e2]
      rfl
  have tables : ∀ a4 a5 (r : List function × assembler),
      (∀ f, f ∈ data.functions → pooled a4 f.name ∧
        ∀ inst, inst ∈ f.instructions → names_in (pooled a4) inst) →
      a4.exports = [] → a4.imports = [] → a4.anims = [] → a4.strings = [] →
      write_includes data.includes a4 = .ok a5 →
      assemble_functions ctx data.functions a5 = .ok r →
      tables_in (pooled a4) r.2 ∧ r.2.strpool = a4.strpool := by
    intro a4 a5 r hf x1 x2 x3 x4 h5 hr
    have f5 := write_includes_frame _ _ _ h5
    have t5 : tables_in (pooled a4) a5 := by
      refine ⟨?_, ?_, ?_, ?_⟩
      · rw [f5.exports, x1]; exact fun e he => absurd he (List.not_mem_nil _)
      · rw [f5.imports, x2]; exact fun e he => absurd he (List.not_mem_nil _)
      · rw [f5.anims, x3]; exact fun e he => absurd he (List.not_mem_nil _)
      · rw [f5.strings, x4]; exact fun e he => absurd he (List.not_mem_nil _)
    refine ⟨assemble_functions_names _ _ _ _ _ hr hf t5, ?_⟩
    rw [(assemble_functions_strings _ _ _ _ hr).2.1, f5.strpool]
  constructor
  · show no_unres (assemble ctx self data name)
    unfold assemble
    refine no_unres_bind _ _ (no_unres_process_string _ _) (fun a2 h2 => ?_)
    refine no_unres_bind _ _ (no_unres_process_functions _ _) (fun a3 h3 => ?_)
    refine no_unres_bind _ _ (no_unres_process_strings _ _) (fun a4 h4 => ?_)
    obtain ⟨k1, k2, k3, x1, x2, x3, x4⟩ := key a2 a3 a4 h2 h3 h4
    refine no_unres_bind _ _ (no_unres_write_includes a4.strpool _ _ rfl k2) (fun a5 h5 => ?_)
    refine no_unres_bind _ _ (no_unres_assemble_functions _ _ _) (fun r hr => ?_)
    obtain ⟨⟨t1, t2, t3, t4⟩, p6⟩ := tables a4 a5 r k3 x1 x2 x3 x4 h5 hr
    refine no_unres_bind _ _ (no_unres_write_exports a4.strpool _ _ _ p6 t1) (fun a7 h7 => ?_)
    have f7 := write_exports_frame _ _ _ _ h7
    have p7 := f7.strpool.trans p6
    refine no_unres_bind _ _
      (no_unres_write_imports a4.strpool _ _ _ p7 (by rw [f7.imports]; exact t2))
      (fun a8 h8 => ?_)
    have f8 := write_imports_frame _ _ _ _ h8
    have p8 := f8.strpool.trans p7
    refine no_unres_bind _ _
      (no_unres_write_animtrees a4.strpool _ _ _ p8
        (by rw [f8.anims, f7.anims]; exact t3))
      (fun a9 h9 => ?_)
    have f9 := write_animtrees_frame _ _ _ _ h9
    have p9 := f9.strpool.trans p8
    refine no_unres_bind _ _
      (no_unres_write_strings a4.strpool _ _ _ _ p9
        (by rw [f9.strings, f8.strings, f7.strings]; exact t4))
      (fun t ht => ?_)
    have f10 := write_strings_frame _ _ _ _ _ ht
    have p10 := f10.strpool.trans p9
    refine no_unres_bind _ _ (no_unres_resolve a4.strpool _ _ p10 k1) (fun hname _ => ?_)
    refine no_unres_bind _ _ (by rw [write_header_eq]; exact no_unres_write_fields _ _)
      (fun a11 _ => ?_)
    exact no_unres_bind _ _ (no_unres_write_devmap _ _ _) (fun a13 _ => no_unres_pure _)
  · intro st hst
    simp only [stages, bind_eq_ok, pure, Except.pure, Except.ok.injEq] at hst
    obtain ⟨a2, h2, a3, h3, a4, h4, a5, h5, r, hr, a7, h7, a8, h8, a9, h9, t, ht, rfl⟩ := hst
    obtain ⟨k1, k2, k3, x1, x2, x3, x4⟩ := key a2 a3 a4 h2 h3 h4
    obtain ⟨t6, p6⟩ := tables a4 a5 r k3 x1 x2 x3 x4 h5 hr
    have f7 := write_exports_frame _ _ _ _ h7
    have f8 := write_imports_frame _ _ _ _ h8
    have f9 := write_animtrees_frame _ _ _ _ h9
    have f69 := emit_frame_trans f7 (emit_frame_trans f8 f9)
    exact ⟨k1, k2, tables_in_of_frame _ _ _ f69 t6, f69.strpool.trans p6⟩

/-- An assembly whose only two-operand `GetInteger` refers to an animtree:
it is assembled, and the tables hold pooled names only. -/
theorem arc_fixup_names_pooled_witness :
    animtree_only { functions := [scenario_S5], includes := [] } ∧
    assemble sample_context (assembler.create sample_context 4096)
        { functions := [scenario_S5], includes := [] } "" ≠
      .error asm_error.unresolved_string ∧
    (assemble sample_context (assembler.create sample_context 4096)
        { functions := [scenario_S5], includes := [] } "").toOption.map
      (fun r => (r.self.strpool.map Prod.fst, r.self.strings.map (fun e => e.name),
        r.self.exports.map (fun e => e.name))) =
      some (["", "main", "hello"], ["hello"], ["main"]) := by
  have h : animtree_only { functions := [scenario_S5], includes := [] } := by
    intro f hf inst hi hop
    simp only [List.mem_singleton] at hf
    subst hf
    simp only [scenario_S5, List.mem_cons, List.mem_singleton, List.not_mem_nil, or_false] at hi
    rcases hi with rfl | rfl | rfl <;> cases hop
  exact ⟨h, (arc_fixup_names_pooled sample_context _ _ "" h).1, by rfl⟩

end arc

end xsk

namespace xsk

/-! ## The dev-map -/

namespace utils

theorem bytes_put (w w' : writer) (bs : List Nat) (h : w.put bs = .ok w') :
    w'.bytes = w.bytes ++ bs := by
  obtain ⟨-, h2, -, -, -, h6⟩ := put_ok _ _ _ h
  apply List.ext_getElem?
  intro i
  unfold writer.bytes
  rw [h2]
  rcases Nat.lt_or_ge i w.pos with hi | hi
  · rw [List.getElem?_append_left (by simpa using hi)]
    rw [List.getElem?_map, List.getElem?_map, List.getElem?_range (by omega),
      List.getElem?_range hi]
    simp only [Option.map_some']
    rw [h6, if_neg (by omega)]
  · rw [List.getElem?_append_right (by simpa using hi)]
    simp only [List.length_map, List.length_range]
    rcases Nat.lt_or_ge i (w.pos + bs.length) with hj | hj
    · rw [List.getElem?_map, List.getElem?_range hj]
      simp only [Option.map_some']
      rw [h6, if_pos ⟨hi, hj⟩, List.getD_eq_getElem?_getD,
        List.getElem?_eq_getElem (by omega)]
      rfl
    · rw [List.getElem?_eq_none (by simpa using hj), List.getElem?_eq_none (by omega)]

theorem bytes_write (w w' : writer) (width v : Nat) (h : w.write width v = .ok w') :
    w'.bytes = w.bytes ++ writer.int_bytes w.swap width v :=
  bytes_put _ _ _ h

/-- Writing the count at offset 0 of a dev-map and restoring the cursor. -/
theorem bytes_patch (w w1 : writer) (v : Nat) (hp : 4 ≤ w.pos)
    (h : (w.set_pos 0).write 4 v = .ok w1) :
    (w1.set_pos w.pos).bytes = writer.int_bytes w.swap 4 v ++ w.bytes.drop 4 ∧
    (w1.set_pos w.pos).swap = w.swap ∧ (w1.set_pos w.pos).size = w.size := by
  obtain ⟨-, h2, h3, h4, -, h6⟩ := put_ok _ _ _ h
  rw [int_bytes_length] at h6
  have h6 : ∀ i, w1.data i =
      if 0 ≤ i ∧ i < 0 + 4 then (writer.int_bytes w.swap 4 v).getD i 0 else w.data i := h6
  refine ⟨?_, h3, h4⟩
  apply List.ext_getElem?
  intro i
  unfold writer.bytes
  show ((List.range w.pos).map w1.data)[i]? = _
  have hlen : (writer.int_bytes w.swap 4 v).length = 4 := int_bytes_length _ _ _
  rcases Nat.lt_or_ge i 4 with hi | hi
  · rw [List.getElem?_append_left (by omega), List.getElem?_map,
      List.getElem?_range (by omega)]
    simp only [Option.map_some']
    rw [h6, if_pos ⟨Nat.zero_le _, by show i < 0 + 4; omega⟩, List.getD_eq_getElem?_getD,
      List.getElem?_eq_getElem (by omega)]
    rfl
  · rw [List.getElem?_append_right (by omega), hlen, List.getElem?_drop]
    have e : 4 + (i - 4) = i := by omega
    rw [e]
    rcases Nat.lt_or_ge i w.pos with hj | hj
    · rw [List.getElem?_map, List.getElem?_map, List.getElem?_range hj]
      simp only [Option.map_some']
      rw [h6, if_neg (by show ¬ (0 ≤ i ∧ i < 0 + 4); omega)]
    · rw [List.getElem?_eq_none (by simpa using hj), List.getElem?_eq_none (by simpa using hj)]

end utils

theorem devmap_entry_bytes_length (swap : Bool) (e : Nat × Nat × Nat) :
    (devmap_entry_bytes swap e).length = 8 := by
  simp [devmap_entry_bytes, utils.int_bytes_length]

theorem devmap_flatten_length (swap : Bool) (l : List (Nat × Nat × Nat)) :
    ((l.map (devmap_entry_bytes swap)).flatten).length = 8 * l.length := by
  induction l with
  | nil => rfl
  | cons e l ih =>
    simp only [List.map_cons, List.flatten_cons, List.length_append, ih,
      devmap_entry_bytes_length, List.length_cons]
    omega

theorem devmap_bytes_length (swap : Bool) (l : List (Nat × Nat × Nat)) :
    (devmap_bytes swap l).length = 4 + 8 * l.length := by
  rw [devmap_bytes, List.length_append, utils.int_bytes_length, devmap_flatten_length]

/-- One more entry written at the cursor of the dev-map. -/
theorem devmap_holds_entry (w w1 w2 w3 : utils.writer) (l : List (Nat × Nat × Nat))
    (o line col : Nat) (h : devmap_holds w l)
    (h1 : w.write 4 o = .ok w1) (h2 : w1.write 2 line = .ok w2)
    (h3 : w2.write 2 col = .ok w3) :
    devmap_holds w3 (l ++ [(o, line, col)]) ∧ w3.swap = w.swap ∧ w3.size = w.size := by
  obtain ⟨hp, hb⟩ := h
  obtain ⟨-, p1, s1, z1, -⟩ := utils.write_ok _ _ _ _ h1
  obtain ⟨-, p2, s2, z2, -⟩ := utils.write_ok _ _ _ _ h2
  obtain ⟨-, p3, s3, z3, -⟩ := utils.write_ok _ _ _ _ h3
  have b1 := utils.bytes_write _ _ _ _ h1
  have b2 := utils.bytes_write _ _ _ _ h2
  have b3 := utils.bytes_write _ _ _ _ h3
  have hsw : w3.swap = w.swap := by rw [s3, s2, s1]
  refine ⟨⟨?_, ?_⟩, hsw, by rw [z3, z2, z1]⟩
  · rw [p3, p2, p1, hp, List.length_append, List.length_singleton]
    omega
  · rw [b3, b2, b1, s2, s1, hsw]
    have hlen : 4 ≤ w.bytes.length := by rw [utils.bytes_length]; omega
    rw [List.append_assoc, List.append_assoc, List.drop_append_of_le_length hlen, hb]
    simp [devmap_entry_bytes]

end xsk

namespace xsk

namespace arc

/-! ## What leaves the dev-map alone -/

theorem devmap_kept_refl (a : assembler) : devmap_kept a a := ⟨rfl, rfl⟩

theorem devmap_kept_trans {a b c : assembler} (h1 : devmap_kept a b) (h2 : devmap_kept b c) :
    devmap_kept a c :=
  ⟨h2.devmap.trans h1.devmap, h2.devmap_count.trans h1.devmap_count⟩

theorem kept_write (self self' : assembler) (width v : Nat)
    (h : self.write width v = .ok self') : devmap_kept self self' := by
  obtain ⟨-, -, -, d1, d2⟩ := assembler_write_spec _ _ _ _ h
  exact ⟨d1, d2⟩

theorem kept_bind_write (self self' : assembler) (width v : Nat)
    (f : assembler → Except asm_error assembler)
    (h : (self.write width v >>= f) = .ok self')
    (hf : ∀ s, f s = .ok self' → devmap_kept s self') : devmap_kept self self' := by
  rw [bind_eq_ok] at h
  obtain ⟨s, hs, h⟩ := h
  exact devmap_kept_trans (kept_write _ _ _ _ hs) (hf s h)

theorem kept_bind_val (x : Except asm_error Nat) (self self' : assembler)
    (f : Nat → Except asm_error assembler) (h : (x >>= f) = .ok self')
    (hf : ∀ a, f a = .ok self' → devmap_kept self self') : devmap_kept self self' := by
  rw [bind_eq_ok] at h
  obtain ⟨a, -, h⟩ := h
  exact hf a h

theorem write_refs_kept (l : List Nat) (self self' : assembler)
    (h : write_refs l self = .ok self') : devmap_kept self self' := by
  induction l generalizing self with
  | nil =>
    simp only [write_refs, Except.ok.injEq] at h
    subst h
    exact devmap_kept_refl _
  | cons e l ih =>
    unfold write_refs at h
    exact kept_bind_write _ _ _ _ _ h (fun s h => ih _ h)

theorem write_fields_kept (l : List (Nat × Nat)) (self self' : assembler)
    (h : write_fields l self = .ok self') : devmap_kept self self' := by
  obtain ⟨-, -, d1, d2, -⟩ := write_fields_spec _ _ _ h
  exact ⟨d1, d2⟩

theorem write_includes_kept (l : List String) (self self' : assembler)
    (h : write_includes l self = .ok self') : devmap_kept self self' := by
  induction l generalizing self with
  | nil =>
    simp only [write_includes, Except.ok.injEq] at h
    subst h
    exact devmap_kept_refl _
  | cons e l ih =>
    unfold write_includes at h
    refine kept_bind_val _ _ _ _ h (fun a h => ?_)
    exact kept_bind_write _ _ _ _ _ h (fun s h => ih _ h)

theorem kept_bind_refs (l : List Nat) (self self' : assembler)
    (f : assembler → Except asm_error assembler)
    (h : (write_refs l self >>= f) = .ok self')
    (hf : ∀ s, f s = .ok self' → devmap_kept s self') : devmap_kept self self' := by
  rw [bind_eq_ok] at h
  obtain ⟨s, hs, h⟩ := h
  exact devmap_kept_trans (write_refs_kept _ _ _ hs) (hf s h)

theorem kept_bind_write_pair (self : assembler) (r : Nat × assembler) (width v : Nat)
    (f : assembler → Except asm_error (Nat × assembler))
    (h : (self.write width v >>= f) = .ok r)
    (hf : ∀ s, f s = .ok r → devmap_kept s r.2) : devmap_kept self r.2 := by
  rw [bind_eq_ok] at h
  obtain ⟨s, hs, h⟩ := h
  exact devmap_kept_trans (kept_write _ _ _ _ hs) (hf s h)

theorem write_exports_kept (ctx : context) (l : List export_ref) (self self' : assembler)
    (h : write_exports ctx l self = .ok self') : devmap_kept self self' := by
  induction l generalizing self with
  | nil =>
    simp only [write_exports, Except.ok.injEq] at h
    subst h
    exact devmap_kept_refl _
  | cons e l ih =>
    unfold write_exports at h
    repeat' first
      | (with_reducible (have hh := ih _ h)
         exact ⟨hh.devmap, hh.devmap_count⟩)
      | with_reducible refine kept_bind_write _ _ _ _ _ h (fun s h => ?_)
      | with_reducible refine kept_bind_val _ _ _ _ h (fun a h => ?_)
      | split at h

theorem write_imports_kept (ctx : context) (l : List import_ref) (self self' : assembler)
    (h : write_imports ctx l self = .ok self') : devmap_kept self self' := by
  induction l generalizing self with
  | nil =>
    simp only [write_imports, Except.ok.injEq] at h
    subst h
    exact devmap_kept_refl _
  | cons e l ih =>
    unfold write_imports at h
    repeat' first
      | (with_reducible (have hh := ih _ h)
         exact ⟨hh.devmap, hh.devmap_count⟩)
      | with_reducible refine kept_bind_write _ _ _ _ _ h (fun s h => ?_)
      | with_reducible refine kept_bind_refs _ _ _ _ h (fun s h => ?_)
      | with_reducible refine kept_bind_val _ _ _ _ h (fun a h => ?_)
      | split at h

theorem write_anims_kept (ctx : context) (l : List animation_ref) (self self' : assembler)
    (h : write_anims ctx l self = .ok self') : devmap_kept self self' := by
  induction l generalizing self with
  | nil =>
    simp only [write_anims, Except.ok.injEq] at h
    subst h
    exact devmap_kept_refl _
  | cons e l ih =>
    unfold write_anims at h
    repeat' first
      | (with_reducible (have hh := ih _ h)
         exact ⟨hh.devmap, hh.devmap_count⟩)
      | with_reducible refine kept_bind_write _ _ _ _ _ h (fun s h => ?_)
      | with_reducible refine kept_bind_val _ _ _ _ h (fun a h => ?_)
      | split at h

theorem kept_bind_anims (ctx : context) (l : List animation_ref) (self self' : assembler)
    (f : assembler → Except asm_error assembler)
    (h : (write_anims ctx l self >>= f) = .ok self')
    (hf : ∀ s, f s = .ok self' → devmap_kept s self') : devmap_kept self self' := by
  rw [bind_eq_ok] at h
  obtain ⟨s, hs, h⟩ := h
  exact devmap_kept_trans (write_anims_kept _ _ _ _ hs) (hf s h)

theorem write_animtrees_kept (ctx : context) (l : List animtree_ref) (self self' : assembler)
    (h : write_animtrees ctx l self = .ok self') : devmap_kept self self' := by
  induction l generalizing self with
  | nil =>
    simp only [write_animtrees, Except.ok.injEq] at h
    subst h
    exact devmap_kept_refl _
  | cons e l ih =>
    unfold write_animtrees at h
    rw [bind_eq_ok] at h
    obtain ⟨a, -, h⟩ := h
    dsimp only at h
    split at h
    · simp only [bind_eq_ok] at h
      obtain ⟨s1, h1, s2, h2, s3, h3, s4, h4, s5, h5, h⟩ := h
      exact devmap_kept_trans (kept_write _ _ _ _ h1) (devmap_kept_trans (kept_write _ _ _ _ h2)
        (devmap_kept_trans (kept_write _ _ _ _ h3) (devmap_kept_trans (write_refs_kept _ _ _ h4)
        (devmap_kept_trans (write_anims_kept _ _ _ _ h5) (ih _ h)))))
    · simp only [bind_eq_ok, pure, Except.pure, Except.ok.injEq] at h
      obtain ⟨s1, h1, s2, h2, s3, h3, y, hy, s4, h4, s5, h5, h⟩ := h
      subst hy
      have k4 := write_refs_kept _ _ _ h4
      exact devmap_kept_trans (kept_write _ _ _ _ h1) (devmap_kept_trans (kept_write _ _ _ _ h2)
        (devmap_kept_trans (kept_write _ _ _ _ h3) (devmap_kept_trans ⟨k4.devmap, k4.devmap_count⟩
        (devmap_kept_trans (write_anims_kept _ _ _ _ h5) (ih _ h)))))

theorem write_string_header_kept (ctx : context) (entry : string_ref) (count : Nat)
    (self self' : assembler) (h : write_string_header ctx entry count self = .ok self') :
    devmap_kept self self' := by
  unfold write_string_header at h
  repeat' first
    | (simp only [pure, Except.pure, Except.ok.injEq] at h
       subst h
       exact ⟨rfl, rfl⟩)
    | with_reducible refine kept_bind_write _ _ _ _ _ h (fun s h => ?_)
    | with_reducible refine kept_bind_val _ _ _ _ h (fun a h => ?_)
    | split at h

theorem kept_bind_header (ctx : context) (entry : string_ref) (count : Nat)
    (self : assembler) (r : Nat × assembler)
    (f : assembler → Except asm_error (Nat × assembler))
    (h : (write_string_header ctx entry count self >>= f) = .ok r)
    (hf : ∀ s, f s = .ok r → devmap_kept s r.2) : devmap_kept self r.2 := by
  rw [bind_eq_ok] at h
  obtain ⟨s, hs, h⟩ := h
  exact devmap_kept_trans (write_string_header_kept _ _ _ _ _ hs) (hf s h)

theorem write_string_runs_kept (ctx : context) (entry : string_ref) (count : Nat)
    (l : List Nat) (i n : Nat) (self : assembler) (r : Nat × assembler)
    (h : write_string_runs ctx entry count l i n self = .ok r) : devmap_kept self r.2 := by
  induction l generalizing i n self with
  | nil =>
    simp only [write_string_runs, Except.ok.injEq] at h
    subst h
    exact devmap_kept_refl _
  | cons e l ih =>
    unfold write_string_runs at h
    repeat' first
      | exact (by with_reducible exact ih _ _ _ h)
      | with_reducible refine kept_bind_header _ _ _ _ _ _ h (fun s h => ?_)
      | with_reducible refine kept_bind_write_pair _ _ _ _ _ h (fun s h => ?_)
      | split at h

theorem write_strings_kept (ctx : context) (l : List string_ref) (n : Nat)
    (self : assembler) (r : Nat × assembler)
    (h : write_strings ctx l n self = .ok r) : devmap_kept self r.2 := by
  induction l generalizing n self with
  | nil =>
    simp only [write_strings, Except.ok.injEq] at h
    subst h
    exact devmap_kept_refl _
  | cons e l ih =>
    simp only [write_strings] at h
    split at h
    · simp only [bind_eq_ok] at h
      obtain ⟨r1, h1, h⟩ := h
      exact devmap_kept_trans (write_string_runs_kept _ _ _ _ _ _ _ _ h1) (ih _ _ h)
    · simp only [bind_eq_ok] at h
      obtain ⟨s1, h1, s2, h2, h⟩ := h
      exact devmap_kept_trans (write_string_header_kept _ _ _ _ _ h1)
        (devmap_kept_trans (write_refs_kept _ _ _ h2) (ih _ _ h))

end arc

end xsk

namespace xsk

/-! ## The dev-map log -/

theorem devmap_ordered_mono (l : List (Nat × Nat × Nat)) (p q : Nat) (h : devmap_ordered l p)
    (hpq : p ≤ q) : devmap_ordered l q :=
  And.intro (fun e he => ⟨(h.1 e he).1, Nat.le_trans (h.1 e he).2 hpq⟩) h.2

theorem devmap_state_mono (w : utils.writer) (n p q : Nat) (l : List (Nat × Nat × Nat))
    (h : devmap_state w n p l) (hpq : p ≤ q) : devmap_state w n q l :=
  ⟨h.holds, h.count, devmap_ordered_mono _ _ _ h.ordered hpq⟩

theorem devmap_ordered_snoc (l : List (Nat × Nat × Nat)) (p o line col : Nat)
    (h : devmap_ordered l p) (hp : p < o) : devmap_ordered (l ++ [(o, line, col)]) o := by
  refine And.intro ?_ ?_
  · intro e he
    rcases List.mem_append.1 he with he | he
    · have := h.1 e he
      omega
    · rw [List.mem_singleton.1 he]
      show 1 ≤ o ∧ o ≤ o
      omega
  · rw [List.map_append, List.pairwise_append]
    refine ⟨h.2, List.pairwise_singleton _ _, ?_⟩
    intro a ha b hb
    obtain ⟨e, he, rfl⟩ := List.mem_map.1 ha
    simp only [List.map_cons, List.map_nil, List.mem_singleton] at hb
    have := h.1 e he
    omega

/-- One more entry logged at the script cursor `o`. -/
theorem devmap_state_entry (w w1 w2 w3 : utils.writer) (n p o line col : Nat)
    (l : List (Nat × Nat × Nat)) (h : devmap_state w n p l) (hp : p < o)
    (h1 : w.write 4 o = .ok w1) (h2 : w1.write 2 line = .ok w2)
    (h3 : w2.write 2 col = .ok w3) :
    devmap_state w3 (n + 1) o (l ++ [(o, line, col)]) ∧ w3.swap = w.swap ∧ w3.size = w.size := by
  obtain ⟨a, b, c⟩ := devmap_holds_entry _ _ _ _ _ _ _ _ h.holds h1 h2 h3
  refine ⟨⟨a, ?_, devmap_ordered_snoc _ _ _ _ _ h.ordered hp⟩, b, c⟩
  rw [h.count, List.length_append, List.length_singleton]

theorem devmap_state_nil (w : utils.writer) (p : Nat) :
    devmap_state (w.clear.set_pos 4) 0 p [] := by
  refine ⟨And.intro rfl ?_, rfl, And.intro (fun e he => by cases he) List.Pairwise.nil⟩
  apply List.drop_eq_nil_of_le
  rw [utils.bytes_length]
  exact Nat.le_refl 4

/-- Writing the count at offset 0: the buffer returned is the count followed by
the entries. -/
theorem devmap_state_bytes (w w1 : utils.writer) (n p : Nat) (l : List (Nat × Nat × Nat))
    (h : devmap_state w n p l) (h1 : (w.set_pos 0).write 4 n = .ok w1) :
    (w1.set_pos w.pos).bytes = devmap_bytes w.swap l ∧
    (w1.set_pos w.pos).swap = w.swap ∧ (w1.set_pos w.pos).size = w.size := by
  have hp : 4 ≤ w.pos := by rw [h.holds.1]; omega
  obtain ⟨a, b, c⟩ := utils.bytes_patch _ _ _ hp h1
  refine ⟨?_, b, c⟩
  rw [a, h.holds.2, h.count]
  rfl

namespace arc

theorem logged_nil (ctx : context) : logged ctx [] = [] := by
  unfold logged
  split <;> rfl

theorem logged_cons (ctx : context) (i : instruction) (is : List instruction) :
    logged ctx (i :: is) = logged ctx [i] ++ logged ctx is := by
  unfold logged
  split <;> rfl

theorem logged_append (ctx : context) (is js : List instruction) :
    logged ctx (is ++ js) = logged ctx is ++ logged ctx js := by
  unfold logged
  split
  · rw [List.map_append]
  · rfl

theorem logged_length (ctx : context) (is : List instruction) :
    (logged ctx is).length = if ctx.build.has_dev_maps then is.length else 0 := by
  unfold logged
  split <;> simp

theorem logged_congr (ctx : context) (is js : List instruction)
    (h : is.map (fun i => (i.opcode, i.data, i.pos)) = js.map (fun i => (i.opcode, i.data, i.pos))) :
    logged ctx is = logged ctx js := by
  unfold logged
  split
  · have := congrArg (List.map fun (t : opcode × List String × position) =>
      (t.2.2.line, t.2.2.column)) h
    simpa [List.map_map, Function.comp_def] using this
  · rfl

/-- The dev-map entry of one instruction: written at the cursor after the
opcode byte. -/
theorem write_devmap_entry_state (ctx : context) (self self' : assembler) (inst : instruction)
    (p : Nat) (l : List (Nat × Nat × Nat))
    (st : devmap_state self.devmap self.devmap_count p l) (hp : p < self.script.pos)
    (h : write_devmap_entry ctx self inst = .ok self') :
    ∃ e, e.map (fun x => x.2) = logged ctx [inst] ∧
      devmap_state self'.devmap self'.devmap_count self.script.pos (l ++ e) ∧
      self'.devmap.swap = self.devmap.swap ∧ self'.devmap.size = self.devmap.size := by
  unfold write_devmap_entry at h
  split at h
  · rename_i hd
    simp only [bind_eq_ok, pure, Except.pure, Except.ok.injEq] at h
    obtain ⟨s1, h1, s2, h2, s3, h3, rfl⟩ := h
    obtain ⟨w1, e1⟩ := write_devmap_ok _ _ _ _ h1
    obtain ⟨w2, e2⟩ := write_devmap_ok _ _ _ _ h2
    obtain ⟨w3, e3⟩ := write_devmap_ok _ _ _ _ h3
    have c3 : s3.devmap_count = self.devmap_count := by rw [e3, e2, e1]
    obtain ⟨a, b, c⟩ := devmap_state_entry _ _ _ _ _ _ _ _ _ _ st hp w1 w2 w3
    refine ⟨[(self.script.pos, inst.pos.line, inst.pos.column)], ?_, ?_, b, c⟩
    · simp [logged, hd]
    · show devmap_state s3.devmap (s3.devmap_count + 1) _ _
      rw [c3]
      exact a
  · rename_i hd
    cases h
    refine ⟨[], ?_, ?_, rfl, rfl⟩
    · simp [logged, hd]
    · rw [List.append_nil]
      exact devmap_state_mono _ _ _ _ _ st (Nat.le_of_lt hp)

/-- The dev-map after the emission of one instruction. -/
theorem assemble_instruction_state (ctx : context) (labels : label_map)
    (self self' : assembler) (inst : instruction) (l : List (Nat × Nat × Nat))
    (st : devmap_state self.devmap self.devmap_count self.script.pos l)
    (h : assemble_instruction ctx labels self inst = .ok self') :
    ∃ e, e.map (fun x => x.2) = logged ctx [inst] ∧
      devmap_state self'.devmap self'.devmap_count self'.script.pos (l ++ e) ∧
      self'.devmap.swap = self.devmap.swap ∧ self'.devmap.size = self.devmap.size := by
  unfold assemble_instruction at h
  split at h
  · cases h
  · simp only [bind_eq_ok] at h
    obtain ⟨s1, h1, s2, h2, h⟩ := h
    have e1 := emitted_write _ _ _ _ h1
    obtain ⟨d1, -⟩ := write_devmap_entry_spec _ _ _ _ h2
    have e3 := assemble_operands_spec _ _ _ _ _ h
    have st1 : devmap_state s1.devmap s1.devmap_count self.script.pos l := by
      rw [e1.devmap, e1.devmap_count]
      exact st
    have hp : self.script.pos < s1.script.pos := by
      rw [e1.pos]
      exact Nat.lt_succ_self _
    obtain ⟨e, he, st2, sw, sz⟩ := write_devmap_entry_state _ _ _ _ _ _ st1 hp h2
    refine ⟨e, he, ?_, ?_, ?_⟩
    · rw [e3.devmap, e3.devmap_count]
      refine devmap_state_mono _ _ _ _ _ st2 ?_
      have := e3.frame.script.le
      rw [d1] at this
      exact this
    · rw [e3.devmap, sw, e1.devmap]
    · rw [e3.devmap, sz, e1.devmap]

/-- The dev-map after the emission loop. -/
theorem assemble_instructions_state (ctx : context) (labels : label_map)
    (is : List instruction) (self self' : assembler) (l : List (Nat × Nat × Nat))
    (st : devmap_state self.devmap self.devmap_count self.script.pos l)
    (h : assemble_instructions ctx labels is self = .ok self') :
    ∃ e, e.map (fun x => x.2) = logged ctx is ∧
      devmap_state self'.devmap self'.devmap_count self'.script.pos (l ++ e) ∧
      self'.devmap.swap = self.devmap.swap ∧ self'.devmap.size = self.devmap.size := by
  induction is generalizing self l with
  | nil =>
    simp only [assemble_instructions, Except.ok.injEq] at h
    subst h
    exact ⟨[], by rw [logged_nil]; rfl, by rw [List.append_nil]; exact st, rfl, rfl⟩
  | cons i is ih =>
    simp only [assemble_instructions, bind_eq_ok] at h
    obtain ⟨s1, h1, h⟩ := h
    obtain ⟨e1, he1, st1, sw1, sz1⟩ := assemble_instruction_state _ _ _ _ _ _ st h1
    obtain ⟨e2, he2, st2, sw2, sz2⟩ := ih _ _ st1 h
    refine ⟨e1 ++ e2, ?_, ?_, sw2.trans sw1, sz2.trans sz1⟩
    · rw [List.map_append, he1, he2, ← logged_cons]
    · rw [← List.append_assoc]
      exact st2

/-- The dev-map after `assemble_function`. -/
theorem assemble_function_state (ctx : context) (self : assembler) (func : function)
    (r : function × assembler) (l : List (Nat × Nat × Nat))
    (st : devmap_state self.devmap self.devmap_count self.script.pos l)
    (h : assemble_function ctx self func = .ok r) :
    ∃ e, e.map (fun x => x.2) = logged ctx func.instructions ∧
      devmap_state r.2.devmap r.2.devmap_count r.2.script.pos (l ++ e) ∧
      r.2.devmap.swap = self.devmap.swap ∧ r.2.devmap.size = self.devmap.size := by
  simp only [assemble_function, bind_eq_ok, pure, Except.pure, Except.ok.injEq] at h
  obtain ⟨r0, hlay, s2, hemit, rfl⟩ := h
  obtain ⟨hm, -, -, l4, -, -⟩ := layout_instructions_spec _ _ _ _ _ _ _ _ hlay
  have st1 : devmap_state
      ({ r0.2.2.2 with script := r0.2.2.2.script.set_pos self.script.pos } : assembler).devmap
      ({ r0.2.2.2 with script := r0.2.2.2.script.set_pos self.script.pos } : assembler).devmap_count
      ({ r0.2.2.2 with script := r0.2.2.2.script.set_pos self.script.pos } : assembler).script.pos
      l := by
    show devmap_state r0.2.2.2.devmap r0.2.2.2.devmap_count self.script.pos l
    rw [l4.devmap, l4.devmap_count]
    exact st
  obtain ⟨e, he, st2, sw, sz⟩ := assemble_instructions_state _ _ _ _ _ _ st1 hemit
  refine ⟨e, ?_, st2, ?_, ?_⟩
  · rw [he]
    exact logged_congr _ _ _ hm
  · show s2.devmap.swap = _
    rw [sw]
    show r0.2.2.2.devmap.swap = _
    rw [l4.devmap]
  · show s2.devmap.size = _
    rw [sz]
    show r0.2.2.2.devmap.size = _
    rw [l4.devmap]

/-- The dev-map after the code segment loop. -/
theorem assemble_functions_state (ctx : context) (fs : List function) (self : assembler)
    (r : List function × assembler) (l : List (Nat × Nat × Nat))
    (st : devmap_state self.devmap self.devmap_count self.script.pos l)
    (h : assemble_functions ctx fs self = .ok r) :
    ∃ e, e.map (fun x => x.2) = logged ctx (fs.flatMap fun f => f.instructions) ∧
      devmap_state r.2.devmap r.2.devmap_count r.2.script.pos (l ++ e) ∧
      r.2.devmap.swap = self.devmap.swap ∧ r.2.devmap.size = self.devmap.size := by
  induction fs generalizing self r l with
  | nil =>
    simp only [assemble_functions, Except.ok.injEq] at h
    subst h
    exact ⟨[], by rw [List.flatMap_nil, logged_nil]; rfl, by rw [List.append_nil]; exact st,
      rfl, rfl⟩
  | cons f fs ih =>
    simp only [assemble_functions, bind_eq_ok, pure, Except.pure, Except.ok.injEq] at h
    obtain ⟨r1, h1, t, ht, rfl⟩ := h
    have hn : 0 < (if has_prop ctx.props props.size64 = true then 8 else 4) := by
      split <;> decide
    have st0 : devmap_state
        ((self.align (if has_prop ctx.props props.size64 = true then 8 else 4)).2.seek
          (if has_prop ctx.props props.size64 = true then 8 else 4)).devmap
        ((self.align (if has_prop ctx.props props.size64 = true then 8 else 4)).2.seek
          (if has_prop ctx.props props.size64 = true then 8 else 4)).devmap_count
        ((self.align (if has_prop ctx.props props.size64 = true then 8 else 4)).2.seek
          (if has_prop ctx.props props.size64 = true then 8 else 4)).script.pos l := by
      refine devmap_state_mono _ _ _ _ _ st ?_
      exact Nat.le_trans (utils.advances_align _ _ hn).le (utils.advances_seek _ _).le
    obtain ⟨e1, he1, st1, sw1, sz1⟩ := assemble_function_state _ _ _ _ _ st0 h1
    obtain ⟨e2, he2, st2, sw2, sz2⟩ := ih _ _ _ st1 ht
    refine ⟨e1 ++ e2, ?_, ?_, sw2.trans sw1, sz2.trans sz1⟩
    · rw [List.map_append, he1, he2, List.flatMap_cons, logged_append]
    · rw [← List.append_assoc]
      exact st2

end arc

end xsk

namespace xsk

namespace arc

/-- The dev-map `assemble` returns: the count, then the entries logged by the
emission of the code segment, in emission order. -/
theorem assemble_devmap (ctx : context) (self : assembler) (data : assembly) (name : String)
    (res : assemble_result) (h : assemble ctx self data name = .ok res) :
    ∃ l : List (Nat × Nat × Nat), l.map (fun x => x.2) = logged ctx (instructions_of data) ∧
      res.devmap = devmap_bytes self.devmap.swap l ∧
      res.self.devmap_count = l.length ∧
      devmap_ordered l res.script.length ∧
      res.self.devmap.swap = self.devmap.swap ∧ res.self.devmap.size = self.devmap.size := by
  simp only [assemble, bind_eq_ok, pure, Except.pure, Except.ok.injEq] at h
  obtain ⟨a2, h2, a3, h3, a4, h4, a5, h5, r, hr, a7, h7, a8, h8, a9, h9, t, ht, hname, hn,
    a11, h11, a13, h13, rfl⟩ := h
  obtain ⟨-, -, -, k4, c4⟩ := pooling_induct _ (process_string_keeps _) data name _ a2 a3 a4
    ⟨rfl, rfl, rfl, rfl, rfl⟩ h2 h3 h4
  have k5 := write_includes_kept _ _ _ h5
  have st5 : devmap_state a5.devmap a5.devmap_count a5.script.pos [] := by
    rw [k5.devmap, k5.devmap_count, k4, c4]
    exact devmap_state_nil _ _
  obtain ⟨l, hl, st6, sw6, sz6⟩ := assemble_functions_state _ _ _ _ _ st5 hr
  rw [List.nil_append] at st6
  have k7 := write_exports_kept _ _ _ _ h7
  have k8 := write_imports_kept _ _ _ _ h8
  have k9 := write_animtrees_kept _ _ _ _ h9
  have k10 := write_strings_kept _ _ _ _ _ ht
  rw [write_header_eq] at h11
  have k11 := write_fields_kept _ _ _ h11
  have k611 := devmap_kept_trans k7 (devmap_kept_trans k8 (devmap_kept_trans k9
    (devmap_kept_trans k10 ⟨k11.devmap, k11.devmap_count⟩)))
  have f7 := write_exports_frame _ _ _ _ h7
  have f8 := write_imports_frame _ _ _ _ h8
  have f9 := write_animtrees_frame _ _ _ _ h9
  have f10 := write_strings_frame _ _ _ _ _ ht
  have f610 := emit_frame_trans f7 (emit_frame_trans f8 (emit_frame_trans f9 f10))
  obtain ⟨w13, e13⟩ := write_devmap_ok _ _ _ _ h13
  have st11 : devmap_state a11.devmap a11.devmap_count t.2.script.pos l := by
    rw [k611.devmap, k611.devmap_count]
    exact devmap_state_mono _ _ _ _ _ st6 f610.script.le
  have w13 : (a11.devmap.set_pos 0).write 4 a11.devmap_count = .ok a13.devmap := w13
  obtain ⟨b1, b2, b3⟩ := devmap_state_bytes _ _ _ _ _ st11 w13
  have d5 : a5.devmap.swap = self.devmap.swap ∧ a5.devmap.size = self.devmap.size := by
    rw [k5.devmap, k4]
    exact ⟨rfl, rfl⟩
  refine ⟨l, hl, ?_, ?_, ?_, ?_, ?_⟩
  · show (a13.devmap.set_pos a11.devmap.pos).bytes = _
    rw [b1, k611.devmap, sw6, d5.1]
  · show a13.devmap_count = _
    rw [e13]
    exact st11.count
  · show devmap_ordered l (List.length (utils.writer.bytes _))
    rw [utils.bytes_length, e13]
    exact st11.ordered
  · show (a13.devmap.set_pos a11.devmap.pos).swap = _
    rw [b2, k611.devmap, sw6, d5.1]
  · show (a13.devmap.set_pos a11.devmap.pos).size = _
    rw [b3, k611.devmap, sz6, d5.2]

end arc

end xsk

namespace xsk

namespace gsc

/-! ## What the GSC operands leave untouched -/

theorem op_frame_refl (a : assembler) : op_frame a a :=
  ⟨utils.advances_refl _, utils.advances_refl _, rfl, rfl⟩

theorem op_frame_trans {a b c : assembler} (h1 : op_frame a b) (h2 : op_frame b c) :
    op_frame a c :=
  ⟨utils.advances_trans h1.script h2.script, utils.advances_trans h1.stack h2.stack,
    h2.devmap.trans h1.devmap, h2.devmap_count.trans h1.devmap_count⟩

theorem op_frame_write (self self' : assembler) (width v : Nat)
    (h : self.write width v = .ok self') : op_frame self self' := by
  unfold assembler.write at h
  split at h
  · cases h
    rename_i w hw
    exact ⟨utils.advances_write _ _ _ _ hw, utils.advances_refl _, rfl, rfl⟩
  · cases h

theorem op_frame_write_stack (self self' : assembler) (width v : Nat)
    (h : self.write_stack width v = .ok self') : op_frame self self' := by
  unfold assembler.write_stack at h
  split at h
  · cases h
    rename_i w hw
    exact ⟨utils.advances_refl _, utils.advances_write _ _ _ _ hw, rfl, rfl⟩
  · cases h

theorem op_frame_write_stack_cstr (self self' : assembler) (s : List Nat)
    (h : self.write_stack_cstr s = .ok self') : op_frame self self' := by
  unfold assembler.write_stack_cstr at h
  split at h
  · cases h
    rename_i w hw
    exact ⟨utils.advances_refl _, utils.advances_put _ _ _ hw, rfl, rfl⟩
  · cases h

theorem op_frame_align (self : assembler) (n : Nat) (hn : 0 < n) :
    op_frame self (self.align n) :=
  ⟨utils.advances_align _ _ hn, utils.advances_refl _, rfl, rfl⟩

theorem op_frame_ok (self self' : assembler) (h : Except.ok self = (.ok self' : Except asm_error assembler)) :
    op_frame self self' := by
  cases h
  exact op_frame_refl _

theorem op_frame_pure (self self' : assembler)
    (h : (pure self : Except asm_error assembler) = .ok self') : op_frame self self' := by
  cases h
  exact op_frame_refl _

theorem op_frame_error (e : asm_error) (self self' : assembler)
    (h : (Except.error e : Except asm_error assembler) = .ok self') : op_frame self self' := by
  cases h

/-- One step of a chain of writes. -/
theorem fr_step (x : Except asm_error assembler) (self self' : assembler)
    (f : assembler → Except asm_error assembler)
    (hx : ∀ s, x = .ok s → op_frame self s) (h : (x >>= f) = .ok self')
    (hf : ∀ s, f s = .ok self' → op_frame s self') : op_frame self self' := by
  rw [bind_eq_ok] at h
  obtain ⟨s, hs, h⟩ := h
  exact op_frame_trans (hx s hs) (hf s h)

/-- A step that reads a value and writes nothing. -/
theorem fr_val (α : Type) (x : Except asm_error α) (self self' : assembler)
    (f : α → Except asm_error assembler) (h : (x >>= f) = .ok self')
    (hf : ∀ a, f a = .ok self' → op_frame self self') : op_frame self self' := by
  rw [bind_eq_ok] at h
  obtain ⟨a, -, h⟩ := h
  exact hf a h

theorem op_frame_write_i24 (self self' : assembler) (v : Int)
    (h : self.write_i24 v = .ok self') : op_frame self self' :=
  op_frame_write _ _ _ _ h

theorem op_frame_assemble_offset (ctx : context) (self self' : assembler) (offs : Int)
    (h : assemble_offset ctx self offs = .ok self') : op_frame self self' :=
  op_frame_write _ _ _ _ h

theorem op_frame_write_stoul_operand (self self' : assembler) (inst : instruction) (width : Nat)
    (h : write_stoul_operand self inst width = .ok self') : op_frame self self' := by
  unfold write_stoul_operand at h
  repeat' first
    | with_reducible exact op_frame_ok _ _ h
    | with_reducible exact op_frame_pure _ _ h
    | with_reducible exact op_frame_write _ _ _ _ h
    | with_reducible exact op_frame_write_stack _ _ _ _ h
    | with_reducible exact op_frame_write_stack_cstr _ _ _ h
    | with_reducible exact op_frame_assemble_offset _ _ _ _ h
    | with_reducible refine fr_step _ _ _ _ (fun s hs => op_frame_write _ _ _ _ hs) h (fun s h => ?_)
    | with_reducible refine fr_step _ _ _ _ (fun s hs => op_frame_write_stack _ _ _ _ hs) h (fun s h => ?_)
    | with_reducible refine fr_step _ _ _ _ (fun s hs => op_frame_write_stack_cstr _ _ _ hs) h (fun s h => ?_)
    | with_reducible refine fr_step _ _ _ _ (fun s hs => op_frame_assemble_offset _ _ _ _ hs) h (fun s h => ?_)
    | with_reducible refine fr_val String _ _ _ _ h (fun a h => ?_)
    | with_reducible refine fr_val Nat _ _ _ _ h (fun a h => ?_)

theorem op_frame_write_stoi_byte (self self' : assembler) (inst : instruction) (k : Nat)
    (h : write_stoi_byte self inst k = .ok self') : op_frame self self' := by
  unfold write_stoi_byte at h
  repeat' first
    | with_reducible exact op_frame_ok _ _ h
    | with_reducible exact op_frame_pure _ _ h
    | with_reducible exact op_frame_write _ _ _ _ h
    | with_reducible exact op_frame_write_stack _ _ _ _ h
    | with_reducible exact op_frame_write_stack_cstr _ _ _ h
    | with_reducible exact op_frame_assemble_offset _ _ _ _ h
    | with_reducible refine fr_step _ _ _ _ (fun s hs => op_frame_write _ _ _ _ hs) h (fun s h => ?_)
    | with_reducible refine fr_step _ _ _ _ (fun s hs => op_frame_write_stack _ _ _ _ hs) h (fun s h => ?_)
    | with_reducible refine fr_step _ _ _ _ (fun s hs => op_frame_write_stack_cstr _ _ _ hs) h (fun s h => ?_)
    | with_reducible refine fr_step _ _ _ _ (fun s hs => op_frame_assemble_offset _ _ _ _ hs) h (fun s h => ?_)
    | with_reducible refine fr_val String _ _ _ _ h (fun a h => ?_)
    | with_reducible refine fr_val Nat _ _ _ _ h (fun a h => ?_)
    | with_reducible refine fr_val Int _ _ _ _ h (fun a h => ?_)

theorem op_frame_write_float_operand (ctx : context) (self self' : assembler) (inst : instruction) (k : Nat)
    (h : write_float_operand ctx self inst k = .ok self') : op_frame self self' := by
  unfold write_float_operand at h
  repeat' first
    | with_reducible exact op_frame_ok _ _ h
    | with_reducible exact op_frame_pure _ _ h
    | with_reducible exact op_frame_write _ _ _ _ h
    | with_reducible exact op_frame_write_stack _ _ _ _ h
    | with_reducible exact op_frame_write_stack_cstr _ _ _ h
    | with_reducible exact op_frame_assemble_offset _ _ _ _ h
    | with_reducible refine fr_step _ _ _ _ (fun s hs => op_frame_write _ _ _ _ hs) h (fun s h => ?_)
    | with_reducible refine fr_step _ _ _ _ (fun s hs => op_frame_write_stack _ _ _ _ hs) h (fun s h => ?_)
    | with_reducible refine fr_step _ _ _ _ (fun s hs => op_frame_write_stack_cstr _ _ _ hs) h (fun s h => ?_)
    | with_reducible refine fr_step _ _ _ _ (fun s hs => op_frame_assemble_offset _ _ _ _ hs) h (fun s h => ?_)
    | with_reducible refine fr_val String _ _ _ _ h (fun a h => ?_)
    | with_reducible refine fr_val Nat _ _ _ _ h (fun a h => ?_)
    | with_reducible refine fr_val Int _ _ _ _ h (fun a h => ?_)
    | with_reducible refine fr_val (List Nat) _ _ _ _ h (fun a h => ?_)
    | with_reducible exact op_frame_error _ _ _ h
    | split at h

theorem op_frame_write_thread_args (self self' : assembler) (inst : instruction) (thread : Bool) (k : Nat)
    (h : write_thread_args self inst thread k = .ok self') : op_frame self self' := by
  unfold write_thread_args at h
  repeat' first
    | with_reducible exact op_frame_ok _ _ h
    | with_reducible exact op_frame_pure _ _ h
    | with_reducible exact op_frame_write _ _ _ _ h
    | with_reducible exact op_frame_write_stack _ _ _ _ h
    | with_reducible exact op_frame_write_stack_cstr _ _ _ h
    | with_reducible exact op_frame_assemble_offset _ _ _ _ h
    | with_reducible exact op_frame_write_stoi_byte _ _ _ _ h
    | with_reducible refine fr_step _ _ _ _ (fun s hs => op_frame_write _ _ _ _ hs) h (fun s h => ?_)
    | with_reducible refine fr_step _ _ _ _ (fun s hs => op_frame_write_stack _ _ _ _ hs) h (fun s h => ?_)
    | with_reducible refine fr_step _ _ _ _ (fun s hs => op_frame_write_stack_cstr _ _ _ hs) h (fun s h => ?_)
    | with_reducible refine fr_step _ _ _ _ (fun s hs => op_frame_assemble_offset _ _ _ _ hs) h (fun s h => ?_)
    | with_reducible refine fr_val String _ _ _ _ h (fun a h => ?_)
    | with_reducible refine fr_val Nat _ _ _ _ h (fun a h => ?_)
    | with_reducible refine fr_val Int _ _ _ _ h (fun a h => ?_)
    | with_reducible refine fr_val (List Nat) _ _ _ _ h (fun a h => ?_)
    | with_reducible exact op_frame_error _ _ _ h
    | split at h

theorem op_frame_assemble_field (ctx : context) (self self' : assembler) (inst : instruction)
    (h : assemble_field ctx self inst = .ok self') : op_frame self self' := by
  unfold assemble_field at h
  repeat' first
    | with_reducible exact op_frame_ok _ _ h
    | with_reducible exact op_frame_pure _ _ h
    | with_reducible exact op_frame_write _ _ _ _ h
    | with_reducible exact op_frame_write_stack _ _ _ _ h
    | with_reducible exact op_frame_write_stack_cstr _ _ _ h
    | with_reducible exact op_frame_assemble_offset _ _ _ _ h
    | with_reducible refine fr_step _ _ _ _ (fun s hs => op_frame_write _ _ _ _ hs) h (fun s h => ?_)
    | with_reducible refine fr_step _ _ _ _ (fun s hs => op_frame_write_stack _ _ _ _ hs) h (fun s h => ?_)
    | with_reducible refine fr_step _ _ _ _ (fun s hs => op_frame_write_stack_cstr _ _ _ hs) h (fun s h => ?_)
    | with_reducible refine fr_step _ _ _ _ (fun s hs => op_frame_assemble_offset _ _ _ _ hs) h (fun s h => ?_)
    | with_reducible refine fr_val String _ _ _ _ h (fun a h => ?_)
    | with_reducible refine fr_val Nat _ _ _ _ h (fun a h => ?_)
    | with_reducible refine fr_val Int _ _ _ _ h (fun a h => ?_)
    | with_reducible refine fr_val (List Nat) _ _ _ _ h (fun a h => ?_)
    | with_reducible exact op_frame_error _ _ _ h
    | split at h

theorem op_frame_assemble_params_loop (ctx : context) (data : List String) (n i : Nat)
    (self self' : assembler)
    (h : assemble_params_loop ctx data n i self = .ok self') : op_frame self self' := by
  induction n generalizing i self with
  | zero =>
    unfold assemble_params_loop at h
    exact op_frame_ok _ _ h
  | succ n ih =>
    unfold assemble_params_loop at h
    repeat' first
      | with_reducible exact op_frame_ok _ _ h
      | with_reducible exact op_frame_pure _ _ h
      | with_reducible exact op_frame_write _ _ _ _ h
      | with_reducible exact op_frame_write_stack _ _ _ _ h
      | with_reducible exact op_frame_write_stack_cstr _ _ _ h
      | with_reducible exact op_frame_assemble_offset _ _ _ _ h
      | with_reducible exact ih _ _ h
      | with_reducible refine fr_step _ _ _ _ (fun s hs => op_frame_write _ _ _ _ hs) h (fun s h => ?_)
      | with_reducible refine fr_step _ _ _ _ (fun s hs => op_frame_write_stack _ _ _ _ hs) h (fun s h => ?_)
      | with_reducible refine fr_step _ _ _ _ (fun s hs => op_frame_write_stack_cstr _ _ _ hs) h (fun s h => ?_)
      | with_reducible refine fr_step _ _ _ _ (fun s hs => op_frame_assemble_offset _ _ _ _ hs) h (fun s h => ?_)
      | with_reducible refine fr_val String _ _ _ _ h (fun a h => ?_)
      | with_reducible refine fr_val Nat _ _ _ _ h (fun a h => ?_)
      | with_reducible refine fr_val Int _ _ _ _ h (fun a h => ?_)
      | with_reducible refine fr_val (List Nat) _ _ _ _ h (fun a h => ?_)
      | with_reducible exact op_frame_error _ _ _ h
      | split at h

theorem op_frame_assemble_params (ctx : context) (self self' : assembler) (inst : instruction)
    (h : assemble_params ctx self inst = .ok self') : op_frame self self' := by
  unfold assemble_params at h
  repeat' first
    | with_reducible exact op_frame_ok _ _ h
    | with_reducible exact op_frame_pure _ _ h
    | with_reducible exact op_frame_write _ _ _ _ h
    | with_reducible exact op_frame_write_stack _ _ _ _ h
    | with_reducible exact op_frame_write_stack_cstr _ _ _ h
    | with_reducible exact op_frame_assemble_offset _ _ _ _ h
    | with_reducible exact op_frame_assemble_params_loop _ _ _ _ _ _ h
    | with_reducible refine fr_step _ _ _ _ (fun s hs => op_frame_write _ _ _ _ hs) h (fun s h => ?_)
    | with_reducible refine fr_step _ _ _ _ (fun s hs => op_frame_write_stack _ _ _ _ hs) h (fun s h => ?_)
    | with_reducible refine fr_step _ _ _ _ (fun s hs => op_frame_write_stack_cstr _ _ _ hs) h (fun s h => ?_)
    | with_reducible refine fr_step _ _ _ _ (fun s hs => op_frame_assemble_offset _ _ _ _ hs) h (fun s h => ?_)
    | with_reducible refine fr_val String _ _ _ _ h (fun a h => ?_)
    | with_reducible refine fr_val Nat _ _ _ _ h (fun a h => ?_)

theorem op_frame_assemble_call_far2 (ctx : context) (funcs : List function)
    (self self' : assembler) (inst : instruction) (thread : Bool)
    (h : assemble_call_far2 ctx funcs self inst thread = .ok self') : op_frame self self' := by
  unfold assemble_call_far2 at h
  repeat' first
    | with_reducible exact op_frame_ok _ _ h
    | with_reducible exact op_frame_pure _ _ h
    | with_reducible exact op_frame_write _ _ _ _ h
    | with_reducible exact op_frame_write_stack _ _ _ _ h
    | with_reducible exact op_frame_write_stack_cstr _ _ _ h
    | with_reducible exact op_frame_assemble_offset _ _ _ _ h
    | with_reducible exact op_frame_write_thread_args _ _ _ _ _ h
    | with_reducible refine fr_step _ _ _ _ (fun s hs => op_frame_write _ _ _ _ hs) h (fun s h => ?_)
    | with_reducible refine fr_step _ _ _ _ (fun s hs => op_frame_write_stack _ _ _ _ hs) h (fun s h => ?_)
    | with_reducible refine fr_step _ _ _ _ (fun s hs => op_frame_write_stack_cstr _ _ _ hs) h (fun s h => ?_)
    | with_reducible refine fr_step _ _ _ _ (fun s hs => op_frame_assemble_offset _ _ _ _ hs) h (fun s h => ?_)
    | with_reducible refine fr_val String _ _ _ _ h (fun a h => ?_)
    | with_reducible refine fr_val Nat _ _ _ _ h (fun a h => ?_)
    | with_reducible refine fr_val Int _ _ _ _ h (fun a h => ?_)
    | with_reducible refine fr_val (List Nat) _ _ _ _ h (fun a h => ?_)
    | with_reducible exact op_frame_error _ _ _ h
    | split at h

theorem op_frame_assemble_call_far (ctx : context) (funcs : List function)
    (self self' : assembler) (inst : instruction) (thread : Bool)
    (h : assemble_call_far ctx funcs self inst thread = .ok self') : op_frame self self' := by
  unfold assemble_call_far at h
  split at h
  · exact op_frame_assemble_call_far2 _ _ _ _ _ _ h
  · refine fr_val String _ _ _ _ h (fun d0 h => ?_)
    refine fr_val String _ _ _ _ h (fun d1 h => ?_)
    generalize (if ctx.props.tok4 = true then 4 else 2) = w at h
    generalize (if ctx.props.extension = true then d0 ++ extension_of ctx else d0) = nm at h
    dsimp only at h
    repeat' first
      | with_reducible exact op_frame_ok _ _ h
      | with_reducible exact op_frame_pure _ _ h
      | with_reducible exact op_frame_write _ _ _ _ h
      | with_reducible exact op_frame_write_stack _ _ _ _ h
      | with_reducible exact op_frame_write_stack_cstr _ _ _ h
      | with_reducible exact op_frame_assemble_offset _ _ _ _ h
      | with_reducible exact op_frame_write_thread_args _ _ _ _ _ h
      | with_reducible refine fr_step _ _ _ _ (fun s hs => op_frame_write _ _ _ _ hs) h (fun s h => ?_)
      | with_reducible refine fr_step _ _ _ _ (fun s hs => op_frame_write_stack _ _ _ _ hs) h (fun s h => ?_)
      | with_reducible refine fr_step _ _ _ _ (fun s hs => op_frame_write_stack_cstr _ _ _ hs) h (fun s h => ?_)
      | with_reducible refine fr_step _ _ _ _ (fun s hs => op_frame_assemble_offset _ _ _ _ hs) h (fun s h => ?_)
      | with_reducible refine fr_val String _ _ _ _ h (fun a h => ?_)
      | with_reducible refine fr_val Nat _ _ _ _ h (fun a h => ?_)
      | with_reducible refine fr_val Int _ _ _ _ h (fun a h => ?_)
      | with_reducible refine fr_val (List Nat) _ _ _ _ h (fun a h => ?_)
      | with_reducible exact op_frame_error _ _ _ h
      | split at h

theorem op_frame_assemble_call_local (ctx : context) (funcs : List function)
    (self self' : assembler) (inst : instruction) (thread : Bool)
    (h : assemble_call_local ctx funcs self inst thread = .ok self') : op_frame self self' := by
  unfold assemble_call_local at h
  repeat' first
    | with_reducible exact op_frame_ok _ _ h
    | with_reducible exact op_frame_pure _ _ h
    | with_reducible exact op_frame_write _ _ _ _ h
    | with_reducible exact op_frame_write_stack _ _ _ _ h
    | with_reducible exact op_frame_write_stack_cstr _ _ _ h
    | with_reducible exact op_frame_assemble_offset _ _ _ _ h
    | with_reducible exact op_frame_write_thread_args _ _ _ _ _ h
    | with_reducible refine fr_step _ _ _ _ (fun s hs => op_frame_write _ _ _ _ hs) h (fun s h => ?_)
    | with_reducible refine fr_step _ _ _ _ (fun s hs => op_frame_write_stack _ _ _ _ hs) h (fun s h => ?_)
    | with_reducible refine fr_step _ _ _ _ (fun s hs => op_frame_write_stack_cstr _ _ _ hs) h (fun s h => ?_)
    | with_reducible refine fr_step _ _ _ _ (fun s hs => op_frame_assemble_offset _ _ _ _ hs) h (fun s h => ?_)
    | with_reducible refine fr_val String _ _ _ _ h (fun a h => ?_)
    | with_reducible refine fr_val Nat _ _ _ _ h (fun a h => ?_)

theorem op_frame_assemble_call_builtin (ctx : context) (self self' : assembler)
    (inst : instruction) (method args : Bool)
    (h : assemble_call_builtin ctx self inst method args = .ok self') : op_frame self self' := by
  unfold assemble_call_builtin at h
  repeat' first
    | with_reducible exact op_frame_ok _ _ h
    | with_reducible exact op_frame_pure _ _ h
    | with_reducible exact op_frame_write _ _ _ _ h
    | with_reducible exact op_frame_write_stack _ _ _ _ h
    | with_reducible exact op_frame_write_stack_cstr _ _ _ h
    | with_reducible exact op_frame_assemble_offset _ _ _ _ h
    | with_reducible refine fr_step _ _ _ _ (fun s hs => op_frame_write _ _ _ _ hs) h (fun s h => ?_)
    | with_reducible refine fr_step _ _ _ _ (fun s hs => op_frame_write_stack _ _ _ _ hs) h (fun s h => ?_)
    | with_reducible refine fr_step _ _ _ _ (fun s hs => op_frame_write_stack_cstr _ _ _ hs) h (fun s h => ?_)
    | with_reducible refine fr_step _ _ _ _ (fun s hs => op_frame_assemble_offset _ _ _ _ hs) h (fun s h => ?_)
    | with_reducible refine fr_step _ _ _ _ (fun s hs => op_frame_write_thread_args _ _ _ _ _ hs) h (fun s h => ?_)
    | with_reducible refine fr_val String _ _ _ _ h (fun a h => ?_)
    | with_reducible refine fr_val Nat _ _ _ _ h (fun a h => ?_)
    | with_reducible refine fr_val Int _ _ _ _ h (fun a h => ?_)
    | with_reducible refine fr_val (List Nat) _ _ _ _ h (fun a h => ?_)
    | with_reducible exact op_frame_error _ _ _ h
    | split at h

theorem op_frame_assemble_jump (labels : label_map) (self self' : assembler)
    (inst : instruction) (expr back : Bool)
    (h : assemble_jump labels self inst expr back = .ok self') : op_frame self self' := by
  unfold assemble_jump at h
  repeat' first
    | with_reducible exact op_frame_ok _ _ h
    | with_reducible exact op_frame_pure _ _ h
    | with_reducible exact op_frame_write _ _ _ _ h
    | with_reducible exact op_frame_write_stack _ _ _ _ h
    | with_reducible exact op_frame_write_stack_cstr _ _ _ h
    | with_reducible exact op_frame_assemble_offset _ _ _ _ h
    | with_reducible refine fr_step _ _ _ _ (fun s hs => op_frame_write _ _ _ _ hs) h (fun s h => ?_)
    | with_reducible refine fr_step _ _ _ _ (fun s hs => op_frame_write_stack _ _ _ _ hs) h (fun s h => ?_)
    | with_reducible refine fr_step _ _ _ _ (fun s hs => op_frame_write_stack_cstr _ _ _ hs) h (fun s h => ?_)
    | with_reducible refine fr_step _ _ _ _ (fun s hs => op_frame_assemble_offset _ _ _ _ hs) h (fun s h => ?_)
    | with_reducible refine fr_val String _ _ _ _ h (fun a h => ?_)
    | with_reducible refine fr_val Nat _ _ _ _ h (fun a h => ?_)
    | with_reducible refine fr_val Int _ _ _ _ h (fun a h => ?_)
    | with_reducible refine fr_val (List Nat) _ _ _ _ h (fun a h => ?_)
    | with_reducible exact op_frame_error _ _ _ h
    | split at h

theorem op_frame_assemble_switch (labels : label_map) (self self' : assembler) (inst : instruction)
    (h : assemble_switch labels self inst = .ok self') : op_frame self self' := by
  unfold assemble_switch at h
  repeat' first
    | with_reducible exact op_frame_ok _ _ h
    | with_reducible exact op_frame_pure _ _ h
    | with_reducible exact op_frame_write _ _ _ _ h
    | with_reducible exact op_frame_write_stack _ _ _ _ h
    | with_reducible exact op_frame_write_stack_cstr _ _ _ h
    | with_reducible exact op_frame_assemble_offset _ _ _ _ h
    | with_reducible refine fr_step _ _ _ _ (fun s hs => op_frame_write _ _ _ _ hs) h (fun s h => ?_)
    | with_reducible refine fr_step _ _ _ _ (fun s hs => op_frame_write_stack _ _ _ _ hs) h (fun s h => ?_)
    | with_reducible refine fr_step _ _ _ _ (fun s hs => op_frame_write_stack_cstr _ _ _ hs) h (fun s h => ?_)
    | with_reducible refine fr_step _ _ _ _ (fun s hs => op_frame_assemble_offset _ _ _ _ hs) h (fun s h => ?_)
    | with_reducible refine fr_val String _ _ _ _ h (fun a h => ?_)
    | with_reducible refine fr_val Nat _ _ _ _ h (fun a h => ?_)

theorem op_frame_assemble_switch_cases (ctx : context) (labels : label_map)
    (data : List String) (n i index : Nat) (self self' : assembler)
    (h : assemble_switch_cases ctx labels data n i index self = .ok self') :
    op_frame self self' := by
  induction n generalizing i index self with
  | zero =>
    unfold assemble_switch_cases at h
    exact op_frame_ok _ _ h
  | succ n ih =>
    unfold assemble_switch_cases at h
    repeat' first
      | with_reducible exact op_frame_ok _ _ h
      | with_reducible exact op_frame_pure _ _ h
      | with_reducible exact op_frame_write _ _ _ _ h
      | with_reducible exact op_frame_write_stack _ _ _ _ h
      | with_reducible exact op_frame_write_stack_cstr _ _ _ h
      | with_reducible exact op_frame_assemble_offset _ _ _ _ h
      | with_reducible exact ih _ _ _ h
      | with_reducible refine fr_step _ _ _ _ (fun s hs => op_frame_write _ _ _ _ hs) h (fun s h => ?_)
      | with_reducible refine fr_step _ _ _ _ (fun s hs => op_frame_write_stack _ _ _ _ hs) h (fun s h => ?_)
      | with_reducible refine fr_step _ _ _ _ (fun s hs => op_frame_write_stack_cstr _ _ _ hs) h (fun s h => ?_)
      | with_reducible refine fr_step _ _ _ _ (fun s hs => op_frame_assemble_offset _ _ _ _ hs) h (fun s h => ?_)
      | with_reducible refine fr_val String _ _ _ _ h (fun a h => ?_)
      | with_reducible refine fr_val Nat _ _ _ _ h (fun a h => ?_)
      | with_reducible refine fr_val Int _ _ _ _ h (fun a h => ?_)
      | with_reducible refine fr_val (List Nat) _ _ _ _ h (fun a h => ?_)
      | with_reducible exact op_frame_error _ _ _ h
      | split at h

theorem op_frame_assemble_switch_table (ctx : context) (labels : label_map) (self self' : assembler)
    (inst : instruction)
    (h : assemble_switch_table ctx labels self inst = .ok self') : op_frame self self' := by
  unfold gsc.assemble_switch_table at h
  repeat' first
    | with_reducible exact op_frame_ok _ _ h
    | with_reducible exact op_frame_pure _ _ h
    | with_reducible exact op_frame_write _ _ _ _ h
    | with_reducible exact op_frame_write_stack _ _ _ _ h
    | with_reducible exact op_frame_write_stack_cstr _ _ _ h
    | with_reducible exact op_frame_assemble_offset _ _ _ _ h
    | with_reducible exact op_frame_assemble_switch_cases _ _ _ _ _ _ _ _ h
    | with_reducible refine fr_step _ _ _ _ (fun s hs => op_frame_write _ _ _ _ hs) h (fun s h => ?_)
    | with_reducible refine fr_step _ _ _ _ (fun s hs => op_frame_write_stack _ _ _ _ hs) h (fun s h => ?_)
    | with_reducible refine fr_step _ _ _ _ (fun s hs => op_frame_write_stack_cstr _ _ _ hs) h (fun s h => ?_)
    | with_reducible refine fr_step _ _ _ _ (fun s hs => op_frame_assemble_offset _ _ _ _ hs) h (fun s h => ?_)
    | with_reducible refine fr_val String _ _ _ _ h (fun a h => ?_)
    | with_reducible refine fr_val Nat _ _ _ _ h (fun a h => ?_)

set_option maxHeartbeats 4000000 in
/-- The operands of an instruction are written to the script and the stack
only. -/
theorem op_frame_assemble_operands (ctx : context) (funcs : List function)
    (labels : label_map) (self self' : assembler) (inst : instruction)
    (h : assemble_operands ctx funcs labels self inst = .ok self') : op_frame self self' := by
  obtain ⟨op, ps, idx, sz, data⟩ := inst
  cases op <;> simp only [assemble_operands] at h
  case mk.OP_GetVector =>
    refine op_frame_trans (op_frame_align self (if ctx.big_endian then 4 else 1)
      (by split <;> decide)) ?_
    refine fr_step _ _ _ _ (fun s hs => op_frame_write_float_operand _ _ _ _ _ hs) h
      (fun s h => ?_)
    refine fr_step _ _ _ _ (fun s hs => op_frame_write_float_operand _ _ _ _ _ hs) h
      (fun s h => ?_)
    exact op_frame_write_float_operand _ _ _ _ _ h
  all_goals
    repeat' first
      | with_reducible exact op_frame_ok _ _ h
      | with_reducible exact op_frame_pure _ _ h
      | with_reducible exact op_frame_write _ _ _ _ h
      | with_reducible exact op_frame_write_stack _ _ _ _ h
      | with_reducible exact op_frame_write_stack_cstr _ _ _ h
      | with_reducible exact op_frame_assemble_offset _ _ _ _ h
      | with_reducible exact op_frame_write_stoul_operand _ _ _ _ h
      | with_reducible exact op_frame_write_float_operand _ _ _ _ _ h
      | with_reducible exact op_frame_assemble_field _ _ _ _ h
      | with_reducible exact op_frame_assemble_call_local _ _ _ _ _ _ h
      | with_reducible exact op_frame_assemble_call_far _ _ _ _ _ _ h
      | with_reducible exact op_frame_assemble_call_builtin _ _ _ _ _ _ h
      | with_reducible exact op_frame_assemble_jump _ _ _ _ _ _ h
      | with_reducible exact op_frame_assemble_switch _ _ _ _ h
      | with_reducible exact op_frame_assemble_switch_table _ _ _ _ _ h
      | with_reducible exact op_frame_assemble_params _ _ _ _ h
      | with_reducible refine fr_step _ _ _ _ (fun s hs => op_frame_write _ _ _ _ hs) h (fun s h => ?_)
      | with_reducible refine fr_step _ _ _ _ (fun s hs => op_frame_write_stack _ _ _ _ hs) h (fun s h => ?_)
      | with_reducible refine fr_step _ _ _ _ (fun s hs => op_frame_write_stack_cstr _ _ _ hs) h (fun s h => ?_)
      | with_reducible refine fr_step _ _ _ _ (fun s hs => op_frame_assemble_offset _ _ _ _ hs) h (fun s h => ?_)
      | with_reducible refine fr_val String _ _ _ _ h (fun a h => ?_)
      | with_reducible refine fr_val Nat _ _ _ _ h (fun a h => ?_)
      | with_reducible refine fr_val Int _ _ _ _ h (fun a h => ?_)
      | with_reducible refine fr_val (List Nat) _ _ _ _ h (fun a h => ?_)
      | with_reducible exact op_frame_error _ _ _ h
      | split at h

end gsc

end xsk

namespace xsk

namespace gsc

/-! ## The GSC dev-map log -/

theorem gsc_logged_nil (ctx : context) : logged ctx [] = [] := by
  unfold logged
  split <;> rfl

theorem gsc_logged_cons (ctx : context) (i : instruction) (is : List instruction) :
    logged ctx (i :: is) = logged ctx [i] ++ logged ctx is := by
  unfold logged
  split <;> rfl

theorem gsc_logged_append (ctx : context) (is js : List instruction) :
    logged ctx (is ++ js) = logged ctx is ++ logged ctx js := by
  unfold logged
  split
  · rw [List.map_append]
  · rfl

theorem gsc_logged_length (ctx : context) (is : List instruction) :
    (logged ctx is).length = if ctx.build.has_dev_maps then is.length else 0 := by
  unfold logged
  split <;> simp

theorem gsc_write_devmap_ok (self self' : assembler) (width v : Nat)
    (h : self.write_devmap width v = .ok self') :
    self.devmap.write width v = .ok self'.devmap ∧ self' = { self with devmap := self'.devmap } := by
  unfold assembler.write_devmap at h
  split at h
  · cases h
    rename_i w hw
    exact ⟨hw, rfl⟩
  · cases h

/-- The per-input reset depends on the byte order and the capacity of the
three writers only. -/
theorem gsc_reset_eq (a b : assembler)
    (h1 : b.script.swap = a.script.swap) (h2 : b.script.size = a.script.size)
    (h3 : b.stack.swap = a.stack.swap) (h4 : b.stack.size = a.stack.size)
    (h5 : b.devmap.swap = a.devmap.swap) (h6 : b.devmap.size = a.devmap.size) :
    b.reset = a.reset := by
  unfold assembler.reset utils.writer.clear
  rw [h1, h2, h3, h4, h5, h6]

/-- The dev-map entry of one instruction: written at the cursor after the
opcode byte. -/
theorem gsc_devmap_entry_state (ctx : context) (self self' : assembler) (inst : instruction)
    (p : Nat) (l : List (Nat × Nat × Nat))
    (st : devmap_state self.devmap self.devmap_count p l) (hp : p < self.script.pos)
    (h : write_devmap_entry ctx self inst = .ok self') :
    ∃ e, e.map (fun x => x.2) = logged ctx [inst] ∧
      devmap_state self'.devmap self'.devmap_count self.script.pos (l ++ e) ∧
      self'.devmap.swap = self.devmap.swap ∧ self'.devmap.size = self.devmap.size ∧
      self'.script = self.script ∧ self'.stack = self.stack := by
  unfold write_devmap_entry at h
  split at h
  · rename_i hd
    simp only [bind_eq_ok, pure, Except.pure, Except.ok.injEq] at h
    obtain ⟨s1, h1, s2, h2, s3, h3, rfl⟩ := h
    obtain ⟨w1, e1⟩ := gsc_write_devmap_ok _ _ _ _ h1
    obtain ⟨w2, e2⟩ := gsc_write_devmap_ok _ _ _ _ h2
    obtain ⟨w3, e3⟩ := gsc_write_devmap_ok _ _ _ _ h3
    have c3 : s3.devmap_count = self.devmap_count := by rw [e3, e2, e1]
    obtain ⟨a, b, c⟩ := devmap_state_entry _ _ _ _ _ _ _ _ _ _ st hp w1 w2 w3
    refine ⟨[(self.script.pos, inst.pos.line, inst.pos.column)], ?_, ?_, b, c, ?_, ?_⟩
    · simp [logged, hd]
    · show devmap_state s3.devmap (s3.devmap_count + 1) _ _
      rw [c3]
      exact a
    · show s3.script = _
      rw [e3, e2, e1]
    · show s3.stack = _
      rw [e3, e2, e1]
  · rename_i hd
    cases h
    refine ⟨[], ?_, ?_, rfl, rfl, rfl, rfl⟩
    · simp [logged, hd]
    · rw [List.append_nil]
      exact devmap_state_mono _ _ _ _ _ st (Nat.le_of_lt hp)

/-- The dev-map after the emission of one instruction. -/
theorem gsc_instruction_state (ctx : context) (funcs : List function) (labels : label_map)
    (self self' : assembler) (inst : instruction) (l : List (Nat × Nat × Nat))
    (st : devmap_state self.devmap self.devmap_count self.script.pos l)
    (h : assemble_instruction ctx funcs labels self inst = .ok self') :
    ∃ e, e.map (fun x => x.2) = logged ctx [inst] ∧
      devmap_state self'.devmap self'.devmap_count self'.script.pos (l ++ e) ∧
      self'.devmap.swap = self.devmap.swap ∧ self'.devmap.size = self.devmap.size ∧
      self.script.advances self'.script ∧ self.stack.advances self'.stack := by
  unfold assemble_instruction at h
  split at h
  · cases h
  · simp only [bind_eq_ok] at h
    obtain ⟨s1, h1, s2, h2, h⟩ := h
    have f1 := op_frame_write _ _ _ _ h1
    obtain ⟨p1, -⟩ := gsc_write_spec _ _ _ _ h1
    have f3 := op_frame_assemble_operands _ _ _ _ _ _ h
    have st1 : devmap_state s1.devmap s1.devmap_count self.script.pos l := by
      rw [f1.devmap, f1.devmap_count]
      exact st
    have hp : self.script.pos < s1.script.pos := by
      rw [p1]
      exact Nat.lt_succ_self _
    obtain ⟨e, he, st2, sw, sz, d1, d2⟩ := gsc_devmap_entry_state _ _ _ _ _ _ st1 hp h2
    refine ⟨e, he, ?_, ?_, ?_, ?_, ?_⟩
    · rw [f3.devmap, f3.devmap_count]
      refine devmap_state_mono _ _ _ _ _ st2 ?_
      have := f3.script.le
      rw [d1] at this
      exact this
    · rw [f3.devmap, sw, f1.devmap]
    · rw [f3.devmap, sz, f1.devmap]
    · have := f3.script
      rw [d1] at this
      exact utils.advances_trans f1.script this
    · have := f3.stack
      rw [d2] at this
      exact utils.advances_trans f1.stack this

/-- The dev-map after the emission loop. -/
theorem gsc_instructions_state (ctx : context) (funcs : List function) (labels : label_map)
    (is : List instruction) (self self' : assembler) (l : List (Nat × Nat × Nat))
    (st : devmap_state self.devmap self.devmap_count self.script.pos l)
    (h : assemble_instructions ctx funcs labels is self = .ok self') :
    ∃ e, e.map (fun x => x.2) = logged ctx is ∧
      devmap_state self'.devmap self'.devmap_count self'.script.pos (l ++ e) ∧
      self'.devmap.swap = self.devmap.swap ∧ self'.devmap.size = self.devmap.size ∧
      self.script.advances self'.script ∧ self.stack.advances self'.stack := by
  induction is generalizing self l with
  | nil =>
    simp only [assemble_instructions, Except.ok.injEq] at h
    subst h
    exact ⟨[], by rw [gsc_logged_nil]; rfl, by rw [List.append_nil]; exact st, rfl, rfl,
      utils.advances_refl _, utils.advances_refl _⟩
  | cons i is ih =>
    simp only [assemble_instructions, bind_eq_ok] at h
    obtain ⟨s1, h1, h⟩ := h
    obtain ⟨e1, he1, st1, sw1, sz1, a1, b1⟩ := gsc_instruction_state _ _ _ _ _ _ _ st h1
    obtain ⟨e2, he2, st2, sw2, sz2, a2, b2⟩ := ih _ _ st1 h
    refine ⟨e1 ++ e2, ?_, ?_, sw2.trans sw1, sz2.trans sz1, utils.advances_trans a1 a2,
      utils.advances_trans b1 b2⟩
    · rw [List.map_append, he1, he2, ← gsc_logged_cons]
    · rw [← List.append_assoc]
      exact st2

/-- The stack prefix of a function is written to the stack only. -/
theorem gsc_function_prefix (ctx : context) (funcs : List function) (self self' : assembler)
    (func : function) (h : assemble_function ctx funcs self func = .ok self') :
    ∃ s3, op_frame self s3 ∧
      assemble_instructions ctx funcs func.labels func.instructions s3 = .ok self' := by
  unfold assemble_function at h
  rw [bind_eq_ok] at h
  obtain ⟨s1, h1, h⟩ := h
  have f1 := op_frame_write_stack _ _ _ _ h1
  dsimp only at h
  split at h
  · rw [bind_eq_ok] at h
    obtain ⟨y, hy, h⟩ := h
    exact ⟨y, op_frame_trans f1 (op_frame_write_stack _ _ _ _ hy), h⟩
  · generalize (if ctx.props.tok4 = true then 4 else 2) = w at h
    rw [bind_eq_ok] at h
    obtain ⟨s2, h2, h⟩ := h
    have f2 := op_frame_trans f1 (op_frame_write_stack _ _ _ _ h2)
    split at h
    · simp only [bind_eq_ok] at h
      obtain ⟨s, -, y, hy, h⟩ := h
      exact ⟨y, op_frame_trans f2 (op_frame_write_stack_cstr _ _ _ hy), h⟩
    · simp only [bind_eq_ok, pure, Except.pure, Except.ok.injEq] at h
      obtain ⟨y, rfl, h⟩ := h
      exact ⟨_, f2, h⟩

/-- The dev-map after `assemble_function`. -/
theorem gsc_function_state (ctx : context) (funcs : List function) (self self' : assembler)
    (func : function) (l : List (Nat × Nat × Nat))
    (st : devmap_state self.devmap self.devmap_count self.script.pos l)
    (h : assemble_function ctx funcs self func = .ok self') :
    ∃ e, e.map (fun x => x.2) = logged ctx func.instructions ∧
      devmap_state self'.devmap self'.devmap_count self'.script.pos (l ++ e) ∧
      self'.devmap.swap = self.devmap.swap ∧ self'.devmap.size = self.devmap.size ∧
      self.script.advances self'.script ∧ self.stack.advances self'.stack := by
  obtain ⟨s3, f3, h⟩ := gsc_function_prefix _ _ _ _ _ h
  have st3 : devmap_state s3.devmap s3.devmap_count s3.script.pos l := by
    rw [f3.devmap, f3.devmap_count]
    exact devmap_state_mono _ _ _ _ _ st f3.script.le
  obtain ⟨e, he, st4, sw, sz, a, b⟩ := gsc_instructions_state _ _ _ _ _ _ _ st3 h
  exact ⟨e, he, st4, by rw [sw, f3.devmap], by rw [sz, f3.devmap],
    utils.advances_trans f3.script a, utils.advances_trans f3.stack b⟩

/-- The dev-map after the loop over the functions. -/
theorem gsc_functions_state (ctx : context) (funcs fs : List function) (self self' : assembler)
    (l : List (Nat × Nat × Nat))
    (st : devmap_state self.devmap self.devmap_count self.script.pos l)
    (h : assemble_functions ctx funcs fs self = .ok self') :
    ∃ e, e.map (fun x => x.2) = logged ctx (fs.flatMap fun f => f.instructions) ∧
      devmap_state self'.devmap self'.devmap_count self'.script.pos (l ++ e) ∧
      self'.devmap.swap = self.devmap.swap ∧ self'.devmap.size = self.devmap.size ∧
      self.script.advances self'.script ∧ self.stack.advances self'.stack := by
  induction fs generalizing self l with
  | nil =>
    simp only [assemble_functions, Except.ok.injEq] at h
    subst h
    exact ⟨[], by rw [List.flatMap_nil, gsc_logged_nil]; rfl, by rw [List.append_nil]; exact st,
      rfl, rfl, utils.advances_refl _, utils.advances_refl _⟩
  | cons f fs ih =>
    simp only [assemble_functions, bind_eq_ok] at h
    obtain ⟨s1, h1, h⟩ := h
    obtain ⟨e1, he1, st1, sw1, sz1, a1, b1⟩ := gsc_function_state _ _ _ _ _ _ st h1
    obtain ⟨e2, he2, st2, sw2, sz2, a2, b2⟩ := ih _ _ st1 h
    refine ⟨e1 ++ e2, ?_, ?_, sw2.trans sw1, sz2.trans sz1, utils.advances_trans a1 a2,
      utils.advances_trans b1 b2⟩
    · rw [List.map_append, he1, he2, List.flatMap_cons, gsc_logged_append]
    · rw [← List.append_assoc]
      exact st2

/-- The dev-map `assemble` returns: the count, then the entries logged by the
emission, in emission order; the assembler is left with writers of the same
byte order and capacity. -/
theorem gsc_assemble_devmap (ctx : context) (self : assembler) (data : assembly)
    (res : assemble_result) (h : assemble ctx self data = .ok res) :
    ∃ l : List (Nat × Nat × Nat), l.map (fun x => x.2) = logged ctx (instructions_of data) ∧
      res.devmap = devmap_bytes self.devmap.swap l ∧
      res.self.devmap_count = l.length ∧
      devmap_ordered l res.script.length ∧
      res.self.reset = self.reset := by
  have hrun : ∃ id a2 a3 a4,
      ({ self.reset with devmap := self.reset.devmap.set_pos 4 } : assembler).write 1 id =
        .ok a2 ∧
      assemble_functions ctx data.functions data.functions a2 = .ok a3 ∧
      ({ a3 with devmap := a3.devmap.set_pos 0 } : assembler).write_devmap 4 a3.devmap_count =
        .ok a4 ∧
      res = { script := a4.script.bytes, stack := a4.stack.bytes,
              devmap := (a4.devmap.set_pos a3.devmap.pos).bytes,
              self := { a4 with devmap := a4.devmap.set_pos a3.devmap.pos } } := by
    simp only [assemble] at h
    split at h
    · simp only [bind_eq_ok, pure, Except.pure, Except.ok.injEq] at h
      obtain ⟨a2, h2, a3, h3, a4, h4, rfl⟩ := h
      exact ⟨_, a2, a3, a4, h2, h3, h4, rfl⟩
    · simp only [bind_eq_ok] at h
      obtain ⟨a2, h2, -⟩ := h
      cases h2
  obtain ⟨id, a2, a3, a4, h2, h3, h4, rfl⟩ := hrun
  have f2 := op_frame_write _ _ _ _ h2
  have st2 : devmap_state a2.devmap a2.devmap_count a2.script.pos [] := by
    rw [f2.devmap, f2.devmap_count]
    exact devmap_state_nil _ _
  obtain ⟨l, hl, st3, sw3, sz3, s3, k3⟩ := gsc_functions_state _ _ _ _ _ _ st2 h3
  rw [List.nil_append] at st3
  obtain ⟨w4, e4⟩ := gsc_write_devmap_ok _ _ _ _ h4
  have w4 : (a3.devmap.set_pos 0).write 4 a3.devmap_count = .ok a4.devmap := w4
  obtain ⟨b1, b2, b3⟩ := devmap_state_bytes _ _ _ _ _ st3 w4
  have d2 : a2.devmap.swap = self.devmap.swap ∧ a2.devmap.size = self.devmap.size := by
    rw [f2.devmap]
    exact ⟨rfl, rfl⟩
  refine ⟨l, hl, ?_, ?_, ?_, ?_⟩
  · show (a4.devmap.set_pos a3.devmap.pos).bytes = _
    rw [b1, sw3, d2.1]
  · show a4.devmap_count = _
    rw [e4]
    exact st3.count
  · show devmap_ordered l (List.length (utils.writer.bytes _))
    rw [utils.bytes_length, e4]
    exact st3.ordered
  · apply gsc_reset_eq
    · show a4.script.swap = _
      rw [e4]
      exact (utils.advances_trans f2.script s3).swap
    · show a4.script.size = _
      rw [e4]
      exact (utils.advances_trans f2.script s3).size
    · show a4.stack.swap = _
      rw [e4]
      exact (utils.advances_trans f2.stack k3).swap
    · show a4.stack.size = _
      rw [e4]
      exact (utils.advances_trans f2.stack k3).size
    · show (a4.devmap.set_pos a3.devmap.pos).swap = _
      rw [b2, sw3, d2.1]
    · show (a4.devmap.set_pos a3.devmap.pos).size = _
      rw [b3, sz3, d2.2]

end gsc

end xsk

namespace xsk

/-- C18: the dev-map returned by `assemble`, ARC and GSC alike, is the `u32`
count followed by the entries `l` logged during emission, 8 bytes each (`u32`
offset, `u16` line, `u16` column, in the byte order of the dev-map writer), so
its length is `4 + 8 * count`. The lines and columns of the entries are those of
the instructions in emission order when the build has dev-maps, in which case
there is one entry per instruction; the offsets are script offsets of the image,
each the cursor after the opcode byte, and strictly increasing. When the build
has no dev-maps there is no entry and the dev-map is the four zero bytes of the
count. The fields hold the values reduced to their width. -/
theorem devmap_structure :
    (∀ (ctx : arc.context) (self : arc.assembler) (data : arc.assembly) (name : String)
      (res : arc.assemble_result), arc.assemble ctx self data name = .ok res →
      ∃ l : List (Nat × Nat × Nat),
        res.devmap = devmap_bytes self.devmap.swap l ∧
        res.devmap.length = 4 + 8 * l.length ∧
        res.self.devmap_count = l.length ∧
        l.map (fun e => e.2) = arc.logged ctx (arc.instructions_of data) ∧
        (l.map fun e => e.1).Pairwise (· < ·) ∧
        (∀ e, e ∈ l → 1 ≤ e.1 ∧ e.1 ≤ res.script.length) ∧
        (ctx.build.has_dev_maps = true → l.length = (arc.instructions_of data).length) ∧
        (ctx.build.has_dev_maps = false → l = [] ∧ res.devmap = [0, 0, 0, 0])) ∧
    (∀ (ctx : gsc.context) (self : gsc.assembler) (data : gsc.assembly)
      (res : gsc.assemble_result), gsc.assemble ctx self data = .ok res →
      ∃ l : List (Nat × Nat × Nat),
        res.devmap = devmap_bytes self.devmap.swap l ∧
        res.devmap.length = 4 + 8 * l.length ∧
        res.self.devmap_count = l.length ∧
        l.map (fun e => e.2) = gsc.logged ctx (gsc.instructions_of data) ∧
        (l.map fun e => e.1).Pairwise (· < ·) ∧
        (∀ e, e ∈ l → 1 ≤ e.1 ∧ e.1 ≤ res.script.length) ∧
        (ctx.build.has_dev_maps = true → l.length = (gsc.instructions_of data).length) ∧
        (ctx.build.has_dev_maps = false → l = [] ∧ res.devmap = [0, 0, 0, 0])) := by
  have hzero : ∀ sw : Bool, devmap_bytes sw [] = [0, 0, 0, 0] := by
    intro sw
    cases sw <;> rfl
  refine ⟨?_, ?_⟩
  · intro ctx self data name res h
    obtain ⟨l, hl, hb, hc, ho, -, -⟩ := arc.assemble_devmap _ _ _ _ _ h
    have hlen : l.length = (arc.logged ctx (arc.instructions_of data)).length := by
      rw [← hl, List.length_map]
    rw [arc.logged_length] at hlen
    refine ⟨l, hb, by rw [hb, devmap_bytes_length], hc, hl, ho.2, ho.1, ?_, ?_⟩
    · intro hd
      rw [hlen, if_pos hd]
    · intro hd
      have h0 : l = [] := by
        apply List.eq_nil_of_length_eq_zero
        rw [hlen, hd]
        rfl
      refine ⟨h0, ?_⟩
      rw [hb, h0]
      exact hzero _
  · intro ctx self data res h
    obtain ⟨l, hl, hb, hc, ho, -⟩ := gsc.gsc_assemble_devmap _ _ _ _ h
    have hlen : l.length = (gsc.logged ctx (gsc.instructions_of data)).length := by
      rw [← hl, List.length_map]
    rw [gsc.gsc_logged_length] at hlen
    refine ⟨l, hb, by rw [hb, devmap_bytes_length], hc, hl, ho.2, ho.1, ?_, ?_⟩
    · intro hd
      rw [hlen, if_pos hd]
    · intro hd
      have h0 : l = [] := by
        apply List.eq_nil_of_length_eq_zero
        rw [hlen, hd]
        rfl
      refine ⟨h0, ?_⟩
      rw [hb, h0]
      exact hzero _

/-- The dev-maps of sample runs: scenario S2 assembled by ARC with dev-maps has
four entries at lines 1 to 4 and is 36 bytes long, without dev-maps it is four
zero bytes; the two GSC functions of three instructions give 28 bytes with
dev-maps and four without. -/
theorem devmap_structure_witness :
    (∃ res l, arc.assemble arc.sample_context_dev (arc.assembler.create arc.sample_context_dev 256)
        arc.sample_devmap "" = .ok res ∧
      res.devmap = devmap_bytes false l ∧ res.devmap.length = 36 ∧
      l.map (fun e => e.2) = [(1, 1), (2, 1), (3, 1), (4, 1)] ∧
      (l.map fun e => e.1).Pairwise (· < ·)) ∧
    (∃ res, arc.assemble arc.sample_context (arc.assembler.create arc.sample_context 256)
        arc.sample_devmap "" = .ok res ∧ res.devmap = [0, 0, 0, 0]) ∧
    (∃ res l, gsc.assemble gsc.sample_context_dev (gsc.assembler.create gsc.sample_context_dev 64)
        gsc.sample_devmap = .ok res ∧
      res.devmap = devmap_bytes false l ∧ res.devmap.length = 28 ∧
      l.map (fun e => e.2) = [(3, 5), (4, 9), (1, 1)] ∧
      (l.map fun e => e.1).Pairwise (· < ·)) ∧
    (∃ res, gsc.assemble gsc.sample_context (gsc.assembler.create gsc.sample_context 64)
        gsc.sample_devmap = .ok res ∧ res.devmap = [0, 0, 0, 0]) ∧
    (arc.assemble arc.sample_context_dev (arc.assembler.create arc.sample_context_dev 256)
        arc.sample_devmap "").toOption.map (fun r => r.devmap) =
      some [4, 0, 0, 0, 77, 0, 0, 0, 1, 0, 1, 0, 79, 0, 0, 0, 2, 0, 1, 0,
        83, 0, 0, 0, 3, 0, 1, 0, 85, 0, 0, 0, 4, 0, 1, 0] ∧
    (gsc.assemble gsc.sample_context_dev (gsc.assembler.create gsc.sample_context_dev 64)
        gsc.sample_devmap).toOption.map (fun r => r.devmap) =
      some [3, 0, 0, 0, 2, 0, 0, 0, 3, 0, 5, 0, 4, 0, 0, 0, 4, 0, 9, 0,
        5, 0, 0, 0, 1, 0, 1, 0] := by
  have r1 : ∃ r, arc.assemble arc.sample_context_dev
      (arc.assembler.create arc.sample_context_dev 256) arc.sample_devmap "" = .ok r := ⟨_, rfl⟩
  have r2 : ∃ r, arc.assemble arc.sample_context
      (arc.assembler.create arc.sample_context 256) arc.sample_devmap "" = .ok r := ⟨_, rfl⟩
  have r3 : ∃ r, gsc.assemble gsc.sample_context_dev
      (gsc.assembler.create gsc.sample_context_dev 64) gsc.sample_devmap = .ok r := ⟨_, rfl⟩
  have r4 : ∃ r, gsc.assemble gsc.sample_context
      (gsc.assembler.create gsc.sample_context 64) gsc.sample_devmap = .ok r := ⟨_, rfl⟩
  obtain ⟨a, ha⟩ := r1
  obtain ⟨b, hb⟩ := r2
  obtain ⟨c, hc⟩ := r3
  obtain ⟨d, hd⟩ := r4
  obtain ⟨l1, a1, a2, -, a4, a5, -, a7, -⟩ := devmap_structure.1 _ _ _ _ a ha
  obtain ⟨l2, -, -, -, -, -, -, -, b8⟩ := devmap_structure.1 _ _ _ _ b hb
  obtain ⟨l3, c1, c2, -, c4, c5, -, c7, -⟩ := devmap_structure.2 _ _ _ c hc
  obtain ⟨l4, -, -, -, -, -, -, -, d8⟩ := devmap_structure.2 _ _ _ d hd
  refine ⟨⟨a, l1, ha, a1, ?_, a4.trans (by rfl), a5⟩, ⟨b, hb, (b8 rfl).2⟩,
    ⟨c, l3, hc, c1, ?_, c4.trans (by rfl), c5⟩, ⟨d, hd, (d8 rfl).2⟩, by rfl, by rfl⟩
  · rw [a2, a7 rfl]
    rfl
  · rw [c2, c7 rfl]
    rfl

end xsk

namespace xsk

/-! ## Relocated label maps -/

theorem labels_insert_of_mem (l : label_map) (k : Nat) (name : String)
    (h : k ∈ l.map Prod.fst) : labels_insert l k name = l := by
  unfold labels_insert
  rw [if_pos]
  rw [List.any_eq_true]
  obtain ⟨e, he, rfl⟩ := List.mem_map.1 h
  exact ⟨e, he, by simp⟩

theorem labels_insert_of_not_mem (l : label_map) (k : Nat) (name : String)
    (h : k ∉ l.map Prod.fst) : labels_insert l k name = l ++ [(k, name)] := by
  unfold labels_insert
  rw [if_neg]
  rw [List.any_eq_true]
  rintro ⟨e, he, hk⟩
  exact h (List.mem_map.2 ⟨e, he, by simpa using hk⟩)

theorem labels_find_of_not_mem (l : label_map) (k : Nat) (h : k ∉ l.map Prod.fst) :
    labels_find l k = none := by
  unfold labels_find
  rw [Option.map_eq_none', List.find?_eq_none]
  intro e he hk
  exact h (List.mem_map.2 ⟨e, he, by simpa using hk⟩)

theorem labels_find_append (p q : label_map) (k : Nat) (v : String)
    (h : k ∉ p.map Prod.fst) : labels_find (p ++ (k, v) :: q) k = some v := by
  unfold labels_find
  rw [List.find?_append]
  have hp : p.find? (fun e => e.1 == k) = none := by
    rw [List.find?_eq_none]
    intro e he hk
    exact h (List.mem_map.2 ⟨e, he, by simpa using hk⟩)
  rw [hp]
  simp

theorem relabel_cons_some (old : label_map) (e : Nat × Nat) (rest : List (Nat × Nat))
    (acc : label_map) (name : String) (h : labels_find old e.1 = some name) :
    relabel old (e :: rest) acc = relabel old rest (labels_insert acc e.2 name) := by
  simp only [relabel, h]

theorem relabel_cons_none (old : label_map) (e : Nat × Nat) (rest : List (Nat × Nat))
    (acc : label_map) (h : labels_find old e.1 = none) :
    relabel old (e :: rest) acc = relabel old rest acc := by
  simp only [relabel, h]

/-- Inserting at an offset that is not below the offsets present keeps them in
strictly increasing order. -/
theorem labels_insert_sorted (l : label_map) (n : Nat) (name : String)
    (hs : (l.map Prod.fst).Pairwise (· < ·)) (hle : ∀ k, k ∈ l.map Prod.fst → k ≤ n) :
    ∃ q, labels_insert l n name = l ++ q ∧
      ((l ++ q).map Prod.fst).Pairwise (· < ·) ∧
      (∀ k, k ∈ (l ++ q).map Prod.fst → k ≤ n) ∧ (∀ k, k ∈ q.map Prod.fst → k = n) := by
  by_cases h : n ∈ l.map Prod.fst
  · refine ⟨[], by rw [labels_insert_of_mem _ _ _ h, List.append_nil], ?_, ?_, ?_⟩
    · rw [List.append_nil]
      exact hs
    · rw [List.append_nil]
      exact hle
    · intro k hk
      cases hk
  · refine ⟨[(n, name)], labels_insert_of_not_mem _ _ _ h, ?_, ?_, ?_⟩
    · rw [List.map_append, List.pairwise_append]
      refine ⟨hs, List.pairwise_singleton _ _, ?_⟩
      intro a ha b hb
      simp only [List.map_cons, List.map_nil, List.mem_singleton] at hb
      subst hb
      have := hle a ha
      have hne : a ≠ b := fun e => h (e ▸ ha)
      omega
    · intro k hk
      rw [List.map_append, List.mem_append] at hk
      rcases hk with hk | hk
      · exact hle k hk
      · simp only [List.map_cons, List.map_nil, List.mem_singleton] at hk
        omega
    · intro k hk
      simpa using hk

/-- The relocated label map has strictly increasing offsets, all of them new
offsets of instructions, when the new offsets do not decrease. -/
theorem relabel_sorted (old : label_map) (pairs : List (Nat × Nat)) (acc : label_map)
    (hs : (acc.map Prod.fst).Pairwise (· < ·))
    (hn : (pairs.map Prod.snd).Pairwise (· ≤ ·))
    (hle : ∀ k, k ∈ acc.map Prod.fst → ∀ n, n ∈ pairs.map Prod.snd → k ≤ n) :
    ∃ q, relabel old pairs acc = acc ++ q ∧
      ((acc ++ q).map Prod.fst).Pairwise (· < ·) ∧
      (∀ k, k ∈ q.map Prod.fst → k ∈ pairs.map Prod.snd) := by
  induction pairs generalizing acc with
  | nil =>
    refine ⟨[], by rw [relabel, List.append_nil], by rw [List.append_nil]; exact hs, ?_⟩
    intro k hk
    cases hk
  | cons e rest ih =>
    rw [List.map_cons, List.pairwise_cons] at hn
    have hle0 : ∀ k, k ∈ acc.map Prod.fst → k ≤ e.2 :=
      fun k hk => hle k hk e.2 (by simp)
    have step : ∃ q0 acc1, relabel old (e :: rest) acc = relabel old rest acc1 ∧
        acc1 = acc ++ q0 ∧
        ((acc ++ q0).map Prod.fst).Pairwise (· < ·) ∧
        (∀ k, k ∈ (acc ++ q0).map Prod.fst → k ≤ e.2) ∧
        (∀ k, k ∈ q0.map Prod.fst → k = e.2) := by
      cases hfind : labels_find old e.1 with
      | none =>
        refine ⟨[], acc, relabel_cons_none _ _ _ _ hfind, by simp,
          by rw [List.append_nil]; exact hs, ?_, ?_⟩
        · rw [List.append_nil]
          exact hle0
        · intro k hk
          cases hk
      | some name =>
        obtain ⟨q, a, b, c, d⟩ := labels_insert_sorted acc e.2 name hs hle0
        exact ⟨q, _, relabel_cons_some _ _ _ _ _ hfind, a, b, c, d⟩
    obtain ⟨q0, acc1, er, e0, s0, l0, k0⟩ := step
    subst e0
    obtain ⟨q1, e1, s1, k1⟩ := ih (acc ++ q0) s0 hn.2
      (fun k hk n hn' => Nat.le_trans (l0 k hk) (hn.1 n hn'))
    refine ⟨q0 ++ q1, ?_, ?_, ?_⟩
    · rw [er, e1, List.append_assoc]
    · rw [← List.append_assoc]
      exact s1
    · intro k hk
      rw [List.map_append, List.mem_append] at hk
      rw [List.map_cons]
      rcases hk with hk | hk
      · rw [k0 k hk]
        exact List.mem_cons_self _ _
      · exact List.mem_cons_of_mem _ (k1 k hk)

/-- A label map with strictly increasing offsets, all of them among the
non-decreasing offsets `ns`, is rebuilt unchanged when every instruction keeps
its offset. -/
theorem relabel_fixed (ns : List Nat) (p q : label_map)
    (hs : ((p ++ q).map Prod.fst).Pairwise (· < ·)) (hn : ns.Pairwise (· ≤ ·))
    (hq : ∀ k, k ∈ q.map Prod.fst → k ∈ ns)
    (hp : ∀ k, k ∈ p.map Prod.fst → ∀ n, n ∈ ns → k ≤ n) :
    relabel (p ++ q) (ns.map fun n => (n, n)) p = p ++ q := by
  induction ns generalizing p q with
  | nil =>
    have hq0 : q = [] := by
      cases q with
      | nil => rfl
      | cons e q =>
        have := hq e.1 (by simp)
        cases this
    rw [hq0, List.map_nil, relabel, List.append_nil]
  | cons n ns ih =>
    rw [List.pairwise_cons] at hn
    rw [List.map_cons]
    have hs' := hs
    rw [List.map_append, List.pairwise_append] at hs'
    obtain ⟨sp, sq, spq⟩ := hs'
    by_cases hP : n ∈ p.map Prod.fst
    · have e0 : relabel (p ++ q) ((n, n) :: ns.map fun n => (n, n)) p =
          relabel (p ++ q) (ns.map fun n => (n, n)) p := by
        cases hfind : labels_find (p ++ q) n with
        | none => exact relabel_cons_none _ (n, n) _ _ hfind
        | some name =>
          rw [relabel_cons_some _ (n, n) _ _ _ hfind]
          show relabel _ _ (labels_insert p n name) = _
          rw [labels_insert_of_mem _ _ _ hP]
      rw [e0]
      refine ih p q hs hn.2 ?_ (fun k hk m hm => hp k hk m (List.mem_cons_of_mem _ hm))
      intro k hk
      rcases List.mem_cons.1 (hq k hk) with h | h
      · have := spq n hP k hk
        omega
      · exact h
    · by_cases hQ : n ∈ q.map Prod.fst
      · cases q with
        | nil => cases hQ
        | cons e q' =>
          obtain ⟨k0, v⟩ := e
          rw [List.map_cons, List.pairwise_cons] at sq
          have hk0 : k0 = n := by
            have h1 : n ≤ k0 := by
              rcases List.mem_cons.1 (hq k0 (by simp)) with h | h
              · omega
              · exact hn.1 k0 h
            rcases List.mem_cons.1 hQ with h | h
            · exact h.symm
            · have := sq.1 n h
              omega
          subst hk0
          have e0 : relabel (p ++ (k0, v) :: q') ((k0, k0) :: ns.map fun n => (n, n)) p =
              relabel (p ++ (k0, v) :: q') (ns.map fun n => (n, n)) (p ++ [(k0, v)]) := by
            rw [relabel_cons_some _ (k0, k0) _ _ _ (labels_find_append _ _ _ _ hP)]
            show relabel _ _ (labels_insert p k0 v) = _
            rw [labels_insert_of_not_mem _ _ _ hP]
          rw [e0]
          have ea : p ++ (k0, v) :: q' = (p ++ [(k0, v)]) ++ q' := by
            rw [List.append_assoc]
            rfl
          rw [ea]
          refine ih (p ++ [(k0, v)]) q' (by rw [← ea]; exact hs) hn.2 ?_ ?_
          · intro k hk
            rcases List.mem_cons.1 (hq k (List.mem_cons_of_mem _ hk)) with h | h
            · have := sq.1 k hk
              omega
            · exact h
          · intro k hk m hm
            rw [List.map_append, List.mem_append] at hk
            rcases hk with hk | hk
            · exact hp k hk m (List.mem_cons_of_mem _ hm)
            · simp only [List.map_cons, List.map_nil, List.mem_singleton] at hk
              rw [hk]
              exact hn.1 m hm
      · have hL : n ∉ (p ++ q).map Prod.fst := by
          rw [List.map_append, List.mem_append]
          rintro (h | h)
          · exact hP h
          · exact hQ h
        rw [relabel_cons_none _ (n, n) _ _ (labels_find_of_not_mem _ _ hL)]
        refine ih p q hs hn.2 ?_ (fun k hk m hm => hp k hk m (List.mem_cons_of_mem _ hm))
        intro k hk
        rcases List.mem_cons.1 (hq k hk) with h | h
        · exact absurd (h ▸ hk) hQ
        · exact h

end xsk

namespace xsk

namespace arc

/-! ## Assembling relocated functions again -/

/-- The layout of an instruction reads its opcode, offset and operands only:
laid out again, the relocated instruction is unchanged. -/
theorem align_instruction_relocated (ctx : context) (self self' : assembler)
    (inst inst' : instruction) (h : align_instruction ctx self inst = .ok (inst', self')) :
    align_instruction ctx self inst' = .ok (inst', self') := by
  obtain ⟨h1, h2, h3, h4, -⟩ := align_instruction_spec _ _ _ _ _ h
  unfold align_instruction at h ⊢
  have e : ({ inst' with size := ctx.opcode_size inst'.opcode } : instruction) =
      { inst with size := ctx.opcode_size inst.opcode } := by
    obtain ⟨op, ps, idx, sz, data⟩ := inst
    obtain ⟨op', ps', idx', sz', data'⟩ := inst'
    simp only at h1 h2 h3 h4
    subst h1 h2 h3 h4
    rfl
  rw [e]
  exact h

/-- The layout loop run again on the instructions it relocated: the
instructions, the size and the assembler are the same whatever the label map,
and the label map built is `relabel` of the old one. -/
theorem layout_relocated (ctx : context) (index : Nat) (old : label_map)
    (is : List instruction) (size : Nat) (acc : label_map) (self : assembler)
    (r : List instruction × Nat × label_map × assembler)
    (h : layout_instructions ctx index old is size acc self = .ok r) :
    r.2.2.1 = relabel old (List.zip (is.map fun i => i.index) (r.1.map fun i => i.index)) acc ∧
    (r.1.map fun i => i.index).Pairwise (· ≤ ·) ∧
    (∀ n, n ∈ (r.1.map fun i => i.index) → index + size ≤ n) ∧
    r.1.length = is.length ∧
    ∀ (old' acc' : label_map), layout_instructions ctx index old' r.1 size acc' self =
      .ok (r.1, r.2.1,
        relabel old' ((r.1.map fun i => i.index).map fun n => (n, n)) acc', r.2.2.2) := by
  induction is generalizing size acc self r with
  | nil =>
    simp only [layout_instructions, Except.ok.injEq] at h
    subst h
    refine ⟨rfl, List.Pairwise.nil, ?_, rfl, ?_⟩
    · intro n hn
      cases hn
    · intro old' acc'
      rfl
  | cons inst rest ih =>
    simp only [layout_instructions, bind_eq_ok, pure, Except.pure, Except.ok.injEq] at h
    obtain ⟨r0, h0, t, ht, rfl⟩ := h
    obtain ⟨i1, s1⟩ := r0
    obtain ⟨-, hidx, -⟩ := align_instruction_spec _ _ _ _ _ h0
    have hidx : i1.index = index + size := hidx
    have hB := align_instruction_relocated _ _ _ _ _ h0
    obtain ⟨a, b, c, d, e⟩ := ih _ _ _ _ ht
    refine ⟨?_, ?_, ?_, ?_, ?_⟩
    · show t.2.2.1 = _
      rw [a]
      cases hfind : labels_find old inst.index with
      | none =>
        simp only [List.map_cons, List.zip_cons_cons]
        rw [relabel_cons_none _ _ _ _ hfind]
      | some name =>
        simp only [List.map_cons, List.zip_cons_cons]
        rw [relabel_cons_some _ _ _ _ _ hfind]
    · show ((i1 :: t.1).map fun i => i.index).Pairwise (· ≤ ·)
      rw [List.map_cons, List.pairwise_cons]
      refine ⟨?_, b⟩
      intro n hn
      have := c n hn
      omega
    · intro n hn
      have hn : n ∈ ((i1 :: t.1).map fun i => i.index) := hn
      rw [List.map_cons, List.mem_cons] at hn
      rcases hn with hn | hn
      · omega
      · have := c n hn
        omega
    · show (i1 :: t.1).length = _
      rw [List.length_cons, List.length_cons, d]
    · intro old' acc'
      show layout_instructions ctx index old' (i1 :: t.1) size acc' self = _
      have heta : ({ i1 with index := index + size } : instruction) = i1 := by
        obtain ⟨op, ps, idx, sz, data⟩ := i1
        simp only at hidx
        subst hidx
        rfl
      cases hfind : labels_find old' i1.index with
      | none =>
        simp only [layout_instructions, heta, hB, hfind, e, bind, Except.bind, pure, Except.pure,
          List.map_cons]
        rw [relabel_cons_none _ (i1.index, i1.index) _ _ hfind]
      | some name =>
        simp only [layout_instructions, heta, hB, hfind, e, bind, Except.bind, pure, Except.pure,
          List.map_cons]
        rw [relabel_cons_some _ (i1.index, i1.index) _ _ _ hfind]

/-- A function relocated by `assemble_function` is laid out and emitted the
same way when assembled again from the same assembler. -/
theorem assemble_function_fixed (ctx : context) (self : assembler) (func : function)
    (r : function × assembler) (h : assemble_function ctx self func = .ok r) :
    assemble_function ctx self r.1 = .ok r := by
  simp only [assemble_function, bind_eq_ok, pure, Except.pure, Except.ok.injEq] at h
  obtain ⟨r0, hlay, s2, hemit, rfl⟩ := h
  obtain ⟨a, b, c, d, e⟩ := layout_relocated _ _ _ _ _ _ _ _ hlay
  have hzip : (List.zip (func.instructions.map fun i => i.index)
      (r0.1.map fun i => i.index)).map Prod.snd = r0.1.map fun i => i.index := by
    apply List.map_snd_zip
    rw [List.length_map, List.length_map, d]
  obtain ⟨q, e1, s1, k1⟩ := relabel_sorted func.labels
    (List.zip (func.instructions.map fun i => i.index) (r0.1.map fun i => i.index)) []
    List.Pairwise.nil (by rw [hzip]; exact b) (fun k hk => by cases hk)
  rw [← a, List.nil_append] at e1
  rw [List.nil_append] at s1
  rw [hzip] at k1
  have hfix := relabel_fixed (r0.1.map fun i => i.index) [] q
    (by rw [List.nil_append]; exact s1) b k1 (fun k hk => by cases hk)
  rw [List.nil_append, ← e1] at hfix
  have e' := e r0.2.2.1 []
  rw [hfix] at e'
  have e'' : layout_instructions ctx self.script.pos r0.2.2.1 r0.1 0 [] self = .ok r0 := e'
  simp only [assemble_function, e'', hemit, bind, Except.bind, pure, Except.pure]

theorem process_instruction_congr (self : assembler) (i j : instruction)
    (h1 : j.opcode = i.opcode) (h2 : j.data = i.data) :
    process_instruction self j = process_instruction self i := by
  obtain ⟨op, ps, idx, sz, data⟩ := i
  obtain ⟨op', ps', idx', sz', data'⟩ := j
  simp only at h1 h2
  subst h1 h2
  cases op' <;> rfl

theorem process_instructions_congr (is js : List instruction) (self : assembler)
    (h : js.map (fun i => (i.opcode, i.data)) = is.map (fun i => (i.opcode, i.data))) :
    process_instructions js self = process_instructions is self := by
  induction is generalizing js self with
  | nil =>
    cases js with
    | nil => rfl
    | cons j js => cases h
  | cons i is ih =>
    cases js with
    | nil => cases h
    | cons j js =>
      simp only [List.map_cons, List.cons.injEq, Prod.mk.injEq] at h
      obtain ⟨⟨h1, h2⟩, h3⟩ := h
      simp only [process_instructions]
      rw [process_instruction_congr _ _ _ h1 h2]
      congr 1
      funext s
      exact ih _ _ h3

theorem process_functions_congr (fs gs : List function) (self : assembler)
    (h : gs.map (fun f => (f.name, f.instructions.map fun i => (i.opcode, i.data))) =
      fs.map (fun f => (f.name, f.instructions.map fun i => (i.opcode, i.data)))) :
    process_functions gs self = process_functions fs self := by
  induction fs generalizing gs self with
  | nil =>
    cases gs with
    | nil => rfl
    | cons g gs => cases h
  | cons f fs ih =>
    cases gs with
    | nil => cases h
    | cons g gs =>
      simp only [List.map_cons, List.cons.injEq, Prod.mk.injEq] at h
      obtain ⟨⟨h1, h2⟩, h3⟩ := h
      have hpf : process_function self g = process_function self f := by
        simp only [process_function, h1]
        congr 1
        funext s1
        exact process_instructions_congr _ _ _ h2
      simp only [process_functions]
      rw [hpf]
      congr 1
      funext s
      exact ih _ _ h3

/-- Relocation keeps the name of a function and the opcodes and operands of its
instructions. -/
theorem assemble_function_sig (ctx : context) (self : assembler) (func : function)
    (r : function × assembler) (h : assemble_function ctx self func = .ok r) :
    r.1.name = func.name ∧
    r.1.instructions.map (fun i => (i.opcode, i.data)) =
      func.instructions.map (fun i => (i.opcode, i.data)) := by
  simp only [assemble_function, bind_eq_ok, pure, Except.pure, Except.ok.injEq] at h
  obtain ⟨r0, hlay, s2, hemit, rfl⟩ := h
  obtain ⟨hm, -⟩ := layout_instructions_spec _ _ _ _ _ _ _ _ hlay
  refine ⟨rfl, ?_⟩
  have := congrArg (List.map fun (t : opcode × List String × position) => (t.1, t.2.1)) hm
  simpa [List.map_map, Function.comp_def] using this

/-- The code segment loop run again on the functions it relocated. -/
theorem assemble_functions_fixed (ctx : context) (fs : List function) (self : assembler)
    (r : List function × assembler) (h : assemble_functions ctx fs self = .ok r) :
    assemble_functions ctx r.1 self = .ok r ∧
    r.1.map (fun f => (f.name, f.instructions.map fun i => (i.opcode, i.data))) =
      fs.map (fun f => (f.name, f.instructions.map fun i => (i.opcode, i.data))) := by
  induction fs generalizing self r with
  | nil =>
    simp only [assemble_functions, Except.ok.injEq] at h
    subst h
    exact ⟨rfl, rfl⟩
  | cons f fs ih =>
    simp only [assemble_functions, bind_eq_ok, pure, Except.pure, Except.ok.injEq] at h
    obtain ⟨r1, h1, t, ht, rfl⟩ := h
    have f1 := assemble_function_fixed _ _ _ _ h1
    obtain ⟨g1, g2⟩ := assemble_function_sig _ _ _ _ h1
    obtain ⟨f2, g3⟩ := ih _ _ ht
    refine ⟨?_, ?_⟩
    · simp only [assemble_functions, f1, f2, bind, Except.bind, pure, Except.pure]
    · simp only [List.map_cons, g1, g2, g3]

end arc

end xsk

namespace xsk

namespace arc

/-- The per-input reset depends on the byte order and the capacity of the two
writers only. -/
theorem arc_reset_eq (a b : assembler)
    (h1 : b.script.swap = a.script.swap) (h2 : b.script.size = a.script.size)
    (h3 : b.devmap.swap = a.devmap.swap) (h4 : b.devmap.size = a.devmap.size) :
    b.reset = a.reset := by
  unfold assembler.reset utils.writer.clear
  rw [h1, h2, h3, h4]

/-- The assembler `assemble` leaves behind resets to the same state as the one
it was given. -/
theorem assemble_reset (ctx : context) (self : assembler) (data : assembly) (name : String)
    (res : assemble_result) (h : assemble ctx self data name = .ok res) :
    res.self.reset = self.reset := by
  obtain ⟨l, -, -, -, -, d1, d2⟩ := assemble_devmap _ _ _ _ _ h
  obtain ⟨st, hst, -, -, -, -, -, -, -, -, -, -, ⟨a11, h11, e11⟩, -⟩ :=
    assemble_stages_eq _ _ _ _ _ h
  obtain ⟨-, c1, c2, c3, c4, c5, c6, z, w, -⟩ := stages_spec _ _ _ _ _ hst
  obtain ⟨f11, -⟩ := write_header_frame _ _ _ _ h11
  have c := utils.advances_trans c1 (utils.advances_trans c2 (utils.advances_trans c3
    (utils.advances_trans c4 (utils.advances_trans c5 c6))))
  refine arc_reset_eq _ _ ?_ ?_ d1 d2
  · rw [e11]
    show a11.script.swap = _
    rw [f11.script.swap]
    show st.fixed.script.swap = _
    rw [c.swap, w]
  · rw [e11]
    show a11.script.size = _
    rw [f11.script.size]
    show st.fixed.script.size = _
    rw [c.size, z]

/-- The result of `assemble` depends on the assembler through its reset only. -/
theorem assemble_of_reset (ctx : context) (self other : assembler) (data : assembly)
    (name : String) (h : other.reset = self.reset) :
    assemble ctx other data name = assemble ctx self data name := by
  simp only [assemble, h]

/-- The assembly relocated by `assemble` is assembled to the same result. -/
theorem assemble_relocated (ctx : context) (self : assembler) (data : assembly) (name : String)
    (res : assemble_result) (h : assemble ctx self data name = .ok res) :
    assemble ctx self res.data name = .ok res := by
  simp only [assemble, bind_eq_ok, pure, Except.pure, Except.ok.injEq] at h
  obtain ⟨a2, h2, a3, h3, a4, h4, a5, h5, r, hr, a7, h7, a8, h8, a9, h9, t, ht, hname, hn,
    a11, h11, a13, h13, rfl⟩ := h
  obtain ⟨hfix, hsig⟩ := assemble_functions_fixed _ _ _ _ hr
  have hpool : process_functions r.1 a2 = .ok a3 := by
    rw [process_functions_congr _ _ _ hsig]
    exact h3
  simp only [assemble, h2, hpool, h4, h5, hfix, h7, h8, h9, ht, hn, h11, h13, bind, Except.bind,
    pure, Except.pure]

end arc

end xsk

namespace xsk

/-- C17, determinism: when ARC `assemble` succeeds on an assembly, the
assembler it leaves behind resets to the same state as the one it was given,
so the result does not depend on what the assembler assembled before; and
`assemble` called again, on the same assembler or on any other with the same
reset, with the assembly as relocated in place by the first call (index, size
and labels rewritten), returns the same result: the same script and dev-map
bytes, header and relocated assembly. Likewise GSC `assemble` returns the same
script, stack and dev-map bytes on repeated calls. The writers' `clear()` is
taken to zero the buffer. -/
theorem assemble_deterministic :
    (∀ (ctx : arc.context) (self : arc.assembler) (data : arc.assembly) (name : String)
      (res : arc.assemble_result), arc.assemble ctx self data name = .ok res →
      res.self.reset = self.reset ∧
      arc.assemble ctx res.self res.data name = .ok res ∧
      (∀ other : arc.assembler, other.reset = self.reset →
        arc.assemble ctx other data name = .ok res ∧
        arc.assemble ctx other res.data name = .ok res) ∧
      (∀ (data0 : arc.assembly) (name0 : String) (res0 : arc.assemble_result),
        arc.assemble ctx self data0 name0 = .ok res0 →
        arc.assemble ctx res0.self data name = .ok res)) ∧
    (∀ (ctx : gsc.context) (self : gsc.assembler) (data : gsc.assembly)
      (res : gsc.assemble_result), gsc.assemble ctx self data = .ok res →
      res.self.reset = self.reset ∧
      gsc.assemble ctx res.self data = .ok res ∧
      (∀ other : gsc.assembler, other.reset = self.reset →
        gsc.assemble ctx other data = .ok res) ∧
      (∀ (data0 : gsc.assembly) (res0 : gsc.assemble_result),
        gsc.assemble ctx self data0 = .ok res0 →
        gsc.assemble ctx res0.self data = .ok res)) := by
  refine ⟨?_, ?_⟩
  · intro ctx self data name res h
    have hr := arc.assemble_reset _ _ _ _ _ h
    have hrel := arc.assemble_relocated _ _ _ _ _ h
    refine ⟨hr, ?_, ?_, ?_⟩
    · rw [arc.assemble_of_reset _ _ _ _ _ hr]
      exact hrel
    · intro other ho
      rw [arc.assemble_of_reset _ _ _ _ _ ho, arc.assemble_of_reset _ _ _ _ _ ho]
      exact ⟨h, hrel⟩
    · intro data0 name0 res0 h0
      rw [arc.assemble_of_reset _ _ _ _ _ (arc.assemble_reset _ _ _ _ _ h0)]
      exact h
  · have hof : ∀ (ctx : gsc.context) (self other : gsc.assembler) (data : gsc.assembly),
        other.reset = self.reset → gsc.assemble ctx other data = gsc.assemble ctx self data := by
      intro ctx self other data ho
      simp only [gsc.assemble, ho]
    intro ctx self data res h
    obtain ⟨l, -, -, -, -, hr⟩ := gsc.gsc_assemble_devmap _ _ _ _ h
    refine ⟨hr, ?_, ?_, ?_⟩
    · rw [hof _ _ _ _ hr]
      exact h
    · intro other ho
      rw [hof _ _ _ _ ho]
      exact h
    · intro data0 res0 h0
      obtain ⟨l0, -, -, -, -, hr0⟩ := gsc.gsc_assemble_devmap _ _ _ _ h0
      rw [hof _ _ _ _ hr0]
      exact h

/-- Scenario S2 assembled by ARC with dev-maps, and the two sample functions
assembled by GSC: assembled again on the assembler left behind (ARC: with the
relocated assembly), and after another assembly was assembled first, the result
is the same. -/
theorem assemble_deterministic_witness :
    (∃ res res0, arc.assemble arc.sample_context_dev
        (arc.assembler.create arc.sample_context_dev 256) arc.sample_devmap "" = .ok res ∧
      arc.assemble arc.sample_context_dev res.self res.data "" = .ok res ∧
      arc.assemble arc.sample_context_dev
        (arc.assembler.create arc.sample_context_dev 256) arc.scenario_S1 "s1" = .ok res0 ∧
      arc.assemble arc.sample_context_dev res0.self arc.sample_devmap "" = .ok res ∧
      res.data ≠ arc.sample_devmap) ∧
    (∃ res res0, gsc.assemble gsc.sample_context_dev
        (gsc.assembler.create gsc.sample_context_dev 64) gsc.sample_devmap = .ok res ∧
      gsc.assemble gsc.sample_context_dev res.self gsc.sample_devmap = .ok res ∧
      gsc.assemble gsc.sample_context_dev
        (gsc.assembler.create gsc.sample_context_dev 64) ⟨[gsc.scenario_S6_function]⟩ =
        .ok res0 ∧
      gsc.assemble gsc.sample_context_dev res0.self gsc.sample_devmap = .ok res) := by
  have r1 : ∃ r, arc.assemble arc.sample_context_dev
      (arc.assembler.create arc.sample_context_dev 256) arc.sample_devmap "" = .ok r := ⟨_, rfl⟩
  have r2 : ∃ r, arc.assemble arc.sample_context_dev
      (arc.assembler.create arc.sample_context_dev 256) arc.scenario_S1 "s1" = .ok r := ⟨_, rfl⟩
  have r3 : ∃ r, gsc.assemble gsc.sample_context_dev
      (gsc.assembler.create gsc.sample_context_dev 64) gsc.sample_devmap = .ok r := ⟨_, rfl⟩
  have r4 : ∃ r, gsc.assemble gsc.sample_context_dev
      (gsc.assembler.create gsc.sample_context_dev 64) ⟨[gsc.scenario_S6_function]⟩ = .ok r :=
    ⟨_, rfl⟩
  obtain ⟨a, ha⟩ := r1
  obtain ⟨b, hb⟩ := r2
  obtain ⟨c, hc⟩ := r3
  obtain ⟨d, hd⟩ := r4
  obtain ⟨-, a2, -, a4⟩ := assemble_deterministic.1 _ _ _ _ a ha
  obtain ⟨-, c2, -, c4⟩ := assemble_deterministic.2 _ _ _ c hc
  refine ⟨⟨a, b, ha, a2, hb, a4 _ _ b hb, ?_⟩, ⟨c, d, hc, c2, hd, c4 _ d hd⟩⟩
  have e1 : (arc.assemble arc.sample_context_dev
      (arc.assembler.create arc.sample_context_dev 256) arc.sample_devmap "").toOption.map
      (fun r => r.data.functions.map fun f => f.index) = some [76] := by rfl
  rw [ha] at e1
  simp only [Except.toOption, Option.map_some', Option.some.injEq] at e1
  intro hne
  rw [hne] at e1
  exact absurd e1 (by decide)

end xsk

namespace xsk

/-! ## Byte-level effect of the GSC writes -/

/-- A computation that has returned feeds its value to the next. -/
theorem except_ok_bind {ε α β : Type} (a : α) (f : α → Except ε β) :
    (Except.ok a >>= f) = f a := rfl

namespace utils

theorem int_bytes_one (swap : Bool) (v : Nat) : writer.int_bytes swap 1 v = [v % 256] := by
  cases swap <;> simp [writer.int_bytes, writer.byte_at, List.range_succ]

/-- A run of bytes reads back from where it was put. -/
theorem slice_put (w w' : writer) (bs : List Nat) (h : w.put bs = .ok w') :
    w'.slice w.pos bs.length = bs := by
  obtain ⟨-, -, -, -, -, h6⟩ := put_ok _ _ _ h
  apply List.ext_getElem?
  intro i
  unfold writer.slice
  rcases Nat.lt_or_ge i bs.length with hi | hi
  · rw [List.getElem?_map, List.getElem?_range hi]
    simp only [Option.map_some']
    rw [h6, if_pos ⟨by omega, by omega⟩, Nat.add_sub_cancel_left, List.getD_eq_getElem?_getD,
      List.getElem?_eq_getElem hi]
    rfl
  · rw [List.getElem?_eq_none (by simpa using hi), List.getElem?_eq_none hi]

theorem slice_write (w w' : writer) (width v : Nat) (h : w.write width v = .ok w') :
    w'.slice w.pos width = writer.int_bytes w.swap width v := by
  have := slice_put _ _ _ h
  rwa [int_bytes_length] at this

/-- Bytes that a later forward write leaves alone are the same. -/
theorem slice_of_advances {a b : writer} (h : a.advances b) (p n : Nat)
    (hw : p + n ≤ a.pos) : b.slice p n = a.slice p n := by
  unfold writer.slice
  apply List.map_congr_left
  intro k hk
  rw [List.mem_range] at hk
  exact h.below _ (by omega)

end utils

namespace gsc

theorem gsc_write_bytes (self self' : assembler) (width v : Nat)
    (h : self.write width v = .ok self') :
    self'.script.bytes = self.script.bytes ++ utils.writer.int_bytes self.script.swap width v ∧
    self'.script.pos = self.script.pos + width ∧ self'.script.swap = self.script.swap ∧
    self'.script.size = self.script.size ∧ self'.stack = self.stack := by
  obtain ⟨hw, e⟩ := gsc_write_ok _ _ _ _ h
  obtain ⟨-, h2, h3, h4, -⟩ := utils.write_ok _ _ _ _ hw
  refine ⟨utils.bytes_write _ _ _ _ hw, h2, h3, h4, ?_⟩
  rw [e]

theorem gsc_write_stack_ok (self self' : assembler) (width v : Nat)
    (h : self.write_stack width v = .ok self') :
    self.stack.write width v = .ok self'.stack ∧ self' = { self with stack := self'.stack } := by
  unfold assembler.write_stack at h
  split at h
  · cases h
    rename_i w hw
    exact ⟨hw, rfl⟩
  · cases h

theorem gsc_write_stack_bytes (self self' : assembler) (width v : Nat)
    (h : self.write_stack width v = .ok self') :
    self'.stack.bytes = self.stack.bytes ++ utils.writer.int_bytes self.stack.swap width v ∧
    self'.stack.pos = self.stack.pos + width ∧ self'.stack.swap = self.stack.swap ∧
    self'.stack.size = self.stack.size ∧ self'.script = self.script := by
  obtain ⟨hw, e⟩ := gsc_write_stack_ok _ _ _ _ h
  obtain ⟨-, h2, h3, h4, -⟩ := utils.write_ok _ _ _ _ hw
  refine ⟨utils.bytes_write _ _ _ _ hw, h2, h3, h4, ?_⟩
  rw [e]

theorem gsc_write_stack_cstr_bytes (self self' : assembler) (s : List Nat)
    (h : self.write_stack_cstr s = .ok self') :
    self'.stack.bytes = self.stack.bytes ++ (s ++ [0]) ∧
    self'.stack.swap = self.stack.swap ∧ self'.script = self.script := by
  unfold assembler.write_stack_cstr at h
  split at h
  · cases h
    rename_i w hw
    obtain ⟨-, -, h3, -⟩ := utils.put_ok _ _ _ hw
    exact ⟨utils.bytes_put _ _ _ hw, h3, rfl⟩
  · cases h

theorem gsc_write_stack_of_fits (self : assembler) (width v : Nat)
    (h : self.stack.pos + width ≤ self.stack.size) :
    ∃ self', self.write_stack width v = .ok self' := by
  obtain ⟨w, hw⟩ := utils.write_of_fits self.stack width v h
  unfold assembler.write_stack
  rw [hw]
  exact ⟨_, rfl⟩

theorem gsc_write_returns (self : assembler) (width v : Nat)
    (h : self.script.pos + width ≤ self.script.size) :
    ∃ self', self.write width v = .ok self' := by
  obtain ⟨w, -, hw⟩ := gsc_write_of_fits self width v h
  exact ⟨_, hw⟩

/-- The trailing argument count of a threaded call: one byte of the script. -/
theorem write_thread_args_bytes (self self' : assembler) (inst : instruction) (thread : Bool)
    (k : Nat) (h : write_thread_args self inst thread k = .ok self') :
    self'.stack = self.stack ∧
    ∃ targs, self'.script.bytes = self.script.bytes ++ targs ∧
      (thread = false → targs = []) ∧
      (thread = true → ∃ d v, inst.data[k]? = some d ∧ stoi d = .ok v ∧ targs = [to_u8 v]) := by
  unfold write_thread_args at h
  split at h
  · rename_i ht
    simp only [write_stoi_byte, bind_eq_ok] at h
    obtain ⟨d, hd, v, hv, h⟩ := h
    rw [operand_eq_ok] at hd
    obtain ⟨b, -, -, -, e⟩ := gsc_write_bytes _ _ _ _ h
    refine ⟨e, [to_u8 v], ?_, fun hf => ?_, fun _ => ⟨d, v, hd, hv, rfl⟩⟩
    · rw [b, utils.int_bytes_one]
      have : to_u8 v % 256 = to_u8 v := by
        unfold to_u8
        omega
      rw [this]
    · rw [ht] at hf
      cases hf
  · rename_i ht
    cases h
    refine ⟨rfl, [], by rw [List.append_nil], fun _ => rfl, fun hf => ?_⟩
    exact absurd hf ht

theorem write_thread_args_returns (self : assembler) (inst : instruction) (thread : Bool)
    (k : Nat) (hs : self.script.pos + (if thread then 1 else 0) ≤ self.script.size)
    (ht : thread = true → ∃ d v, inst.data[k]? = some d ∧ stoi d = .ok v) :
    ∃ self', write_thread_args self inst thread k = .ok self' := by
  unfold write_thread_args
  cases thread with
  | false => exact ⟨_, rfl⟩
  | true =>
    obtain ⟨d, v, hd, hv⟩ := ht rfl
    rw [← operand_eq_ok] at hd
    simp only [if_true, write_stoi_byte, hd, hv, bind, Except.bind]
    exact gsc_write_returns _ _ _ (by simpa using hs)

/-- The dev-map entry of an instruction leaves the script and the stack alone. -/
theorem gsc_devmap_entry_keeps (ctx : context) (self self' : assembler) (inst : instruction)
    (h : write_devmap_entry ctx self inst = .ok self') :
    self'.script = self.script ∧ self'.stack = self.stack := by
  unfold write_devmap_entry at h
  split at h
  · simp only [bind_eq_ok, pure, Except.pure, Except.ok.injEq] at h
    obtain ⟨s1, h1, s2, h2, s3, h3, rfl⟩ := h
    obtain ⟨-, e1⟩ := gsc_write_devmap_ok _ _ _ _ h1
    obtain ⟨-, e2⟩ := gsc_write_devmap_ok _ _ _ _ h2
    obtain ⟨-, e3⟩ := gsc_write_devmap_ok _ _ _ _ h3
    constructor
    · show s3.script = _
      rw [e3, e2, e1]
    · show s3.stack = _
      rw [e3, e2, e1]
  · cases h
    exact ⟨rfl, rfl⟩

/-- An instruction is its opcode byte, then its operands. -/
theorem gsc_instruction_split (ctx : context) (funcs : List function) (labels : label_map)
    (self self' : assembler) (inst : instruction)
    (h : assemble_instruction ctx funcs labels self inst = .ok self') :
    ∃ id s2, ctx.opcode_id inst.opcode = some id ∧
      s2.script.bytes = self.script.bytes ++ [id % 256] ∧
      s2.script.pos = self.script.pos + 1 ∧ s2.script.swap = self.script.swap ∧
      s2.script.size = self.script.size ∧ s2.stack = self.stack ∧
      assemble_operands ctx funcs labels s2 inst = .ok self' := by
  unfold assemble_instruction at h
  split at h
  · cases h
  · rename_i id hid
    simp only [bind_eq_ok] at h
    obtain ⟨s1, h1, s2, h2, h⟩ := h
    obtain ⟨b, p, sw, sz, st⟩ := gsc_write_bytes _ _ _ _ h1
    obtain ⟨e1, e2⟩ := gsc_devmap_entry_keeps _ _ _ _ h2
    rw [utils.int_bytes_one] at b
    exact ⟨id, s2, hid, by rw [e1, b], by rw [e1, p], by rw [e1, sw], by rw [e1, sz],
      by rw [e2, st], h⟩

end gsc

end xsk

namespace xsk

/-! ## What `std::stoul` makes of a pair of characters -/

theorem digit_value_lt (base b d : Nat) (h : digit_value base b = some d) : d < base := by
  unfold digit_value at h
  simp only [] at h
  split_ifs at h <;> simp_all

theorem hex_digit_iff (b : Nat) :
    (digit_value 16 b).isSome = true ↔
      (48 ≤ b ∧ b ≤ 57) ∨ (97 ≤ b ∧ b ≤ 102) ∨ (65 ≤ b ∧ b ≤ 70) := by
  unfold digit_value
  simp only []
  split_ifs <;> simp <;> omega

theorem isspace_iff (b : Nat) : isspace b = true ↔ b = 32 ∨ (9 ≤ b ∧ b ≤ 13) := by
  unfold isspace
  simp

theorem accum_digits_bound (base : Nat) (hb : 1 ≤ base) (ds : List Nat) (acc : Nat) :
    accum_digits base ds acc < (acc + 1) * base ^ ds.length := by
  induction ds generalizing acc with
  | nil => simp [accum_digits]
  | cons b bs ih =>
    unfold accum_digits
    cases hd : digit_value base b with
    | none =>
      simp only []
      have h1 : 1 ≤ base ^ (b :: bs).length := Nat.one_le_pow _ _ hb
      calc acc < (acc + 1) * 1 := by omega
        _ ≤ (acc + 1) * base ^ (b :: bs).length := Nat.mul_le_mul_left _ h1
    | some d =>
      simp only []
      have hlt := digit_value_lt _ _ _ hd
      have := ih (acc * base + d)
      have h2 : acc * base + d + 1 ≤ (acc + 1) * base := by
        rw [Nat.add_mul, Nat.one_mul]
        omega
      calc accum_digits base bs (acc * base + d)
          < (acc * base + d + 1) * base ^ bs.length := this
        _ ≤ ((acc + 1) * base) * base ^ bs.length := Nat.mul_le_mul_right _ h2
        _ = (acc + 1) * base ^ (b :: bs).length := by
          rw [List.length_cons, Nat.pow_succ, Nat.mul_assoc, Nat.mul_comm base]

theorem read_sign_cons (a : Nat) (bs : List Nat) :
    read_sign (a :: bs) = if a = 45 then (true, bs) else if a = 43 then (false, bs)
      else (false, a :: bs) := by
  by_cases h45 : a = 45
  · subst h45
    rfl
  · by_cases h43 : a = 43
    · subst h43
      rfl
    · rw [if_neg h45, if_neg h43]
      unfold read_sign
      split
      · rename_i h
        simp at h
        exact absurd h.1 h45
      · rename_i h
        simp at h
        exact absurd h.1 h43
      · rfl

theorem strip_0x_one (base a : Nat) : strip_0x base [a] = [a] := by
  unfold strip_0x
  split
  · rename_i h
    simp at h
  · rfl

theorem strip_0x_pair (a b : Nat) : strip_0x 16 [a, b] = [a, b] := by
  unfold strip_0x
  split
  · rename_i x rest h
    simp only [List.cons.injEq] at h
    obtain ⟨-, -, rfl⟩ := h
    simp [has_digit]
  · rfl

/-- What `strtoul` in base 16 is left with on a pair of characters: the digits
`ds` after the white space and the sign, at most two of them, which start with
a hex digit exactly when the pair starts with one or is a white-space
character or a sign followed by one. -/
theorem strto_pair (a b : Nat) :
    ∃ neg ds, ds.length ≤ 2 ∧
      strto 16 [a, b] =
        (if has_digit 16 ds = true then some (neg, accum_digits 16 ds 0) else none) ∧
      (has_digit 16 ds = true ↔
        ((digit_value 16 a).isSome = true ∨
          ((isspace a = true ∨ a = 43 ∨ a = 45) ∧ (digit_value 16 b).isSome = true))) := by
  have ha := hex_digit_iff a
  have hb := hex_digit_iff b
  have sa := isspace_iff a
  have sb := isspace_iff b
  by_cases hsa : isspace a = true
  · by_cases hsb : isspace b = true
    · refine ⟨false, [], by simp, ?_, ?_⟩
      · simp [strto, skip_space, hsa, hsb, read_sign, strip_0x]
      · simp only [has_digit, Bool.false_eq_true, false_iff]
        rw [ha, hb]
        have := sa.1 hsa
        have := sb.1 hsb
        omega
    · have e1 : skip_space [a, b] = [b] := by simp [skip_space, hsa, hsb]
      by_cases h45 : b = 45
      · refine ⟨true, [], by simp, ?_, ?_⟩
        · simp only [strto, e1, read_sign_cons, if_pos h45]
          rfl
        · simp only [has_digit, Bool.false_eq_true, false_iff]
          rw [ha, hb]
          have := sa.1 hsa
          omega
      · by_cases h43 : b = 43
        · refine ⟨false, [], by simp, ?_, ?_⟩
          · simp only [strto, e1, read_sign_cons, if_neg h45, if_pos h43]
            rfl
          · simp only [has_digit, Bool.false_eq_true, false_iff]
            rw [ha, hb]
            have := sa.1 hsa
            omega
        · refine ⟨false, [b], by simp, ?_, ?_⟩
          · simp only [strto, e1, read_sign_cons, if_neg h45, if_neg h43, strip_0x_one]
          · simp only [has_digit]
            rw [ha]
            have := sa.1 hsa
            constructor
            · intro h
              exact Or.inr ⟨Or.inl hsa, h⟩
            · rintro (h | ⟨-, h⟩)
              · omega
              · exact h
  · have e1 : skip_space [a, b] = [a, b] := by simp [skip_space, hsa]
    have nsa : ¬ (a = 32 ∨ (9 ≤ a ∧ a ≤ 13)) := fun h => hsa (sa.2 h)
    by_cases h45 : a = 45
    · refine ⟨true, [b], by simp, ?_, ?_⟩
      · simp only [strto, e1, read_sign_cons, if_pos h45, strip_0x_one]
      · simp only [has_digit]
        rw [ha]
        constructor
        · intro h
          exact Or.inr ⟨Or.inr (Or.inr h45), h⟩
        · rintro (h | ⟨-, h⟩)
          · omega
          · exact h
    · by_cases h43 : a = 43
      · refine ⟨false, [b], by simp, ?_, ?_⟩
        · simp only [strto, e1, read_sign_cons, if_neg h45, if_pos h43, strip_0x_one]
        · simp only [has_digit]
          rw [ha]
          constructor
          · intro h
            exact Or.inr ⟨Or.inr (Or.inl h43), h⟩
          · rintro (h | ⟨-, h⟩)
            · omega
            · exact h
      · refine ⟨false, [a, b], by simp, ?_, ?_⟩
        · simp only [strto, e1, read_sign_cons, if_neg h45, if_neg h43, strip_0x_pair]
        · simp only [has_digit]
          constructor
          · intro h
            exact Or.inl h
          · rintro (h | ⟨h1, -⟩)
            · exact h
            · rcases h1 with h1 | h1 | h1
              · exact absurd h1 hsa
              · exact absurd h1 h43
              · exact absurd h1 h45

/-- On a pair of characters `std::stoul` in base 16 throws `invalid_argument`
when there is nothing to convert and returns otherwise; it never runs out of
range. -/
theorem stoul_pair (a b : Nat) :
    (strto 16 [a, b] = none → stoul_base 16 [a, b] = .error asm_error.invalid_argument) ∧
    (strto 16 [a, b] ≠ none → ∃ v, stoul_base 16 [a, b] = .ok v) ∧
    (strto 16 [a, b] = none ↔
      ¬ ((digit_value 16 a).isSome = true ∨
        ((isspace a = true ∨ a = 43 ∨ a = 45) ∧ (digit_value 16 b).isSome = true))) := by
  obtain ⟨neg, ds, hlen, hs, hiff⟩ := strto_pair a b
  refine ⟨?_, ?_, ?_⟩
  · intro h
    unfold stoul_base
    rw [h]
  · intro h
    unfold stoul_base
    by_cases hd : has_digit 16 ds = true
    · rw [hs, if_pos hd]
      have hb := accum_digits_bound 16 (by omega) ds 0
      have hp : 16 ^ ds.length ≤ 16 ^ 2 := Nat.pow_le_pow_right (by omega) hlen
      have hm : ¬ 18446744073709551616 ≤ accum_digits 16 ds 0 := by
        simp only [Nat.zero_add, Nat.one_mul] at hb
        omega
      simp only [if_neg hm]
      exact ⟨_, rfl⟩
    · rw [hs, if_neg hd] at h
      exact absurd rfl h
  · rw [hs, ← hiff]
    by_cases hd : has_digit 16 ds = true
    · simp [hd]
    · simp [hd]

namespace gsc

theorem byte_pairs_length (n : Nat) (l : List Nat) (hn : l.length ≤ n) :
    (byte_pairs l).length = l.length / 2 := by
  induction n generalizing l with
  | zero =>
    have : l = [] := List.eq_nil_of_length_eq_zero (Nat.le_zero.1 hn)
    subst this
    rfl
  | succ n ih =>
    cases l with
    | nil => rfl
    | cons a l =>
      cases l with
      | nil => simp [byte_pairs]
      | cons b l =>
        simp only [byte_pairs, List.length_cons] at hn ⊢
        rw [ih l (by omega)]
        omega

/-- The pairs handed to `std::stoul` have two characters each. -/
theorem byte_pairs_mem (n : Nat) (l : List Nat) (hn : l.length ≤ n) (p : List Nat)
    (hp : p ∈ byte_pairs l) : ∃ a b, p = [a, b] := by
  induction n generalizing l with
  | zero =>
    have : l = [] := List.eq_nil_of_length_eq_zero (Nat.le_zero.1 hn)
    subst this
    cases hp
  | succ n ih =>
    cases l with
    | nil => cases hp
    | cons a l =>
      cases l with
      | nil => cases hp
      | cons b l =>
        simp only [byte_pairs, List.mem_cons] at hp
        rcases hp with rfl | hp
        · exact ⟨a, b, rfl⟩
        · exact ih l (by simp only [List.length_cons] at hn; omega) hp

/-- The loop of `encrypt_string` returns one byte per pair when every pair has
something to convert. -/
theorem decode_pairs_ok (n : Nat) (l : List Nat) (hn : l.length ≤ n)
    (h : ∀ p, p ∈ byte_pairs l → strto 16 p ≠ none) :
    decode_pairs l = .ok ((byte_pairs l).map pair_byte) := by
  induction n generalizing l with
  | zero =>
    have : l = [] := List.eq_nil_of_length_eq_zero (Nat.le_zero.1 hn)
    subst this
    rfl
  | succ n ih =>
    cases l with
    | nil => rfl
    | cons a l =>
      cases l with
      | nil => rfl
      | cons b l =>
        obtain ⟨v, hv⟩ := (stoul_pair a b).2.1 (h [a, b] (by simp [byte_pairs]))
        have hrest := ih l (by simp only [List.length_cons] at hn; omega)
          (fun p hp => h p (by simp only [byte_pairs, List.mem_cons]; exact Or.inr hp))
        simp only [decode_pairs, hv, hrest, except_ok_bind, byte_pairs, List.map_cons,
          pair_byte]
        rfl

/-- The loop of `encrypt_string` throws `invalid_argument` when some pair has
nothing to convert. -/
theorem decode_pairs_error (n : Nat) (l : List Nat) (hn : l.length ≤ n)
    (h : ∃ p, p ∈ byte_pairs l ∧ strto 16 p = none) :
    decode_pairs l = .error asm_error.invalid_argument := by
  induction n generalizing l with
  | zero =>
    have : l = [] := List.eq_nil_of_length_eq_zero (Nat.le_zero.1 hn)
    subst this
    obtain ⟨p, hp, -⟩ := h
    cases hp
  | succ n ih =>
    cases l with
    | nil =>
      obtain ⟨p, hp, -⟩ := h
      cases hp
    | cons a l =>
      cases l with
      | nil =>
        obtain ⟨p, hp, -⟩ := h
        cases hp
      | cons b l =>
        by_cases h0 : strto 16 [a, b] = none
        · have he := (stoul_pair a b).1 h0
          simp only [decode_pairs, he]
          rfl
        · obtain ⟨v, hv⟩ := (stoul_pair a b).2.1 h0
          obtain ⟨p, hp, hnone⟩ := h
          simp only [byte_pairs, List.mem_cons] at hp
          rcases hp with rfl | hp
          · exact absurd hnone h0
          · have hrest := ih l (by simp only [List.length_cons] at hn; omega) ⟨p, hp, hnone⟩
            simp only [decode_pairs, hv, hrest, except_ok_bind]
            rfl

end gsc

end xsk

namespace xsk

namespace gsc

theorem decode_pairs_length (n : Nat) (l r : List Nat) (hn : l.length ≤ n)
    (h : decode_pairs l = .ok r) : r.length = l.length / 2 := by
  induction n generalizing l r with
  | zero =>
    have : l = [] := List.eq_nil_of_length_eq_zero (Nat.le_zero.1 hn)
    subst this
    simp only [decode_pairs, Except.ok.injEq] at h
    subst h
    rfl
  | succ n ih =>
    cases l with
    | nil =>
      simp only [decode_pairs, Except.ok.injEq] at h
      subst h
      rfl
    | cons a l =>
      cases l with
      | nil =>
        simp only [decode_pairs, Except.ok.injEq] at h
        subst h
        simp
      | cons b l =>
        simp only [decode_pairs, bind_eq_ok, pure, Except.pure, Except.ok.injEq] at h
        obtain ⟨v, -, t, ht, rfl⟩ := h
        simp only [List.length_cons] at hn ⊢
        rw [ih l t (by omega) ht]
        omega

/-- C21, as stated, fails in its first sentence: `_encstr_zz` and `_encstr_1g`
are not `_encstr_` followed by hex digits, yet `encrypt_string` does not return
them unchanged. Both start with `_encstr_` and have even length, so each pair
is read by `std::stoul` in base 16: `zz` has no digit and the call throws
`invalid_argument`, `1g` is read as 1 and the call returns the single byte 1. -/
theorem encrypt_string_pass_through_counterexample :
    encrypt_string "_encstr_zz" = .error asm_error.invalid_argument ∧
    encrypt_string "_encstr_1g" = .ok [1] ∧
    str_bytes "_encstr_1g" = [95, 101, 110, 99, 115, 116, 114, 95, 49, 103] := by
  refine ⟨by rfl, by rfl, by rfl⟩

/-- C21, amended: `encrypt_string(s)` returns `s` unchanged for every string
that does not start with `_encstr_` or has odd length; whenever it returns, it
returns `s` unchanged if and only if `s` does not start with `_encstr_` or has
odd length; and for a string of even length that starts with `_encstr_` it
returns, when it returns, `(len - 8) / 2` bytes. In that case the characters
after the prefix are read pair by pair by `std::stoul` in base 16: when some
pair has nothing to convert the call throws `invalid_argument`, and otherwise
it returns one byte per pair, the value read narrowed to a `char`. No other
error occurs. A pair has nothing to convert exactly when it neither starts
with a hex digit nor is a white-space character or a sign followed by a hex
digit. -/
theorem encrypt_string_pass_through (s : String) :
    (¬ ((str_bytes s).take 8 = str_bytes "_encstr_" ∧ (str_bytes s).length % 2 = 0) →
      encrypt_string s = .ok (str_bytes s)) ∧
    (∀ r, encrypt_string s = .ok r →
      (r = str_bytes s ↔
        ¬ (str_bytes s).take 8 = str_bytes "_encstr_" ∨ (str_bytes s).length % 2 = 1)) ∧
    (∀ r, (str_bytes s).take 8 = str_bytes "_encstr_" → (str_bytes s).length % 2 = 0 →
      encrypt_string s = .ok r → r.length = ((str_bytes s).length - 8) / 2) ∧
    ((str_bytes s).take 8 = str_bytes "_encstr_" → (str_bytes s).length % 2 = 0 →
      (byte_pairs ((str_bytes s).drop 8)).length = ((str_bytes s).length - 8) / 2 ∧
      (∀ p, p ∈ byte_pairs ((str_bytes s).drop 8) → ∃ a b, p = [a, b]) ∧
      ((∀ p, p ∈ byte_pairs ((str_bytes s).drop 8) → strto 16 p ≠ none) →
        encrypt_string s = .ok ((byte_pairs ((str_bytes s).drop 8)).map pair_byte)) ∧
      ((∃ p, p ∈ byte_pairs ((str_bytes s).drop 8) ∧ strto 16 p = none) →
        encrypt_string s = .error asm_error.invalid_argument)) ∧
    (∀ e, encrypt_string s = .error e →
      e = asm_error.invalid_argument ∧ (str_bytes s).take 8 = str_bytes "_encstr_" ∧
      (str_bytes s).length % 2 = 0 ∧
      ∃ p, p ∈ byte_pairs ((str_bytes s).drop 8) ∧ strto 16 p = none) ∧
    (∀ a b : Nat,
      (strto 16 [a, b] = none ↔
        ¬ ((digit_value 16 a).isSome = true ∨
          ((isspace a = true ∨ a = 43 ∨ a = 45) ∧ (digit_value 16 b).isSome = true))) ∧
      (strto 16 [a, b] ≠ none → ∃ v, stoul_base 16 [a, b] = .ok v ∧ pair_byte [a, b] = v % 256) ∧
      ((digit_value 16 a).isSome = true ↔
        (48 ≤ a ∧ a ≤ 57) ∨ (97 ≤ a ∧ a ≤ 102) ∨ (65 ≤ a ∧ a ≤ 70)) ∧
      (isspace a = true ↔ a = 32 ∨ (9 ≤ a ∧ a ≤ 13))) := by
  have hdec : ∀ r, (str_bytes s).take 8 = str_bytes "_encstr_" →
      (str_bytes s).length % 2 = 0 → encrypt_string s = .ok r →
      r.length = ((str_bytes s).length - 8) / 2 ∧ 8 ≤ (str_bytes s).length := by
    intro r h1 h2 h
    unfold encrypt_string at h
    simp only [] at h
    rw [if_pos ⟨h1, h2⟩] at h
    have hl := decode_pairs_length _ _ _ (Nat.le_refl _) h
    rw [List.length_drop] at hl
    refine ⟨hl, ?_⟩
    have := congrArg List.length h1
    rw [List.length_take] at this
    have e8 : (str_bytes "_encstr_").length = 8 := rfl
    omega
  have hbranch : (str_bytes s).take 8 = str_bytes "_encstr_" →
      (str_bytes s).length % 2 = 0 →
      encrypt_string s = decode_pairs ((str_bytes s).drop 8) := by
    intro h1 h2
    unfold encrypt_string
    simp only []
    rw [if_pos ⟨h1, h2⟩]
  have hpairs : (∀ p, p ∈ byte_pairs ((str_bytes s).drop 8) → strto 16 p ≠ none) ∨
      ∃ p, p ∈ byte_pairs ((str_bytes s).drop 8) ∧ strto 16 p = none := by
    by_cases hx : ∃ p, p ∈ byte_pairs ((str_bytes s).drop 8) ∧ strto 16 p = none
    · exact Or.inr hx
    · exact Or.inl fun p hp hn => hx ⟨p, hp, hn⟩
  refine ⟨?_, ?_, fun r h1 h2 h => (hdec r h1 h2 h).1, ?_, ?_, ?_⟩
  rotate_left 2
  · intro h1 h2
    refine ⟨?_, byte_pairs_mem _ _ (Nat.le_refl _), ?_, ?_⟩
    · rw [byte_pairs_length _ _ (Nat.le_refl _), List.length_drop]
    · intro hall
      rw [hbranch h1 h2]
      exact decode_pairs_ok _ _ (Nat.le_refl _) hall
    · intro hbad
      rw [hbranch h1 h2]
      exact decode_pairs_error _ _ (Nat.le_refl _) hbad
  · intro e he
    by_cases hc : (str_bytes s).take 8 = str_bytes "_encstr_" ∧ (str_bytes s).length % 2 = 0
    · rw [hbranch hc.1 hc.2] at he
      rcases hpairs with hall | hbad
      · rw [decode_pairs_ok _ _ (Nat.le_refl _) hall] at he
        cases he
      · rw [decode_pairs_error _ _ (Nat.le_refl _) hbad] at he
        cases he
        exact ⟨rfl, hc.1, hc.2, hbad⟩
    · unfold encrypt_string at he
      simp only [] at he
      rw [if_neg hc] at he
      cases he
  · intro a b
    refine ⟨(stoul_pair a b).2.2, ?_, hex_digit_iff a, isspace_iff a⟩
    intro hn
    obtain ⟨v, hv⟩ := (stoul_pair a b).2.1 hn
    refine ⟨v, hv, ?_⟩
    unfold pair_byte
    rw [hv]
  · intro hc
    unfold encrypt_string
    simp only []
    rw [if_neg hc]
  · intro r h
    by_cases hc : (str_bytes s).take 8 = str_bytes "_encstr_" ∧ (str_bytes s).length % 2 = 0
    · obtain ⟨hl, h8⟩ := hdec r hc.1 hc.2 h
      constructor
      · intro e
        rw [e] at hl
        omega
      · rintro (h1 | h1)
        · exact absurd hc.1 h1
        · omega
    · have hr : r = str_bytes s := by
        unfold encrypt_string at h
        simp only [] at h
        rw [if_neg hc] at h
        cases h
        rfl
      constructor
      · intro _
        by_cases h1 : (str_bytes s).take 8 = str_bytes "_encstr_"
        · right
          have : ¬ (str_bytes s).length % 2 = 0 := fun h2 => hc ⟨h1, h2⟩
          omega
        · exact Or.inl h1
      · intro _
        exact hr

/-- The string `hello` is returned unchanged, and `_encstr_68656c6c6f`,
of even length, is decoded to its five bytes. The pairs `-1`, `+f` and a blank
followed by `1` are read as 255, 15 and 1, while `zz` makes the call throw. -/
theorem encrypt_string_pass_through_witness :
    encrypt_string "hello" = .ok (str_bytes "hello") ∧
    (encrypt_string "_encstr_6" = .ok (str_bytes "_encstr_6")) ∧
    ([104, 101, 108, 108, 111] ≠ str_bytes "_encstr_68656c6c6f") ∧
    ([104, 101, 108, 108, 111] : List Nat).length =
      ((str_bytes "_encstr_68656c6c6f").length - 8) / 2 ∧
    encrypt_string "_encstr_-1+f 1" = .ok [255, 15, 1] ∧
    encrypt_string "_encstr_61zz" = .error asm_error.invalid_argument := by
  have h1 := (encrypt_string_pass_through "hello").1 (by decide)
  have h2 := (encrypt_string_pass_through "_encstr_6").1 (by decide)
  have h3 := (encrypt_string_pass_through "_encstr_68656c6c6f").2.1
    [104, 101, 108, 108, 111] (by rfl)
  have h4 := (encrypt_string_pass_through "_encstr_68656c6c6f").2.2.1
    [104, 101, 108, 108, 111] (by rfl) (by rfl) (by rfl)
  have h5 := ((encrypt_string_pass_through "_encstr_-1+f 1").2.2.2.1 (by rfl) (by rfl)).2.2.1
    (by
      intro p hp
      have hp' : p ∈ [[45, 49], [43, 102], [32, 49]] := hp
      simp only [List.mem_cons, List.mem_singleton, List.not_mem_nil, or_false] at hp'
      rcases hp' with rfl | rfl | rfl <;> decide)
  have h6 := ((encrypt_string_pass_through "_encstr_61zz").2.2.2.1 (by rfl) (by rfl)).2.2.2
    ⟨[122, 122], by
      have : ([122, 122] : List Nat) ∈ [[54, 49], [122, 122]] := by simp
      exact this, by decide⟩
  refine ⟨h1, h2, ?_, h4, h5, h6⟩
  intro e
  have := h3.1 e
  revert this
  decide

end gsc

end xsk

namespace xsk

namespace gsc

/-! ## Far calls -/

/-- A dev-map write that fits succeeds. -/
theorem gsc_write_devmap_fits (self : assembler) (width v : Nat)
    (h : self.devmap.pos + width ≤ self.devmap.size) :
    ∃ self', self.write_devmap width v = .ok self' ∧
      self'.devmap.pos = self.devmap.pos + width ∧ self'.devmap.size = self.devmap.size := by
  obtain ⟨w, hw⟩ := utils.write_of_fits self.devmap width v h
  obtain ⟨-, h2, -, h4, -, -, -⟩ := utils.write_ok _ _ _ _ hw
  exact ⟨{ self with devmap := w }, by simp [assembler.write_devmap, hw], h2, h4⟩

/-- The dev-map entry is written when the build has none or eight bytes are
left in the dev-map buffer. -/
theorem gsc_devmap_entry_fits (ctx : context) (self : assembler) (inst : instruction)
    (h : ctx.build.has_dev_maps = true → self.devmap.pos + 8 ≤ self.devmap.size) :
    ∃ self', write_devmap_entry ctx self inst = .ok self' := by
  unfold write_devmap_entry
  split
  · rename_i hb
    have hfit := h hb
    obtain ⟨s1, h1, p1, z1⟩ := gsc_write_devmap_fits self 4 self.script.pos (by omega)
    obtain ⟨s2, h2, p2, z2⟩ := gsc_write_devmap_fits s1 2 inst.pos.line (by omega)
    obtain ⟨s3, h3, p3, z3⟩ := gsc_write_devmap_fits s2 2 inst.pos.column (by omega)
    refine ⟨{ s3 with devmap_count := s3.devmap_count + 1 }, ?_⟩
    simp only [bind_eq_ok, pure, Except.pure, Except.ok.injEq]
    exact ⟨s1, h1, s2, h2, s3, h3, rfl⟩
  · exact ⟨_, rfl⟩

/-- The opcode byte and the dev-map entry of an instruction are written when
they fit; what is left is the emission of the operands. -/
theorem gsc_instruction_returns (ctx : context) (funcs : List function) (labels : label_map)
    (self : assembler) (inst : instruction) (id : Nat)
    (hid : ctx.opcode_id inst.opcode = some id)
    (hs : self.script.pos + 1 ≤ self.script.size)
    (hd : ctx.build.has_dev_maps = true → self.devmap.pos + 8 ≤ self.devmap.size) :
    ∃ s2, s2.script.pos = self.script.pos + 1 ∧ s2.script.size = self.script.size ∧
      s2.stack = self.stack ∧
      assemble_instruction ctx funcs labels self inst =
        assemble_operands ctx funcs labels s2 inst := by
  obtain ⟨s1, h1⟩ := gsc_write_returns self 1 id hs
  obtain ⟨-, p, -, sz, st⟩ := gsc_write_bytes _ _ _ _ h1
  have f1 := op_frame_write _ _ _ _ h1
  obtain ⟨s2, h2⟩ := gsc_devmap_entry_fits ctx s1 inst (by rw [f1.devmap]; exact hd)
  obtain ⟨e1, e2⟩ := gsc_devmap_entry_keeps _ _ _ _ h2
  refine ⟨s2, by rw [e1, p], by rw [e1, sz], by rw [e2, st], ?_⟩
  unfold assemble_instruction
  simp only [hid, h1, h2, bind, Except.bind]

/-- What `assemble_call_far2` writes: a four-byte slot and perhaps the
argument count in the script, two 64-bit values in the stack. With an empty path
the slot holds the distance to the function named and the stack two zeros;
otherwise the slot is zero and the stack holds the hash of the path, extended
unless it starts with `_id_`, and the hash of the name. -/
theorem assemble_call_far2_spec (ctx : context) (funcs : List function)
    (self self' : assembler) (inst : instruction) (thread : Bool)
    (h : assemble_call_far2 ctx funcs self inst thread = .ok self') :
    ∃ p name slot a b targs, inst.data[0]? = some p ∧ inst.data[1]? = some name ∧
      self'.script.bytes =
        self.script.bytes ++ utils.writer.int_bytes self.script.swap 4 slot ++ targs ∧
      self'.stack.bytes =
        self.stack.bytes ++ utils.writer.int_bytes self.stack.swap 8 a ++
          utils.writer.int_bytes self.stack.swap 8 b ∧
      (thread = false → targs = []) ∧
      (thread = true → ∃ d v, inst.data[2]? = some d ∧ stoi d = .ok v ∧ targs = [to_u8 v]) ∧
      (p = "" → a = 0 ∧ b = 0 ∧ ∃ addr, resolve_function funcs name = .ok addr ∧
        slot = usize_sub (usize_sub addr inst.index) 1) ∧
      (p ≠ "" → slot = 0 ∧ a = ctx.path_id (far_call_path ctx p) ∧ b = ctx.hash_id name) := by
  simp only [assemble_call_far2, bind_eq_ok] at h
  obtain ⟨p, hp, h⟩ := h
  rw [operand_eq_ok] at hp
  split at h
  · rename_i he
    simp only [bind_eq_ok] at h
    obtain ⟨name, hname, addr, haddr, s1, hs1, s2, hs2, s3, h3, h⟩ := h
    obtain ⟨est, targs, eb, t1, t2⟩ := write_thread_args_bytes _ _ _ _ _ h
    rw [operand_eq_ok] at hname
    obtain ⟨b1, -, w1, -, k1⟩ := gsc_write_bytes _ _ _ _ hs1
    obtain ⟨b2, -, w2, -, k2⟩ := gsc_write_stack_bytes _ _ _ _ hs2
    obtain ⟨b3, -, w3, -, k3⟩ := gsc_write_stack_bytes _ _ _ _ h3
    refine ⟨p, name, _, 0, 0, targs, hp, hname, ?_, ?_, t1, t2,
      fun _ => ⟨rfl, rfl, addr, haddr, rfl⟩, fun hne => absurd he hne⟩
    · rw [eb, k3, k2, b1]
    · rw [est, b3, b2, w2, k1]
  · rename_i he
    simp only [bind_eq_ok] at h
    obtain ⟨s1, hs1, s2, hs2, name, hname, s3, h3, h⟩ := h
    obtain ⟨est, targs, eb, t1, t2⟩ := write_thread_args_bytes _ _ _ _ _ h
    rw [operand_eq_ok] at hname
    obtain ⟨b1, -, w1, -, k1⟩ := gsc_write_bytes _ _ _ _ hs1
    obtain ⟨b2, -, w2, -, k2⟩ := gsc_write_stack_bytes _ _ _ _ hs2
    obtain ⟨b3, -, w3, -, k3⟩ := gsc_write_stack_bytes _ _ _ _ h3
    refine ⟨p, name, 0, _, _, targs, hp, hname, ?_, ?_, t1, t2,
      fun hpe => absurd hpe he, fun _ => ⟨rfl, rfl, rfl⟩⟩
    · rw [eb, k3, k2, b1]
    · rw [est, b3, b2, w2, k1]
      rfl

/-- A far call of a context with `farcall` is emitted when its operands are
there and the buffers have room: four or five bytes of script, sixteen of stack. -/
theorem assemble_call_far2_returns (ctx : context) (funcs : List function)
    (self : assembler) (inst : instruction) (thread : Bool) (p name : String)
    (h0 : inst.data[0]? = some p) (h1 : inst.data[1]? = some name)
    (hres : p = "" → ∃ addr, resolve_function funcs name = .ok addr)
    (hs : self.script.pos + 4 + (if thread then 1 else 0) ≤ self.script.size)
    (hk : self.stack.pos + 16 ≤ self.stack.size)
    (ht : thread = true → ∃ d v, inst.data[2]? = some d ∧ stoi d = .ok v) :
    ∃ self', assemble_call_far2 ctx funcs self inst thread = .ok self' := by
  rw [← operand_eq_ok] at h0 h1
  have key : ∀ slot a b, ∃ s1 s2 s3, self.write 4 slot = .ok s1 ∧
      s1.write_stack 8 a = .ok s2 ∧ s2.write_stack 8 b = .ok s3 ∧
      s3.script.pos = self.script.pos + 4 ∧ s3.script.size = self.script.size := by
    intro slot a b
    obtain ⟨s1, hs1⟩ := gsc_write_returns self 4 slot (by omega)
    obtain ⟨-, p1, -, z1, k1⟩ := gsc_write_bytes _ _ _ _ hs1
    obtain ⟨s2, hs2⟩ := gsc_write_stack_of_fits s1 8 a (by rw [k1]; omega)
    obtain ⟨-, p2, -, z2, k2⟩ := gsc_write_stack_bytes _ _ _ _ hs2
    obtain ⟨s3, hs3⟩ := gsc_write_stack_of_fits s2 8 b (by rw [p2, z2, k1]; omega)
    obtain ⟨-, p3, -, z3, k3⟩ := gsc_write_stack_bytes _ _ _ _ hs3
    exact ⟨s1, s2, s3, hs1, hs2, hs3, by rw [k3, k2, p1], by rw [k3, k2, z1]⟩
  unfold assemble_call_far2
  simp only [h0, except_ok_bind]
  by_cases he : p = ""
  · obtain ⟨addr, haddr⟩ := hres he
    obtain ⟨s1, s2, s3, e1, e2, e3, p3, z3⟩ := key (usize_sub (usize_sub addr inst.index) 1) 0 0
    simp only [if_pos he, h1, haddr, e1, e2, e3, except_ok_bind]
    exact write_thread_args_returns _ _ _ _ (by rw [p3, z3]; omega) ht
  · obtain ⟨s1, s2, s3, e1, e2, e3, p3, z3⟩ := key 0
      (ctx.path_id (if (str_bytes p).take 4 = str_bytes "_id_" then p else p ++ extension_of ctx))
      (ctx.hash_id name)
    simp only [if_neg he, h1, e1, e2, e3, except_ok_bind]
    exact write_thread_args_returns _ _ _ _ (by rw [p3, z3]; omega) ht

/-- The far-call opcodes go to `assemble_call_far`. -/
theorem assemble_operands_far (ctx : context) (funcs : List function) (labels : label_map)
    (self : assembler) (inst : instruction) (thread : Bool)
    (hop : far_call_thread inst.opcode = some thread) :
    assemble_operands ctx funcs labels self inst = assemble_call_far ctx funcs self inst thread := by
  obtain ⟨op, ps, idx, sz, data⟩ := inst
  cases op <;> simp only [far_call_thread, Option.some.injEq, reduceCtorEq] at hop <;>
    subst hop <;> rfl

end gsc

end xsk

namespace xsk

namespace gsc

/-- C22: in a context with `farcall`, a far-call instruction whose path operand
`p` is not empty and does not start with `_id_` adds to the script its opcode
byte, four zero bytes and, for the thread variants, one argument-count byte, and
adds to the stack the 64-bit `path_id (p ++ ext)` then the 64-bit `hash_id name`,
where `ext` is `.gsc` on a server instance and `.csc` on a client instance. The
instruction is emitted whenever the opcode has an id, the buffers have room and
the argument count of a thread variant is a number. -/
theorem far_call_hashes (ctx : context) (funcs : List function) (labels : label_map)
    (self : assembler) (inst : instruction) (thread : Bool) (p name : String)
    (hop : far_call_thread inst.opcode = some thread)
    (hfar : ctx.props.farcall = true)
    (h0 : inst.data[0]? = some p) (h1 : inst.data[1]? = some name)
    (hp : p ≠ "") (hid : (str_bytes p).take 4 ≠ str_bytes "_id_") :
    (ctx.inst = instance_kind.server → extension_of ctx = ".gsc") ∧
    (ctx.inst = instance_kind.client → extension_of ctx = ".csc") ∧
    (∀ self', assemble_instruction ctx funcs labels self inst = .ok self' →
      ∃ id targs, ctx.opcode_id inst.opcode = some id ∧
        self'.script.bytes = self.script.bytes ++ [id % 256] ++ [0, 0, 0, 0] ++ targs ∧
        self'.stack.bytes = self.stack.bytes ++
          utils.writer.int_bytes self.stack.swap 8 (ctx.path_id (p ++ extension_of ctx)) ++
          utils.writer.int_bytes self.stack.swap 8 (ctx.hash_id name) ∧
        (thread = false → targs = []) ∧
        (thread = true → ∃ d v, inst.data[2]? = some d ∧ stoi d = .ok v ∧ targs = [to_u8 v])) ∧
    (∀ id, ctx.opcode_id inst.opcode = some id →
      self.script.pos + 5 + (if thread then 1 else 0) ≤ self.script.size →
      self.stack.pos + 16 ≤ self.stack.size →
      (ctx.build.has_dev_maps = true → self.devmap.pos + 8 ≤ self.devmap.size) →
      (thread = true → ∃ d v, inst.data[2]? = some d ∧ stoi d = .ok v) →
      ∃ self', assemble_instruction ctx funcs labels self inst = .ok self') := by
  refine ⟨fun hs => by simp [extension_of, hs], fun hs => by simp [extension_of, hs], ?_, ?_⟩
  · intro self' h
    obtain ⟨id, s2, hid2, b2, -, w2, -, k2, h⟩ := gsc_instruction_split _ _ _ _ _ _ h
    rw [assemble_operands_far _ _ _ _ _ _ hop] at h
    unfold assemble_call_far at h
    rw [if_pos hfar] at h
    obtain ⟨p', name', slot, a, b, targs, h0', h1', hb, hk, t1, t2, -, hne⟩ :=
      assemble_call_far2_spec _ _ _ _ _ _ h
    rw [h0] at h0'
    rw [h1] at h1'
    cases h0'
    cases h1'
    obtain ⟨rfl, rfl, rfl⟩ := hne hp
    refine ⟨id, targs, hid2, ?_, ?_, t1, t2⟩
    · rw [hb, b2]
      have : utils.writer.int_bytes s2.script.swap 4 0 = [0, 0, 0, 0] := by
        cases s2.script.swap <;> rfl
      rw [this]
    · rw [hk, k2]
      unfold far_call_path
      rw [if_neg hid]
  · intro id hid2 hs hk hd ht
    obtain ⟨s2, p2, z2, k2, e⟩ := gsc_instruction_returns ctx funcs labels self inst id hid2
      (by omega) hd
    rw [e, assemble_operands_far _ _ _ _ _ _ hop]
    unfold assemble_call_far
    rw [if_pos hfar]
    exact assemble_call_far2_returns _ _ _ _ _ p name h0 h1 (fun he => absurd he hp)
      (by rw [p2, z2]; omega) (by rw [k2]; exact hk) ht

/-- Scenario S4 on a little-endian server context with `farcall`:
`ScriptFarFunctionCall "maps/mp/utility" "init" "0" "0"` is emitted as its
opcode byte and four zero bytes of script, and the two hashes
`path_id "maps/mp/utility.gsc"` and `hash_id "init"` in the stack. -/
theorem far_call_hashes_witness :
    ∃ self', assemble_instruction sample_context_far [] []
        (assembler.create sample_context_far 64) scenario_S4 = .ok self' ∧
      self'.script.bytes = [7, 0, 0, 0, 0] ∧
      self'.stack.bytes =
        [0x88, 0x77, 0x66, 0x55, 0x44, 0x33, 0x22, 0x11,
         0x00, 0xFF, 0xEE, 0xDD, 0xCC, 0xBB, 0xAA, 0x99] := by
  have T := far_call_hashes sample_context_far [] [] (assembler.create sample_context_far 64)
    scenario_S4 false "maps/mp/utility" "init" rfl rfl rfl rfl (by decide) (by decide)
  obtain ⟨self', hs⟩ := T.2.2.2 7 rfl (by decide) (by decide) (by decide)
    (fun h => Bool.noConfusion h)
  obtain ⟨id, targs, hid, hb, hk, t1, -⟩ := T.2.2.1 self' hs
  have e1 : sample_context_far.opcode_id scenario_S4.opcode = some 7 := rfl
  rw [e1] at hid
  cases hid
  rw [t1 rfl] at hb
  exact ⟨self', hs, hb, hk⟩

end gsc

end xsk

namespace xsk

namespace gsc

/-- C23, as stated, fails for an empty path operand: in a context with
`farcall`, `ScriptFarFunctionCall "" "init"` at offset 1, with the function
`init` at offset 100, has the slot 98 (the distance `100 - 1 - 1`) written into
the script, not zero, and sixteen zero bytes written into the stack, although
the hash of the name `init` is `0x99AABBCCDDEEFF00` and the hash of every path
is not zero. -/
theorem far_call_encoding_counterexample :
    ∃ self', assemble_operands sample_context_far [sample_callee] []
        (assembler.create sample_context_far 64)
        { scenario_S4 with data := ["", "init", "0", "0"] } = .ok self' ∧
      self'.script.bytes = [98, 0, 0, 0] ∧
      self'.stack.bytes = [0, 0, 0, 0, 0, 0, 0, 0, 0, 0, 0, 0, 0, 0, 0, 0] ∧
      sample_context_far.hash_id "init" = 0x99AABBCCDDEEFF00 ∧
      sample_context_far.path_id "" = 1 ∧ sample_context_far.path_id ".gsc" = 1 := by
  have e : assemble_operands sample_context_far [sample_callee] []
      (assembler.create sample_context_far 64)
      { scenario_S4 with data := ["", "init", "0", "0"] } =
      assemble_call_far2 sample_context_far [sample_callee]
        (assembler.create sample_context_far 64)
        { scenario_S4 with data := ["", "init", "0", "0"] } false := rfl
  obtain ⟨self', hs⟩ := assemble_call_far2_returns sample_context_far [sample_callee]
    (assembler.create sample_context_far 64)
    { scenario_S4 with data := ["", "init", "0", "0"] } false "" "init" rfl rfl
    (fun _ => ⟨100, rfl⟩) (by decide) (by decide) (fun h => Bool.noConfusion h)
  obtain ⟨p, name, slot, a, b, targs, h0, h1, hb, hk, t1, -, he, -⟩ :=
    assemble_call_far2_spec _ _ _ _ _ _ hs
  cases h0
  cases h1
  obtain ⟨rfl, rfl, addr, haddr, rfl⟩ := he rfl
  cases haddr
  rw [t1 rfl] at hb
  exact ⟨self', e.trans hs, hb, hk, rfl, rfl, rfl⟩

/-- C23, amended: in a context with `farcall`, every far-call instruction adds
four bytes and, for the thread variants, one argument-count byte to the script
and two 64-bit values to the stack. When the path operand `p` is not empty the
four bytes are zero and the stack receives `path_id` of the path, to which the
extension of the instance has been appended unless it starts with `_id_`, then
`hash_id` of the function name. When the path operand is empty the four bytes
hold the `i32` distance `C - index - 1` to the function named, `C` being its
offset, and the stack receives two zeros. -/
theorem far_call_encoding (ctx : context) (funcs : List function) (labels : label_map)
    (self self' : assembler) (inst : instruction) (thread : Bool)
    (hop : far_call_thread inst.opcode = some thread)
    (hfar : ctx.props.farcall = true)
    (h : assemble_operands ctx funcs labels self inst = .ok self') :
    ∃ p name slot a b targs, inst.data[0]? = some p ∧ inst.data[1]? = some name ∧
      self'.script.bytes =
        self.script.bytes ++ utils.writer.int_bytes self.script.swap 4 slot ++ targs ∧
      self'.stack.bytes =
        self.stack.bytes ++ utils.writer.int_bytes self.stack.swap 8 a ++
          utils.writer.int_bytes self.stack.swap 8 b ∧
      (thread = false → targs = []) ∧
      (thread = true → ∃ d v, inst.data[2]? = some d ∧ stoi d = .ok v ∧ targs = [to_u8 v]) ∧
      (p ≠ "" → slot = 0 ∧ a = ctx.path_id (far_call_path ctx p) ∧ b = ctx.hash_id name) ∧
      (p ≠ "" → (str_bytes p).take 4 ≠ str_bytes "_id_" →
        far_call_path ctx p = p ++ extension_of ctx) ∧
      (p ≠ "" → (str_bytes p).take 4 = str_bytes "_id_" → far_call_path ctx p = p) ∧
      (p = "" → a = 0 ∧ b = 0 ∧ ∃ C, resolve_function funcs name = .ok C ∧
        slot = usize_sub (usize_sub C inst.index) 1 ∧
        as_i32 (slot % 4294967296) = call_disp C inst.index ∧
        (-2147483648 ≤ (C : Int) - inst.index - 1 → (C : Int) - inst.index - 1 < 2147483648 →
          call_disp C inst.index = (C : Int) - inst.index - 1)) := by
  rw [assemble_operands_far _ _ _ _ _ _ hop] at h
  unfold assemble_call_far at h
  rw [if_pos hfar] at h
  obtain ⟨p, name, slot, a, b, targs, h0, h1, hb, hk, t1, t2, he, hne⟩ :=
    assemble_call_far2_spec _ _ _ _ _ _ h
  refine ⟨p, name, slot, a, b, targs, h0, h1, hb, hk, t1, t2, hne, ?_, ?_, ?_⟩
  · intro _ hid
    unfold far_call_path
    rw [if_neg hid]
  · intro _ hid
    unfold far_call_path
    rw [if_pos hid]
  · intro hp
    obtain ⟨ha, hb2, C, hC, hslot⟩ := he hp
    refine ⟨ha, hb2, C, hC, hslot, ?_, ?_⟩
    · rw [hslot]
      rfl
    · intro l1 l2
      unfold call_disp
      rw [usize_sub_sub_mod32]
      have e : (C : Int) - ((inst.index : Int) + ((1 : Nat) : Int)) = (C : Int) - inst.index - 1 := by
        omega
      rw [e]
      exact as_i32_exact _ l1 l2

/-- Scenario S4 with the function `init` at offset 100: the path is not empty,
so the slot is zero and the stack holds the two hashes; with the path emptied
the slot holds 98 and the stack two zeros. -/
theorem far_call_encoding_witness :
    (∃ self', assemble_operands sample_context_far [sample_callee] []
        (assembler.create sample_context_far 64) scenario_S4 = .ok self' ∧
      self'.script.bytes = [0, 0, 0, 0] ∧
      self'.stack.bytes =
        [0x88, 0x77, 0x66, 0x55, 0x44, 0x33, 0x22, 0x11,
         0x00, 0xFF, 0xEE, 0xDD, 0xCC, 0xBB, 0xAA, 0x99]) ∧
    (∃ self', assemble_operands sample_context_far [sample_callee] []
        (assembler.create sample_context_far 64)
        { scenario_S4 with data := ["", "init", "1"] } = .ok self' ∧
      self'.script.bytes = [98, 0, 0, 0] ∧
      self'.stack.bytes = [0, 0, 0, 0, 0, 0, 0, 0, 0, 0, 0, 0, 0, 0, 0, 0]) := by
  constructor
  · have hok : (assemble_operands sample_context_far [sample_callee] []
        (assembler.create sample_context_far 64) scenario_S4).toBool = true := by rfl
    cases hrun : assemble_operands sample_context_far [sample_callee] []
        (assembler.create sample_context_far 64) scenario_S4 with
    | error e =>
      rw [hrun] at hok
      cases hok
    | ok self' =>
      obtain ⟨p, name, slot, a, b, targs, h0, h1, hb, hk, t1, -, hne, -, -, -⟩ :=
        far_call_encoding sample_context_far [sample_callee] [] _ self' scenario_S4 false
          rfl rfl hrun
      cases h0
      cases h1
      obtain ⟨rfl, rfl, rfl⟩ := hne (by decide)
      rw [t1 rfl] at hb
      exact ⟨self', rfl, hb, hk⟩
  · have hok : (assemble_operands sample_context_far [sample_callee] []
        (assembler.create sample_context_far 64)
        { scenario_S4 with data := ["", "init", "1"] }).toBool = true := by rfl
    cases hrun : assemble_operands sample_context_far [sample_callee] []
        (assembler.create sample_context_far 64)
        { scenario_S4 with data := ["", "init", "1"] } with
    | error e =>
      rw [hrun] at hok
      cases hok
    | ok self' =>
      obtain ⟨p, name, slot, a, b, targs, h0, h1, hb, hk, t1, -, -, -, -, he⟩ :=
        far_call_encoding sample_context_far [sample_callee] [] _ self'
          { scenario_S4 with data := ["", "init", "1"] } false rfl rfl hrun
      cases h0
      cases h1
      obtain ⟨rfl, rfl, C, hC, rfl, -, -⟩ := he rfl
      cases hC
      rw [t1 rfl] at hb
      exact ⟨self', rfl, hb, hk⟩

end gsc

end xsk

namespace xsk

namespace gsc

/-! ## Jumps -/

/-- The jump opcodes go to `assemble_jump`. -/
theorem assemble_operands_jump (ctx : context) (funcs : List function) (labels : label_map)
    (self : assembler) (inst : instruction) (expr back : Bool)
    (hop : jump_form inst.opcode = some (expr, back)) :
    assemble_operands ctx funcs labels self inst = assemble_jump labels self inst expr back := by
  obtain ⟨op, ps, idx, sz, data⟩ := inst
  cases op <;> simp only [jump_form, Option.some.injEq, Prod.mk.injEq, reduceCtorEq] at hop <;>
    obtain ⟨rfl, rfl⟩ := hop <;> rfl

/-- What `assemble_jump` writes at the cursor: the 16-bit pattern of
`addr - (index + 3)` for the conditional jumps, of `(index + 3) - addr` for
`jumpback`, and the 32-bit pattern of `addr - (index + 5)` for `jump`. -/
theorem gsc_jump_spec (labels : label_map) (self self' : assembler) (inst : instruction)
    (expr back : Bool) (h : assemble_jump labels self inst expr back = .ok self') :
    ∃ l addr, inst.data[0]? = some l ∧ resolve_label labels l = .ok addr ∧
      (expr = true → self'.script.pos = self.script.pos + 2 ∧
        self'.script.read self.script.pos 2 = to_u16 ((addr : Int) - (inst.index + 3))) ∧
      (expr = false → back = true → self'.script.pos = self.script.pos + 2 ∧
        self'.script.read self.script.pos 2 = to_u16 ((inst.index + 3 : Int) - addr)) ∧
      (expr = false → back = false → self'.script.pos = self.script.pos + 4 ∧
        self'.script.read self.script.pos 4 = to_u32 ((addr : Int) - (inst.index + 5))) := by
  simp only [assemble_jump, bind_eq_ok] at h
  obtain ⟨l, hl, addr, haddr, h⟩ := h
  rw [operand_eq_ok] at hl
  refine ⟨l, addr, hl, haddr, ?_, ?_, ?_⟩
  · intro he
    rw [if_pos he] at h
    obtain ⟨hw, -⟩ := gsc_write_ok _ _ _ _ h
    refine ⟨(gsc_write_spec _ _ _ _ h).1, ?_⟩
    rw [utils.read_write_2 _ _ _ hw]
    unfold usize_sub to_u16
    omega
  · intro he hb
    rw [if_neg (by rw [he]; decide), if_pos hb] at h
    obtain ⟨hw, -⟩ := gsc_write_ok _ _ _ _ h
    refine ⟨(gsc_write_spec _ _ _ _ h).1, ?_⟩
    rw [utils.read_write_2 _ _ _ hw]
    unfold usize_sub to_u16
    omega
  · intro he hb
    rw [if_neg (by rw [he]; decide), if_neg (by rw [hb]; decide)] at h
    obtain ⟨hw, -⟩ := gsc_write_ok _ _ _ _ h
    refine ⟨(gsc_write_spec _ _ _ _ h).1, ?_⟩
    rw [utils.read_write_4 _ _ _ hw]
    unfold usize_sub to_u32
    omega

/-- A jump is emitted when its label resolves and the script has room. -/
theorem gsc_jump_returns (labels : label_map) (self : assembler) (inst : instruction)
    (expr back : Bool) (l : String) (addr : Nat)
    (h0 : inst.data[0]? = some l) (hl : resolve_label labels l = .ok addr)
    (hs : self.script.pos + (if expr = false ∧ back = false then 4 else 2) ≤ self.script.size) :
    ∃ self', assemble_jump labels self inst expr back = .ok self' := by
  rw [← operand_eq_ok] at h0
  unfold assemble_jump
  simp only [h0, hl, except_ok_bind]
  cases expr <;> cases back <;> simp only [Bool.false_eq_true, if_false, if_true] <;>
    exact gsc_write_returns _ _ _ (by simpa using hs)

end gsc

end xsk

namespace xsk

namespace gsc

/-- C24, as stated, fails for `jumpback`: a `jumpback` at offset 10 of size 3
whose label resolves to offset 4 has the displacement 9 written, the backward
distance `(10 + 3) - 4`, whereas `O_L - (J.index + J.size)` is `-9`. -/
theorem jump_displacement_counterexample :
    ∃ self', assemble_operands sample_context [] [(4, "loop")]
        (assembler.create sample_context 64) sample_jumpback = .ok self' ∧
      resolve_label [(4, "loop")] "loop" = .ok 4 ∧
      as_i16 (self'.script.read 0 2) = 9 ∧
      (4 : Int) - (sample_jumpback.index + sample_jumpback.size) = -9 := by
  have e : assemble_operands sample_context [] [(4, "loop")]
      (assembler.create sample_context 64) sample_jumpback =
      assemble_jump [(4, "loop")] (assembler.create sample_context 64) sample_jumpback
        false true := rfl
  obtain ⟨self', hs⟩ := gsc_jump_returns [(4, "loop")]
    (assembler.create sample_context 64) sample_jumpback false true "loop" 4 rfl rfl
    (by decide)
  obtain ⟨l, addr, h0, hl, -, hb, -⟩ := gsc_jump_spec _ _ _ _ _ _ hs
  cases h0
  cases hl
  obtain ⟨-, hr⟩ := hb rfl rfl
  refine ⟨self', e.trans hs, rfl, ?_, by decide⟩
  have e0 : (assembler.create sample_context 64).script.pos = 0 := rfl
  rw [e0] at hr
  rw [hr]
  decide

/-- C24, amended: for a GSC jump instruction at offset `index` whose label
resolves to `O_L`, `assemble_jump` writes at the cursor, as a signed 16-bit
value, `O_L - (index + 3)` for the conditional jumps (`JumpOnFalse`,
`JumpOnTrue`, `JumpOnFalseExpr`, `JumpOnTrueExpr`) and the backward distance
`(index + 3) - O_L` for `jumpback`, and as a signed 32-bit value
`O_L - (index + 5)` for `jump`; each value is written modulo the width and is
exact when it is in the range of the type. The jump is emitted when the script
has room for it. -/
theorem jump_displacement (ctx : context) (funcs : List function) (labels : label_map)
    (self : assembler) (inst : instruction) (expr back : Bool) (l : String) (O_L : Nat)
    (hop : jump_form inst.opcode = some (expr, back))
    (h0 : inst.data[0]? = some l) (hl : resolve_label labels l = .ok O_L) :
    (∀ self', assemble_operands ctx funcs labels self inst = .ok self' →
      (expr = true → self'.script.pos = self.script.pos + 2 ∧
        self'.script.read self.script.pos 2 = to_u16 ((O_L : Int) - (inst.index + 3)) ∧
        (-32768 ≤ (O_L : Int) - (inst.index + 3) → (O_L : Int) - (inst.index + 3) < 32768 →
          as_i16 (self'.script.read self.script.pos 2) = (O_L : Int) - (inst.index + 3))) ∧
      (expr = false → back = true → self'.script.pos = self.script.pos + 2 ∧
        self'.script.read self.script.pos 2 = to_u16 ((inst.index + 3 : Int) - O_L) ∧
        (-32768 ≤ (inst.index + 3 : Int) - O_L → (inst.index + 3 : Int) - O_L < 32768 →
          as_i16 (self'.script.read self.script.pos 2) = (inst.index + 3 : Int) - O_L)) ∧
      (expr = false → back = false → self'.script.pos = self.script.pos + 4 ∧
        self'.script.read self.script.pos 4 = to_u32 ((O_L : Int) - (inst.index + 5)) ∧
        (-2147483648 ≤ (O_L : Int) - (inst.index + 5) →
          (O_L : Int) - (inst.index + 5) < 2147483648 →
          as_i32 (self'.script.read self.script.pos 4) = (O_L : Int) - (inst.index + 5)))) ∧
    (self.script.pos + (if expr = false ∧ back = false then 4 else 2) ≤ self.script.size →
      ∃ self', assemble_operands ctx funcs labels self inst = .ok self') := by
  rw [assemble_operands_jump _ _ _ _ _ _ _ hop]
  refine ⟨?_, fun hs => gsc_jump_returns _ _ _ _ _ l O_L h0 hl hs⟩
  intro self' h
  obtain ⟨l', addr, h0', hl', h1, h2, h3⟩ := gsc_jump_spec _ _ _ _ _ _ h
  rw [h0] at h0'
  cases h0'
  rw [hl] at hl'
  cases hl'
  refine ⟨fun he => ?_, fun he hb => ?_, fun he hb => ?_⟩
  · obtain ⟨p, r⟩ := h1 he
    refine ⟨p, r, fun l1 l2 => ?_⟩
    rw [r]
    exact as_i16_exact _ l1 l2
  · obtain ⟨p, r⟩ := h2 he hb
    refine ⟨p, r, fun l1 l2 => ?_⟩
    rw [r]
    exact as_i16_exact _ l1 l2
  · obtain ⟨p, r⟩ := h3 he hb
    refine ⟨p, r, fun l1 l2 => ?_⟩
    rw [r]
    exact as_i32_exact _ l1 l2

/-- A `jumpback` at offset 10 to offset 4 is written as 9, and a `jump` at
offset 10 to offset 40 as 25. -/
theorem jump_displacement_witness :
    (∃ self', assemble_operands sample_context [] [(4, "loop")]
        (assembler.create sample_context 64) sample_jumpback = .ok self' ∧
      as_i16 (self'.script.read 0 2) = 9) ∧
    (∃ self', assemble_operands sample_context [] [(40, "out")]
        (assembler.create sample_context 64) sample_jump = .ok self' ∧
      as_i32 (self'.script.read 0 4) = 25) := by
  have T1 := jump_displacement sample_context [] [(4, "loop")]
    (assembler.create sample_context 64) sample_jumpback false true "loop" 4 rfl rfl rfl
  have T2 := jump_displacement sample_context [] [(40, "out")]
    (assembler.create sample_context 64) sample_jump false false "out" 40 rfl rfl rfl
  obtain ⟨s1, h1⟩ := T1.2 (by decide)
  obtain ⟨s2, h2⟩ := T2.2 (by decide)
  exact ⟨⟨s1, h1, ((T1.1 s1 h1).2.1 rfl rfl).2.2 (by decide) (by decide)⟩,
    ⟨s2, h2, ((T2.1 s2 h2).2.2 rfl rfl).2.2 (by decide) (by decide)⟩⟩

end gsc

end xsk

namespace xsk

namespace gsc

/-! ## Local calls -/

/-- The local-call opcodes go to `assemble_call_local`. -/
theorem assemble_operands_local (ctx : context) (funcs : List function) (labels : label_map)
    (self : assembler) (inst : instruction) (thread : Bool)
    (hop : local_call_thread inst.opcode = some thread) :
    assemble_operands ctx funcs labels self inst =
      assemble_call_local ctx funcs self inst thread := by
  obtain ⟨op, ps, idx, sz, data⟩ := inst
  cases op <;> simp only [local_call_thread, Option.some.injEq, reduceCtorEq] at hop <;>
    subst hop <;> rfl

/-- The shift of `assemble_offset` is 8, 9 or 10. -/
theorem offset_shift_cases (ctx : context) :
    offset_shift ctx = 8 ∨ offset_shift ctx = 9 ∨ offset_shift ctx = 10 := by
  unfold offset_shift
  split
  · exact Or.inl rfl
  · split
    · exact Or.inr (Or.inl rfl)
    · exact Or.inr (Or.inr rfl)

/-- The packed offset is in the range of a signed 24-bit integer. -/
theorem packed_offset_range (ctx : context) (offs : Int) :
    -8388608 ≤ packed_offset ctx offs ∧ packed_offset ctx offs < 8388608 := by
  unfold packed_offset as_i32 to_u32
  split <;> omega

/-- Where the shift does not overflow 32 bits, the packed offset is the offset
shifted left by 0, 1 or 2 bits. -/
theorem packed_offset_exact (ctx : context) (offs : Int)
    (h1 : -2147483648 ≤ offs * 2 ^ offset_shift ctx)
    (h2 : offs * 2 ^ offset_shift ctx < 2147483648) :
    packed_offset ctx offs = offs * 2 ^ (offset_shift ctx - 8) := by
  unfold packed_offset to_u32
  rw [as_i32_exact _ h1 h2]
  rcases offset_shift_cases ctx with e | e | e <;> rw [e] <;> norm_num <;> omega

/-- What `assemble_offset` writes: the three low bytes of the packed offset. -/
theorem assemble_offset_bytes (ctx : context) (self self' : assembler) (offs : Int)
    (h : assemble_offset ctx self offs = .ok self') :
    self'.script.bytes = self.script.bytes ++
      utils.writer.int_bytes self.script.swap 3 (packed_offset ctx offs % 16777216).toNat ∧
    self'.script.pos = self.script.pos + 3 ∧ self'.script.swap = self.script.swap ∧
    self'.script.size = self.script.size ∧ self'.stack = self.stack := by
  unfold assemble_offset assembler.write_i24 at h
  exact gsc_write_bytes _ _ _ _ h

theorem assemble_offset_returns (ctx : context) (self : assembler) (offs : Int)
    (h : self.script.pos + 3 ≤ self.script.size) :
    ∃ self', assemble_offset ctx self offs = .ok self' := by
  unfold assemble_offset assembler.write_i24
  exact gsc_write_returns _ _ _ h

end gsc

end xsk

namespace xsk

namespace gsc

/-- C26: a local call instruction at offset `index` whose callee name resolves
to a function at offset `C` adds to the script the three low bytes of
`((C - index - 1) << s) >> 8`, computed in 32-bit signed arithmetic with `s = 8`
when `offs8` is set, otherwise `s = 9` when `offs9` is set, otherwise `s = 10`;
the value is a signed 24-bit integer, and it is `(C - index - 1) * 2 ^ (s - 8)`
where the shift does not overflow. The thread variants then add one
argument-count byte. The stack is left alone, and the call is emitted when the
script has room and the argument count of a thread variant is a number. -/
theorem local_call_packed (ctx : context) (funcs : List function) (labels : label_map)
    (self : assembler) (inst : instruction) (thread : Bool) (name : String) (C : Nat)
    (hop : local_call_thread inst.opcode = some thread)
    (h0 : inst.data[0]? = some name) (hC : resolve_function funcs name = .ok C) :
    (∀ self', assemble_operands ctx funcs labels self inst = .ok self' →
      ∃ targs, self'.script.bytes = self.script.bytes ++
          utils.writer.int_bytes self.script.swap 3
            (packed_offset ctx (call_disp C inst.index) % 16777216).toNat ++ targs ∧
        self'.stack = self.stack ∧
        (thread = false → targs = []) ∧
        (thread = true → ∃ d v, inst.data[1]? = some d ∧ stoi d = .ok v ∧ targs = [to_u8 v])) ∧
    (offset_shift ctx = if ctx.props.offs8 then 8 else if ctx.props.offs9 then 9 else 10) ∧
    packed_offset ctx (call_disp C inst.index) =
      as_i32 (to_u32 (call_disp C inst.index * 2 ^ offset_shift ctx)) / 256 ∧
    (-8388608 ≤ packed_offset ctx (call_disp C inst.index) ∧
      packed_offset ctx (call_disp C inst.index) < 8388608) ∧
    (-2147483648 ≤ (C : Int) - inst.index - 1 → (C : Int) - inst.index - 1 < 2147483648 →
      call_disp C inst.index = (C : Int) - inst.index - 1) ∧
    (-2147483648 ≤ call_disp C inst.index * 2 ^ offset_shift ctx →
      call_disp C inst.index * 2 ^ offset_shift ctx < 2147483648 →
      packed_offset ctx (call_disp C inst.index) =
        call_disp C inst.index * 2 ^ (offset_shift ctx - 8)) ∧
    (self.script.pos + 3 + (if thread then 1 else 0) ≤ self.script.size →
      (thread = true → ∃ d v, inst.data[1]? = some d ∧ stoi d = .ok v) →
      ∃ self', assemble_operands ctx funcs labels self inst = .ok self') := by
  rw [assemble_operands_local _ _ _ _ _ _ hop]
  refine ⟨?_, rfl, rfl, packed_offset_range _ _, ?_, packed_offset_exact _ _, ?_⟩
  · intro self' h
    simp only [assemble_call_local, bind_eq_ok] at h
    obtain ⟨name', h0', C', hC', s1, h1, h⟩ := h
    rw [operand_eq_ok, h0] at h0'
    cases h0'
    rw [hC] at hC'
    cases hC'
    obtain ⟨b1, -, -, -, k1⟩ := assemble_offset_bytes _ _ _ _ h1
    obtain ⟨est, targs, eb, t1, t2⟩ := write_thread_args_bytes _ _ _ _ _ h
    exact ⟨targs, by rw [eb, b1], by rw [est, k1], t1, t2⟩
  · intro l1 l2
    unfold call_disp
    rw [usize_sub_sub_mod32]
    have e : (C : Int) - ((inst.index : Int) + ((1 : Nat) : Int)) = (C : Int) - inst.index - 1 := by
      omega
    rw [e]
    exact as_i32_exact _ l1 l2
  · intro hs ht
    rw [← operand_eq_ok] at h0
    unfold assemble_call_local
    simp only [h0, hC, except_ok_bind]
    obtain ⟨s1, h1⟩ := assemble_offset_returns ctx self (call_disp C inst.index) (by omega)
    obtain ⟨-, p1, -, z1, -⟩ := assemble_offset_bytes _ _ _ _ h1
    simp only [h1, except_ok_bind]
    exact write_thread_args_returns _ _ _ _ (by rw [p1, z1]; omega) ht

/-- A `ScriptLocalThreadCall "init" "2"` at offset 1, with `init` at offset
100: the distance is 98, packed with the shift 10 as `392 = 0x188` and with
`offs8` as 98; the argument count 2 follows. -/
theorem local_call_packed_witness :
    (∃ self', assemble_operands sample_context [sample_callee] []
        (assembler.create sample_context 64) sample_local_call = .ok self' ∧
      self'.script.bytes = [0x88, 0x01, 0x00, 2]) ∧
    (∃ self', assemble_operands sample_context_offs8 [sample_callee] []
        (assembler.create sample_context_offs8 64) sample_local_call = .ok self' ∧
      self'.script.bytes = [98, 0, 0, 2]) := by
  have T1 := local_call_packed sample_context [sample_callee] []
    (assembler.create sample_context 64) sample_local_call true "init" 100 rfl rfl rfl
  have T2 := local_call_packed sample_context_offs8 [sample_callee] []
    (assembler.create sample_context_offs8 64) sample_local_call true "init" 100 rfl rfl rfl
  obtain ⟨s1, h1⟩ := T1.2.2.2.2.2.2 (by decide) (fun _ => ⟨"2", 2, rfl, rfl⟩)
  obtain ⟨s2, h2⟩ := T2.2.2.2.2.2.2 (by decide) (fun _ => ⟨"2", 2, rfl, rfl⟩)
  obtain ⟨t1, b1, -, -, a1⟩ := T1.1 s1 h1
  obtain ⟨t2, b2, -, -, a2⟩ := T2.1 s2 h2
  obtain ⟨d1, v1, e1, f1, rfl⟩ := a1 rfl
  obtain ⟨d2, v2, e2, f2, rfl⟩ := a2 rfl
  cases e1
  cases e2
  have g1 : (Except.ok 2 : Except asm_error Int) = .ok v1 := f1
  have g2 : (Except.ok 2 : Except asm_error Int) = .ok v2 := f2
  cases g1
  cases g2
  exact ⟨⟨s1, h1, b1⟩, ⟨s2, h2, b2⟩⟩

end gsc

end xsk

namespace xsk

namespace utils

/-- Writing forward keeps the bytes written so far as a prefix. -/
theorem bytes_of_advances {a b : writer} (h : a.advances b) :
    b.bytes = a.bytes ++ b.slice a.pos (b.pos - a.pos) := by
  apply List.ext_getElem?
  intro i
  unfold writer.bytes writer.slice
  have hle := h.le
  rcases Nat.lt_or_ge i a.pos with hi | hi
  · rw [List.getElem?_append_left (by simpa using hi)]
    rw [List.getElem?_map, List.getElem?_map, List.getElem?_range (by omega),
      List.getElem?_range hi]
    simp only [Option.map_some']
    rw [h.below i hi]
  · rw [List.getElem?_append_right (by simpa using hi)]
    simp only [List.length_map, List.length_range]
    rcases Nat.lt_or_ge i b.pos with hj | hj
    · rw [List.getElem?_map, List.getElem?_map, List.getElem?_range hj,
        List.getElem?_range (by omega)]
      simp only [Option.map_some']
      congr 2
      omega
    · rw [List.getElem?_eq_none (by simpa using hj),
        List.getElem?_eq_none (by simp only [List.length_map, List.length_range]; omega)]

end utils

namespace gsc

/-! ## The stack prefix of a function -/

/-- The emission of one instruction writes forward in the script and the stack. -/
theorem gsc_instruction_advance (ctx : context) (funcs : List function) (labels : label_map)
    (self self' : assembler) (inst : instruction)
    (h : assemble_instruction ctx funcs labels self inst = .ok self') :
    self.script.advances self'.script ∧ self.stack.advances self'.stack := by
  unfold assemble_instruction at h
  split at h
  · cases h
  · simp only [bind_eq_ok] at h
    obtain ⟨s1, h1, s2, h2, h⟩ := h
    have f1 := op_frame_write _ _ _ _ h1
    obtain ⟨e1, e2⟩ := gsc_devmap_entry_keeps _ _ _ _ h2
    have f3 := op_frame_assemble_operands _ _ _ _ _ _ h
    constructor
    · have := f3.script
      rw [e1] at this
      exact utils.advances_trans f1.script this
    · have := f3.stack
      rw [e2] at this
      exact utils.advances_trans f1.stack this

/-- The emission loop writes forward in the script and the stack. -/
theorem gsc_instructions_advance (ctx : context) (funcs : List function) (labels : label_map)
    (is : List instruction) (self self' : assembler)
    (h : assemble_instructions ctx funcs labels is self = .ok self') :
    self.script.advances self'.script ∧ self.stack.advances self'.stack := by
  induction is generalizing self with
  | nil =>
    simp only [assemble_instructions, Except.ok.injEq] at h
    subst h
    exact ⟨utils.advances_refl _, utils.advances_refl _⟩
  | cons i is ih =>
    simp only [assemble_instructions, bind_eq_ok] at h
    obtain ⟨s1, h1, h⟩ := h
    obtain ⟨a1, b1⟩ := gsc_instruction_advance _ _ _ _ _ _ h1
    obtain ⟨a2, b2⟩ := ih _ h
    exact ⟨utils.advances_trans a1 a2, utils.advances_trans b1 b2⟩

/-- The first step of `assemble_function`: the stack prefix is written to the
stack, the script is left alone, and the instructions follow. -/
theorem gsc_function_prefix_bytes (ctx : context) (funcs : List function)
    (self self' : assembler) (func : function)
    (h : assemble_function ctx funcs self func = .ok self') :
    ∃ s3 name, s3.script = self.script ∧
      s3.stack.bytes = self.stack.bytes ++ prefix_bytes ctx self.stack.swap func name ∧
      (ctx.props.hash = false → func.id = 0 → encrypt_string func.name = .ok name) ∧
      assemble_instructions ctx funcs func.labels func.instructions s3 = .ok self' := by
  unfold assemble_function at h
  rw [bind_eq_ok] at h
  obtain ⟨s1, h1, h⟩ := h
  obtain ⟨b1, -, w1, -, k1⟩ := gsc_write_stack_bytes _ _ _ _ h1
  dsimp only at h
  unfold prefix_bytes
  split at h
  · rename_i hh
    rw [bind_eq_ok] at h
    obtain ⟨y, hy, h⟩ := h
    obtain ⟨b2, -, w2, -, k2⟩ := gsc_write_stack_bytes _ _ _ _ hy
    refine ⟨y, [], by rw [k2, k1], ?_, fun hf => ?_, h⟩
    · rw [if_pos hh, b2, b1, w1, List.append_assoc]
    · rw [hh] at hf
      cases hf
  · rename_i hh
    rw [bind_eq_ok] at h
    obtain ⟨s2, h2, h⟩ := h
    obtain ⟨b2, -, w2, -, k2⟩ := gsc_write_stack_bytes _ _ _ _ h2
    split at h
    · rename_i hz
      simp only [bind_eq_ok] at h
      obtain ⟨s, hs, y, hy, h⟩ := h
      obtain ⟨b3, -, k3⟩ := gsc_write_stack_cstr_bytes _ _ _ hy
      refine ⟨y, s, by rw [k3, k2, k1], ?_, fun _ _ => hs, h⟩
      rw [if_neg hh, if_pos hz, b3, b2, b1, w1]
      simp only [List.append_assoc]
    · rename_i hz
      simp only [bind_eq_ok, pure, Except.pure, Except.ok.injEq] at h
      obtain ⟨y, rfl, h⟩ := h
      refine ⟨_, [], by rw [k2, k1], ?_, fun _ hf => absurd hf hz, h⟩
      rw [if_neg hh, if_neg hz, b2, b1, w1]
      simp only [List.append_assoc, List.append_nil]

/-- The stack prefix is written whenever the stack has room for it and the
name, where written, decodes. -/
theorem gsc_function_prefix_returns (ctx : context) (funcs : List function)
    (self : assembler) (func : function) (name : List Nat)
    (hn : ctx.props.hash = false → func.id = 0 → encrypt_string func.name = .ok name)
    (hk : self.stack.pos + (prefix_bytes ctx self.stack.swap func name).length ≤
      self.stack.size) :
    ∃ s3, s3.script = self.script ∧
      s3.stack.bytes = self.stack.bytes ++ prefix_bytes ctx self.stack.swap func name ∧
      assemble_function ctx funcs self func =
        assemble_instructions ctx funcs func.labels func.instructions s3 := by
  unfold prefix_bytes at hk ⊢
  simp only [List.length_append, utils.int_bytes_length] at hk
  obtain ⟨s1, h1⟩ := gsc_write_stack_of_fits self 4 func.size (by omega)
  obtain ⟨b1, p1, w1, z1, k1⟩ := gsc_write_stack_bytes _ _ _ _ h1
  unfold assemble_function
  simp only [h1, except_ok_bind]
  by_cases hh : ctx.props.hash = true
  · rw [if_pos hh] at hk
    rw [utils.int_bytes_length] at hk
    obtain ⟨s2, h2⟩ := gsc_write_stack_of_fits s1 8 (ctx.hash_id func.name)
      (by rw [p1, z1]; omega)
    obtain ⟨b2, p2, w2, z2, k2⟩ := gsc_write_stack_bytes _ _ _ _ h2
    refine ⟨s2, by rw [k2, k1], ?_, ?_⟩
    · rw [if_pos hh, b2, b1, w1, List.append_assoc]
    · simp only [if_pos hh, h2, except_ok_bind]
  · rw [if_neg hh] at hk
    simp only [List.length_append, utils.int_bytes_length] at hk
    obtain ⟨s2, h2⟩ := gsc_write_stack_of_fits s1 (if ctx.props.tok4 then 4 else 2) func.id
      (by rw [p1, z1]; omega)
    obtain ⟨b2, p2, w2, z2, k2⟩ := gsc_write_stack_bytes _ _ _ _ h2
    by_cases hz : func.id = 0
    · rw [if_pos hz] at hk
      have hname := hn (by simpa using hh) hz
      obtain ⟨w, hw, h3⟩ := write_stack_cstr_of_fits s2 name
        (by rw [p2, z2, p1, z1]; simp only [List.length_append, List.length_singleton] at hk; omega)
      obtain ⟨b3, -, k3⟩ := gsc_write_stack_cstr_bytes _ _ _ h3
      refine ⟨_, by rw [k3, k2, k1], ?_, ?_⟩
      · rw [if_neg hh, if_pos hz, b3, b2, b1, w1]
        simp only [List.append_assoc]
      · simp only [if_neg hh, if_pos hz, h2, hname, h3, except_ok_bind]
    · refine ⟨s2, by rw [k2, k1], ?_, ?_⟩
      · rw [if_neg hh, if_neg hz, b2, b1, w1]
        simp only [List.append_assoc, List.append_nil]
      · simp only [if_neg hh, if_neg hz, h2, except_ok_bind]
        rfl

end gsc

end xsk

namespace xsk

namespace gsc

/-- C30: `assemble_function` first appends the stack prefix of the function to
the stack, leaving the script alone, and only then emits the instructions, whose
output follows the prefix in the stack. The prefix is the `u32` `func.size`,
then either the `u64` `hash_id func.name` when `hash` is set, or else `func.id`
(`u32` when `tok4` is set, otherwise `u16`) followed, exactly when `func.id` is
0, by the decoded function name and a NUL. The prefix is written whenever the
stack has room for it and the name, where needed, decodes. -/
theorem function_stack_prefix (ctx : context) (funcs : List function) (self : assembler)
    (func : function) :
    (∀ self', assemble_function ctx funcs self func = .ok self' →
      ∃ s3 name rest, s3.script = self.script ∧
        s3.stack.bytes = self.stack.bytes ++ prefix_bytes ctx self.stack.swap func name ∧
        (ctx.props.hash = false → func.id = 0 → encrypt_string func.name = .ok name) ∧
        assemble_instructions ctx funcs func.labels func.instructions s3 = .ok self' ∧
        self'.stack.bytes =
          self.stack.bytes ++ prefix_bytes ctx self.stack.swap func name ++ rest) ∧
    (∀ name, (ctx.props.hash = false → func.id = 0 → encrypt_string func.name = .ok name) →
      self.stack.pos + (prefix_bytes ctx self.stack.swap func name).length ≤ self.stack.size →
      ∃ s3, s3.script = self.script ∧
        s3.stack.bytes = self.stack.bytes ++ prefix_bytes ctx self.stack.swap func name ∧
        assemble_function ctx funcs self func =
          assemble_instructions ctx funcs func.labels func.instructions s3) ∧
    (∀ swap name, ctx.props.hash = true →
      prefix_bytes ctx swap func name =
        utils.writer.int_bytes swap 4 func.size ++
          utils.writer.int_bytes swap 8 (ctx.hash_id func.name)) ∧
    (∀ swap name, ctx.props.hash = false → func.id ≠ 0 →
      prefix_bytes ctx swap func name =
        utils.writer.int_bytes swap 4 func.size ++
          utils.writer.int_bytes swap (if ctx.props.tok4 then 4 else 2) func.id) ∧
    (∀ swap name, ctx.props.hash = false → func.id = 0 →
      prefix_bytes ctx swap func name =
        utils.writer.int_bytes swap 4 func.size ++
          utils.writer.int_bytes swap (if ctx.props.tok4 then 4 else 2) 0 ++ name ++ [0]) := by
  refine ⟨?_, fun name hn hk => gsc_function_prefix_returns _ _ _ _ name hn hk, ?_, ?_, ?_⟩
  · intro self' h
    obtain ⟨s3, name, e1, e2, e3, e4⟩ := gsc_function_prefix_bytes _ _ _ _ _ h
    obtain ⟨-, adv⟩ := gsc_instructions_advance _ _ _ _ _ _ e4
    refine ⟨s3, name, self'.stack.slice s3.stack.pos (self'.stack.pos - s3.stack.pos),
      e1, e2, e3, e4, ?_⟩
    rw [utils.bytes_of_advances adv, e2]
  · intro swap name hh
    unfold prefix_bytes
    rw [if_pos hh]
  · intro swap name hh hz
    unfold prefix_bytes
    rw [if_neg (by rw [hh]; decide), if_neg hz, List.append_nil]
  · intro swap name hh hz
    unfold prefix_bytes
    rw [if_neg (by rw [hh]; decide), if_pos hz, hz, List.append_assoc, List.append_assoc]

/-- A function `init` with id 0 and no instructions, on a context without
`hash` and `tok4`: the stack receives the size 0 on four bytes, the id 0 on two
bytes and the name with its NUL; the script receives nothing. -/
theorem function_stack_prefix_witness :
    ∃ self', assemble_function sample_context [] (assembler.create sample_context 64)
        { sample_callee with id := 0 } = .ok self' ∧
      self'.stack.bytes = [0, 0, 0, 0, 0, 0, 105, 110, 105, 116, 0] ∧
      self'.script.bytes = [] := by
  have T := function_stack_prefix sample_context [] (assembler.create sample_context 64)
    { sample_callee with id := 0 }
  obtain ⟨s3, e1, e2, e3⟩ := T.2.1 [105, 110, 105, 116] (fun _ _ => rfl) (by decide)
  refine ⟨s3, e3, e2, ?_⟩
  rw [e1]
  rfl

end gsc

end xsk

namespace xsk

namespace gsc

/-! ## Displacements of a GSC switch table -/

/-- A displacement field, once written, is kept by later forward writes. -/
theorem switch_disp_written_mono (ctx : context) (labels : label_map) (data : List String)
    (a b : utils.writer) (j q : Nat) (adv : a.advances b)
    (hq : q + 4 + (if ctx.engine = engine.iw9 then 2 else 3) ≤ a.pos)
    (h : switch_disp_written ctx labels data a j q) :
    switch_disp_written ctx labels data b j q := by
  unfold switch_disp_written at h ⊢
  obtain ⟨l, addr, h1, h2, h3⟩ := h
  refine ⟨l, addr, h1, h2, ?_⟩
  split
  · rename_i hiw
    rw [if_pos hiw] at h3 hq
    rw [utils.read_of_advances adv _ _ hq]
    exact h3
  · rename_i hiw
    rw [if_neg hiw] at h3 hq
    rw [utils.slice_of_advances adv _ _ hq, adv.swap]
    exact h3

/-- What `assemble_offset` leaves at the cursor. -/
theorem assemble_offset_slice (ctx : context) (self self' : assembler) (offs : Int)
    (h : assemble_offset ctx self offs = .ok self') :
    self'.script.slice self.script.pos 3 =
      utils.writer.int_bytes self'.script.swap 3 (packed_offset ctx offs % 16777216).toNat := by
  unfold assemble_offset assembler.write_i24 at h
  obtain ⟨hw, -⟩ := gsc_write_ok _ _ _ _ h
  obtain ⟨-, -, h3, -⟩ := utils.write_ok _ _ _ _ hw
  rw [h3]
  exact utils.slice_write _ _ _ _ hw

/-- The entries of a GSC switch table, the running `index` being the cursor:
each entry holds in its displacement field, four bytes after its start `q`, the
distance `addr - q - 4` to the address of its label. -/
theorem gsc_switch_cases_disp (ctx : context) (labels : label_map) (data : List String)
    (n i index : Nat) (self self' : assembler) (hidx : index = self.script.pos)
    (h : assemble_switch_cases ctx labels data n i index self = .ok self') :
    ∀ k, k < n →
      switch_disp_written ctx labels data self'.script (i + k)
        (index + entry_stride ctx * k) := by
  induction n generalizing i index self with
  | zero =>
    intro k hk
    omega
  | succ n ih =>
    subst hidx
    simp only [assemble_switch_cases, bind_eq_ok] at h
    obtain ⟨head, hhead, h⟩ := h
    rw [operand_eq_ok] at hhead
    have key : ∀ (sd s2 : assembler),
        self.script.pos + 4 + (if ctx.engine = engine.iw9 then 2 else 3) ≤ sd.script.pos →
        sd.script.advances s2.script →
        s2.script.pos = self.script.pos + entry_stride ctx →
        switch_disp_written ctx labels data sd.script i self.script.pos →
        assemble_switch_cases ctx labels data n (i + 1) (self.script.pos + entry_stride ctx) s2 =
          .ok self' →
        ∀ k, k < n + 1 →
          switch_disp_written ctx labels data self'.script (i + k)
            (self.script.pos + entry_stride ctx * k) := by
      intro sd s2 hq a2 p2 hentry hrest
      obtain ⟨-, a3, -⟩ := gsc_switch_cases_spec _ _ _ _ _ _ _ _ hrest
      have r3 := ih _ _ _ p2.symm hrest
      intro k hk
      cases k with
      | zero =>
        simp only [Nat.add_zero, Nat.mul_zero]
        exact switch_disp_written_mono _ _ _ _ _ _ _ (utils.advances_trans a2 a3) hq hentry
      | succ k =>
        have := r3 k (by omega)
        have e : i + 1 + k = i + (k + 1) := by omega
        have e' : self.script.pos + entry_stride ctx + entry_stride ctx * k =
            self.script.pos + entry_stride ctx * (k + 1) := by
          rw [Nat.mul_succ]; omega
        rw [e, e'] at this
        exact this
    -- the two displacement forms, written at four bytes after the start of the entry
    have disp9 : ∀ (s1 sd : assembler) (l : String) (addr : Nat),
        ctx.engine = engine.iw9 →
        (data[1 + 4 * i]? = some "case" ∧ data[1 + 4 * i + 3]? = some l ∨
          data[1 + 4 * i]? = some "default" ∧ data[1 + 4 * i + 1]? = some l) →
        resolve_label labels l = .ok addr →
        s1.script.pos = self.script.pos + 4 →
        s1.write 2 (usize_sub (usize_sub addr self.script.pos) 4) = .ok sd →
        switch_disp_written ctx labels data sd.script i self.script.pos := by
      intro s1 sd l addr hiw hl haddr p1 hw
      refine ⟨l, addr, hl, haddr, ?_⟩
      rw [if_pos hiw, ← p1]
      exact utils.read_write_2 _ _ _ (gsc_write_ok _ _ _ _ hw).1
    have disp7 : ∀ (s1 sd : assembler) (l : String) (addr : Nat),
        ¬ ctx.engine = engine.iw9 →
        (data[1 + 4 * i]? = some "case" ∧ data[1 + 4 * i + 3]? = some l ∨
          data[1 + 4 * i]? = some "default" ∧ data[1 + 4 * i + 1]? = some l) →
        resolve_label labels l = .ok addr →
        s1.script.pos = self.script.pos + 4 →
        assemble_offset ctx s1 (switch_disp addr self.script.pos) = .ok sd →
        switch_disp_written ctx labels data sd.script i self.script.pos := by
      intro s1 sd l addr hiw hl haddr p1 hw
      refine ⟨l, addr, hl, haddr, ?_⟩
      rw [if_neg hiw, ← p1]
      exact assemble_offset_slice _ _ _ _ hw
    split at h
    · rename_i hcase
      subst hcase
      simp only [bind_eq_ok] at h
      obtain ⟨t, ht, type, htype, h⟩ := h
      split at h
      · simp only [bind_eq_ok] at h
        obtain ⟨d, hd, v, hv, h⟩ := h
        split at h
        · rename_i hiw
          simp only [bind_eq_ok] at h
          obtain ⟨s0, hs0, l, hl, addr, haddr, s2, hs2, s3, hs3, s4, hs4, h⟩ := h
          rw [operand_eq_ok] at hl
          obtain ⟨p0, a0⟩ := gsc_write_spec _ _ _ _ hs0
          obtain ⟨p2, a2⟩ := gsc_write_spec _ _ _ _ hs2
          obtain ⟨p3, a3⟩ := gsc_write_spec _ _ _ _ hs3
          obtain ⟨p4, a4⟩ := gsc_write_spec _ _ _ _ hs4
          have hstride : entry_stride ctx = 8 := by simp [entry_stride, hiw]
          rw [← hstride] at h
          exact key s2 s4 (by rw [if_pos hiw, p2, p0]) (utils.advances_trans a3 a4)
            (by rw [p4, p3, p2, p0, hstride])
            (disp9 s0 s2 l addr hiw (Or.inl ⟨hhead, hl⟩) haddr p0 hs2) h
        · rename_i hiw
          simp only [bind_eq_ok] at h
          obtain ⟨s0, hs0, l, hl, addr, haddr, s2, hs2, h⟩ := h
          rw [operand_eq_ok] at hl
          obtain ⟨p0, a0⟩ := gsc_write_spec _ _ _ _ hs0
          obtain ⟨p2, a2⟩ := assemble_offset_spec _ _ _ _ hs2
          have hstride : entry_stride ctx = 7 := by simp [entry_stride, hiw]
          rw [← hstride] at h
          exact key s2 s2 (by rw [if_neg hiw, p2, p0]) (utils.advances_refl _)
            (by rw [p2, p0, hstride])
            (disp7 s0 s2 l addr hiw (Or.inl ⟨hhead, hl⟩) haddr p0 hs2) h
      · simp only [bind_eq_ok] at h
        obtain ⟨s0, hs0, d, hd, str, hstr, s1, hs1, l, hl, addr, haddr, h⟩ := h
        rw [operand_eq_ok] at hl
        obtain ⟨p0, a0⟩ := gsc_write_spec _ _ _ _ hs0
        have e1 := write_stack_cstr_spec _ _ _ hs1
        have p1 : s1.script.pos = self.script.pos + 4 := by rw [e1, p0]
        split at h
        · rename_i hiw
          simp only [bind_eq_ok] at h
          obtain ⟨s2, hs2, s3, hs3, s4, hs4, h⟩ := h
          obtain ⟨p2, a2⟩ := gsc_write_spec _ _ _ _ hs2
          obtain ⟨p3, a3⟩ := gsc_write_spec _ _ _ _ hs3
          obtain ⟨p4, a4⟩ := gsc_write_spec _ _ _ _ hs4
          have hstride : entry_stride ctx = 8 := by simp [entry_stride, hiw]
          rw [← hstride] at h
          exact key s2 s4 (by rw [if_pos hiw, p2, p1]) (utils.advances_trans a3 a4)
            (by rw [p4, p3, p2, p1, hstride])
            (disp9 s1 s2 l addr hiw (Or.inl ⟨hhead, hl⟩) haddr p1 hs2) h
        · rename_i hiw
          simp only [bind_eq_ok] at h
          obtain ⟨s2, hs2, h⟩ := h
          obtain ⟨p2, a2⟩ := assemble_offset_spec _ _ _ _ hs2
          have hstride : entry_stride ctx = 7 := by simp [entry_stride, hiw]
          rw [← hstride] at h
          exact key s2 s2 (by rw [if_neg hiw, p2, p1]) (utils.advances_refl _)
            (by rw [p2, p1, hstride])
            (disp7 s1 s2 l addr hiw (Or.inl ⟨hhead, hl⟩) haddr p1 hs2) h
    · rename_i hcase
      split at h
      · rename_i hdef
        subst hdef
        simp only [bind_eq_ok] at h
        obtain ⟨l, hl, addr, haddr, h⟩ := h
        rw [operand_eq_ok] at hl
        split at h
        · rename_i hiw
          simp only [bind_eq_ok] at h
          obtain ⟨s1, hs1, s2, hs2, s3, hs3, s4, hs4, h⟩ := h
          obtain ⟨p1, a1⟩ := gsc_write_spec _ _ _ _ hs1
          obtain ⟨p2, a2⟩ := gsc_write_spec _ _ _ _ hs2
          obtain ⟨p3, a3⟩ := gsc_write_spec _ _ _ _ hs3
          obtain ⟨p4, a4⟩ := gsc_write_spec _ _ _ _ hs4
          have hstride : entry_stride ctx = 8 := by simp [entry_stride, hiw]
          rw [← hstride] at h
          exact key s2 s4 (by rw [if_pos hiw, p2, p1]) (utils.advances_trans a3 a4)
            (by rw [p4, p3, p2, p1, hstride])
            (disp9 s1 s2 l addr hiw (Or.inr ⟨hhead, hl⟩) haddr p1 hs2) h
        · rename_i hiw
          simp only [bind_eq_ok] at h
          obtain ⟨s1, hs1, s2, hs2, s3, hs3, h⟩ := h
          obtain ⟨p1, a1⟩ := gsc_write_spec _ _ _ _ hs1
          have e2 := write_stack_cstr_spec _ _ _ hs2
          have p2 : s2.script.pos = self.script.pos + 4 := by rw [e2, p1]
          obtain ⟨p3, a3⟩ := assemble_offset_spec _ _ _ _ hs3
          have hstride : entry_stride ctx = 7 := by simp [entry_stride, hiw]
          rw [← hstride] at h
          exact key s3 s3 (by rw [if_neg hiw, p3, p2]) (utils.advances_refl _)
            (by rw [p3, p2, hstride])
            (disp7 s2 s3 l addr hiw (Or.inr ⟨hhead, hl⟩) haddr p2 hs3) h
      · cases h

/-- The displacement fields of a GSC switch table whose opcode byte is at
`inst.index`: the entries start three bytes after it. -/
theorem gsc_switch_table_disp (ctx : context) (labels : label_map)
    (self self' : assembler) (inst : instruction) (hidx : self.script.pos = inst.index + 1)
    (h : assemble_switch_table ctx labels self inst = .ok self') :
    ∃ d0 count, inst.data[0]? = some d0 ∧ stoul d0 = .ok count ∧
      ∀ k, k < count →
        switch_disp_written ctx labels inst.data self'.script k
          (inst.index + 3 + entry_stride ctx * k) := by
  simp only [assemble_switch_table, bind_eq_ok] at h
  obtain ⟨d0, hd0, count, hcount, s1, hs1, h⟩ := h
  rw [operand_eq_ok] at hd0
  obtain ⟨p1, a1⟩ := gsc_write_spec _ _ _ _ hs1
  have r := gsc_switch_cases_disp _ _ _ _ _ _ _ _ (by rw [p1, hidx]) h
  refine ⟨d0, count, hd0, hcount, fun k hk => ?_⟩
  have := r k hk
  rw [Nat.zero_add] at this
  exact this

end gsc

end xsk

namespace xsk

namespace gsc

/-- C25, as stated, fails: an `endswitch` whose opcode byte is at offset 10,
with the single entry `default D` and `D` at offset 100, has its entry at 13 and
the displacement field at 17. On `iw9` the field is two bytes wide and holds
`83 = 100 - 17`, not `100 - (17 + 2) = 81`; with `offs8` the field is three
bytes wide and holds the packed offset of `83 = 100 - 17`, which is 83, not
`100 - (17 + 3) = 80`. -/
theorem gsc_switch_displacement_counterexample :
    ((assemble_instruction sample_context_iw9 [] [(100, "D")]
        (sample_assembler_at sample_context_iw9 10) sample_default_switch).toOption.map
      (fun s => (s.script.slice 10 11, as_i16 (s.script.read 17 2)))) =
      some ([7, 1, 0, 0, 0, 0, 0, 83, 0, 255, 0], 83) ∧
    ((assemble_instruction sample_context_offs8 [] [(100, "D")]
        (sample_assembler_at sample_context_offs8 10) sample_default_switch).toOption.map
      (fun s => (s.script.slice 10 10, s.stack.bytes))) =
      some ([7, 1, 0, 0, 0, 0, 0, 83, 0, 0], [1, 0]) ∧
    packed_offset sample_context_offs8 83 = 83 ∧
    (100 : Int) - (17 + 2) = 81 ∧ (100 : Int) - (17 + 3) = 80 := by
  refine ⟨by rfl, by rfl, by rfl, by decide, by decide⟩

/-- C25, amended: when `assemble_switch_table` starts with the cursor just
after the opcode byte at `inst.index`, entry `k` of the table starts at
`inst.index + 3 + stride * k` (stride 8 on `iw9`, 7 otherwise) and its
displacement field is at `D`, four bytes further. For a `case` or `default`
entry whose label resolves to `O_L` the displacement is `O_L - D`, without the
width of the field: on `iw9` the field holds it as an `i16`, otherwise it holds
the three bytes of the packed offset of the `i32` `O_L - D`. -/
theorem gsc_switch_displacement (ctx : context) (labels : label_map)
    (self self' : assembler) (inst : instruction)
    (hidx : self.script.pos = inst.index + 1)
    (h : assemble_switch_table ctx labels self inst = .ok self') :
    ∃ d0 count, inst.data[0]? = some d0 ∧ stoul d0 = .ok count ∧
      ∀ k, k < count → ∃ l O_L D,
        D = inst.index + 3 + (if ctx.engine = engine.iw9 then 8 else 7) * k + 4 ∧
        ((inst.data[1 + 4 * k]? = some "case" ∧ inst.data[1 + 4 * k + 3]? = some l) ∨
          (inst.data[1 + 4 * k]? = some "default" ∧ inst.data[1 + 4 * k + 1]? = some l)) ∧
        resolve_label labels l = .ok O_L ∧
        (ctx.engine = engine.iw9 →
          self'.script.read D 2 = to_u16 ((O_L : Int) - D) ∧
          (-32768 ≤ (O_L : Int) - D → (O_L : Int) - D < 32768 →
            as_i16 (self'.script.read D 2) = (O_L : Int) - D)) ∧
        (ctx.engine ≠ engine.iw9 →
          self'.script.slice D 3 =
            utils.writer.int_bytes self'.script.swap 3
              (packed_offset ctx (switch_disp O_L (D - 4)) % 16777216).toNat ∧
          (-2147483648 ≤ (O_L : Int) - D → (O_L : Int) - D < 2147483648 →
            switch_disp O_L (D - 4) = (O_L : Int) - D)) := by
  obtain ⟨d0, count, hd0, hcount, hent⟩ := gsc_switch_table_disp _ _ _ _ _ hidx h
  refine ⟨d0, count, hd0, hcount, fun k hk => ?_⟩
  obtain ⟨l, addr, hl, haddr, hw⟩ := hent k hk
  refine ⟨l, addr, _, rfl, hl, haddr, fun hiw => ?_, fun hiw => ?_⟩
  · rw [if_pos hiw] at hw ⊢
    have hs : entry_stride ctx = 8 := by simp [entry_stride, hiw]
    rw [hs] at hw
    have e : usize_sub (usize_sub addr (inst.index + 3 + 8 * k)) 4 % 65536 =
        to_u16 ((addr : Int) - ((inst.index + 3 + 8 * k + 4 : Nat) : Int)) := by
      unfold usize_sub to_u16
      omega
    rw [e] at hw
    refine ⟨hw, fun l1 l2 => ?_⟩
    rw [hw]
    exact as_i16_exact _ l1 l2
  · rw [if_neg hiw] at hw ⊢
    have hs : entry_stride ctx = 7 := by simp [entry_stride, hiw]
    rw [hs] at hw
    rw [Nat.add_sub_cancel]
    refine ⟨hw, fun l1 l2 => ?_⟩
    unfold switch_disp
    rw [usize_sub_sub_mod32]
    have e : (addr : Int) - (((inst.index + 3 + 7 * k : Nat) : Int) + ((4 : Nat) : Int)) =
        (addr : Int) - ((inst.index + 3 + 7 * k + 4 : Nat) : Int) := by
      omega
    rw [e]
    exact as_i32_exact _ l1 l2

/-- The `endswitch` at offset 10 with the entry `default D`, `D` at offset 100,
on `iw9`: the field at offset 17 holds `100 - 17`. -/
theorem gsc_switch_displacement_witness :
    ∃ self', assemble_switch_table sample_context_iw9 [(100, "D")]
        (sample_assembler_at sample_context_iw9 11) sample_default_switch = .ok self' ∧
      as_i16 (self'.script.read 17 2) = 100 - 17 := by
  have hok : (assemble_switch_table sample_context_iw9 [(100, "D")]
      (sample_assembler_at sample_context_iw9 11) sample_default_switch).toBool = true := by rfl
  cases hrun : assemble_switch_table sample_context_iw9 [(100, "D")]
      (sample_assembler_at sample_context_iw9 11) sample_default_switch with
  | error e =>
    rw [hrun] at hok
    cases hok
  | ok self' =>
    obtain ⟨d0, count, hd0, hcount, hent⟩ := gsc_switch_displacement sample_context_iw9
      [(100, "D")] (sample_assembler_at sample_context_iw9 11) self' sample_default_switch
      rfl hrun
    cases hd0
    have hc : (Except.ok 1 : Except asm_error Nat) = .ok count := hcount
    cases hc
    obtain ⟨l, O_L, D, hD, hl, hO, h9, -⟩ := hent 0 (by decide)
    subst hD
    rcases hl with ⟨hc, -⟩ | ⟨-, hl⟩
    · exact absurd hc (by decide)
    · cases hl
      have hO2 : (Except.ok 100 : Except asm_error Nat) = .ok O_L := hO
      cases hO2
      exact ⟨self', rfl, (h9 rfl).2 (by decide) (by decide)⟩

end gsc

end xsk

namespace xsk

/-! ## Lists of keyed records -/

theorem mem_first_occurrences {K : Type} [DecidableEq K] (l : List K) (x : K) :
    x ∈ first_occurrences l ↔ x ∈ l := by
  induction l with
  | nil => simp [first_occurrences]
  | cons a l ih =>
    simp only [first_occurrences, List.mem_cons, List.mem_filter, ih, decide_eq_true_eq]
    constructor
    · rintro (h | ⟨h, -⟩)
      · exact Or.inl h
      · exact Or.inr h
    · rintro (h | h)
      · exact Or.inl h
      · by_cases hx : x = a
        · exact Or.inl hx
        · exact Or.inr ⟨h, hx⟩

theorem nodup_first_occurrences {K : Type} [DecidableEq K] (l : List K) :
    (first_occurrences l).Nodup := by
  induction l with
  | nil => exact List.nodup_nil
  | cons a l ih =>
    simp only [first_occurrences, List.nodup_cons, List.mem_filter, decide_eq_true_eq]
    exact ⟨fun h => h.2 rfl, ih.filter _⟩

theorem first_occurrences_snoc {K : Type} [DecidableEq K] (l : List K) (a : K) :
    first_occurrences (l ++ [a]) =
      if a ∈ l then first_occurrences l else first_occurrences l ++ [a] := by
  induction l with
  | nil => simp [first_occurrences]
  | cons b l ih =>
    show b :: (first_occurrences (l ++ [a])).filter (fun x => x ≠ b) = _
    rw [ih]
    by_cases hal : a ∈ l
    · rw [if_pos hal, if_pos (List.mem_cons_of_mem _ hal)]
      rfl
    · rw [if_neg hal]
      by_cases hab : a = b
      · subst hab
        rw [if_pos (List.mem_cons_self _ _), List.filter_append]
        simp [first_occurrences]
      · rw [if_neg (by simp [hab, hal]), List.filter_append]
        simp [first_occurrences, hab]

theorem keyed_add_new {K V : Type} [DecidableEq K] (k : K) (vs : List V)
    (l : List (K × List V)) (h : k ∉ l.map Prod.fst) : keyed_add k vs l = l ++ [(k, vs)] := by
  induction l with
  | nil => rfl
  | cons e l ih =>
    simp only [List.map_cons, List.mem_cons, not_or] at h
    have hne : ¬ e.1 = k := fun hh => h.1 hh.symm
    simp only [keyed_add, if_neg hne, ih h.2, List.cons_append]

theorem keyed_add_old {K V : Type} [DecidableEq K] (k : K) (vs : List V)
    (l : List (K × List V)) (hnd : (l.map Prod.fst).Nodup) (h : k ∈ l.map Prod.fst) :
    keyed_add k vs l = l.map fun e => if e.1 = k then (e.1, e.2 ++ vs) else e := by
  induction l with
  | nil => simp at h
  | cons e l ih =>
    simp only [List.map_cons, List.nodup_cons] at hnd
    by_cases he : e.1 = k
    · simp only [keyed_add, if_pos he, List.map_cons]
      congr 1
      symm
      calc List.map (fun e : K × List V => if e.1 = k then (e.1, e.2 ++ vs) else e) l
          = List.map id l := by
            apply List.map_congr_left
            intro x hx
            have : x.1 ≠ k := fun hxk => hnd.1 (by
              rw [he, ← hxk]; exact List.mem_map_of_mem _ hx)
            rw [if_neg this]
            rfl
        _ = l := List.map_id l
    · simp only [List.map_cons, List.mem_cons] at h
      rcases h with h | h
      · exact absurd h.symm he
      · simp only [keyed_add, if_neg he, List.map_cons, ih hnd.2 h]

theorem keyed_adds_snoc {K V : Type} [DecidableEq K] (calls : List (K × List V))
    (c : K × List V) (l : List (K × List V)) :
    keyed_adds (calls ++ [c]) l = keyed_add c.1 c.2 (keyed_adds calls l) := by
  simp [keyed_adds, List.foldl_append]

theorem keyed_adds_cons {K V : Type} [DecidableEq K] (calls : List (K × List V))
    (c : K × List V) (l : List (K × List V)) :
    keyed_adds (c :: calls) l = keyed_adds calls (keyed_add c.1 c.2 l) := by
  simp [keyed_adds]

theorem keyed_values_snoc {K V : Type} [DecidableEq K] (calls : List (K × List V))
    (c : K × List V) (k : K) :
    keyed_values (calls ++ [c]) k = keyed_values calls k ++ (if c.1 = k then c.2 else []) := by
  unfold keyed_values
  rw [List.filter_append, List.map_append, List.flatten_append]
  by_cases h : c.1 = k <;> simp [List.filter, h]

theorem keyed_values_of_not_mem {K V : Type} [DecidableEq K] (calls : List (K × List V))
    (k : K) (h : k ∉ calls.map Prod.fst) : keyed_values calls k = [] := by
  unfold keyed_values
  have : calls.filter (fun c => c.1 = k) = [] := by
    rw [List.filter_eq_nil_iff]
    intro c hc
    simp only [decide_eq_true_eq]
    intro hk
    exact h (hk ▸ List.mem_map_of_mem _ hc)
  rw [this]
  rfl

/-- The records after a sequence of recordings: one per distinct key, in the
order of first occurrence, each with the values recorded under its key. -/
theorem keyed_adds_eq {K V : Type} [DecidableEq K] (calls : List (K × List V)) :
    keyed_adds calls [] =
      (first_occurrences (calls.map Prod.fst)).map fun k => (k, keyed_values calls k) := by
  induction calls using List.reverseRecOn with
  | nil => rfl
  | append_singleton calls c ih =>
    rw [keyed_adds_snoc, ih, List.map_append, List.map_singleton, first_occurrences_snoc]
    have hkeys : ((first_occurrences (calls.map Prod.fst)).map
        fun k => (k, keyed_values calls k)).map Prod.fst =
        first_occurrences (calls.map Prod.fst) := by
      rw [List.map_map]
      exact List.map_id _
    by_cases hc : c.1 ∈ calls.map Prod.fst
    · rw [if_pos hc, keyed_add_old _ _ _ (by rw [hkeys]; exact nodup_first_occurrences _)
        (by rw [hkeys, mem_first_occurrences]; exact hc), List.map_map]
      apply List.map_congr_left
      intro k _
      simp only [Function.comp]
      rw [keyed_values_snoc]
      by_cases hk : k = c.1
      · rw [if_pos hk, if_pos hk.symm]
      · rw [if_neg hk, if_neg (fun h => hk h.symm), List.append_nil]
    · rw [if_neg hc, keyed_add_new _ _ _ (by rw [hkeys, mem_first_occurrences]; exact hc),
        List.map_append, List.map_singleton]
      congr 1
      · apply List.map_congr_left
        intro k hk
        rw [mem_first_occurrences] at hk
        rw [keyed_values_snoc, if_neg (fun h => hc (by rw [h]; exact hk)), List.append_nil]
      · rw [keyed_values_snoc, if_pos rfl, keyed_values_of_not_mem _ _ hc, List.nil_append]

/-- The values recorded under a key by recordings of one value each. -/
theorem keyed_values_singletons {C K V : Type} [DecidableEq K] (calls : List C)
    (key : C → K) (val : C → V) (k : K) :
    keyed_values (calls.map fun c => (key c, [val c])) k =
      (calls.filter fun c => key c = k).map val := by
  unfold keyed_values
  induction calls with
  | nil => rfl
  | cons c calls ih =>
    by_cases h : key c = k
    · simp only [List.map_cons, List.filter_cons, h, decide_True, if_true, List.flatten_cons,
        List.singleton_append]
      rw [← ih]
    · simp only [List.map_cons, List.filter_cons, h, decide_False]
      exact ih

/-- The values recorded under a key by recordings of at most one value each. -/
theorem keyed_values_optional {C K V : Type} [DecidableEq K] (calls : List C)
    (key : C → K) (p : C → Prop) [DecidablePred p] (val : C → V) (k : K) :
    keyed_values (calls.map fun c => (key c, if p c then [val c] else [])) k =
      (calls.filter fun c => key c = k ∧ p c).map val := by
  unfold keyed_values
  induction calls with
  | nil => rfl
  | cons c calls ih =>
    by_cases h : key c = k
    · by_cases hp : p c
      · simp only [List.map_cons, List.filter_cons, h, hp, decide_True, if_true, and_self,
          List.flatten_cons, List.singleton_append]
        rw [← ih]
      · simp only [List.map_cons, List.filter_cons, h, hp, decide_True, if_true, if_false,
          and_false, decide_False, List.flatten_cons, List.nil_append]
        exact ih
    · simp only [List.map_cons, List.filter_cons, h, decide_False, false_and]
      exact ih

end xsk

namespace xsk

namespace arc

/-! ## Recording imports and animtrees -/

theorem getD_of_getElem? (data : List String) (k : Nat) (s : String) (h : data[k]? = some s) :
    data.getD k "" = s := by
  rw [List.getD_eq_getElem?_getD, h]
  rfl

/-- The key of an import whose operands are well formed. -/
theorem import_call_key_of_ok (data : List String) (d0 d1 d2 d3 : String) (p f : Int)
    (h0 : data[0]? = some d0) (h1 : data[1]? = some d1) (h2 : data[2]? = some d2)
    (h3 : data[3]? = some d3) (hp : stoi d2 = .ok p) (hf : stoi d3 = .ok f)
    (p0 : 0 ≤ p) (p1 : p < 256) (f0 : 0 ≤ f) (f1 : f < 256) :
    import_call_key data = (d0, d1, p.toNat, f.toNat) := by
  unfold import_call_key
  rw [getD_of_getElem? _ _ _ h0, getD_of_getElem? _ _ _ h1, getD_of_getElem? _ _ _ h2,
    getD_of_getElem? _ _ _ h3, hp, hf]
  simp only [Except.toOption, Option.getD_some, to_u8, Prod.mk.injEq, true_and]
  constructor <;> omega

/-- The loop condition of `add_importref` compares the key of the entry with
the key of the call. -/
theorem import_matches_of_ok (entry : import_ref) (data : List String)
    (h : import_call_ok data) :
    import_matches entry data = .ok (decide (entry.key = import_call_key data)) := by
  obtain ⟨d0, d1, d2, d3, p, f, h0, h1, h2, h3, hp, hf, p0, p1, f0, f1⟩ := h
  rw [import_call_key_of_ok data d0 d1 d2 d3 p f h0 h1 h2 h3 hp hf p0 p1 f0 f1]
  rw [← operand_eq_ok] at h0 h1 h2 h3
  unfold import_matches import_ref.key
  simp only [h0, h1, h2, h3, hp, hf, except_ok_bind]
  have ep : ((entry.params : Int) = p) ↔ entry.params = p.toNat := by omega
  have ef : ((entry.flags : Int) = f) ↔ entry.flags = f.toNat := by omega
  by_cases c0 : entry.space = d0
  · by_cases c1 : entry.name = d1
    · by_cases c2 : (entry.params : Int) = p
      · simp only [if_pos c0, if_pos c1, if_pos c2]
        show Except.ok _ = Except.ok _
        congr 1
        rw [decide_eq_decide, Prod.mk.injEq, Prod.mk.injEq, Prod.mk.injEq]
        exact ⟨fun h => ⟨c0, c1, ep.1 c2, ef.1 h⟩, fun h => ef.2 h.2.2.2⟩
      · simp only [if_pos c0, if_pos c1, if_neg c2]
        show Except.ok false = Except.ok _
        congr 1
        symm
        rw [decide_eq_false_iff_not, Prod.mk.injEq, Prod.mk.injEq, Prod.mk.injEq]
        exact fun h => c2 (ep.2 h.2.2.1)
    · simp only [if_pos c0, if_neg c1]
      show Except.ok false = Except.ok _
      congr 1
      symm
      rw [decide_eq_false_iff_not, Prod.mk.injEq, Prod.mk.injEq, Prod.mk.injEq]
      exact fun h => c1 h.2.1
  · simp only [if_neg c0]
    show Except.ok false = Except.ok _
    congr 1
    symm
    rw [decide_eq_false_iff_not, Prod.mk.injEq, Prod.mk.injEq, Prod.mk.injEq]
    exact fun h => c0 h.1

/-- One call of `add_importref` with well-formed operands records its ref
under the key of the call. -/
theorem add_importref_view (data : List String) (ref : Nat) (l : List import_ref)
    (h : import_call_ok data) :
    ∃ l', add_importref data ref l = .ok l' ∧
      l'.map (fun e => (e.key, e.refs)) =
        keyed_add (import_call_key data) [ref] (l.map fun e => (e.key, e.refs)) := by
  induction l with
  | nil =>
    obtain ⟨d0, d1, d2, d3, p, f, h0, h1, h2, h3, hp, hf, p0, p1, f0, f1⟩ := h
    have hk := import_call_key_of_ok data d0 d1 d2 d3 p f h0 h1 h2 h3 hp hf p0 p1 f0 f1
    rw [← operand_eq_ok] at h0 h1 h2 h3
    refine ⟨[{ space := d0, name := d1, params := to_u8 p, flags := to_u8 f, refs := [ref] }],
      ?_, ?_⟩
    · simp only [add_importref, h0, h1, h2, h3, hp, hf, except_ok_bind]
      rfl
    · rw [hk]
      have e1 : to_u8 p = p.toNat := by unfold to_u8; omega
      have e2 : to_u8 f = f.toNat := by unfold to_u8; omega
      simp only [List.map_cons, List.map_nil, keyed_add, import_ref.key, e1, e2]
  | cons e l ih =>
    obtain ⟨l1, hl1, hv⟩ := ih
    have hm := import_matches_of_ok e data h
    by_cases hk : e.key = import_call_key data
    · refine ⟨{ e with refs := e.refs ++ [ref] } :: l, ?_, ?_⟩
      · simp only [add_importref, hm, except_ok_bind, hk, decide_True, if_true]
        rfl
      · simp only [List.map_cons, keyed_add, if_pos hk]
        rfl
    · refine ⟨e :: l1, ?_, ?_⟩
      · simp only [add_importref, hm, except_ok_bind, hk, decide_False, hl1]
        rfl
      · simp only [List.map_cons, keyed_add, if_neg hk, hv]

/-- A sequence of `add_importref` calls with well-formed operands. -/
theorem add_importrefs_view (calls : List (List String × Nat)) (l : List import_ref)
    (hok : ∀ c ∈ calls, import_call_ok c.1) :
    ∃ l', add_importrefs calls l = .ok l' ∧
      l'.map (fun e => (e.key, e.refs)) =
        keyed_adds (calls.map fun c => (import_call_key c.1, [c.2]))
          (l.map fun e => (e.key, e.refs)) := by
  induction calls generalizing l with
  | nil => exact ⟨l, rfl, rfl⟩
  | cons c calls ih =>
    obtain ⟨l1, h1, v1⟩ := add_importref_view c.1 c.2 l (hok c (List.mem_cons_self _ _))
    obtain ⟨l2, h2, v2⟩ := ih l1 (fun c' hc' => hok c' (List.mem_cons_of_mem _ hc'))
    refine ⟨l2, ?_, ?_⟩
    · simp only [add_importrefs, h1, except_ok_bind]
      exact h2
    · rw [v2, v1, List.map_cons, keyed_adds_cons]

/-- One call of `add_animref`: its ref goes into `refs` when the companion
operand is `-1` and into `anims` otherwise, under the name of the tree. -/
theorem add_animref_view (data : List String) (ref : Nat) (l : List animtree_ref)
    (d0 d1 : String) (h0 : data[0]? = some d0) (h1 : data[1]? = some d1) :
    ∃ l', add_animref data ref l = .ok l' ∧
      l'.map (fun e => (e.name, e.refs)) =
        keyed_add (anim_call_refs (data, ref)).1 (anim_call_refs (data, ref)).2
          (l.map fun e => (e.name, e.refs)) ∧
      l'.map (fun e => (e.name, e.anims)) =
        keyed_add (anim_call_anims (data, ref)).1 (anim_call_anims (data, ref)).2
          (l.map fun e => (e.name, e.anims)) := by
  have g0 := getD_of_getElem? _ _ _ h0
  have g1 := getD_of_getElem? _ _ _ h1
  rw [← operand_eq_ok] at h0 h1
  unfold anim_call_refs anim_call_anims
  simp only [g0, g1]
  induction l with
  | nil =>
    by_cases hc : d1 = "-1"
    · refine ⟨[{ name := d0, refs := [ref], anims := [] }], ?_, ?_, ?_⟩
      · simp only [add_animref, h0, h1, except_ok_bind, if_pos hc]
        rfl
      · simp only [List.map_cons, List.map_nil, keyed_add, if_pos hc]
      · simp only [List.map_cons, List.map_nil, keyed_add, if_pos hc]
    · refine ⟨[{ name := d0, refs := [], anims := [{ name := d1, ref := ref }] }], ?_, ?_, ?_⟩
      · simp only [add_animref, h0, h1, except_ok_bind, if_neg hc]
        rfl
      · simp only [List.map_cons, List.map_nil, keyed_add, if_neg hc]
      · simp only [List.map_cons, List.map_nil, keyed_add, if_neg hc]
  | cons e l ih =>
    obtain ⟨l1, hl1, v1, v2⟩ := ih
    by_cases hk : e.name = d0
    · by_cases hc : d1 = "-1"
      · refine ⟨{ e with refs := e.refs ++ [ref] } :: l, ?_, ?_, ?_⟩
        · simp only [add_animref, h0, h1, except_ok_bind, if_pos hk, if_pos hc]
          rfl
        · simp only [List.map_cons, keyed_add, if_pos hk, if_pos hc]
        · simp only [List.map_cons, keyed_add, if_pos hk, if_pos hc, List.append_nil]
      · refine ⟨{ e with anims := e.anims ++ [{ name := d1, ref := ref }] } :: l, ?_, ?_, ?_⟩
        · simp only [add_animref, h0, h1, except_ok_bind, if_pos hk, if_neg hc]
          rfl
        · simp only [List.map_cons, keyed_add, if_pos hk, if_neg hc, List.append_nil]
        · simp only [List.map_cons, keyed_add, if_pos hk, if_neg hc]
    · refine ⟨e :: l1, ?_, ?_, ?_⟩
      · simp only [add_animref, h0, except_ok_bind, if_neg hk, hl1]
        rfl
      · simp only [List.map_cons, keyed_add, if_neg hk, v1]
      · simp only [List.map_cons, keyed_add, if_neg hk, v2]

/-- A sequence of `add_animref` calls whose two operands are there. -/
theorem add_animrefs_view (calls : List (List String × Nat)) (l : List animtree_ref)
    (hok : ∀ c ∈ calls, ∃ d0 d1, c.1[0]? = some d0 ∧ c.1[1]? = some d1) :
    ∃ l', add_animrefs calls l = .ok l' ∧
      l'.map (fun e => (e.name, e.refs)) =
        keyed_adds (calls.map anim_call_refs) (l.map fun e => (e.name, e.refs)) ∧
      l'.map (fun e => (e.name, e.anims)) =
        keyed_adds (calls.map anim_call_anims) (l.map fun e => (e.name, e.anims)) := by
  induction calls generalizing l with
  | nil => exact ⟨l, rfl, rfl, rfl⟩
  | cons c calls ih =>
    obtain ⟨d0, d1, h0, h1⟩ := hok c (List.mem_cons_self _ _)
    obtain ⟨l1, e1, v1, w1⟩ := add_animref_view c.1 c.2 l d0 d1 h0 h1
    obtain ⟨l2, e2, v2, w2⟩ := ih l1 (fun c' hc' => hok c' (List.mem_cons_of_mem _ hc'))
    refine ⟨l2, ?_, ?_, ?_⟩
    · simp only [add_animrefs, e1, except_ok_bind]
      exact e2
    · rw [v2, v1, List.map_cons, keyed_adds_cons]
    · rw [w2, w1, List.map_cons, keyed_adds_cons]

end arc

end xsk

namespace xsk

namespace arc

/-! ## Imports with an operand outside the range of a `u8` -/

/-- An entry whose fields are in the range of a `u8` never matches operands
whose `params` or `flags` number is outside that range. -/
theorem import_matches_out_of_range (entry : import_ref) (data : List String) (found : Bool)
    (hp : entry.params < 256) (hf : entry.flags < 256)
    (hout : (∃ d2 p, data[2]? = some d2 ∧ stoi d2 = .ok p ∧ (p < 0 ∨ 255 < p)) ∨
      (∃ d3 f, data[3]? = some d3 ∧ stoi d3 = .ok f ∧ (f < 0 ∨ 255 < f)))
    (h : import_matches entry data = .ok found) : found = false := by
  unfold import_matches at h
  simp only [bind_eq_ok] at h
  obtain ⟨d0, -, h⟩ := h
  split at h
  · simp only [bind_eq_ok] at h
    obtain ⟨d1, -, h⟩ := h
    split at h
    · simp only [bind_eq_ok] at h
      obtain ⟨d2, hd2, p, hp2, h⟩ := h
      rw [operand_eq_ok] at hd2
      split at h
      · rename_i heq
        simp only [bind_eq_ok, pure, Except.pure, Except.ok.injEq] at h
        obtain ⟨d3, hd3, f, hf3, rfl⟩ := h
        rw [operand_eq_ok] at hd3
        rcases hout with ⟨d2', p', e2, ep, hr⟩ | ⟨d3', f', e3, ef, hr⟩
        · rw [hd2] at e2
          cases e2
          rw [hp2] at ep
          cases ep
          omega
        · rw [hd3] at e3
          cases e3
          rw [hf3] at ef
          cases ef
          rw [decide_eq_false_iff_not]
          omega
      · cases h
        rfl
    · cases h
      rfl
  · cases h
    rfl

/-- With such operands `add_importref` finds no entry: it appends a new one,
with fields in the range of a `u8`. -/
theorem add_importref_out_of_range (data : List String) (ref : Nat) (l l' : List import_ref)
    (hl : ∀ e, e ∈ l → e.params < 256 ∧ e.flags < 256)
    (hout : (∃ d2 p, data[2]? = some d2 ∧ stoi d2 = .ok p ∧ (p < 0 ∨ 255 < p)) ∨
      (∃ d3 f, data[3]? = some d3 ∧ stoi d3 = .ok f ∧ (f < 0 ∨ 255 < f)))
    (h : add_importref data ref l = .ok l') :
    ∃ e, l' = l ++ [e] ∧ e.refs = [ref] ∧ e.key = import_call_key data ∧
      e.params < 256 ∧ e.flags < 256 := by
  induction l generalizing l' with
  | nil =>
    simp only [add_importref, bind_eq_ok, pure, Except.pure, Except.ok.injEq] at h
    obtain ⟨d0, h0, d1, h1, d2, h2, p, hp, d3, h3, f, hf, rfl⟩ := h
    rw [operand_eq_ok] at h0 h1 h2 h3
    refine ⟨_, rfl, rfl, ?_, ?_, ?_⟩
    · unfold import_call_key import_ref.key
      rw [getD_of_getElem? _ _ _ h0, getD_of_getElem? _ _ _ h1, getD_of_getElem? _ _ _ h2,
        getD_of_getElem? _ _ _ h3, hp, hf]
      rfl
    · show to_u8 p < 256
      unfold to_u8
      omega
    · show to_u8 f < 256
      unfold to_u8
      omega
  | cons entry rest ih =>
    simp only [add_importref, bind_eq_ok] at h
    obtain ⟨found, hfound, h⟩ := h
    obtain ⟨e1, e2⟩ := hl entry (List.mem_cons_self _ _)
    have hff := import_matches_out_of_range entry data found e1 e2 hout hfound
    subst hff
    simp only [Bool.false_eq_true, if_false, bind_eq_ok, pure, Except.pure,
      Except.ok.injEq] at h
    obtain ⟨rest', hrest, rfl⟩ := h
    obtain ⟨e, he, hr, hk, p1, p2⟩ := ih _ (fun x hx => hl x (List.mem_cons_of_mem _ hx)) hrest
    exact ⟨e, by rw [he]; rfl, hr, hk, p1, p2⟩

end arc

end xsk

namespace xsk

namespace arc

/-- C27 does not hold of the code: `add_importref` stores `params` and `flags`
narrowed to `u8` but compares the stored fields with the numbers `std::stoi`
returns. Two calls with the same operands `"" "f" "256" "0"` yield two entries,
both with the key `("", "f", 0, 0)` and one ref each, where the claim has one
entry with two refs. In general, on a list whose fields are in the range of a
`u8`, a call whose operand 2 or 3 is a number outside 0 to 255 matches no entry:
whenever it returns it has appended a new entry, so the same operands added
twice to any such list leave two entries with the same key. -/
theorem import_ref_dedup_defect :
    add_importrefs [(["", "f", "256", "0"], 4), (["", "f", "256", "0"], 8)] [] =
      .ok [{ space := "", name := "f", params := 0, flags := 0, refs := [4] },
           { space := "", name := "f", params := 0, flags := 0, refs := [8] }] ∧
    (∀ (data : List String) (ref : Nat) (l l' : List import_ref),
      (∀ e, e ∈ l → e.params < 256 ∧ e.flags < 256) →
      ((∃ d2 p, data[2]? = some d2 ∧ stoi d2 = .ok p ∧ (p < 0 ∨ 255 < p)) ∨
        (∃ d3 f, data[3]? = some d3 ∧ stoi d3 = .ok f ∧ (f < 0 ∨ 255 < f))) →
      add_importref data ref l = .ok l' →
      ∃ e, l' = l ++ [e] ∧ e.refs = [ref] ∧ e.key = import_call_key data ∧
        e.params < 256 ∧ e.flags < 256) ∧
    (∀ (data : List String) (r1 r2 : Nat) (l l' : List import_ref),
      (∀ e, e ∈ l → e.params < 256 ∧ e.flags < 256) →
      ((∃ d2 p, data[2]? = some d2 ∧ stoi d2 = .ok p ∧ (p < 0 ∨ 255 < p)) ∨
        (∃ d3 f, data[3]? = some d3 ∧ stoi d3 = .ok f ∧ (f < 0 ∨ 255 < f))) →
      add_importrefs [(data, r1), (data, r2)] l = .ok l' →
      ∃ e1 e2, l' = l ++ [e1, e2] ∧ e1.key = e2.key ∧ e1.refs = [r1] ∧ e2.refs = [r2]) := by
  refine ⟨by rfl, add_importref_out_of_range, ?_⟩
  intro data r1 r2 l l' hl hout h
  simp only [add_importrefs, bind_eq_ok] at h
  obtain ⟨l1, h1, l2, h2, h⟩ := h
  cases h
  obtain ⟨e1, rfl, hr1, hk1, p1, q1⟩ := add_importref_out_of_range _ _ _ _ hl hout h1
  have hl1 : ∀ e, e ∈ l ++ [e1] → e.params < 256 ∧ e.flags < 256 := by
    intro e he
    rcases List.mem_append.1 he with he | he
    · exact hl e he
    · rw [List.mem_singleton] at he
      subst he
      exact ⟨p1, q1⟩
  obtain ⟨e2, rfl, hr2, hk2, -, -⟩ := add_importref_out_of_range _ _ _ _ hl1 hout h2
  exact ⟨e1, e2, by rw [List.append_assoc]; rfl, by rw [hk1, hk2], hr1, hr2⟩

/-- Within the range of a `u8` the import list is keyed: for every sequence of
`add_importref` calls, starting from an empty list, whose operands 2 and 3 are
numbers in the range 0 to 255, the resulting list has one entry per distinct
`(space, name, params, flags)`, in the order of first occurrence, so no two
entries have the same key, and the refs of each entry are the refs of the calls
with that key, in call order; in particular two calls with the same such
operands yield one entry with the two refs. -/
theorem import_ref_dedup (calls : List (List String × Nat))
    (hok : ∀ c ∈ calls, import_call_ok c.1) :
    (∃ l, add_importrefs calls [] = .ok l ∧
      l.map import_ref.key = first_occurrences (calls.map fun c => import_call_key c.1) ∧
      (l.map import_ref.key).Nodup ∧
      ∀ e ∈ l, e.refs = (calls.filter fun c => import_call_key c.1 = e.key).map Prod.snd) ∧
    (∀ c ∈ calls, ∀ r1 r2, ∃ e, add_importrefs [(c.1, r1), (c.1, r2)] [] = .ok [e] ∧
      e.key = import_call_key c.1 ∧ e.refs = [r1, r2]) := by
  constructor
  · obtain ⟨l, hl, hv⟩ := add_importrefs_view calls [] hok
    rw [List.map_nil, keyed_adds_eq, List.map_map] at hv
    have hkeys : l.map import_ref.key =
        first_occurrences (calls.map fun c => import_call_key c.1) := by
      have := congrArg (List.map Prod.fst) hv
      rw [List.map_map, List.map_map] at this
      exact this.trans (List.map_id _)
    refine ⟨l, hl, hkeys, by rw [hkeys]; exact nodup_first_occurrences _, ?_⟩
    intro e he
    have hm : (e.key, e.refs) ∈ l.map fun e => (e.key, e.refs) := List.mem_map.2 ⟨e, he, rfl⟩
    rw [hv] at hm
    obtain ⟨k, -, hk⟩ := List.mem_map.1 hm
    simp only [Prod.mk.injEq] at hk
    obtain ⟨rfl, hr⟩ := hk
    rw [← hr]
    exact keyed_values_singletons calls (fun c => import_call_key c.1) Prod.snd _
  · intro c hc r1 r2
    obtain ⟨l, hl, hv⟩ := add_importrefs_view [(c.1, r1), (c.1, r2)] [] (by
      intro c' hc'
      simp only [List.mem_cons, List.mem_singleton, List.not_mem_nil, or_false] at hc'
      rcases hc' with rfl | rfl
      · exact hok c hc
      · exact hok c hc)
    have e2 : keyed_adds ([(c.1, r1), (c.1, r2)].map fun c => (import_call_key c.1, [c.2]))
        (([] : List import_ref).map fun e => (e.key, e.refs)) =
        [(import_call_key c.1, [r1, r2])] := by
      simp [keyed_adds, keyed_add]
    rw [e2] at hv
    cases l with
    | nil => cases hv
    | cons e t =>
      rw [List.map_cons, List.cons.injEq, List.map_eq_nil_iff] at hv
      obtain ⟨h1, rfl⟩ := hv
      simp only [Prod.mk.injEq] at h1
      exact ⟨e, hl, h1.1, h1.2⟩

/-- Three imports, `f` twice with `g` in between, all with operands in range:
two entries, `f` with the refs 4 and 12 and `g` with the ref 8. -/
theorem import_ref_dedup_witness :
    (∀ c ∈ sample_import_calls, import_call_ok c.1) ∧
    add_importrefs sample_import_calls [] =
      .ok [{ space := "", name := "f", params := 1, flags := 0, refs := [4, 12] },
           { space := "", name := "g", params := 1, flags := 0, refs := [8] }] ∧
    ((∃ l, add_importrefs sample_import_calls [] = .ok l ∧
      l.map import_ref.key =
        first_occurrences (sample_import_calls.map fun c => import_call_key c.1) ∧
      (l.map import_ref.key).Nodup ∧
      ∀ e ∈ l, e.refs =
        (sample_import_calls.filter fun c => import_call_key c.1 = e.key).map Prod.snd) ∧
    (∀ c ∈ sample_import_calls, ∀ r1 r2, ∃ e,
      add_importrefs [(c.1, r1), (c.1, r2)] [] = .ok [e] ∧
      e.key = import_call_key c.1 ∧ e.refs = [r1, r2])) := by
  have hok : ∀ c ∈ sample_import_calls, import_call_ok c.1 := by
    intro c hc
    simp only [sample_import_calls, List.mem_cons, List.mem_singleton, List.not_mem_nil,
      or_false] at hc
    rcases hc with rfl | rfl | rfl
    · exact ⟨"", "f", "1", "0", 1, 0, rfl, rfl, rfl, rfl, rfl, rfl, by decide, by decide,
        by decide, by decide⟩
    · exact ⟨"", "g", "1", "0", 1, 0, rfl, rfl, rfl, rfl, rfl, rfl, by decide, by decide,
        by decide, by decide⟩
    · exact ⟨"", "f", "1", "0", 1, 0, rfl, rfl, rfl, rfl, rfl, rfl, by decide, by decide,
        by decide, by decide⟩
  exact ⟨hok, by rfl, import_ref_dedup sample_import_calls hok⟩

end arc

end xsk

namespace xsk

namespace arc

/-- C28: for every sequence of `add_animref` calls, starting from an empty
list, the resulting list has exactly one entry per distinct tree name (operand
0), in the order of first occurrence; the `refs` of an entry are the refs of the
calls with its name whose companion operand (operand 1) is `-1`, and its `anims`
are the pairs of operand 1 and ref of the calls with its name whose companion
operand is not `-1`, both in call order. So a call with the companion `-1` adds
its ref to `refs` and nothing to `anims`, and any other call adds its pair to
`anims` and nothing to `refs`. -/
theorem animtree_ref_routing (calls : List (List String × Nat))
    (hok : ∀ c ∈ calls, ∃ d0 d1, c.1[0]? = some d0 ∧ c.1[1]? = some d1) :
    ∃ l, add_animrefs calls [] = .ok l ∧
      l.map (fun e => e.name) = first_occurrences (calls.map fun c => c.1.getD 0 "") ∧
      (l.map fun e => e.name).Nodup ∧
      ∀ e ∈ l,
        e.refs =
          (calls.filter fun c => c.1.getD 0 "" = e.name ∧ c.1.getD 1 "" = "-1").map Prod.snd ∧
        e.anims =
          (calls.filter fun c => c.1.getD 0 "" = e.name ∧ ¬ c.1.getD 1 "" = "-1").map
            fun c => { name := c.1.getD 1 "", ref := c.2 } := by
  obtain ⟨l, hl, hv, hw⟩ := add_animrefs_view calls [] hok
  rw [List.map_nil, keyed_adds_eq, List.map_map] at hv hw
  have hkeys : l.map (fun e => e.name) =
      first_occurrences (calls.map fun c => c.1.getD 0 "") := by
    have := congrArg (List.map Prod.fst) hv
    rw [List.map_map, List.map_map] at this
    exact this.trans (List.map_id _)
  refine ⟨l, hl, hkeys, by rw [hkeys]; exact nodup_first_occurrences _, ?_⟩
  intro e he
  constructor
  · have hm : (e.name, e.refs) ∈ l.map fun e => (e.name, e.refs) :=
      List.mem_map.2 ⟨e, he, rfl⟩
    rw [hv] at hm
    obtain ⟨k, -, hk⟩ := List.mem_map.1 hm
    simp only [Prod.mk.injEq] at hk
    obtain ⟨rfl, hr⟩ := hk
    rw [← hr]
    exact keyed_values_optional calls (fun c => c.1.getD 0 "")
      (fun c => c.1.getD 1 "" = "-1") Prod.snd _
  · have hm : (e.name, e.anims) ∈ l.map fun e => (e.name, e.anims) :=
      List.mem_map.2 ⟨e, he, rfl⟩
    rw [hw] at hm
    obtain ⟨k, -, hk⟩ := List.mem_map.1 hm
    simp only [Prod.mk.injEq] at hk
    obtain ⟨rfl, hr⟩ := hk
    rw [← hr]
    have e1 : calls.map anim_call_anims =
        calls.map fun c => (c.1.getD 0 "",
          if ¬ c.1.getD 1 "" = "-1" then
            [({ name := c.1.getD 1 "", ref := c.2 } : animation_ref)] else []) := by
      apply List.map_congr_left
      intro c _
      unfold anim_call_anims
      by_cases h : c.1.getD 1 "" = "-1"
      · rw [if_pos h, if_neg (not_not.2 h)]
      · rw [if_neg h, if_pos h]
    rw [e1]
    exact keyed_values_optional calls (fun c => c.1.getD 0 "")
      (fun c => ¬ c.1.getD 1 "" = "-1")
      (fun c => ({ name := c.1.getD 1 "", ref := c.2 } : animation_ref)) _

/-- Four uses, of the tree `a` alone, an animation `run` of `a`, the tree `b`
alone and `a` alone again: two entries, `a` with the refs 4 and 16 and the
animation `run` at 8, and `b` with the ref 12. -/
theorem animtree_ref_routing_witness :
    (∀ c ∈ sample_anim_calls, ∃ d0 d1, c.1[0]? = some d0 ∧ c.1[1]? = some d1) ∧
    add_animrefs sample_anim_calls [] =
      .ok [{ name := "a", refs := [4, 16], anims := [{ name := "run", ref := 8 }] },
           { name := "b", refs := [12], anims := [] }] ∧
    ∃ l, add_animrefs sample_anim_calls [] = .ok l ∧
      l.map (fun e => e.name) =
        first_occurrences (sample_anim_calls.map fun c => c.1.getD 0 "") ∧
      (l.map fun e => e.name).Nodup ∧
      ∀ e ∈ l,
        e.refs =
          (sample_anim_calls.filter
            fun c => c.1.getD 0 "" = e.name ∧ c.1.getD 1 "" = "-1").map Prod.snd ∧
        e.anims =
          (sample_anim_calls.filter
            fun c => c.1.getD 0 "" = e.name ∧ ¬ c.1.getD 1 "" = "-1").map
            fun c => { name := c.1.getD 1 "", ref := c.2 } := by
  have hok : ∀ c ∈ sample_anim_calls, ∃ d0 d1, c.1[0]? = some d0 ∧ c.1[1]? = some d1 := by
    intro c hc
    simp only [sample_anim_calls, List.mem_cons, List.mem_singleton, List.not_mem_nil,
      or_false] at hc
    rcases hc with rfl | rfl | rfl | rfl
    · exact ⟨"a", "-1", rfl, rfl⟩
    · exact ⟨"a", "run", rfl, rfl⟩
    · exact ⟨"b", "-1", rfl, rfl⟩
    · exact ⟨"a", "-1", rfl, rfl⟩
  exact ⟨hok, by rfl, animtree_ref_routing sample_anim_calls hok⟩

end arc

end xsk

namespace xsk

/-! ## Malformed switch tables -/

namespace arc

end arc

namespace gsc

end gsc

end xsk

namespace xsk

/-! ## Runs that read no absent operand -/

namespace utils

end utils

namespace arc

end arc

end xsk

namespace xsk

namespace gsc

/-! ## Runs of the GSC assembler that read no absent operand -/

end gsc

end xsk

namespace xsk

end xsk

namespace xsk

namespace gsc

/-- C40: for every displacement `d` with `-2^21 ≤ d < 2^21`, `assemble_offset`
passes to `write_i24` exactly `d * 2 ^ (s - 8)`, that is `d` when `offs8` is
set (whether or not `offs9` is set too), `2 * d` when only `offs9` is set and
`4 * d` otherwise; the 32-bit left shift `d * 2 ^ s` does not overflow and the
value passed lies in the signed 24-bit range. -/
theorem assemble_offset_scaling (ctx : context) (self : assembler) (d : Int)
    (h1 : -2097152 ≤ d) (h2 : d < 2097152) :
    assemble_offset ctx self d = self.write_i24 (d * 2 ^ (offset_shift ctx - 8)) ∧
    (ctx.props.offs8 = true → assemble_offset ctx self d = self.write_i24 d) ∧
    (ctx.props.offs8 = false → ctx.props.offs9 = true →
      assemble_offset ctx self d = self.write_i24 (2 * d)) ∧
    (ctx.props.offs8 = false → ctx.props.offs9 = false →
      assemble_offset ctx self d = self.write_i24 (4 * d)) ∧
    (-2147483648 ≤ d * 2 ^ offset_shift ctx ∧ d * 2 ^ offset_shift ctx < 2147483648) ∧
    (-8388608 ≤ d * 2 ^ (offset_shift ctx - 8) ∧ d * 2 ^ (offset_shift ctx - 8) < 8388608) := by
  have hsh : -2147483648 ≤ d * 2 ^ offset_shift ctx ∧ d * 2 ^ offset_shift ctx < 2147483648 := by
    rcases offset_shift_cases ctx with e | e | e <;> rw [e] <;> norm_num <;> omega
  have hval : assemble_offset ctx self d = self.write_i24 (d * 2 ^ (offset_shift ctx - 8)) := by
    have e : assemble_offset ctx self d = self.write_i24 (packed_offset ctx d) := rfl
    rw [e, packed_offset_exact ctx d hsh.1 hsh.2]
  refine ⟨hval, ?_, ?_, ?_, hsh, ?_⟩
  · intro h8
    rw [hval]
    have e : offset_shift ctx = 8 := by simp [offset_shift, h8]
    rw [e]
    norm_num
  · intro h8 h9
    rw [hval]
    have e : offset_shift ctx = 9 := by simp [offset_shift, h8, h9]
    rw [e]
    norm_num
    rw [Int.mul_comm]
  · intro h8 h9
    rw [hval]
    have e : offset_shift ctx = 10 := by simp [offset_shift, h8, h9]
    rw [e]
    norm_num
    rw [Int.mul_comm]
  · rcases offset_shift_cases ctx with e | e | e <;> rw [e] <;> norm_num <;> omega

/-- The displacement `-5`: passed as `-20` by a context without `offs8` and
`offs9`, and as `-5` by a context with `offs8`. -/
theorem assemble_offset_scaling_witness :
    assemble_offset sample_context (assembler.create sample_context 64) (-5) =
      (assembler.create sample_context 64).write_i24 (4 * -5) ∧
    assemble_offset sample_context_offs8 (assembler.create sample_context_offs8 64) (-5) =
      (assembler.create sample_context_offs8 64).write_i24 (-5) :=
  ⟨(assemble_offset_scaling sample_context (assembler.create sample_context 64) (-5)
      (by decide) (by decide)).2.2.2.1 rfl rfl,
    (assemble_offset_scaling sample_context_offs8 (assembler.create sample_context_offs8 64)
      (-5) (by decide) (by decide)).2.1 rfl⟩

end gsc

end xsk

namespace xsk

namespace gsc

/-! ## The running index of a GSC switch table -/

/-- One entry of the loop of `assemble_switch_table`: the entry takes
`entry_stride` bytes of the script and the loop goes on with the running index
advanced by the same amount. -/
theorem gsc_switch_cases_step (ctx : context) (labels : label_map) (data : List String)
    (n i index : Nat) (self self' : assembler)
    (h : assemble_switch_cases ctx labels data (n + 1) i index self = .ok self') :
    ∃ s, s.script.pos = self.script.pos + entry_stride ctx ∧
      self.script.advances s.script ∧
      assemble_switch_cases ctx labels data n (i + 1) (index + entry_stride ctx) s =
        .ok self' := by
  simp only [assemble_switch_cases, bind_eq_ok] at h
  obtain ⟨head, hhead, h⟩ := h
  split at h
  · simp only [bind_eq_ok] at h
    obtain ⟨t, ht, type, htype, h⟩ := h
    split at h
    · simp only [bind_eq_ok] at h
      obtain ⟨d, hd, v, hv, h⟩ := h
      split at h
      · rename_i hiw
        simp only [bind_eq_ok] at h
        obtain ⟨s0, hs0, l, hl, addr, haddr, s2, hs2, s3, hs3, s4, hs4, h⟩ := h
        obtain ⟨p0, a0⟩ := gsc_write_spec _ _ _ _ hs0
        obtain ⟨p2, a2⟩ := gsc_write_spec _ _ _ _ hs2
        obtain ⟨p3, a3⟩ := gsc_write_spec _ _ _ _ hs3
        obtain ⟨p4, a4⟩ := gsc_write_spec _ _ _ _ hs4
        have hstride : entry_stride ctx = 8 := by simp [entry_stride, hiw]
        rw [← hstride] at h
        exact ⟨s4, by rw [p4, p3, p2, p0, hstride],
          utils.advances_trans a0 (utils.advances_trans a2 (utils.advances_trans a3 a4)), h⟩
      · rename_i hiw
        simp only [bind_eq_ok] at h
        obtain ⟨s0, hs0, l, hl, addr, haddr, s2, hs2, h⟩ := h
        obtain ⟨p0, a0⟩ := gsc_write_spec _ _ _ _ hs0
        obtain ⟨p2, a2⟩ := assemble_offset_spec _ _ _ _ hs2
        have hstride : entry_stride ctx = 7 := by simp [entry_stride, hiw]
        rw [← hstride] at h
        exact ⟨s2, by rw [p2, p0, hstride], utils.advances_trans a0 a2, h⟩
    · simp only [bind_eq_ok] at h
      obtain ⟨s0, hs0, d, hd, str, hstr, s1, hs1, l, hl, addr, haddr, h⟩ := h
      obtain ⟨p0, a0⟩ := gsc_write_spec _ _ _ _ hs0
      have e1 := write_stack_cstr_spec _ _ _ hs1
      split at h
      · rename_i hiw
        simp only [bind_eq_ok] at h
        obtain ⟨s2, hs2, s3, hs3, s4, hs4, h⟩ := h
        obtain ⟨p2, a2⟩ := gsc_write_spec _ _ _ _ hs2
        obtain ⟨p3, a3⟩ := gsc_write_spec _ _ _ _ hs3
        obtain ⟨p4, a4⟩ := gsc_write_spec _ _ _ _ hs4
        rw [e1] at p2 a2
        have hstride : entry_stride ctx = 8 := by simp [entry_stride, hiw]
        rw [← hstride] at h
        exact ⟨s4, by rw [p4, p3, p2, p0, hstride],
          utils.advances_trans a0 (utils.advances_trans a2 (utils.advances_trans a3 a4)), h⟩
      · rename_i hiw
        simp only [bind_eq_ok] at h
        obtain ⟨s2, hs2, h⟩ := h
        obtain ⟨p2, a2⟩ := assemble_offset_spec _ _ _ _ hs2
        rw [e1] at p2 a2
        have hstride : entry_stride ctx = 7 := by simp [entry_stride, hiw]
        rw [← hstride] at h
        exact ⟨s2, by rw [p2, p0, hstride], utils.advances_trans a0 a2, h⟩
  · split at h
    · simp only [bind_eq_ok] at h
      obtain ⟨l, hl, addr, haddr, h⟩ := h
      split at h
      · rename_i hiw
        simp only [bind_eq_ok] at h
        obtain ⟨s1, hs1, s2, hs2, s3, hs3, s4, hs4, h⟩ := h
        obtain ⟨p1, a1⟩ := gsc_write_spec _ _ _ _ hs1
        obtain ⟨p2, a2⟩ := gsc_write_spec _ _ _ _ hs2
        obtain ⟨p3, a3⟩ := gsc_write_spec _ _ _ _ hs3
        obtain ⟨p4, a4⟩ := gsc_write_spec _ _ _ _ hs4
        have hstride : entry_stride ctx = 8 := by simp [entry_stride, hiw]
        rw [← hstride] at h
        exact ⟨s4, by rw [p4, p3, p2, p1, hstride],
          utils.advances_trans a1 (utils.advances_trans a2 (utils.advances_trans a3 a4)), h⟩
      · rename_i hiw
        simp only [bind_eq_ok] at h
        obtain ⟨s1, hs1, s2, hs2, s3, hs3, h⟩ := h
        obtain ⟨p1, a1⟩ := gsc_write_spec _ _ _ _ hs1
        have e2 := write_stack_cstr_spec _ _ _ hs2
        obtain ⟨p3, a3⟩ := assemble_offset_spec _ _ _ _ hs3
        rw [e2] at p3 a3
        have hstride : entry_stride ctx = 7 := by simp [entry_stride, hiw]
        rw [← hstride] at h
        exact ⟨s3, by rw [p3, p1, hstride], utils.advances_trans a1 a3, h⟩
    · cases h

/-- The state of the loop at the start of entry `k`: the running index and the
cursor have both advanced by `k` strides. -/
theorem gsc_switch_cases_at (ctx : context) (labels : label_map) (data : List String)
    (n i index : Nat) (self self' : assembler)
    (h : assemble_switch_cases ctx labels data n i index self = .ok self') :
    ∀ k, k ≤ n → ∃ s, s.script.pos = self.script.pos + entry_stride ctx * k ∧
      assemble_switch_cases ctx labels data (n - k) (i + k) (index + entry_stride ctx * k) s =
        .ok self' := by
  intro k
  induction k with
  | zero =>
    intro _
    exact ⟨self, by rw [Nat.mul_zero, Nat.add_zero], by
      rw [Nat.mul_zero, Nat.add_zero, Nat.add_zero, Nat.sub_zero]; exact h⟩
  | succ k ih =>
    intro hk
    obtain ⟨s, ps, hs⟩ := ih (by omega)
    have e : n - k = (n - (k + 1)) + 1 := by omega
    rw [e] at hs
    obtain ⟨s', ps', -, hs'⟩ := gsc_switch_cases_step _ _ _ _ _ _ _ _ hs
    refine ⟨s', ?_, ?_⟩
    · rw [ps', ps, Nat.mul_succ]
      omega
    · have e1 : i + k + 1 = i + (k + 1) := by omega
      have e2 : index + entry_stride ctx * k + entry_stride ctx =
          index + entry_stride ctx * (k + 1) := by
        rw [Nat.mul_succ]
        omega
      rw [e1, e2] at hs'
      exact hs'

end gsc

end xsk

namespace xsk

namespace gsc

/-- C39: when `assemble_switch_table` starts with the cursor just after the
opcode byte at `inst.index`, then at the start of every table entry `k`, and
after the last one, the running local index, `inst.index + 3` advanced by `k`
strides, equals the position of the script writer: the loop goes on from a
state `s` with that cursor and with that running index. The stride is 8 on
`iw9` and 7 on the other engines, the bytes one entry writes. -/
theorem gsc_switch_index_tracks (ctx : context) (labels : label_map)
    (self self' : assembler) (inst : instruction)
    (hidx : self.script.pos = inst.index + 1)
    (h : assemble_switch_table ctx labels self inst = .ok self') :
    entry_stride ctx = (if ctx.engine = engine.iw9 then 8 else 7) ∧
    ∃ d0 count, inst.data[0]? = some d0 ∧ stoul d0 = .ok count ∧
      self'.script.pos = inst.index + 3 + entry_stride ctx * count ∧
      ∀ k, k ≤ count → ∃ s,
        s.script.pos = inst.index + 3 + entry_stride ctx * k ∧
        assemble_switch_cases ctx labels inst.data (count - k) k
          (inst.index + 3 + entry_stride ctx * k) s = .ok self' := by
  refine ⟨rfl, ?_⟩
  simp only [assemble_switch_table, bind_eq_ok] at h
  obtain ⟨d0, hd0, count, hcount, s1, hs1, h⟩ := h
  rw [operand_eq_ok] at hd0
  obtain ⟨p1, -⟩ := gsc_write_spec _ _ _ _ hs1
  have hp : s1.script.pos = inst.index + 3 := by rw [p1, hidx]
  have hat := gsc_switch_cases_at _ _ _ _ _ _ _ _ h
  refine ⟨d0, count, hd0, hcount, ?_, fun k hk => ?_⟩
  · obtain ⟨s, ps, hs⟩ := hat count (Nat.le_refl _)
    rw [Nat.sub_self] at hs
    simp only [assemble_switch_cases, Except.ok.injEq] at hs
    rw [← hs, ps, hp]
  · obtain ⟨s, ps, hs⟩ := hat k hk
    rw [Nat.zero_add] at hs
    exact ⟨s, by rw [ps, hp], hs⟩

/-- The table of four entries of `sample_endswitch`, with its opcode byte at
offset 0, on an engine other than `iw9`: the cursor ends at `3 + 7 * 4 = 31`,
where the running index is after the last entry. -/
theorem gsc_switch_index_tracks_witness :
    ∃ self', assemble_switch_table sample_context [(40, "A"), (41, "B"), (42, "C"), (43, "D")]
        (sample_assembler_at sample_context 1) sample_endswitch = .ok self' ∧
      self'.script.pos = 31 := by
  have hok : (assemble_switch_table sample_context [(40, "A"), (41, "B"), (42, "C"), (43, "D")]
      (sample_assembler_at sample_context 1) sample_endswitch).toBool = true := by rfl
  cases hrun : assemble_switch_table sample_context [(40, "A"), (41, "B"), (42, "C"), (43, "D")]
      (sample_assembler_at sample_context 1) sample_endswitch with
  | error e =>
    rw [hrun] at hok
    cases hok
  | ok self' =>
    obtain ⟨-, d0, count, hd0, hcount, hp, -⟩ := gsc_switch_index_tracks sample_context
      [(40, "A"), (41, "B"), (42, "C"), (43, "D")] (sample_assembler_at sample_context 1) self'
      sample_endswitch rfl hrun
    cases hd0
    have hc : (Except.ok 4 : Except asm_error Nat) = .ok count := hcount
    cases hc
    exact ⟨self', rfl, hp⟩

end gsc

end xsk

namespace xsk

/-! ## Label lookup -/

theorem resolve_label_mem (labels : label_map) (name : String) (k : Nat)
    (h : resolve_label labels name = .ok k) : (k, name) ∈ labels := by
  unfold resolve_label at h
  split at h
  · rename_i e he
    cases h
    have hm := List.mem_of_find?_eq_some he
    have hn := List.find?_some he
    have hn' : e.2 = name := by simpa using hn
    rw [← hn']
    exact hm
  · cases h

theorem resolve_label_first (pre : label_map) (k : Nat) (name : String) (post : label_map)
    (h : ∀ e ∈ pre, e.2 ≠ name) : resolve_label (pre ++ (k, name) :: post) name = .ok k := by
  unfold resolve_label
  have hp : pre.find? (fun e => e.2 == name) = none := by
    rw [List.find?_eq_none]
    intro e he hk
    exact h e he (by simpa using hk)
  rw [List.find?_append, hp]
  simp

theorem resolve_label_of_mem (labels : label_map) (name : String) (k : Nat)
    (h : (k, name) ∈ labels) : ∃ k', resolve_label labels name = .ok k' := by
  unfold resolve_label
  cases hf : labels.find? (fun e => e.2 == name) with
  | some e => exact ⟨e.1, rfl⟩
  | none =>
    rw [List.find?_eq_none] at hf
    exact absurd (by simp) (hf _ h)

theorem resolve_label_error (labels : label_map) (name : String) (e : asm_error)
    (h : resolve_label labels name = .error e) :
    e = asm_error.unresolved_label ∧ ¬ ∃ k, (k, name) ∈ labels := by
  constructor
  · unfold resolve_label at h
    split at h
    · cases h
    · cases h
      rfl
  · rintro ⟨k, hk⟩
    obtain ⟨k', hk'⟩ := resolve_label_of_mem _ _ _ hk
    rw [hk'] at h
    cases h

namespace gsc

/-- `resolve_function` reads the name and the offset of a function only. -/
theorem resolve_function_relabel (funcs : List function) (L : function → label_map)
    (n : String) :
    resolve_function (funcs.map fun g => { g with labels := L g }) n =
      resolve_function funcs n := by
  unfold resolve_function
  induction funcs with
  | nil => rfl
  | cons g funcs ih =>
    simp only [List.map_cons, List.find?_cons]
    by_cases hg : (g.name == n) = true
    · simp only [hg]
    · have hg' : (g.name == n) = false := by simpa using hg
      simp only [hg']
      exact ih

/-- The emission of the operands looks functions up by `resolve_function` only. -/
theorem assemble_operands_funcs (ctx : context) (funcs funcs' : List function)
    (labels : label_map) (self : assembler) (inst : instruction)
    (h : ∀ n, resolve_function funcs n = resolve_function funcs' n) :
    assemble_operands ctx funcs labels self inst =
      assemble_operands ctx funcs' labels self inst := by
  obtain ⟨op, ps, idx, sz, data⟩ := inst
  cases op <;> first
    | rfl
    | simp only [assemble_operands, assemble_call_far, assemble_call_far2, assemble_call_local, h]

theorem assemble_instructions_funcs (ctx : context) (funcs funcs' : List function)
    (labels : label_map) (is : List instruction) (self : assembler)
    (h : ∀ n, resolve_function funcs n = resolve_function funcs' n) :
    assemble_instructions ctx funcs labels is self =
      assemble_instructions ctx funcs' labels is self := by
  induction is generalizing self with
  | nil => rfl
  | cons i is ih =>
    simp only [assemble_instructions, assemble_instruction,
      assemble_operands_funcs ctx funcs funcs' _ _ _ h, ih]

theorem assemble_function_funcs (ctx : context) (funcs funcs' : List function)
    (self : assembler) (f : function)
    (h : ∀ n, resolve_function funcs n = resolve_function funcs' n) :
    assemble_function ctx funcs self f = assemble_function ctx funcs' self f := by
  simp only [assemble_function, assemble_instructions_funcs ctx funcs funcs' _ _ _ h]

end gsc

end xsk

namespace xsk

/-- C36: `resolve_label(name)`, the same in ARC and GSC, is given the label map
of the current function and nothing else. It returns an offset `k` only if the
map has an entry `(k, name)`; it returns if and only if some entry has the value
`name`, namely the key of the first such entry in iteration order; and it fails,
with the error of an unresolved label, if and only if no entry has that value.
Labels of other functions are not consulted: the emission of a GSC function
reads the other functions through `resolve_function` only, which is unchanged
when their label maps are replaced, and the emission of an ARC function
resolves against the relocated label map of that function. -/
theorem resolve_label_search (labels : label_map) (name : String) :
    (∀ k, resolve_label labels name = .ok k → (k, name) ∈ labels) ∧
    ((∃ k, (k, name) ∈ labels) ↔ ∃ k, resolve_label labels name = .ok k) ∧
    ((¬ ∃ k, (k, name) ∈ labels) ↔
      resolve_label labels name = .error asm_error.unresolved_label) ∧
    (∀ e, resolve_label labels name = .error e → e = asm_error.unresolved_label) ∧
    (∀ pre k post, labels = pre ++ (k, name) :: post → (∀ e ∈ pre, e.2 ≠ name) →
      resolve_label labels name = .ok k) ∧
    (∀ (ctx : gsc.context) (funcs funcs' : List gsc.function) (self : gsc.assembler)
      (f : gsc.function),
      (∀ n, gsc.resolve_function funcs n = gsc.resolve_function funcs' n) →
      gsc.assemble_function ctx funcs self f = gsc.assemble_function ctx funcs' self f) ∧
    (∀ (funcs : List gsc.function) (L : gsc.function → label_map) (n : String),
      gsc.resolve_function (funcs.map fun g => { g with labels := L g }) n =
        gsc.resolve_function funcs n) ∧
    (∀ (ctx : arc.context) (self : arc.assembler) (func : arc.function)
      (r : arc.function × arc.assembler), arc.assemble_function ctx self func = .ok r →
      ∃ s s2, arc.assemble_instructions ctx r.1.labels r.1.instructions s = .ok s2 ∧
        r.2.script = s2.script) := by
  refine ⟨resolve_label_mem labels name, ?_, ?_, ?_, ?_, ?_, ?_, ?_⟩
  · constructor
    · rintro ⟨k, hk⟩
      exact resolve_label_of_mem _ _ _ hk
    · rintro ⟨k, hk⟩
      exact ⟨k, resolve_label_mem _ _ _ hk⟩
  · constructor
    · intro hn
      cases h : resolve_label labels name with
      | ok k => exact absurd ⟨k, resolve_label_mem _ _ _ h⟩ hn
      | error e => rw [(resolve_label_error _ _ _ h).1]
    · intro h
      exact (resolve_label_error _ _ _ h).2
  · intro e h
    exact (resolve_label_error _ _ _ h).1
  · intro pre k post hl hpre
    rw [hl]
    exact resolve_label_first pre k name post hpre
  · intro ctx funcs funcs' self f h
    exact gsc.assemble_function_funcs ctx funcs funcs' self f h
  · intro funcs L n
    exact gsc.resolve_function_relabel funcs L n
  · intro ctx self func r h
    simp only [arc.assemble_function, bind_eq_ok, pure, Except.pure, Except.ok.injEq] at h
    obtain ⟨r0, -, s2, hemit, rfl⟩ := h
    exact ⟨_, s2, hemit, rfl⟩

/-- A map with the label `a` at offsets 4 and 12 and the label `b` at 9:
`a` resolves to 4, the first entry, and `c` does not resolve. -/
theorem resolve_label_search_witness :
    resolve_label [(4, "a"), (9, "b"), (12, "a")] "a" = .ok 4 ∧
    (4, "a") ∈ ([(4, "a"), (9, "b"), (12, "a")] : label_map) ∧
    resolve_label [(4, "a"), (9, "b"), (12, "a")] "c" = .error asm_error.unresolved_label :=
  ⟨(resolve_label_search [(4, "a"), (9, "b"), (12, "a")] "a").2.2.2.2.1 [] 4
      [(9, "b"), (12, "a")] rfl (fun e he => by cases he),
    (resolve_label_search [(4, "a"), (9, "b"), (12, "a")] "a").1 4 (by rfl),
    (resolve_label_search [(4, "a"), (9, "b"), (12, "a")] "c").2.2.1.1 (by
      rintro ⟨k, hk⟩
      simp at hk)⟩

end xsk

namespace xsk

namespace arc

/-! ## The table of an `EndSwitch` in the script -/

/-- An instruction is its opcode byte, then its operands. -/
theorem arc_instruction_split (ctx : context) (labels : label_map) (self self' : assembler)
    (inst : instruction) (h : assemble_instruction ctx labels self inst = .ok self') :
    ∃ id s2, ctx.opcode_id inst.opcode = some id ∧
      s2.script.pos = self.script.pos + 1 ∧ self.script.advances s2.script ∧
      assemble_operands ctx labels s2 inst = .ok self' := by
  unfold assemble_instruction at h
  split at h
  · cases h
  · rename_i id hid
    simp only [bind_eq_ok] at h
    obtain ⟨s1, h1, s2, h2, h⟩ := h
    have e1 := emitted_write _ _ _ _ h1
    obtain ⟨d1, -⟩ := write_devmap_entry_spec _ _ _ _ h2
    exact ⟨id, s2, hid, by rw [d1, e1.pos], by rw [d1]; exact e1.frame.script, h⟩

theorem arc_operands_endswitch (ctx : context) (labels : label_map) (self : assembler)
    (inst : instruction) (hop : inst.opcode = opcode.OP_EndSwitch) :
    assemble_operands ctx labels self inst = assemble_switch_table labels self inst := by
  obtain ⟨op, ps, idx, sz, data⟩ := inst
  simp only at hop
  subst hop
  rfl

theorem arc_operands_switch (ctx : context) (labels : label_map) (self : assembler)
    (inst : instruction) (hop : inst.opcode = opcode.OP_Switch) :
    assemble_operands ctx labels self inst = assemble_switch labels self inst := by
  obtain ⟨op, ps, idx, sz, data⟩ := inst
  simp only at hop
  subst hop
  rfl

/-- The table an `EndSwitch` emits when its opcode byte is at the cursor: the
count at the next multiple of 4 after the opcode byte, then the entries. -/
theorem arc_endswitch_emitted (ctx : context) (labels : label_map) (self self' : assembler)
    (inst : instruction) (hop : inst.opcode = opcode.OP_EndSwitch)
    (h : assemble_instruction ctx labels self inst = .ok self') :
    (∃ d0, inst.data[0]? = some d0 ∧ stoul d0 = .ok (switch_count inst.data)) ∧
    self'.script.read (utils.writer.align_up (self.script.pos + 1) 4) 4 =
      switch_count inst.data % 4294967296 ∧
    ∀ k, k < switch_count inst.data →
      switch_entry_written labels inst.data self'.script k
        (utils.writer.align_up (self.script.pos + 1) 4 + 4 + 8 * k) := by
  obtain ⟨id, s2, -, p2, -, h⟩ := arc_instruction_split _ _ _ _ _ h
  rw [arc_operands_endswitch _ _ _ _ hop] at h
  obtain ⟨-, hc, hr, hent⟩ := assemble_switch_table_spec _ _ _ _ h
  rw [p2] at hr hent
  exact ⟨hc, hr, hent⟩

/-- Rounding `L + 4` down to a multiple of 4 is rounding `L + 1` up. -/
theorem align_up_succ_4 (L : Nat) : utils.writer.align_up (L + 1) 4 = (L + 4) / 4 * 4 := by
  unfold utils.writer.align_up
  rfl

end arc

end xsk

namespace xsk

namespace arc

/-- C38: for every offset `L`, `(L + 4) & ~3`, written `(L + 4) / 4 * 4`, is the
smallest multiple of 4 that is at least `L + 1`, and it is the value of the
expression `(L + 4) & 0xFFFFFFFC` of the code when `L + 4 < 2^32`. An
`EndSwitch` whose opcode byte is emitted at `L` writes its 4-byte count at that
offset. Hence a `Switch` whose label resolves to `L` writes, modulo `2^32`, the
distance from its end `index + size` to the count field of the `EndSwitch`
emitted at `L`. -/
theorem arc_switch_table_base (L : Nat) :
    utils.writer.align_up (L + 1) 4 = (L + 4) / 4 * 4 ∧
    4 ∣ (L + 4) / 4 * 4 ∧ L + 1 ≤ (L + 4) / 4 * 4 ∧
    (∀ m, 4 ∣ m → L + 1 ≤ m → (L + 4) / 4 * 4 ≤ m) ∧
    (L + 4 < 4294967296 → (L + 4) &&& 0xFFFFFFFC = (L + 4) / 4 * 4) ∧
    (∀ (ctx : context) (labels : label_map) (self self' : assembler) (inst : instruction),
      inst.opcode = opcode.OP_EndSwitch → self.script.pos = L →
      assemble_instruction ctx labels self inst = .ok self' →
      ∃ d0 count, inst.data[0]? = some d0 ∧ stoul d0 = .ok count ∧
        self'.script.read ((L + 4) / 4 * 4) 4 = count % 4294967296) ∧
    (∀ (ctx : context) (labels : label_map) (self self' : assembler) (sw : instruction)
      (name : String), sw.opcode = opcode.OP_Switch → sw.data[0]? = some name →
      resolve_label labels name = .ok L →
      assemble_operands ctx labels self sw = .ok self' →
      self'.script.read (utils.writer.align_up self.script.pos 4) 4 =
        (((((L + 4) / 4 * 4 : Nat) : Int) - ((sw.index : Int) + (sw.size : Int))) %
          4294967296).toNat) := by
  refine ⟨align_up_succ_4 L, ⟨(L + 4) / 4, by rw [Nat.mul_comm]⟩, by omega, ?_, ?_, ?_, ?_⟩
  · rintro m ⟨c, rfl⟩ hm
    omega
  · intro hL
    rw [land_fffffffc, Nat.mod_eq_of_lt hL]
  · intro ctx labels self self' inst hop hpos h
    obtain ⟨⟨d0, hd0, hc⟩, hr, -⟩ := arc_endswitch_emitted _ _ _ _ _ hop h
    rw [hpos, align_up_succ_4] at hr
    exact ⟨d0, _, hd0, hc, hr⟩
  · intro ctx labels self self' sw name hop hname hlabel h
    rw [arc_operands_switch _ _ _ _ hop] at h
    obtain ⟨-, name', addr, hn, hl, hr⟩ := assemble_switch_spec _ _ _ _ h
    rw [hname] at hn
    cases hn
    rw [hlabel] at hl
    cases hl
    rw [hr, switch_value_mod]

/-- Scenario S3 as relocated: the `EndSwitch` emitted at offset 86 writes its
count 2 at offset 88, the smallest multiple of 4 above 86. -/
theorem arc_switch_table_base_witness :
    (86 + 4) / 4 * 4 = 88 ∧
    ∃ self', assemble_instruction sample_context [(84, "L5"), (85, "LD"), (86, "tbl")]
        ((assembler.create sample_context 4096).seek 86)
        { scenario_S3_endswitch with index := 86, size := 22 } = .ok self' ∧
      self'.script.read 88 4 = 2 := by
  refine ⟨by decide, ?_⟩
  have hok : (assemble_instruction sample_context [(84, "L5"), (85, "LD"), (86, "tbl")]
      ((assembler.create sample_context 4096).seek 86)
      { scenario_S3_endswitch with index := 86, size := 22 }).toBool = true := by rfl
  cases hrun : assemble_instruction sample_context [(84, "L5"), (85, "LD"), (86, "tbl")]
      ((assembler.create sample_context 4096).seek 86)
      { scenario_S3_endswitch with index := 86, size := 22 } with
  | error e =>
    rw [hrun] at hok
    cases hok
  | ok self' =>
    obtain ⟨d0, count, hd0, hcount, hr⟩ := (arc_switch_table_base 86).2.2.2.2.2.1 sample_context
      [(84, "L5"), (85, "LD"), (86, "tbl")] ((assembler.create sample_context 4096).seek 86)
      self' { scenario_S3_endswitch with index := 86, size := 22 } rfl rfl hrun
    cases hd0
    have hc : (Except.ok 2 : Except asm_error Nat) = .ok count := hcount
    cases hc
    exact ⟨self', rfl, hr⟩

end arc

end xsk

namespace xsk

namespace gsc

/-! ## Token pairs and field names -/

/-- A name written to the stack when its identifier is 0, then the rest. -/
theorem name_step_spec (s r : assembler) (id : Nat) (nm : String)
    (k : assembler → Except asm_error assembler)
    (h : (if id = 0 then do
        let t ← encrypt_string nm
        let y ← s.write_stack_cstr t
        k y
      else do
        let y ← pure s
        k y) = .ok r) :
    ∃ y pn, k y = .ok r ∧ y.stack.bytes = s.stack.bytes ++ pn ∧
      y.stack.swap = s.stack.swap ∧ y.script = s.script ∧
      (id ≠ 0 → pn = []) ∧ (id = 0 → ∃ t, encrypt_string nm = .ok t ∧ pn = t ++ [0]) := by
  split at h
  · rename_i hz
    simp only [bind_eq_ok] at h
    obtain ⟨t, ht, y, hy, h⟩ := h
    obtain ⟨b, w, e⟩ := gsc_write_stack_cstr_bytes _ _ _ hy
    exact ⟨y, t ++ [0], h, b, w, e, fun hn => absurd hz hn, fun _ => ⟨t, ht, rfl⟩⟩
  · rename_i hz
    exact ⟨s, [], h, by rw [List.append_nil], rfl, rfl, fun _ => rfl, fun h0 => absurd h0 hz⟩

theorem name_step_returns (s : assembler) (id : Nat) (nm : String)
    (k : assembler → Except asm_error assembler) (t : List Nat)
    (ht : id = 0 → encrypt_string nm = .ok t)
    (hroom : s.stack.pos + (if id = 0 then t.length + 1 else 0) ≤ s.stack.size) :
    ∃ y, (if id = 0 then do
        let t ← encrypt_string nm
        let y ← s.write_stack_cstr t
        k y
      else do
        let y ← pure s
        k y) = k y ∧ y.script = s.script ∧
      y.stack.pos = s.stack.pos + (if id = 0 then t.length + 1 else 0) ∧
      y.stack.size = s.stack.size := by
  by_cases hz : id = 0
  · rw [if_pos hz] at hroom
    obtain ⟨w, hw, h3⟩ := write_stack_cstr_of_fits s t hroom
    obtain ⟨-, h2, -, h4, -⟩ := utils.put_ok _ _ _ hw
    refine Exists.intro { s with stack := w } ⟨?_, rfl, ?_, h4⟩
    · rw [if_pos hz]
      simp only [ht hz, h3, except_ok_bind]
    · show w.pos = _
      rw [h2, if_pos hz, List.length_append, List.length_singleton]
  · refine Exists.intro s ⟨?_, rfl, ?_, rfl⟩
    · rw [if_neg hz]
      rfl
    · rw [if_neg hz]
      rfl

/-- What a far call writes in a context without `farcall`: the two token
identifiers in the stack, each followed by the decoded string and a NUL when it
is 0, and three zero bytes, then perhaps the argument count, in the script. -/
theorem far_tokens_spec (ctx : context) (funcs : List function)
    (self self' : assembler) (inst : instruction) (thread : Bool)
    (hfar : ctx.props.farcall = false)
    (h : assemble_call_far ctx funcs self inst thread = .ok self') :
    ∃ p name pn nn targs, inst.data[0]? = some p ∧ inst.data[1]? = some name ∧
      self'.stack.bytes = self.stack.bytes ++
        utils.writer.int_bytes self.stack.swap (if ctx.props.tok4 then 4 else 2)
          (ctx.token_id p) ++ pn ++
        utils.writer.int_bytes self.stack.swap (if ctx.props.tok4 then 4 else 2)
          (ctx.token_id name) ++ nn ∧
      self'.script.bytes = self.script.bytes ++ [0, 0, 0] ++ targs ∧
      (ctx.token_id p ≠ 0 → pn = []) ∧
      (ctx.token_id p = 0 →
        ∃ t, encrypt_string (far_token_path ctx p) = .ok t ∧ pn = t ++ [0]) ∧
      (ctx.token_id name ≠ 0 → nn = []) ∧
      (ctx.token_id name = 0 → ∃ t, encrypt_string name = .ok t ∧ nn = t ++ [0]) ∧
      (thread = false → targs = []) ∧
      (thread = true → ∃ d v, inst.data[2]? = some d ∧ stoi d = .ok v ∧ targs = [to_u8 v]) := by
  unfold assemble_call_far at h
  rw [if_neg (by rw [hfar]; decide)] at h
  rw [bind_eq_ok] at h
  obtain ⟨p, hp, h⟩ := h
  rw [bind_eq_ok] at h
  obtain ⟨name, hname, h⟩ := h
  rw [operand_eq_ok] at hp hname
  dsimp only at h
  rw [bind_eq_ok] at h
  obtain ⟨s1, hs1, h⟩ := h
  obtain ⟨b1, -, w1, -, k1⟩ := gsc_write_stack_bytes _ _ _ _ hs1
  obtain ⟨s2, pn, h, b2, w2, k2, pn0, pn1⟩ := name_step_spec s1 self' (ctx.token_id p)
    (if ctx.props.extension = true then p ++ extension_of ctx else p) _ h
  rw [bind_eq_ok] at h
  obtain ⟨s3, hs3, h⟩ := h
  obtain ⟨b3, -, w3, -, k3⟩ := gsc_write_stack_bytes _ _ _ _ hs3
  obtain ⟨s4, nn, h, b4, w4, k4, nn0, nn1⟩ := name_step_spec s3 self' (ctx.token_id name)
    name _ h
  simp only [bind_eq_ok] at h
  obtain ⟨s5, hs5, s6, hs6, h⟩ := h
  obtain ⟨b5, -, w5, -, k5⟩ := gsc_write_bytes _ _ _ _ hs5
  obtain ⟨b6, -, w6, -, k6⟩ := gsc_write_bytes _ _ _ _ hs6
  obtain ⟨est, targs, eb, t1, t2⟩ := write_thread_args_bytes _ _ _ _ _ h
  refine ⟨p, name, pn, nn, targs, hp, hname, ?_, ?_, pn0, pn1, nn0, nn1, t1, t2⟩
  · rw [est, k6, k5, b4, b3, w2, b2, b1, w1]
  · rw [eb, b6, b5, k4, k3, k2, k1]
    have e1 : ∀ b, utils.writer.int_bytes b 1 0 = [0] := by
      intro b
      cases b <;> rfl
    have e2 : ∀ b, utils.writer.int_bytes b 2 0 = [0, 0] := by
      intro b
      cases b <;> rfl
    rw [e1, e2]
    simp only [List.append_assoc, List.singleton_append, List.cons_append, List.nil_append]

/-- A far call of a context without `farcall` is emitted when its operands are
there, the names to be written decode and the buffers have room. -/
theorem far_tokens_returns (ctx : context) (funcs : List function)
    (self : assembler) (inst : instruction) (thread : Bool) (p name : String)
    (tp tn : List Nat)
    (hfar : ctx.props.farcall = false)
    (h0 : inst.data[0]? = some p) (h1 : inst.data[1]? = some name)
    (hp : ctx.token_id p = 0 → encrypt_string (far_token_path ctx p) = .ok tp)
    (hn : ctx.token_id name = 0 → encrypt_string name = .ok tn)
    (hk : self.stack.pos + 2 * (if ctx.props.tok4 then 4 else 2) +
      (if ctx.token_id p = 0 then tp.length + 1 else 0) +
      (if ctx.token_id name = 0 then tn.length + 1 else 0) ≤ self.stack.size)
    (hs : self.script.pos + 3 + (if thread then 1 else 0) ≤ self.script.size)
    (ht : thread = true → ∃ d v, inst.data[2]? = some d ∧ stoi d = .ok v) :
    ∃ self', assemble_call_far ctx funcs self inst thread = .ok self' := by
  rw [← operand_eq_ok] at h0 h1
  unfold assemble_call_far
  rw [if_neg (by rw [hfar]; decide)]
  simp only [h0, h1, except_ok_bind]
  obtain ⟨s1, hs1⟩ := gsc_write_stack_of_fits self (if ctx.props.tok4 then 4 else 2)
    (ctx.token_id p) (by omega)
  obtain ⟨-, p1, -, z1, k1⟩ := gsc_write_stack_bytes _ _ _ _ hs1
  simp only [hs1, except_ok_bind]
  obtain ⟨s2, e2, k2, p2, z2⟩ := name_step_returns s1 (ctx.token_id p)
    (if ctx.props.extension = true then p ++ extension_of ctx else p)
    (fun y => do
      let self3 ← y.write_stack (if ctx.props.tok4 = true then 4 else 2) (ctx.token_id name)
      if ctx.token_id name = 0 then do
          let s ← encrypt_string name
          let y ← self3.write_stack_cstr s
          let self5 ← y.write 1 0
          let self6 ← self5.write 2 0
          write_thread_args self6 inst thread 2
        else do
          let y ← pure self3
          let self5 ← y.write 1 0
          let self6 ← self5.write 2 0
          write_thread_args self6 inst thread 2) tp hp (by rw [p1, z1]; omega)
  rw [e2]
  obtain ⟨s3, hs3⟩ := gsc_write_stack_of_fits s2 (if ctx.props.tok4 then 4 else 2)
    (ctx.token_id name) (by rw [p2, z2, p1, z1]; omega)
  obtain ⟨-, p3, -, z3, k3⟩ := gsc_write_stack_bytes _ _ _ _ hs3
  simp only [hs3, except_ok_bind]
  obtain ⟨s4, e4, k4, p4, z4⟩ := name_step_returns s3 (ctx.token_id name) name
    (fun y => do
      let self5 ← y.write 1 0
      let self6 ← self5.write 2 0
      write_thread_args self6 inst thread 2) tn hn (by rw [p3, z3, p2, z2, p1, z1]; omega)
  rw [e4]
  obtain ⟨s5, hs5⟩ := gsc_write_returns s4 1 0 (by rw [k4, k3, k2, k1]; omega)
  obtain ⟨-, p5, -, z5, -⟩ := gsc_write_bytes _ _ _ _ hs5
  obtain ⟨s6, hs6⟩ := gsc_write_returns s5 2 0 (by rw [p5, z5, k4, k3, k2, k1]; omega)
  obtain ⟨-, p6, -, z6, -⟩ := gsc_write_bytes _ _ _ _ hs6
  simp only [hs5, hs6, except_ok_bind]
  exact write_thread_args_returns _ _ _ _ (by rw [p6, z6, p5, z5, k4, k3, k2, k1]; omega) ht

/-- The field-variable opcodes go to `assemble_field`. -/
theorem assemble_operands_field (ctx : context) (funcs : List function) (labels : label_map)
    (self : assembler) (inst : instruction) (hop : field_op inst.opcode = true) :
    assemble_operands ctx funcs labels self inst = assemble_field ctx self inst := by
  obtain ⟨op, ps, idx, sz, data⟩ := inst
  cases op <;> first | rfl | (simp only [field_op] at hop; cases hop)

/-- What `assemble_field` writes. -/
theorem assemble_field_spec (ctx : context) (self self' : assembler) (inst : instruction)
    (h : assemble_field ctx self inst = .ok self') :
    ∃ name, inst.data[0]? = some name ∧
      (ctx.props.hash = true →
        self'.script.bytes = self.script.bytes ++
          utils.writer.int_bytes self.script.swap 8 (ctx.hash_id name) ∧
        self'.stack = self.stack) ∧
      (ctx.props.hash = false →
        self'.script.bytes = self.script.bytes ++
          utils.writer.int_bytes self.script.swap (if ctx.props.tok4 then 4 else 2)
            (field_id ctx name) ∧
        (¬ ctx.str_count < field_id ctx name → self'.stack = self.stack) ∧
        (ctx.str_count < field_id ctx name → ∃ t, encrypt_string name = .ok t ∧
          self'.stack.bytes = self.stack.bytes ++
            utils.writer.int_bytes self.stack.swap (if ctx.props.tok4 then 4 else 2) 0 ++
            t ++ [0])) := by
  unfold assemble_field at h
  rw [bind_eq_ok] at h
  obtain ⟨name, hname, h⟩ := h
  rw [operand_eq_ok] at hname
  refine ⟨name, hname, ?_, ?_⟩
  · intro hh
    rw [if_pos hh] at h
    obtain ⟨b, -, -, -, k⟩ := gsc_write_bytes _ _ _ _ h
    exact ⟨b, k⟩
  · intro hh
    rw [if_neg (by rw [hh]; decide)] at h
    dsimp only at h
    rw [bind_eq_ok] at h
    obtain ⟨s1, hs1, h⟩ := h
    obtain ⟨b1, -, w1, -, k1⟩ := gsc_write_bytes _ _ _ _ hs1
    have hb : self'.script = s1.script ∧
        (¬ ctx.str_count < field_id ctx name → self'.stack = s1.stack) ∧
        (ctx.str_count < field_id ctx name → ∃ t, encrypt_string name = .ok t ∧
          self'.stack.bytes = s1.stack.bytes ++
            utils.writer.int_bytes s1.stack.swap (if ctx.props.tok4 then 4 else 2) 0 ++
            t ++ [0]) := by
      have h' : (if ctx.str_count < field_id ctx name then (do
          let self2 ← s1.write_stack (if ctx.props.tok4 = true then 4 else 2) 0
          let s ← encrypt_string name
          self2.write_stack_cstr s) else pure s1) = .ok self' := h
      by_cases hc : ctx.str_count < field_id ctx name
      · rw [if_pos hc] at h'
        simp only [bind_eq_ok] at h'
        obtain ⟨s2, hs2, t, ht, h'⟩ := h'
        obtain ⟨b2, -, w2, -, k2⟩ := gsc_write_stack_bytes _ _ _ _ hs2
        obtain ⟨b3, -, k3⟩ := gsc_write_stack_cstr_bytes _ _ _ h'
        refine ⟨by rw [k3, k2], fun hn => absurd hc hn, fun _ => ⟨t, ht, ?_⟩⟩
        rw [b3, b2]
        simp only [List.append_assoc]
      · rw [if_neg hc] at h'
        cases h'
        exact ⟨rfl, fun _ => rfl, fun hp => absurd hp hc⟩
    obtain ⟨e1, e2, e3⟩ := hb
    refine ⟨by rw [e1, b1]; rfl, fun hn => by rw [e2 hn, k1], fun hp => ?_⟩
    obtain ⟨t, ht, hs⟩ := e3 hp
    exact ⟨t, ht, by rw [hs, k1]⟩

/-- A field name is emitted when the operand is there, the name decodes where it
is written and the buffers have room. -/
theorem assemble_field_returns (ctx : context) (self : assembler) (inst : instruction)
    (name : String) (t : List Nat) (h0 : inst.data[0]? = some name)
    (ht : ctx.props.hash = false → ctx.str_count < field_id ctx name →
      encrypt_string name = .ok t)
    (hs : self.script.pos + (if ctx.props.hash then 8 else if ctx.props.tok4 then 4 else 2) ≤
      self.script.size)
    (hk : ctx.props.hash = false → ctx.str_count < field_id ctx name →
      self.stack.pos + (if ctx.props.tok4 then 4 else 2) + t.length + 1 ≤ self.stack.size) :
    ∃ self', assemble_field ctx self inst = .ok self' := by
  rw [← operand_eq_ok] at h0
  unfold assemble_field
  simp only [h0, except_ok_bind]
  by_cases hh : ctx.props.hash = true
  · rw [if_pos hh] at hs ⊢
    exact gsc_write_returns _ _ _ hs
  · rw [if_neg hh] at hs ⊢
    have hh' : ctx.props.hash = false := by simpa using hh
    obtain ⟨s1, hs1⟩ := gsc_write_returns self (if ctx.props.tok4 then 4 else 2)
      (field_id ctx name) hs
    obtain ⟨-, -, -, -, k1⟩ := gsc_write_bytes _ _ _ _ hs1
    have hs1' : self.write (if ctx.props.tok4 = true then 4 else 2)
        (if ctx.token_id name = 0 then 4294967295 else ctx.token_id name) = .ok s1 := hs1
    simp only [hs1', except_ok_bind]
    by_cases hc : ctx.str_count < field_id ctx name
    · have hc' : ctx.str_count <
          (if ctx.token_id name = 0 then 4294967295 else ctx.token_id name) := hc
      rw [if_pos hc']
      have hroom := hk hh' hc
      obtain ⟨s2, hs2⟩ := gsc_write_stack_of_fits s1 (if ctx.props.tok4 then 4 else 2) 0
        (by rw [k1]; omega)
      obtain ⟨-, p2, -, z2, -⟩ := gsc_write_stack_bytes _ _ _ _ hs2
      obtain ⟨w, -, h3⟩ := write_stack_cstr_of_fits s2 t (by rw [p2, z2, k1]; omega)
      simp only [hs2, ht hh' hc, h3, except_ok_bind]
      exact ⟨_, rfl⟩
    · have hc' : ¬ ctx.str_count <
          (if ctx.token_id name = 0 then 4294967295 else ctx.token_id name) := hc
      rw [if_neg hc']
      exact ⟨_, rfl⟩

end gsc

end xsk

namespace xsk

namespace gsc

/-- C31, as stated, fails on a path written in the `_encstr_` form: with the
token id 0 the far call `"_encstr_6162" "f"` puts the decoded bytes `a b` and a
NUL into the stack, not the twelve characters of the path. -/
theorem far_call_tokens_counterexample :
    far_call_thread sample_far_encoded.opcode = some false ∧
    sample_context.props.farcall = false ∧ sample_context.props.extension = false ∧
    sample_context.token_id "_encstr_6162" = 0 ∧
    (assemble_instruction sample_context [] [] (assembler.create sample_context 64)
      sample_far_encoded).toOption.map (fun s => s.stack.bytes) =
        some [0, 0, 0x61, 0x62, 0, 0, 0, 0x66, 0] ∧
    (assemble_instruction sample_context [] [] (assembler.create sample_context 64)
      sample_far_encoded).toOption.map (fun s => s.stack.bytes) ≠
        some ([0, 0] ++ str_bytes "_encstr_6162" ++ [0] ++ [0, 0] ++ str_bytes "f" ++ [0]) := by
  refine ⟨rfl, rfl, rfl, rfl, by rfl, ?_⟩
  have e : (assemble_instruction sample_context [] [] (assembler.create sample_context 64)
      sample_far_encoded).toOption.map (fun s => s.stack.bytes) =
        some [0, 0, 0x61, 0x62, 0, 0, 0, 0x66, 0] := by rfl
  rw [e]
  decide

/-- C31, amended: in a context without `farcall`, a far-call instruction with
the path `p` and the name `name` adds to the script its opcode byte, three zero
bytes and, for the thread variants, one argument-count byte, and adds to the
stack `token_id p` (4 bytes with `tok4`, otherwise 2), then, exactly when that
id is 0, the bytes `encrypt_string` returns for the path (with `.gsc` on a
server instance or `.csc` on a client instance appended exactly when the
`extension` flag is set) and a NUL, then `token_id name` at the same width and,
exactly when that id is 0, the bytes `encrypt_string` returns for the name and a
NUL. `encrypt_string` leaves a string unchanged unless it starts with
`_encstr_` and has even length. The instruction is emitted whenever the opcode
has an id, the strings to be written decode, the buffers have room and the
argument count of a thread variant is a number. -/
theorem far_call_tokens (ctx : context) (funcs : List function) (labels : label_map)
    (self : assembler) (inst : instruction) (thread : Bool) (p name : String)
    (hop : far_call_thread inst.opcode = some thread)
    (hfar : ctx.props.farcall = false)
    (h0 : inst.data[0]? = some p) (h1 : inst.data[1]? = some name) :
    (ctx.props.extension = true → ctx.inst = instance_kind.server →
      far_token_path ctx p = p ++ ".gsc") ∧
    (ctx.props.extension = true → ctx.inst = instance_kind.client →
      far_token_path ctx p = p ++ ".csc") ∧
    (ctx.props.extension = false → far_token_path ctx p = p) ∧
    (∀ s, ¬ ((str_bytes s).take 8 = str_bytes "_encstr_" ∧ (str_bytes s).length % 2 = 0) →
      encrypt_string s = .ok (str_bytes s)) ∧
    (∀ self', assemble_instruction ctx funcs labels self inst = .ok self' →
      ∃ id pn nn targs, ctx.opcode_id inst.opcode = some id ∧
        self'.script.bytes = self.script.bytes ++ [id % 256] ++ [0, 0, 0] ++ targs ∧
        self'.stack.bytes = self.stack.bytes ++
          utils.writer.int_bytes self.stack.swap (if ctx.props.tok4 then 4 else 2)
            (ctx.token_id p) ++ pn ++
          utils.writer.int_bytes self.stack.swap (if ctx.props.tok4 then 4 else 2)
            (ctx.token_id name) ++ nn ∧
        (ctx.token_id p ≠ 0 → pn = []) ∧
        (ctx.token_id p = 0 →
          ∃ t, encrypt_string (far_token_path ctx p) = .ok t ∧ pn = t ++ [0]) ∧
        (ctx.token_id name ≠ 0 → nn = []) ∧
        (ctx.token_id name = 0 → ∃ t, encrypt_string name = .ok t ∧ nn = t ++ [0]) ∧
        (thread = false → targs = []) ∧
        (thread = true → ∃ d v, inst.data[2]? = some d ∧ stoi d = .ok v ∧ targs = [to_u8 v])) ∧
    (∀ id tp tn, ctx.opcode_id inst.opcode = some id →
      (ctx.token_id p = 0 → encrypt_string (far_token_path ctx p) = .ok tp) →
      (ctx.token_id name = 0 → encrypt_string name = .ok tn) →
      self.script.pos + 4 + (if thread then 1 else 0) ≤ self.script.size →
      self.stack.pos + 2 * (if ctx.props.tok4 then 4 else 2) +
        (if ctx.token_id p = 0 then tp.length + 1 else 0) +
        (if ctx.token_id name = 0 then tn.length + 1 else 0) ≤ self.stack.size →
      (ctx.build.has_dev_maps = true → self.devmap.pos + 8 ≤ self.devmap.size) →
      (thread = true → ∃ d v, inst.data[2]? = some d ∧ stoi d = .ok v) →
      ∃ self', assemble_instruction ctx funcs labels self inst = .ok self') := by
  refine ⟨fun he hs => by simp [far_token_path, extension_of, he, hs],
    fun he hs => by simp [far_token_path, extension_of, he, hs],
    fun he => by simp [far_token_path, he], ?_, ?_, ?_⟩
  · intro s hs
    unfold encrypt_string
    simp only [if_neg hs]
  · intro self' h
    obtain ⟨id, s2, hid2, b2, -, w2, -, k2, h⟩ := gsc_instruction_split _ _ _ _ _ _ h
    rw [assemble_operands_far _ _ _ _ _ _ hop] at h
    obtain ⟨p', name', pn, nn, targs, h0', h1', hk, hb, pn0, pn1, nn0, nn1, t1, t2⟩ :=
      far_tokens_spec _ _ _ _ _ _ hfar h
    rw [h0] at h0'
    rw [h1] at h1'
    cases h0'
    cases h1'
    refine ⟨id, pn, nn, targs, hid2, ?_, ?_, pn0, pn1, nn0, nn1, t1, t2⟩
    · rw [hb, b2]
    · rw [hk, k2]
  · intro id tp tn hid2 hp hn hs hk hd ht
    obtain ⟨s2, p2, z2, k2, e⟩ := gsc_instruction_returns ctx funcs labels self inst id hid2
      (by omega) hd
    rw [e, assemble_operands_far _ _ _ _ _ _ hop]
    exact far_tokens_returns _ _ _ _ _ p name tp tn hfar h0 h1 hp hn
      (by rw [k2]; exact hk) (by rw [p2, z2]; omega) ht

/-- The far call `"_encstr_6162" "f"` on the sample context, where every token id
is 0: the opcode byte and three zero bytes of script; in the stack a zero token,
`a b` and a NUL, a zero token, `f` and a NUL. -/
theorem far_call_tokens_witness :
    ∃ self', assemble_instruction sample_context [] []
        (assembler.create sample_context 64) sample_far_encoded = .ok self' ∧
      self'.script.bytes = [7, 0, 0, 0] ∧
      self'.stack.bytes = [0, 0, 0x61, 0x62, 0, 0, 0, 0x66, 0] := by
  have T := far_call_tokens sample_context [] [] (assembler.create sample_context 64)
    sample_far_encoded false "_encstr_6162" "f" rfl rfl rfl rfl
  obtain ⟨self', hs⟩ := T.2.2.2.2.2 7 [0x61, 0x62] [0x66] rfl (fun _ => by rfl)
    (fun _ => by rfl) (by decide) (by decide) (by decide) (fun h => Bool.noConfusion h)
  obtain ⟨id, pn, nn, targs, hid, hb, hk, -, pn1, -, nn1, t1, -⟩ := T.2.2.2.2.1 self' hs
  have e1 : sample_context.opcode_id sample_far_encoded.opcode = some 7 := rfl
  rw [e1] at hid
  cases hid
  obtain ⟨tp, htp, rfl⟩ := pn1 rfl
  obtain ⟨tn, htn, rfl⟩ := nn1 rfl
  have f1 : (Except.ok [0x61, 0x62] : Except asm_error (List Nat)) = .ok tp := htp
  have f2 : (Except.ok [0x66] : Except asm_error (List Nat)) = .ok tn := htn
  cases f1
  cases f2
  rw [t1 rfl] at hb
  exact ⟨self', hs, hb, hk⟩

end gsc

end xsk

namespace xsk

namespace gsc

/-- C32, as stated, fails on a field name written in the `_encstr_` form: the
field access `"_encstr_6162"` on the sample context puts a zero token, the
decoded bytes `a b` and a NUL into the stack, not the twelve characters of the
name. -/
theorem field_name_counterexample :
    field_op sample_field_encoded.opcode = true ∧ sample_context.props.hash = false ∧
    sample_context.str_count < field_id sample_context "_encstr_6162" ∧
    (assemble_instruction sample_context [] [] (assembler.create sample_context 64)
      sample_field_encoded).toOption.map (fun s => (s.script.bytes, s.stack.bytes)) =
        some ([7, 0xFF, 0xFF], [0, 0, 0x61, 0x62, 0]) ∧
    (assemble_instruction sample_context [] [] (assembler.create sample_context 64)
      sample_field_encoded).toOption.map (fun s => s.stack.bytes) ≠
        some ([0, 0] ++ str_bytes "_encstr_6162" ++ [0]) := by
  refine ⟨rfl, rfl, by decide, by rfl, ?_⟩
  have e : (assemble_instruction sample_context [] [] (assembler.create sample_context 64)
      sample_field_encoded).toOption.map (fun s => s.stack.bytes) =
        some [0, 0, 0x61, 0x62, 0] := by rfl
  rw [e]
  decide

/-- C32, amended: a field-variable instruction with the name `name` adds to the
script its opcode byte and then, with `hash`, the 8 bytes of `hash_id name`
while the stack is left as it was; without `hash` it adds `token_id name`, with 0
replaced by `0xFFFFFFFF`, on 4 bytes with `tok4` and 2 bytes otherwise, and the
stack receives, exactly when that identifier is greater than `str_count`, a zero
token of the same width, the bytes `encrypt_string` returns for the name and a
NUL. `encrypt_string` leaves a string unchanged unless it starts with
`_encstr_` and has even length. The instruction is emitted whenever the opcode
has an id, the name decodes where it is written and the buffers have room. -/
theorem field_name_encoding (ctx : context) (funcs : List function) (labels : label_map)
    (self : assembler) (inst : instruction) (name : String)
    (hop : field_op inst.opcode = true) (h0 : inst.data[0]? = some name) :
    (ctx.token_id name = 0 → field_id ctx name = 0xFFFFFFFF) ∧
    (ctx.token_id name ≠ 0 → field_id ctx name = ctx.token_id name) ∧
    (∀ s, ¬ ((str_bytes s).take 8 = str_bytes "_encstr_" ∧ (str_bytes s).length % 2 = 0) →
      encrypt_string s = .ok (str_bytes s)) ∧
    (∀ self', assemble_instruction ctx funcs labels self inst = .ok self' →
      ∃ id, ctx.opcode_id inst.opcode = some id ∧
        (ctx.props.hash = true →
          self'.script.bytes = self.script.bytes ++ [id % 256] ++
            utils.writer.int_bytes self.script.swap 8 (ctx.hash_id name) ∧
          (utils.writer.int_bytes self.script.swap 8 (ctx.hash_id name)).length = 8 ∧
          self'.stack = self.stack) ∧
        (ctx.props.hash = false →
          self'.script.bytes = self.script.bytes ++ [id % 256] ++
            utils.writer.int_bytes self.script.swap (if ctx.props.tok4 then 4 else 2)
              (field_id ctx name) ∧
          (utils.writer.int_bytes self.script.swap (if ctx.props.tok4 then 4 else 2)
              (field_id ctx name)).length = (if ctx.props.tok4 then 4 else 2) ∧
          (¬ ctx.str_count < field_id ctx name → self'.stack = self.stack) ∧
          (ctx.str_count < field_id ctx name → ∃ t, encrypt_string name = .ok t ∧
            self'.stack.bytes = self.stack.bytes ++
              utils.writer.int_bytes self.stack.swap (if ctx.props.tok4 then 4 else 2) 0 ++
              t ++ [0]))) ∧
    (∀ id t, ctx.opcode_id inst.opcode = some id →
      (ctx.props.hash = false → ctx.str_count < field_id ctx name →
        encrypt_string name = .ok t) →
      self.script.pos + 1 + (if ctx.props.hash then 8 else if ctx.props.tok4 then 4 else 2) ≤
        self.script.size →
      (ctx.props.hash = false → ctx.str_count < field_id ctx name →
        self.stack.pos + (if ctx.props.tok4 then 4 else 2) + t.length + 1 ≤ self.stack.size) →
      (ctx.build.has_dev_maps = true → self.devmap.pos + 8 ≤ self.devmap.size) →
      ∃ self', assemble_instruction ctx funcs labels self inst = .ok self') := by
  refine ⟨fun hz => by simp [field_id, hz], fun hz => by simp [field_id, hz], ?_, ?_, ?_⟩
  · intro s hs
    unfold encrypt_string
    simp only [if_neg hs]
  · intro self' h
    obtain ⟨id, s2, hid2, b2, -, w2, -, k2, h⟩ := gsc_instruction_split _ _ _ _ _ _ h
    rw [assemble_operands_field _ _ _ _ _ hop] at h
    obtain ⟨name', h0', hA, hB⟩ := assemble_field_spec _ _ _ _ h
    rw [h0] at h0'
    cases h0'
    refine ⟨id, hid2, fun hh => ?_, fun hh => ?_⟩
    · obtain ⟨a1, a2⟩ := hA hh
      exact ⟨by rw [a1, b2, w2], utils.int_bytes_length _ _ _, by rw [a2, k2]⟩
    · obtain ⟨a1, a2, a3⟩ := hB hh
      refine ⟨by rw [a1, b2, w2], utils.int_bytes_length _ _ _,
        fun hn => by rw [a2 hn, k2], fun hp => ?_⟩
      obtain ⟨t, ht, hs⟩ := a3 hp
      exact ⟨t, ht, by rw [hs, k2]⟩
  · intro id t hid2 ht hs hk hd
    obtain ⟨s2, p2, z2, k2, e⟩ := gsc_instruction_returns ctx funcs labels self inst id hid2
      (by omega) hd
    rw [e, assemble_operands_field _ _ _ _ _ hop]
    exact assemble_field_returns _ _ _ name t h0 ht (by rw [p2, z2]; omega)
      (fun hh hc => by rw [k2]; exact hk hh hc)

/-- The field access `"_encstr_6162"` on the sample context, where the token id
is 0 and `str_count` is 0: the opcode byte and `FF FF` in the script; a zero
token, `a b` and a NUL in the stack. -/
theorem field_name_encoding_witness :
    ∃ self', assemble_instruction sample_context [] []
        (assembler.create sample_context 64) sample_field_encoded = .ok self' ∧
      self'.script.bytes = [7, 0xFF, 0xFF] ∧
      self'.stack.bytes = [0, 0, 0x61, 0x62, 0] := by
  have T := field_name_encoding sample_context [] [] (assembler.create sample_context 64)
    sample_field_encoded "_encstr_6162" rfl rfl
  obtain ⟨self', hs⟩ := T.2.2.2.2 7 [0x61, 0x62] rfl (fun _ _ => by rfl)
    (by decide) (fun _ _ => by decide) (fun h => Bool.noConfusion h)
  obtain ⟨id, hid, -, hB⟩ := T.2.2.2.1 self' hs
  have e1 : sample_context.opcode_id sample_field_encoded.opcode = some 7 := rfl
  rw [e1] at hid
  cases hid
  obtain ⟨hb, -, -, hk⟩ := hB rfl
  obtain ⟨t, ht, hk⟩ := hk (by decide)
  have f1 : (Except.ok [0x61, 0x62] : Except asm_error (List Nat)) = .ok t := ht
  cases f1
  exact ⟨self', hs, hb, hk⟩

end gsc

end xsk

namespace xsk

namespace arc

/-- C33, as stated, fails with `size64`: on the context of scenario S1
(`props = {header64, size64}`, `headerxx` clear) the reserved area is 64 bytes
and the header block takes 65, so writing the header replaces the first byte of
the string pool: offset 64 holds the `m` of `main` before the header is written
and 0 after. -/
theorem header_reserved_area_counterexample :
    has_prop scenario_S1_context.props props.headerxx = false ∧
    has_prop scenario_S1_context.props props.header72 = false ∧
    has_prop scenario_S1_context.props props.size64 = true ∧
    script_start scenario_S1_context = 64 ∧ header_size scenario_S1_context = 65 ∧
    (stages scenario_S1_context (assembler.create scenario_S1_context 4096)
        scenario_S1 "main").toOption.map
      (fun st => (st.fixed.strpool, st.fixed.script.data 64)) = some ([("main", 64)], 109) ∧
    (assemble scenario_S1_context (assembler.create scenario_S1_context 4096)
        scenario_S1 "main").toOption.map
      (fun res => res.self.script.data 64) = some 0 :=
  ⟨rfl, rfl, rfl, rfl, rfl, by rfl, by rfl⟩

/-- C33, amended: when `headerxx` is not set the script, and so the string
pool, starts at 64, or at 72 with `header72`. The header block that `assemble`
writes from offset 0 takes 63 bytes, two more with `size64` and six more with
`devstr`; it ends at or before the start of the pool exactly when `header72` is
set or neither `size64` nor `devstr` is. Writing the header changes no byte at
or after its own end, so in that case no byte of the pool; its last byte, at
offset `header_size - 1`, is the zero `flags`. -/
theorem header_reserved_area (ctx : context) (self : assembler) (data : assembly)
    (name : String) (res : assemble_result)
    (hxx : has_prop ctx.props props.headerxx = false)
    (h : assemble ctx self data name = .ok res) :
    script_start ctx = (if has_prop ctx.props props.header72 then 72 else 64) ∧
    header_size ctx = 63 + (if has_prop ctx.props props.size64 then 2 else 0) +
      (if has_prop ctx.props props.devstr then 6 else 0) ∧
    (header_size ctx ≤ script_start ctx ↔
      (has_prop ctx.props props.header72 = true ∨
        (has_prop ctx.props props.size64 = false ∧
          has_prop ctx.props props.devstr = false))) ∧
    ∃ st a11, stages ctx self data name = .ok st ∧
      write_header ctx res.head { st.fixed with script := st.fixed.script.set_pos 0 } =
        .ok a11 ∧
      a11.script.pos = header_size ctx ∧
      res.self.script = a11.script.set_pos st.fixed.script.pos ∧
      res.self.script.read (header_size ctx - 1) 1 = 0 ∧
      (∀ i, header_size ctx ≤ i → res.self.script.data i = st.fixed.script.data i) ∧
      (header_size ctx ≤ script_start ctx →
        ∀ i, script_start ctx ≤ i → res.self.script.data i = st.fixed.script.data i) := by
  have hstart : script_start ctx = (if has_prop ctx.props props.header72 then 72 else 64) := by
    unfold script_start
    rw [hxx]
    rfl
  refine ⟨hstart, rfl, ?_, ?_⟩
  · rw [hstart]
    unfold header_size
    cases has_prop ctx.props props.header72 <;> cases has_prop ctx.props props.size64 <;>
      cases has_prop ctx.props props.devstr <;> simp
  · obtain ⟨st, hst, -, -, -, -, -, -, -, -, -, -, ⟨a11, h11, hs⟩, -⟩ :=
      assemble_stages_eq _ _ _ _ _ h
    obtain ⟨-, -, -, -, -, -, -, -, r9, habove, -⟩ := assemble_header_image _ _ _ _ _ h
    obtain ⟨p, -⟩ := write_header_spec _ _ _ _ h11
    refine ⟨st, a11, hst, h11, ?_, hs, r9, fun i hi => habove i hi st hst,
      fun hle i hi => habove i (by omega) st hst⟩
    rw [p]
    show 0 + header_size ctx = header_size ctx
    rw [Nat.zero_add]

/-- Scenario S5 assembled on the sample context (`props = {header64}`): the
header block takes 63 bytes and ends before the pool, which starts at 64 with
the NUL of the empty script name followed by `main`. -/
theorem header_reserved_area_witness :
    header_size sample_context = 63 ∧ script_start sample_context = 64 ∧
    ∃ res st, assemble sample_context (assembler.create sample_context 4096)
        { functions := [scenario_S5], includes := [] } "" = .ok res ∧
      stages sample_context (assembler.create sample_context 4096)
        { functions := [scenario_S5], includes := [] } "" = .ok st ∧
      (∀ i, 64 ≤ i → res.self.script.data i = st.fixed.script.data i) ∧
      (res.script.drop 64).take 6 = [0, 109, 97, 105, 110, 0] := by
  refine ⟨rfl, rfl, ?_⟩
  have hrun : ∃ res, assemble sample_context (assembler.create sample_context 4096)
      { functions := [scenario_S5], includes := [] } "" = .ok res := ⟨_, rfl⟩
  obtain ⟨res, hres⟩ := hrun
  have e1 : (assemble sample_context (assembler.create sample_context 4096)
      { functions := [scenario_S5], includes := [] } "").toOption.map
      (fun r => (r.script.drop 64).take 6) = some [0, 109, 97, 105, 110, 0] := by rfl
  rw [hres] at e1
  simp only [Except.toOption, Option.map_some', Option.some.injEq] at e1
  obtain ⟨-, -, hiff, st, a11, hst, -, -, -, -, -, hpool⟩ :=
    header_reserved_area sample_context _ _ _ res rfl hres
  exact ⟨res, st, hres, hst, hpool (by decide), e1⟩

end arc

end xsk

namespace xsk

namespace arc

/-! ## The string fixups of a switch table -/

/-- The test of the layout for a string case, on the type operand at `j`. -/
theorem string_type_iff (data : List String) (j : Nat) :
    ((data[j]?).map fun t => (stoul t).toOption.map to_switch_type) =
        some (some switch_type_string) ↔
      ∃ t ty, data[j]? = some t ∧ stoul t = .ok ty ∧ to_switch_type ty = switch_type_string := by
  cases ht : data[j]? with
  | none => simp
  | some t =>
    cases hs : stoul t with
    | error e => simp [Except.toOption, hs]
    | ok ty => simp [Except.toOption, hs]

/-- The fixups of a switch table are those of its `case` entries of string type:
the string operand of the entry, as a literal, two bytes past the start of the
entry. -/
theorem switch_fixups_iff (data : List String) (n i q : Nat) (name : String)
    (type : string_type) (r : Nat) :
    (name, type, r) ∈ switch_fixups data n i q ↔
      ∃ k, k < n ∧ data[1 + 4 * (i + k)]? = some "case" ∧
        (∃ t ty, data[1 + 4 * (i + k) + 1]? = some t ∧ stoul t = .ok ty ∧
          to_switch_type ty = switch_type_string) ∧
        name = data.getD (1 + 4 * (i + k) + 2) "" ∧ type = string_type.literal ∧
        r = (q + 8 * k + 2) % 4294967296 := by
  induction n generalizing i q with
  | zero => simp [switch_fixups]
  | succ n ih =>
    have step : (name, type, r) ∈ switch_fixups data (n + 1) i q ↔
        ((data[1 + 4 * i]? = some "case" ∧
          (∃ t ty, data[1 + 4 * i + 1]? = some t ∧ stoul t = .ok ty ∧
            to_switch_type ty = switch_type_string) ∧
          name = data.getD (1 + 4 * i + 2) "" ∧ type = string_type.literal ∧
          r = (q + 2) % 4294967296) ∨
        (name, type, r) ∈ switch_fixups data n (i + 1) (q + 8)) := by
      rw [← string_type_iff]
      simp only [switch_fixups]
      by_cases hc : data[1 + 4 * i]? = some "case" ∧
          ((data[1 + 4 * i + 1]?).map fun t => (stoul t).toOption.map to_switch_type) =
            some (some switch_type_string)
      · rw [if_pos hc, List.mem_cons, Prod.mk.injEq, Prod.mk.injEq]
        constructor
        · rintro (⟨h1, h2, h3⟩ | h)
          · exact Or.inl ⟨hc.1, hc.2, h1, h2, h3⟩
          · exact Or.inr h
        · rintro (⟨-, -, h1, h2, h3⟩ | h)
          · exact Or.inl ⟨h1, h2, h3⟩
          · exact Or.inr h
      · rw [if_neg hc]
        constructor
        · exact fun h => Or.inr h
        · rintro (⟨h1, h2, -⟩ | h)
          · exact absurd ⟨h1, h2⟩ hc
          · exact h
    rw [step, ih]
    constructor
    · rintro (⟨h1, h2, h3, h4, h5⟩ | ⟨k, hk, h1, h2, h3, h4, h5⟩)
      · exact ⟨0, by omega, h1, h2, h3, h4, h5⟩
      · have e : i + 1 + k = i + (k + 1) := by omega
        rw [e] at h1 h2 h3
        exact ⟨k + 1, by omega, h1, h2, h3, h4, by rw [h5]; congr 1; omega⟩
    · rintro ⟨k, hk, h1, h2, h3, h4, h5⟩
      cases k with
      | zero => exact Or.inl ⟨h1, h2, h3, h4, h5⟩
      | succ k =>
        have e : i + (k + 1) = i + 1 + k := by omega
        rw [e] at h1 h2 h3
        exact Or.inr ⟨k, by omega, h1, h2, h3, h4, by rw [h5]; congr 1; omega⟩

/-- The fixups the layout of an `EndSwitch` records. -/
theorem string_fixups_endswitch (inst : instruction) (p : Nat)
    (hop : inst.opcode = opcode.OP_EndSwitch) :
    string_fixups inst p =
      switch_fixups inst.data (switch_count inst.data) 0 (utils.writer.align_up p 4 + 4) := by
  unfold string_fixups
  rw [hop]
  rfl

end arc

end xsk

namespace xsk

namespace arc

/-- C34, as stated, fails on the sample table laid out and emitted at offset 0:
its string case is entry 2, whose value field is written in the four bytes at
offset 24 (it holds 3), while the literal fixup is recorded at offset 26. -/
theorem endswitch_fixup_offset_counterexample :
    (align_instruction sample_context (assembler.create sample_context 64)
        sample_endswitch).toOption.map
      (fun r => (r.1.size, r.2.strings.map fun e => (e.name, e.type, e.refs))) =
      some (40, [("abc", string_type.literal, [26])]) ∧
    (assemble_instruction sample_context [(40, "A"), (41, "B"), (42, "C"), (43, "D")]
        (assembler.create sample_context 64)
        { sample_endswitch with size := 40 }).toOption.map
      (fun s => (s.script.writes, s.script.read 24 4)) =
      some ([(0, 1), (4, 4), (8, 4), (12, 4), (16, 4), (20, 4), (24, 4), (28, 4), (32, 4),
        (36, 4)], 3) :=
  ⟨by rfl, by rfl⟩

/-- C34, amended: for an `EndSwitch` laid out with its opcode byte at cursor `p`
and emitted there, the table starts at `b`, the next multiple of 4 after the
opcode byte, entry `k` of the table has its 4-byte value field at
`b + 4 + 8 * k`, and the literal string fixups recorded by `align_instruction`
are exactly, for each `case` entry `k` of string type, the string operand of
the entry at the offset `b + 4 + 8 * k + 2` (as a `u32`): two bytes past the
offset at which `assemble_switch_table` writes that entry's value field, which
holds `k + 1`. -/
theorem endswitch_fixup_offset (ctx : context) (labels : label_map)
    (self self1 em em' : assembler) (inst inst' : instruction)
    (hop : inst.opcode = opcode.OP_EndSwitch)
    (hl : align_instruction ctx self inst = .ok (inst', self1))
    (hpos : em.script.pos = self.script.pos)
    (he : assemble_instruction ctx labels em inst' = .ok em') :
    self1.strings = add_stringrefs
      (switch_fixups inst.data (switch_count inst.data) 0
        (utils.writer.align_up (self.script.pos + 1) 4 + 4)) self.strings ∧
    (∀ name type r,
      (name, type, r) ∈ switch_fixups inst.data (switch_count inst.data) 0
          (utils.writer.align_up (self.script.pos + 1) 4 + 4) ↔
        ∃ k, k < switch_count inst.data ∧ inst.data[1 + 4 * k]? = some "case" ∧
          (∃ t ty, inst.data[1 + 4 * k + 1]? = some t ∧ stoul t = .ok ty ∧
            to_switch_type ty = switch_type_string) ∧
          name = inst.data.getD (1 + 4 * k + 2) "" ∧ type = string_type.literal ∧
          r = (utils.writer.align_up (self.script.pos + 1) 4 + 4 + 8 * k + 2) %
            4294967296) ∧
    em'.script.read (utils.writer.align_up (self.script.pos + 1) 4) 4 =
      switch_count inst.data % 4294967296 ∧
    (∀ k, k < switch_count inst.data →
      switch_entry_written labels inst.data em'.script k
        (utils.writer.align_up (self.script.pos + 1) 4 + 4 + 8 * k)) ∧
    (∀ k t ty, k < switch_count inst.data → inst.data[1 + 4 * k]? = some "case" →
      inst.data[1 + 4 * k + 1]? = some t → stoul t = .ok ty →
      to_switch_type ty = switch_type_string →
      em'.script.read (utils.writer.align_up (self.script.pos + 1) 4 + 4 + 8 * k) 4 =
        (k + 1) % 4294967296 ∧
      (inst.data.getD (1 + 4 * k + 2) "", string_type.literal,
        (utils.writer.align_up (self.script.pos + 1) 4 + 4 + 8 * k + 2) % 4294967296) ∈
        switch_fixups inst.data (switch_count inst.data) 0
          (utils.writer.align_up (self.script.pos + 1) 4 + 4)) := by
  obtain ⟨h1, -, h3, -, -, -, h7, -⟩ := align_instruction_spec _ _ _ _ _ hl
  obtain ⟨-, hcount, hent⟩ := arc_endswitch_emitted ctx labels em em' inst' (by rw [h1, hop]) he
  rw [h3, hpos] at hcount hent
  have hiff : ∀ name type r,
      (name, type, r) ∈ switch_fixups inst.data (switch_count inst.data) 0
          (utils.writer.align_up (self.script.pos + 1) 4 + 4) ↔
        ∃ k, k < switch_count inst.data ∧ inst.data[1 + 4 * k]? = some "case" ∧
          (∃ t ty, inst.data[1 + 4 * k + 1]? = some t ∧ stoul t = .ok ty ∧
            to_switch_type ty = switch_type_string) ∧
          name = inst.data.getD (1 + 4 * k + 2) "" ∧ type = string_type.literal ∧
          r = (utils.writer.align_up (self.script.pos + 1) 4 + 4 + 8 * k + 2) %
            4294967296 := by
    intro name type r
    rw [switch_fixups_iff]
    simp only [Nat.zero_add]
  refine ⟨?_, hiff, hcount, hent, ?_⟩
  · rw [h7, string_fixups_endswitch _ _ (by rw [h1, hop]), h3]
  · intro k t ty hk hcase ht hty hstr
    refine ⟨?_, (hiff _ _ _).2 ⟨k, hk, hcase, ⟨t, ty, ht, hty, hstr⟩, rfl, rfl, rfl⟩⟩
    rcases hent k hk with ⟨-, t', ty', value, l, addr, ht', hty', hval, hread, -⟩ | ⟨hdef, -⟩
    · rw [ht] at ht'
      cases ht'
      rw [hty] at hty'
      cases hty'
      have hint : to_switch_type ty ≠ switch_type_integer := by
        rw [hstr]
        decide
      simp only [switch_case_value, hint, if_false, Except.ok.injEq] at hval
      rw [hread, ← hval]
    · rw [hcase] at hdef
      exact absurd hdef (by decide)

/-- The sample table laid out and emitted at offset 0: the table starts at 4,
the string case is entry 2 with its value field at `4 + 4 + 8 * 2 = 24`, holding
3, and the one fixup recorded is `abc` at 26. -/
theorem endswitch_fixup_offset_witness :
    ∃ inst' self1 em',
      align_instruction sample_context (assembler.create sample_context 64)
        sample_endswitch = .ok (inst', self1) ∧
      assemble_instruction sample_context [(40, "A"), (41, "B"), (42, "C"), (43, "D")]
        (assembler.create sample_context 64) inst' = .ok em' ∧
      self1.strings = [{ name := "abc", type := string_type.literal, refs := [26] }] ∧
      em'.script.read 24 4 = 3 := by
  have hl : ∃ r, align_instruction sample_context (assembler.create sample_context 64)
      sample_endswitch = .ok r := ⟨_, rfl⟩
  obtain ⟨⟨inst', self1⟩, hl⟩ := hl
  have e : (align_instruction sample_context (assembler.create sample_context 64)
      sample_endswitch).toOption.map (fun r => r.1) =
      some { sample_endswitch with size := 40 } := by rfl
  rw [hl] at e
  simp only [Except.toOption, Option.map_some', Option.some.injEq] at e
  subst e
  have he : ∃ s, assemble_instruction sample_context
      [(40, "A"), (41, "B"), (42, "C"), (43, "D")] (assembler.create sample_context 64)
      { sample_endswitch with size := 40 } = .ok s := ⟨_, rfl⟩
  obtain ⟨em', he⟩ := he
  obtain ⟨hs, -, -, -, hv⟩ := endswitch_fixup_offset sample_context
    [(40, "A"), (41, "B"), (42, "C"), (43, "D")] (assembler.create sample_context 64) self1
    (assembler.create sample_context 64) em' sample_endswitch _ rfl hl rfl he
  exact ⟨_, self1, em', hl, he, hs, (hv 2 "2" 2 (by decide) rfl rfl rfl rfl).1⟩

end arc

end xsk

namespace xsk

/-! ## Relocated labels as a list of pairs -/

/-- In a label map with distinct offsets, `find` returns the name of an entry. -/
theorem labels_find_of_mem (l : label_map) (k : Nat) (v : String)
    (hnd : (l.map Prod.fst).Nodup) (h : (k, v) ∈ l) : labels_find l k = some v := by
  obtain ⟨p, q, rfl⟩ := List.append_of_mem h
  apply labels_find_append
  rw [List.map_append, List.map_cons, List.nodup_append] at hnd
  intro hk
  exact hnd.2.2 hk (List.mem_cons_self _ _)

/-- A label found in a map is an entry of it. -/
theorem labels_find_mem (l : label_map) (k : Nat) (v : String)
    (h : labels_find l k = some v) : (k, v) ∈ l := by
  unfold labels_find at h
  rw [Option.map_eq_some'] at h
  obtain ⟨e, he, rfl⟩ := h
  have hm := List.mem_of_find?_eq_some he
  have hk := List.find?_some he
  have hk' : e.1 = k := by simpa using hk
  rw [← hk']
  exact hm

/-- The pairs of a zip are the pairs of entries at the same position. -/
theorem mem_zip_iff_getElem {α β : Type} (a : List α) (b : List β) (x : α) (y : β) :
    (x, y) ∈ List.zip a b ↔ ∃ k : Nat, a[k]? = some x ∧ b[k]? = some y := by
  constructor
  · intro h
    obtain ⟨k, hk⟩ := List.mem_iff_getElem?.1 h
    rw [List.getElem?_zip_eq_some] at hk
    exact ⟨k, hk⟩
  · rintro ⟨k, hk⟩
    exact List.mem_iff_getElem?.2 ⟨k, List.getElem?_zip_eq_some.2 hk⟩

/-- With strictly increasing new offsets, all above those already in the map,
no insertion meets a present key: the relocated map is the old labels of the
instructions, in order. -/
theorem relabel_filterMap (old : label_map) (pairs : List (Nat × Nat)) (acc : label_map)
    (hn : (pairs.map Prod.snd).Pairwise (· < ·))
    (hlt : ∀ k, k ∈ acc.map Prod.fst → ∀ n, n ∈ pairs.map Prod.snd → k < n) :
    relabel old pairs acc =
      acc ++ pairs.filterMap fun e => (labels_find old e.1).map fun name => (e.2, name) := by
  induction pairs generalizing acc with
  | nil => rw [relabel, List.filterMap_nil, List.append_nil]
  | cons e rest ih =>
    rw [List.map_cons, List.pairwise_cons] at hn
    cases hfind : labels_find old e.1 with
    | none =>
      rw [relabel_cons_none _ _ _ _ hfind, List.filterMap_cons, hfind]
      exact ih acc hn.2 (fun k hk n hn' => hlt k hk n (List.mem_cons_of_mem _ hn'))
    | some name =>
      rw [relabel_cons_some _ _ _ _ _ hfind, List.filterMap_cons, hfind]
      have hnot : e.2 ∉ acc.map Prod.fst := by
        intro hk
        have := hlt e.2 hk e.2 (by simp)
        omega
      rw [labels_insert_of_not_mem _ _ _ hnot, ih _ hn.2, List.append_assoc]
      · rfl
      · intro k hk n hn'
        rw [List.map_append, List.mem_append] at hk
        rcases hk with hk | hk
        · exact hlt k hk n (List.mem_cons_of_mem _ hn')
        · simp only [List.map_cons, List.map_nil, List.mem_singleton] at hk
          rw [hk]
          exact hn.1 n hn'

namespace arc

/-- The operands of an instruction take at least the fixed part of its size. -/
theorem operands_end_base (inst : instruction) (p : Nat) :
    p + (base_size inst.opcode - 1) ≤ operands_end inst p := by
  have a2 := utils.align_up_ge p 2 (by omega)
  have a4 := utils.align_up_ge p 4 (by omega)
  have a41 := utils.align_up_ge (p + 1) 4 (by omega)
  have hs := slots_end_ge inst.data.length (p + 1)
  unfold operands_end base_size
  cases kind_of inst.opcode <;> dsimp only <;> omega

/-- The size the layout gives an instruction is at least `opcode_size` of its
opcode. -/
theorem align_instruction_size (ctx : context) (self self' : assembler)
    (inst inst' : instruction) (h : align_instruction ctx self inst = .ok (inst', self')) :
    ctx.opcode_size inst.opcode ≤ inst'.size := by
  obtain ⟨h1, -, -, -, -, h6, -⟩ := align_instruction_spec _ _ _ _ _ h
  have hb := operands_end_base inst' (self.script.pos + 1)
  rw [h1] at hb
  omega

/-- The layout accepts only the opcodes the assembler handles. -/
theorem align_instruction_valid (ctx : context) (self : assembler) (inst : instruction)
    (r : instruction × assembler) (h : align_instruction ctx self inst = .ok r) :
    kind_of inst.opcode ≠ operand_kind.invalid := by
  intro hb
  unfold align_instruction align_operands at h
  revert h hb
  cases inst.opcode <;> simp [kind_of]

/-- When every opcode has a positive size, the layout loop gives the
instructions strictly increasing offsets. -/
theorem layout_indices_strict (ctx : context) (index : Nat) (old : label_map)
    (is : List instruction) (size : Nat) (acc : label_map) (self : assembler)
    (r : List instruction × Nat × label_map × assembler)
    (hsz : ∀ op, kind_of op ≠ operand_kind.invalid → 0 < ctx.opcode_size op)
    (h : layout_instructions ctx index old is size acc self = .ok r) :
    (r.1.map fun i => i.index).Pairwise (· < ·) ∧
    (∀ n, n ∈ (r.1.map fun i => i.index) → index + size ≤ n) ∧
    (∀ (k : Nat) (I : instruction), r.1[k]? = some I → ∃ J : instruction, is[k]? = some J ∧
      I.opcode = J.opcode ∧ I.data = J.data ∧ I.pos = J.pos) := by
  induction is generalizing size acc self r with
  | nil =>
    simp only [layout_instructions, Except.ok.injEq] at h
    subst h
    refine ⟨List.Pairwise.nil, ?_, ?_⟩
    · intro n hn
      cases hn
    · intro k I hk
      simp at hk
  | cons inst rest ih =>
    simp only [layout_instructions, bind_eq_ok, pure, Except.pure, Except.ok.injEq] at h
    obtain ⟨r0, h0, t, ht, rfl⟩ := h
    obtain ⟨i1, s1⟩ := r0
    obtain ⟨hop, hidx, hdata, hpos, -⟩ := align_instruction_spec _ _ _ _ _ h0
    have hidx : i1.index = index + size := hidx
    have hsize := align_instruction_size _ _ _ _ _ h0
    have hpos1 := hsz inst.opcode (align_instruction_valid _ _ { inst with index := index + size } _ h0)
    have hsize : 0 < i1.size := Nat.lt_of_lt_of_le hpos1 hsize
    obtain ⟨b, c, d⟩ := ih _ _ _ _ ht
    have c : ∀ n, n ∈ (t.1.map fun i => i.index) → index + (size + i1.size) ≤ n := c
    refine ⟨?_, ?_, ?_⟩
    · show ((i1 :: t.1).map fun i => i.index).Pairwise (· < ·)
      rw [List.map_cons, List.pairwise_cons]
      refine ⟨?_, b⟩
      intro n hn
      have := c n hn
      omega
    · intro n hn
      have hn : n ∈ ((i1 :: t.1).map fun i => i.index) := hn
      rw [List.map_cons, List.mem_cons] at hn
      rcases hn with hn | hn
      · omega
      · have := c n hn
        omega
    · intro k I hk
      have hk : (i1 :: t.1)[k]? = some I := hk
      cases k with
      | zero =>
        simp only [List.getElem?_cons_zero, Option.some.injEq] at hk ⊢
        subst hk
        exact ⟨inst, rfl, hop, hdata, hpos⟩
      | succ k =>
        simp only [List.getElem?_cons_succ] at hk ⊢
        exact d k I hk

end arc

end xsk

namespace xsk

namespace arc

/-- C35: in a context where every opcode the assembler handles has a positive
`opcode_size`, the layout loop of `assemble_function` on a function `F` gives
the instructions strictly increasing new offsets, and the label map it builds
is exactly the list of the pairs (new offset of `I`, name) for the instructions
`I` of `F`, in order, whose pre-layout offset the old map sends to `name`. So
an entry `(n, name)` is in the new map exactly when some instruction has the
new offset `n` and its old offset is mapped to `name`; each labelled
instruction finds its name at its new offset; and a name found only at a key
where no instruction starts is not in the new map. These are the labels of the
function `assemble_function` returns. -/
theorem label_relocation (ctx : context) (self : assembler) (func : function)
    (lay : List instruction × Nat × label_map × assembler)
    (hsz : ∀ op, kind_of op ≠ operand_kind.invalid → 0 < ctx.opcode_size op)
    (h : layout_instructions ctx self.script.pos func.labels func.instructions 0 [] self =
      .ok lay) :
    lay.1.length = func.instructions.length ∧
    (lay.1.map fun i => i.index).Pairwise (· < ·) ∧
    lay.2.2.1 =
      (List.zip (func.instructions.map fun i => i.index)
        (lay.1.map fun i => i.index)).filterMap
        (fun e => (labels_find func.labels e.1).map fun name => (e.2, name)) ∧
    (∀ n name, (n, name) ∈ lay.2.2.1 ↔
      ∃ (k : Nat) (I I' : instruction), func.instructions[k]? = some I ∧
        lay.1[k]? = some I' ∧ I'.index = n ∧ labels_find func.labels I.index = some name) ∧
    (∀ (k : Nat) (I I' : instruction) (name : String), func.instructions[k]? = some I →
      lay.1[k]? = some I' → labels_find func.labels I.index = some name →
      labels_find lay.2.2.1 I'.index = some name) ∧
    (∀ key name, labels_find func.labels key = some name →
      (∀ I, I ∈ func.instructions → I.index ≠ key) →
      (∀ key', key' ≠ key → labels_find func.labels key' ≠ some name) →
      ∀ n, (n, name) ∉ lay.2.2.1) ∧
    (∀ r, assemble_function ctx self func = .ok r →
      r.1.instructions = lay.1 ∧ r.1.labels = lay.2.2.1) := by
  obtain ⟨hrel, hmono, -, hlen, -⟩ := layout_relocated _ _ _ _ _ _ _ _ h
  obtain ⟨hstrict, -, -⟩ := layout_indices_strict _ _ _ _ _ _ _ _ hsz h
  have hsnd : (List.zip (func.instructions.map fun i => i.index)
      (lay.1.map fun i => i.index)).map Prod.snd = lay.1.map fun i => i.index := by
    apply List.map_snd_zip
    rw [List.length_map, List.length_map, hlen]
  have hfm : lay.2.2.1 =
      (List.zip (func.instructions.map fun i => i.index)
        (lay.1.map fun i => i.index)).filterMap
        (fun e => (labels_find func.labels e.1).map fun name => (e.2, name)) := by
    rw [hrel, relabel_filterMap _ _ _ (by rw [hsnd]; exact hstrict)
      (fun k hk => by cases hk), List.nil_append]
  have hnd : (lay.2.2.1.map Prod.fst).Nodup := by
    obtain ⟨q, hq, hs, -⟩ := relabel_sorted func.labels
      (List.zip (func.instructions.map fun i => i.index) (lay.1.map fun i => i.index)) []
      List.Pairwise.nil (by rw [hsnd]; exact hmono) (fun k hk => by cases hk)
    rw [hrel, hq]
    exact hs.imp (fun {a b} hab => Nat.ne_of_lt hab)
  have hiff : ∀ n name, (n, name) ∈ lay.2.2.1 ↔
      ∃ (k : Nat) (I I' : instruction), func.instructions[k]? = some I ∧
        lay.1[k]? = some I' ∧ I'.index = n ∧
        labels_find func.labels I.index = some name := by
    intro n name
    rw [hfm, List.mem_filterMap]
    constructor
    · rintro ⟨⟨a, b⟩, he, hf⟩
      rw [mem_zip_iff_getElem] at he
      obtain ⟨k, h1, h2⟩ := he
      rw [List.getElem?_map, Option.map_eq_some'] at h1 h2
      obtain ⟨I, hI, rfl⟩ := h1
      obtain ⟨I', hI', rfl⟩ := h2
      rw [Option.map_eq_some'] at hf
      obtain ⟨nm, hnm, he2⟩ := hf
      simp only [Prod.mk.injEq] at he2
      obtain ⟨rfl, rfl⟩ := he2
      exact ⟨k, I, I', hI, hI', rfl, hnm⟩
    · rintro ⟨k, I, I', hI, hI', rfl, hnm⟩
      refine ⟨(I.index, I'.index), ?_, ?_⟩
      · rw [mem_zip_iff_getElem]
        exact ⟨k, by rw [List.getElem?_map, hI]; rfl, by rw [List.getElem?_map, hI']; rfl⟩
      · simp only [hnm, Option.map_some']
  refine ⟨hlen, hstrict, hfm, hiff, ?_, ?_, ?_⟩
  · intro k I I' name hI hI' hnm
    exact labels_find_of_mem _ _ _ hnd ((hiff _ _).2 ⟨k, I, I', hI, hI', rfl, hnm⟩)
  · intro key name hkey hno hother n hmem
    obtain ⟨k, I, I', hI, -, -, hnm⟩ := (hiff _ _).1 hmem
    have hIm : I ∈ func.instructions := List.mem_iff_getElem?.2 ⟨k, hI⟩
    exact hother I.index (hno I hIm) hnm
  · intro r hr
    simp only [assemble_function, bind_eq_ok, pure, Except.pure, Except.ok.injEq] at hr
    obtain ⟨r0, hlay, s2, -, rfl⟩ := hr
    rw [h] at hlay
    cases hlay
    exact ⟨rfl, rfl⟩

/-- Scenario S2 with the labels `L1` at the old offset 3 of the `Return` and
`gone` at 7, where no instruction starts, laid out from offset 0 on the sample
context: the instructions move to 0, 2, 6 and 8, `L1` is at 8 and `gone` is
dropped. -/
theorem label_relocation_witness :
    ∃ lay, layout_instructions sample_context 0 sample_relabel.labels
        sample_relabel.instructions 0 [] (assembler.create sample_context 64) = .ok lay ∧
      (lay.1.map fun i => i.index) = [0, 2, 6, 8] ∧ lay.2.2.1 = [(8, "L1")] ∧
      labels_find lay.2.2.1 8 = some "L1" ∧ (∀ n, (n, "gone") ∉ lay.2.2.1) := by
  have hok : (layout_instructions sample_context 0 sample_relabel.labels
      sample_relabel.instructions 0 [] (assembler.create sample_context 64)).toBool = true := by
    rfl
  cases hrun : layout_instructions sample_context 0 sample_relabel.labels
      sample_relabel.instructions 0 [] (assembler.create sample_context 64) with
  | error e =>
    rw [hrun] at hok
    cases hok
  | ok lay =>
    have hsz : ∀ op, kind_of op ≠ operand_kind.invalid → 0 < sample_context.opcode_size op := by
      intro op hop
      cases op <;> first | decide | exact absurd rfl hop
    obtain ⟨-, -, hfm, -, hkeep, hdrop, -⟩ := label_relocation sample_context
      (assembler.create sample_context 64) sample_relabel lay hsz hrun
    have e1 : (layout_instructions sample_context 0 sample_relabel.labels
        sample_relabel.instructions 0 [] (assembler.create sample_context 64)).toOption.map
        (fun r => (r.1.map fun i => i.index, r.2.2.1)) = some ([0, 2, 6, 8], [(8, "L1")]) := by
      rfl
    rw [hrun] at e1
    simp only [Except.toOption, Option.map_some', Option.some.injEq, Prod.mk.injEq] at e1
    obtain ⟨ei, el⟩ := e1
    refine ⟨lay, rfl, ei, el, ?_, ?_⟩
    · rw [el]
      rfl
    · exact hdrop 7 "gone" (by rfl) (by decide) (by
        intro key' hk hf
        have hm := labels_find_mem _ _ _ hf
        have hm : (key', "gone") ∈ [(3, "L1"), (7, "gone")] := hm
        simp only [List.mem_cons, Prod.mk.injEq, List.mem_singleton, List.not_mem_nil,
          or_false] at hm
        rcases hm with ⟨-, h2⟩ | ⟨h1, -⟩
        · exact absurd h2 (by decide)
        · exact hk h1)

end arc

end xsk

namespace xsk

namespace arc

/-! ## The import refs of the layout -/

/-- One call of `add_importref` keeps the refs recorded before and puts its own
ref last in the refs of an entry. -/
theorem add_importref_recorded (data : List String) (ref : Nat) (l l' : List import_ref)
    (h : add_importref data ref l = .ok l') :
    (∀ r, (∃ e, e ∈ l ∧ r ∈ e.refs) → ∃ e, e ∈ l' ∧ r ∈ e.refs) ∧
    ∃ e, e ∈ l' ∧ e.refs.getLast? = some ref := by
  induction l generalizing l' with
  | nil =>
    simp only [add_importref, bind_eq_ok, pure, Except.pure, Except.ok.injEq] at h
    obtain ⟨d0, -, d1, -, d2, -, p, -, d3, -, f, -, rfl⟩ := h
    refine ⟨?_, ⟨_, List.mem_singleton.2 rfl, rfl⟩⟩
    rintro r ⟨e, he, -⟩
    cases he
  | cons entry rest ih =>
    simp only [add_importref, bind_eq_ok] at h
    obtain ⟨found, -, h⟩ := h
    split at h
    · simp only [pure, Except.pure, Except.ok.injEq] at h
      subst h
      refine ⟨?_, ⟨_, List.mem_cons_self _ _, by simp⟩⟩
      rintro r ⟨e, he, hr⟩
      rcases List.mem_cons.1 he with rfl | he
      · exact ⟨_, List.mem_cons_self _ _, List.mem_append_left _ hr⟩
      · exact ⟨e, List.mem_cons_of_mem _ he, hr⟩
    · simp only [bind_eq_ok, pure, Except.pure, Except.ok.injEq] at h
      obtain ⟨rest', hrest, rfl⟩ := h
      obtain ⟨k1, e0, he0, hl0⟩ := ih _ hrest
      refine ⟨?_, ⟨e0, List.mem_cons_of_mem _ he0, hl0⟩⟩
      rintro r ⟨e, he, hr⟩
      rcases List.mem_cons.1 he with rfl | he
      · exact ⟨_, List.mem_cons_self _ _, hr⟩
      · obtain ⟨e', he', hr'⟩ := k1 r ⟨e, he, hr⟩
        exact ⟨e', List.mem_cons_of_mem _ he', hr'⟩

/-- After a sequence of `add_importref` calls the ref of each call is among the
refs of an entry. -/
theorem add_importrefs_recorded (calls : List (List String × Nat)) (l l' : List import_ref)
    (h : add_importrefs calls l = .ok l') :
    (∀ r, (∃ e, e ∈ l ∧ r ∈ e.refs) → ∃ e, e ∈ l' ∧ r ∈ e.refs) ∧
    ∀ c, c ∈ calls → ∃ e, e ∈ l' ∧ c.2 ∈ e.refs := by
  induction calls generalizing l with
  | nil =>
    simp only [add_importrefs, Except.ok.injEq] at h
    subst h
    exact ⟨fun r hr => hr, fun c hc => by cases hc⟩
  | cons c0 rest ih =>
    simp only [add_importrefs, bind_eq_ok] at h
    obtain ⟨l1, h1, h⟩ := h
    obtain ⟨k1, e1, he1, hl1⟩ := add_importref_recorded _ _ _ _ h1
    obtain ⟨k2, m2⟩ := ih _ h
    refine ⟨fun r hr => k2 r (k1 r hr), ?_⟩
    intro c hc
    rcases List.mem_cons.1 hc with rfl | hc
    · exact k2 _ ⟨e1, he1, List.mem_of_getLast?_eq_some hl1⟩
    · exact m2 c hc

theorem add_importrefs_append (a b : List (List String × Nat)) (l l1 l2 : List import_ref)
    (h1 : add_importrefs a l = .ok l1) (h2 : add_importrefs b l1 = .ok l2) :
    add_importrefs (a ++ b) l = .ok l2 := by
  induction a generalizing l with
  | nil =>
    simp only [add_importrefs, Except.ok.injEq] at h1
    subst h1
    exact h2
  | cons c rest ih =>
    simp only [add_importrefs, bind_eq_ok] at h1
    obtain ⟨l0, h0, h1⟩ := h1
    simp only [List.cons_append, add_importrefs, h0, except_ok_bind]
    exact ih _ h1

set_option maxHeartbeats 4000000 in
/-- The imports after the layout of the operands of one instruction: one call
of `add_importref` with the `index` of the instruction for `GetFunction` and the
call family, no change for any other opcode. -/
theorem align_operands_imports (self : assembler) (inst : instruction)
    (r : instruction × assembler) (h : align_operands self inst = .ok r) :
    (import_op inst.opcode = true →
      add_importref inst.data (inst.index % 4294967296) self.imports = .ok r.2.imports) ∧
    (import_op inst.opcode = false → r.2.imports = self.imports) := by
  obtain ⟨op, ps, idx, sz, data⟩ := inst
  obtain ⟨i', s'⟩ := r
  cases op <;> simp only [align_operands] at h
  all_goals first
    | (simp only [Except.ok.injEq, Prod.mk.injEq] at h
       obtain ⟨rfl, rfl⟩ := h
       exact ⟨fun hh => by simp [import_op] at hh, fun _ => rfl⟩)
    | (simp only [bind_eq_ok, pure, Except.pure, Except.ok.injEq, Prod.mk.injEq] at h
       obtain ⟨x, -, rfl, rfl⟩ := h
       exact ⟨fun hh => by simp [import_op] at hh, fun _ => rfl⟩)
    | (simp only [bind_eq_ok, pure, Except.pure, Except.ok.injEq, Prod.mk.injEq] at h
       obtain ⟨im, him, rfl, rfl⟩ := h
       exact ⟨fun _ => him, fun hh => by simp [import_op] at hh⟩)
    | skip
  case mk.mk.OP_Invalid => cases h
  case mk.mk.OP_GetInteger =>
    split at h
    · simp only [bind_eq_ok, pure, Except.pure, Except.ok.injEq, Prod.mk.injEq] at h
      obtain ⟨an, -, rfl, rfl⟩ := h
      exact ⟨fun hh => by simp [import_op] at hh, fun _ => rfl⟩
    · simp only [Except.ok.injEq, Prod.mk.injEq] at h
      obtain ⟨rfl, rfl⟩ := h
      exact ⟨fun hh => by simp [import_op] at hh, fun _ => rfl⟩
  case mk.mk.OP_SafeCreateLocalVariables =>
    simp only [Except.ok.injEq, Prod.mk.injEq] at h
    obtain ⟨rfl, rfl⟩ := h
    obtain ⟨-, -, -, h4, -, -⟩ := align_localvars_spec data sz (self.seek 1)
    exact ⟨fun hh => by simp [import_op] at hh, fun _ => h4⟩
  case mk.mk.OP_EndSwitch =>
    simp only [bind_eq_ok, pure, Except.pure, Except.ok.injEq, Prod.mk.injEq] at h
    obtain ⟨d0, -, count, -, r, hr, rfl, rfl⟩ := h
    obtain ⟨-, -, -, h4, -, -⟩ := align_switch_cases_spec _ _ _ _ _ _ hr
    exact ⟨fun hh => by simp [import_op] at hh, fun _ => h4⟩

/-- The imports after the layout of one instruction. -/
theorem align_instruction_imports (ctx : context) (self : assembler) (inst : instruction)
    (r : instruction × assembler) (h : align_instruction ctx self inst = .ok r) :
    (import_op inst.opcode = true →
      add_importref inst.data (inst.index % 4294967296) self.imports = .ok r.2.imports) ∧
    (import_op inst.opcode = false → r.2.imports = self.imports) :=
  align_operands_imports (self.seek 1) { inst with size := ctx.opcode_size inst.opcode } r h

/-- The cursor after the layout of an import instruction is four past its
operand slot. -/
theorem import_operands_end (inst : instruction) (p : Nat)
    (hop : import_op inst.opcode = true) :
    operands_end inst (p + 1) = import_slot inst.opcode p + 4 ∧
    p < import_slot inst.opcode p := by
  have a1 := utils.align_up_ge (p + 1) 4 (by omega)
  have a2 := utils.align_up_ge (p + 2) 4 (by omega)
  obtain ⟨op, ps, idx, sz, data⟩ := inst
  cases op <;> first
    | (exfalso; simp [import_op] at hop; done)
    | (refine ⟨rfl, ?_⟩
       simp only [import_slot, reduceCtorEq, if_false, if_true]
       omega)

/-- The imports after the layout loop: the `add_importref` calls of the import
instructions as laid out, in order, each with the new `index` of its instruction. -/
theorem layout_imports (ctx : context) (index : Nat) (old : label_map)
    (is : List instruction) (size : Nat) (acc : label_map) (self : assembler)
    (r : List instruction × Nat × label_map × assembler)
    (h : layout_instructions ctx index old is size acc self = .ok r) :
    add_importrefs (import_calls r.1) self.imports = .ok r.2.2.2.imports := by
  induction is generalizing size acc self r with
  | nil =>
    simp only [layout_instructions, Except.ok.injEq] at h
    subst h
    rfl
  | cons inst rest ih =>
    simp only [layout_instructions, bind_eq_ok, pure, Except.pure, Except.ok.injEq] at h
    obtain ⟨r0, h0, t, ht, rfl⟩ := h
    obtain ⟨i1, s1⟩ := r0
    obtain ⟨hop, hidx, hdata, -⟩ := align_instruction_spec _ _ _ _ _ h0
    obtain ⟨k1, k2⟩ := align_instruction_imports _ _ _ _ h0
    have hrest := ih _ _ _ _ ht
    show add_importrefs (import_calls (i1 :: t.1)) self.imports = .ok t.2.2.2.imports
    have hop : i1.opcode = inst.opcode := hop
    have hdata : i1.data = inst.data := hdata
    have hidx : i1.index = index + size := hidx
    by_cases hi : import_op inst.opcode = true
    · have e : import_calls (i1 :: t.1) =
          [(i1.data, i1.index % 4294967296)] ++ import_calls t.1 := by
        unfold import_calls
        rw [List.filter_cons_of_pos (by rw [hop]; exact hi)]
        rfl
      rw [e]
      refine add_importrefs_append _ _ _ s1.imports _ ?_ hrest
      have := k1 hi
      simp only [add_importrefs, hdata, hidx, except_ok_bind]
      rw [this]
      rfl
    · have hi' : import_op inst.opcode = false := by simpa using hi
      have e : import_calls (i1 :: t.1) = import_calls t.1 := by
        unfold import_calls
        rw [List.filter_cons_of_neg (by rw [hop]; exact hi)]
      rw [e, ← k2 hi']
      exact hrest

end arc

end xsk

namespace xsk

namespace arc

/-- C37: for a `GetFunction` or an instruction of the call family
(`CallBuiltin`, `CallBuiltinMethod`, `ScriptFunctionCall`, `ScriptMethodCall`,
`ScriptThreadCall`, `ScriptMethodThreadCall`), `align_instruction` makes one
call of `add_importref` with the operands of the instruction and its `index` as
a `u32`, which is `index` itself below `2^32`; the ref is pushed last on the
refs of an entry of the import list. The instruction keeps its `index`. Its
4-byte operand slot lies at `import_slot`, four below the cursor the layout
leaves, and when the instruction is laid out at its `index` that slot is
strictly above the ref. Over the layout loop of a function the import list is
the result of these calls for the laid-out import instructions, in order, so
the `index` of each of them is among the refs of an entry. -/
theorem import_ref_position (ctx : context) (self : assembler) (inst : instruction)
    (r : instruction × assembler)
    (hop : import_op inst.opcode = true)
    (h : align_instruction ctx self inst = .ok r) :
    (inst.opcode = opcode.OP_GetFunction ∨ inst.opcode = opcode.OP_CallBuiltin ∨
      inst.opcode = opcode.OP_CallBuiltinMethod ∨ inst.opcode = opcode.OP_ScriptFunctionCall ∨
      inst.opcode = opcode.OP_ScriptMethodCall ∨ inst.opcode = opcode.OP_ScriptThreadCall ∨
      inst.opcode = opcode.OP_ScriptMethodThreadCall) ∧
    r.1.index = inst.index ∧
    add_importref inst.data (inst.index % 4294967296) self.imports = .ok r.2.imports ∧
    (∃ e, e ∈ r.2.imports ∧ e.refs.getLast? = some (inst.index % 4294967296)) ∧
    (inst.index < 4294967296 → inst.index % 4294967296 = inst.index) ∧
    r.2.script.pos = import_slot inst.opcode self.script.pos + 4 ∧
    (self.script.pos = inst.index → inst.index < import_slot inst.opcode inst.index) ∧
    (∀ index old is size acc s lay,
      layout_instructions ctx index old is size acc s = .ok lay →
      add_importrefs (import_calls lay.1) s.imports = .ok lay.2.2.2.imports ∧
      ∀ I, I ∈ lay.1 → import_op I.opcode = true →
        ∃ e, e ∈ lay.2.2.2.imports ∧ I.index % 4294967296 ∈ e.refs) := by
  obtain ⟨k1, -⟩ := align_instruction_imports _ _ _ _ h
  obtain ⟨i1, s1⟩ := r
  obtain ⟨h1, h2, -, -, h5, -⟩ := align_instruction_spec _ _ _ _ _ h
  have hop1 : import_op i1.opcode = true := by rw [h1]; exact hop
  obtain ⟨e1, e2⟩ := import_operands_end i1 self.script.pos hop1
  refine ⟨?_, h2, k1 hop, (add_importref_recorded _ _ _ _ (k1 hop)).2,
    fun hlt => Nat.mod_eq_of_lt hlt, ?_, ?_, ?_⟩
  · revert hop
    cases inst.opcode <;> simp [import_op]
  · show s1.script.pos = _
    rw [h5, e1, h1]
  · intro hp
    rw [← hp, ← h1]
    exact e2
  · intro index old is size acc s lay hlay
    have hl := layout_imports _ _ _ _ _ _ _ _ hlay
    refine ⟨hl, ?_⟩
    intro I hI hIop
    exact (add_importrefs_recorded _ _ _ hl).2 (I.data, I.index % 4294967296)
      (List.mem_map.2 ⟨I, List.mem_filter.2 ⟨hI, hIop⟩, rfl⟩)

/-- The function `[GetFunction f; ScriptFunctionCall f; Return]` laid out from
offset 65: the `GetFunction` at 65 records the ref 65 while its operand slot is
at 68, the call at 72 records 72, and the one import entry ends with the refs
65 and 72. -/
theorem import_ref_position_witness :
    ∃ r lay,
      align_instruction sample_context ((assembler.create sample_context 4096).seek 65)
        { opcode := opcode.OP_GetFunction, pos := ⟨1, 1⟩, index := 65, size := 0,
          data := ["", "f", "0", "0"] } = .ok r ∧
      r.2.imports = [{ space := "", name := "f", params := 0, flags := 0, refs := [65] }] ∧
      r.2.script.pos = 68 + 4 ∧
      layout_instructions sample_context 65 sample_calls.labels sample_calls.instructions 0 []
        ((assembler.create sample_context 4096).seek 65) = .ok lay ∧
      (lay.1.map fun i => i.index) = [65, 72, 80] ∧
      lay.2.2.2.imports =
        [{ space := "", name := "f", params := 0, flags := 0, refs := [65, 72] }] := by
  have hok : (align_instruction sample_context ((assembler.create sample_context 4096).seek 65)
      { opcode := opcode.OP_GetFunction, pos := ⟨1, 1⟩, index := 65, size := 0,
        data := ["", "f", "0", "0"] }).toBool = true := by rfl
  cases hrun : align_instruction sample_context ((assembler.create sample_context 4096).seek 65)
      { opcode := opcode.OP_GetFunction, pos := ⟨1, 1⟩, index := 65, size := 0,
        data := ["", "f", "0", "0"] } with
  | error e =>
    rw [hrun] at hok
    cases hok
  | ok r =>
    have hlok : (layout_instructions sample_context 65 sample_calls.labels
        sample_calls.instructions 0 []
        ((assembler.create sample_context 4096).seek 65)).toBool = true := by rfl
    cases hlay : layout_instructions sample_context 65 sample_calls.labels
        sample_calls.instructions 0 [] ((assembler.create sample_context 4096).seek 65) with
    | error e =>
      rw [hlay] at hlok
      cases hlok
    | ok lay =>
      obtain ⟨-, -, hadd, -, -, hpos, -, hall⟩ := import_ref_position sample_context
        ((assembler.create sample_context 4096).seek 65)
        { opcode := opcode.OP_GetFunction, pos := ⟨1, 1⟩, index := 65, size := 0,
          data := ["", "f", "0", "0"] } r rfl hrun
      obtain ⟨hl, -⟩ := hall _ _ _ _ _ _ _ hlay
      have e1 : (layout_instructions sample_context 65 sample_calls.labels
          sample_calls.instructions 0 []
          ((assembler.create sample_context 4096).seek 65)).toOption.map
          (fun r => r.1.map fun i => (i.opcode, i.data, i.index)) =
          some [(opcode.OP_GetFunction, ["", "f", "0", "0"], 65),
            (opcode.OP_ScriptFunctionCall, ["", "f", "0", "0"], 72),
            (opcode.OP_Return, [], 80)] := by rfl
      rw [hlay] at e1
      simp only [Except.toOption, Option.map_some', Option.some.injEq] at e1
      have ei : (lay.1.map fun i => i.index) = [65, 72, 80] := by
        have := congrArg (List.map fun t : opcode × List String × Nat => t.2.2) e1
        rw [List.map_map] at this
        exact this
      have ec : import_calls lay.1 = [(["", "f", "0", "0"], 65), (["", "f", "0", "0"], 72)] := by
        have hc : import_calls lay.1 =
            ((lay.1.map fun i => (i.opcode, i.data, i.index)).filter
              fun t => import_op t.1).map fun t => (t.2.1, t.2.2 % 4294967296) := by
          unfold import_calls
          rw [List.filter_map, List.map_map]
          rfl
        rw [hc, e1]
        rfl
      rw [ec] at hl
      have g1 : (Except.ok
          [{ space := "", name := "f", params := 0, flags := 0, refs := [65] }] :
          Except asm_error (List import_ref)) = .ok r.2.imports := hadd
      have g2 : (Except.ok
          [{ space := "", name := "f", params := 0, flags := 0, refs := [65, 72] }] :
          Except asm_error (List import_ref)) = .ok lay.2.2.2.imports := hl
      simp only [Except.ok.injEq] at g1 g2
      exact ⟨r, lay, rfl, g1.symm, hpos, rfl, ei, g2.symm⟩

end arc

end xsk
